import Mathlib

/-! # FAST mapping FTL of SimpleSSD: shallow embedding and verification

Embedding of `src/ftl/common/block_fast.cc` (per-block state) and
`src/ftl/fast_mapping.cc` (the FAST block-mapping engine).

Conventions of the embedding.

* Machine integers are natural numbers. Every quantity handled here (LPNs,
  block numbers, page indices, counters) stays far below the width of its
  C++ type in the configurations considered, so no wrap-around is modelled.
* A C++ `std::vector` indexed by a block number, a `Bitset` and a C array
  are functions on indices; the length is kept next to them
  (`pageCount`, `totalLogicalBlocks`, `totalPhysicalBlocks`).
* A `std::deque` is a list, head first.
* `panic`, a failing `assert`, `.value()` on an empty optional and an
  out-of-range logical block number coming from the host make the model
  return `none`.
-/

namespace SimpleSSD

/-! ## Bitset -/

/-- Modelled from the spec: the `Bitset` class of `util/bitset.hh`, which is
not part of the sources at hand. The spec calls `validBits` and `erasedBits`
a "bitset of length `pageCount`"; a bitset is a map from bit index to bit,
its length being stored in the owning block. -/
abbrev Bitset := Nat → Bool

namespace Bitset

/-- Bit `i` of the set (`Bitset::test`). -/
def test (b : Bitset) (i : Nat) : Bool := b i

/-- Set bit `i` (`Bitset::set(idx)`). -/
def set (b : Bitset) (i : Nat) : Bitset := fun j => if j = i then true else b j

/-- Clear bit `i` (`Bitset::reset(idx)`). -/
def reset (b : Bitset) (i : Nat) : Bitset := fun j => if j = i then false else b j

/-- Set all `n` bits of a bitset of length `n` (`Bitset::set()`). -/
def setAll (n : Nat) : Bitset := fun j => decide (j < n)

/-- Clear all bits (`Bitset::reset()`). -/
def resetAll : Bitset := fun _ => false

/-- Number of set bits among the first `n` (`Bitset::count`). -/
def count (n : Nat) (b : Bitset) : Nat := ((List.range n).filter b).length

end Bitset

/-! ## BlockFast -/

/-- State of one physical block (`class BlockFast`). The constructor fixes
`ioUnitInPage` to 1, so the cursor array `pNextWritePageIndex` has the single
entry kept here and the branches for other values are dead. -/
structure BlockFast where
  idx : Nat
  pageCount : Nat
  pNextWritePageIndex : Nat
  pValidBits : Bitset
  pErasedBits : Bitset
  pLPNs : Option (Nat → Nat)
  lastAccessed : Nat
  eraseCount : Nat

namespace BlockFast

/-- `BlockFast::erase`. -/
def erase (b : BlockFast) : BlockFast :=
  { b with
    pValidBits := Bitset.resetAll
    pErasedBits := Bitset.setAll b.pageCount
    pNextWritePageIndex := 0
    eraseCount := b.eraseCount + 1 }

/-- The constructor `BlockFast::BlockFast(blockIdx, count, createLPNs)`:
zeroed bitsets and LPN array, then `erase()`, then `eraseCount = 0`. -/
def new (blockIdx count : Nat) (createLPNs : Bool) : BlockFast :=
  { erase
      { idx := blockIdx
        pageCount := count
        pNextWritePageIndex := 0
        pValidBits := Bitset.resetAll
        pErasedBits := Bitset.resetAll
        pLPNs := if createLPNs then some (fun _ => 0) else none
        lastAccessed := 0
        eraseCount := 0 } with
    eraseCount := 0 }

def getBlockIndex (b : BlockFast) : Nat := b.idx

def getLastAccessedTime (b : BlockFast) : Nat := b.lastAccessed

def getEraseCount (b : BlockFast) : Nat := b.eraseCount

def getValidPageCount (b : BlockFast) : Nat := Bitset.count b.pageCount b.pValidBits

/-- Pages that are neither valid nor erased: `(~(valid | erased)).count()`. -/
def getDirtyPageCount (b : BlockFast) : Nat :=
  Bitset.count b.pageCount (fun i => !(b.pValidBits i || b.pErasedBits i))

def getNextWritePageIndex (b : BlockFast) : Nat := b.pNextWritePageIndex

def getErasedPageCount (b : BlockFast) : Nat := Bitset.count b.pageCount b.pErasedBits

/-- `BlockFast::getLPN`: asserts that the LPN array exists. -/
def getLPN (b : BlockFast) (pageIndex : Nat) : Option Nat :=
  match b.pLPNs with
  | some a => some (a pageIndex)
  | none => none

def isValid (b : BlockFast) (pageIndex : Nat) : Bool := b.pValidBits.test pageIndex

def isErased (b : BlockFast) (pageIndex : Nat) : Bool := b.pErasedBits.test pageIndex

def isCleanBlock (b : BlockFast) : Bool := b.getErasedPageCount == b.pageCount

/-- Modelled from the spec: `getPageInfo(i) → (lpn, valid, erased)` of the
block class used by `fast_mapping.cc`; `BlockFast` does not define it. It
"returns the stored LPN (meaningful only when `valid`), and the two status
bits". For a block created without LPN array the reported LPN is 0. -/
def getPageInfo (b : BlockFast) (pageIndex : Nat) : Nat × Bool × Bool :=
  ((match b.pLPNs with
    | some a => a pageIndex
    | none => 0),
   b.isValid pageIndex, b.isErased pageIndex)

/-- `BlockFast::read(pageIndex, idx, tick)`: the valid bit, and the block with
`lastAccessed` updated when the page is valid. An I/O unit index other than 0
is a panic. -/
def read (b : BlockFast) (pageIndex idx tick : Nat) : Option (Bool × BlockFast) :=
  if idx = 0 then
    if b.pValidBits.test pageIndex then
      some (true, { b with lastAccessed := tick })
    else
      some (false, b)
  else
    none

/-- `BlockFast::write(pageIndex, lpn, idx, tick)`. Writing a page whose erased
bit is clear is the panic "Write to non erased page"; the function returns
`true` whenever it returns, so the result is the new block. -/
def write (b : BlockFast) (pageIndex lpn idx tick : Nat) : Option BlockFast :=
  if idx = 0 then
    if b.pErasedBits.test pageIndex then
      some
        { b with
          lastAccessed := tick
          pErasedBits := b.pErasedBits.reset pageIndex
          pValidBits := b.pValidBits.set pageIndex
          pLPNs :=
            match b.pLPNs with
            | some a => some (fun j => if j = pageIndex then lpn else a j)
            | none => none
          pNextWritePageIndex := pageIndex + 1 }
    else
      none
  else
    none

/-- `BlockFast::invalidate(pageIndex, idx)`; `idx` is ignored by the source. -/
def invalidate (b : BlockFast) (pageIndex _idx : Nat) : BlockFast :=
  { b with pValidBits := b.pValidBits.reset pageIndex }

/-- The block invariant of the spec: no page is both valid and erased. -/
def NoValidErased (b : BlockFast) : Prop :=
  ∀ i, ¬ (b.isValid i = true ∧ b.isErased i = true)

end BlockFast

/-! ## FastMapping -/

/-- Overwrite entry `a` of a vector, array or map given as a function. -/
def upd {α : Type} (f : Nat → α) (a : Nat) (v : α) : Nat → α :=
  fun x => if x = a then v else f x

/-- `enum BlockType` of `FastMapping`. -/
inductive BlockType where
  | kBlockTypeData
  | kBlockTypeSW
  | kBlockTypeRW
  | kBlockTypeUnknown
  deriving DecidableEq, Repr

/-- The fields of `PAL::Request` the FTL fills in; the I/O flag bitmap is
always fully set by this FTL. -/
structure PalRequest where
  blockIndex : Nat
  pageIndex : Nat
  deriving DecidableEq, Repr

/-- One call made to the PAL, with the tick it was started at. -/
inductive PalOp where
  | read (req : PalRequest) (tick : Nat)
  | write (req : PalRequest) (tick : Nat)
  | erase (req : PalRequest) (tick : Nat)
  deriving DecidableEq, Repr

/-- The PAL timing model, an external collaborator: each operation maps the
request and its start tick to the tick at which it finishes. -/
structure PAL where
  read : PalRequest → Nat → Nat
  write : PalRequest → Nat → Nat
  erase : PalRequest → Nat → Nat

/-- The firmware latencies returned by `applyLatency(CPU::FTL__PAGE_MAPPING, _)`;
the CPU model is external, so they are parameters. -/
structure Latency where
  READ : Nat
  WRITE : Nat
  READ_INTERNAL : Nat
  WRITE_INTERNAL : Nat
  ERASE_INTERNAL : Nat

/-- The fields of `Parameter` used by the FAST mapping. -/
structure Parameter where
  totalPhysicalBlocks : Nat
  totalLogicalBlocks : Nat
  pagesInBlock : Nat

/-- State of `class FastMapping`. `palLog` records the calls made to the PAL,
oldest first. -/
structure FastMapping where
  param : Parameter
  pPAL : PAL
  cpu : Latency
  logicalToPhysicalBlockMapping : Nat → Option Nat
  physicalToLogicalBlockMapping : Nat → Option Nat
  physicalBlocks : Nat → BlockFast
  freeBlocks : List Nat
  RWlogMapping : Nat → Option (Nat × Nat)
  SWBlock : Option Nat
  RWBlocks : List Nat
  palLog : List PalOp

/-- The constant `kRWBlockCnt`. -/
def kRWBlockCnt : Nat := 6

/-- Remove consecutive duplicates (`std::unique` followed by `erase`). -/
def unique : List Nat → List Nat
  | [] => []
  | a :: rest =>
    match rest with
    | [] => [a]
    | b :: _ => if a = b then unique rest else a :: unique rest

namespace FastMapping

/-- The constructor `FastMapping::FastMapping`; it asserts
`totalPhysicalBlocks > 1 + kRWBlockCnt`. Blocks are created with an LPN array
(`ioUnitInPage` is 1). -/
def new (p : Parameter) (l : PAL) (c : Latency) : Option FastMapping :=
  if p.totalPhysicalBlocks > 1 + kRWBlockCnt then
    some
      { param := p
        pPAL := l
        cpu := c
        logicalToPhysicalBlockMapping := fun _ => none
        physicalToLogicalBlockMapping := fun _ => none
        physicalBlocks := fun i => BlockFast.new i p.pagesInBlock true
        freeBlocks :=
          (List.range (p.totalPhysicalBlocks - (kRWBlockCnt + 1))).map
            (fun i => kRWBlockCnt + 1 + i)
        RWlogMapping := fun _ => none
        SWBlock := some 0
        RWBlocks := (List.range kRWBlockCnt).map (fun i => 1 + i)
        palLog := [] }
  else
    none

def convertPageToBlock (s : FastMapping) (page_number : Nat) : Nat :=
  page_number / s.param.pagesInBlock

def convertPageToOffsetInBlock (s : FastMapping) (page_number : Nat) : Nat :=
  page_number % s.param.pagesInBlock

/-- `FastMapping::getFreeBlock`: the head of `freeBlocks`, which is popped; an
empty queue is the panic "No free block". -/
def getFreeBlock (s : FastMapping) : Option (Nat × FastMapping) :=
  match s.freeBlocks with
  | [] => none
  | ret :: rest => some (ret, { s with freeBlocks := rest })

/-- `FastMapping::eraseInternal`. The erased block is not returned to
`freeBlocks` (the wear-levelling code that did so is commented out). -/
def eraseInternal (s : FastMapping) (physicalBlockNum tick : Nat) (sendToPAL : Bool) :
    FastMapping × Nat :=
  let s1 : FastMapping :=
    { s with
      physicalBlocks :=
        upd s.physicalBlocks physicalBlockNum (s.physicalBlocks physicalBlockNum).erase }
  let req : PalRequest := { blockIndex := physicalBlockNum, pageIndex := 0 }
  let s2 : FastMapping :=
    if sendToPAL then { s1 with palLog := s1.palLog ++ [PalOp.erase req tick] } else s1
  let tick1 := if sendToPAL then s.pPAL.erase req tick else tick
  ({ s2 with
      physicalToLogicalBlockMapping :=
        upd s2.physicalToLogicalBlockMapping physicalBlockNum none },
    tick1 + s.cpu.ERASE_INTERNAL)

/-- `FastMapping::findValidPage`. The outer `none` is a failure (logical block
number outside the mapping vector, or the assertion of the RW branch); the
inner option is the boolean result together with the output parameters
`pbn`, `pageIdx` and `blockType` (`pBlock` is the block numbered `pbn`). -/
def findValidPage (s : FastMapping) (lpn : Nat) : Option (Option (Nat × Nat × BlockType)) :=
  let logicalBlockNumber := s.convertPageToBlock lpn
  if logicalBlockNumber < s.param.totalLogicalBlocks then
    match s.logicalToPhysicalBlockMapping logicalBlockNumber with
    | none => some none
    | some physicalBlockNumber =>
      if ((s.physicalBlocks physicalBlockNumber).getPageInfo
          (s.convertPageToOffsetInBlock lpn)).2.1 then
        some (some (physicalBlockNumber, s.convertPageToOffsetInBlock lpn,
          BlockType.kBlockTypeData))
      else
        let inSW : Option (Nat × Nat × BlockType) :=
          match s.SWBlock with
          | some sw =>
            let i := s.convertPageToOffsetInBlock lpn
            let info := (s.physicalBlocks sw).getPageInfo i
            if info.2.1 && info.1 == lpn then
              some (sw, i, BlockType.kBlockTypeSW)
            else
              none
          | none => none
        match inSW with
        | some r => some (some r)
        | none =>
          match s.RWlogMapping lpn with
          | some (pbn, i) =>
            let info := (s.physicalBlocks pbn).getPageInfo i
            if info.2.1 && info.1 == lpn then
              some (some (pbn, i, BlockType.kBlockTypeRW))
            else
              none
          | none => some none
  else
    none

/-- Issue a PAL read when `sendToPAL` holds: log it and return its finish
tick; otherwise the tick is unchanged. -/
def palRead (s : FastMapping) (req : PalRequest) (tick : Nat) (sendToPAL : Bool) :
    FastMapping × Nat :=
  if sendToPAL then
    ({ s with palLog := s.palLog ++ [PalOp.read req tick] }, s.pPAL.read req tick)
  else
    (s, tick)

/-- Issue a PAL write when `sendToPAL` holds. -/
def palWrite (s : FastMapping) (req : PalRequest) (tick : Nat) (sendToPAL : Bool) :
    FastMapping × Nat :=
  if sendToPAL then
    ({ s with palLog := s.palLog ++ [PalOp.write req tick] }, s.pPAL.write req tick)
  else
    (s, tick)

/-- `FastMapping::readInternal`. -/
def readInternal (s : FastMapping) (lpn tick : Nat) : Option (FastMapping × Nat) :=
  match s.findValidPage lpn with
  | none => none
  | some none => some (s, tick + s.cpu.READ_INTERNAL)
  | some (some (pbn, pageIdx, _)) =>
    match (s.physicalBlocks pbn).read pageIdx 0 tick with
    | none => none
    | some (_, b) =>
      let s1 : FastMapping := { s with physicalBlocks := upd s.physicalBlocks pbn b }
      let r := s1.palRead { blockIndex := pbn, pageIndex := pageIdx } tick true
      some (r.1, r.2 + s.cpu.READ_INTERNAL)

/-- `physicalBlocks[pbn].write(pageIndex, lpn, 0, tick)` on the state. -/
def writeBlock (s : FastMapping) (pbn pageIndex lpn tick : Nat) : Option FastMapping :=
  match (s.physicalBlocks pbn).write pageIndex lpn 0 tick with
  | none => none
  | some b => some { s with physicalBlocks := upd s.physicalBlocks pbn b }

/-- `Option`-valued map over a list, failing as soon as one element fails. -/
def mapOpt {α β : Type} (f : α → Option β) : List α → Option (List β)
  | [] => some []
  | x :: xs =>
    match f x with
    | none => none
    | some y =>
      match mapOpt f xs with
      | none => none
      | some ys => some (y :: ys)

/-- The page indices `0 .. pagesInBlock - 1` that are valid in block `pbn`. -/
def validPagesOf (s : FastMapping) (pbn : Nat) : List Nat :=
  (List.range s.param.pagesInBlock).filter (fun i => (s.physicalBlocks pbn).isValid i)

/-- RW merge, first loop: walk the pages of the victim; for every valid page
record its logical block number and remove its LPN from `RWlogMapping`. The
result is the vector `logicalBlocks` and the new `RWlogMapping`. -/
def mergeRWCollect (s : FastMapping) (logBlockPhyNum : Nat) :
    List Nat × (Nat → Option (Nat × Nat)) :=
  (List.range s.param.pagesInBlock).foldl
    (fun acc i =>
      let info := (s.physicalBlocks logBlockPhyNum).getPageInfo i
      if info.2.1 then
        (acc.1 ++ [s.convertPageToBlock info.1], upd acc.2 info.1 none)
      else
        acc)
    ([], s.RWlogMapping)

/-- RW merge, second loop: every logical block of the list gets a new physical
block from `freeBlocks`. The maps `lbnToNewPbn` and `lbnToOldPbn` are
`std::unordered_map`s read with `operator[]`, whose default value is 0. -/
def mergeRWAssign :
    List Nat → FastMapping → (Nat → Nat) → (Nat → Nat) →
      Option (FastMapping × (Nat → Nat) × (Nat → Nat))
  | [], s, lbnToNewPbn, lbnToOldPbn => some (s, lbnToNewPbn, lbnToOldPbn)
  | lbn :: rest, s, lbnToNewPbn, lbnToOldPbn =>
    match s.getFreeBlock with
    | none => none
    | some (newBlockPhyBlockNum, s1) =>
      match s1.logicalToPhysicalBlockMapping lbn with
      | none => none
      | some old =>
        mergeRWAssign rest
          { s1 with
            physicalToLogicalBlockMapping :=
              upd s1.physicalToLogicalBlockMapping newBlockPhyBlockNum (some lbn)
            logicalToPhysicalBlockMapping :=
              upd s1.logicalToPhysicalBlockMapping lbn (some newBlockPhyBlockNum) }
          (upd lbnToNewPbn lbn newBlockPhyBlockNum)
          (upd lbnToOldPbn lbn old)

/-- The three request queues built by `mergeLogBlock`. An erase request is
used for its block index only. -/
structure MergePlan where
  readRequests : List PalRequest
  writeRequests : List (PalRequest × Nat)
  eraseRequests : List Nat

/-- The RW branch of `mergeLogBlock` up to the point where the queues are
complete. -/
def mergePlanRW (s : FastMapping) (logBlockPhyNum : Nat) : Option (FastMapping × MergePlan) :=
  let collected := s.mergeRWCollect logBlockPhyNum
  let logicalBlocks := unique (collected.1.insertionSort (fun a b => a ≤ b))
  let s0 : FastMapping := { s with RWlogMapping := collected.2 }
  match mergeRWAssign logicalBlocks s0 (fun _ => 0) (fun _ => 0) with
  | none => none
  | some (s1, lbnToNewPbn, lbnToOldPbn) =>
    let dataReads : List PalRequest :=
      logicalBlocks.flatMap (fun lbn =>
        (s1.validPagesOf (lbnToOldPbn lbn)).map (fun i =>
          { blockIndex := lbnToOldPbn lbn, pageIndex := i }))
    let dataWrites : List (PalRequest × Nat) :=
      logicalBlocks.flatMap (fun lbn =>
        (s1.validPagesOf (lbnToOldPbn lbn)).map (fun i =>
          ({ blockIndex := lbnToNewPbn lbn, pageIndex := i },
            lbn * s1.param.pagesInBlock + i)))
    let dataErases : List Nat := logicalBlocks.map lbnToOldPbn
    let logReads : List PalRequest :=
      (s1.validPagesOf logBlockPhyNum).map (fun i =>
        { blockIndex := logBlockPhyNum, pageIndex := i })
    match
      mapOpt
        (fun i =>
          match (s1.physicalBlocks logBlockPhyNum).getLPN i with
          | none => none
          | some lpn =>
            some
              (({ blockIndex := lbnToNewPbn (s1.convertPageToBlock lpn),
                  pageIndex := s1.convertPageToOffsetInBlock lpn } : PalRequest),
                lpn))
        (s1.validPagesOf logBlockPhyNum) with
    | none => none
    | some logWrites =>
      match s1.getFreeBlock with
      | none => none
      | some (newBlockPhyBlockNum, s2) =>
        some
          ({ s2 with
              physicalToLogicalBlockMapping :=
                upd s2.physicalToLogicalBlockMapping newBlockPhyBlockNum none },
            { readRequests := dataReads ++ logReads
              writeRequests := dataWrites ++ logWrites
              eraseRequests := dataErases ++ [logBlockPhyNum] })

/-- The SW branch of `mergeLogBlock` up to the point where the queues are
complete. The parameter `additionalPage` is not used by the source. -/
def mergePlanSW (s : FastMapping) (logBlockPhyNum : Nat) (_additionalPage : Option Nat) :
    Option (FastMapping × MergePlan) :=
  match s.physicalToLogicalBlockMapping logBlockPhyNum with
  | none => none
  | some SWOwner =>
    match s.logicalToPhysicalBlockMapping SWOwner with
    | none => none
    | some oldDataBlockPbn =>
      if (s.physicalBlocks logBlockPhyNum).getValidPageCount = s.param.pagesInBlock then
        some
          ({ s with
              logicalToPhysicalBlockMapping :=
                upd s.logicalToPhysicalBlockMapping SWOwner (some logBlockPhyNum) },
            { readRequests := []
              writeRequests := []
              eraseRequests := [oldDataBlockPbn] })
      else
        match s.getFreeBlock with
        | none => none
        | some (newDataBlockPhyNum, s1) =>
          let s2 : FastMapping :=
            { s1 with
              physicalToLogicalBlockMapping :=
                upd s1.physicalToLogicalBlockMapping newDataBlockPhyNum (some SWOwner)
              logicalToPhysicalBlockMapping :=
                upd s1.logicalToPhysicalBlockMapping SWOwner (some newDataBlockPhyNum) }
          let pages : List Nat :=
            (List.range s.param.pagesInBlock).filter (fun i =>
              ((s2.physicalBlocks logBlockPhyNum).getPageInfo i).2.1
                || ((s2.physicalBlocks oldDataBlockPbn).getPageInfo i).2.1)
          let reads : List PalRequest :=
            pages.map (fun i =>
              { blockIndex :=
                  if ((s2.physicalBlocks logBlockPhyNum).getPageInfo i).2.1 then
                    logBlockPhyNum
                  else
                    oldDataBlockPbn
                pageIndex := i })
          let writes : List (PalRequest × Nat) :=
            pages.map (fun i =>
              ({ blockIndex := newDataBlockPhyNum, pageIndex := i },
                SWOwner * s.param.pagesInBlock + i))
          match s2.getFreeBlock with
          | none => none
          | some (newSW, s3) =>
            some
              ({ s3 with
                  SWBlock := some newSW
                  physicalToLogicalBlockMapping :=
                    upd s3.physicalToLogicalBlockMapping newSW none },
                { readRequests := reads
                  writeRequests := writes
                  eraseRequests := [oldDataBlockPbn, logBlockPhyNum] })

/-- The read phase of `mergeLogBlock`: every read starts at `tick`. -/
def mergeReads (tick : Nat) (sendToPAL : Bool) :
    List PalRequest → FastMapping → Nat → Option (FastMapping × Nat)
  | [], s, readFinishAt => some (s, readFinishAt)
  | req :: rest, s, readFinishAt =>
    match (s.physicalBlocks req.blockIndex).read req.pageIndex 0 tick with
    | none => none
    | some (_, b) =>
      let s1 : FastMapping := { s with physicalBlocks := upd s.physicalBlocks req.blockIndex b }
      let r := s1.palRead req tick sendToPAL
      mergeReads tick sendToPAL rest r.1 (if sendToPAL then max readFinishAt r.2 else readFinishAt)

/-- The write phase of `mergeLogBlock`: every write starts at `readFinishAt`. -/
def mergeWrites (readFinishAt : Nat) (sendToPAL : Bool) :
    List (PalRequest × Nat) → FastMapping → Nat → Option (FastMapping × Nat)
  | [], s, writeFinishAt => some (s, writeFinishAt)
  | (req, lpn) :: rest, s, writeFinishAt =>
    match s.writeBlock req.blockIndex req.pageIndex lpn readFinishAt with
    | none => none
    | some s1 =>
      let r := s1.palWrite req readFinishAt sendToPAL
      mergeWrites readFinishAt sendToPAL rest r.1
        (if sendToPAL then max writeFinishAt r.2 else writeFinishAt)

/-- The erase phase of `mergeLogBlock`: every erase starts at `readFinishAt`. -/
def mergeErases (readFinishAt : Nat) (sendToPAL : Bool) :
    List Nat → FastMapping → Nat → FastMapping × Nat
  | [], s, eraseFinishAt => (s, eraseFinishAt)
  | blockIndex :: rest, s, eraseFinishAt =>
    let r := s.eraseInternal blockIndex readFinishAt sendToPAL
    mergeErases readFinishAt sendToPAL rest r.1 (max eraseFinishAt r.2)

/-- `FastMapping::mergeLogBlock`: build the queues, then run the read phase,
the write phase and the erase phase; the new tick is
`max(writeFinishAt, eraseFinishAt)`. Any block type other than RW and SW is
`assert(0)`, and so is an additional page in the RW branch. -/
def mergeLogBlock (s : FastMapping) (logBlockPhyNum : Nat) (blockType : BlockType)
    (additionalPage : Option Nat) (tick : Nat) (sendToPAL : Bool) :
    Option (FastMapping × Nat) :=
  let plan : Option (FastMapping × MergePlan) :=
    match blockType with
    | BlockType.kBlockTypeRW =>
      if additionalPage.isSome then none else s.mergePlanRW logBlockPhyNum
    | BlockType.kBlockTypeSW => s.mergePlanSW logBlockPhyNum additionalPage
    | _ => none
  match plan with
  | none => none
  | some (s1, p) =>
    match mergeReads tick sendToPAL p.readRequests s1 tick with
    | none => none
    | some (s2, readFinishAt) =>
      match mergeWrites readFinishAt sendToPAL p.writeRequests s2 readFinishAt with
      | none => none
      | some (s3, writeFinishAt) =>
        let r := mergeErases readFinishAt sendToPAL p.eraseRequests s3 readFinishAt
        some (r.1, max writeFinishAt r.2)

/-- `writeInternal`, first step: create the logical-to-physical block mapping
of the logical block if there is none. -/
def writeEnsureMapping (s : FastMapping) (logicalBlockNumber : Nat) : Option FastMapping :=
  match s.logicalToPhysicalBlockMapping logicalBlockNumber with
  | some _ => some s
  | none =>
    match s.getFreeBlock with
    | none => none
    | some (pbn, s1) =>
      some
        { s1 with
          logicalToPhysicalBlockMapping :=
            upd s1.logicalToPhysicalBlockMapping logicalBlockNumber (some pbn)
          physicalToLogicalBlockMapping :=
            upd s1.physicalToLogicalBlockMapping pbn (some logicalBlockNumber) }

/-- `writeInternal`, no valid page: write into the data block. The PAL write
starts at `finishedAt`, which is the input tick here. -/
def writeFresh (s : FastMapping) (lpn tick : Nat) (sendToPAL : Bool) :
    Option (FastMapping × Nat) :=
  match s.logicalToPhysicalBlockMapping (s.convertPageToBlock lpn) with
  | none => none
  | some physicalBlockNumber =>
    let pageIndex := s.convertPageToOffsetInBlock lpn
    match s.writeBlock physicalBlockNumber pageIndex lpn tick with
    | none => none
    | some s1 =>
      some (s1.palWrite { blockIndex := physicalBlockNumber, pageIndex := pageIndex } tick
        sendToPAL)

/-- `writeInternal`, the old copy found by `findValidPage` is invalidated, and
its `RWlogMapping` entry removed when it was in an RW log block. -/
def writeInvalidate (s : FastMapping) (lpn tick physicalBlockNumber pageIndex : Nat)
    (blockType : BlockType) : FastMapping :=
  let s1 : FastMapping :=
    { s with
      physicalBlocks :=
        upd s.physicalBlocks physicalBlockNumber
          ((s.physicalBlocks physicalBlockNumber).invalidate pageIndex tick) }
  if blockType = BlockType.kBlockTypeRW then
    { s1 with RWlogMapping := upd s1.RWlogMapping lpn none }
  else
    s1

/-- `writeInternal`, `pageOffset == 0`: the page starts a logical block and
goes to page 0 of the SW log block, which is merged and replaced first when
it is not clean. The result is the state and `finishedAt`. -/
def writeSWFirst (s : FastMapping) (lpn tick : Nat) (sendToPAL : Bool) :
    Option (FastMapping × Nat) :=
  match s.SWBlock with
  | none => none
  | some sw =>
    let prepared : Option (FastMapping × Nat) :=
      if (s.physicalBlocks sw).isCleanBlock then
        some (s, tick)
      else
        match s.mergeLogBlock sw BlockType.kBlockTypeSW none tick sendToPAL with
        | none => none
        | some (s1, startTick) =>
          match s1.getFreeBlock with
          | none => none
          | some (b, s2) => some ({ s2 with SWBlock := some b }, max tick startTick)
    match prepared with
    | none => none
    | some (s3, finishedAt) =>
      match s3.SWBlock with
      | none => none
      | some sw1 =>
        match s3.writeBlock sw1 0 lpn tick with
        | none => none
        | some s4 =>
          let s5 : FastMapping :=
            { s4 with
              physicalToLogicalBlockMapping :=
                upd s4.physicalToLogicalBlockMapping sw1 (some (s.convertPageToBlock lpn)) }
          let r := s5.palWrite { blockIndex := sw1, pageIndex := 0 } tick sendToPAL
          some (r.1, if sendToPAL then max finishedAt r.2 else finishedAt)

/-- `writeInternal`, `pageOffset != 0` and the SW log block is owned by the
logical block: write into page `pageOffset` of the SW block when that page is
erased, otherwise merge the SW block, passing `pageOffset` as additional
page. The source does nothing more after this merge. -/
def writeSWAppend (s : FastMapping) (sw lpn tick : Nat) (sendToPAL : Bool) :
    Option (FastMapping × Nat) :=
  let pageOffset := s.convertPageToOffsetInBlock lpn
  if ((s.physicalBlocks sw).getPageInfo pageOffset).2.2 then
    match s.writeBlock sw pageOffset lpn tick with
    | none => none
    | some s1 =>
      let r := s1.palWrite { blockIndex := sw, pageIndex := pageOffset } tick sendToPAL
      some (r.1, if sendToPAL then max tick r.2 else tick)
  else
    match s.mergeLogBlock sw BlockType.kBlockTypeSW (some pageOffset) tick sendToPAL with
    | none => none
    | some (s1, startTick) => some (s1, max tick startTick)

/-- `writeInternal`, `pageOffset != 0` and the SW log block has no owner or
another owner: write into the first RW log block that still has an erased
page; when there is none, merge the RW block at the front of `RWBlocks` and
append a block taken from `freeBlocks`. -/
def writeRW (s : FastMapping) (lpn tick : Nat) (sendToPAL : Bool) :
    Option (FastMapping × Nat) :=
  let prepared : Option (FastMapping × Nat × Nat) :=
    match s.RWBlocks.find? (fun rwBlockNum =>
        (s.physicalBlocks rwBlockNum).getErasedPageCount != 0) with
    | some freeRwBlockNumber => some (s, freeRwBlockNumber, tick)
    | none =>
      match s.RWBlocks with
      | [] => none
      | victimRwBlock :: rest =>
        match
          ({ s with RWBlocks := rest } : FastMapping).mergeLogBlock victimRwBlock
            BlockType.kBlockTypeRW none tick sendToPAL with
        | none => none
        | some (s1, startTick) =>
          match s1.getFreeBlock with
          | none => none
          | some (freeRwBlockNumber, s2) =>
            some
              ({ s2 with
                  RWBlocks := s2.RWBlocks ++ [freeRwBlockNumber]
                  physicalToLogicalBlockMapping :=
                    upd s2.physicalToLogicalBlockMapping freeRwBlockNumber none },
                freeRwBlockNumber, max tick startTick)
  match prepared with
  | none => none
  | some (s3, freeRwBlockNumber, finishedAt) =>
    let nextFreePage := (s3.physicalBlocks freeRwBlockNumber).getNextWritePageIndex
    match s3.writeBlock freeRwBlockNumber nextFreePage lpn tick with
    | none => none
    | some s4 =>
      let s5 : FastMapping :=
        { s4 with
          RWlogMapping := upd s4.RWlogMapping lpn (some (freeRwBlockNumber, nextFreePage)) }
      let r :=
        s5.palWrite { blockIndex := freeRwBlockNumber, pageIndex := nextFreePage } tick sendToPAL
      some (r.1, if sendToPAL then max finishedAt r.2 else finishedAt)

/-- `writeInternal`, a valid page exists: invalidate it, then route the new
copy to the SW log block or to an RW log block. -/
def writeOverwrite (s : FastMapping) (lpn tick : Nat) (sendToPAL : Bool)
    (physicalBlockNumber pageIndex : Nat) (blockType : BlockType) :
    Option (FastMapping × Nat) :=
  let s1 := s.writeInvalidate lpn tick physicalBlockNumber pageIndex blockType
  if s1.convertPageToOffsetInBlock lpn = 0 then
    s1.writeSWFirst lpn tick sendToPAL
  else
    match s1.SWBlock with
    | none => none
    | some sw =>
      if s1.physicalToLogicalBlockMapping sw = some (s1.convertPageToBlock lpn) then
        s1.writeSWAppend sw lpn tick sendToPAL
      else
        s1.writeRW lpn tick sendToPAL

/-- `FastMapping::writeInternal(req, tick, sendToPAL)`; of the request only
`req.lpn` matters. The result is the new state and the new tick. -/
def writeInternal (s : FastMapping) (lpn tick : Nat) (sendToPAL : Bool) :
    Option (FastMapping × Nat) :=
  let logicalBlockNumber := s.convertPageToBlock lpn
  if logicalBlockNumber < s.param.totalLogicalBlocks then
    match s.writeEnsureMapping logicalBlockNumber with
    | none => none
    | some s1 =>
      let written : Option (FastMapping × Nat) :=
        match s1.findValidPage lpn with
        | none => none
        | some none => s1.writeFresh lpn tick sendToPAL
        | some (some (physicalBlockNumber, pageIndex, blockType)) =>
          s1.writeOverwrite lpn tick sendToPAL physicalBlockNumber pageIndex blockType
      match written with
      | none => none
      | some (s2, finishedAt) => some (s2, finishedAt + s.cpu.WRITE_INTERNAL)
  else
    none

/-- A sequence of `writeInternal` calls for the given LPNs, each started at
tick 0 without PAL, as the warm-up does. -/
def writeAll : List Nat → FastMapping → Option FastMapping
  | [], s => some s
  | lpn :: rest, s =>
    match s.writeInternal lpn 0 false with
    | none => none
    | some (s1, _) => writeAll rest s1

end FastMapping

end SimpleSSD

namespace SimpleSSD

namespace FastMapping

/-- The lookup procedure in the words of the spec (§4.3), to be compared with
`findValidPage`: with `lbn = lpn / pagesInBlock` and `off = lpn mod pagesInBlock`,
NOT-FOUND if `L2P[lbn]` is unmapped; else `(L2P[lbn], off, DATA)` if that page
is valid; else `(SWBlock, off, SW)` if an SW block exists and its page `off` is
valid and stores `lpn`; else the recorded `(pbn, pageIdx, RW)` if `RWlogMap`
contains `lpn`; else NOT-FOUND. -/
def findValidPageSpec (s : FastMapping) (lpn : Nat) : Option (Nat × Nat × BlockType) :=
  let lbn := lpn / s.param.pagesInBlock
  let off := lpn % s.param.pagesInBlock
  match s.logicalToPhysicalBlockMapping lbn with
  | none => none
  | some pbn =>
    let recorded : Option (Nat × Nat × BlockType) :=
      match s.RWlogMapping lpn with
      | some (rwPbn, pageIdx) => some (rwPbn, pageIdx, BlockType.kBlockTypeRW)
      | none => none
    if (s.physicalBlocks pbn).isValid off then
      some (pbn, off, BlockType.kBlockTypeData)
    else
      match s.SWBlock with
      | some sw =>
        if (s.physicalBlocks sw).isValid off ∧ ((s.physicalBlocks sw).getPageInfo off).1 = lpn then
          some (sw, off, BlockType.kBlockTypeSW)
        else
          recorded
      | none => recorded

/-! ## States reachable from the constructor, and the invariant -/

/-- The states the device can be in: the constructed device, and every state
obtained from one of them by a `writeInternal` or `readInternal` call that
returns. -/
inductive Reachable : FastMapping → Prop where
  | init (p : Parameter) (l : PAL) (c : Latency) (s : FastMapping) :
      FastMapping.new p l c = some s → Reachable s
  | write (s : FastMapping) (lpn tick : Nat) (sendToPAL : Bool) (s1 : FastMapping) (tick1 : Nat) :
      Reachable s → s.writeInternal lpn tick sendToPAL = some (s1, tick1) → Reachable s1
  | read (s : FastMapping) (lpn tick : Nat) (s1 : FastMapping) (tick1 : Nat) :
      Reachable s → s.readInternal lpn tick = some (s1, tick1) → Reachable s1

/-- Valid bit of page `i` of physical block `b`. -/
def vbit (s : FastMapping) (b i : Nat) : Bool := (s.physicalBlocks b).isValid i

/-- Erased bit of page `i` of physical block `b`. -/
def ebit (s : FastMapping) (b i : Nat) : Bool := (s.physicalBlocks b).isErased i

/-- LPN stored in page `i` of physical block `b`. -/
def lpnAt (s : FastMapping) (b i : Nat) : Nat := ((s.physicalBlocks b).getPageInfo i).1

/-- Write cursor of physical block `b`. -/
def curs (s : FastMapping) (b : Nat) : Nat := (s.physicalBlocks b).getNextWritePageIndex

/-- No valid page of the device stores the LPN. -/
def NoCopy (s : FastMapping) (lpn : Nat) : Prop :=
  ∀ b i, s.vbit b i = true → s.lpnAt b i ≠ lpn

/-- The invariant of the FAST mapping. `c` is the number of the first block
that was never taken from `freeBlocks`: the free blocks are `c, c+1, ...`, all
blocks in use are below `c`. -/
structure InvC (s : FastMapping) (c : Nat) : Prop where
  /-- every block has `pagesInBlock` pages and an LPN array -/
  blk : ∀ b, (s.physicalBlocks b).pageCount = s.param.pagesInBlock ∧
    (s.physicalBlocks b).pLPNs.isSome = true
  /-- a valid page is a page of the block and is not erased -/
  bits : ∀ b i, s.vbit b i = true → i < s.param.pagesInBlock ∧ s.ebit b i = false
  /-- an erased page is a page of the block -/
  erasedLt : ∀ b i, s.ebit b i = true → i < s.param.pagesInBlock
  free : ∃ n, s.freeBlocks = List.range' c n
  l2pLt : ∀ a p, s.logicalToPhysicalBlockMapping a = some p → p < c
  swLt : ∀ sw, s.SWBlock = some sw → sw < c
  rwLt : ∀ b, b ∈ s.RWBlocks → b < c
  rwNodup : s.RWBlocks.Nodup
  swRW : ∀ sw, s.SWBlock = some sw → sw ∉ s.RWBlocks
  l2pInj : ∀ a a1 p, s.logicalToPhysicalBlockMapping a = some p →
    s.logicalToPhysicalBlockMapping a1 = some p → a = a1
  l2pRW : ∀ a p, s.logicalToPhysicalBlockMapping a = some p → p ∉ s.RWBlocks
  l2pSW : ∀ a p, s.logicalToPhysicalBlockMapping a = some p → s.SWBlock ≠ some p
  /-- a block that is no data block, not the SW block and no RW block is clean -/
  clean : ∀ b, (∀ a, s.logicalToPhysicalBlockMapping a ≠ some b) → s.SWBlock ≠ some b →
    b ∉ s.RWBlocks → (∀ i, i < s.param.pagesInBlock → s.ebit b i = true) ∧ s.curs b = 0
  /-- a valid page of a data block stores the LPN of its position -/
  data : ∀ a p i, s.logicalToPhysicalBlockMapping a = some p → s.vbit p i = true →
    s.lpnAt p i = a * s.param.pagesInBlock + i
  /-- an SW block with a written page has an owner with a data block, and its
  valid pages store the LPNs of the owner -/
  sw : ∀ sw i, s.SWBlock = some sw → i < s.param.pagesInBlock → s.ebit sw i = false →
    ∃ o, s.physicalToLogicalBlockMapping sw = some o ∧
      (s.logicalToPhysicalBlockMapping o).isSome = true ∧
      (s.vbit sw i = true → s.lpnAt sw i = o * s.param.pagesInBlock + i)
  /-- an entry of `RWlogMapping` points to a valid page of an RW block that
  stores the LPN -/
  rwmap : ∀ l b i, s.RWlogMapping l = some (b, i) →
    b ∈ s.RWBlocks ∧ s.vbit b i = true ∧ s.lpnAt b i = l
  /-- a valid page of an RW block is recorded in `RWlogMapping` -/
  rwloc : ∀ b i, b ∈ s.RWBlocks → s.vbit b i = true →
    s.RWlogMapping (s.lpnAt b i) = some (b, i) ∧
      (s.logicalToPhysicalBlockMapping (s.lpnAt b i / s.param.pagesInBlock)).isSome = true
  /-- RW blocks are filled in page order: the erased pages are those from the
  cursor on -/
  rwseq : ∀ b i, b ∈ s.RWBlocks → i < s.param.pagesInBlock →
    (s.ebit b i = true ↔ s.curs b ≤ i)
  /-- no LPN is stored in two valid pages -/
  one : ∀ b i b1 i1, s.vbit b i = true → s.vbit b1 i1 = true → s.lpnAt b i = s.lpnAt b1 i1 →
    b = b1 ∧ i = i1

/-- Two states agree on everything the invariant talks about: the mapping
tables, the queues and, for every block, page count, bits, stored LPNs and
cursor. They may differ in `lastAccessed`, in the PAL log and the like. -/
structure SameCore (s s1 : FastMapping) : Prop where
  param : s1.param = s.param
  l2p : s1.logicalToPhysicalBlockMapping = s.logicalToPhysicalBlockMapping
  p2l : s1.physicalToLogicalBlockMapping = s.physicalToLogicalBlockMapping
  free : s1.freeBlocks = s.freeBlocks
  rwmap : s1.RWlogMapping = s.RWlogMapping
  sw : s1.SWBlock = s.SWBlock
  rw : s1.RWBlocks = s.RWBlocks
  vbit : s1.vbit = s.vbit
  ebit : s1.ebit = s.ebit
  lpnAt : s1.lpnAt = s.lpnAt
  curs : s1.curs = s.curs
  pageCount : ∀ b, (s1.physicalBlocks b).pageCount = (s.physicalBlocks b).pageCount
  hasLPNs : ∀ b, (s1.physicalBlocks b).pLPNs.isSome = (s.physicalBlocks b).pLPNs.isSome

/-- The invariant, for some boundary between used and free blocks. -/
def Inv (s : FastMapping) : Prop := ∃ c, InvC s c

end FastMapping

end SimpleSSD

namespace SimpleSSD

/-! ## A small device for concrete runs

The configuration of the boundary scenarios of the spec: 4 pages per block,
4 logical and 16 physical blocks. -/

/-- Parameters of the example device. -/
def exampleParam : Parameter :=
  { totalPhysicalBlocks := 16, totalLogicalBlocks := 4, pagesInBlock := 4 }

/-- A PAL with constant latencies, for the example device. -/
def examplePAL : PAL :=
  { read := fun _ t => t + 10, write := fun _ t => t + 100, erase := fun _ t => t + 1000 }

/-- Firmware latencies of the example device. -/
def exampleLatency : Latency :=
  { READ := 1, WRITE := 1, READ_INTERNAL := 2, WRITE_INTERNAL := 3, ERASE_INTERNAL := 5 }

/-- The example device after writing the given LPNs in order, or `none` when
one of the writes fails. -/
def exampleRun (lpns : List Nat) : Option FastMapping :=
  match FastMapping.new exampleParam examplePAL exampleLatency with
  | none => none
  | some s => FastMapping.writeAll lpns s

/-- The state of the example device after a run of writes that succeeds. -/
def exampleState (lpns : List Nat) (h : (exampleRun lpns).isSome = true) : FastMapping :=
  (exampleRun lpns).get h

end SimpleSSD

namespace SimpleSSD

namespace FastMapping

/-! ## Predicates for the write cases and the merges -/

/-- Every page of a data block that is neither erased nor valid (its LPN was
overwritten) has a valid copy of its LPN in some block, unless the LPN is
exempted by `X`. -/
def DataBacked (s : FastMapping) (X : Nat → Prop) : Prop :=
  ∀ a p i, s.logicalToPhysicalBlockMapping a = some p → i < s.param.pagesInBlock →
    s.ebit p i = false → s.vbit p i = false →
    X (a * s.param.pagesInBlock + i) ∨
      ∃ b j, s.vbit b j = true ∧ s.lpnAt b j = a * s.param.pagesInBlock + i

/-- Further invariants of the reachable states: there is an SW log block,
there are `kRWBlockCnt` RW log blocks, and overwritten pages of data blocks
have a valid copy. -/
structure InvX (s : FastMapping) : Prop where
  swSome : s.SWBlock.isSome = true
  rwLen : s.RWBlocks.length = kRWBlockCnt
  backed : DataBacked s (fun _ => False)

/-- The effect of a copying merge (the full merge of the SW block, the merge
of an RW block) from state `s` to state `S`. `c` is the first free block of
`s`, `G` the merged log block, `lbns` the logical blocks that get a new data
block, `N a` the new data block of `a`, `er` the erased blocks, `T b i` says
that page `i` of block `b` is the target of a copy, and `c + k` is the one
block taken in addition to the `k` new data blocks. -/
structure CopyMerge (s S : FastMapping) (c k G : Nat) (lbns : List Nat) (N : Nat → Nat)
    (er : List Nat) (T : Nat → Nat → Prop) : Prop where
  hN : ∀ a, a ∈ lbns → c ≤ N a ∧ N a < c + k
  hNinj : ∀ a, a ∈ lbns → ∀ a1, a1 ∈ lbns → N a = N a1 → a = a1
  hD : ∀ a, a ∈ lbns → ∃ old, s.logicalToPhysicalBlockMapping a = some old ∧ old ∈ er
  her : ∀ b, b ∈ er → b = G ∨ ∃ a, a ∈ lbns ∧ s.logicalToPhysicalBlockMapping a = some b
  hGer : G ∈ er
  hparam : S.param = s.param
  hl2p : ∀ a, S.logicalToPhysicalBlockMapping a =
    if a ∈ lbns then some (N a) else s.logicalToPhysicalBlockMapping a
  hp2l : ∀ b, b ∉ er → b < c →
    S.physicalToLogicalBlockMapping b = s.physicalToLogicalBlockMapping b
  hp2lN : ∀ a, a ∈ lbns → S.physicalToLogicalBlockMapping (N a) = some a
  hp2lE : ∀ b, b ∈ er → S.physicalToLogicalBlockMapping b = none
  hp2lX : S.physicalToLogicalBlockMapping (c + k) = none
  hfree : ∃ n, s.freeBlocks = List.range' c (k + 1 + n) ∧
    S.freeBlocks = List.range' (c + k + 1) n
  hrwmap1 : ∀ l b j, S.RWlogMapping l = some (b, j) → s.RWlogMapping l = some (b, j) ∧ b ≠ G
  hrwmap2 : ∀ l b j, s.RWlogMapping l = some (b, j) → b ≠ G → S.RWlogMapping l = some (b, j)
  hV : ∀ b i, S.vbit b i = true ↔ (b ∉ er ∧ (s.vbit b i = true ∨ T b i))
  hE : ∀ b i, S.ebit b i = true ↔
    ((b ∈ er ∧ i < s.param.pagesInBlock) ∨ (b ∉ er ∧ s.ebit b i = true ∧ ¬ T b i))
  hT : ∀ b i, T b i → s.ebit b i = true ∧ ∃ a, a ∈ lbns ∧ b = N a ∧
    S.lpnAt b i = a * s.param.pagesInBlock + i ∧
    ∃ b0, b0 ∈ er ∧ ∃ i0, s.vbit b0 i0 = true ∧
      s.lpnAt b0 i0 = a * s.param.pagesInBlock + i
  hL : ∀ b i, ¬ T b i → S.lpnAt b i = s.lpnAt b i
  hC0 : ∀ b, b ∈ er → S.curs b = 0
  hC : ∀ b, b ∉ er → (∀ i, ¬ T b i) → S.curs b = s.curs b
  hblk : ∀ b, (S.physicalBlocks b).pageCount = s.param.pagesInBlock ∧
    (S.physicalBlocks b).pLPNs.isSome = true
  hcopy : ∀ b i, b ∈ er → s.vbit b i = true →
    s.lpnAt b i / s.param.pagesInBlock ∈ lbns ∧
      T (N (s.lpnAt b i / s.param.pagesInBlock)) (s.lpnAt b i % s.param.pagesInBlock)

/-- The states in which `writeInternal` calls `mergeLogBlock`: a reachable
state, or a reachable state after the invalidation of the copy that the lookup
found for the LPN being written. -/
inductive AtMerge : FastMapping → Prop where
  | reachable (s : FastMapping) : Reachable s → AtMerge s
  | invalidated (s : FastMapping) (lpn tick b i : Nat) (k : BlockType) :
      Reachable s → s.findValidPage lpn = some (some (b, i, k)) →
      AtMerge (s.writeInvalidate lpn tick b i k)

end FastMapping

end SimpleSSD

namespace SimpleSSD

namespace FastMapping

/-- The three phases of `mergeLogBlock` run on a plan: reads, then writes,
then erases; the new tick is `max(writeFinishAt, eraseFinishAt)`. -/
def mergeRun (plan : Option (FastMapping × MergePlan)) (tick : Nat) (sendToPAL : Bool) :
    Option (FastMapping × Nat) :=
  match plan with
  | none => none
  | some (s1, p) =>
    match mergeReads tick sendToPAL p.readRequests s1 tick with
    | none => none
    | some (s2, readFinishAt) =>
      match mergeWrites readFinishAt sendToPAL p.writeRequests s2 readFinishAt with
      | none => none
      | some (s3, writeFinishAt) =>
        let r := mergeErases readFinishAt sendToPAL p.eraseRequests s3 readFinishAt
        some (r.1, max writeFinishAt r.2)

/-- The full-copy branch of the SW merge plan (the `else` of the switching
test in `mergeLogBlock`), for the owner and the old data block given. -/
def mergePlanSWFull (s : FastMapping) (logBlockPhyNum SWOwner oldDataBlockPbn : Nat) :
    Option (FastMapping × MergePlan) :=
  match s.getFreeBlock with
  | none => none
  | some (newDataBlockPhyNum, s1) =>
    let s2 : FastMapping :=
      { s1 with
        physicalToLogicalBlockMapping :=
          upd s1.physicalToLogicalBlockMapping newDataBlockPhyNum (some SWOwner)
        logicalToPhysicalBlockMapping :=
          upd s1.logicalToPhysicalBlockMapping SWOwner (some newDataBlockPhyNum) }
    let pages : List Nat :=
      (List.range s.param.pagesInBlock).filter (fun i =>
        ((s2.physicalBlocks logBlockPhyNum).getPageInfo i).2.1
          || ((s2.physicalBlocks oldDataBlockPbn).getPageInfo i).2.1)
    let reads : List PalRequest :=
      pages.map (fun i =>
        { blockIndex :=
            if ((s2.physicalBlocks logBlockPhyNum).getPageInfo i).2.1 then
              logBlockPhyNum
            else
              oldDataBlockPbn
          pageIndex := i })
    let writes : List (PalRequest × Nat) :=
      pages.map (fun i =>
        ({ blockIndex := newDataBlockPhyNum, pageIndex := i },
          SWOwner * s.param.pagesInBlock + i))
    match s2.getFreeBlock with
    | none => none
    | some (newSW, s3) =>
      some
        ({ s3 with
            SWBlock := some newSW
            physicalToLogicalBlockMapping :=
              upd s3.physicalToLogicalBlockMapping newSW none },
          { readRequests := reads
            writeRequests := writes
            eraseRequests := [oldDataBlockPbn, logBlockPhyNum] })

/-- The full-copy merge of the SW log block, the reference of the
switching-merge equivalence ("what a full-copy merge would produce"): the SW
branch of `mergeLogBlock` without the switching shortcut. -/
def fullCopyMergeSW (s : FastMapping) (logBlockPhyNum tick : Nat) (sendToPAL : Bool) :
    Option (FastMapping × Nat) :=
  match s.physicalToLogicalBlockMapping logBlockPhyNum with
  | none => none
  | some SWOwner =>
    match s.logicalToPhysicalBlockMapping SWOwner with
    | none => none
    | some oldDataBlockPbn =>
      mergeRun (s.mergePlanSWFull logBlockPhyNum SWOwner oldDataBlockPbn) tick sendToPAL

end FastMapping

end SimpleSSD

namespace SimpleSSD

namespace FastMapping

/-- The number of free blocks that the merge of the RW block `log` takes: one
for every logical block that has a valid page in it, and one more. -/
def rwMergeDemand (s : FastMapping) (log : Nat) : Nat :=
  (unique ((s.mergeRWCollect log).1.insertionSort (fun a b => a ≤ b))).length + 1

end FastMapping

end SimpleSSD

namespace SimpleSSD

namespace FastMapping

/-- The blocks of `S` are the blocks of `s` with page `pg` of block `tgt`,
erased in `s`, programmed with `lpn`: that page is valid and stores the LPN,
the cursor of the block is one past it, nothing is erased, and no other block
is touched. -/
structure Programs (s S : FastMapping) (tgt pg lpn : Nat) : Prop where
  erased : s.ebit tgt pg = true
  vbit : ∀ b j, S.vbit b j = (decide (b = tgt ∧ j = pg) || s.vbit b j)
  ebit : ∀ b j, S.ebit b j = (!decide (b = tgt ∧ j = pg) && s.ebit b j)
  lpnAt : ∀ b j, S.lpnAt b j = if b = tgt ∧ j = pg then lpn else s.lpnAt b j
  curs : ∀ b, S.curs b = if b = tgt then pg + 1 else s.curs b
  other : ∀ b, b ≠ tgt → S.physicalBlocks b = s.physicalBlocks b
  ecnt : ∀ b, (S.physicalBlocks b).getEraseCount = (s.physicalBlocks b).getEraseCount

end FastMapping

end SimpleSSD

namespace SimpleSSD

namespace FastMapping

/-- The lookups after a merge of the log block `log`, from state `s` to state
`S`, agree with the lookups before: an LPN found before is found at a valid
page that stores it; an LPN not found before is not found; an LPN whose copy
was in the log block, or in a data block that `L2P` no longer names, is found
with kind DATA in `L2P[lbn]` at page `lpn mod pagesInBlock`; and no entry of
`RWlogMapping` names the log block. -/
def MergeKeeps (s S : FastMapping) (log : Nat) : Prop :=
  (∀ lpn b i k, s.findValidPage lpn = some (some (b, i, k)) →
    ∃ b1 i1 k1, S.findValidPage lpn = some (some (b1, i1, k1)) ∧
      (S.physicalBlocks b1).isValid i1 = true ∧
      (S.physicalBlocks b1).getLPN i1 = some lpn) ∧
  (∀ lpn, s.findValidPage lpn = some none → S.findValidPage lpn = some none) ∧
  (∀ lpn b i k, s.findValidPage lpn = some (some (b, i, k)) →
    (b = log ∨ ∃ a, s.logicalToPhysicalBlockMapping a = some b ∧
      S.logicalToPhysicalBlockMapping a ≠ some b) →
    ∃ p, S.logicalToPhysicalBlockMapping (lpn / s.param.pagesInBlock) = some p ∧
      S.findValidPage lpn =
        some (some (p, lpn % s.param.pagesInBlock, BlockType.kBlockTypeData))) ∧
  (∀ l b j, S.RWlogMapping l = some (b, j) → b ≠ log)

end FastMapping

end SimpleSSD

namespace SimpleSSD

/-- The finish tick of a phase of operations that start together: the maximum
of the start of the phase and the finish ticks of the operations. -/
def phaseFinish (start : Nat) (finishes : List Nat) : Nat := finishes.foldl max start

namespace FastMapping

/-- The merge timing in the words of the spec (§4.7), to be compared with the
tick that `mergeLogBlock` returns when it sends its requests to the PAL: every
read starts at `tick` and `readFinishAt` is the maximum over the reads; every
write and every erase starts at `readFinishAt`; an erase finishes after the
erase-internal latency; the result is `max(writeFinishAt, eraseFinishAt)`. -/
def mergeTickSpec (pal : PAL) (cpu : Latency) (tick : Nat) (p : MergePlan) : Nat :=
  let readFinishAt := phaseFinish tick (p.readRequests.map (fun req => pal.read req tick))
  let writeFinishAt :=
    phaseFinish readFinishAt (p.writeRequests.map (fun w => pal.write w.1 readFinishAt))
  let eraseFinishAt :=
    phaseFinish readFinishAt
      (p.eraseRequests.map (fun b =>
        pal.erase { blockIndex := b, pageIndex := 0 } readFinishAt + cpu.ERASE_INTERNAL))
  max writeFinishAt eraseFinishAt

/-- The PAL calls of a merge that sends its requests to the PAL, in the order
of the three phases: the reads at `tick`, the writes and the erases at the
finish tick of the read phase. -/
def mergeCalls (pal : PAL) (tick : Nat) (p : MergePlan) : List PalOp :=
  let readFinishAt := phaseFinish tick (p.readRequests.map (fun req => pal.read req tick))
  p.readRequests.map (fun req => PalOp.read req tick) ++
    p.writeRequests.map (fun w => PalOp.write w.1 readFinishAt) ++
    p.eraseRequests.map (fun b => PalOp.erase { blockIndex := b, pageIndex := 0 } readFinishAt)

/-- The plan that `mergeLogBlock` builds for the block type. -/
def mergePlan (s : FastMapping) (logBlockPhyNum : Nat) (blockType : BlockType)
    (additionalPage : Option Nat) : Option (FastMapping × MergePlan) :=
  match blockType with
  | BlockType.kBlockTypeRW =>
    if additionalPage.isSome then none else s.mergePlanRW logBlockPhyNum
  | BlockType.kBlockTypeSW => s.mergePlanSW logBlockPhyNum additionalPage
  | _ => none

end FastMapping

end SimpleSSD

namespace SimpleSSD

namespace FastMapping

/-- What every operation of the FTL keeps of the block allocation, from state
`s` to state `s1`: the PAL, the latencies and the parameters are unchanged;
`freeBlocks` only loses blocks at its head; the SW block, the RW blocks and
the data blocks of `s1` are those of `s` or were taken from `freeBlocks` (a
data block may also be the former SW block, after a switching merge). -/
structure BlockStep (s s1 : FastMapping) : Prop where
  pal : s1.pPAL = s.pPAL
  cpu : s1.cpu = s.cpu
  param : s1.param = s.param
  free : ∃ taken, s.freeBlocks = taken ++ s1.freeBlocks
  sw : ∀ b, s1.SWBlock = some b → s.SWBlock = some b ∨ b ∈ s.freeBlocks
  rw : ∀ b, b ∈ s1.RWBlocks → b ∈ s.RWBlocks ∨ b ∈ s.freeBlocks
  l2p : ∀ a p, s1.logicalToPhysicalBlockMapping a = some p →
    s.logicalToPhysicalBlockMapping a = some p ∨ p ∈ s.freeBlocks ∨ s.SWBlock = some p

/-- Every owner recorded in `P2L` is the logical block whose data block the
physical block is, or the physical block is the SW block. -/
def P2LConsistent (s : FastMapping) : Prop :=
  ∀ pbn lbn, s.physicalToLogicalBlockMapping pbn = some lbn →
    s.logicalToPhysicalBlockMapping lbn = some pbn ∨ s.SWBlock = some pbn

/-- Every owner recorded in `P2L` is the logical block whose data block the
physical block is. -/
def P2LData (s : FastMapping) : Prop :=
  ∀ pbn lbn, s.physicalToLogicalBlockMapping pbn = some lbn →
    s.logicalToPhysicalBlockMapping lbn = some pbn

end FastMapping

end SimpleSSD

namespace SimpleSSD

namespace FastMapping

/-- Two states have the same PAL, latencies and parameters, the same block
maps, the same free queue and the same log blocks. They may differ in the
physical blocks, in `RWlogMapping` and in the PAL log. -/
structure SameTables (s s1 : FastMapping) : Prop where
  pal : s1.pPAL = s.pPAL
  cpu : s1.cpu = s.cpu
  param : s1.param = s.param
  l2p : s1.logicalToPhysicalBlockMapping = s.logicalToPhysicalBlockMapping
  p2l : s1.physicalToLogicalBlockMapping = s.physicalToLogicalBlockMapping
  free : s1.freeBlocks = s.freeBlocks
  sw : s1.SWBlock = s.SWBlock
  rw : s1.RWBlocks = s.RWBlocks

end FastMapping

end SimpleSSD

namespace SimpleSSD

namespace FastMapping

/-- `FastMapping::calculateTotalPages`: the loop over `physicalBlocks` that
adds up the valid page counts and the dirty page counts. The result is
`(valid, invalid)`. -/
def calculateTotalPages (s : FastMapping) : Nat × Nat :=
  (List.range s.param.totalPhysicalBlocks).foldl
    (fun acc i =>
      (acc.1 + (s.physicalBlocks i).getValidPageCount,
        acc.2 + (s.physicalBlocks i).getDirtyPageCount))
    (0, 0)

/-- The device after the sequential fill of the LPNs `0, ..., n - 1`: the free
queue starts after the data blocks taken, one for each logical block begun;
the log blocks are those of the constructor; logical block `k` has the data
block `7 + k` when one of its pages was written; page `i` of block `b` is
valid exactly when `b = 7 + k` and `k * pagesInBlock + i < n`, every other page
of a block is erased, and a valid page stores an LPN below `n`. -/
structure SeqFilled (s : FastMapping) (n : Nat) : Prop where
  free : s.freeBlocks =
    List.range' (7 + (n + s.param.pagesInBlock - 1) / s.param.pagesInBlock)
      (s.param.totalPhysicalBlocks - 7 - (n + s.param.pagesInBlock - 1) / s.param.pagesInBlock)
  sw : s.SWBlock = some 0
  rw : s.RWBlocks = [1, 2, 3, 4, 5, 6]
  l2p : ∀ k, s.logicalToPhysicalBlockMapping k =
    if k * s.param.pagesInBlock < n then some (7 + k) else none
  vbit : ∀ b i, s.vbit b i =
    decide (7 ≤ b ∧ i < s.param.pagesInBlock ∧ (b - 7) * s.param.pagesInBlock + i < n)
  ebit : ∀ b i, s.ebit b i = (decide (i < s.param.pagesInBlock) && !s.vbit b i)
  lpn : ∀ b i, s.vbit b i = true → s.lpnAt b i < n

end FastMapping

end SimpleSSD

namespace SimpleSSD

namespace FastMapping

/-- Block `b` is referenced by the mapping state: it is in `freeBlocks`, it is
the SW block, it is in `RWBlocks`, or it is the data block of a logical
block. -/
def Referenced (s : FastMapping) (b : Nat) : Prop :=
  b ∈ s.freeBlocks ∨ s.SWBlock = some b ∨ b ∈ s.RWBlocks ∨
    ∃ a, s.logicalToPhysicalBlockMapping a = some b

/-- From state `s` to state `S` every block keeps its erase count, or is
erased once; a block that is erased was referenced in `s` and is not
referenced in `S`. -/
def EraseDelta (s S : FastMapping) : Prop :=
  ∀ q, (S.physicalBlocks q).eraseCount = (s.physicalBlocks q).eraseCount ∨
    ((S.physicalBlocks q).eraseCount = (s.physicalBlocks q).eraseCount + 1 ∧
      Referenced s q ∧ ¬ Referenced S q)

/-- No block was erased twice, and a block that was erased is not
referenced. -/
def ErasedOnce (s : FastMapping) : Prop :=
  ∀ q, (s.physicalBlocks q).eraseCount ≤ 1 ∧
    ((s.physicalBlocks q).eraseCount = 1 → ¬ Referenced s q)

end FastMapping

end SimpleSSD

namespace SimpleSSD

/-- A block whose cursor is at most its page count and whose erased bits are
set for pages of the block only. -/
def BlockFast.WellFormed (b : BlockFast) : Prop :=
  b.pNextWritePageIndex ≤ b.pageCount ∧ ∀ i, b.pErasedBits.test i = true → i < b.pageCount

namespace FastMapping

/-- What an operation of the FTL from state `s` to state `S`, run with
`sendToPAL`, does to the blocks and the PAL log: well-formed blocks stay
well-formed, and without `sendToPAL` no PAL call is logged. -/
structure Traced (sendToPAL : Bool) (s S : FastMapping) : Prop where
  made : (∀ b, (s.physicalBlocks b).WellFormed) → ∀ b, (S.physicalBlocks b).WellFormed
  log : sendToPAL = false → S.palLog = s.palLog

/-! ## The calls of `getFreeBlock` on the path of a write

The functions below count the calls of `getFreeBlock` that the code makes on
the path it takes in a state, branch by branch: `writeInternal` calls it once
when the logical block has no data block, once after the merge in Case 2a and
in the recycling of Case 2c; the SW branch of `mergeLogBlock` calls it twice
unless it is a switching merge; the RW branch once for every logical block
collected and once more (`rwMergeDemand`). -/

/-- Calls of `getFreeBlock` in the SW branch of `mergeLogBlock`: none for the
switching merge, else one for the new data block and one for the new SW
block. -/
def swMergeDemand (s : FastMapping) (sw : Nat) : Nat :=
  if (s.physicalBlocks sw).getValidPageCount = s.param.pagesInBlock then 0 else 2

/-- Calls of `getFreeBlock` in `writeSWFirst`: none when the SW block is clean,
else those of the merge and one for the new SW block. -/
def swFirstDemand (s : FastMapping) : Nat :=
  match s.SWBlock with
  | none => 0
  | some sw => if (s.physicalBlocks sw).isCleanBlock then 0 else s.swMergeDemand sw + 1

/-- Calls of `getFreeBlock` in `writeSWAppend`: none when the page of the
offset is erased, else those of the merge. -/
def swAppendDemand (s : FastMapping) (sw lpn : Nat) : Nat :=
  if ((s.physicalBlocks sw).getPageInfo (s.convertPageToOffsetInBlock lpn)).2.2 then 0
  else s.swMergeDemand sw

/-- Calls of `getFreeBlock` in `writeRW`: none when an RW block has an erased
page, else those of the merge of the first RW block and one for the block
appended to `RWBlocks`. -/
def rwDemand (s : FastMapping) : Nat :=
  match s.RWBlocks.find? (fun rwBlockNum =>
      (s.physicalBlocks rwBlockNum).getErasedPageCount != 0) with
  | some _ => 0
  | none =>
    match s.RWBlocks with
    | [] => 0
    | victimRwBlock :: rest =>
      ({ s with RWBlocks := rest } : FastMapping).rwMergeDemand victimRwBlock + 1

/-- Calls of `getFreeBlock` in `writeOverwrite`, by the routing of the new
copy after the invalidation of the old one. -/
def overwriteDemand (s : FastMapping) (lpn physicalBlockNumber pageIndex : Nat)
    (blockType : BlockType) : Nat :=
  let s1 := s.writeInvalidate lpn 0 physicalBlockNumber pageIndex blockType
  if s1.convertPageToOffsetInBlock lpn = 0 then
    s1.swFirstDemand
  else
    match s1.SWBlock with
    | none => 0
    | some sw =>
      if s1.physicalToLogicalBlockMapping sw = some (s1.convertPageToBlock lpn) then
        s1.swAppendDemand sw lpn
      else
        s1.rwDemand

/-- Calls of `getFreeBlock` in `writeInternal` for the LPN: one when the
logical block has no data block, and those of the overwrite when the lookup
after the mapping step finds a valid copy. -/
def writeDemand (s : FastMapping) (lpn : Nat) : Nat :=
  (if (s.logicalToPhysicalBlockMapping (s.convertPageToBlock lpn)).isSome then 0 else 1) +
    match s.writeEnsureMapping (s.convertPageToBlock lpn) with
    | none => 0
    | some s1 =>
      match s1.findValidPage lpn with
      | some (some (physicalBlockNumber, pageIndex, blockType)) =>
        s1.overwriteDemand lpn physicalBlockNumber pageIndex blockType
      | _ => 0

end FastMapping

end SimpleSSD

namespace SimpleSSD

namespace FastMapping

/-! ## States that differ in timing only -/

/-- The state `s` with another PAL model, other firmware latencies, another
PAL log and other access times of the blocks (`la b` for block `b`). -/
def retime (s : FastMapping) (pal : PAL) (cpu : Latency) (log : List PalOp) (la : Nat → Nat) :
    FastMapping :=
  { s with
    pPAL := pal
    cpu := cpu
    palLog := log
    physicalBlocks := fun b => { s.physicalBlocks b with lastAccessed := la b } }

/-- Two states have the same mapping state: the same parameters, `L2P`, `P2L`,
`RWlogMapping`, `freeBlocks`, `RWBlocks` and `SWBlock`, and every block has the
same index, page count, cursor, valid bits, erased bits, stored LPNs and erase
count. They may differ in the PAL model, the firmware latencies, the PAL log
and the `lastAccessed` time of the blocks. -/
structure TimingEq (s s1 : FastMapping) : Prop where
  param : s1.param = s.param
  l2p : s1.logicalToPhysicalBlockMapping = s.logicalToPhysicalBlockMapping
  p2l : s1.physicalToLogicalBlockMapping = s.physicalToLogicalBlockMapping
  free : s1.freeBlocks = s.freeBlocks
  rwmap : s1.RWlogMapping = s.RWlogMapping
  sw : s1.SWBlock = s.SWBlock
  rw : s1.RWBlocks = s.RWBlocks
  idx : ∀ b, (s1.physicalBlocks b).idx = (s.physicalBlocks b).idx
  pageCount : ∀ b, (s1.physicalBlocks b).pageCount = (s.physicalBlocks b).pageCount
  cursor : ∀ b, (s1.physicalBlocks b).pNextWritePageIndex =
    (s.physicalBlocks b).pNextWritePageIndex
  valid : ∀ b, (s1.physicalBlocks b).pValidBits = (s.physicalBlocks b).pValidBits
  erased : ∀ b, (s1.physicalBlocks b).pErasedBits = (s.physicalBlocks b).pErasedBits
  lpns : ∀ b, (s1.physicalBlocks b).pLPNs = (s.physicalBlocks b).pLPNs
  eraseCount : ∀ b, (s1.physicalBlocks b).eraseCount = (s.physicalBlocks b).eraseCount

/-- Two calls agree: both fail, or both return and the states they return have
the same mapping state. -/
def Agree (o o1 : Option (FastMapping × Nat)) : Prop :=
  match o, o1 with
  | some r, some r1 => TimingEq r.1 r1.1
  | none, none => True
  | _, _ => False

end FastMapping

end SimpleSSD

namespace SimpleSSD

/-- States outside the reachable ones, for the precedence of the lookup: the
new example device with logical block 0 mapped to block 7 and with an entry
of `RWlogMapping` that sends LPN 1 to page 2 of block 1; page 1 of the data
block 7, page 1 of the SW block 0 and page 2 of the RW block 1 hold a valid
copy of LPN 1 when the respective flag is set. -/
def precedenceState (inData inSW inRW : Bool) : FastMapping :=
  let s0 := exampleState [] rfl
  let written (b : BlockFast) (page : Nat) : BlockFast := (b.write page 1 0 0).getD b
  { s0 with
    logicalToPhysicalBlockMapping := upd s0.logicalToPhysicalBlockMapping 0 (some 7)
    RWlogMapping := upd s0.RWlogMapping 1 (some (1, 2))
    physicalBlocks :=
      upd
        (upd
          (upd s0.physicalBlocks 7
            (if inData then written (s0.physicalBlocks 7) 1 else s0.physicalBlocks 7))
          0 (if inSW then written (s0.physicalBlocks 0) 1 else s0.physicalBlocks 0))
        1 (if inRW then written (s0.physicalBlocks 1) 2 else s0.physicalBlocks 1) }

end SimpleSSD

/-! # Theorems -/

namespace SimpleSSD

/-! ## Block operations -/

namespace BlockFast

theorem isValid_write {b b' : BlockFast} {i lpn idx t : Nat} (h : b.write i lpn idx t = some b')
    (j : Nat) : b'.isValid j = (decide (j = i) || b.isValid j) := by
  unfold write at h
  split at h
  · split at h
    · injection h with h
      subst h
      by_cases hj : j = i <;> simp [isValid, Bitset.test, Bitset.set, hj]
    · exact absurd h (by simp)
  · exact absurd h (by simp)

theorem isErased_write {b b' : BlockFast} {i lpn idx t : Nat} (h : b.write i lpn idx t = some b')
    (j : Nat) : b'.isErased j = (!decide (j = i) && b.isErased j) := by
  unfold write at h
  split at h
  · split at h
    · injection h with h
      subst h
      by_cases hj : j = i <;> simp [isErased, Bitset.test, Bitset.reset, hj]
    · exact absurd h (by simp)
  · exact absurd h (by simp)

theorem write_erased {b b' : BlockFast} {i lpn idx t : Nat} (h : b.write i lpn idx t = some b') :
    b.isErased i = true ∧ idx = 0 := by
  unfold write at h
  split at h
  · split at h
    · rename_i h0 h1
      exact ⟨h1, h0⟩
    · exact absurd h (by simp)
  · exact absurd h (by simp)

theorem lpn_write {b b' : BlockFast} {i lpn idx t : Nat} (h : b.write i lpn idx t = some b')
    (j : Nat) :
    (b'.getPageInfo j).1 =
      if j = i ∧ b.pLPNs.isSome = true then lpn else (b.getPageInfo j).1 := by
  unfold write at h
  split at h
  · split at h
    · injection h with h
      subst h
      cases hp : b.pLPNs <;> by_cases hj : j = i <;> simp [getPageInfo, hp, hj]
    · exact absurd h (by simp)
  · exact absurd h (by simp)

theorem fields_write {b b' : BlockFast} {i lpn idx t : Nat} (h : b.write i lpn idx t = some b') :
    b'.pageCount = b.pageCount ∧ b'.pLPNs.isSome = b.pLPNs.isSome ∧
      b'.pNextWritePageIndex = i + 1 ∧ b'.eraseCount = b.eraseCount ∧ b'.idx = b.idx ∧
      b'.lastAccessed = t := by
  unfold write at h
  split at h
  · split at h
    · injection h with h
      subst h
      cases hp : b.pLPNs <;> simp
    · exact absurd h (by simp)
  · exact absurd h (by simp)

theorem read_eq {b b' : BlockFast} {i idx t : Nat} {r : Bool} (h : b.read i idx t = some (r, b')) :
    b'.pageCount = b.pageCount ∧ b'.pLPNs = b.pLPNs ∧
      b'.pNextWritePageIndex = b.pNextWritePageIndex ∧ b'.eraseCount = b.eraseCount ∧
      b'.idx = b.idx ∧ b'.pValidBits = b.pValidBits ∧ b'.pErasedBits = b.pErasedBits ∧
      r = b.isValid i := by
  unfold read at h
  split at h
  · split at h
    · rename_i h1
      injection h with h
      injection h with h2 h3
      subst h3
      simp [← h2, isValid, h1]
    · rename_i h1
      injection h with h
      injection h with h2 h3
      subst h3
      simp [← h2, isValid, h1]
  · exact absurd h (by simp)

end BlockFast

end SimpleSSD

namespace SimpleSSD

/-- C6. `write` fails exactly when the erased bit of the page is clear: it
never succeeds on a page that is valid or dirty, and always succeeds on an
erased one. -/
theorem BlockFast.write_fails_iff (b : BlockFast) (pageIndex lpn t : Nat) :
    b.write pageIndex lpn 0 t = none ↔ b.isErased pageIndex = false := by
  cases he : b.pErasedBits.test pageIndex <;>
    simp [BlockFast.write, BlockFast.isErased, he]

/-- C7. `erase` sets every erased bit, clears every valid bit, resets the
cursor and increments the erase count, and leaves block index, page count,
LPN array and `lastAccessed` alone; on a block that is already fully erased
with cursor 0 only the erase count changes. -/
theorem BlockFast.erase_postcondition (b : BlockFast) :
    (∀ i, i < b.pageCount → b.erase.isErased i = true) ∧
      (∀ i, b.erase.isValid i = false) ∧
      b.erase.getNextWritePageIndex = 0 ∧
      b.erase.getEraseCount = b.getEraseCount + 1 ∧
      b.erase.getBlockIndex = b.getBlockIndex ∧
      b.erase.pageCount = b.pageCount ∧
      b.erase.pLPNs = b.pLPNs ∧
      b.erase.getLastAccessedTime = b.getLastAccessedTime ∧
      ((∀ i, i < b.pageCount → b.isErased i = true) → b.NoValidErased →
        b.getNextWritePageIndex = 0 →
        (∀ i, i < b.pageCount →
          b.erase.isErased i = b.isErased i ∧ b.erase.isValid i = b.isValid i) ∧
        b.erase.getNextWritePageIndex = b.getNextWritePageIndex ∧
        b.erase.getEraseCount = b.getEraseCount + 1) := by
  refine ⟨?_, ?_, rfl, rfl, rfl, rfl, rfl, rfl, ?_⟩
  · intro i hi
    simp [BlockFast.erase, BlockFast.isErased, Bitset.test, Bitset.setAll, hi]
  · intro i
    simp [BlockFast.erase, BlockFast.isValid, Bitset.test, Bitset.resetAll]
  · intro hall hinv hcur
    refine ⟨?_, ?_, rfl⟩
    · intro i hi
      have h1 := hall i hi
      have h2 := hinv i
      constructor
      · simp [BlockFast.erase, BlockFast.isErased, Bitset.test, Bitset.setAll, hi] at h1 ⊢
        exact h1
      · cases hv : b.isValid i
        · simp [BlockFast.erase, BlockFast.isValid, Bitset.test, Bitset.resetAll]
        · exact absurd ⟨hv, h1⟩ h2
    · simp [BlockFast.erase, BlockFast.getNextWritePageIndex] at hcur ⊢
      exact hcur.symm

/-- C8. `invalidate` clears the valid bit of the page whatever its state, and
changes neither the erased bits nor the valid bits of other pages, the LPN
array, the cursor, `lastAccessed` or the erase count; doing it twice is the
same as doing it once. -/
theorem BlockFast.invalidate_postcondition (b : BlockFast) (i idx idx2 : Nat) :
    (b.invalidate i idx).isValid i = false ∧
      (b.invalidate i idx).pErasedBits = b.pErasedBits ∧
      (∀ j, j ≠ i → (b.invalidate i idx).isValid j = b.isValid j) ∧
      (b.invalidate i idx).pLPNs = b.pLPNs ∧
      (b.invalidate i idx).getNextWritePageIndex = b.getNextWritePageIndex ∧
      (b.invalidate i idx).getLastAccessedTime = b.getLastAccessedTime ∧
      (b.invalidate i idx).getEraseCount = b.getEraseCount ∧
      (b.invalidate i idx).pageCount = b.pageCount ∧
      (b.invalidate i idx).getBlockIndex = b.getBlockIndex ∧
      (b.invalidate i idx).invalidate i idx2 = b.invalidate i idx := by
  refine ⟨?_, rfl, ?_, rfl, rfl, rfl, rfl, rfl, rfl, ?_⟩
  · simp [BlockFast.invalidate, BlockFast.isValid, Bitset.test, Bitset.reset]
  · intro j hj
    simp [BlockFast.invalidate, BlockFast.isValid, Bitset.test, Bitset.reset, hj]
  · have : (b.pValidBits.reset i).reset i = b.pValidBits.reset i := by
      funext j
      by_cases hj : j = i <;> simp [Bitset.reset, hj]
    simp [BlockFast.invalidate, this]

end SimpleSSD

namespace SimpleSSD

/-! ## Basic facts about the state -/

@[simp] theorem upd_apply {α : Type} (f : Nat → α) (a : Nat) (v : α) (x : Nat) :
    upd f a v x = if x = a then v else f x := rfl

namespace FastMapping

theorem SameCore.rfl_ (s : FastMapping) : SameCore s s :=
  ⟨rfl, rfl, rfl, rfl, rfl, rfl, rfl, rfl, rfl, rfl, rfl, fun _ => rfl, fun _ => rfl⟩

theorem SameCore.trans_ {s s1 s2 : FastMapping} (h1 : SameCore s s1) (h2 : SameCore s1 s2) :
    SameCore s s2 :=
  ⟨h2.param.trans h1.param, h2.l2p.trans h1.l2p, h2.p2l.trans h1.p2l, h2.free.trans h1.free,
    h2.rwmap.trans h1.rwmap, h2.sw.trans h1.sw, h2.rw.trans h1.rw, h2.vbit.trans h1.vbit,
    h2.ebit.trans h1.ebit, h2.lpnAt.trans h1.lpnAt, h2.curs.trans h1.curs,
    fun b => (h2.pageCount b).trans (h1.pageCount b),
    fun b => (h2.hasLPNs b).trans (h1.hasLPNs b)⟩

theorem InvC.sameCore {s s1 : FastMapping} {c : Nat} (h : SameCore s s1) (hi : InvC s c) :
    InvC s1 c := by
  obtain ⟨h1, h2, h3, h4, h5, h6, h7, h8, h9, h10, h11, h12, h13⟩ := h
  constructor
  · intro b; rw [h12, h13, h1]; exact hi.blk b
  · rw [h8, h9, h1]; exact hi.bits
  · rw [h9, h1]; exact hi.erasedLt
  · rw [h4]; exact hi.free
  · rw [h2]; exact hi.l2pLt
  · rw [h6]; exact hi.swLt
  · rw [h7]; exact hi.rwLt
  · rw [h7]; exact hi.rwNodup
  · rw [h6, h7]; exact hi.swRW
  · rw [h2]; exact hi.l2pInj
  · rw [h2, h7]; exact hi.l2pRW
  · rw [h2, h6]; exact hi.l2pSW
  · rw [h2, h6, h7, h9, h11, h1]; exact hi.clean
  · rw [h2, h8, h10, h1]; exact hi.data
  · rw [h2, h3, h6, h8, h9, h10, h1]; exact hi.sw
  · rw [h5, h7, h8, h10]; exact hi.rwmap
  · rw [h2, h5, h7, h8, h10, h1]; exact hi.rwloc
  · rw [h7, h9, h11, h1]; exact hi.rwseq
  · rw [h8, h10]; exact hi.one

theorem NoCopy.of_sameCore {s s1 : FastMapping} {lpn : Nat} (h : SameCore s s1)
    (hn : NoCopy s lpn) : NoCopy s1 lpn := by
  unfold NoCopy
  rw [h.vbit, h.lpnAt]
  exact hn

theorem palWrite_sameCore (s : FastMapping) (req : PalRequest) (tick : Nat) (sendToPAL : Bool) :
    SameCore s (s.palWrite req tick sendToPAL).1 := by
  cases sendToPAL
  · exact SameCore.rfl_ s
  · exact ⟨rfl, rfl, rfl, rfl, rfl, rfl, rfl, rfl, rfl, rfl, rfl, fun _ => rfl, fun _ => rfl⟩

theorem palRead_sameCore (s : FastMapping) (req : PalRequest) (tick : Nat) (sendToPAL : Bool) :
    SameCore s (s.palRead req tick sendToPAL).1 := by
  cases sendToPAL
  · exact SameCore.rfl_ s
  · exact ⟨rfl, rfl, rfl, rfl, rfl, rfl, rfl, rfl, rfl, rfl, rfl, fun _ => rfl, fun _ => rfl⟩

/-- Replacing a block by one that differs in `lastAccessed` only. -/
theorem readBlock_sameCore (s : FastMapping) (p i idx t : Nat) (r : Bool) (b : BlockFast)
    (h : (s.physicalBlocks p).read i idx t = some (r, b)) :
    SameCore s { s with physicalBlocks := upd s.physicalBlocks p b } := by
  obtain ⟨h1, h2, h3, -, -, h6, h7, -⟩ := BlockFast.read_eq h
  refine ⟨rfl, rfl, rfl, rfl, rfl, rfl, rfl, ?_, ?_, ?_, ?_, ?_, ?_⟩
  · funext q j
    by_cases hq : q = p <;> simp [vbit, BlockFast.isValid, hq, h6]
  · funext q j
    by_cases hq : q = p <;> simp [ebit, BlockFast.isErased, hq, h7]
  · funext q j
    by_cases hq : q = p <;> simp [lpnAt, BlockFast.getPageInfo, hq, h2]
  · funext q
    by_cases hq : q = p <;> simp [curs, BlockFast.getNextWritePageIndex, hq, h3]
  · intro q
    by_cases hq : q = p <;> simp [hq, h1]
  · intro q
    by_cases hq : q = p <;> simp [hq, h2]

end FastMapping

end SimpleSSD

namespace SimpleSSD
namespace FastMapping

theorem writeBlock_eq {s s1 : FastMapping} {p i l t : Nat} (h : s.writeBlock p i l t = some s1) :
    ∃ b, (s.physicalBlocks p).write i l 0 t = some b ∧
      s1 = { s with physicalBlocks := upd s.physicalBlocks p b } := by
  unfold writeBlock at h
  split at h
  · exact absurd h (by simp)
  · rename_i b hb
    injection h with h
    exact ⟨b, hb, h.symm⟩

/-- Effect of a block write on the views of the state. -/
theorem writeBlock_views {s s1 : FastMapping} {p i l t : Nat}
    (h : s.writeBlock p i l t = some s1) :
    s.ebit p i = true ∧
      (∀ b j, s1.vbit b j = (decide (b = p ∧ j = i) || s.vbit b j)) ∧
      (∀ b j, s1.ebit b j = (!decide (b = p ∧ j = i) && s.ebit b j)) ∧
      (∀ b j, s1.lpnAt b j =
        if b = p ∧ j = i ∧ (s.physicalBlocks p).pLPNs.isSome = true then l else s.lpnAt b j) ∧
      (∀ b, s1.curs b = if b = p then i + 1 else s.curs b) ∧
      (∀ b, (s1.physicalBlocks b).pageCount = (s.physicalBlocks b).pageCount) ∧
      (∀ b, (s1.physicalBlocks b).pLPNs.isSome = (s.physicalBlocks b).pLPNs.isSome) := by
  obtain ⟨b0, hb, rfl⟩ := writeBlock_eq h
  have hf := BlockFast.fields_write hb
  refine ⟨(BlockFast.write_erased hb).1, ?_, ?_, ?_, ?_, ?_, ?_⟩
  · intro b j
    by_cases hq : b = p
    · subst hq
      simp [vbit, BlockFast.isValid_write hb]
    · simp [vbit, hq]
  · intro b j
    by_cases hq : b = p
    · subst hq
      simp [ebit, BlockFast.isErased_write hb]
    · simp [ebit, hq]
  · intro b j
    by_cases hq : b = p
    · subst hq
      simp [lpnAt, BlockFast.lpn_write hb]
    · simp [lpnAt, hq]
  · intro b
    by_cases hq : b = p
    · subst hq
      simp [curs, BlockFast.getNextWritePageIndex, hf.2.2.1]
    · simp [curs, hq]
  · intro b
    by_cases hq : b = p
    · subst hq
      simp [hf.1]
    · simp [hq]
  · intro b
    by_cases hq : b = p
    · subst hq
      simp [hf.2.1]
    · simp [hq]

theorem getFreeBlock_eq {s s1 : FastMapping} {p : Nat} (h : s.getFreeBlock = some (p, s1)) :
    ∃ rest, s.freeBlocks = p :: rest ∧ s1 = { s with freeBlocks := rest } := by
  unfold getFreeBlock at h
  split at h
  · exact absurd h (by simp)
  · rename_i ret rest hfree
    injection h with h
    injection h with h1 h2
    subst h1
    exact ⟨rest, hfree, h2.symm⟩

/-- Under the invariant the block taken from `freeBlocks` is the boundary
block, and the rest of the queue are the blocks after it. -/
theorem InvC.getFreeBlock {s s1 : FastMapping} {c p : Nat} (hi : InvC s c)
    (h : s.getFreeBlock = some (p, s1)) :
    p = c ∧ ∃ n, s1 = { s with freeBlocks := List.range' (c + 1) n } := by
  obtain ⟨rest, hfree, rfl⟩ := getFreeBlock_eq h
  obtain ⟨n, hn⟩ := hi.free
  rw [hn] at hfree
  cases n with
  | zero => simp at hfree
  | succ n =>
    rw [List.range'_succ] at hfree
    injection hfree with h1 h2
    exact ⟨h1.symm, n, by rw [h2]⟩

end FastMapping
end SimpleSSD

namespace SimpleSSD
namespace FastMapping

theorem new_eq {p : Parameter} {l : PAL} {c : Latency} {s : FastMapping}
    (h : FastMapping.new p l c = some s) :
    s.param = p ∧ s.logicalToPhysicalBlockMapping = (fun _ => none) ∧
      s.physicalToLogicalBlockMapping = (fun _ => none) ∧
      s.physicalBlocks = (fun i => BlockFast.new i s.param.pagesInBlock true) ∧
      s.freeBlocks = List.range' 7 (p.totalPhysicalBlocks - 7) ∧
      s.RWlogMapping = (fun _ => none) ∧ s.SWBlock = some 0 ∧
      s.RWBlocks = [1, 2, 3, 4, 5, 6] ∧ 7 < p.totalPhysicalBlocks := by
  unfold FastMapping.new at h
  split at h
  · rename_i hp
    injection h with h
    subst h
    refine ⟨rfl, rfl, rfl, rfl, ?_, rfl, rfl, rfl, by simpa [kRWBlockCnt] using hp⟩
    simp only [kRWBlockCnt]
    rw [List.range'_eq_map_range]
  · exact absurd h (by simp)

/-- The constructed device satisfies the invariant, with boundary 7. -/
theorem InvC.init {p : Parameter} {l : PAL} {c : Latency} {s : FastMapping}
    (h : FastMapping.new p l c = some s) : InvC s 7 := by
  obtain ⟨h1, h2, h3, h4, h5, h6, h7, h8, -⟩ := new_eq h
  subst h1
  have hv : ∀ b i, s.vbit b i = false := by
    intro b i
    simp [vbit, h4, BlockFast.new, BlockFast.erase, BlockFast.isValid, Bitset.test,
      Bitset.resetAll]
  have he : ∀ b i, s.ebit b i = decide (i < s.param.pagesInBlock) := by
    intro b i
    simp [ebit, h4, BlockFast.new, BlockFast.erase, BlockFast.isErased, Bitset.test,
      Bitset.setAll]
  have hc : ∀ b, s.curs b = 0 := by
    intro b
    simp [curs, h4, BlockFast.new, BlockFast.erase, BlockFast.getNextWritePageIndex]
  constructor
  · intro b
    simp [h4, BlockFast.new, BlockFast.erase]
  · intro b i hb
    simp [hv] at hb
  · intro b i hb
    simpa [he] using hb
  · exact ⟨_, h5⟩
  · intro a q hq
    simp [h2] at hq
  · intro sw hsw
    rw [h7] at hsw
    injection hsw with hsw
    omega
  · intro b hb
    rw [h8] at hb
    simp at hb
    omega
  · rw [h8]
    decide
  · intro sw hsw
    rw [h7] at hsw
    injection hsw with hsw
    subst hsw
    rw [h8]
    decide
  · intro a a1 q hq
    simp [h2] at hq
  · intro a q hq
    simp [h2] at hq
  · intro a q hq
    simp [h2] at hq
  · intro b _ _ _
    refine ⟨?_, hc b⟩
    intro i hi
    simp [he, hi]
  · intro a q i hq
    simp [h2] at hq
  · intro sw i _ hi hb
    simp [he, hi] at hb
  · intro l0 b i hq
    simp [h6] at hq
  · intro b i _ hb
    simp [hv] at hb
  · intro b i _ hi
    simp [he, hc, hi]
  · intro b i b1 i1 hb
    simp [hv] at hb

end FastMapping
end SimpleSSD

namespace SimpleSSD
namespace FastMapping

theorem getPageInfo_lpn (s : FastMapping) (b i : Nat) :
    ((s.physicalBlocks b).getPageInfo i).1 = s.lpnAt b i := rfl

theorem getPageInfo_valid (s : FastMapping) (b i : Nat) :
    ((s.physicalBlocks b).getPageInfo i).2.1 = s.vbit b i := rfl

theorem getPageInfo_erased (s : FastMapping) (b i : Nat) :
    ((s.physicalBlocks b).getPageInfo i).2.2 = s.ebit b i := rfl

theorem isValid_vbit (s : FastMapping) (b i : Nat) :
    (s.physicalBlocks b).isValid i = s.vbit b i := rfl

/-- The code of `findValidPage`, case by case: it fails for a logical block
number outside the mapping vector and when the assertion of its RW branch
fails, and otherwise returns what the lookup procedure of the spec returns. -/
theorem findValidPage_cases (s : FastMapping) (lpn : Nat) :
    s.findValidPage lpn =
      if lpn / s.param.pagesInBlock < s.param.totalLogicalBlocks then
        match s.findValidPageSpec lpn with
        | some (b, i, BlockType.kBlockTypeRW) =>
          if s.vbit b i = true ∧ s.lpnAt b i = lpn then
            some (some (b, i, BlockType.kBlockTypeRW))
          else
            none
        | r => some r
      else
        none := by
  unfold findValidPage findValidPageSpec
  simp only [convertPageToBlock, convertPageToOffsetInBlock, getPageInfo_lpn, getPageInfo_valid,
    isValid_vbit]
  by_cases h0 : lpn / s.param.pagesInBlock < s.param.totalLogicalBlocks
  · simp only [h0, if_true]
    cases h1 : s.logicalToPhysicalBlockMapping (lpn / s.param.pagesInBlock) with
    | none => rfl
    | some pbn =>
      simp only []
      cases h2 : s.vbit pbn (lpn % s.param.pagesInBlock) with
      | true => simp
      | false =>
        simp only [Bool.false_eq_true, if_false]
        have hrw : (match s.RWlogMapping lpn with
            | some (pbn, i) =>
              if (s.vbit pbn i && s.lpnAt pbn i == lpn) = true then
                some (some (pbn, i, BlockType.kBlockTypeRW))
              else none
            | none => some none) =
            (match (match s.RWlogMapping lpn with
              | some (rwPbn, pageIdx) => some (rwPbn, pageIdx, BlockType.kBlockTypeRW)
              | none => none : Option (Nat × Nat × BlockType)) with
            | some (b, i, BlockType.kBlockTypeRW) =>
              if s.vbit b i = true ∧ s.lpnAt b i = lpn then
                some (some (b, i, BlockType.kBlockTypeRW))
              else
                none
            | r => some r) := by
          cases h4 : s.RWlogMapping lpn with
          | none => rfl
          | some r =>
            obtain ⟨b, i⟩ := r
            simp
        cases h3 : s.SWBlock with
        | none => exact hrw
        | some sw =>
          simp only []
          by_cases h7 : s.vbit sw (lpn % s.param.pagesInBlock) = true ∧
              s.lpnAt sw (lpn % s.param.pagesInBlock) = lpn
          · simp [h7]
          · have h8 : (s.vbit sw (lpn % s.param.pagesInBlock) &&
                s.lpnAt sw (lpn % s.param.pagesInBlock) == lpn) = false := by
              simp only [not_and] at h7
              cases h6 : s.vbit sw (lpn % s.param.pagesInBlock) with
              | false => simp
              | true => simp [h7 h6]
            simp only [h7, h8, Bool.false_eq_true, if_false]
            exact hrw
  · simp only [h0, if_false]

end FastMapping
end SimpleSSD

namespace SimpleSSD

theorem div_mod_of_pos {p a i l : Nat} (hi : i < p) (hl : l = a * p + i) :
    l / p = a ∧ l % p = i := by
  subst hl
  have hp : 0 < p := by omega
  constructor
  · rw [Nat.add_comm, Nat.add_mul_div_right _ _ hp, Nat.div_eq_of_lt hi, Nat.zero_add]
  · rw [Nat.add_comm, Nat.add_mul_mod_self_right, Nat.mod_eq_of_lt hi]

namespace FastMapping

theorem findValidPageSpec_none {s : FastMapping} {lpn : Nat}
    (h : s.findValidPageSpec lpn = none) :
    s.logicalToPhysicalBlockMapping (lpn / s.param.pagesInBlock) = none ∨
      (∃ pbn, s.logicalToPhysicalBlockMapping (lpn / s.param.pagesInBlock) = some pbn ∧
        s.vbit pbn (lpn % s.param.pagesInBlock) = false ∧
        (∀ sw, s.SWBlock = some sw →
          ¬ (s.vbit sw (lpn % s.param.pagesInBlock) = true ∧
            s.lpnAt sw (lpn % s.param.pagesInBlock) = lpn)) ∧
        s.RWlogMapping lpn = none) := by
  unfold findValidPageSpec at h
  simp only [getPageInfo_lpn, isValid_vbit] at h
  cases h1 : s.logicalToPhysicalBlockMapping (lpn / s.param.pagesInBlock) with
  | none => exact Or.inl rfl
  | some pbn =>
    right
    rw [h1] at h
    simp only [] at h
    cases h2 : s.vbit pbn (lpn % s.param.pagesInBlock) with
    | true => simp [h2] at h
    | false =>
      simp only [h2, Bool.false_eq_true, if_false] at h
      have hrw : ∀ (x : Option (Nat × Nat)),
          (match x with
            | some (rwPbn, pageIdx) => some (rwPbn, pageIdx, BlockType.kBlockTypeRW)
            | none => (none : Option (Nat × Nat × BlockType))) = none → x = none := by
        intro x hx
        cases x with
        | none => rfl
        | some r => simp at hx
      refine ⟨pbn, rfl, h2, ?_, ?_⟩
      · intro sw hsw hc
        rw [hsw] at h
        simp only [] at h
        rw [if_pos hc] at h
        simp at h
      · cases h3 : s.SWBlock with
        | none =>
          rw [h3] at h
          exact hrw _ h
        | some sw =>
          rw [h3] at h
          simp only [] at h
          split at h
          · simp at h
          · exact hrw _ h

theorem findValidPageSpec_some {s : FastMapping} {lpn b i : Nat} {k : BlockType}
    (h : s.findValidPageSpec lpn = some (b, i, k)) :
    ∃ pbn, s.logicalToPhysicalBlockMapping (lpn / s.param.pagesInBlock) = some pbn ∧
      ((k = BlockType.kBlockTypeData ∧ b = pbn ∧ i = lpn % s.param.pagesInBlock ∧
          s.vbit pbn i = true) ∨
        (k = BlockType.kBlockTypeSW ∧ s.SWBlock = some b ∧ i = lpn % s.param.pagesInBlock ∧
          s.vbit pbn i = false ∧ s.vbit b i = true ∧ s.lpnAt b i = lpn) ∨
        (k = BlockType.kBlockTypeRW ∧ s.RWlogMapping lpn = some (b, i) ∧
          s.vbit pbn (lpn % s.param.pagesInBlock) = false)) := by
  unfold findValidPageSpec at h
  simp only [getPageInfo_lpn, isValid_vbit] at h
  cases h1 : s.logicalToPhysicalBlockMapping (lpn / s.param.pagesInBlock) with
  | none => simp [h1] at h
  | some pbn =>
    refine ⟨pbn, rfl, ?_⟩
    rw [h1] at h
    simp only [] at h
    cases h2 : s.vbit pbn (lpn % s.param.pagesInBlock) with
    | true =>
      simp only [h2, if_true] at h
      injection h with h
      injection h with h3 h
      injection h with h4 h5
      subst h3 h4 h5
      exact Or.inl ⟨rfl, rfl, rfl, h2⟩
    | false =>
      simp only [h2, Bool.false_eq_true, if_false] at h
      have hrw : ∀ (x : Option (Nat × Nat)),
          (match x with
            | some (rwPbn, pageIdx) => some (rwPbn, pageIdx, BlockType.kBlockTypeRW)
            | none => (none : Option (Nat × Nat × BlockType))) = some (b, i, k) →
            k = BlockType.kBlockTypeRW ∧ x = some (b, i) := by
        intro x hx
        cases x with
        | none => simp at hx
        | some r =>
          obtain ⟨r1, r2⟩ := r
          simp only [] at hx
          injection hx with hx
          injection hx with h3 hx
          injection hx with h4 h5
          subst h3 h4 h5
          exact ⟨rfl, rfl⟩
      cases h3 : s.SWBlock with
      | none =>
        rw [h3] at h
        obtain ⟨hk, hx⟩ := hrw _ h
        exact Or.inr (Or.inr ⟨hk, hx, rfl⟩)
      | some sw =>
        rw [h3] at h
        simp only [] at h
        split at h
        · rename_i hc
          injection h with h
          injection h with h4 h
          injection h with h5 h6
          subst h4 h5 h6
          exact Or.inr (Or.inl ⟨rfl, rfl, rfl, h2, hc.1, hc.2⟩)
        · obtain ⟨hk, hx⟩ := hrw _ h
          exact Or.inr (Or.inr ⟨hk, hx, rfl⟩)

theorem findValidPage_some_none {s : FastMapping} {lpn : Nat}
    (h : s.findValidPage lpn = some none) :
    lpn / s.param.pagesInBlock < s.param.totalLogicalBlocks ∧ s.findValidPageSpec lpn = none := by
  rw [findValidPage_cases] at h
  split at h
  · rename_i h0
    refine ⟨h0, ?_⟩
    split at h
    · split at h
      · simp at h
      · simp at h
    · injection h
  · simp at h

theorem findValidPage_some_some {s : FastMapping} {lpn b i : Nat} {k : BlockType}
    (h : s.findValidPage lpn = some (some (b, i, k))) :
    lpn / s.param.pagesInBlock < s.param.totalLogicalBlocks ∧
      s.findValidPageSpec lpn = some (b, i, k) ∧
      (k = BlockType.kBlockTypeRW → s.vbit b i = true ∧ s.lpnAt b i = lpn) := by
  rw [findValidPage_cases] at h
  split at h
  · rename_i h0
    refine ⟨h0, ?_⟩
    split at h
    · rename_i b1 i1 hs
      split at h
      · rename_i hc
        injection h with h
        injection h with h
        injection h with h1 h
        injection h with h2 h3
        subst h1 h2 h3
        exact ⟨hs, fun _ => hc⟩
      · simp at h
    · rename_i r hr
      injection h with h
      refine ⟨h, ?_⟩
      intro hk
      subst hk
      exact absurd h (hr b i)
  · simp at h

end FastMapping
end SimpleSSD

namespace SimpleSSD
namespace FastMapping

/-- A block with a valid page is a data block, the SW block or an RW block. -/
theorem InvC.role {s : FastMapping} {c b i : Nat} (hi : InvC s c) (hv : s.vbit b i = true) :
    (∃ a, s.logicalToPhysicalBlockMapping a = some b) ∨ s.SWBlock = some b ∨ b ∈ s.RWBlocks := by
  by_contra hcon
  simp only [not_or, not_exists] at hcon
  obtain ⟨h1, h2, h3⟩ := hcon
  obtain ⟨hlt, he⟩ := hi.bits b i hv
  have := (hi.clean b h1 h2 h3).1 i hlt
  rw [he] at this
  exact absurd this (by simp)

/-- Where a valid page lives, in terms of the LPN it stores. -/
theorem InvC.home {s : FastMapping} {c b i : Nat} (hi : InvC s c) (hv : s.vbit b i = true) :
    (s.logicalToPhysicalBlockMapping (s.lpnAt b i / s.param.pagesInBlock)).isSome = true ∧
      ((s.logicalToPhysicalBlockMapping (s.lpnAt b i / s.param.pagesInBlock) = some b ∧
          i = s.lpnAt b i % s.param.pagesInBlock) ∨
        (s.SWBlock = some b ∧ i = s.lpnAt b i % s.param.pagesInBlock) ∨
        (b ∈ s.RWBlocks ∧ s.RWlogMapping (s.lpnAt b i) = some (b, i))) := by
  obtain ⟨hlt, he⟩ := hi.bits b i hv
  rcases hi.role hv with ⟨a, ha⟩ | hsw | hrw
  · have hl := hi.data a b i ha hv
    obtain ⟨h1, h2⟩ := div_mod_of_pos hlt hl
    rw [h1, h2]
    exact ⟨by simp [ha], Or.inl ⟨ha, rfl⟩⟩
  · obtain ⟨o, -, ho2, ho3⟩ := hi.sw b i hsw hlt he
    obtain ⟨h1, h2⟩ := div_mod_of_pos hlt (ho3 hv)
    rw [h1, h2]
    exact ⟨ho2, Or.inr (Or.inl ⟨hsw, rfl⟩)⟩
  · obtain ⟨h1, h2⟩ := hi.rwloc b i hrw hv
    exact ⟨h2, Or.inr (Or.inr ⟨hrw, h1⟩)⟩

/-- Lookup completeness: when `findValidPage` reports NOT-FOUND, no valid page
stores the LPN. -/
theorem InvC.noCopy_of_notFound {s : FastMapping} {c lpn : Nat} (hi : InvC s c)
    (h : s.findValidPage lpn = some none) : NoCopy s lpn := by
  obtain ⟨-, hs⟩ := findValidPage_some_none h
  intro b i hv hl
  obtain ⟨hsome, hhome⟩ := hi.home hv
  rw [hl] at hsome hhome
  rcases findValidPageSpec_none hs with hnone | ⟨pbn, hp, hvp, hsw, hrw⟩
  · rw [hnone] at hsome
    simp at hsome
  · rcases hhome with ⟨h1, h2⟩ | ⟨h1, h2⟩ | ⟨-, h2⟩
    · rw [hp] at h1
      injection h1 with h1
      subst h1
      rw [← h2, hv] at hvp
      simp at hvp
    · refine hsw b h1 ?_
      rw [← h2]
      exact ⟨hv, hl⟩
    · rw [hrw] at h2
      simp at h2

/-- Lookup soundness: the page `findValidPage` returns is valid and stores the
LPN; a data hit is in the mapped data block at the offset of the LPN, an SW
hit is in the SW block, an RW hit is the recorded entry; and unless the hit is
an RW hit, `RWlogMapping` has no entry for the LPN. -/
theorem InvC.found {s : FastMapping} {c lpn b i : Nat} {k : BlockType} (hi : InvC s c)
    (h : s.findValidPage lpn = some (some (b, i, k))) :
    s.vbit b i = true ∧ s.lpnAt b i = lpn ∧
      lpn / s.param.pagesInBlock < s.param.totalLogicalBlocks ∧
      (k = BlockType.kBlockTypeData →
        s.logicalToPhysicalBlockMapping (lpn / s.param.pagesInBlock) = some b ∧
          i = lpn % s.param.pagesInBlock) ∧
      (k = BlockType.kBlockTypeSW → s.SWBlock = some b ∧ i = lpn % s.param.pagesInBlock) ∧
      (k = BlockType.kBlockTypeRW → s.RWlogMapping lpn = some (b, i)) ∧
      (k ≠ BlockType.kBlockTypeRW → s.RWlogMapping lpn = none) ∧
      (k = BlockType.kBlockTypeData ∨ k = BlockType.kBlockTypeSW ∨
        k = BlockType.kBlockTypeRW) := by
  obtain ⟨hlt, hs, hrwc⟩ := findValidPage_some_some h
  obtain ⟨pbn, hp, hcase⟩ := findValidPageSpec_some hs
  have hnorw : ∀ b1 i1, s.vbit b1 i1 = true → s.lpnAt b1 i1 = lpn → b1 ∉ s.RWBlocks →
      s.RWlogMapping lpn = none := by
    intro b1 i1 hv1 hl1 hn
    cases hr : s.RWlogMapping lpn with
    | none => rfl
    | some r =>
      obtain ⟨b2, i2⟩ := r
      obtain ⟨h1, h2, h3⟩ := hi.rwmap lpn b2 i2 hr
      obtain ⟨h4, -⟩ := hi.one b1 i1 b2 i2 hv1 h2 (hl1.trans h3.symm)
      subst h4
      exact absurd h1 hn
  rcases hcase with ⟨hk, hb, hi1, hv⟩ | ⟨hk, hsw, hi1, -, hv, hl⟩ | ⟨hk, hr, -⟩
  · subst hk hb
    have hl : s.lpnAt b i = lpn := by
      rw [hi.data _ b i hp hv, hi1]
      exact Nat.div_add_mod' lpn s.param.pagesInBlock
    refine ⟨hv, hl, hlt, fun _ => ⟨hp, hi1⟩, (fun hk => nomatch hk), (fun hk => nomatch hk),
      fun _ => hnorw b i hv hl (hi.l2pRW _ b hp), Or.inl rfl⟩
  · subst hk
    refine ⟨hv, hl, hlt, (fun hk => nomatch hk), fun _ => ⟨hsw, hi1⟩, (fun hk => nomatch hk),
      fun _ => hnorw b i hv hl (hi.swRW b hsw), Or.inr (Or.inl rfl)⟩
  · subst hk
    obtain ⟨hv, hl⟩ := hrwc rfl
    exact ⟨hv, hl, hlt, (fun hk => nomatch hk), (fun hk => nomatch hk), fun _ => hr,
      fun hk => absurd rfl hk, Or.inr (Or.inr rfl)⟩

end FastMapping
end SimpleSSD

namespace SimpleSSD
namespace FastMapping

/-- What a successful block write of an LPN without valid copy gives, whatever
the role of the block: the block-local parts of the invariant and the
uniqueness of copies. -/
theorem InvC.write_common {s s1 : FastMapping} {c p i l t : Nat} (hi : InvC s c)
    (hn : NoCopy s l) (h : s.writeBlock p i l t = some s1) :
    i < s.param.pagesInBlock ∧ s.vbit p i = false ∧ s.ebit p i = true ∧
      (∀ b j, s1.vbit b j = (decide (b = p ∧ j = i) || s.vbit b j)) ∧
      (∀ b j, s1.ebit b j = (!decide (b = p ∧ j = i) && s.ebit b j)) ∧
      (∀ b j, s1.lpnAt b j = if b = p ∧ j = i then l else s.lpnAt b j) ∧
      (∀ b, s1.curs b = if b = p then i + 1 else s.curs b) ∧
      (∀ b, (s1.physicalBlocks b).pageCount = s.param.pagesInBlock ∧
        (s1.physicalBlocks b).pLPNs.isSome = true) ∧
      (∀ b j, s1.vbit b j = true → j < s.param.pagesInBlock ∧ s1.ebit b j = false) ∧
      (∀ b j, s1.ebit b j = true → j < s.param.pagesInBlock) ∧
      (∀ b j b1 j1, s1.vbit b j = true → s1.vbit b1 j1 = true →
        s1.lpnAt b j = s1.lpnAt b1 j1 → b = b1 ∧ j = j1) := by
  obtain ⟨he, hV, hE, hL, hC, hP, hS⟩ := writeBlock_views h
  have hlt := hi.erasedLt p i he
  have hv : s.vbit p i = false := by
    cases hv : s.vbit p i with
    | false => rfl
    | true =>
      have := (hi.bits p i hv).2
      rw [he] at this
      exact absurd this (by simp)
  have hL' : ∀ b j, s1.lpnAt b j = if b = p ∧ j = i then l else s.lpnAt b j := by
    intro b j
    rw [hL]
    by_cases hb : b = p ∧ j = i
    · simp [hb, (hi.blk p).2]
    · have : ¬ (b = p ∧ j = i ∧ (s.physicalBlocks p).pLPNs.isSome = true) :=
        fun hx => hb ⟨hx.1, hx.2.1⟩
      rw [if_neg hb, if_neg this]
  refine ⟨hlt, hv, he, hV, hE, hL', hC, ?_, ?_, ?_, ?_⟩
  · intro b
    rw [hP, hS]
    exact hi.blk b
  · intro b j hb
    rw [hV] at hb
    rw [hE]
    by_cases hx : b = p ∧ j = i
    · obtain ⟨rfl, rfl⟩ := hx
      exact ⟨hlt, by simp⟩
    · simp only [hx, decide_False, Bool.false_or] at hb
      obtain ⟨h1, h2⟩ := hi.bits b j hb
      exact ⟨h1, by simp [h2]⟩
  · intro b j hb
    rw [hE] at hb
    simp only [Bool.and_eq_true] at hb
    exact hi.erasedLt b j hb.2
  · intro b j b1 j1 hb hb1 hl
    rw [hV] at hb hb1
    rw [hL', hL'] at hl
    by_cases hx : b = p ∧ j = i
    · by_cases hx1 : b1 = p ∧ j1 = i
      · exact ⟨hx.1.trans hx1.1.symm, hx.2.trans hx1.2.symm⟩
      · simp only [hx1, decide_False, Bool.false_or] at hb1
        rw [if_pos hx, if_neg hx1] at hl
        exact absurd hl.symm (hn b1 j1 hb1)
    · simp only [hx, decide_False, Bool.false_or] at hb
      by_cases hx1 : b1 = p ∧ j1 = i
      · rw [if_neg hx, if_pos hx1] at hl
        exact absurd hl (hn b j hb)
      · simp only [hx1, decide_False, Bool.false_or] at hb1
        rw [if_neg hx, if_neg hx1] at hl
        exact hi.one b j b1 j1 hb hb1 hl

end FastMapping
end SimpleSSD

namespace SimpleSSD
namespace FastMapping

/-- A write of an LPN without valid copy into its data block keeps the
invariant. -/
theorem InvC.write_data {s s1 : FastMapping} {c p lpn t : Nat} (hi : InvC s c)
    (hn : NoCopy s lpn)
    (hp : s.logicalToPhysicalBlockMapping (lpn / s.param.pagesInBlock) = some p)
    (h : s.writeBlock p (lpn % s.param.pagesInBlock) lpn t = some s1) : InvC s1 c := by
  obtain ⟨hlt, hv, he, hV, hE, hL, hC, hblk, hbits, helt, hone⟩ := hi.write_common hn h
  obtain ⟨b0, hb0, rfl⟩ := writeBlock_eq h
  have hprw : p ∉ s.RWBlocks := hi.l2pRW _ p hp
  have hpsw : s.SWBlock ≠ some p := hi.l2pSW _ p hp
  constructor
  · exact hblk
  · exact hbits
  · exact helt
  · exact hi.free
  · exact hi.l2pLt
  · exact hi.swLt
  · exact hi.rwLt
  · exact hi.rwNodup
  · exact hi.swRW
  · exact hi.l2pInj
  · exact hi.l2pRW
  · exact hi.l2pSW
  · intro b h1 h2 h3
    have hbp : b ≠ p := fun hx => h1 _ (hx ▸ hp)
    obtain ⟨h4, h5⟩ := hi.clean b h1 h2 h3
    refine ⟨?_, ?_⟩
    · intro j hj
      rw [hE]
      simp [hbp, h4 j hj]
    · rw [hC]
      simp [hbp, h5]
  · intro a q j hq hvq
    rw [hV] at hvq
    rw [hL]
    by_cases hx : q = p ∧ j = lpn % s.param.pagesInBlock
    · obtain ⟨rfl, rfl⟩ := hx
      have := hi.l2pInj _ _ _ hq hp
      subst this
      simp only [and_self, if_true]
      exact (Nat.div_add_mod' lpn s.param.pagesInBlock).symm
    · simp only [hx, decide_False, Bool.false_or] at hvq
      rw [if_neg hx]
      exact hi.data a q j hq hvq
  · intro sw j hsw hj hej
    have hswp : sw ≠ p := fun hx => hpsw (hx ▸ hsw)
    rw [hE] at hej
    simp only [hswp, false_and, decide_False, Bool.not_false, Bool.true_and] at hej
    obtain ⟨o, h1, h2, h3⟩ := hi.sw sw j hsw hj hej
    refine ⟨o, h1, h2, ?_⟩
    rw [hV, hL]
    simpa [hswp] using h3
  · intro l b j hr
    obtain ⟨h1, h2, h3⟩ := hi.rwmap l b j hr
    have hbp : b ≠ p := fun hx => hprw (hx ▸ h1)
    refine ⟨h1, ?_, ?_⟩
    · rw [hV]
      simp [h2]
    · rw [hL]
      simp [hbp, h3]
  · intro b j hb hvb
    have hbp : b ≠ p := fun hx => hprw (hx ▸ hb)
    rw [hV] at hvb
    simp only [hbp, false_and, decide_False, Bool.false_or] at hvb
    rw [hL]
    simp only [hbp, false_and, if_false]
    exact hi.rwloc b j hb hvb
  · intro b j hb hj
    have hbp : b ≠ p := fun hx => hprw (hx ▸ hb)
    rw [hE, hC]
    simp only [hbp, false_and, decide_False, Bool.not_false, Bool.true_and, if_false]
    exact hi.rwseq b j hb hj
  · exact hone

theorem views_of_blocks {S s1 : FastMapping} (h : S.physicalBlocks = s1.physicalBlocks) :
    S.vbit = s1.vbit ∧ S.ebit = s1.ebit ∧ S.lpnAt = s1.lpnAt ∧ S.curs = s1.curs := by
  unfold vbit ebit lpnAt curs
  rw [h]
  exact ⟨rfl, rfl, rfl, rfl⟩

/-- A write of an LPN without valid copy into the page of its offset in the SW
block, which is clean or owned by the logical block of the LPN, together with
recording that owner, keeps the invariant. `S` is the state after both. -/
theorem InvC.write_sw {s s1 S : FastMapping} {c sw lpn t : Nat}
    (hi : InvC s c) (hn : NoCopy s lpn) (hsw : s.SWBlock = some sw)
    (hmap : (s.logicalToPhysicalBlockMapping (lpn / s.param.pagesInBlock)).isSome = true)
    (hown : s.physicalToLogicalBlockMapping sw = some (lpn / s.param.pagesInBlock) ∨
      ∀ j, j < s.param.pagesInBlock → s.ebit sw j = true)
    (h : s.writeBlock sw (lpn % s.param.pagesInBlock) lpn t = some s1)
    (hB : S.physicalBlocks = s1.physicalBlocks) (hparam : S.param = s.param)
    (hl2p : S.logicalToPhysicalBlockMapping = s.logicalToPhysicalBlockMapping)
    (hfree : S.freeBlocks = s.freeBlocks) (hrwmap : S.RWlogMapping = s.RWlogMapping)
    (hSW : S.SWBlock = s.SWBlock) (hRW : S.RWBlocks = s.RWBlocks)
    (hq : S.physicalToLogicalBlockMapping sw = some (lpn / s.param.pagesInBlock))
    (_hq1 : ∀ b, b ≠ sw → S.physicalToLogicalBlockMapping b = s.physicalToLogicalBlockMapping b) :
    InvC S c := by
  obtain ⟨hlt, hv, he, hV, hE, hL, hC, hblk, hbits, helt, hone⟩ := hi.write_common hn h
  obtain ⟨e1, e2, e3, e4⟩ := views_of_blocks hB
  rw [← e1] at hV hbits hone
  rw [← e2] at hE hbits helt
  rw [← e3] at hL hone
  rw [← e4] at hC
  rw [← hB] at hblk
  have hprw : sw ∉ s.RWBlocks := hi.swRW sw hsw
  have hpd : ∀ a, s.logicalToPhysicalBlockMapping a ≠ some sw := fun a hx => hi.l2pSW a sw hx hsw
  constructor
  · rw [hparam]; exact hblk
  · rw [hparam]; exact hbits
  · rw [hparam]; exact helt
  · rw [hfree]; exact hi.free
  · rw [hl2p]; exact hi.l2pLt
  · rw [hSW]; exact hi.swLt
  · rw [hRW]; exact hi.rwLt
  · rw [hRW]; exact hi.rwNodup
  · rw [hSW, hRW]; exact hi.swRW
  · rw [hl2p]; exact hi.l2pInj
  · rw [hl2p, hRW]; exact hi.l2pRW
  · rw [hl2p, hSW]; exact hi.l2pSW
  · rw [hl2p, hSW, hRW, hparam]
    intro b h1 h2 h3
    have hbp : b ≠ sw := fun hx => h2 (hx ▸ hsw)
    obtain ⟨h4, h5⟩ := hi.clean b h1 h2 h3
    refine ⟨?_, ?_⟩
    · intro j hj
      rw [hE]
      simp [hbp, h4 j hj]
    · rw [hC]
      simp [hbp, h5]
  · rw [hl2p, hparam]
    intro a p j hp hvp
    have hpsw : p ≠ sw := fun hx => hpd a (hx ▸ hp)
    rw [hV] at hvp
    simp only [hpsw, false_and, decide_False, Bool.false_or] at hvp
    rw [hL]
    simp only [hpsw, false_and, if_false]
    exact hi.data a p j hp hvp
  · rw [hl2p, hSW, hparam]
    intro sw1 j hsw1 hj hej
    rw [hsw] at hsw1
    injection hsw1 with hsw1
    subst hsw1
    refine ⟨lpn / s.param.pagesInBlock, hq, hmap, ?_⟩
    intro hvj
    rw [hV] at hvj
    rw [hL]
    by_cases hx : j = lpn % s.param.pagesInBlock
    · subst hx
      simp only [and_self, if_true]
      exact (Nat.div_add_mod' lpn s.param.pagesInBlock).symm
    · simp only [hx, and_false, decide_False, Bool.false_or] at hvj
      simp only [hx, and_false, if_false]
      rcases hown with hown | hown
      · obtain ⟨o, h1, -, h3⟩ := hi.sw sw j hsw hj (hi.bits sw j hvj).2
        rw [hown] at h1
        injection h1 with h1
        subst h1
        exact h3 hvj
      · have := (hi.bits sw j hvj).2
        rw [hown j hj] at this
        exact absurd this (by simp)
  · rw [hrwmap, hRW]
    intro l b j hr
    obtain ⟨h1, h2, h3⟩ := hi.rwmap l b j hr
    have hbp : b ≠ sw := fun hx => hprw (hx ▸ h1)
    refine ⟨h1, ?_, ?_⟩
    · rw [hV]
      simp [h2]
    · rw [hL]
      simp [hbp, h3]
  · rw [hrwmap, hRW, hl2p, hparam]
    intro b j hb hvb
    have hbp : b ≠ sw := fun hx => hprw (hx ▸ hb)
    rw [hV] at hvb
    simp only [hbp, false_and, decide_False, Bool.false_or] at hvb
    rw [hL]
    simp only [hbp, false_and, if_false]
    exact hi.rwloc b j hb hvb
  · rw [hRW, hparam]
    intro b j hb hj
    have hbp : b ≠ sw := fun hx => hprw (hx ▸ hb)
    rw [hE, hC]
    simp only [hbp, false_and, decide_False, Bool.not_false, Bool.true_and, if_false]
    exact hi.rwseq b j hb hj
  · exact hone

end FastMapping
end SimpleSSD

namespace SimpleSSD
namespace FastMapping

/-- A write of an LPN without valid copy at the cursor of an RW block,
together with recording the page in `RWlogMapping`, keeps the invariant. `S`
is the state after both. -/
theorem InvC.write_rw {s s1 S : FastMapping} {c tgt lpn t : Nat}
    (hi : InvC s c) (hn : NoCopy s lpn) (htgt : tgt ∈ s.RWBlocks)
    (hmap : (s.logicalToPhysicalBlockMapping (lpn / s.param.pagesInBlock)).isSome = true)
    (h : s.writeBlock tgt (s.curs tgt) lpn t = some s1)
    (hB : S.physicalBlocks = s1.physicalBlocks) (hparam : S.param = s.param)
    (hl2p : S.logicalToPhysicalBlockMapping = s.logicalToPhysicalBlockMapping)
    (hp2l : S.physicalToLogicalBlockMapping = s.physicalToLogicalBlockMapping)
    (hfree : S.freeBlocks = s.freeBlocks)
    (hrwmap : S.RWlogMapping = upd s.RWlogMapping lpn (some (tgt, s.curs tgt)))
    (hSW : S.SWBlock = s.SWBlock) (hRW : S.RWBlocks = s.RWBlocks) :
    InvC S c := by
  obtain ⟨hlt, hv, he, hV, hE, hL, hC, hblk, hbits, helt, hone⟩ := hi.write_common hn h
  obtain ⟨e1, e2, e3, e4⟩ := views_of_blocks hB
  rw [← e1] at hV hbits hone
  rw [← e2] at hE hbits helt
  rw [← e3] at hL hone
  rw [← e4] at hC
  rw [← hB] at hblk
  have hnsw : s.SWBlock ≠ some tgt := fun hx => hi.swRW tgt hx htgt
  have hpd : ∀ a, s.logicalToPhysicalBlockMapping a ≠ some tgt :=
    fun a hx => hi.l2pRW a tgt hx htgt
  constructor
  · rw [hparam]; exact hblk
  · rw [hparam]; exact hbits
  · rw [hparam]; exact helt
  · rw [hfree]; exact hi.free
  · rw [hl2p]; exact hi.l2pLt
  · rw [hSW]; exact hi.swLt
  · rw [hRW]; exact hi.rwLt
  · rw [hRW]; exact hi.rwNodup
  · rw [hSW, hRW]; exact hi.swRW
  · rw [hl2p]; exact hi.l2pInj
  · rw [hl2p, hRW]; exact hi.l2pRW
  · rw [hl2p, hSW]; exact hi.l2pSW
  · rw [hl2p, hSW, hRW, hparam]
    intro b h1 h2 h3
    have hbp : b ≠ tgt := fun hx => h3 (hx ▸ htgt)
    obtain ⟨h4, h5⟩ := hi.clean b h1 h2 h3
    refine ⟨?_, ?_⟩
    · intro j hj
      rw [hE]
      simp [hbp, h4 j hj]
    · rw [hC]
      simp [hbp, h5]
  · rw [hl2p, hparam]
    intro a p j hp hvp
    have hpsw : p ≠ tgt := fun hx => hpd a (hx ▸ hp)
    rw [hV] at hvp
    simp only [hpsw, false_and, decide_False, Bool.false_or] at hvp
    rw [hL]
    simp only [hpsw, false_and, if_false]
    exact hi.data a p j hp hvp
  · rw [hl2p, hSW, hparam, hp2l]
    intro sw j hsw hj hej
    have hswp : sw ≠ tgt := fun hx => hnsw (hx ▸ hsw)
    rw [hE] at hej
    simp only [hswp, false_and, decide_False, Bool.not_false, Bool.true_and] at hej
    obtain ⟨o, h1, h2, h3⟩ := hi.sw sw j hsw hj hej
    refine ⟨o, h1, h2, ?_⟩
    rw [hV, hL]
    simpa [hswp] using h3
  · rw [hrwmap, hRW]
    intro l b j hr
    simp only [upd_apply] at hr
    split at hr
    · rename_i hl
      subst hl
      injection hr with hr
      injection hr with h1 h2
      subst h1 h2
      refine ⟨htgt, ?_, ?_⟩
      · rw [hV]; simp
      · rw [hL]; simp
    · rename_i hl
      obtain ⟨h1, h2, h3⟩ := hi.rwmap l b j hr
      refine ⟨h1, ?_, ?_⟩
      · rw [hV]
        simp [h2]
      · rw [hL]
        by_cases hx : b = tgt ∧ j = s.curs tgt
        · obtain ⟨rfl, rfl⟩ := hx
          rw [hv] at h2
          exact absurd h2 (by simp)
        · rw [if_neg hx]
          exact h3
  · rw [hrwmap, hRW, hl2p, hparam]
    intro b j hb hvb
    rw [hV] at hvb
    rw [hL]
    by_cases hx : b = tgt ∧ j = s.curs tgt
    · obtain ⟨rfl, rfl⟩ := hx
      simp only [and_self, if_true, upd_apply]
      exact ⟨trivial, hmap⟩
    · simp only [hx, decide_False, Bool.false_or] at hvb
      rw [if_neg hx]
      obtain ⟨h1, h2⟩ := hi.rwloc b j hb hvb
      refine ⟨?_, h2⟩
      simp only [upd_apply]
      rw [if_neg (hn b j hvb)]
      exact h1
  · rw [hRW, hparam]
    intro b j hb hj
    rw [hE, hC]
    have hseq := hi.rwseq b j hb hj
    by_cases hbt : b = tgt
    · subst hbt
      simp only [true_and, if_true]
      by_cases hj1 : j = s.curs b
      · simp [hj1]
      · simp only [hj1, decide_False, Bool.not_false, Bool.true_and]
        rw [hseq]
        omega
    · simp only [hbt, false_and, decide_False, Bool.not_false, Bool.true_and, if_false]
      exact hseq
  · exact hone

end FastMapping
end SimpleSSD

namespace SimpleSSD
namespace FastMapping

/-- Blocks from the boundary on were never used: they are clean, with cursor 0
and without valid page. -/
theorem InvC.fresh {s : FastMapping} {c b : Nat} (hi : InvC s c) (hb : c ≤ b) :
    (∀ j, j < s.param.pagesInBlock → s.ebit b j = true) ∧ s.curs b = 0 ∧
      (∀ j, s.vbit b j = false) ∧ (∀ a, s.logicalToPhysicalBlockMapping a ≠ some b) ∧
      s.SWBlock ≠ some b ∧ b ∉ s.RWBlocks := by
  have h1 : ∀ a, s.logicalToPhysicalBlockMapping a ≠ some b := by
    intro a ha
    have := hi.l2pLt a b ha
    omega
  have h2 : s.SWBlock ≠ some b := by
    intro ha
    have := hi.swLt b ha
    omega
  have h3 : b ∉ s.RWBlocks := by
    intro ha
    have := hi.rwLt b ha
    omega
  obtain ⟨h4, h5⟩ := hi.clean b h1 h2 h3
  refine ⟨h4, h5, ?_, h1, h2, h3⟩
  intro j
  cases hv : s.vbit b j with
  | false => rfl
  | true =>
    obtain ⟨h6, h7⟩ := hi.bits b j hv
    rw [h4 j h6] at h7
    exact absurd h7 (by simp)

/-- A block that is in no role (data, SW, RW) has no valid page. -/
theorem InvC.noRole_invalid {s : FastMapping} {c b : Nat} (hi : InvC s c)
    (h1 : ∀ a, s.logicalToPhysicalBlockMapping a ≠ some b) (h2 : s.SWBlock ≠ some b)
    (h3 : b ∉ s.RWBlocks) (j : Nat) : s.vbit b j = false := by
  cases hv : s.vbit b j with
  | false => rfl
  | true =>
    rcases hi.role hv with ⟨a, ha⟩ | hsw | hrw
    · exact absurd ha (h1 a)
    · exact absurd hsw h2
    · exact absurd hrw h3

theorem writeEnsureMapping_eq {s s1 : FastMapping} {lbn : Nat}
    (h : s.writeEnsureMapping lbn = some s1) :
    ((s.logicalToPhysicalBlockMapping lbn).isSome = true ∧ s1 = s) ∨
      (s.logicalToPhysicalBlockMapping lbn = none ∧
        ∃ pbn s0, s.getFreeBlock = some (pbn, s0) ∧
          s1 = { s0 with
            logicalToPhysicalBlockMapping :=
              upd s0.logicalToPhysicalBlockMapping lbn (some pbn)
            physicalToLogicalBlockMapping :=
              upd s0.physicalToLogicalBlockMapping pbn (some lbn) }) := by
  unfold writeEnsureMapping at h
  split at h
  · rename_i p hp
    injection h with h
    exact Or.inl ⟨by simp [hp], h.symm⟩
  · rename_i hp
    split at h
    · exact absurd h (by simp)
    · rename_i pbn s0 hf
      injection h with h
      exact Or.inr ⟨hp, pbn, s0, hf, h.symm⟩

/-- Creating the block mapping of a logical block keeps the invariant and
changes no block. -/
theorem InvC.ensureMapping {s s1 : FastMapping} {c lbn : Nat} (hi : InvC s c)
    (h : s.writeEnsureMapping lbn = some s1) :
    (∃ c1, InvC s1 c1) ∧ (s1.logicalToPhysicalBlockMapping lbn).isSome = true ∧
      s1.physicalBlocks = s.physicalBlocks ∧ s1.param = s.param := by
  rcases writeEnsureMapping_eq h with ⟨hs, rfl⟩ | ⟨hnone, pbn, s0, hf, rfl⟩
  · exact ⟨⟨c, hi⟩, hs, rfl, rfl⟩
  · obtain ⟨rfl, n, rfl⟩ := hi.getFreeBlock hf
    refine ⟨⟨pbn + 1, ?_⟩, by simp, rfl, rfl⟩
    obtain ⟨f1, f2, f3, f4, f5, f6⟩ := hi.fresh (Nat.le_refl pbn)
    constructor
    · exact hi.blk
    · exact hi.bits
    · exact hi.erasedLt
    · exact ⟨n, rfl⟩
    · intro a p hp
      simp only [upd_apply] at hp
      split at hp
      · injection hp with hp
        omega
      · have := hi.l2pLt a p hp
        omega
    · intro sw hsw
      have := hi.swLt sw hsw
      omega
    · intro b hb
      have := hi.rwLt b hb
      omega
    · exact hi.rwNodup
    · exact hi.swRW
    · intro a a1 p hp hp1
      simp only [upd_apply] at hp hp1
      split at hp
      · split at hp1
        · rename_i h1 h2
          rw [h1, h2]
        · injection hp with hp
          subst hp
          exact absurd hp1 (f4 a1)
      · split at hp1
        · injection hp1 with hp1
          subst hp1
          exact absurd hp (f4 a)
        · exact hi.l2pInj a a1 p hp hp1
    · intro a p hp
      simp only [upd_apply] at hp
      split at hp
      · injection hp with hp
        subst hp
        exact f6
      · exact hi.l2pRW a p hp
    · intro a p hp
      simp only [upd_apply] at hp
      split at hp
      · injection hp with hp
        subst hp
        exact f5
      · exact hi.l2pSW a p hp
    · intro b h1 h2 h3
      refine hi.clean b ?_ h2 h3
      intro a ha
      by_cases hal : a = lbn
      · subst hal
        rw [hnone] at ha
        exact absurd ha (by simp)
      · exact h1 a (by simp [hal, ha])
    · intro a p j hp hv
      simp only [upd_apply] at hp
      split at hp
      · injection hp with hp
        subst hp
        have hv' : s.vbit pbn j = true := hv
        rw [f3 j] at hv'
        exact absurd hv' (by simp)
      · exact hi.data a p j hp hv
    · intro sw j hsw hj he
      obtain ⟨o, h1, h2, h3⟩ := hi.sw sw j hsw hj he
      have hne : sw ≠ pbn := fun hx => f5 (hx ▸ hsw)
      refine ⟨o, by simp [hne, h1], ?_, h3⟩
      simp only [upd_apply]
      split
      · rfl
      · exact h2
    · exact hi.rwmap
    · intro b j hb hv
      obtain ⟨h1, h2⟩ := hi.rwloc b j hb hv
      refine ⟨h1, ?_⟩
      simp only [upd_apply]
      split
      · rfl
      · exact h2
    · exact hi.rwseq
    · exact hi.one

end FastMapping
end SimpleSSD

namespace SimpleSSD
namespace FastMapping

theorem writeInvalidate_fields (s : FastMapping) (lpn t b i : Nat) (k : BlockType) :
    (s.writeInvalidate lpn t b i k).param = s.param ∧
      (s.writeInvalidate lpn t b i k).logicalToPhysicalBlockMapping =
        s.logicalToPhysicalBlockMapping ∧
      (s.writeInvalidate lpn t b i k).physicalToLogicalBlockMapping =
        s.physicalToLogicalBlockMapping ∧
      (s.writeInvalidate lpn t b i k).freeBlocks = s.freeBlocks ∧
      (s.writeInvalidate lpn t b i k).SWBlock = s.SWBlock ∧
      (s.writeInvalidate lpn t b i k).RWBlocks = s.RWBlocks ∧
      (s.writeInvalidate lpn t b i k).RWlogMapping =
        (if k = BlockType.kBlockTypeRW then upd s.RWlogMapping lpn none else s.RWlogMapping) ∧
      (s.writeInvalidate lpn t b i k).physicalBlocks =
        upd s.physicalBlocks b ((s.physicalBlocks b).invalidate i t) := by
  unfold writeInvalidate
  by_cases hk : k = BlockType.kBlockTypeRW
  · simp [hk]
  · simp [hk]

theorem writeInvalidate_views (s : FastMapping) (lpn t b i : Nat) (k : BlockType) :
    (∀ q j, (s.writeInvalidate lpn t b i k).vbit q j =
        (!decide (q = b ∧ j = i) && s.vbit q j)) ∧
      (s.writeInvalidate lpn t b i k).ebit = s.ebit ∧
      (s.writeInvalidate lpn t b i k).lpnAt = s.lpnAt ∧
      (s.writeInvalidate lpn t b i k).curs = s.curs ∧
      (∀ q, (s.writeInvalidate lpn t b i k).physicalBlocks q =
        if q = b then (s.physicalBlocks b).invalidate i t else s.physicalBlocks q) := by
  have hB := (writeInvalidate_fields s lpn t b i k).2.2.2.2.2.2.2
  refine ⟨?_, ?_, ?_, ?_, ?_⟩
  · intro q j
    unfold vbit
    rw [hB]
    by_cases hq : q = b
    · subst hq
      by_cases hj : j = i <;>
        simp [BlockFast.invalidate, BlockFast.isValid, Bitset.test, Bitset.reset, hj]
    · simp [hq]
  · funext q j
    unfold ebit
    rw [hB]
    by_cases hq : q = b
    · subst hq
      simp [BlockFast.invalidate, BlockFast.isErased]
    · simp [hq]
  · funext q j
    unfold lpnAt
    rw [hB]
    by_cases hq : q = b
    · subst hq
      simp [BlockFast.invalidate, BlockFast.getPageInfo]
    · simp [hq]
  · funext q
    unfold curs
    rw [hB]
    by_cases hq : q = b
    · subst hq
      simp [BlockFast.invalidate, BlockFast.getNextWritePageIndex]
    · simp [hq]
  · intro q
    rw [hB]
    rfl

/-- Invalidating the page found by `findValidPage` (and removing its
`RWlogMapping` entry when it is an RW hit) keeps the invariant and leaves no
valid copy of the LPN. -/
theorem InvC.invalidate {s : FastMapping} {c lpn t b i : Nat} {k : BlockType} (hi : InvC s c)
    (h : s.findValidPage lpn = some (some (b, i, k))) :
    InvC (s.writeInvalidate lpn t b i k) c ∧ NoCopy (s.writeInvalidate lpn t b i k) lpn := by
  obtain ⟨hv, hl, -, -, -, hrw, hnrw, -⟩ := hi.found h
  obtain ⟨g1, g2, g3, g4, g5, g6, g7, -⟩ := writeInvalidate_fields s lpn t b i k
  obtain ⟨hV, hE, hL, hC, hB⟩ := writeInvalidate_views s lpn t b i k
  have hVold : ∀ q j, (s.writeInvalidate lpn t b i k).vbit q j = true → s.vbit q j = true := by
    intro q j hq
    rw [hV] at hq
    simp only [Bool.and_eq_true] at hq
    exact hq.2
  have hnc : NoCopy (s.writeInvalidate lpn t b i k) lpn := by
    intro q j hq hlq
    rw [hL] at hlq
    have hq' := hVold q j hq
    obtain ⟨rfl, rfl⟩ := hi.one q j b i hq' hv (hlq.trans hl.symm)
    rw [hV] at hq
    simp at hq
  have hmapsome : ∀ l q j, (s.writeInvalidate lpn t b i k).RWlogMapping l = some (q, j) →
      s.RWlogMapping l = some (q, j) ∧ l ≠ lpn := by
    intro l q j hr
    rw [g7] at hr
    by_cases hk : k = BlockType.kBlockTypeRW
    · simp only [hk, if_true, upd_apply] at hr
      split at hr
      · exact absurd hr (by simp)
      · rename_i hne
        exact ⟨hr, hne⟩
    · simp only [hk, if_false] at hr
      refine ⟨hr, ?_⟩
      intro hx
      subst hx
      rw [hnrw hk] at hr
      exact absurd hr (by simp)
  refine ⟨?_, hnc⟩
  constructor
  · intro q
    rw [hB, g1]
    by_cases hq : q = b
    · subst hq
      simp only [if_true]
      exact hi.blk q
    · simp only [hq, if_false]
      exact hi.blk q
  · intro q j hq
    rw [g1, hE]
    exact hi.bits q j (hVold q j hq)
  · rw [g1, hE]; exact hi.erasedLt
  · rw [g4]; exact hi.free
  · rw [g2]; exact hi.l2pLt
  · rw [g5]; exact hi.swLt
  · rw [g6]; exact hi.rwLt
  · rw [g6]; exact hi.rwNodup
  · rw [g5, g6]; exact hi.swRW
  · rw [g2]; exact hi.l2pInj
  · rw [g2, g6]; exact hi.l2pRW
  · rw [g2, g5]; exact hi.l2pSW
  · rw [g2, g5, g6, g1, hE, hC]; exact hi.clean
  · rw [g2, g1, hL]
    intro a p j hp hq
    exact hi.data a p j hp (hVold p j hq)
  · rw [g2, g3, g5, g1, hE, hL]
    intro sw j hsw hj he
    obtain ⟨o, h1, h2, h3⟩ := hi.sw sw j hsw hj he
    exact ⟨o, h1, h2, fun hq => h3 (hVold sw j hq)⟩
  · rw [g6, hL]
    intro l q j hr
    obtain ⟨hr', hne⟩ := hmapsome l q j hr
    obtain ⟨h1, h2, h3⟩ := hi.rwmap l q j hr'
    refine ⟨h1, ?_, h3⟩
    rw [hV, h2]
    by_cases hx : q = b ∧ j = i
    · obtain ⟨rfl, rfl⟩ := hx
      exact absurd (h3.symm.trans hl) hne
    · simp [hx]
  · rw [g6, g2, g1, hL]
    intro q j hq hvq
    have hvq' := hVold q j hvq
    obtain ⟨h1, h2⟩ := hi.rwloc q j hq hvq'
    refine ⟨?_, h2⟩
    rw [g7]
    by_cases hk : k = BlockType.kBlockTypeRW
    · simp only [hk, if_true, upd_apply]
      have hne : s.lpnAt q j ≠ lpn := by
        have := hnc q j hvq
        rwa [hL] at this
      rw [if_neg hne]
      exact h1
    · simp only [hk, if_false]
      exact h1
  · rw [g6, g1, hE, hC]; exact hi.rwseq
  · rw [hL]
    intro q j q1 j1 h1 h2 h3
    exact hi.one q j q1 j1 (hVold q j h1) (hVold q1 j1 h2) h3

end FastMapping
end SimpleSSD

namespace SimpleSSD
namespace FastMapping

/-! ## The three phases of a merge -/

/-- The read phase changes nothing the invariant talks about. -/
theorem mergeReads_sameCore (tick : Nat) (sendToPAL : Bool) :
    ∀ (rs : List PalRequest) (s : FastMapping) (f : Nat) (s1 : FastMapping) (f1 : Nat),
      mergeReads tick sendToPAL rs s f = some (s1, f1) → SameCore s s1 := by
  intro rs
  induction rs with
  | nil =>
    intro s f s1 f1 h
    simp only [mergeReads] at h
    injection h with h
    injection h with h1 h2
    subst h1
    exact SameCore.rfl_ s
  | cons req rest ih =>
    intro s f s1 f1 h
    simp only [mergeReads] at h
    split at h
    · exact absurd h (by simp)
    · rename_i r b hb
      have h1 := readBlock_sameCore s req.blockIndex req.pageIndex 0 tick r b hb
      have h2 := palRead_sameCore
        { s with physicalBlocks := upd s.physicalBlocks req.blockIndex b } req tick sendToPAL
      exact (h1.trans_ h2).trans_ (ih _ _ _ _ h)

/-- The fields of the state a block write leaves alone. -/
theorem writeBlock_maps {s s1 : FastMapping} {p i l t : Nat} (h : s.writeBlock p i l t = some s1) :
    s1.param = s.param ∧
      s1.logicalToPhysicalBlockMapping = s.logicalToPhysicalBlockMapping ∧
      s1.physicalToLogicalBlockMapping = s.physicalToLogicalBlockMapping ∧
      s1.freeBlocks = s.freeBlocks ∧ s1.RWlogMapping = s.RWlogMapping ∧
      s1.SWBlock = s.SWBlock ∧ s1.RWBlocks = s.RWBlocks := by
  obtain ⟨b, -, rfl⟩ := writeBlock_eq h
  exact ⟨rfl, rfl, rfl, rfl, rfl, rfl, rfl⟩

/-- The write phase: if it succeeds, every target page was erased before, the
valid pages afterwards are the old ones and the targets, the erased pages are
the old ones without the targets, a target stores the LPN written to it, and
nothing else changes. -/
theorem mergeWrites_spec (rf : Nat) (sendToPAL : Bool) :
    ∀ (ws : List (PalRequest × Nat)) (s : FastMapping) (f : Nat) (s1 : FastMapping) (f1 : Nat),
      (∀ b, (s.physicalBlocks b).pLPNs.isSome = true) →
      mergeWrites rf sendToPAL ws s f = some (s1, f1) →
      (s1.param = s.param ∧
        s1.logicalToPhysicalBlockMapping = s.logicalToPhysicalBlockMapping ∧
        s1.physicalToLogicalBlockMapping = s.physicalToLogicalBlockMapping ∧
        s1.freeBlocks = s.freeBlocks ∧ s1.RWlogMapping = s.RWlogMapping ∧
        s1.SWBlock = s.SWBlock ∧ s1.RWBlocks = s.RWBlocks) ∧
      (∀ b i, s1.vbit b i = true ↔
        (s.vbit b i = true ∨ ∃ l, (PalRequest.mk b i, l) ∈ ws)) ∧
      (∀ b i, s1.ebit b i = true ↔
        (s.ebit b i = true ∧ ¬ ∃ l, (PalRequest.mk b i, l) ∈ ws)) ∧
      (∀ b i l, (PalRequest.mk b i, l) ∈ ws → s.ebit b i = true ∧ s1.lpnAt b i = l) ∧
      (∀ b i, (¬ ∃ l, (PalRequest.mk b i, l) ∈ ws) → s1.lpnAt b i = s.lpnAt b i) ∧
      (∀ b, (∀ i l, (PalRequest.mk b i, l) ∉ ws) → s1.curs b = s.curs b) ∧
      (∀ b, (s1.physicalBlocks b).pageCount = (s.physicalBlocks b).pageCount ∧
        (s1.physicalBlocks b).pLPNs.isSome = true) := by
  intro ws
  induction ws with
  | nil =>
    intro s f s1 f1 hS h
    simp only [mergeWrites] at h
    injection h with h
    injection h with h1 h2
    subst h1
    refine ⟨⟨rfl, rfl, rfl, rfl, rfl, rfl, rfl⟩, ?_, ?_, ?_, ?_, ?_, ?_⟩
    · intro b i; simp
    · intro b i; simp
    · intro b i l hl; simp at hl
    · intro b i _; rfl
    · intro b _; rfl
    · intro b; exact ⟨rfl, hS b⟩
  | cons w rest ih =>
    intro s f s1 f1 hS h
    obtain ⟨req, l0⟩ := w
    obtain ⟨rb, ri⟩ := req
    simp only [mergeWrites] at h
    split at h
    · exact absurd h (by simp)
    · rename_i s0 hw
      obtain ⟨he, hV, hE, hL, hC, hP, hSS⟩ := writeBlock_views hw
      have hm := writeBlock_maps hw
      have hsc := palWrite_sameCore s0 (PalRequest.mk rb ri) rf sendToPAL
      have hS0 : ∀ b, ((s0.palWrite (PalRequest.mk rb ri) rf sendToPAL).1.physicalBlocks b).pLPNs.isSome
          = true := by
        intro b
        rw [hsc.hasLPNs, hSS]
        exact hS b
      obtain ⟨im, iV, iE, iT, iL, iC, iP⟩ := ih _ _ _ _ hS0 h
      rw [hsc.vbit] at iV
      rw [hsc.ebit] at iE iT
      rw [hsc.lpnAt] at iL
      rw [hsc.curs] at iC
      rw [hsc.param, hsc.l2p, hsc.p2l, hsc.free, hsc.rwmap, hsc.sw, hsc.rw] at im
      have hmem : ∀ b i l, (PalRequest.mk b i, l) ∈ (PalRequest.mk rb ri, l0) :: rest ↔
          ((b = rb ∧ i = ri) ∧ l = l0) ∨ (PalRequest.mk b i, l) ∈ rest := by
        intro b i l
        simp [List.mem_cons]
      refine ⟨?_, ?_, ?_, ?_, ?_, ?_, ?_⟩
      · obtain ⟨m1, m2, m3, m4, m5, m6, m7⟩ := hm
        obtain ⟨n1, n2, n3, n4, n5, n6, n7⟩ := im
        exact ⟨n1.trans m1, n2.trans m2, n3.trans m3, n4.trans m4, n5.trans m5, n6.trans m6,
          n7.trans m7⟩
      · intro b i
        rw [iV, hV]
        simp only [hmem, Bool.or_eq_true, decide_eq_true_eq]
        constructor
        · rintro (⟨h1 | h1⟩ | ⟨l, h1⟩)
          · exact Or.inr ⟨l0, Or.inl ⟨h1, rfl⟩⟩
          · exact Or.inl h1
          · exact Or.inr ⟨l, Or.inr h1⟩
        · rintro (h1 | ⟨l, ⟨h1, -⟩ | h1⟩)
          · exact Or.inl (Or.inr h1)
          · exact Or.inl (Or.inl h1)
          · exact Or.inr ⟨l, h1⟩
      · intro b i
        rw [iE, hE]
        simp only [hmem, Bool.and_eq_true, Bool.not_eq_true', decide_eq_false_iff_not, not_exists,
          not_or, not_and]
        constructor
        · rintro ⟨⟨h1, h2⟩, h3⟩
          exact ⟨h2, fun l => ⟨fun hx _ => h1 hx.1 hx.2, h3 l⟩⟩
        · rintro ⟨h1, h2⟩
          refine ⟨⟨?_, h1⟩, fun l => (h2 l).2⟩
          intro hx hy
          exact (h2 l0).1 ⟨hx, hy⟩ rfl
      · intro b i l hl
        rw [hmem] at hl
        rcases hl with ⟨⟨rfl, rfl⟩, rfl⟩ | hl
        · refine ⟨he, ?_⟩
          have hnot : ¬ ∃ l, (PalRequest.mk b i, l) ∈ rest := by
            rintro ⟨l1, hl1⟩
            have := (iT b i l1 hl1).1
            rw [hE] at this
            simp at this
          rw [iL b i hnot, hL]
          simp [hS b]
        · obtain ⟨h1, h2⟩ := iT b i l hl
          rw [hE] at h1
          simp only [Bool.and_eq_true] at h1
          exact ⟨h1.2, h2⟩
      · intro b i hn
        have hn1 : ¬ ∃ l, (PalRequest.mk b i, l) ∈ rest := by
          rintro ⟨l, hl⟩
          exact hn ⟨l, (hmem b i l).2 (Or.inr hl)⟩
        have hn2 : ¬ (b = rb ∧ i = ri) := by
          intro hx
          exact hn ⟨l0, (hmem b i l0).2 (Or.inl ⟨hx, rfl⟩)⟩
        rw [iL b i hn1, hL]
        have : ¬ (b = rb ∧ i = ri ∧ (s.physicalBlocks rb).pLPNs.isSome = true) :=
          fun hx => hn2 ⟨hx.1, hx.2.1⟩
        rw [if_neg this]
      · intro b hn
        have hn1 : ∀ i l, (PalRequest.mk b i, l) ∉ rest := by
          intro i l hl
          exact hn i l ((hmem b i l).2 (Or.inr hl))
        have hn2 : b ≠ rb := by
          intro hx
          exact hn ri l0 ((hmem b ri l0).2 (Or.inl ⟨⟨hx, rfl⟩, rfl⟩))
        rw [iC b hn1, hC]
        simp [hn2]
      · intro b
        obtain ⟨h1, h2⟩ := iP b
        rw [hsc.pageCount, hP] at h1
        exact ⟨h1, h2⟩

end FastMapping
end SimpleSSD

namespace SimpleSSD
namespace FastMapping

/-- Effect of `eraseInternal` on the mapping tables and on the views. -/
theorem eraseInternal_spec (s : FastMapping) (p tick : Nat) (sendToPAL : Bool) :
    ((s.eraseInternal p tick sendToPAL).1.param = s.param ∧
        (s.eraseInternal p tick sendToPAL).1.logicalToPhysicalBlockMapping =
          s.logicalToPhysicalBlockMapping ∧
        (s.eraseInternal p tick sendToPAL).1.freeBlocks = s.freeBlocks ∧
        (s.eraseInternal p tick sendToPAL).1.RWlogMapping = s.RWlogMapping ∧
        (s.eraseInternal p tick sendToPAL).1.SWBlock = s.SWBlock ∧
        (s.eraseInternal p tick sendToPAL).1.RWBlocks = s.RWBlocks) ∧
      (s.eraseInternal p tick sendToPAL).1.physicalToLogicalBlockMapping =
        upd s.physicalToLogicalBlockMapping p none ∧
      (s.eraseInternal p tick sendToPAL).1.physicalBlocks =
        upd s.physicalBlocks p (s.physicalBlocks p).erase := by
  unfold eraseInternal
  cases sendToPAL <;> exact ⟨⟨rfl, rfl, rfl, rfl, rfl, rfl⟩, rfl, rfl⟩

theorem eraseInternal_views (s : FastMapping) (p tick : Nat) (sendToPAL : Bool) :
    (∀ b i, (s.eraseInternal p tick sendToPAL).1.vbit b i =
        if b = p then false else s.vbit b i) ∧
      (∀ b i, (s.eraseInternal p tick sendToPAL).1.ebit b i =
        if b = p then decide (i < (s.physicalBlocks b).pageCount) else s.ebit b i) ∧
      (s.eraseInternal p tick sendToPAL).1.lpnAt = s.lpnAt ∧
      (∀ b, (s.eraseInternal p tick sendToPAL).1.curs b = if b = p then 0 else s.curs b) ∧
      (∀ b, ((s.eraseInternal p tick sendToPAL).1.physicalBlocks b).pageCount =
          (s.physicalBlocks b).pageCount ∧
        ((s.eraseInternal p tick sendToPAL).1.physicalBlocks b).pLPNs.isSome =
          (s.physicalBlocks b).pLPNs.isSome) := by
  have hB := (eraseInternal_spec s p tick sendToPAL).2.2
  refine ⟨?_, ?_, ?_, ?_, ?_⟩
  · intro b i
    unfold vbit
    rw [hB]
    by_cases hb : b = p
    · subst hb
      simp [BlockFast.erase, BlockFast.isValid, Bitset.test, Bitset.resetAll]
    · simp [hb]
  · intro b i
    unfold ebit
    rw [hB]
    by_cases hb : b = p
    · subst hb
      simp [BlockFast.erase, BlockFast.isErased, Bitset.test, Bitset.setAll]
    · simp [hb]
  · funext b i
    unfold lpnAt
    rw [hB]
    by_cases hb : b = p
    · subst hb
      simp [BlockFast.erase, BlockFast.getPageInfo]
    · simp [hb]
  · intro b
    unfold curs
    rw [hB]
    by_cases hb : b = p
    · subst hb
      simp [BlockFast.erase, BlockFast.getNextWritePageIndex]
    · simp [hb]
  · intro b
    rw [hB]
    by_cases hb : b = p
    · subst hb
      simp [BlockFast.erase]
    · simp [hb]

/-- The erase phase: the listed blocks end fully erased and unowned, all other
blocks and all other tables are unchanged. -/
theorem mergeErases_spec (rf : Nat) (sendToPAL : Bool) :
    ∀ (er : List Nat) (s : FastMapping) (f : Nat),
      ((mergeErases rf sendToPAL er s f).1.param = s.param ∧
        (mergeErases rf sendToPAL er s f).1.logicalToPhysicalBlockMapping =
          s.logicalToPhysicalBlockMapping ∧
        (mergeErases rf sendToPAL er s f).1.freeBlocks = s.freeBlocks ∧
        (mergeErases rf sendToPAL er s f).1.RWlogMapping = s.RWlogMapping ∧
        (mergeErases rf sendToPAL er s f).1.SWBlock = s.SWBlock ∧
        (mergeErases rf sendToPAL er s f).1.RWBlocks = s.RWBlocks) ∧
      (∀ b, (mergeErases rf sendToPAL er s f).1.physicalToLogicalBlockMapping b =
        if b ∈ er then none else s.physicalToLogicalBlockMapping b) ∧
      (∀ b i, (mergeErases rf sendToPAL er s f).1.vbit b i =
        if b ∈ er then false else s.vbit b i) ∧
      (∀ b i, (mergeErases rf sendToPAL er s f).1.ebit b i =
        if b ∈ er then decide (i < (s.physicalBlocks b).pageCount) else s.ebit b i) ∧
      (mergeErases rf sendToPAL er s f).1.lpnAt = s.lpnAt ∧
      (∀ b, (mergeErases rf sendToPAL er s f).1.curs b = if b ∈ er then 0 else s.curs b) ∧
      (∀ b, ((mergeErases rf sendToPAL er s f).1.physicalBlocks b).pageCount =
          (s.physicalBlocks b).pageCount ∧
        ((mergeErases rf sendToPAL er s f).1.physicalBlocks b).pLPNs.isSome =
          (s.physicalBlocks b).pLPNs.isSome) := by
  intro er
  induction er with
  | nil =>
    intro s f
    refine ⟨⟨rfl, rfl, rfl, rfl, rfl, rfl⟩, ?_, ?_, ?_, rfl, ?_, ?_⟩
    · intro b; simp [mergeErases]
    · intro b i; simp [mergeErases]
    · intro b i; simp [mergeErases]
    · intro b; simp [mergeErases]
    · intro b; exact ⟨rfl, rfl⟩
  | cons p rest ih =>
    intro s f
    simp only [mergeErases]
    obtain ⟨⟨a1, a2, a3, a4, a5, a6⟩, a7, a8⟩ := eraseInternal_spec s p rf sendToPAL
    obtain ⟨v1, v2, v3, v4, v5⟩ := eraseInternal_views s p rf sendToPAL
    obtain ⟨⟨i1, i2, i3, i4, i5, i6⟩, i7, i8, i9, i10, i11, i12⟩ :=
      ih (s.eraseInternal p rf sendToPAL).1 (max f (s.eraseInternal p rf sendToPAL).2)
    refine ⟨⟨i1.trans a1, i2.trans a2, i3.trans a3, i4.trans a4, i5.trans a5, i6.trans a6⟩,
      ?_, ?_, ?_, ?_, ?_, ?_⟩
    · intro b
      rw [i7, a7]
      by_cases h1 : b ∈ rest
      · simp [h1]
      · by_cases h2 : b = p
        · simp [h2]
        · simp [h1, h2]
    · intro b i
      rw [i8, v1]
      by_cases h1 : b ∈ rest
      · simp [h1]
      · by_cases h2 : b = p
        · simp [h2]
        · simp [h1, h2]
    · intro b i
      rw [i9, v2, (v5 b).1]
      by_cases h1 : b ∈ rest
      · simp [h1]
      · by_cases h2 : b = p
        · simp [h2]
        · simp [h1, h2]
    · rw [i10, v3]
    · intro b
      rw [i11, v4]
      by_cases h1 : b ∈ rest
      · simp [h1]
      · by_cases h2 : b = p
        · simp [h2]
        · simp [h1, h2]
    · intro b
      obtain ⟨h1, h2⟩ := i12 b
      exact ⟨h1.trans (v5 b).1, h2.trans (v5 b).2⟩

end FastMapping
end SimpleSSD

namespace SimpleSSD
namespace FastMapping

/-- `mergeLogBlock` is the plan of its block type followed by the three
phases. -/
theorem mergeLogBlock_eq {s s1 : FastMapping} {log tick tick1 : Nat} {k : BlockType}
    {ap : Option Nat} {sendToPAL : Bool}
    (h : s.mergeLogBlock log k ap tick sendToPAL = some (s1, tick1)) :
    ∃ s0 p, ((k = BlockType.kBlockTypeSW ∧ s.mergePlanSW log ap = some (s0, p)) ∨
        (k = BlockType.kBlockTypeRW ∧ ap = none ∧ s.mergePlanRW log = some (s0, p))) ∧
      ∃ s2 rf s3 wf, mergeReads tick sendToPAL p.readRequests s0 tick = some (s2, rf) ∧
        mergeWrites rf sendToPAL p.writeRequests s2 rf = some (s3, wf) ∧
        s1 = (mergeErases rf sendToPAL p.eraseRequests s3 rf).1 := by
  unfold mergeLogBlock at h
  simp only [] at h
  split at h
  · exact absurd h (by simp)
  · rename_i s0 p hplan
    split at h
    · exact absurd h (by simp)
    · rename_i s2 rf hr
      split at h
      · exact absurd h (by simp)
      · rename_i s3 wf hw
        injection h with h
        injection h with h1 h2
        refine ⟨s0, p, ?_, s2, rf, s3, wf, hr, hw, h1.symm⟩
        cases k with
        | kBlockTypeData => simp at hplan
        | kBlockTypeUnknown => simp at hplan
        | kBlockTypeSW => exact Or.inl ⟨rfl, hplan⟩
        | kBlockTypeRW =>
          right
          simp only [] at hplan
          split at hplan
          · exact absurd hplan (by simp)
          · rename_i hap
            refine ⟨rfl, ?_, hplan⟩
            cases ap with
            | none => rfl
            | some x => simp at hap

/-- The three phases of a merge together, in terms of the state `s0` the plan
leaves: the targets of the write queue were erased and become valid pages
storing the LPN written, unless their block is erased afterwards; the blocks of
the erase queue end fully erased and unowned. -/
theorem mergeExec_spec {s0 s2 s3 : FastMapping} {tick rf wf f : Nat} {sendToPAL : Bool}
    {rs : List PalRequest} {ws : List (PalRequest × Nat)} {er : List Nat}
    (hS : ∀ b, (s0.physicalBlocks b).pLPNs.isSome = true)
    (hr : mergeReads tick sendToPAL rs s0 tick = some (s2, rf))
    (hw : mergeWrites rf sendToPAL ws s2 rf = some (s3, wf)) :
    ((mergeErases rf sendToPAL er s3 f).1.param = s0.param ∧
        (mergeErases rf sendToPAL er s3 f).1.logicalToPhysicalBlockMapping =
          s0.logicalToPhysicalBlockMapping ∧
        (mergeErases rf sendToPAL er s3 f).1.freeBlocks = s0.freeBlocks ∧
        (mergeErases rf sendToPAL er s3 f).1.RWlogMapping = s0.RWlogMapping ∧
        (mergeErases rf sendToPAL er s3 f).1.SWBlock = s0.SWBlock ∧
        (mergeErases rf sendToPAL er s3 f).1.RWBlocks = s0.RWBlocks) ∧
      (∀ b, (mergeErases rf sendToPAL er s3 f).1.physicalToLogicalBlockMapping b =
        if b ∈ er then none else s0.physicalToLogicalBlockMapping b) ∧
      (∀ b i, (mergeErases rf sendToPAL er s3 f).1.vbit b i = true ↔
        (b ∉ er ∧ (s0.vbit b i = true ∨ ∃ l, (PalRequest.mk b i, l) ∈ ws))) ∧
      (∀ b i, (mergeErases rf sendToPAL er s3 f).1.ebit b i = true ↔
        ((b ∈ er ∧ i < (s0.physicalBlocks b).pageCount) ∨
          (b ∉ er ∧ s0.ebit b i = true ∧ ¬ ∃ l, (PalRequest.mk b i, l) ∈ ws))) ∧
      (∀ b i l, (PalRequest.mk b i, l) ∈ ws →
        s0.ebit b i = true ∧ (mergeErases rf sendToPAL er s3 f).1.lpnAt b i = l) ∧
      (∀ b i, (¬ ∃ l, (PalRequest.mk b i, l) ∈ ws) →
        (mergeErases rf sendToPAL er s3 f).1.lpnAt b i = s0.lpnAt b i) ∧
      (∀ b, b ∈ er → (mergeErases rf sendToPAL er s3 f).1.curs b = 0) ∧
      (∀ b, b ∉ er → (∀ i l, (PalRequest.mk b i, l) ∉ ws) →
        (mergeErases rf sendToPAL er s3 f).1.curs b = s0.curs b) ∧
      (∀ b, ((mergeErases rf sendToPAL er s3 f).1.physicalBlocks b).pageCount =
          (s0.physicalBlocks b).pageCount ∧
        ((mergeErases rf sendToPAL er s3 f).1.physicalBlocks b).pLPNs.isSome = true) := by
  have c1 := mergeReads_sameCore tick sendToPAL rs s0 tick s2 rf hr
  have hS2 : ∀ b, (s2.physicalBlocks b).pLPNs.isSome = true := by
    intro b
    rw [c1.hasLPNs]
    exact hS b
  obtain ⟨⟨m1, m2, m3, m4, m5, m6, m7⟩, wV, wE, wT, wL, wC, wP⟩ :=
    mergeWrites_spec rf sendToPAL ws s2 rf s3 wf hS2 hw
  rw [c1.vbit] at wV
  rw [c1.ebit] at wE wT
  rw [c1.lpnAt] at wL
  rw [c1.curs] at wC
  obtain ⟨⟨e1, e2, e3, e4, e5, e6⟩, e7, eV, eE, eL, eC, eP⟩ :=
    mergeErases_spec rf sendToPAL er s3 f
  refine ⟨⟨(e1.trans m1).trans c1.param, (e2.trans m2).trans c1.l2p,
    (e3.trans m4).trans c1.free, (e4.trans m5).trans c1.rwmap, (e5.trans m6).trans c1.sw,
    (e6.trans m7).trans c1.rw⟩, ?_, ?_, ?_, ?_, ?_, ?_, ?_, ?_⟩
  · intro b
    rw [e7, m3, c1.p2l]
  · intro b i
    rw [eV]
    by_cases hb : b ∈ er
    · simp [hb]
    · simp only [hb, if_false, not_false_eq_true, true_and]
      exact wV b i
  · intro b i
    rw [eE]
    by_cases hb : b ∈ er
    · simp only [hb, if_true, decide_eq_true_eq, true_and, not_true_eq_false, false_and, or_false]
      rw [(wP b).1, c1.pageCount]
    · simp only [hb, if_false, false_and, not_false_eq_true, true_and, false_or]
      exact wE b i
  · intro b i l hl
    rw [eL]
    exact wT b i l hl
  · intro b i hn
    rw [eL]
    exact wL b i hn
  · intro b hb
    rw [eC]
    simp [hb]
  · intro b hb hn
    rw [eC]
    simp only [hb, if_false]
    exact wC b hn
  · intro b
    obtain ⟨h1, h2⟩ := eP b
    obtain ⟨h3, h4⟩ := wP b
    exact ⟨(h1.trans h3).trans (c1.pageCount b), h2.trans h4⟩

end FastMapping
end SimpleSSD

namespace SimpleSSD
namespace FastMapping

/-- The plan of an SW merge under the invariant: either the switching
optimization (only the mapping of the owner changes, the old data block is to
be erased), or a full merge into the boundary block `c`, with the block after
it as new SW block. -/
theorem InvC.mergePlanSW {s s0 : FastMapping} {c log : Nat} {ap : Option Nat} {p : MergePlan}
    (hi : InvC s c) (h : s.mergePlanSW log ap = some (s0, p)) :
    ∃ o old, s.physicalToLogicalBlockMapping log = some o ∧
      s.logicalToPhysicalBlockMapping o = some old ∧
      s0.param = s.param ∧ s0.physicalBlocks = s.physicalBlocks ∧
      s0.RWlogMapping = s.RWlogMapping ∧ s0.RWBlocks = s.RWBlocks ∧
      (((s.physicalBlocks log).getValidPageCount = s.param.pagesInBlock ∧
          s0.logicalToPhysicalBlockMapping =
            upd s.logicalToPhysicalBlockMapping o (some log) ∧
          s0.physicalToLogicalBlockMapping = s.physicalToLogicalBlockMapping ∧
          s0.freeBlocks = s.freeBlocks ∧ s0.SWBlock = s.SWBlock ∧
          p.readRequests = [] ∧ p.writeRequests = [] ∧ p.eraseRequests = [old]) ∨
        ((s.physicalBlocks log).getValidPageCount ≠ s.param.pagesInBlock ∧
          s0.logicalToPhysicalBlockMapping =
            upd s.logicalToPhysicalBlockMapping o (some c) ∧
          s0.physicalToLogicalBlockMapping =
            upd (upd s.physicalToLogicalBlockMapping c (some o)) (c + 1) none ∧
          (∃ n, s0.freeBlocks = List.range' (c + 2) n) ∧ s0.SWBlock = some (c + 1) ∧
          p.writeRequests =
            ((List.range s.param.pagesInBlock).filter
              (fun i => s.vbit log i || s.vbit old i)).map
              (fun i => (PalRequest.mk c i, o * s.param.pagesInBlock + i)) ∧
          p.eraseRequests = [old, log])) := by
  unfold FastMapping.mergePlanSW at h
  split at h
  · exact absurd h (by simp)
  · rename_i o ho
    split at h
    · exact absurd h (by simp)
    · rename_i old hold
      refine ⟨o, old, ho, hold, ?_⟩
      split at h
      · rename_i hcnt
        injection h with h
        injection h with h1 h2
        subst h1 h2
        exact ⟨rfl, rfl, rfl, rfl, Or.inl ⟨hcnt, rfl, rfl, rfl, rfl, rfl, rfl, rfl⟩⟩
      · rename_i hcnt
        split at h
        · exact absurd h (by simp)
        · rename_i N sA hN
          obtain ⟨rfl, n, rfl⟩ := hi.getFreeBlock hN
          simp only [] at h
          split at h
          · exact absurd h (by simp)
          · rename_i X sB hX
            obtain ⟨rest, hrest, rfl⟩ := getFreeBlock_eq hX
            simp only [] at hrest
            cases n with
            | zero => simp at hrest
            | succ n =>
              rw [List.range'_succ] at hrest
              injection hrest with hx1 hx2
              subst hx1 hx2
              injection h with h
              injection h with h1 h2
              subst h1 h2
              exact ⟨rfl, rfl, rfl, rfl, Or.inr ⟨hcnt, rfl, rfl, ⟨n, rfl⟩, rfl, rfl, rfl⟩⟩

end FastMapping
end SimpleSSD

namespace SimpleSSD
namespace FastMapping

/-- The switching merge, seen from the state `S` in which the promoted SW block
is no longer the SW block: the invariant holds again. -/
theorem InvC.switchMerge {s S : FastMapping} {c sw o old : Nat} (hi : InvC s c)
    (hsw : s.SWBlock = some sw) (ho : s.physicalToLogicalBlockMapping sw = some o)
    (hold : s.logicalToPhysicalBlockMapping o = some old)
    (hparam : S.param = s.param)
    (hl2p : S.logicalToPhysicalBlockMapping = upd s.logicalToPhysicalBlockMapping o (some sw))
    (hfree : S.freeBlocks = s.freeBlocks) (hrwmap : S.RWlogMapping = s.RWlogMapping)
    (hRW : S.RWBlocks = s.RWBlocks) (hSW : S.SWBlock = none)
    (hV : ∀ b i, S.vbit b i = true ↔ (b ≠ old ∧ s.vbit b i = true))
    (hE : ∀ b i, S.ebit b i = true ↔
      ((b = old ∧ i < s.param.pagesInBlock) ∨ (b ≠ old ∧ s.ebit b i = true)))
    (hL : S.lpnAt = s.lpnAt) (hC0 : S.curs old = 0) (hC : ∀ b, b ≠ old → S.curs b = s.curs b)
    (hblk : ∀ b, (S.physicalBlocks b).pageCount = s.param.pagesInBlock ∧
      (S.physicalBlocks b).pLPNs.isSome = true) :
    InvC S c := by
  have hoRW : old ∉ s.RWBlocks := hi.l2pRW o old hold
  have hoSW : old ≠ sw := fun hx => hi.l2pSW o old hold (hx ▸ hsw)
  have hEf : ∀ b i, b ≠ old → S.ebit b i = s.ebit b i := by
    intro b i hb
    have := hE b i
    simp only [hb, false_and, not_false_eq_true, true_and, false_or] at this
    cases h1 : S.ebit b i <;> cases h2 : s.ebit b i <;> simp_all
  have hl2pmono : ∀ a, (s.logicalToPhysicalBlockMapping a).isSome = true →
      (upd s.logicalToPhysicalBlockMapping o (some sw) a).isSome = true := by
    intro a ha
    simp only [upd_apply]
    split
    · rfl
    · exact ha
  constructor
  · rw [hparam]; exact hblk
  · rw [hparam]
    intro b i hb
    obtain ⟨h1, h2⟩ := (hV b i).1 hb
    obtain ⟨h3, h4⟩ := hi.bits b i h2
    refine ⟨h3, ?_⟩
    rw [hEf b i h1]
    exact h4
  · rw [hparam]
    intro b i hb
    rcases (hE b i).1 hb with ⟨-, h1⟩ | ⟨-, h1⟩
    · exact h1
    · exact hi.erasedLt b i h1
  · rw [hfree]; exact hi.free
  · rw [hl2p]
    intro a p hp
    simp only [upd_apply] at hp
    split at hp
    · injection hp with hp
      subst hp
      exact hi.swLt _ hsw
    · exact hi.l2pLt a p hp
  · rw [hSW]
    intro sw1 h1
    exact absurd h1 (by simp)
  · rw [hRW]; exact hi.rwLt
  · rw [hRW]; exact hi.rwNodup
  · rw [hSW]
    intro sw1 h1
    exact absurd h1 (by simp)
  · rw [hl2p]
    intro a a1 p hp hp1
    simp only [upd_apply] at hp hp1
    split at hp
    · split at hp1
      · rename_i h1 h2
        rw [h1, h2]
      · injection hp with hp
        subst hp
        exact absurd hsw (hi.l2pSW a1 _ hp1)
    · split at hp1
      · injection hp1 with hp1
        subst hp1
        exact absurd hsw (hi.l2pSW a _ hp)
      · exact hi.l2pInj a a1 p hp hp1
  · rw [hl2p, hRW]
    intro a p hp
    simp only [upd_apply] at hp
    split at hp
    · injection hp with hp
      subst hp
      exact hi.swRW _ hsw
    · exact hi.l2pRW a p hp
  · rw [hSW]
    intro a p _ h1
    exact absurd h1 (by simp)
  · rw [hl2p, hRW, hparam]
    intro b h1 _ h3
    by_cases hb : b = old
    · subst hb
      refine ⟨?_, hC0⟩
      intro i hi1
      exact (hE b i).2 (Or.inl ⟨rfl, hi1⟩)
    · have hbsw : b ≠ sw := by
        intro hx
        exact h1 o (by simp [hx])
      have h1' : ∀ a, s.logicalToPhysicalBlockMapping a ≠ some b := by
        intro a ha
        by_cases hao : a = o
        · subst hao
          rw [hold] at ha
          injection ha with ha
          exact hb ha.symm
        · exact h1 a (by simp [hao, ha])
      have h2' : s.SWBlock ≠ some b := by
        rw [hsw]
        intro hx
        injection hx with hx
        exact hbsw hx.symm
      obtain ⟨h4, h5⟩ := hi.clean b h1' h2' h3
      refine ⟨?_, ?_⟩
      · intro i hi1
        rw [hEf b i hb]
        exact h4 i hi1
      · rw [hC b hb]
        exact h5
  · rw [hl2p, hparam, hL]
    intro a p j hp hv
    obtain ⟨h1, h2⟩ := (hV p j).1 hv
    simp only [upd_apply] at hp
    split at hp
    · rename_i hao
      injection hp with hp
      subst hp hao
      obtain ⟨h3, h4⟩ := hi.bits _ j h2
      obtain ⟨o1, h5, -, h6⟩ := hi.sw _ j hsw h3 h4
      rw [ho] at h5
      injection h5 with h5
      subst h5
      exact h6 h2
    · exact hi.data a p j hp h2
  · rw [hSW]
    intro sw1 j h1
    exact absurd h1 (by simp)
  · rw [hrwmap, hRW, hL]
    intro l b j hr
    obtain ⟨h1, h2, h3⟩ := hi.rwmap l b j hr
    refine ⟨h1, ?_, h3⟩
    exact (hV b j).2 ⟨fun hx => hoRW (hx ▸ h1), h2⟩
  · rw [hrwmap, hRW, hl2p, hparam, hL]
    intro b j hb hv
    obtain ⟨-, h2⟩ := (hV b j).1 hv
    obtain ⟨h3, h4⟩ := hi.rwloc b j hb h2
    exact ⟨h3, hl2pmono _ h4⟩
  · rw [hRW, hparam]
    intro b j hb hj
    have hbo : b ≠ old := fun hx => hoRW (hx ▸ hb)
    rw [hEf b j hbo, hC b hbo]
    exact hi.rwseq b j hb hj
  · rw [hL]
    intro b j b1 j1 h1 h2 h3
    exact hi.one b j b1 j1 ((hV b j).1 h1).2 ((hV b1 j1).1 h2).2 h3

end FastMapping
end SimpleSSD

namespace SimpleSSD
namespace FastMapping

/-- The invariant after a copying merge, for both kinds of log block. The
logical blocks `lbns` get the new data blocks `N a` among the `k` blocks from
the boundary on, and the block `c + k` is taken as well; `er` are the erased
blocks: the old data blocks and the log block `G`, which is the SW block
(replaced by `c + k`) or the first RW block (removed from `RWBlocks`); `T` are
the targets of the write queue, each of which receives the LPN of its position
in a new data block, an LPN that had a valid copy in an erased block. -/
theorem InvC.mergeGen {s S : FastMapping} {c k G : Nat} {lbns : List Nat} {N : Nat → Nat}
    {er : List Nat} {T : Nat → Nat → Prop} (hi : InvC s c)
    (hG : (s.SWBlock = some G ∧ S.SWBlock = some (c + k) ∧ S.RWBlocks = s.RWBlocks) ∨
      (∃ rest, s.RWBlocks = G :: rest ∧ S.RWBlocks = rest ∧ S.SWBlock = s.SWBlock))
    (hN : ∀ a, a ∈ lbns → c ≤ N a ∧ N a < c + k)
    (hNinj : ∀ a, a ∈ lbns → ∀ a1, a1 ∈ lbns → N a = N a1 → a = a1)
    (hD : ∀ a, a ∈ lbns → ∃ old, s.logicalToPhysicalBlockMapping a = some old ∧ old ∈ er)
    (her : ∀ b, b ∈ er → b = G ∨ ∃ a, a ∈ lbns ∧ s.logicalToPhysicalBlockMapping a = some b)
    (hGer : G ∈ er)
    (hparam : S.param = s.param)
    (hl2p : ∀ a, S.logicalToPhysicalBlockMapping a =
      if a ∈ lbns then some (N a) else s.logicalToPhysicalBlockMapping a)
    (hp2l : ∀ b, b ∉ er → b < c →
      S.physicalToLogicalBlockMapping b = s.physicalToLogicalBlockMapping b)
    (hfree : ∃ n, S.freeBlocks = List.range' (c + k + 1) n)
    (hrwmap1 : ∀ l b j, S.RWlogMapping l = some (b, j) → s.RWlogMapping l = some (b, j) ∧ b ≠ G)
    (hrwmap2 : ∀ l b j, s.RWlogMapping l = some (b, j) → b ≠ G → S.RWlogMapping l = some (b, j))
    (hV : ∀ b i, S.vbit b i = true ↔ (b ∉ er ∧ (s.vbit b i = true ∨ T b i)))
    (hE : ∀ b i, S.ebit b i = true ↔
      ((b ∈ er ∧ i < s.param.pagesInBlock) ∨ (b ∉ er ∧ s.ebit b i = true ∧ ¬ T b i)))
    (hT : ∀ b i, T b i → s.ebit b i = true ∧ ∃ a, a ∈ lbns ∧ b = N a ∧
      S.lpnAt b i = a * s.param.pagesInBlock + i ∧
      ∃ b0, b0 ∈ er ∧ ∃ i0, s.vbit b0 i0 = true ∧
        s.lpnAt b0 i0 = a * s.param.pagesInBlock + i)
    (hL : ∀ b i, ¬ T b i → S.lpnAt b i = s.lpnAt b i)
    (hC0 : ∀ b, b ∈ er → S.curs b = 0)
    (hC : ∀ b, b ∉ er → (∀ i, ¬ T b i) → S.curs b = s.curs b)
    (hblk : ∀ b, (S.physicalBlocks b).pageCount = s.param.pagesInBlock ∧
      (S.physicalBlocks b).pLPNs.isSome = true) :
    InvC S (c + k + 1) ∧ ∀ l, NoCopy s l → NoCopy S l := by
  -- the log block was in use
  have hGlt : G < c := by
    rcases hG with ⟨h1, -, -⟩ | ⟨rest, h1, -, -⟩
    · exact hi.swLt G h1
    · exact hi.rwLt G (by rw [h1]; exact List.mem_cons_self _ _)
  have herlt : ∀ b, b ∈ er → b < c := by
    intro b hb
    rcases her b hb with rfl | ⟨a, -, ha⟩
    · exact hGlt
    · exact hi.l2pLt a b ha
  have hTge : ∀ b i, T b i → c ≤ b := by
    intro b i ht
    obtain ⟨-, a, ha, rfl, -⟩ := hT b i ht
    exact (hN a ha).1
  have hnT : ∀ b i, b < c → ¬ T b i := by
    intro b i hb ht
    have := hTge b i ht
    omega
  have hRWsub : ∀ b, b ∈ S.RWBlocks → b ∈ s.RWBlocks ∧ b ≠ G := by
    intro b hb
    rcases hG with ⟨h1, -, h3⟩ | ⟨rest, h1, h2, -⟩
    · rw [h3] at hb
      exact ⟨hb, fun hx => hi.swRW G h1 (hx ▸ hb)⟩
    · rw [h2] at hb
      have hnd := hi.rwNodup
      rw [h1] at hnd
      refine ⟨by rw [h1]; exact List.mem_cons_of_mem _ hb, ?_⟩
      intro hx
      subst hx
      exact (List.nodup_cons.1 hnd).1 hb
  have hRWner : ∀ b, b ∈ s.RWBlocks → b ≠ G → b ∉ er := by
    intro b hb hne hber
    rcases her b hber with rfl | ⟨a, -, ha⟩
    · exact hne rfl
    · exact hi.l2pRW a b ha hb
  have hRWback : ∀ b, b ∈ s.RWBlocks → b ≠ G → b ∈ S.RWBlocks := by
    intro b hb hne
    rcases hG with ⟨-, -, h3⟩ | ⟨rest, h1, h2, -⟩
    · rw [h3]; exact hb
    · rw [h2]
      rw [h1] at hb
      rcases List.mem_cons.1 hb with hx | hx
      · exact absurd hx hne
      · exact hx
  have hl2pmono : ∀ a, (s.logicalToPhysicalBlockMapping a).isSome = true →
      (S.logicalToPhysicalBlockMapping a).isSome = true := by
    intro a ha
    rw [hl2p]
    split
    · rfl
    · exact ha
  -- a page that stays outside the targets keeps its bits
  have hEkeep : ∀ b i, b ∉ er → ¬ T b i → S.ebit b i = s.ebit b i := by
    intro b i hb ht
    have := hE b i
    simp only [hb, false_and, not_false_eq_true, true_and, false_or, ht, and_true] at this
    cases h1 : S.ebit b i <;> cases h2 : s.ebit b i <;> simp_all
  have hTlt : ∀ b i, T b i → i < s.param.pagesInBlock := by
    intro b i ht
    exact hi.erasedLt b i (hT b i ht).1
  have hTnv : ∀ b i, T b i → s.vbit b i = false := by
    intro b i ht
    cases hv : s.vbit b i with
    | false => rfl
    | true =>
      have := (hi.bits b i hv).2
      rw [(hT b i ht).1] at this
      exact absurd this (by simp)
  -- where the LPN of a valid page of the new state comes from
  have hsrc : ∀ b i, S.vbit b i = true →
      ∃ b0 i0, s.vbit b0 i0 = true ∧ s.lpnAt b0 i0 = S.lpnAt b i ∧
        ((b0 = b ∧ i0 = i ∧ ¬ T b i) ∨ (b0 ∈ er ∧ T b i)) := by
    intro b i hv
    obtain ⟨-, h2⟩ := (hV b i).1 hv
    by_cases ht : T b i
    · obtain ⟨-, a, -, -, h3, b0, h4, i0, h5, h6⟩ := hT b i ht
      exact ⟨b0, i0, h5, h6.trans h3.symm, Or.inr ⟨h4, ht⟩⟩
    · rcases h2 with h2 | h2
      · exact ⟨b, i, h2, (hL b i ht).symm, Or.inl ⟨rfl, rfl, ht⟩⟩
      · exact absurd h2 ht
  refine ⟨?_, ?_⟩
  · constructor
    · rw [hparam]; exact hblk
    · rw [hparam]
      intro b i hb
      obtain ⟨h1, h2⟩ := (hV b i).1 hb
      have hlt : i < s.param.pagesInBlock := by
        rcases h2 with h2 | h2
        · exact (hi.bits b i h2).1
        · exact hTlt b i h2
      refine ⟨hlt, ?_⟩
      cases he : S.ebit b i with
      | false => rfl
      | true =>
        rcases (hE b i).1 he with ⟨h3, -⟩ | ⟨-, h3, h4⟩
        · exact absurd h3 h1
        · rcases h2 with h2 | h2
          · have := (hi.bits b i h2).2
            rw [h3] at this
            exact absurd this (by simp)
          · exact absurd h2 h4
    · rw [hparam]
      intro b i hb
      rcases (hE b i).1 hb with ⟨-, h1⟩ | ⟨-, h1, -⟩
      · exact h1
      · exact hi.erasedLt b i h1
    · exact hfree
    · intro a p hp
      rw [hl2p] at hp
      split at hp
      · rename_i ha
        injection hp with hp
        have := (hN a ha).2
        omega
      · have := hi.l2pLt a p hp
        omega
    · intro sw hsw
      rcases hG with ⟨-, h2, -⟩ | ⟨rest, -, -, h3⟩
      · rw [h2] at hsw
        injection hsw with hsw
        omega
      · rw [h3] at hsw
        have := hi.swLt sw hsw
        omega
    · intro b hb
      have := hi.rwLt b (hRWsub b hb).1
      omega
    · rcases hG with ⟨-, -, h3⟩ | ⟨rest, h1, h2, -⟩
      · rw [h3]; exact hi.rwNodup
      · rw [h2]
        have hnd := hi.rwNodup
        rw [h1] at hnd
        exact (List.nodup_cons.1 hnd).2
    · intro sw hsw hmem
      have hmem' := hRWsub sw hmem
      rcases hG with ⟨-, h2, -⟩ | ⟨rest, -, -, h3⟩
      · rw [h2] at hsw
        injection hsw with hsw
        have := hi.rwLt sw hmem'.1
        omega
      · rw [h3] at hsw
        exact hi.swRW sw hsw hmem'.1
    · intro a a1 p hp hp1
      rw [hl2p] at hp hp1
      split at hp
      · rename_i ha
        injection hp with hp
        split at hp1
        · rename_i ha1
          injection hp1 with hp1
          exact hNinj a ha a1 ha1 (hp.trans hp1.symm)
        · have h1 := hi.l2pLt a1 p hp1
          have h2 := (hN a ha).1
          omega
      · split at hp1
        · rename_i ha1
          injection hp1 with hp1
          have h1 := hi.l2pLt a p hp
          have h2 := (hN a1 ha1).1
          omega
        · exact hi.l2pInj a a1 p hp hp1
    · intro a p hp hmem
      have hmem' := hRWsub p hmem
      rw [hl2p] at hp
      split at hp
      · rename_i ha
        injection hp with hp
        have h1 := hi.rwLt p hmem'.1
        have h2 := (hN a ha).1
        omega
      · exact hi.l2pRW a p hp hmem'.1
    · intro a p hp hsw
      rw [hl2p] at hp
      rcases hG with ⟨-, h2, -⟩ | ⟨rest, -, -, h3⟩
      · rw [h2] at hsw
        injection hsw with hsw
        split at hp
        · rename_i ha
          injection hp with hp
          have := (hN a ha).2
          omega
        · have := hi.l2pLt a p hp
          omega
      · rw [h3] at hsw
        split at hp
        · rename_i ha
          injection hp with hp
          have h1 := hi.swLt p hsw
          have h2 := (hN a ha).1
          omega
        · exact hi.l2pSW a p hp hsw
    · rw [hparam]
      intro b h1 h2 h3
      by_cases hber : b ∈ er
      · refine ⟨?_, hC0 b hber⟩
        intro i hi1
        exact (hE b i).2 (Or.inl ⟨hber, hi1⟩)
      · have hnT' : ∀ i, ¬ T b i := by
          intro i ht
          obtain ⟨-, a, ha, hb, -⟩ := hT b i ht
          exact h1 a (by rw [hl2p, if_pos ha, hb])
        have g1 : ∀ a, s.logicalToPhysicalBlockMapping a ≠ some b := by
          intro a ha
          by_cases hal : a ∈ lbns
          · obtain ⟨old, ho1, ho2⟩ := hD a hal
            rw [ha] at ho1
            injection ho1 with ho1
            exact hber (ho1 ▸ ho2)
          · exact h1 a (by rw [hl2p, if_neg hal]; exact ha)
        have g2 : s.SWBlock ≠ some b := by
          intro hx
          rcases hG with ⟨h4, -, -⟩ | ⟨rest, -, -, h6⟩
          · rw [h4] at hx
            injection hx with hx
            exact hber (hx ▸ hGer)
          · exact h2 (h6.trans hx)
        have g3 : b ∉ s.RWBlocks := by
          intro hx
          by_cases hbG : b = G
          · exact hber (hbG ▸ hGer)
          · exact h3 (hRWback b hx hbG)
        obtain ⟨h4, h5⟩ := hi.clean b g1 g2 g3
        refine ⟨?_, ?_⟩
        · intro i hi1
          rw [hEkeep b i hber (hnT' i)]
          exact h4 i hi1
        · rw [hC b hber hnT']
          exact h5
    · rw [hparam]
      intro a p j hp hv
      obtain ⟨h1, h2⟩ := (hV p j).1 hv
      rw [hl2p] at hp
      split at hp
      · rename_i ha
        injection hp with hp
        have hfr := hi.fresh (hN a ha).1
        rcases h2 with h2 | h2
        · rw [← hp, hfr.2.2.1 j] at h2
          exact absurd h2 (by simp)
        · obtain ⟨-, a1, ha1, hb, hl, -⟩ := hT p j h2
          have := hNinj a ha a1 ha1 (hp.trans hb)
          subst this
          exact hl
      · have hplt := hi.l2pLt a p hp
        have hnt := hnT p j hplt
        rcases h2 with h2 | h2
        · rw [hL p j hnt]
          exact hi.data a p j hp h2
        · exact absurd h2 hnt
    · rw [hparam]
      intro sw j hsw hj he
      rcases hG with ⟨-, h2, -⟩ | ⟨rest, h1, -, h3⟩
      · rw [h2] at hsw
        injection hsw with hsw
        subst hsw
        have hfr := hi.fresh (Nat.le_add_right c k)
        have hner : c + k ∉ er := by
          intro hx
          have := herlt _ hx
          omega
        have hnt : ¬ T (c + k) j := by
          intro ht
          obtain ⟨-, a, ha, hb, -⟩ := hT _ j ht
          have := (hN a ha).2
          omega
        rw [hEkeep _ j hner hnt, hfr.1 j hj] at he
        exact absurd he (by simp)
      · rw [h3] at hsw
        have hswlt := hi.swLt sw hsw
        have hner : sw ∉ er := by
          intro hx
          rcases her sw hx with hx1 | ⟨a, -, ha⟩
          · subst hx1
            exact hi.swRW sw hsw (by rw [h1]; exact List.mem_cons_self _ _)
          · exact hi.l2pSW a sw ha hsw
        have hnt := hnT sw j hswlt
        rw [hEkeep sw j hner hnt] at he
        obtain ⟨o, g1, g2, g3⟩ := hi.sw sw j hsw hj he
        refine ⟨o, (hp2l sw hner hswlt).trans g1, hl2pmono o g2, ?_⟩
        intro hv
        rw [hL sw j hnt]
        rcases ((hV sw j).1 hv).2 with h4 | h4
        · exact g3 h4
        · exact absurd h4 hnt
    · intro l b j hr
      obtain ⟨hr1, hbG⟩ := hrwmap1 l b j hr
      obtain ⟨g1, g2, g3⟩ := hi.rwmap l b j hr1
      refine ⟨hRWback b g1 hbG, ?_, ?_⟩
      · exact (hV b j).2 ⟨hRWner b g1 hbG, Or.inl g2⟩
      · rw [hL b j (hnT b j (hi.rwLt b g1))]
        exact g3
    · rw [hparam]
      intro b j hb hv
      obtain ⟨hb1, hbG⟩ := hRWsub b hb
      have hnt := hnT b j (hi.rwLt b hb1)
      have hv1 : s.vbit b j = true := by
        rcases ((hV b j).1 hv).2 with h4 | h4
        · exact h4
        · exact absurd h4 hnt
      obtain ⟨g1, g2⟩ := hi.rwloc b j hb1 hv1
      rw [hL b j hnt]
      exact ⟨hrwmap2 _ b j g1 hbG, hl2pmono _ g2⟩
    · rw [hparam]
      intro b j hb hj
      obtain ⟨hb1, hbG⟩ := hRWsub b hb
      have hblt := hi.rwLt b hb1
      rw [hEkeep b j (hRWner b hb1 hbG) (hnT b j hblt),
        hC b (hRWner b hb1 hbG) (fun i => hnT b i hblt)]
      exact hi.rwseq b j hb1 hj
    · intro b j b1 j1 h1 h2 h3
      obtain ⟨e1, -⟩ := (hV b j).1 h1
      obtain ⟨e2, -⟩ := (hV b1 j1).1 h2
      obtain ⟨b0, i0, v0, l0, c0⟩ := hsrc b j h1
      obtain ⟨b2, i2, v2, l2, c2⟩ := hsrc b1 j1 h2
      obtain ⟨rfl, rfl⟩ := hi.one b0 i0 b2 i2 v0 v2 (l0.trans (h3.trans l2.symm))
      rcases c0 with ⟨rfl, rfl, -⟩ | ⟨g1, t1⟩
      · rcases c2 with ⟨rfl, rfl, -⟩ | ⟨g2, -⟩
        · exact ⟨rfl, rfl⟩
        · exact absurd g2 e1
      · rcases c2 with ⟨rfl, rfl, -⟩ | ⟨-, t2⟩
        · exact absurd g1 e2
        · obtain ⟨-, a, ha, hb, hl, -⟩ := hT b j t1
          obtain ⟨-, a1, ha1, hb1, hl1, -⟩ := hT b1 j1 t2
          rw [hl, hl1] at h3
          obtain ⟨q1, q2⟩ := div_mod_of_pos (hTlt b1 j1 t2) h3
          obtain ⟨q3, q4⟩ := div_mod_of_pos (hTlt b j t1)
            (rfl : a * s.param.pagesInBlock + j = a * s.param.pagesInBlock + j)
          have haa : a = a1 := q3.symm.trans q1
          have hjj : j = j1 := q4.symm.trans q2
          subst haa hjj
          exact ⟨hb.trans hb1.symm, rfl⟩
  · intro l hn b j hv hl
    obtain ⟨b0, i0, v0, l0, -⟩ := hsrc b j hv
    exact hn b0 i0 v0 (l0.trans hl)

end FastMapping
end SimpleSSD

namespace SimpleSSD
namespace FastMapping

/-- Giving up a clean SW block keeps the invariant. -/
theorem InvC.dropSW {s : FastMapping} {c : Nat} (hi : InvC s c)
    (hclean : ∀ sw, s.SWBlock = some sw →
      (∀ j, j < s.param.pagesInBlock → s.ebit sw j = true) ∧ s.curs sw = 0) :
    InvC { s with SWBlock := none } c := by
  constructor
  · exact hi.blk
  · exact hi.bits
  · exact hi.erasedLt
  · exact hi.free
  · exact hi.l2pLt
  · intro sw h
    exact absurd h (by simp)
  · exact hi.rwLt
  · exact hi.rwNodup
  · intro sw h
    exact absurd h (by simp)
  · exact hi.l2pInj
  · exact hi.l2pRW
  · intro a p _ h
    exact absurd h (by simp)
  · intro b h1 _ h3
    by_cases hsw : s.SWBlock = some b
    · exact hclean b hsw
    · exact hi.clean b h1 hsw h3
  · exact hi.data
  · intro sw j h
    exact absurd h (by simp)
  · exact hi.rwmap
  · exact hi.rwloc
  · exact hi.rwseq
  · exact hi.one

theorem mem_filter_range {n i : Nat} {f : Nat → Bool} :
    i ∈ (List.range n).filter f ↔ i < n ∧ f i = true := by
  simp [List.mem_filter]

/-- Merging the SW block: afterwards the invariant holds for the state without
SW block (the caller of the switching case installs a new one), and for the
state itself after a full merge. No LPN gains a valid copy, no logical block
loses its mapping. -/
theorem InvC.mergeSW {s s1 : FastMapping} {c sw tick tick1 : Nat} {ap : Option Nat}
    {sendToPAL : Bool} (hi : InvC s c) (hsw : s.SWBlock = some sw)
    (h : s.mergeLogBlock sw BlockType.kBlockTypeSW ap tick sendToPAL = some (s1, tick1)) :
    ∃ c1, InvC { s1 with SWBlock := none } c1 ∧
      ((s.physicalBlocks sw).getValidPageCount ≠ s.param.pagesInBlock → InvC s1 c1) ∧
      (∀ l, NoCopy s l → NoCopy s1 l) ∧ s1.param = s.param ∧
      (∀ a, (s.logicalToPhysicalBlockMapping a).isSome = true →
        (s1.logicalToPhysicalBlockMapping a).isSome = true) ∧
      (∃ n, s1.freeBlocks = List.range' c1 n) := by
  obtain ⟨s0, p, hplan, s2, rf, s3, wf, hr, hw, rfl⟩ := mergeLogBlock_eq h
  rcases hplan with ⟨-, hplan⟩ | ⟨hk, -⟩
  swap
  · exact absurd hk (by simp)
  obtain ⟨o, old, ho, hold, p1, p2, p3, p4, hcase⟩ := hi.mergePlanSW hplan
  have hS0 : ∀ b, (s0.physicalBlocks b).pLPNs.isSome = true := by
    intro b
    rw [p2]
    exact (hi.blk b).2
  obtain ⟨⟨m1, m2, m3, m4, m5, m6⟩, xP, xV, xE, xT, xL, xC0, xC, xB⟩ :=
    @mergeExec_spec _ _ _ _ _ _ rf _ _ _ p.eraseRequests hS0 hr hw
  generalize (mergeErases rf sendToPAL p.eraseRequests s3 rf).1 = S1
    at m1 m2 m3 m4 m5 m6 xP xV xE xT xL xC0 xC xB ⊢
  obtain ⟨v1, v2, v3, v4⟩ := views_of_blocks p2
  rw [v1] at xV
  rw [v2] at xE xT
  rw [v3] at xL
  rw [v4] at xC
  rw [p2] at xE xB
  have hoSW : old ≠ sw := fun hx => hi.l2pSW o old hold (hx ▸ hsw)
  rcases hcase with ⟨hcnt, q1, q2, q3, q4, q5, q6, q7⟩ | ⟨hcnt, q1, q2, ⟨n, q3⟩, q4, q6, q7⟩
  · -- switching
    refine ⟨c, ?_, fun hx => absurd hcnt hx, ?_, m1.trans p1, ?_, ?_⟩
    · refine hi.switchMerge (S := { S1 with SWBlock := none }) hsw ho hold (m1.trans p1)
        (m2.trans q1) (m3.trans q3) (m4.trans p3) (m6.trans p4) rfl ?_ ?_ ?_ ?_ ?_ ?_
      · intro b i
        have := xV b i
        rw [q6, q7] at this
        simp only [List.mem_singleton, List.not_mem_nil, exists_false, or_false] at this
        exact this
      · intro b i
        have := xE b i
        rw [q6, q7, (hi.blk b).1] at this
        simp only [List.mem_singleton, List.not_mem_nil, exists_false, not_false_eq_true,
          and_true] at this
        exact this
      · funext b i
        exact xL b i (by rw [q6]; simp)
      · exact xC0 old (by rw [q7]; simp)
      · intro b hb
        exact xC b (by rw [q7]; simpa using hb) (by rw [q6]; simp)
      · intro b
        rw [← (hi.blk b).1]
        exact xB b
    · intro l hn b i hv hl
      have h1 := (xV b i).1 hv
      rw [q6] at h1
      simp only [List.not_mem_nil, exists_false, or_false] at h1
      rw [xL b i (by rw [q6]; simp)] at hl
      exact hn b i h1.2 hl
    · intro a ha
      rw [m2, q1]
      simp only [upd_apply]
      split
      · rfl
      · exact ha
    · obtain ⟨n, hn⟩ := hi.free
      exact ⟨n, (m3.trans q3).trans hn⟩
  · -- full merge
    have hTiff : ∀ b i, (∃ l, (PalRequest.mk b i, l) ∈ p.writeRequests) ↔
        (b = c ∧ i < s.param.pagesInBlock ∧ (s.vbit sw i = true ∨ s.vbit old i = true)) := by
      intro b i
      rw [q6]
      simp only [List.mem_map, mem_filter_range, Bool.or_eq_true, Prod.mk.injEq,
        PalRequest.mk.injEq]
      constructor
      · rintro ⟨l, j, ⟨h1, h2⟩, ⟨h3, h4⟩, -⟩
        subst h4
        exact ⟨h3.symm, h1, h2⟩
      · rintro ⟨h1, h2, h3⟩
        exact ⟨o * s.param.pagesInBlock + i, i, ⟨h2, h3⟩, ⟨h1.symm, rfl⟩, rfl⟩
    have hgen := @InvC.mergeGen s S1 c 1 sw [o] (fun _ => c) p.eraseRequests
      (fun b i => ∃ l, (PalRequest.mk b i, l) ∈ p.writeRequests) hi
      (Or.inl ⟨hsw, m5.trans q4, m6.trans p4⟩)
      (by intro a _; exact ⟨Nat.le_refl c, Nat.lt_succ_self c⟩)
      (by
        intro a ha a1 ha1 _
        rw [List.mem_singleton] at ha ha1
        rw [ha, ha1])
      (by
        intro a ha
        rw [List.mem_singleton] at ha
        subst ha
        exact ⟨old, hold, by rw [q7]; simp⟩)
      (by
        intro b hb
        rw [q7] at hb
        simp only [List.mem_cons, List.mem_singleton, List.not_mem_nil, or_false] at hb
        rcases hb with rfl | rfl
        · exact Or.inr ⟨o, by simp, hold⟩
        · exact Or.inl rfl)
      (by rw [q7]; simp)
      (m1.trans p1)
      (by
        intro a
        rw [m2, q1]
        simp only [upd_apply, List.mem_singleton])
      (by
        intro b hb hbc
        rw [xP b, if_neg hb, q2]
        simp only [upd_apply]
        rw [if_neg (by omega), if_neg (by omega)])
      ⟨n, by rw [m3, q3]⟩
      (by
        intro l b j hr
        rw [m4, p3] at hr
        exact ⟨hr, fun hx => hi.swRW sw hsw (hx ▸ (hi.rwmap l b j hr).1)⟩)
      (by
        intro l b j hr _
        rw [m4, p3]
        exact hr)
      xV
      (by
        intro b i
        rw [xE b i, (hi.blk b).1])
      (by
        intro b i ht
        obtain ⟨l, hl⟩ := ht
        obtain ⟨g1, g2⟩ := xT b i l hl
        refine ⟨g1, o, by simp, ?_⟩
        obtain ⟨rfl, hlt, hsrc⟩ := (hTiff b i).1 ⟨l, hl⟩
        have hleq : l = o * s.param.pagesInBlock + i := by
          rw [q6] at hl
          simp only [List.mem_map, Prod.mk.injEq, PalRequest.mk.injEq] at hl
          obtain ⟨j, -, ⟨-, h4⟩, h5⟩ := hl
          subst h4
          exact h5.symm
        refine ⟨rfl, by rw [g2, hleq], ?_⟩
        rcases hsrc with hs | hs
        · refine ⟨sw, by rw [q7]; simp, i, hs, ?_⟩
          obtain ⟨h3, h4⟩ := hi.bits sw i hs
          obtain ⟨o1, h5, -, h6⟩ := hi.sw sw i hsw h3 h4
          rw [ho] at h5
          injection h5 with h5
          subst h5
          exact h6 hs
        · exact ⟨old, by rw [q7]; simp, i, hs, hi.data o old i hold hs⟩)
      xL xC0
      (by
        intro b hb hn
        exact xC b hb (fun i l hl => hn i ⟨l, hl⟩))
      (by
        intro b
        rw [← (hi.blk b).1]
        exact xB b)
    obtain ⟨hinv, hnc⟩ := hgen
    refine ⟨c + 1 + 1, ?_, fun _ => hinv, hnc, m1.trans p1, ?_, ⟨n, by rw [m3, q3]⟩⟩
    · refine hinv.dropSW ?_
      intro sw1 hsw1
      rw [m5, q4] at hsw1
      injection hsw1 with hsw1
      subst hsw1
      have hfr := hi.fresh (Nat.le_succ c)
      have hner : c + 1 ∉ p.eraseRequests := by
        rw [q7]
        intro hx
        simp only [List.mem_cons, List.mem_singleton, List.not_mem_nil, or_false] at hx
        have h1 := hi.l2pLt o old hold
        have h2 := hi.swLt sw hsw
        omega
      have hnt : ∀ i, ¬ ∃ l, (PalRequest.mk (c + 1) i, l) ∈ p.writeRequests := by
        intro i hx
        have := ((hTiff (c + 1) i).1 hx).1
        omega
      refine ⟨?_, ?_⟩
      · intro j hj
        rw [m1, p1] at hj
        exact (xE (c + 1) j).2 (Or.inr ⟨hner, hfr.1 j hj, hnt j⟩)
      · rw [xC (c + 1) hner (fun i l hl => hnt i ⟨l, hl⟩)]
        exact hfr.2.1
    · intro a ha
      rw [m2, q1]
      simp only [upd_apply]
      split
      · rfl
      · exact ha

end FastMapping
end SimpleSSD

namespace SimpleSSD

/-! ## Sorting and removing duplicates -/

theorem unique_cons_cons (a b : Nat) (rest : List Nat) :
    unique (a :: b :: rest) = if a = b then unique (b :: rest) else a :: unique (b :: rest) := by
  rw [unique]

theorem mem_unique (l : List Nat) (x : Nat) : x ∈ unique l ↔ x ∈ l := by
  induction l with
  | nil => simp [unique]
  | cons a rest ih =>
    cases rest with
    | nil => simp [unique]
    | cons b rest1 =>
      rw [unique_cons_cons]
      split
      · rename_i hab
        rw [ih]
        subst hab
        simp
      · rw [List.mem_cons, ih]
        simp

theorem unique_head (a : Nat) (rest : List Nat) (x : Nat) (hx : x ∈ unique (a :: rest)) :
    x = a ∨ x ∈ rest := by
  have := (mem_unique (a :: rest) x).1 hx
  simpa using this

theorem nodup_unique (l : List Nat) (h : l.Sorted (fun a b => a ≤ b)) : (unique l).Nodup := by
  induction l with
  | nil => simp [unique]
  | cons a rest ih =>
    have hrest := ih (List.Sorted.of_cons h)
    cases rest with
    | nil => simp [unique]
    | cons b rest1 =>
      rw [unique_cons_cons]
      split
      · exact hrest
      · rename_i hab
        rw [List.nodup_cons]
        refine ⟨?_, hrest⟩
        intro hmem
        have hmem' := (mem_unique (b :: rest1) a).1 hmem
        have hle : ∀ y ∈ b :: rest1, a ≤ y := List.rel_of_sorted_cons h
        have hab' : a ≤ b := hle b (List.mem_cons_self _ _)
        have hble : ∀ y ∈ rest1, b ≤ y := List.rel_of_sorted_cons (List.Sorted.of_cons h)
        rcases List.mem_cons.1 hmem' with h1 | h1
        · exact hab h1
        · have := hble a h1
          exact hab (Nat.le_antisymm hab' this)

/-- Sorting and then removing consecutive duplicates gives a duplicate-free
list with the same elements. -/
theorem sortUnique_spec (l : List Nat) :
    (unique (l.insertionSort (fun a b => a ≤ b))).Nodup ∧
      ∀ x, x ∈ unique (l.insertionSort (fun a b => a ≤ b)) ↔ x ∈ l := by
  refine ⟨nodup_unique _ (List.sorted_insertionSort _ l), ?_⟩
  intro x
  rw [mem_unique]
  exact (List.perm_insertionSort _ l).mem_iff

/-- `mapOpt` of a function that never fails is `map`. -/
theorem mapOpt_eq_map {α β : Type} (f : α → Option β) (g : α → β) (l : List α)
    (h : ∀ x, x ∈ l → f x = some (g x)) : FastMapping.mapOpt f l = some (l.map g) := by
  induction l with
  | nil => rfl
  | cons a rest ih =>
    simp only [FastMapping.mapOpt]
    rw [h a (List.mem_cons_self _ _), ih (fun x hx => h x (List.mem_cons_of_mem _ hx))]
    rfl

end SimpleSSD

namespace SimpleSSD
namespace FastMapping

/-! ## The plan of an RW merge -/

/-- First loop of the RW merge: the logical blocks of the valid pages of the
victim, in page order, and `RWlogMapping` without the LPNs of those pages. -/
theorem mergeRWCollect_spec (s : FastMapping) (log : Nat) :
    (s.mergeRWCollect log).1 =
        (s.validPagesOf log).map (fun i => s.lpnAt log i / s.param.pagesInBlock) ∧
      ∀ l, (s.mergeRWCollect log).2 l =
        if ∃ i, i < s.param.pagesInBlock ∧ s.vbit log i = true ∧ s.lpnAt log i = l then none
        else s.RWlogMapping l := by
  have key : ∀ (is : List Nat) (acc : List Nat × (Nat → Option (Nat × Nat))),
      (is.foldl
          (fun acc i =>
            let info := (s.physicalBlocks log).getPageInfo i
            if info.2.1 then
              (acc.1 ++ [s.convertPageToBlock info.1], upd acc.2 info.1 none)
            else
              acc) acc).1 =
          acc.1 ++ (is.filter (fun i => s.vbit log i)).map
            (fun i => s.lpnAt log i / s.param.pagesInBlock) ∧
        ∀ l, (is.foldl
          (fun acc i =>
            let info := (s.physicalBlocks log).getPageInfo i
            if info.2.1 then
              (acc.1 ++ [s.convertPageToBlock info.1], upd acc.2 info.1 none)
            else
              acc) acc).2 l =
          if ∃ i, i ∈ is ∧ s.vbit log i = true ∧ s.lpnAt log i = l then none else acc.2 l := by
    intro is
    induction is with
    | nil =>
      intro acc
      simp
    | cons i rest ih =>
      intro acc
      simp only [List.foldl_cons, getPageInfo_valid, getPageInfo_lpn, convertPageToBlock]
      cases hv : s.vbit log i with
      | false =>
        simp only [Bool.false_eq_true, if_false]
        obtain ⟨h1, h2⟩ := ih acc
        simp only [getPageInfo_valid, getPageInfo_lpn, convertPageToBlock] at h1 h2
        refine ⟨?_, ?_⟩
        · rw [h1]
          simp [List.filter_cons, hv]
        · intro l
          rw [h2 l]
          simp [hv]
      | true =>
        simp only [if_true]
        obtain ⟨h1, h2⟩ := ih (acc.1 ++ [s.lpnAt log i / s.param.pagesInBlock],
          upd acc.2 (s.lpnAt log i) none)
        simp only [getPageInfo_valid, getPageInfo_lpn, convertPageToBlock] at h1 h2
        refine ⟨?_, ?_⟩
        · rw [h1]
          simp [List.filter_cons, hv]
        · intro l
          rw [h2 l]
          by_cases hex : ∃ i1, i1 ∈ rest ∧ s.vbit log i1 = true ∧ s.lpnAt log i1 = l
          · have hex' : ∃ i1, i1 ∈ i :: rest ∧ s.vbit log i1 = true ∧ s.lpnAt log i1 = l := by
              obtain ⟨i1, g1, g2⟩ := hex
              exact ⟨i1, List.mem_cons_of_mem _ g1, g2⟩
            rw [if_pos hex, if_pos hex']
          · rw [if_neg hex]
            simp only [upd_apply]
            by_cases hl : l = s.lpnAt log i
            · have hex' : ∃ i1, i1 ∈ i :: rest ∧ s.vbit log i1 = true ∧ s.lpnAt log i1 = l :=
                ⟨i, List.mem_cons_self _ _, hv, hl.symm⟩
              rw [if_pos hl, if_pos hex']
            · have hex' : ¬ ∃ i1, i1 ∈ i :: rest ∧ s.vbit log i1 = true ∧ s.lpnAt log i1 = l := by
                rintro ⟨i1, g1, g2, g3⟩
                rcases List.mem_cons.1 g1 with g1 | g1
                · subst g1
                  exact hl g3.symm
                · exact hex ⟨i1, g1, g2, g3⟩
              rw [if_neg hl, if_neg hex']
  obtain ⟨h1, h2⟩ := key (List.range s.param.pagesInBlock) ([], s.RWlogMapping)
  refine ⟨?_, ?_⟩
  · unfold mergeRWCollect validPagesOf
    rw [h1]
    simp [isValid_vbit]
  · intro l
    unfold mergeRWCollect
    rw [h2 l]
    simp only [List.mem_range]

/-- Second loop of the RW merge, for a duplicate-free list of logical blocks
and a free queue `c, c+1, ...`: the logical blocks get the blocks from `c` on,
in order. -/
theorem mergeRWAssign_spec :
    ∀ (lbns : List Nat) (s : FastMapping) (n0 o0 : Nat → Nat) (c n : Nat) (s1 : FastMapping)
      (nw od : Nat → Nat),
      lbns.Nodup → s.freeBlocks = List.range' c n →
      mergeRWAssign lbns s n0 o0 = some (s1, nw, od) →
      lbns.length ≤ n ∧ s1.freeBlocks = List.range' (c + lbns.length) (n - lbns.length) ∧
      s1.param = s.param ∧ s1.physicalBlocks = s.physicalBlocks ∧
      s1.RWlogMapping = s.RWlogMapping ∧ s1.SWBlock = s.SWBlock ∧ s1.RWBlocks = s.RWBlocks ∧
      (∀ a, a ∈ lbns → c ≤ nw a ∧ nw a < c + lbns.length ∧
        s.logicalToPhysicalBlockMapping a = some (od a)) ∧
      (∀ a, a ∈ lbns → ∀ a1, a1 ∈ lbns → nw a = nw a1 → a = a1) ∧
      (∀ a, a ∉ lbns → nw a = n0 a ∧ od a = o0 a) ∧
      (∀ a, s1.logicalToPhysicalBlockMapping a =
        if a ∈ lbns then some (nw a) else s.logicalToPhysicalBlockMapping a) ∧
      (∀ b, b < c → s1.physicalToLogicalBlockMapping b = s.physicalToLogicalBlockMapping b) := by
  intro lbns
  induction lbns with
  | nil =>
    intro s n0 o0 c n s1 nw od _ hfree h
    simp only [mergeRWAssign] at h
    injection h with h
    injection h with h1 h
    injection h with h2 h3
    subst h1 h2 h3
    refine ⟨Nat.zero_le _, by simpa using hfree, rfl, rfl, rfl, rfl, rfl, ?_, ?_, ?_, ?_, ?_⟩
    · intro a ha; simp at ha
    · intro a ha; simp at ha
    · intro a _; exact ⟨rfl, rfl⟩
    · intro a; simp
    · intro b _; rfl
  | cons a rest ih =>
    intro s n0 o0 c n s1 nw od hnd hfree h
    simp only [mergeRWAssign] at h
    split at h
    · exact absurd h (by simp)
    · rename_i p sA hp
      obtain ⟨tl, htl, rfl⟩ := getFreeBlock_eq hp
      rw [hfree] at htl
      cases n with
      | zero => simp at htl
      | succ n =>
        rw [List.range'_succ] at htl
        injection htl with e1 e2
        subst e1
        simp only [] at h
        split at h
        · exact absurd h (by simp)
        · rename_i old hold
          obtain ⟨hnd1, hnd2⟩ := List.nodup_cons.1 hnd
          obtain ⟨g1, g2, g3, g4, g5, g6, g7, g8, g9, g10, g11, g12⟩ :=
            ih _ (upd n0 a c) (upd o0 a old) (c + 1) n s1 nw od hnd2 e2.symm h
          simp only [upd_apply] at g8 g10 g11 g12
          have hna : nw a = c ∧ od a = old := by
            have := g10 a hnd1
            simpa using this
          refine ⟨by simp only [List.length_cons]; omega, ?_, g3, g4, g5, g6, g7, ?_, ?_, ?_, ?_, ?_⟩
          · rw [g2]
            simp only [List.length_cons]
            have e3 : c + 1 + rest.length = c + (rest.length + 1) := by omega
            have e4 : n + 1 - (rest.length + 1) = n - rest.length := by omega
            rw [e3, e4]
          · intro x hx
            rcases List.mem_cons.1 hx with hx | hx
            · subst hx
              simp only [List.length_cons]
              rw [hna.1, hna.2]
              exact ⟨Nat.le_refl _, by omega, hold⟩
            · obtain ⟨h1, h2, h3⟩ := g8 x hx
              have hxa : x ≠ a := fun e => hnd1 (e ▸ hx)
              simp only [hxa, if_false] at h3
              simp only [List.length_cons]
              exact ⟨by omega, by omega, h3⟩
          · intro x hx x1 hx1 hxx
            rcases List.mem_cons.1 hx with ex | mx
            · rcases List.mem_cons.1 hx1 with ex1 | mx1
              · rw [ex, ex1]
              · have := (g8 x1 mx1).1
                rw [ex, hna.1] at hxx
                omega
            · rcases List.mem_cons.1 hx1 with ex1 | mx1
              · have := (g8 x mx).1
                rw [ex1, hna.1] at hxx
                omega
              · exact g9 x mx x1 mx1 hxx
          · intro x hx
            have hx1 : x ∉ rest := fun e => hx (List.mem_cons_of_mem _ e)
            have hx2 : x ≠ a := fun e => hx (e ▸ List.mem_cons_self _ _)
            have := g10 x hx1
            simpa [hx2] using this
          · intro x
            rw [g11 x]
            by_cases hx1 : x ∈ rest
            · simp [hx1]
            · by_cases hx2 : x = a
              · subst hx2
                simp [hx1, hna.1]
              · simp [hx1, hx2]
          · intro b hb
            rw [g12 b (by omega)]
            have : b ≠ c := by omega
            simp [this]

end FastMapping
end SimpleSSD

namespace SimpleSSD
namespace FastMapping

theorem getLPN_lpnAt (s : FastMapping) (b i : Nat)
    (h : (s.physicalBlocks b).pLPNs.isSome = true) :
    (s.physicalBlocks b).getLPN i = some (s.lpnAt b i) := by
  unfold lpnAt BlockFast.getLPN BlockFast.getPageInfo
  cases hp : (s.physicalBlocks b).pLPNs with
  | none => rw [hp] at h; exact absurd h (by simp)
  | some a => rfl

theorem validPagesOf_mem (s : FastMapping) (b i : Nat) :
    i ∈ s.validPagesOf b ↔ i < s.param.pagesInBlock ∧ s.vbit b i = true := by
  unfold validPagesOf
  rw [mem_filter_range]
  rfl

/-- The plan of an RW merge, step by step. -/
theorem mergePlanRW_eq {s s0 : FastMapping} {log : Nat} {p : MergePlan}
    (h : s.mergePlanRW log = some (s0, p)) :
    ∃ s1 nw od logWrites X s2,
      mergeRWAssign (unique ((s.mergeRWCollect log).1.insertionSort (fun a b => a ≤ b)))
          { s with RWlogMapping := (s.mergeRWCollect log).2 } (fun _ => 0) (fun _ => 0) =
        some (s1, nw, od) ∧
      mapOpt
          (fun i =>
            match (s1.physicalBlocks log).getLPN i with
            | none => none
            | some lpn =>
              some
                (({ blockIndex := nw (s1.convertPageToBlock lpn),
                    pageIndex := s1.convertPageToOffsetInBlock lpn } : PalRequest),
                  lpn))
          (s1.validPagesOf log) = some logWrites ∧
      s1.getFreeBlock = some (X, s2) ∧
      s0 = { s2 with
        physicalToLogicalBlockMapping := upd s2.physicalToLogicalBlockMapping X none } ∧
      p.writeRequests =
        (unique ((s.mergeRWCollect log).1.insertionSort (fun a b => a ≤ b))).flatMap
            (fun lbn =>
              (s1.validPagesOf (od lbn)).map (fun i =>
                (({ blockIndex := nw lbn, pageIndex := i } : PalRequest),
                  lbn * s1.param.pagesInBlock + i))) ++
          logWrites ∧
      p.eraseRequests =
        (unique ((s.mergeRWCollect log).1.insertionSort (fun a b => a ≤ b))).map od ++ [log] := by
  unfold mergePlanRW at h
  simp only [] at h
  split at h
  · exact absurd h (by simp)
  · rename_i s1 nw od hassign
    split at h
    · exact absurd h (by simp)
    · rename_i logWrites hlog
      split at h
      · exact absurd h (by simp)
      · rename_i X s2 hfree
        injection h with h
        injection h with h1 h2
        subst h1 h2
        exact ⟨s1, nw, od, logWrites, X, s2, hassign, hlog, hfree, rfl, rfl, rfl⟩

end FastMapping
end SimpleSSD

namespace SimpleSSD
namespace FastMapping

theorem validPagesOf_congr {s s1 : FastMapping} (h1 : s1.param = s.param)
    (h2 : s1.physicalBlocks = s.physicalBlocks) : s1.validPagesOf = s.validPagesOf := by
  funext b
  unfold validPagesOf
  rw [h1, h2]

/-- The plan of an RW merge under the invariant. `sr` is the state in which
the victim `log` has been popped from `RWBlocks`. The logical blocks `lbns`
with a valid page in the victim get the blocks from the boundary on; the block
after them is taken from the free queue as well. -/
theorem InvC.mergePlanRW {s sr s0 : FastMapping} {c log : Nat} {rest : List Nat} {p : MergePlan}
    (hi : InvC s c)
    (e1 : sr.param = s.param) (e2 : sr.physicalBlocks = s.physicalBlocks)
    (e3 : sr.logicalToPhysicalBlockMapping = s.logicalToPhysicalBlockMapping)
    (e4 : sr.physicalToLogicalBlockMapping = s.physicalToLogicalBlockMapping)
    (e5 : sr.freeBlocks = s.freeBlocks) (e6 : sr.RWlogMapping = s.RWlogMapping)
    (e7 : sr.SWBlock = s.SWBlock) (e8 : sr.RWBlocks = rest)
    (h : sr.mergePlanRW log = some (s0, p)) :
    ∃ (lbns : List Nat) (nw od : Nat → Nat),
      lbns.Nodup ∧
      (∀ a, a ∈ lbns ↔ ∃ i, i < s.param.pagesInBlock ∧ s.vbit log i = true ∧
        s.lpnAt log i / s.param.pagesInBlock = a) ∧
      (∀ a, a ∈ lbns → c ≤ nw a ∧ nw a < c + lbns.length ∧
        s.logicalToPhysicalBlockMapping a = some (od a)) ∧
      (∀ a, a ∈ lbns → ∀ a1, a1 ∈ lbns → nw a = nw a1 → a = a1) ∧
      s0.param = s.param ∧ s0.physicalBlocks = s.physicalBlocks ∧ s0.SWBlock = s.SWBlock ∧
      s0.RWBlocks = rest ∧
      (∀ l, s0.RWlogMapping l =
        if ∃ i, i < s.param.pagesInBlock ∧ s.vbit log i = true ∧ s.lpnAt log i = l then none
        else s.RWlogMapping l) ∧
      (∀ a, s0.logicalToPhysicalBlockMapping a =
        if a ∈ lbns then some (nw a) else s.logicalToPhysicalBlockMapping a) ∧
      (∀ b, b < c → s0.physicalToLogicalBlockMapping b = s.physicalToLogicalBlockMapping b) ∧
      (∃ n, s0.freeBlocks = List.range' (c + lbns.length + 1) n) ∧
      p.eraseRequests = lbns.map od ++ [log] ∧
      (∀ b i l, (PalRequest.mk b i, l) ∈ p.writeRequests ↔
        ((∃ a, a ∈ lbns ∧ b = nw a ∧ i < s.param.pagesInBlock ∧ s.vbit (od a) i = true ∧
            l = a * s.param.pagesInBlock + i) ∨
          (∃ j, j < s.param.pagesInBlock ∧ s.vbit log j = true ∧ l = s.lpnAt log j ∧
            b = nw (l / s.param.pagesInBlock) ∧ i = l % s.param.pagesInBlock))) := by
  obtain ⟨s1, nw, od, logWrites, X, s2, hassign, hlog, hfree, rfl, hwr, her⟩ := mergePlanRW_eq h
  obtain ⟨w1, w2, w3, w4⟩ := views_of_blocks e2
  obtain ⟨c1, c2⟩ := mergeRWCollect_spec sr log
  rw [w3, e1, validPagesOf_congr e1 e2] at c1
  simp only [w1, w3, e1, e6] at c2
  obtain ⟨u1, u2⟩ := sortUnique_spec (sr.mergeRWCollect log).1
  generalize unique ((sr.mergeRWCollect log).1.insertionSort (fun a b => a ≤ b)) = lbns
    at hassign hwr her u1 u2
  obtain ⟨n, hn⟩ := hi.free
  obtain ⟨g1, g2, g3, g4, g5, g6, g7, g8, g9, -, g11, g12⟩ :=
    mergeRWAssign_spec lbns { sr with RWlogMapping := (sr.mergeRWCollect log).2 }
      (fun _ => 0) (fun _ => 0) c n s1 nw od u1 (e5.trans hn) hassign
  have hp1 : s1.param = s.param := g3.trans e1
  have hb1 : s1.physicalBlocks = s.physicalBlocks := g4.trans e2
  obtain ⟨z1, z2, z3, z4⟩ := views_of_blocks hb1
  have hvp : s1.validPagesOf = s.validPagesOf := validPagesOf_congr hp1 hb1
  -- the writes that copy the victim
  have hlog' : logWrites = (s.validPagesOf log).map (fun i =>
      (PalRequest.mk (nw (s.lpnAt log i / s.param.pagesInBlock))
        (s.lpnAt log i % s.param.pagesInBlock), s.lpnAt log i)) := by
    rw [mapOpt_eq_map _ (fun i =>
      (PalRequest.mk (nw (s.lpnAt log i / s.param.pagesInBlock))
        (s.lpnAt log i % s.param.pagesInBlock), s.lpnAt log i))] at hlog
    · injection hlog with hlog
      rw [← hlog, hvp]
    · intro i _
      rw [getLPN_lpnAt s1 log i (by rw [hb1]; exact (hi.blk log).2), z3]
      simp only [convertPageToBlock, convertPageToOffsetInBlock, hp1]
  -- the block taken for the caller
  obtain ⟨tl, htl, rfl⟩ := getFreeBlock_eq hfree
  rw [g2] at htl
  have hX : X = c + lbns.length ∧ tl = List.range' (c + lbns.length + 1) (n - lbns.length - 1) := by
    cases hm : n - lbns.length with
    | zero => rw [hm] at htl; simp at htl
    | succ m =>
      rw [hm, List.range'_succ] at htl
      injection htl with t1 t2
      exact ⟨t1.symm, by rw [← t2]; simp⟩
  refine ⟨lbns, nw, od, u1, ?_, ?_, g9, hp1, hb1, g6.trans e7, g7.trans e8, ?_, ?_, ?_,
    ⟨_, hX.2⟩, her, ?_⟩
  · intro a
    rw [u2, c1]
    simp only [List.mem_map, validPagesOf_mem]
    constructor
    · rintro ⟨i, ⟨h1, h2⟩, h3⟩
      exact ⟨i, h1, h2, h3⟩
    · rintro ⟨i, h1, h2, h3⟩
      exact ⟨i, ⟨h1, h2⟩, h3⟩
  · intro a ha
    obtain ⟨h1, h2, h3⟩ := g8 a ha
    exact ⟨h1, h2, (congrFun e3 a).symm.trans h3⟩
  · intro l
    show s1.RWlogMapping l = _
    rw [g5]
    exact c2 l
  · intro a
    show s1.logicalToPhysicalBlockMapping a = _
    rw [g11 a]
    show (if a ∈ lbns then some (nw a) else sr.logicalToPhysicalBlockMapping a) = _
    rw [e3]
  · intro b hb
    show upd s1.physicalToLogicalBlockMapping X none b = _
    simp only [upd_apply]
    rw [hX.1, if_neg (by omega), g12 b hb]
    exact congrFun e4 b
  · intro b i l
    rw [hwr, hlog', hvp, hp1]
    simp only [List.mem_append, List.mem_flatMap, List.mem_map, validPagesOf_mem, Prod.mk.injEq,
      PalRequest.mk.injEq]
    constructor
    · rintro (⟨a, ha, j, ⟨h1, h2⟩, ⟨h3, h4⟩, h5⟩ | ⟨j, ⟨h1, h2⟩, ⟨h3, h4⟩, h5⟩)
      · subst h4
        exact Or.inl ⟨a, ha, h3.symm, h1, h2, h5.symm⟩
      · subst h5
        exact Or.inr ⟨j, h1, h2, rfl, h3.symm, h4.symm⟩
    · rintro (⟨a, ha, h1, h2, h3, h4⟩ | ⟨j, h1, h2, h3, h4, h5⟩)
      · exact Or.inl ⟨a, ha, i, ⟨h2, h3⟩, ⟨h1.symm, rfl⟩, h4.symm⟩
      · subst h3
        exact Or.inr ⟨j, ⟨h1, h2⟩, ⟨h4.symm, h5.symm⟩, rfl⟩

end FastMapping
end SimpleSSD

namespace SimpleSSD
namespace FastMapping

/-- Merging the RW block at the front of `RWBlocks` (already popped in `sr`)
keeps the invariant; no LPN gains a valid copy, no logical block loses its
mapping. -/
theorem InvC.mergeRW {s sr s1 : FastMapping} {c log tick tick1 : Nat} {rest : List Nat}
    {sendToPAL : Bool} (hi : InvC s c) (hRW : s.RWBlocks = log :: rest)
    (e1 : sr.param = s.param) (e2 : sr.physicalBlocks = s.physicalBlocks)
    (e3 : sr.logicalToPhysicalBlockMapping = s.logicalToPhysicalBlockMapping)
    (e4 : sr.physicalToLogicalBlockMapping = s.physicalToLogicalBlockMapping)
    (e5 : sr.freeBlocks = s.freeBlocks) (e6 : sr.RWlogMapping = s.RWlogMapping)
    (e7 : sr.SWBlock = s.SWBlock) (e8 : sr.RWBlocks = rest)
    (h : sr.mergeLogBlock log BlockType.kBlockTypeRW none tick sendToPAL = some (s1, tick1)) :
    ∃ c1, InvC s1 c1 ∧ (∀ l, NoCopy s l → NoCopy s1 l) ∧ s1.param = s.param ∧
      (∀ a, (s.logicalToPhysicalBlockMapping a).isSome = true →
        (s1.logicalToPhysicalBlockMapping a).isSome = true) ∧
      s1.RWBlocks = rest := by
  obtain ⟨s0, p, hplan, s2, rf, s3, wf, hr, hw, rfl⟩ := mergeLogBlock_eq h
  rcases hplan with ⟨hk, -⟩ | ⟨-, -, hplan⟩
  · exact absurd hk (by simp)
  obtain ⟨lbns, nw, od, u1, u2, u3, u4, p1, p2, p3, p4, p5, p6, p7, ⟨n, p8⟩, p9, p10⟩ :=
    hi.mergePlanRW e1 e2 e3 e4 e5 e6 e7 e8 hplan
  have hS0 : ∀ b, (s0.physicalBlocks b).pLPNs.isSome = true := by
    intro b
    rw [p2]
    exact (hi.blk b).2
  obtain ⟨⟨m1, m2, m3, m4, m5, m6⟩, xP, xV, xE, xT, xL, xC0, xC, xB⟩ :=
    @mergeExec_spec _ _ _ _ _ _ rf _ _ _ p.eraseRequests hS0 hr hw
  generalize (mergeErases rf sendToPAL p.eraseRequests s3 rf).1 = S1
    at m1 m2 m3 m4 m5 m6 xP xV xE xT xL xC0 xC xB ⊢
  obtain ⟨v1, v2, v3, v4⟩ := views_of_blocks p2
  rw [v1] at xV
  rw [v2] at xE xT
  rw [v3] at xL
  rw [v4] at xC
  rw [p2] at xE xB
  have hlogRW : log ∈ s.RWBlocks := by rw [hRW]; exact List.mem_cons_self _ _
  have hmemer : ∀ b, b ∈ p.eraseRequests ↔ (b = log ∨ ∃ a, a ∈ lbns ∧ od a = b) := by
    intro b
    rw [p9]
    simp only [List.mem_append, List.mem_map, List.mem_singleton]
    constructor
    · rintro (h1 | h1)
      · exact Or.inr h1
      · exact Or.inl h1
    · rintro (h1 | h1)
      · exact Or.inr h1
      · exact Or.inl h1
  have hgen := @InvC.mergeGen s S1 c lbns.length log lbns nw p.eraseRequests
    (fun b i => ∃ l, (PalRequest.mk b i, l) ∈ p.writeRequests) hi
    (Or.inr ⟨rest, hRW, m6.trans p4, m5.trans p3⟩)
    (fun a ha => ⟨(u3 a ha).1, (u3 a ha).2.1⟩)
    u4
    (by
      intro a ha
      exact ⟨od a, (u3 a ha).2.2, (hmemer _).2 (Or.inr ⟨a, ha, rfl⟩)⟩)
    (by
      intro b hb
      rcases (hmemer b).1 hb with h1 | ⟨a, ha, h1⟩
      · exact Or.inl h1
      · exact Or.inr ⟨a, ha, h1 ▸ (u3 a ha).2.2⟩)
    ((hmemer _).2 (Or.inl rfl))
    (m1.trans p1)
    (by
      intro a
      rw [m2]
      exact p6 a)
    (by
      intro b hb hbc
      rw [xP b, if_neg hb]
      exact p7 b hbc)
    ⟨n, by rw [m3, p8]⟩
    (by
      intro l b j hr
      rw [m4, p5 l] at hr
      split at hr
      · exact absurd hr (by simp)
      · rename_i hne
        refine ⟨hr, ?_⟩
        intro hx
        subst hx
        obtain ⟨-, g2, g3⟩ := hi.rwmap l b j hr
        exact hne ⟨j, (hi.bits b j g2).1, g2, g3⟩)
    (by
      intro l b j hr hne
      rw [m4, p5 l]
      split
      · rename_i hex
        obtain ⟨i, -, g2, g3⟩ := hex
        obtain ⟨g4, -⟩ := hi.rwloc log i hlogRW g2
        rw [g3, hr] at g4
        injection g4 with g4
        injection g4 with g5 g6
        exact absurd g5 hne
      · exact hr)
    xV
    (by
      intro b i
      rw [xE b i, (hi.blk b).1])
    (by
      intro b i ht
      obtain ⟨l, hl⟩ := ht
      obtain ⟨g1, g2⟩ := xT b i l hl
      refine ⟨g1, ?_⟩
      rcases (p10 b i l).1 hl with ⟨a, ha, h1, h2, h3, h4⟩ | ⟨j, h1, h2, h3, h4, h5⟩
      · refine ⟨a, ha, h1, by rw [g2, h4], od a, (hmemer _).2 (Or.inr ⟨a, ha, rfl⟩), i, h3, ?_⟩
        exact hi.data a (od a) i (u3 a ha).2.2 h3
      · have ha : l / s.param.pagesInBlock ∈ lbns := (u2 _).2 ⟨j, h1, h2, by rw [h3]⟩
        have hdm : l = l / s.param.pagesInBlock * s.param.pagesInBlock + i := by
          rw [h5]
          exact (Nat.div_add_mod' l s.param.pagesInBlock).symm
        refine ⟨l / s.param.pagesInBlock, ha, h4, ?_, log, (hmemer _).2 (Or.inl rfl), j, h2, ?_⟩
        · rw [g2]
          exact hdm
        · rw [← h3]
          exact hdm)
    xL xC0
    (by
      intro b hb hn
      exact xC b hb (fun i l hl => hn i ⟨l, hl⟩))
    (by
      intro b
      rw [← (hi.blk b).1]
      exact xB b)
  obtain ⟨hinv, hnc⟩ := hgen
  refine ⟨_, hinv, hnc, m1.trans p1, ?_, m6.trans p4⟩
  intro a ha
  rw [m2, p6 a]
  split
  · rfl
  · exact ha

end FastMapping
end SimpleSSD

namespace SimpleSSD
namespace FastMapping

/-- A block whose valid page count is its page count has all pages valid. -/
theorem allValid_of_count {s : FastMapping} {b : Nat}
    (hp : (s.physicalBlocks b).pageCount = s.param.pagesInBlock)
    (h : (s.physicalBlocks b).getValidPageCount = s.param.pagesInBlock) :
    ∀ i, i < s.param.pagesInBlock → s.vbit b i = true := by
  unfold BlockFast.getValidPageCount Bitset.count at h
  rw [hp] at h
  have h2 : ((List.range s.param.pagesInBlock).filter (s.physicalBlocks b).pValidBits).length =
      (List.range s.param.pagesInBlock).length := by
    rw [h, List.length_range]
  rw [List.filter_length_eq_length] at h2
  intro i hi
  exact h2 i (List.mem_range.2 hi)

/-- A block that is not clean has a page that is not erased. -/
theorem exists_notErased_of_notClean {s : FastMapping} {b : Nat}
    (hp : (s.physicalBlocks b).pageCount = s.param.pagesInBlock)
    (h : (s.physicalBlocks b).isCleanBlock = false) :
    ∃ i, i < s.param.pagesInBlock ∧ s.ebit b i = false := by
  by_contra hcon
  simp only [not_exists, not_and, Bool.not_eq_false] at hcon
  have h2 : ((List.range s.param.pagesInBlock).filter (s.physicalBlocks b).pErasedBits).length =
      (List.range s.param.pagesInBlock).length := by
    rw [List.filter_length_eq_length]
    intro i hi
    exact hcon i (List.mem_range.1 hi)
  unfold BlockFast.isCleanBlock BlockFast.getErasedPageCount Bitset.count at h
  rw [hp, h2, List.length_range] at h
  simp at h

/-- A clean block has all pages erased. -/
theorem allErased_of_clean {s : FastMapping} {b : Nat}
    (hp : (s.physicalBlocks b).pageCount = s.param.pagesInBlock)
    (h : (s.physicalBlocks b).isCleanBlock = true) :
    ∀ i, i < s.param.pagesInBlock → s.ebit b i = true := by
  unfold BlockFast.isCleanBlock BlockFast.getErasedPageCount Bitset.count at h
  rw [hp] at h
  have h1 : ((List.range s.param.pagesInBlock).filter (s.physicalBlocks b).pErasedBits).length =
      s.param.pagesInBlock := by simpa using h
  have h2 : ((List.range s.param.pagesInBlock).filter (s.physicalBlocks b).pErasedBits).length =
      (List.range s.param.pagesInBlock).length := by
    rw [h1, List.length_range]
  rw [List.filter_length_eq_length] at h2
  intro i hi
  exact h2 i (List.mem_range.2 hi)

/-- Installing the boundary block as SW block, when there is none. `S` is the
state afterwards. -/
theorem InvC.newSW {s S : FastMapping} {c : Nat} (hi : InvC s c) (h0 : s.SWBlock = none)
    (hB : S.physicalBlocks = s.physicalBlocks) (hparam : S.param = s.param)
    (hl2p : S.logicalToPhysicalBlockMapping = s.logicalToPhysicalBlockMapping)
    (hfree : ∃ n, S.freeBlocks = List.range' (c + 1) n)
    (hrwmap : S.RWlogMapping = s.RWlogMapping)
    (hSW : S.SWBlock = some c) (hRW : S.RWBlocks = s.RWBlocks) :
    InvC S (c + 1) ∧ (∀ j, j < S.param.pagesInBlock → S.ebit c j = true) := by
  obtain ⟨e1, e2, e3, e4⟩ := views_of_blocks hB
  obtain ⟨f1, f2, f3, f4, f5, f6⟩ := hi.fresh (Nat.le_refl c)
  refine ⟨?_, by rw [e2, hparam]; exact f1⟩
  constructor
  · rw [hB, hparam]; exact hi.blk
  · rw [e1, e2, hparam]; exact hi.bits
  · rw [e2, hparam]; exact hi.erasedLt
  · exact hfree
  · rw [hl2p]
    intro a p hp
    have := hi.l2pLt a p hp
    omega
  · rw [hSW]
    intro sw hsw
    injection hsw with hsw
    omega
  · rw [hRW]
    intro b hb
    have := hi.rwLt b hb
    omega
  · rw [hRW]; exact hi.rwNodup
  · rw [hSW, hRW]
    intro sw hsw
    injection hsw with hsw
    subst hsw
    exact f6
  · rw [hl2p]; exact hi.l2pInj
  · rw [hl2p, hRW]; exact hi.l2pRW
  · rw [hl2p, hSW]
    intro a p hp hsw
    injection hsw with hsw
    subst hsw
    exact f4 a hp
  · rw [hl2p, hRW, e2, e4, hparam]
    intro b h1 _ h3
    exact hi.clean b h1 (by rw [h0]; simp) h3
  · rw [hl2p, e1, e3, hparam]; exact hi.data
  · rw [hSW, e2, hparam]
    intro sw j hsw hj he
    injection hsw with hsw
    subst hsw
    rw [f1 j hj] at he
    exact absurd he (by simp)
  · rw [hrwmap, hRW, e1, e3]; exact hi.rwmap
  · rw [hrwmap, hRW, hl2p, e1, e3, hparam]; exact hi.rwloc
  · rw [hRW, e2, e4, hparam]; exact hi.rwseq
  · rw [e1, e3]; exact hi.one

/-- Appending the boundary block to `RWBlocks` and marking it unowned. `S` is
the state afterwards. -/
theorem InvC.newRW {s S : FastMapping} {c : Nat} (hi : InvC s c)
    (hB : S.physicalBlocks = s.physicalBlocks) (hparam : S.param = s.param)
    (hl2p : S.logicalToPhysicalBlockMapping = s.logicalToPhysicalBlockMapping)
    (hp2l : ∀ b, b ≠ c → S.physicalToLogicalBlockMapping b = s.physicalToLogicalBlockMapping b)
    (hfree : ∃ n, S.freeBlocks = List.range' (c + 1) n)
    (hrwmap : S.RWlogMapping = s.RWlogMapping)
    (hSW : S.SWBlock = s.SWBlock) (hRW : S.RWBlocks = s.RWBlocks ++ [c]) :
    InvC S (c + 1) := by
  obtain ⟨e1, e2, e3, e4⟩ := views_of_blocks hB
  obtain ⟨f1, f2, f3, f4, f5, f6⟩ := hi.fresh (Nat.le_refl c)
  have hmem : ∀ b, b ∈ s.RWBlocks ++ [c] ↔ (b ∈ s.RWBlocks ∨ b = c) := by
    intro b
    simp
  constructor
  · rw [hB, hparam]; exact hi.blk
  · rw [e1, e2, hparam]; exact hi.bits
  · rw [e2, hparam]; exact hi.erasedLt
  · exact hfree
  · rw [hl2p]
    intro a p hp
    have := hi.l2pLt a p hp
    omega
  · rw [hSW]
    intro sw hsw
    have := hi.swLt sw hsw
    omega
  · rw [hRW]
    intro b hb
    rcases (hmem b).1 hb with hb | hb
    · have := hi.rwLt b hb
      omega
    · omega
  · rw [hRW]
    rw [List.nodup_append]
    refine ⟨hi.rwNodup, by simp, ?_⟩
    intro a ha hb
    simp only [List.mem_singleton] at hb
    subst hb
    exact f6 ha
  · rw [hSW, hRW]
    intro sw hsw hb
    rcases (hmem sw).1 hb with hb | hb
    · exact hi.swRW sw hsw hb
    · exact f5 (hb ▸ hsw)
  · rw [hl2p]; exact hi.l2pInj
  · rw [hl2p, hRW]
    intro a p hp hb
    rcases (hmem p).1 hb with hb | hb
    · exact hi.l2pRW a p hp hb
    · exact f4 a (hb ▸ hp)
  · rw [hl2p, hSW]; exact hi.l2pSW
  · rw [hl2p, hSW, hRW, e2, e4, hparam]
    intro b h1 h2 h3
    exact hi.clean b h1 h2 (fun hx => h3 ((hmem b).2 (Or.inl hx)))
  · rw [hl2p, e1, e3, hparam]; exact hi.data
  · rw [hl2p, hSW, e1, e2, e3, hparam]
    intro sw j hsw hj he
    obtain ⟨o, h1, h2, h3⟩ := hi.sw sw j hsw hj he
    have hne : sw ≠ c := fun hx => f5 (hx ▸ hsw)
    exact ⟨o, (hp2l sw hne).trans h1, h2, h3⟩
  · rw [hrwmap, hRW, e1, e3]
    intro l b j hr
    obtain ⟨h1, h2, h3⟩ := hi.rwmap l b j hr
    exact ⟨(hmem b).2 (Or.inl h1), h2, h3⟩
  · rw [hrwmap, hRW, hl2p, e1, e3, hparam]
    intro b j hb hv
    rcases (hmem b).1 hb with hb | hb
    · exact hi.rwloc b j hb hv
    · subst hb
      rw [f3 j] at hv
      exact absurd hv (by simp)
  · rw [hRW, e2, e4, hparam]
    intro b j hb hj
    rcases (hmem b).1 hb with hb | hb
    · exact hi.rwseq b j hb hj
    · subst hb
      rw [f1 j hj, f2]
      simp
  · rw [e1, e3]; exact hi.one

end FastMapping
end SimpleSSD

namespace SimpleSSD
namespace FastMapping

/-! ## The write paths keep the invariant -/

theorem getFreeBlock_range {s s1 : FastMapping} {c n p : Nat}
    (hf : s.freeBlocks = List.range' c n) (h : s.getFreeBlock = some (p, s1)) :
    p = c ∧ s1 = { s with freeBlocks := List.range' (c + 1) (n - 1) } := by
  obtain ⟨rest, hfree, rfl⟩ := getFreeBlock_eq h
  rw [hf] at hfree
  cases n with
  | zero => simp at hfree
  | succ n =>
    rw [List.range'_succ] at hfree
    injection hfree with h1 h2
    subst h2
    exact ⟨h1.symm, rfl⟩

/-- Fresh write: no valid page was found, the page is written into the data
block. -/
theorem InvC.writeFresh {s s1 : FastMapping} {c lpn tick tick1 : Nat} {sendToPAL : Bool}
    (hi : InvC s c) (hf : s.findValidPage lpn = some none)
    (h : s.writeFresh lpn tick sendToPAL = some (s1, tick1)) : InvC s1 c := by
  have hn := hi.noCopy_of_notFound hf
  unfold FastMapping.writeFresh at h
  split at h
  · exact absurd h (by simp)
  · rename_i p hp
    simp only [] at h
    split at h
    · exact absurd h (by simp)
    · rename_i s0 hw
      injection h with h
      have hi0 := hi.write_data hn hp hw
      have hsc := palWrite_sameCore s0
        { blockIndex := p, pageIndex := s.convertPageToOffsetInBlock lpn } tick sendToPAL
      rw [h] at hsc
      exact hi0.sameCore hsc

/-- Offset 0 of an LPN without valid copy: page 0 of the SW block, after
merging and replacing the SW block when it is not clean. -/
theorem InvC.writeSWFirst {s s1 : FastMapping} {c lpn tick f : Nat} {sendToPAL : Bool}
    (hi : InvC s c) (hn : NoCopy s lpn) (hoff : lpn % s.param.pagesInBlock = 0)
    (hmap : (s.logicalToPhysicalBlockMapping (lpn / s.param.pagesInBlock)).isSome = true)
    (h : s.writeSWFirst lpn tick sendToPAL = some (s1, f)) : ∃ c1, InvC s1 c1 := by
  unfold FastMapping.writeSWFirst at h
  split at h
  · exact absurd h (by simp)
  · rename_i sw hsw
    simp only [] at h
    split at h
    · exact absurd h (by simp)
    · rename_i s3 f3 hprep
      -- the state in which page 0 is written
      have prep : ∃ c3, InvC s3 c3 ∧ NoCopy s3 lpn ∧ s3.param = s.param ∧
          (s3.logicalToPhysicalBlockMapping (lpn / s.param.pagesInBlock)).isSome = true ∧
          (∀ sw1, s3.SWBlock = some sw1 →
            ∀ j, j < s.param.pagesInBlock → s3.ebit sw1 j = true) := by
        cases hcl : (s.physicalBlocks sw).isCleanBlock with
        | true =>
          rw [hcl] at hprep
          simp only [if_true] at hprep
          injection hprep with hprep
          injection hprep with hprep1 hprep2
          subst hprep1
          refine ⟨c, hi, hn, rfl, hmap, ?_⟩
          intro sw1 hsw1
          rw [hsw] at hsw1
          injection hsw1 with hsw1
          subst hsw1
          exact allErased_of_clean (hi.blk sw).1 hcl
        | false =>
          rw [hcl] at hprep
          simp only [Bool.false_eq_true, if_false] at hprep
          split at hprep
          · exact absurd hprep (by simp)
          · rename_i sm tm hmerge
            split at hprep
            · exact absurd hprep (by simp)
            · rename_i b s2 hfree
              injection hprep with hprep
              injection hprep with hprep1 hprep2
              subst hprep1
              obtain ⟨c1, g1, -, g3, g4, g5, ⟨n, g6⟩⟩ := hi.mergeSW hsw hmerge
              obtain ⟨rfl, rfl⟩ := getFreeBlock_range g6 hfree
              obtain ⟨hi3, hcl3⟩ := g1.newSW
                (S := { ({ sm with freeBlocks := List.range' (b + 1) (n - 1) } : FastMapping) with
                  SWBlock := some b })
                rfl rfl rfl rfl ⟨_, rfl⟩ rfl rfl rfl
              refine ⟨b + 1, hi3, g3 lpn hn, g4, g5 _ hmap, ?_⟩
              intro sw1 hsw1 j hj
              injection hsw1 with hsw1
              subst hsw1
              rw [← g4] at hj
              exact hcl3 j hj
      obtain ⟨c3, hi3, hn3, hp3, hmap3, hclean⟩ := prep
      split at h
      · exact absurd h (by simp)
      · rename_i sw1 hsw1
        split at h
        · exact absurd h (by simp)
        · rename_i s4 hw
          injection h with h
          injection h with h hsnd
          rw [← hp3] at hoff hmap3 hclean
          rw [← hoff] at hw
          obtain ⟨m1, m2, m3, m4, m5, m6, m7⟩ := writeBlock_maps hw
          have hi5 := hi3.write_sw
            (S := { s4 with
              physicalToLogicalBlockMapping :=
                upd s4.physicalToLogicalBlockMapping sw1 (some (s.convertPageToBlock lpn)) })
            hn3 hsw1 hmap3 (Or.inr (hclean sw1 hsw1)) hw rfl m1 m2 m4 m5 m6 m7
            (by simp [convertPageToBlock, hp3])
            (by
              intro b hb
              simp only [upd_apply, hb, if_false]
              exact congrFun m3 b)
          have hsc := palWrite_sameCore
            { s4 with
              physicalToLogicalBlockMapping :=
                upd s4.physicalToLogicalBlockMapping sw1 (some (s.convertPageToBlock lpn)) }
            { blockIndex := sw1, pageIndex := 0 } tick sendToPAL
          rw [h] at hsc
          exact ⟨c3, hi5.sameCore hsc⟩

end FastMapping
end SimpleSSD

namespace SimpleSSD
namespace FastMapping

/-- Non-zero offset of an LPN without valid copy, SW block owned by its
logical block: the page of the offset in the SW block, or a full merge of the
SW block when that page is not erased. -/
theorem InvC.writeSWAppend {s s1 : FastMapping} {c sw lpn tick f : Nat} {sendToPAL : Bool}
    (hi : InvC s c) (hn : NoCopy s lpn) (hpos : 0 < s.param.pagesInBlock)
    (hsw : s.SWBlock = some sw)
    (hown : s.physicalToLogicalBlockMapping sw = some (lpn / s.param.pagesInBlock))
    (hmap : (s.logicalToPhysicalBlockMapping (lpn / s.param.pagesInBlock)).isSome = true)
    (h : s.writeSWAppend sw lpn tick sendToPAL = some (s1, f)) : ∃ c1, InvC s1 c1 := by
  unfold FastMapping.writeSWAppend at h
  simp only [getPageInfo_erased, convertPageToOffsetInBlock] at h
  have hlt : lpn % s.param.pagesInBlock < s.param.pagesInBlock := Nat.mod_lt _ hpos
  cases he : s.ebit sw (lpn % s.param.pagesInBlock) with
  | true =>
    rw [he] at h
    simp only [if_true] at h
    split at h
    · exact absurd h (by simp)
    · rename_i s0 hw
      injection h with h
      injection h with h hsnd
      obtain ⟨m1, m2, m3, m4, m5, m6, m7⟩ := writeBlock_maps hw
      have hi0 := hi.write_sw (S := s0) hn hsw hmap (Or.inl hown) hw rfl m1 m2 m4 m5 m6 m7
        (by rw [m3]; exact hown) (by intro b _; rw [m3])
      have hsc := palWrite_sameCore s0
        { blockIndex := sw, pageIndex := lpn % s.param.pagesInBlock } tick sendToPAL
      rw [h] at hsc
      exact ⟨c, hi0.sameCore hsc⟩
  | false =>
    rw [he] at h
    simp only [Bool.false_eq_true, if_false] at h
    split at h
    · exact absurd h (by simp)
    · rename_i sm tm hmerge
      injection h with h
      injection h with h hsnd
      subst h
      obtain ⟨c1, -, g2, -⟩ := hi.mergeSW hsw hmerge
      refine ⟨c1, g2 ?_⟩
      intro hcnt
      have hv := allValid_of_count (hi.blk sw).1 hcnt _ hlt
      obtain ⟨o, h1, -, h3⟩ := hi.sw sw _ hsw hlt he
      rw [hown] at h1
      injection h1 with h1
      subst h1
      apply hn sw _ hv
      rw [h3 hv]
      exact Nat.div_add_mod' lpn s.param.pagesInBlock

/-- Non-zero offset of an LPN without valid copy, SW block not owned by its
logical block: the next page of an RW block, after recycling the first RW
block when no RW block has an erased page. -/
theorem InvC.writeRW {s s1 : FastMapping} {c lpn tick f : Nat} {sendToPAL : Bool}
    (hi : InvC s c) (hn : NoCopy s lpn)
    (hmap : (s.logicalToPhysicalBlockMapping (lpn / s.param.pagesInBlock)).isSome = true)
    (h : s.writeRW lpn tick sendToPAL = some (s1, f)) : ∃ c1, InvC s1 c1 := by
  unfold FastMapping.writeRW at h
  simp only [] at h
  split at h
  · exact absurd h (by simp)
  · rename_i s3 tgt f3 hprep
    have prep : ∃ c3, InvC s3 c3 ∧ NoCopy s3 lpn ∧ s3.param = s.param ∧
        (s3.logicalToPhysicalBlockMapping (lpn / s.param.pagesInBlock)).isSome = true ∧
        tgt ∈ s3.RWBlocks := by
      split at hprep
      · rename_i t ht
        injection hprep with hprep
        injection hprep with hp1 hp2
        injection hp2 with hp2 hp3
        subst hp1 hp2
        exact ⟨c, hi, hn, rfl, hmap, List.mem_of_find?_eq_some ht⟩
      · split at hprep
        · exact absurd hprep (by simp)
        · rename_i victim rest hRW
          split at hprep
          · exact absurd hprep (by simp)
          · rename_i sm tm hmerge
            split at hprep
            · exact absurd hprep (by simp)
            · rename_i X s2 hfree
              injection hprep with hprep
              injection hprep with hp1 hp2
              injection hp2 with hp2 hp3
              subst hp1 hp2
              obtain ⟨c1, g1, g2, g3, g4, g5⟩ :=
                @InvC.mergeRW s { s with RWBlocks := rest } _ _ _ _ _ _ _ hi hRW rfl rfl rfl rfl rfl
                  rfl rfl rfl
                  hmerge
              obtain ⟨n, g6⟩ := g1.free
              obtain ⟨rfl, rfl⟩ := getFreeBlock_range g6 hfree
              have hi3 := g1.newRW
                (S := { ({ sm with freeBlocks := List.range' (X + 1) (n - 1) } : FastMapping) with
                  RWBlocks := sm.RWBlocks ++ [X]
                  physicalToLogicalBlockMapping := upd sm.physicalToLogicalBlockMapping X none })
                rfl rfl rfl
                (by
                  intro b hb
                  simp only [upd_apply, hb, if_false])
                ⟨_, rfl⟩ rfl rfl rfl
              exact ⟨X + 1, hi3, g2 lpn hn, g3, g4 _ hmap, by simp⟩
    obtain ⟨c3, hi3, hn3, hp3, hmap3, htgt⟩ := prep
    split at h
    · exact absurd h (by simp)
    · rename_i s4 hw
      injection h with h
      injection h with h hsnd
      rw [← hp3] at hmap3
      obtain ⟨m1, m2, m3, m4, m5, m6, m7⟩ := writeBlock_maps hw
      have hi5 := hi3.write_rw
        (S := { s4 with
          RWlogMapping := upd s4.RWlogMapping lpn
            (some (tgt, (s3.physicalBlocks tgt).getNextWritePageIndex)) })
        hn3 htgt hmap3 hw rfl m1 m2 m3 m4
        (by
          show upd s4.RWlogMapping lpn (some (tgt, s3.curs tgt)) = _
          rw [m5])
        m6 m7
      have hsc := palWrite_sameCore
        { s4 with
          RWlogMapping := upd s4.RWlogMapping lpn
            (some (tgt, (s3.physicalBlocks tgt).getNextWritePageIndex)) }
        { blockIndex := tgt, pageIndex := (s3.physicalBlocks tgt).getNextWritePageIndex }
        tick sendToPAL
      rw [h] at hsc
      exact ⟨c3, hi5.sameCore hsc⟩

/-- A valid page exists: it is invalidated and the new copy goes to a log
block. -/
theorem InvC.writeOverwrite {s s1 : FastMapping} {c lpn tick f b i : Nat} {k : BlockType}
    {sendToPAL : Bool} (hi : InvC s c) (hf : s.findValidPage lpn = some (some (b, i, k)))
    (hmap : (s.logicalToPhysicalBlockMapping (lpn / s.param.pagesInBlock)).isSome = true)
    (h : s.writeOverwrite lpn tick sendToPAL b i k = some (s1, f)) : ∃ c1, InvC s1 c1 := by
  obtain ⟨hi0, hn0⟩ := hi.invalidate (t := tick) hf
  obtain ⟨hv, -⟩ := hi.found hf
  have hpos : 0 < s.param.pagesInBlock := by
    have := (hi.bits b i hv).1
    omega
  obtain ⟨g1, g2, g3, g4, g5, g6, g7, g8⟩ := writeInvalidate_fields s lpn tick b i k
  unfold FastMapping.writeOverwrite at h
  simp only [convertPageToOffsetInBlock, convertPageToBlock] at h
  rw [← g1, ← g2] at hmap
  rw [← g1] at hpos
  split at h
  · rename_i hoff
    exact hi0.writeSWFirst hn0 hoff hmap h
  · split at h
    · exact absurd h (by simp)
    · rename_i sw hsw
      split at h
      · rename_i hown
        exact hi0.writeSWAppend hn0 hpos hsw hown hmap h
      · exact hi0.writeRW hn0 hmap h

/-- `writeInternal` keeps the invariant. -/
theorem Inv.writeInternal {s s1 : FastMapping} {lpn tick tick1 : Nat} {sendToPAL : Bool}
    (hi : Inv s) (h : s.writeInternal lpn tick sendToPAL = some (s1, tick1)) : Inv s1 := by
  obtain ⟨c, hi⟩ := hi
  unfold FastMapping.writeInternal at h
  simp only [convertPageToBlock] at h
  split at h
  · split at h
    · exact absurd h (by simp)
    · rename_i sA hA
      obtain ⟨⟨cA, hiA⟩, hmapA, -, hpA⟩ := hi.ensureMapping hA
      rw [← hpA] at hmapA
      split at h
      · exact absurd h (by simp)
      · rename_i s2 f2 hwr
        injection h with h
        injection h with h hsnd
        subst h
        split at hwr
        · exact absurd hwr (by simp)
        · rename_i hf
          exact ⟨cA, hiA.writeFresh hf hwr⟩
        · rename_i b i k hf
          exact hiA.writeOverwrite hf hmapA hwr
  · exact absurd h (by simp)

/-- `readInternal` keeps the invariant. -/
theorem Inv.readInternal {s s1 : FastMapping} {lpn tick tick1 : Nat}
    (hi : Inv s) (h : s.readInternal lpn tick = some (s1, tick1)) : Inv s1 := by
  obtain ⟨c, hi⟩ := hi
  unfold FastMapping.readInternal at h
  split at h
  · exact absurd h (by simp)
  · injection h with h
    injection h with h hsnd
    subst h
    exact ⟨c, hi⟩
  · rename_i pbn pageIdx k hf
    split at h
    · exact absurd h (by simp)
    · rename_i r b hb
      injection h with h
      injection h with h hsnd
      have h1 := readBlock_sameCore s pbn pageIdx 0 tick r b hb
      have h2 := palRead_sameCore
        { s with physicalBlocks := upd s.physicalBlocks pbn b }
        { blockIndex := pbn, pageIndex := pageIdx } tick true
      rw [h] at h2
      exact ⟨c, hi.sameCore (h1.trans_ h2)⟩

/-- Every reachable state satisfies the invariant. -/
theorem Reachable.inv {s : FastMapping} (h : Reachable s) : Inv s := by
  induction h with
  | init p l c s hs => exact ⟨7, InvC.init hs⟩
  | write s lpn tick sendToPAL s1 tick1 _ hw ih => exact ih.writeInternal hw
  | read s lpn tick s1 tick1 _ hr ih => exact ih.readInternal hr

end FastMapping
end SimpleSSD


namespace SimpleSSD

namespace FastMapping

/-- C1. Write-then-read fails on the example device (4 pages per block, 4
logical and 16 physical blocks). After the writes 0, 1, 0, 1 the SW log block
is block 0, owned by logical block 0, and its page 1 holds LPN 1 (valid, not
erased), the lookup of LPN 1 finds it there, and eight blocks are still free.
A further write of LPN 1 (offset 1, a Case 2b conflict) returns normally, with
six blocks still free, and the lookup of LPN 1 immediately afterwards returns
NOT-FOUND: none of the 16 physical blocks has a valid page that stores LPN 1. -/
theorem write_then_read_conflict :
    (exampleRun [0, 1, 0, 1]).map
        (fun s => (s.SWBlock, s.physicalToLogicalBlockMapping 0, s.vbit 0 1, s.ebit 0 1,
          s.lpnAt 0 1, s.findValidPage 1, s.freeBlocks.length)) =
      some (some 0, some 0, true, false, 1, some (some (0, 1, BlockType.kBlockTypeSW)), 8) ∧
    (exampleRun [0, 1, 0, 1, 1]).map
        (fun s => (s.findValidPage 1, s.freeBlocks.length,
          (List.range 16).all (fun b => (List.range 4).all (fun i =>
            !(s.vbit b i && s.lpnAt b i == 1))))) =
      some (some none, 6, true) := by
  constructor <;> rfl

end FastMapping

end SimpleSSD


namespace SimpleSSD

namespace FastMapping

/-- A run of writes from a reachable state ends in a reachable state. -/
theorem Reachable.writeAll {lpns : List Nat} {s s1 : FastMapping} (h : Reachable s)
    (hw : FastMapping.writeAll lpns s = some s1) : Reachable s1 := by
  induction lpns generalizing s with
  | nil =>
    simp only [FastMapping.writeAll] at hw
    injection hw with hw
    subst hw
    exact h
  | cons lpn rest ih =>
    simp only [FastMapping.writeAll] at hw
    cases hs : s.writeInternal lpn 0 false with
    | none => rw [hs] at hw; simp at hw
    | some r =>
      obtain ⟨s2, t2⟩ := r
      rw [hs] at hw
      exact ih (Reachable.write s lpn 0 false s2 t2 h hs) hw

end FastMapping

/-- The states of the example device are reachable. -/
theorem exampleState_reachable (lpns : List Nat) (h : (exampleRun lpns).isSome = true) :
    (exampleState lpns h).Reachable := by
  have hs : exampleRun lpns = some (exampleState lpns h) := by
    simp [exampleState]
  unfold exampleRun at hs
  cases hn : FastMapping.new exampleParam examplePAL exampleLatency with
  | none => rw [hn] at hs; simp at hs
  | some s0 =>
    rw [hn] at hs
    exact FastMapping.Reachable.writeAll
      (FastMapping.Reachable.init exampleParam examplePAL exampleLatency s0 hn) hs

namespace FastMapping

/-- C2. At most one copy: in every state reachable from the constructor by
`writeInternal` and `readInternal` calls that return, two valid pages (of any
physical blocks) that store the same LPN are the same page of the same
block. -/
theorem at_most_one_copy {s : FastMapping} (h : Reachable s) (lpn b i b1 i1 : Nat)
    (hv : (s.physicalBlocks b).isValid i = true)
    (hl : (s.physicalBlocks b).getLPN i = some lpn)
    (hv1 : (s.physicalBlocks b1).isValid i1 = true)
    (hl1 : (s.physicalBlocks b1).getLPN i1 = some lpn) :
    b = b1 ∧ i = i1 := by
  obtain ⟨c, hi⟩ := Reachable.inv h
  rw [getLPN_lpnAt s b i (hi.blk b).2] at hl
  rw [getLPN_lpnAt s b1 i1 (hi.blk b1).2] at hl1
  injection hl with hl
  injection hl1 with hl1
  exact hi.one b i b1 i1 hv hv1 (hl.trans hl1.symm)

/-- After the writes 0, 1, 0 on the example device LPN 0 is stored in the valid
page 0 of the SW block 0 (and, invalid, in page 0 of data block 7). -/
theorem at_most_one_copy_witness :
    (exampleState [0, 1, 0] rfl).Reachable ∧
      ((exampleState [0, 1, 0] rfl).physicalBlocks 0).isValid 0 = true ∧
      ((exampleState [0, 1, 0] rfl).physicalBlocks 0).getLPN 0 = some 0 ∧
      ((exampleState [0, 1, 0] rfl).physicalBlocks 7).isValid 0 = false ∧
      ((exampleState [0, 1, 0] rfl).physicalBlocks 7).getLPN 0 = some 0 ∧
      ((0 : Nat) = 0 ∧ (0 : Nat) = 0) :=
  ⟨exampleState_reachable _ _, rfl, rfl, rfl, rfl,
    at_most_one_copy (exampleState_reachable [0, 1, 0] rfl) 0 0 0 0 0 rfl rfl rfl rfl⟩

/-- C3. Lookup soundness: in every reachable state, when `findValidPage lpn`
finds `(pbn, pageIdx, kind)`, page `pageIdx` of block `pbn` is valid and stores
`lpn`; for kind DATA, `pbn = L2P[lpn / pagesInBlock]` and
`pageIdx = lpn mod pagesInBlock`; for kind SW, `pbn = SWBlock` (and
`pageIdx = lpn mod pagesInBlock`); for kind RW, `(pbn, pageIdx)` is the entry of
`RWlogMapping` for `lpn`; and the kind is one of the three. -/
theorem lookup_sound {s : FastMapping} (h : Reachable s) (lpn pbn pageIdx : Nat)
    (kind : BlockType) (hf : s.findValidPage lpn = some (some (pbn, pageIdx, kind))) :
    (s.physicalBlocks pbn).isValid pageIdx = true ∧
      (s.physicalBlocks pbn).getLPN pageIdx = some lpn ∧
      (kind = BlockType.kBlockTypeData →
        s.logicalToPhysicalBlockMapping (lpn / s.param.pagesInBlock) = some pbn ∧
          pageIdx = lpn % s.param.pagesInBlock) ∧
      (kind = BlockType.kBlockTypeSW →
        s.SWBlock = some pbn ∧ pageIdx = lpn % s.param.pagesInBlock) ∧
      (kind = BlockType.kBlockTypeRW → s.RWlogMapping lpn = some (pbn, pageIdx)) ∧
      (kind = BlockType.kBlockTypeData ∨ kind = BlockType.kBlockTypeSW ∨
        kind = BlockType.kBlockTypeRW) := by
  obtain ⟨c, hi⟩ := Reachable.inv h
  obtain ⟨h1, h2, _, h4, h5, h6, _, h8⟩ := hi.found hf
  refine ⟨h1, ?_, h4, h5, h6, h8⟩
  rw [getLPN_lpnAt s pbn pageIdx (hi.blk pbn).2, h2]

/-- After the writes 0, 1, 0 on the example device the lookup of LPN 0 finds
page 0 of the SW block 0. -/
theorem lookup_sound_witness :
    (exampleState [0, 1, 0] rfl).Reachable ∧
      (exampleState [0, 1, 0] rfl).findValidPage 0 =
        some (some (0, 0, BlockType.kBlockTypeSW)) ∧
      ((exampleState [0, 1, 0] rfl).physicalBlocks 0).isValid 0 = true ∧
      ((exampleState [0, 1, 0] rfl).physicalBlocks 0).getLPN 0 = some 0 ∧
      (exampleState [0, 1, 0] rfl).SWBlock = some 0 :=
  have h := lookup_sound (exampleState_reachable [0, 1, 0] rfl) 0 0 0 BlockType.kBlockTypeSW rfl
  ⟨exampleState_reachable _ _, rfl, h.1, h.2.1, (h.2.2.2.1 rfl).1⟩

end FastMapping

end SimpleSSD


namespace SimpleSSD

namespace FastMapping

/-- C9. No page is both valid and erased: this holds for a newly constructed
block, is preserved by `read`, `write`, `erase` and `invalidate`, and holds for
every physical block of every reachable state of the mapping. -/
theorem no_valid_erased :
    (∀ idx count createLPNs, (BlockFast.new idx count createLPNs).NoValidErased) ∧
    (∀ b : BlockFast, b.NoValidErased →
      (∀ i idx tick r b1, b.read i idx tick = some (r, b1) → b1.NoValidErased) ∧
      (∀ i lpn idx tick b1, b.write i lpn idx tick = some b1 → b1.NoValidErased) ∧
      b.erase.NoValidErased ∧
      (∀ i idx, (b.invalidate i idx).NoValidErased)) ∧
    (∀ s : FastMapping, Reachable s → ∀ pbn, (s.physicalBlocks pbn).NoValidErased) := by
  refine ⟨?_, ?_, ?_⟩
  · intro idx count createLPNs i h
    simp [BlockFast.new, BlockFast.erase, BlockFast.isValid, Bitset.test, Bitset.resetAll] at h
  · intro b hb
    refine ⟨?_, ?_, ?_, ?_⟩
    · intro i idx tick r b1 h j hj
      unfold BlockFast.read at h
      split at h
      · split at h
        · injection h with h
          injection h with _ h
          subst h
          exact hb j hj
        · injection h with h
          injection h with _ h
          subst h
          exact hb j hj
      · exact absurd h (by simp)
    · intro i lpn idx tick b1 h j hj
      unfold BlockFast.write at h
      split at h
      · split at h
        · injection h with h
          subst h
          simp only [BlockFast.isValid, BlockFast.isErased, Bitset.test, Bitset.set,
            Bitset.reset] at hj
          by_cases hji : j = i
          · simp [hji] at hj
          · simp only [hji, if_false] at hj
            exact hb j hj
        · exact absurd h (by simp)
      · exact absurd h (by simp)
    · intro j hj
      simp [BlockFast.erase, BlockFast.isValid, Bitset.test, Bitset.resetAll] at hj
    · intro i idx j hj
      simp only [BlockFast.invalidate, BlockFast.isValid, BlockFast.isErased, Bitset.test,
        Bitset.reset] at hj
      by_cases hji : j = i
      · simp [hji] at hj
      · simp only [hji, if_false] at hj
        exact hb j hj
  · intro s h pbn i hj
    obtain ⟨c, hi⟩ := Reachable.inv h
    have h2 := (hi.bits pbn i hj.1).2
    have h3 : s.ebit pbn i = true := hj.2
    rw [h2] at h3
    exact absurd h3 (by simp)

/-- C10, as stated, fails: after the writes 1, 0 on the example device the data
block 7 has page 1 valid (not erased) and its cursor is 1; after the writes
0, 1, 2, 0, 2, 1 the SW block 0 has page 2 valid and its cursor is 2. So it is
not the case that in every reachable state the cursor of every block exceeds
the index of each of its valid or dirty pages. -/
theorem cursor_invariant_counterexample :
    ((exampleState [1, 0] rfl).Reachable ∧
      (exampleState [1, 0] rfl).logicalToPhysicalBlockMapping 0 = some 7 ∧
      ((exampleState [1, 0] rfl).physicalBlocks 7).isValid 1 = true ∧
      ((exampleState [1, 0] rfl).physicalBlocks 7).isErased 1 = false ∧
      ((exampleState [1, 0] rfl).physicalBlocks 7).getNextWritePageIndex = 1) ∧
    ((exampleState [0, 1, 2, 0, 2, 1] rfl).Reachable ∧
      (exampleState [0, 1, 2, 0, 2, 1] rfl).SWBlock = some 0 ∧
      ((exampleState [0, 1, 2, 0, 2, 1] rfl).physicalBlocks 0).isValid 2 = true ∧
      ((exampleState [0, 1, 2, 0, 2, 1] rfl).physicalBlocks 0).isErased 2 = false ∧
      ((exampleState [0, 1, 2, 0, 2, 1] rfl).physicalBlocks 0).getNextWritePageIndex = 2) ∧
    ¬ (∀ s : FastMapping, Reachable s → ∀ pbn i, i < s.param.pagesInBlock →
        ((s.physicalBlocks pbn).isValid i = true ∨ (s.physicalBlocks pbn).isErased i = false) →
        i < (s.physicalBlocks pbn).getNextWritePageIndex) := by
  refine ⟨⟨exampleState_reachable _ _, rfl, rfl, rfl, rfl⟩,
    ⟨exampleState_reachable _ _, rfl, rfl, rfl, rfl⟩, ?_⟩
  intro hall
  have h := hall (exampleState [1, 0] rfl) (exampleState_reachable _ _) 7 1 (by decide)
    (Or.inl rfl)
  have h1 : ((exampleState [1, 0] rfl).physicalBlocks 7).getNextWritePageIndex = 1 := rfl
  rw [h1] at h
  exact absurd h (by decide)

/-- C10, amended. In every reachable state, for every physical block that is
not the data block of a logical block and not the SW log block (so for every RW
log block, and for every block without a role), the write cursor is strictly
greater than the index of each of its pages that is valid or not erased. -/
theorem cursor_invariant_log {s : FastMapping} (h : Reachable s) (pbn i : Nat)
    (hd : ∀ lbn, s.logicalToPhysicalBlockMapping lbn ≠ some pbn)
    (hsw : s.SWBlock ≠ some pbn)
    (hlt : i < s.param.pagesInBlock)
    (hne : (s.physicalBlocks pbn).isValid i = true ∨ (s.physicalBlocks pbn).isErased i = false) :
    i < (s.physicalBlocks pbn).getNextWritePageIndex := by
  obtain ⟨c, hi⟩ := Reachable.inv h
  have he : s.ebit pbn i = false := by
    rcases hne with hv | he
    · exact (hi.bits pbn i hv).2
    · exact he
  show i < s.curs pbn
  by_cases hrw : pbn ∈ s.RWBlocks
  · have hq := hi.rwseq pbn i hrw hlt
    by_contra hcon
    have := hq.2 (Nat.le_of_not_lt hcon)
    rw [he] at this
    exact absurd this (by simp)
  · have := (hi.clean pbn hd hsw hrw).1 i hlt
    rw [he] at this
    exact absurd this (by simp)

/-- After the writes 1, 1 on the example device the RW log block 1 has page 0
valid and its cursor is 1. -/
theorem cursor_invariant_log_witness :
    (exampleState [1, 1] rfl).Reachable ∧
      (1 ∈ (exampleState [1, 1] rfl).RWBlocks) ∧
      (∀ lbn, (exampleState [1, 1] rfl).logicalToPhysicalBlockMapping lbn ≠ some 1) ∧
      (exampleState [1, 1] rfl).SWBlock ≠ some 1 ∧
      0 < (exampleState [1, 1] rfl).param.pagesInBlock ∧
      ((exampleState [1, 1] rfl).physicalBlocks 1).isValid 0 = true ∧
      ((exampleState [1, 1] rfl).physicalBlocks 1).getNextWritePageIndex = 1 ∧
      0 < ((exampleState [1, 1] rfl).physicalBlocks 1).getNextWritePageIndex :=
  have hr := exampleState_reachable [1, 1] rfl
  have hm : 1 ∈ (exampleState [1, 1] rfl).RWBlocks := by decide
  have hsw : (exampleState [1, 1] rfl).SWBlock ≠ some 1 := by decide
  have hd : ∀ lbn, (exampleState [1, 1] rfl).logicalToPhysicalBlockMapping lbn ≠ some 1 :=
    fun lbn hl => Exists.elim (Reachable.inv hr) (fun _ hi => hi.l2pRW lbn 1 hl hm)
  ⟨hr, hm, hd, hsw, by decide, rfl, rfl,
    cursor_invariant_log hr 1 0 hd hsw (by decide) (Or.inl rfl)⟩

end FastMapping

end SimpleSSD


namespace SimpleSSD

namespace FastMapping

/-- C11. Initial layout: for every configuration with more than 7 physical
blocks the constructor returns a state in which every physical block has all
its `pagesInBlock` pages erased, no valid page, erase count 0 and cursor 0 (and
is a clean block with its own index), the SW block is block 0, the RW blocks
are 1, 2, 3, 4, 5, 6 in this order, the free queue is 7, 8, ...,
`totalPhysicalBlocks - 1` in increasing order, every entry of the two block
maps is unmapped and `RWlogMapping` is empty. -/
theorem initial_layout (p : Parameter) (l : PAL) (c : Latency)
    (h : 7 < p.totalPhysicalBlocks) :
    ∃ s, FastMapping.new p l c = some s ∧ s.param = p ∧
      (∀ b, (∀ i, i < p.pagesInBlock → (s.physicalBlocks b).isErased i = true) ∧
        (∀ i, (s.physicalBlocks b).isValid i = false) ∧
        (s.physicalBlocks b).getValidPageCount = 0 ∧
        (s.physicalBlocks b).getEraseCount = 0 ∧
        (s.physicalBlocks b).getNextWritePageIndex = 0 ∧
        (s.physicalBlocks b).getBlockIndex = b ∧
        (s.physicalBlocks b).pageCount = p.pagesInBlock) ∧
      s.SWBlock = some 0 ∧ s.RWBlocks = [1, 2, 3, 4, 5, 6] ∧
      s.freeBlocks = List.range' 7 (p.totalPhysicalBlocks - 7) ∧
      (∀ a, s.logicalToPhysicalBlockMapping a = none) ∧
      (∀ b, s.physicalToLogicalBlockMapping b = none) ∧
      (∀ lpn, s.RWlogMapping lpn = none) := by
  have hs : ∃ s, FastMapping.new p l c = some s := by
    unfold FastMapping.new
    rw [if_pos (by simp only [kRWBlockCnt]; omega)]
    exact ⟨_, rfl⟩
  obtain ⟨s, hs⟩ := hs
  obtain ⟨h1, h2, h3, h4, h5, h6, h7, h8, -⟩ := new_eq hs
  refine ⟨s, hs, h1, ?_, h7, h8, h5, ?_, ?_, ?_⟩
  · intro b
    rw [h4, h1]
    refine ⟨?_, ?_, ?_, rfl, rfl, rfl, rfl⟩
    · intro i hi
      simp [BlockFast.new, BlockFast.erase, BlockFast.isErased, Bitset.test, Bitset.setAll, hi]
    · intro i
      simp [BlockFast.new, BlockFast.erase, BlockFast.isValid, Bitset.test, Bitset.resetAll]
    · simp [BlockFast.new, BlockFast.erase, BlockFast.getValidPageCount, Bitset.count,
        Bitset.resetAll]
  · intro a
    rw [h2]
  · intro b
    rw [h3]
  · intro lpn
    rw [h6]

/-- The example configuration has 16 physical blocks: the free queue of the
new device is 7, ..., 15. -/
theorem initial_layout_witness :
    7 < exampleParam.totalPhysicalBlocks ∧
      ∃ s, FastMapping.new exampleParam examplePAL exampleLatency = some s ∧
        s.SWBlock = some 0 ∧ s.RWBlocks = [1, 2, 3, 4, 5, 6] ∧
        s.freeBlocks = [7, 8, 9, 10, 11, 12, 13, 14, 15] :=
  have h := initial_layout exampleParam examplePAL exampleLatency (by decide)
  ⟨by decide, Exists.elim h (fun s hs => ⟨s, hs.1, hs.2.2.2.1, hs.2.2.2.2.1, hs.2.2.2.2.2.1⟩)⟩

/-- C12. `getFreeBlock` on a non-empty free queue returns the head of the queue
and the state in which the queue is the old queue without its head, in the
same order, and every other field is unchanged; it fails exactly when the free
queue is empty. -/
theorem getFreeBlock_pops_head :
    (∀ (s : FastMapping) (ret : Nat) (rest : List Nat), s.freeBlocks = ret :: rest →
      s.getFreeBlock = some (ret, { s with freeBlocks := rest })) ∧
    (∀ s : FastMapping, s.getFreeBlock = none ↔ s.freeBlocks = []) := by
  constructor
  · intro s ret rest h
    unfold getFreeBlock
    rw [h]
  · intro s
    unfold getFreeBlock
    cases s.freeBlocks with
    | nil => simp
    | cons a r => simp

/-- On the new example device the free queue is 7, 8, ..., 15: `getFreeBlock`
returns block 7 and leaves 8, ..., 15. -/
theorem getFreeBlock_pops_head_witness :
    (exampleState [] rfl).freeBlocks = 7 :: [8, 9, 10, 11, 12, 13, 14, 15] ∧
      (exampleState [] rfl).getFreeBlock =
        some (7, { exampleState [] rfl with freeBlocks := [8, 9, 10, 11, 12, 13, 14, 15] }) :=
  ⟨rfl, getFreeBlock_pops_head.1 (exampleState [] rfl) 7 [8, 9, 10, 11, 12, 13, 14, 15] rfl⟩

end FastMapping

end SimpleSSD


namespace SimpleSSD

theorem BlockFast.write_some (b : BlockFast) (i lpn t : Nat) (h : b.isErased i = true) :
    ∃ b1, b.write i lpn 0 t = some b1 := by
  unfold BlockFast.write
  unfold BlockFast.isErased at h
  rw [if_pos rfl, if_pos h]
  exact ⟨_, rfl⟩

namespace FastMapping

theorem writeBlock_some (s : FastMapping) (p i l t : Nat) (h : s.ebit p i = true) :
    ∃ b1, (s.physicalBlocks p).write i l 0 t = some b1 ∧
      s.writeBlock p i l t = some { s with physicalBlocks := upd s.physicalBlocks p b1 } := by
  obtain ⟨b1, hb⟩ := BlockFast.write_some (s.physicalBlocks p) i l t h
  refine ⟨b1, hb, ?_⟩
  unfold writeBlock
  rw [hb]

theorem palWrite_fields (s : FastMapping) (req : PalRequest) (tick : Nat) (sendToPAL : Bool) :
    (s.palWrite req tick sendToPAL).1.param = s.param ∧
      (s.palWrite req tick sendToPAL).1.logicalToPhysicalBlockMapping =
        s.logicalToPhysicalBlockMapping ∧
      (s.palWrite req tick sendToPAL).1.physicalToLogicalBlockMapping =
        s.physicalToLogicalBlockMapping ∧
      (s.palWrite req tick sendToPAL).1.physicalBlocks = s.physicalBlocks ∧
      (s.palWrite req tick sendToPAL).1.freeBlocks = s.freeBlocks ∧
      (s.palWrite req tick sendToPAL).1.RWlogMapping = s.RWlogMapping ∧
      (s.palWrite req tick sendToPAL).1.SWBlock = s.SWBlock ∧
      (s.palWrite req tick sendToPAL).1.RWBlocks = s.RWBlocks ∧
      (s.palWrite req tick sendToPAL).1.palLog =
        s.palLog ++ (if sendToPAL then [PalOp.write req tick] else []) := by
  cases sendToPAL <;> simp [palWrite]

theorem findValidPage_found_mapped {s : FastMapping} {lpn b i : Nat} {k : BlockType}
    (h : s.findValidPage lpn = some (some (b, i, k))) :
    lpn / s.param.pagesInBlock < s.param.totalLogicalBlocks ∧
      ∃ p, s.logicalToPhysicalBlockMapping (lpn / s.param.pagesInBlock) = some p := by
  obtain ⟨h1, h2, -⟩ := findValidPage_some_some h
  obtain ⟨p, hp, -⟩ := findValidPageSpec_some h2
  exact ⟨h1, p, hp⟩

theorem writeEnsureMapping_mapped {s : FastMapping} {lbn p : Nat}
    (h : s.logicalToPhysicalBlockMapping lbn = some p) : s.writeEnsureMapping lbn = some s := by
  unfold writeEnsureMapping
  rw [h]

/-- `writeInternal` when the lookup finds a valid copy. -/
theorem writeInternal_found {s : FastMapping} {lpn b i : Nat} {k : BlockType}
    (tick : Nat) (sendToPAL : Bool)
    (h : s.findValidPage lpn = some (some (b, i, k))) :
    s.writeInternal lpn tick sendToPAL =
      (s.writeOverwrite lpn tick sendToPAL b i k).map
        (fun r => (r.1, r.2 + s.cpu.WRITE_INTERNAL)) := by
  obtain ⟨h1, p, hp⟩ := findValidPage_found_mapped h
  unfold writeInternal
  simp only [convertPageToBlock]
  rw [if_pos h1, writeEnsureMapping_mapped hp]
  simp only [h]
  cases s.writeOverwrite lpn tick sendToPAL b i k with
  | none => rfl
  | some r => rfl

/-- `writeInternal` when the lookup after the mapping step finds nothing. -/
theorem writeInternal_notFound {s s1 : FastMapping} {lpn : Nat} (tick : Nat) (sendToPAL : Bool)
    (hl : lpn / s.param.pagesInBlock < s.param.totalLogicalBlocks)
    (hA : s.writeEnsureMapping (lpn / s.param.pagesInBlock) = some s1)
    (h : s1.findValidPage lpn = some none) :
    s.writeInternal lpn tick sendToPAL =
      (s1.writeFresh lpn tick sendToPAL).map (fun r => (r.1, r.2 + s.cpu.WRITE_INTERNAL)) := by
  unfold writeInternal
  simp only [convertPageToBlock]
  rw [if_pos hl, hA]
  simp only [h]
  cases s1.writeFresh lpn tick sendToPAL with
  | none => rfl
  | some r => rfl

end FastMapping

end SimpleSSD


namespace SimpleSSD

namespace FastMapping

/-- The read phase of a merge always returns. -/
theorem mergeReads_some (tick : Nat) (sendToPAL : Bool) :
    ∀ (rs : List PalRequest) (s : FastMapping) (f : Nat),
      ∃ s1 f1, mergeReads tick sendToPAL rs s f = some (s1, f1) := by
  intro rs
  induction rs with
  | nil => intro s f; exact ⟨s, f, rfl⟩
  | cons r rest ih =>
    intro s f
    simp only [mergeReads]
    have hr : ∃ x, (s.physicalBlocks r.blockIndex).read r.pageIndex 0 tick = some x := by
      unfold BlockFast.read
      rw [if_pos rfl]
      split
      · exact ⟨_, rfl⟩
      · exact ⟨_, rfl⟩
    obtain ⟨x, hx⟩ := hr
    rw [hx]
    exact ih _ _

/-- The write phase of a merge returns when the target pages are erased and
pairwise different. -/
theorem mergeWrites_some (rf : Nat) (sendToPAL : Bool) :
    ∀ (ws : List (PalRequest × Nat)) (s : FastMapping) (f : Nat),
      (∀ r l, (r, l) ∈ ws → s.ebit r.blockIndex r.pageIndex = true) →
      (ws.map Prod.fst).Nodup →
      ∃ s1 f1, mergeWrites rf sendToPAL ws s f = some (s1, f1) := by
  intro ws
  induction ws with
  | nil => intro s f _ _; exact ⟨s, f, rfl⟩
  | cons w rest ih =>
    intro s f he hnd
    obtain ⟨r, l⟩ := w
    simp only [mergeWrites]
    obtain ⟨b1, hb1, hw⟩ := writeBlock_some s r.blockIndex r.pageIndex l rf
      (he r l (List.mem_cons_self _ _))
    rw [hw]
    simp only []
    apply ih
    · intro r1 l1 hmem
      have hsc := palWrite_sameCore
        ({ s with physicalBlocks := upd s.physicalBlocks r.blockIndex b1 } : FastMapping) r rf
        sendToPAL
      rw [hsc.ebit]
      obtain ⟨-, -, hE, -⟩ := writeBlock_views hw
      rw [hE]
      have hne : r1 ≠ r := by
        intro hx
        subst hx
        simp only [List.map_cons, List.nodup_cons, List.mem_map, Prod.exists,
          exists_and_right, exists_eq_right, not_exists] at hnd
        exact hnd.1 l1 hmem
      have hdec : decide (r1.blockIndex = r.blockIndex ∧ r1.pageIndex = r.pageIndex) = false := by
        rw [decide_eq_false_iff_not]
        rintro ⟨h1, h2⟩
        apply hne
        cases r1
        cases r
        simp only [PalRequest.mk.injEq]
        exact ⟨h1, h2⟩
      rw [hdec]
      simp only [Bool.not_false, Bool.true_and]
      exact he r1 l1 (List.mem_cons_of_mem _ hmem)
    · simp only [List.map_cons, List.nodup_cons] at hnd
      exact hnd.2

/-- The block assignment of the RW merge returns when every logical block of
the list is mapped and the free queue is long enough. -/
theorem mergeRWAssign_some :
    ∀ (lbns : List Nat) (s : FastMapping) (n0 o0 : Nat → Nat),
      (∀ a, a ∈ lbns → (s.logicalToPhysicalBlockMapping a).isSome = true) →
      lbns.length ≤ s.freeBlocks.length →
      ∃ r, mergeRWAssign lbns s n0 o0 = some r := by
  intro lbns
  induction lbns with
  | nil => intro s n0 o0 _ _; exact ⟨_, rfl⟩
  | cons a rest ih =>
    intro s n0 o0 hm hlen
    simp only [mergeRWAssign]
    cases hf : s.freeBlocks with
    | nil => rw [hf] at hlen; simp at hlen
    | cons x xs =>
      have hg : s.getFreeBlock = some (x, { s with freeBlocks := xs }) := by
        unfold getFreeBlock
        rw [hf]
      rw [hg]
      simp only []
      have ha := hm a (List.mem_cons_self _ _)
      cases hl : s.logicalToPhysicalBlockMapping a with
      | none => rw [hl] at ha; exact absurd ha (by simp)
      | some old =>
        simp only []
        apply ih
        · intro a1 ha1
          simp only [upd_apply]
          split
          · rfl
          · exact hm a1 (List.mem_cons_of_mem _ ha1)
        · rw [hf] at hlen
          simp only [List.length_cons] at hlen ⊢
          omega

end FastMapping

end SimpleSSD


namespace SimpleSSD

namespace FastMapping

/-- A copying merge keeps the invariant and creates no copy. -/
theorem CopyMerge.invC {s S : FastMapping} {c k G : Nat} {lbns : List Nat} {N : Nat → Nat}
    {er : List Nat} {T : Nat → Nat → Prop} (m : CopyMerge s S c k G lbns N er T)
    (hi : InvC s c)
    (hG : (s.SWBlock = some G ∧ S.SWBlock = some (c + k) ∧ S.RWBlocks = s.RWBlocks) ∨
      (∃ rest, s.RWBlocks = G :: rest ∧ S.RWBlocks = rest ∧ S.SWBlock = s.SWBlock)) :
    InvC S (c + k + 1) ∧ ∀ l, NoCopy s l → NoCopy S l := by
  obtain ⟨n, -, hf⟩ := m.hfree
  exact hi.mergeGen hG m.hN m.hNinj m.hD m.her m.hGer m.hparam m.hl2p m.hp2l ⟨n, hf⟩
    m.hrwmap1 m.hrwmap2 m.hV m.hE m.hT m.hL m.hC0 m.hC m.hblk

/-- The erased blocks of a copying merge are blocks in use. -/
theorem CopyMerge.erLt {s S : FastMapping} {c k G : Nat} {lbns : List Nat} {N : Nat → Nat}
    {er : List Nat} {T : Nat → Nat → Prop} (m : CopyMerge s S c k G lbns N er T)
    (hi : InvC s c) (hG : G < c) {b : Nat} (hb : b ∈ er) : b < c := by
  rcases m.her b hb with rfl | ⟨a, -, ha⟩
  · exact hG
  · exact hi.l2pLt a b ha

/-- A target page of a copying merge is valid afterwards and not erased. -/
theorem CopyMerge.target {s S : FastMapping} {c k G : Nat} {lbns : List Nat} {N : Nat → Nat}
    {er : List Nat} {T : Nat → Nat → Prop} (m : CopyMerge s S c k G lbns N er T)
    (hi : InvC s c) (hG : G < c) {b i : Nat} (ht : T b i) :
    c ≤ b ∧ b ∉ er ∧ S.vbit b i = true := by
  obtain ⟨-, a, ha, hb, -⟩ := m.hT b i ht
  have hc : c ≤ b := by rw [hb]; exact (m.hN a ha).1
  have hner : b ∉ er := fun hx => by
    have := m.erLt hi hG hx
    omega
  exact ⟨hc, hner, (m.hV b i).2 ⟨hner, Or.inr ht⟩⟩

/-- A copying merge keeps the content: every LPN with a valid copy before has
a valid copy afterwards, in place when its block is not erased and in the new
data block of its logical block, at its offset, otherwise. -/
theorem CopyMerge.content {s S : FastMapping} {c k G : Nat} {lbns : List Nat} {N : Nat → Nat}
    {er : List Nat} {T : Nat → Nat → Prop} (m : CopyMerge s S c k G lbns N er T)
    (hi : InvC s c) (hG : G < c) {b i : Nat} (hv : s.vbit b i = true) :
    (b ∉ er → S.vbit b i = true ∧ S.lpnAt b i = s.lpnAt b i) ∧
    (b ∈ er → ∃ p, S.logicalToPhysicalBlockMapping (s.lpnAt b i / s.param.pagesInBlock) = some p ∧
      c ≤ p ∧ S.vbit p (s.lpnAt b i % s.param.pagesInBlock) = true ∧
      S.lpnAt p (s.lpnAt b i % s.param.pagesInBlock) = s.lpnAt b i) := by
  constructor
  · intro hb
    refine ⟨(m.hV b i).2 ⟨hb, Or.inl hv⟩, m.hL b i ?_⟩
    intro ht
    have h1 := (m.hT b i ht).1
    rw [(hi.bits b i hv).2] at h1
    exact absurd h1 (by simp)
  · intro hb
    obtain ⟨hl, ht⟩ := m.hcopy b i hb hv
    obtain ⟨hc, -, hv1⟩ := m.target hi hG ht
    refine ⟨N (s.lpnAt b i / s.param.pagesInBlock), ?_, hc, hv1, ?_⟩
    · rw [m.hl2p, if_pos hl]
    · obtain ⟨-, a, ha, hb1, hl1, -⟩ := m.hT _ _ ht
      have := m.hNinj _ hl a ha hb1
      rw [hl1, ← this]
      exact Nat.div_add_mod' _ _

/-- Every LPN with a valid copy before a copying merge has one afterwards. -/
theorem CopyMerge.keeps {s S : FastMapping} {c k G : Nat} {lbns : List Nat} {N : Nat → Nat}
    {er : List Nat} {T : Nat → Nat → Prop} (m : CopyMerge s S c k G lbns N er T)
    (hi : InvC s c) (hG : G < c) {b i : Nat} (hv : s.vbit b i = true) :
    ∃ b1 i1, S.vbit b1 i1 = true ∧ S.lpnAt b1 i1 = s.lpnAt b i := by
  by_cases hb : b ∈ er
  · obtain ⟨p, -, -, h1, h2⟩ := (m.content hi hG hv).2 hb
    exact ⟨p, _, h1, h2⟩
  · obtain ⟨h1, h2⟩ := (m.content hi hG hv).1 hb
    exact ⟨b, i, h1, h2⟩

/-- The new data blocks of a copying merge have no page that is neither erased
nor valid. -/
theorem CopyMerge.newData {s S : FastMapping} {c k G : Nat} {lbns : List Nat} {N : Nat → Nat}
    {er : List Nat} {T : Nat → Nat → Prop} (m : CopyMerge s S c k G lbns N er T)
    (hi : InvC s c) (hG : G < c) {a i : Nat} (ha : a ∈ lbns) (hlt : i < s.param.pagesInBlock) :
    S.ebit (N a) i = true ∨ S.vbit (N a) i = true := by
  have hc := (m.hN a ha).1
  have hner : N a ∉ er := fun hx => by
    have := m.erLt hi hG hx
    omega
  by_cases ht : T (N a) i
  · exact Or.inr ((m.hV _ _).2 ⟨hner, Or.inr ht⟩)
  · exact Or.inl ((m.hE _ _).2 (Or.inr ⟨hner, (hi.fresh hc).1 i hlt, ht⟩))

/-- A copying merge keeps the overwritten pages of data blocks backed by a
valid copy. -/
theorem CopyMerge.backed {s S : FastMapping} {c k G : Nat} {lbns : List Nat} {N : Nat → Nat}
    {er : List Nat} {T : Nat → Nat → Prop} (m : CopyMerge s S c k G lbns N er T)
    (hi : InvC s c) (hG : G < c) (hGd : ∀ a, s.logicalToPhysicalBlockMapping a ≠ some G)
    {X : Nat → Prop} (hb : DataBacked s X) : DataBacked S X := by
  intro a p i hp hlt he hv
  rw [m.hparam] at hlt ⊢
  rw [m.hl2p] at hp
  by_cases ha : a ∈ lbns
  · rw [if_pos ha] at hp
    injection hp with hp
    subst hp
    rcases m.newData hi hG ha hlt with h1 | h1
    · rw [h1] at he
      exact absurd he (by simp)
    · rw [h1] at hv
      exact absurd hv (by simp)
  · rw [if_neg ha] at hp
    have hpc := hi.l2pLt a p hp
    have hner : p ∉ er := by
      intro hx
      rcases m.her p hx with rfl | ⟨a1, ha1, hp1⟩
      · exact hGd a hp
      · exact ha (hi.l2pInj a a1 p hp hp1 ▸ ha1)
    have hnt : ¬ T p i := by
      intro ht
      have := (m.target hi hG ht).1
      omega
    have he0 : s.ebit p i = false := by
      cases hx : s.ebit p i with
      | false => rfl
      | true =>
        have := (m.hE p i).2 (Or.inr ⟨hner, hx, hnt⟩)
        rw [this] at he
        exact absurd he (by simp)
    have hv0 : s.vbit p i = false := by
      cases hx : s.vbit p i with
      | false => rfl
      | true =>
        have := (m.hV p i).2 ⟨hner, Or.inl hx⟩
        rw [this] at hv
        exact absurd hv (by simp)
    rcases hb a p i hp hlt he0 hv0 with hx | ⟨b, j, hbv, hbl⟩
    · exact Or.inl hx
    · obtain ⟨b1, j1, h1, h2⟩ := m.keeps hi hG hbv
      exact Or.inr ⟨b1, j1, h1, h2.trans hbl⟩

end FastMapping

end SimpleSSD


namespace SimpleSSD

namespace FastMapping

/-- The plan of the SW merge is built when the SW block has an owner with a
data block and, unless all its pages are valid, two blocks are free. -/
theorem mergePlanSW_some {s : FastMapping} {sw o old : Nat} (ap : Option Nat)
    (ho : s.physicalToLogicalBlockMapping sw = some o)
    (hold : s.logicalToPhysicalBlockMapping o = some old)
    (hfree : (s.physicalBlocks sw).getValidPageCount = s.param.pagesInBlock ∨
      2 ≤ s.freeBlocks.length) :
    ∃ r, s.mergePlanSW sw ap = some r := by
  unfold mergePlanSW
  rw [ho]
  simp only [hold]
  by_cases hc : (s.physicalBlocks sw).getValidPageCount = s.param.pagesInBlock
  · rw [if_pos hc]
    exact ⟨_, rfl⟩
  · rw [if_neg hc]
    have h2 : 2 ≤ s.freeBlocks.length := by
      rcases hfree with h | h
      · exact absurd h hc
      · exact h
    cases hf : s.freeBlocks with
    | nil => rw [hf] at h2; simp at h2
    | cons x xs =>
      cases xs with
      | nil => rw [hf] at h2; simp at h2
      | cons y ys =>
        simp only [getFreeBlock, hf]
        exact ⟨_, rfl⟩

theorem mergeLogBlock_run (s : FastMapping) (log : Nat) (k : BlockType) (ap : Option Nat)
    (tick : Nat) (sendToPAL : Bool) :
    s.mergeLogBlock log k ap tick sendToPAL =
      mergeRun
        (match k with
          | BlockType.kBlockTypeRW => if ap.isSome then none else s.mergePlanRW log
          | BlockType.kBlockTypeSW => s.mergePlanSW log ap
          | _ => none) tick sendToPAL := rfl

theorem mergePlanSW_full (s : FastMapping) (sw o old : Nat) (ap : Option Nat)
    (ho : s.physicalToLogicalBlockMapping sw = some o)
    (hold : s.logicalToPhysicalBlockMapping o = some old)
    (hcnt : (s.physicalBlocks sw).getValidPageCount ≠ s.param.pagesInBlock) :
    s.mergePlanSW sw ap = s.mergePlanSWFull sw o old := by
  unfold mergePlanSW mergePlanSWFull
  rw [ho]
  simp only [hold, if_neg hcnt]

theorem mergePlanSWFull_eq (s : FastMapping) (sw o old c n : Nat)
    (hfree : s.freeBlocks = List.range' c (2 + n)) :
    ∃ s0 p, s.mergePlanSWFull sw o old = some (s0, p) ∧
      s0.param = s.param ∧ s0.physicalBlocks = s.physicalBlocks ∧
      s0.RWlogMapping = s.RWlogMapping ∧ s0.RWBlocks = s.RWBlocks ∧
      s0.logicalToPhysicalBlockMapping = upd s.logicalToPhysicalBlockMapping o (some c) ∧
      s0.physicalToLogicalBlockMapping =
        upd (upd s.physicalToLogicalBlockMapping c (some o)) (c + 1) none ∧
      s0.freeBlocks = List.range' (c + 2) n ∧ s0.SWBlock = some (c + 1) ∧
      p.writeRequests =
        ((List.range s.param.pagesInBlock).filter
          (fun i => s.vbit sw i || s.vbit old i)).map
          (fun i => (PalRequest.mk c i, o * s.param.pagesInBlock + i)) ∧
      p.eraseRequests = [old, sw] := by
  have h3 : List.range' c (2 + n) = c :: (c + 1) :: List.range' (c + 2) n := by
    rw [show 2 + n = (n + 1) + 1 by omega, List.range'_succ, List.range'_succ]
  unfold mergePlanSWFull
  simp only [getFreeBlock, hfree, h3]
  exact ⟨_, _, rfl, rfl, rfl, rfl, rfl, rfl, rfl, rfl, rfl, rfl, rfl⟩

/-- The full-copy merge of the SW block returns when two blocks are free, and
is a copying merge into the first free block; the second free block becomes
the SW block. -/
theorem mergeFull_run {s : FastMapping} {c sw o old n : Nat} (hi : InvC s c)
    (hsw : s.SWBlock = some sw) (ho : s.physicalToLogicalBlockMapping sw = some o)
    (hold : s.logicalToPhysicalBlockMapping o = some old)
    (hfree : s.freeBlocks = List.range' c (2 + n))
    (tick : Nat) (sendToPAL : Bool) :
    ∃ s1 t1, mergeRun (s.mergePlanSWFull sw o old) tick sendToPAL = some (s1, t1) ∧
      s1.SWBlock = some (c + 1) ∧ s1.RWBlocks = s.RWBlocks ∧
      s1.RWlogMapping = s.RWlogMapping ∧
      CopyMerge s s1 c 1 sw [o] (fun _ => c) [old, sw]
        (fun b i => b = c ∧ i < s.param.pagesInBlock ∧
          (s.vbit sw i = true ∨ s.vbit old i = true)) := by
  obtain ⟨s0, p, hplan, p1, p2, p3, p4, q1, q2, q3, q4, q6, q7⟩ :=
    mergePlanSWFull_eq s sw o old c n hfree
  obtain ⟨s2, rf, hr⟩ := mergeReads_some tick sendToPAL p.readRequests s0 tick
  have hsc := mergeReads_sameCore tick sendToPAL _ _ _ _ _ hr
  obtain ⟨v1, v2, v3, v4⟩ := views_of_blocks p2
  have hfr := hi.fresh (Nat.le_refl c)
  obtain ⟨s3, wf, hw⟩ := mergeWrites_some rf sendToPAL p.writeRequests s2 rf
    (by
      intro r l hmem
      rw [q6] at hmem
      simp only [List.mem_map, mem_filter_range, Prod.mk.injEq] at hmem
      obtain ⟨j, ⟨hj, -⟩, hr1, -⟩ := hmem
      subst hr1
      rw [hsc.ebit, v2]
      exact hfr.1 j hj)
    (by
      rw [q6, List.map_map]
      apply List.Nodup.map
      · intro x y hxy
        simp only [Function.comp, PalRequest.mk.injEq] at hxy
        exact hxy.2
      · exact List.Nodup.filter _ (List.nodup_range _))
  have hm : mergeRun (s.mergePlanSWFull sw o old) tick sendToPAL =
      some ((mergeErases rf sendToPAL p.eraseRequests s3 rf).1,
        max wf (mergeErases rf sendToPAL p.eraseRequests s3 rf).2) := by
    unfold mergeRun
    simp only [hplan, hr, hw]
  refine ⟨_, _, hm, ?_⟩
  have hS0 : ∀ b, (s0.physicalBlocks b).pLPNs.isSome = true := by
    intro b
    rw [p2]
    exact (hi.blk b).2
  obtain ⟨⟨m1, m2, m3, m4, m5, m6⟩, xP, xV, xE, xT, xL, xC0, xC, xB⟩ :=
    @mergeExec_spec _ _ _ _ _ _ rf _ _ _ p.eraseRequests hS0 hr hw
  generalize (mergeErases rf sendToPAL p.eraseRequests s3 rf).1 = S1
    at m1 m2 m3 m4 m5 m6 xP xV xE xT xL xC0 xC xB ⊢
  rw [v1] at xV
  rw [v2] at xE xT
  rw [v3] at xL
  rw [v4] at xC
  rw [p2] at xE xB
  have hoSW : old ≠ sw := fun hx => hi.l2pSW o old hold (hx ▸ hsw)
  have holdc := hi.l2pLt o old hold
  have hswc := hi.swLt sw hsw
  have hTiff : ∀ b i, (∃ l, (PalRequest.mk b i, l) ∈ p.writeRequests) ↔
      (b = c ∧ i < s.param.pagesInBlock ∧ (s.vbit sw i = true ∨ s.vbit old i = true)) := by
    intro b i
    rw [q6]
    simp only [List.mem_map, mem_filter_range, Bool.or_eq_true, Prod.mk.injEq,
      PalRequest.mk.injEq]
    constructor
    · rintro ⟨l, j, ⟨h1, h2⟩, ⟨h3, h4⟩, -⟩
      subst h4
      exact ⟨h3.symm, h1, h2⟩
    · rintro ⟨h1, h2, h3⟩
      exact ⟨o * s.param.pagesInBlock + i, i, ⟨h2, h3⟩, ⟨h1.symm, rfl⟩, rfl⟩
  have hreq : ∀ b i l, (PalRequest.mk b i, l) ∈ p.writeRequests →
      l = o * s.param.pagesInBlock + i := by
    intro b i l hl
    rw [q6] at hl
    simp only [List.mem_map, Prod.mk.injEq, PalRequest.mk.injEq] at hl
    obtain ⟨j, -, ⟨-, h4⟩, h5⟩ := hl
    subst h4
    exact h5.symm
  refine ⟨m5.trans q4, m6.trans p4, m4.trans p3, ?_⟩
  constructor
  · intro a _
    exact ⟨Nat.le_refl c, Nat.lt_succ_self c⟩
  · intro a ha a1 ha1 _
    rw [List.mem_singleton] at ha ha1
    rw [ha, ha1]
  · intro a ha
    rw [List.mem_singleton] at ha
    subst ha
    exact ⟨old, hold, by simp⟩
  · intro b hb
    simp only [List.mem_cons, List.mem_singleton, List.not_mem_nil, or_false] at hb
    rcases hb with rfl | rfl
    · exact Or.inr ⟨o, by simp, hold⟩
    · exact Or.inl rfl
  · simp
  · exact m1.trans p1
  · intro a
    rw [m2, q1]
    simp only [upd_apply, List.mem_singleton]
  · intro b hb hbc
    rw [xP b, q7, if_neg hb, q2]
    simp only [upd_apply]
    rw [if_neg (by omega), if_neg (by omega)]
  · intro a ha
    rw [List.mem_singleton] at ha
    subst ha
    rw [xP, q7, if_neg (by
      simp only [List.mem_cons, List.mem_singleton, List.not_mem_nil, or_false]
      omega), q2]
    have hne : c ≠ c + 1 := by omega
    simp [upd_apply, hne]
  · intro b hb
    rw [xP, q7, if_pos hb]
  · rw [xP, q7, if_neg (by
      simp only [List.mem_cons, List.mem_singleton, List.not_mem_nil, or_false]
      omega), q2]
    simp [upd_apply]
  · refine ⟨n, ?_, ?_⟩
    · rw [hfree]
    · rw [m3, q3]
  · intro l b j hr1
    rw [m4, p3] at hr1
    exact ⟨hr1, fun hx => hi.swRW sw hsw (hx ▸ (hi.rwmap l b j hr1).1)⟩
  · intro l b j hr1 _
    rw [m4, p3]
    exact hr1
  · intro b i
    rw [xV b i, q7, hTiff]
  · intro b i
    rw [xE b i, (hi.blk b).1, q7, hTiff]
  · intro b i ht
    obtain ⟨l, hl⟩ := (hTiff b i).2 ht
    obtain ⟨g1, g2⟩ := xT b i l hl
    refine ⟨g1, o, by simp, ht.1, by rw [g2, hreq b i l hl], ?_⟩
    rcases ht.2.2 with hs | hs
    · refine ⟨sw, by simp, i, hs, ?_⟩
      obtain ⟨h3, h4⟩ := hi.bits sw i hs
      obtain ⟨o1, h5, -, h6⟩ := hi.sw sw i hsw h3 h4
      rw [ho] at h5
      injection h5 with h5
      subst h5
      exact h6 hs
    · exact ⟨old, by simp, i, hs, hi.data o old i hold hs⟩
  · intro b i ht
    exact xL b i (fun hx => ht ((hTiff b i).1 hx))
  · intro b hb
    exact xC0 b (by rw [q7]; exact hb)
  · intro b hb hn
    exact xC b (by rw [q7]; exact hb) (fun i l hl => hn i ((hTiff b i).1 ⟨l, hl⟩))
  · intro b
    rw [← (hi.blk b).1]
    exact xB b
  · intro b i hb hv
    simp only [List.mem_cons, List.mem_singleton, List.not_mem_nil, or_false] at hb
    obtain ⟨hlt, -⟩ := hi.bits b i hv
    have hl : s.lpnAt b i = o * s.param.pagesInBlock + i := by
      rcases hb with rfl | rfl
      · exact hi.data o b i hold hv
      · obtain ⟨h3, h4⟩ := hi.bits b i hv
        obtain ⟨o1, h5, -, h6⟩ := hi.sw b i hsw h3 h4
        rw [ho] at h5
        injection h5 with h5
        subst h5
        exact h6 hv
    obtain ⟨d1, d2⟩ := div_mod_of_pos hlt hl
    rw [d1, d2]
    refine ⟨by simp, rfl, hlt, ?_⟩
    rcases hb with rfl | rfl
    · exact Or.inr hv
    · exact Or.inl hv

/-- The full merge of the SW block by `mergeLogBlock`, when not all pages of
the SW block are valid. -/
theorem mergeSW_full {s : FastMapping} {c sw o old n : Nat} (hi : InvC s c)
    (hsw : s.SWBlock = some sw) (ho : s.physicalToLogicalBlockMapping sw = some o)
    (hold : s.logicalToPhysicalBlockMapping o = some old)
    (hcnt : (s.physicalBlocks sw).getValidPageCount ≠ s.param.pagesInBlock)
    (hfree : s.freeBlocks = List.range' c (2 + n))
    (ap : Option Nat) (tick : Nat) (sendToPAL : Bool) :
    ∃ s1 t1, s.mergeLogBlock sw BlockType.kBlockTypeSW ap tick sendToPAL = some (s1, t1) ∧
      s1.SWBlock = some (c + 1) ∧ s1.RWBlocks = s.RWBlocks ∧
      s1.RWlogMapping = s.RWlogMapping ∧
      CopyMerge s s1 c 1 sw [o] (fun _ => c) [old, sw]
        (fun b i => b = c ∧ i < s.param.pagesInBlock ∧
          (s.vbit sw i = true ∨ s.vbit old i = true)) := by
  rw [mergeLogBlock_run]
  simp only []
  rw [mergePlanSW_full s sw o old ap ho hold hcnt]
  exact mergeFull_run hi hsw ho hold hfree tick sendToPAL

end FastMapping

end SimpleSSD


namespace SimpleSSD

/-- A map of a list has no duplicates when another map of it, which it
determines, has none. -/
theorem nodup_map_of_nodup_map {α β γ : Type} (f : α → β) (g : α → γ) (l : List α)
    (h : (l.map g).Nodup) (hfg : ∀ x, x ∈ l → ∀ y, y ∈ l → f x = f y → g x = g y) :
    (l.map f).Nodup := by
  rw [List.Nodup, List.pairwise_map] at h ⊢
  exact h.imp_of_mem (fun hx hy hne hf => hne (hfg _ hx _ hy hf))

namespace FastMapping

/-- Second loop of the RW merge: the owner recorded for each new block, and
the blocks beyond the ones taken are untouched. -/
theorem mergeRWAssign_p2l :
    ∀ (lbns : List Nat) (s : FastMapping) (n0 o0 : Nat → Nat) (c n : Nat) (s1 : FastMapping)
      (nw od : Nat → Nat),
      lbns.Nodup → s.freeBlocks = List.range' c n →
      mergeRWAssign lbns s n0 o0 = some (s1, nw, od) →
      (∀ a, a ∈ lbns → s1.physicalToLogicalBlockMapping (nw a) = some a) ∧
      (∀ b, c + lbns.length ≤ b →
        s1.physicalToLogicalBlockMapping b = s.physicalToLogicalBlockMapping b) := by
  intro lbns
  induction lbns with
  | nil =>
    intro s n0 o0 c n s1 nw od _ _ h
    simp only [mergeRWAssign] at h
    injection h with h
    injection h with h1 h
    subst h1
    exact ⟨fun a ha => absurd ha (by simp), fun b _ => rfl⟩
  | cons a rest ih =>
    intro s n0 o0 c n s1 nw od hnd hfree h
    simp only [mergeRWAssign] at h
    split at h
    · exact absurd h (by simp)
    · rename_i p sA hp
      obtain ⟨hpc, hsA⟩ := getFreeBlock_range hfree hp
      subst hpc
      split at h
      · exact absurd h (by simp)
      · rename_i old hold
        rw [List.nodup_cons] at hnd
        have hfA : ({ sA with
            physicalToLogicalBlockMapping := upd sA.physicalToLogicalBlockMapping p (some a)
            logicalToPhysicalBlockMapping :=
              upd sA.logicalToPhysicalBlockMapping a (some p) } : FastMapping).freeBlocks =
            List.range' (p + 1) (n - 1) := by
          rw [hsA]
        obtain ⟨r1, r2⟩ := ih _ _ _ (p + 1) (n - 1) s1 nw od hnd.2 hfA h
        obtain ⟨-, -, -, -, -, -, -, -, -, g10, -, g12⟩ :=
          mergeRWAssign_spec rest _ _ _ (p + 1) (n - 1) s1 nw od hnd.2 hfA h
        constructor
        · intro a1 ha1
          rw [List.mem_cons] at ha1
          rcases ha1 with rfl | ha1
          · have h1 := (g10 a1 hnd.1).1
            simp only [upd_apply, if_true] at h1
            rw [h1, g12 p (Nat.lt_succ_self p)]
            simp [upd_apply]
          · exact r1 a1 ha1
        · intro b hb
          simp only [List.length_cons] at hb
          rw [r2 b (by omega)]
          simp only [upd_apply]
          rw [if_neg (by omega), hsA]

end FastMapping

end SimpleSSD


namespace SimpleSSD

namespace FastMapping

/-- The RW merge takes at most one block per page of the victim, and one. -/
theorem rwMergeDemand_le (s : FastMapping) (log : Nat) :
    s.rwMergeDemand log ≤ s.param.pagesInBlock + 1 := by
  unfold rwMergeDemand
  obtain ⟨u1, u2⟩ := sortUnique_spec (s.mergeRWCollect log).1
  have h1 : (unique ((s.mergeRWCollect log).1.insertionSort (fun a b => a ≤ b))).length ≤
      (s.mergeRWCollect log).1.length :=
    (u1.subperm (fun x hx => (u2 x).1 hx)).length_le
  have hl : (s.mergeRWCollect log).1.length = (s.validPagesOf log).length := by
    rw [(mergeRWCollect_spec s log).1, List.length_map]
  rw [hl] at h1
  have h2 : (s.validPagesOf log).length ≤ s.param.pagesInBlock := by
    unfold validPagesOf
    exact (List.length_filter_le _ _).trans (by rw [List.length_range])
  omega

/-- The plan of the RW merge is built when the free queue holds the blocks the
merge takes; what it contains. `sr` is the state with the victim popped from
`RWBlocks`. -/
theorem mergePlanRW_full {s sr : FastMapping} {c log n : Nat} {rest : List Nat}
    (hi : InvC s c) (hRW : s.RWBlocks = log :: rest)
    (e1 : sr.param = s.param) (e2 : sr.physicalBlocks = s.physicalBlocks)
    (e3 : sr.logicalToPhysicalBlockMapping = s.logicalToPhysicalBlockMapping)
    (e4 : sr.physicalToLogicalBlockMapping = s.physicalToLogicalBlockMapping)
    (e5 : sr.freeBlocks = s.freeBlocks) (e6 : sr.RWlogMapping = s.RWlogMapping)
    (e7 : sr.SWBlock = s.SWBlock) (e8 : sr.RWBlocks = rest)
    (hfree : s.freeBlocks = List.range' c n) (hn : sr.rwMergeDemand log ≤ n) :
    ∃ (s0 : FastMapping) (p : MergePlan) (lbns : List Nat) (nw od : Nat → Nat),
      sr.mergePlanRW log = some (s0, p) ∧
      lbns.Nodup ∧ sr.rwMergeDemand log = lbns.length + 1 ∧
      (∀ a, a ∈ lbns ↔ ∃ i, i < s.param.pagesInBlock ∧ s.vbit log i = true ∧
        s.lpnAt log i / s.param.pagesInBlock = a) ∧
      (∀ a, a ∈ lbns → c ≤ nw a ∧ nw a < c + lbns.length ∧
        s.logicalToPhysicalBlockMapping a = some (od a)) ∧
      (∀ a, a ∈ lbns → ∀ a1, a1 ∈ lbns → nw a = nw a1 → a = a1) ∧
      s0.param = s.param ∧ s0.physicalBlocks = s.physicalBlocks ∧ s0.SWBlock = s.SWBlock ∧
      s0.RWBlocks = rest ∧
      (∀ l, s0.RWlogMapping l =
        if ∃ i, i < s.param.pagesInBlock ∧ s.vbit log i = true ∧ s.lpnAt log i = l then none
        else s.RWlogMapping l) ∧
      (∀ a, s0.logicalToPhysicalBlockMapping a =
        if a ∈ lbns then some (nw a) else s.logicalToPhysicalBlockMapping a) ∧
      (∀ b, b < c → s0.physicalToLogicalBlockMapping b = s.physicalToLogicalBlockMapping b) ∧
      (∀ a, a ∈ lbns → s0.physicalToLogicalBlockMapping (nw a) = some a) ∧
      s0.physicalToLogicalBlockMapping (c + lbns.length) = none ∧
      s0.freeBlocks = List.range' (c + lbns.length + 1) (n - lbns.length - 1) ∧
      p.eraseRequests = lbns.map od ++ [log] ∧
      p.writeRequests =
        lbns.flatMap (fun a =>
          (s.validPagesOf (od a)).map (fun i =>
            (PalRequest.mk (nw a) i, a * s.param.pagesInBlock + i))) ++
        (s.validPagesOf log).map (fun i =>
          (PalRequest.mk (nw (s.lpnAt log i / s.param.pagesInBlock))
            (s.lpnAt log i % s.param.pagesInBlock), s.lpnAt log i)) := by
  obtain ⟨w1, w2, w3, w4⟩ := views_of_blocks e2
  obtain ⟨c1, c2⟩ := mergeRWCollect_spec sr log
  rw [w3, e1, validPagesOf_congr e1 e2] at c1
  simp only [w1, w3, e1, e6] at c2
  obtain ⟨u1, u2⟩ := sortUnique_spec (sr.mergeRWCollect log).1
  have hlogRW : log ∈ s.RWBlocks := by rw [hRW]; exact List.mem_cons_self _ _
  have hmem : ∀ a, a ∈ unique ((sr.mergeRWCollect log).1.insertionSort (fun a b => a ≤ b)) ↔
      ∃ i, i < s.param.pagesInBlock ∧ s.vbit log i = true ∧
        s.lpnAt log i / s.param.pagesInBlock = a := by
    intro a
    rw [u2, c1]
    simp only [List.mem_map, validPagesOf_mem]
    constructor
    · rintro ⟨i, ⟨h1, h2⟩, h3⟩
      exact ⟨i, h1, h2, h3⟩
    · rintro ⟨i, h1, h2, h3⟩
      exact ⟨i, ⟨h1, h2⟩, h3⟩
  unfold rwMergeDemand at hn
  obtain ⟨⟨s1, nw, od⟩, hassign⟩ := mergeRWAssign_some
    (unique ((sr.mergeRWCollect log).1.insertionSort (fun a b => a ≤ b)))
    { sr with RWlogMapping := (sr.mergeRWCollect log).2 } (fun _ => 0) (fun _ => 0)
    (by
      intro a ha
      obtain ⟨i, -, h2, h3⟩ := (hmem a).1 ha
      show (sr.logicalToPhysicalBlockMapping a).isSome = true
      rw [e3, ← h3]
      exact (hi.rwloc log i hlogRW h2).2)
    (by
      show _ ≤ sr.freeBlocks.length
      rw [e5, hfree, List.length_range']
      omega)
  generalize hlb : unique ((sr.mergeRWCollect log).1.insertionSort (fun a b => a ≤ b)) = lbns
    at hassign u1 u2 hmem hn
  obtain ⟨g1, g2, g3, g4, g5, g6, g7, g8, g9, -, g11, g12⟩ :=
    mergeRWAssign_spec lbns { sr with RWlogMapping := (sr.mergeRWCollect log).2 }
      (fun _ => 0) (fun _ => 0) c n s1 nw od u1 (e5.trans hfree) hassign
  obtain ⟨k1, k2⟩ :=
    mergeRWAssign_p2l lbns { sr with RWlogMapping := (sr.mergeRWCollect log).2 }
      (fun _ => 0) (fun _ => 0) c n s1 nw od u1 (e5.trans hfree) hassign
  have hp1 : s1.param = s.param := g3.trans e1
  have hb1 : s1.physicalBlocks = s.physicalBlocks := g4.trans e2
  obtain ⟨z1, z2, z3, z4⟩ := views_of_blocks hb1
  have hvp : s1.validPagesOf = s.validPagesOf := validPagesOf_congr hp1 hb1
  have hlog := mapOpt_eq_map
    (fun i =>
      match (s1.physicalBlocks log).getLPN i with
      | none => none
      | some lpn =>
        some
          (({ blockIndex := nw (s1.convertPageToBlock lpn),
              pageIndex := s1.convertPageToOffsetInBlock lpn } : PalRequest),
            lpn))
    (fun i =>
      (PalRequest.mk (nw (s.lpnAt log i / s.param.pagesInBlock))
        (s.lpnAt log i % s.param.pagesInBlock), s.lpnAt log i))
    (s1.validPagesOf log)
    (by
      intro i _
      beta_reduce
      rw [getLPN_lpnAt s1 log i (by rw [hb1]; exact (hi.blk log).2), z3]
      simp only [convertPageToBlock, convertPageToOffsetInBlock, hp1])
  have hfr1 : s1.freeBlocks =
      (c + lbns.length) :: List.range' (c + lbns.length + 1) (n - lbns.length - 1) := by
    rw [g2]
    conv_lhs => rw [show n - lbns.length = (n - lbns.length - 1) + 1 by omega, List.range'_succ]
  have hget : s1.getFreeBlock = some (c + lbns.length,
      { s1 with freeBlocks := List.range' (c + lbns.length + 1) (n - lbns.length - 1) }) := by
    unfold getFreeBlock
    rw [hfr1]
  have hplan : sr.mergePlanRW log = some
      ({ ({ s1 with freeBlocks := List.range' (c + lbns.length + 1) (n - lbns.length - 1) } :
            FastMapping) with
          physicalToLogicalBlockMapping :=
            upd s1.physicalToLogicalBlockMapping (c + lbns.length) none },
        { readRequests :=
            lbns.flatMap (fun lbn =>
              (s1.validPagesOf (od lbn)).map (fun i =>
                { blockIndex := od lbn, pageIndex := i })) ++
            (s1.validPagesOf log).map (fun i => { blockIndex := log, pageIndex := i })
          writeRequests :=
            lbns.flatMap (fun lbn =>
              (s1.validPagesOf (od lbn)).map (fun i =>
                (({ blockIndex := nw lbn, pageIndex := i } : PalRequest),
                  lbn * s1.param.pagesInBlock + i))) ++
            (s1.validPagesOf log).map (fun i =>
              (PalRequest.mk (nw (s.lpnAt log i / s.param.pagesInBlock))
                (s.lpnAt log i % s.param.pagesInBlock), s.lpnAt log i))
          eraseRequests := lbns.map od ++ [log] }) := by
    unfold mergePlanRW
    simp only [hlb, hassign, hget]
    split
    · rename_i hnone
      exact absurd (hnone.symm.trans hlog) (by simp)
    · rename_i lw hlw
      have hlw1 : lw = _ := Option.some.inj (hlw.symm.trans hlog)
      subst hlw1
      rfl
  refine ⟨_, _, lbns, nw, od, hplan, u1, by unfold rwMergeDemand; rw [hlb], hmem, ?_, g9, hp1, hb1, g6.trans e7,
    g7.trans e8, ?_, ?_, ?_, ?_, ?_, rfl, rfl, ?_⟩
  · intro a ha
    obtain ⟨h1, h2, h3⟩ := g8 a ha
    exact ⟨h1, h2, (congrFun e3 a).symm.trans h3⟩
  · intro l
    show s1.RWlogMapping l = _
    rw [g5]
    exact c2 l
  · intro a
    show s1.logicalToPhysicalBlockMapping a = _
    rw [g11 a]
    show (if a ∈ lbns then some (nw a) else sr.logicalToPhysicalBlockMapping a) = _
    rw [e3]
  · intro b hb
    show upd s1.physicalToLogicalBlockMapping (c + lbns.length) none b = _
    simp only [upd_apply]
    rw [if_neg (by omega), g12 b hb]
    exact congrFun e4 b
  · intro a ha
    show upd s1.physicalToLogicalBlockMapping (c + lbns.length) none (nw a) = _
    simp only [upd_apply]
    rw [if_neg (by have := (g8 a ha).2.1; omega)]
    exact k1 a ha
  · show upd s1.physicalToLogicalBlockMapping (c + lbns.length) none (c + lbns.length) = _
    simp [upd_apply]
  · show _ = _
    simp only [hvp, hp1]

end FastMapping

end SimpleSSD


namespace SimpleSSD

namespace FastMapping

theorem validPagesOf_nodup (s : FastMapping) (b : Nat) : (s.validPagesOf b).Nodup := by
  unfold validPagesOf
  exact (List.nodup_range _).filter _

/-- The merge of the RW block at the front of `RWBlocks` (already popped in
`sr`) returns when the free queue holds the blocks it takes, and is a copying
merge. -/
theorem mergeRW_full {s sr : FastMapping} {c log n : Nat} {rest : List Nat}
    (hi : InvC s c) (hRW : s.RWBlocks = log :: rest)
    (e1 : sr.param = s.param) (e2 : sr.physicalBlocks = s.physicalBlocks)
    (e3 : sr.logicalToPhysicalBlockMapping = s.logicalToPhysicalBlockMapping)
    (e4 : sr.physicalToLogicalBlockMapping = s.physicalToLogicalBlockMapping)
    (e5 : sr.freeBlocks = s.freeBlocks) (e6 : sr.RWlogMapping = s.RWlogMapping)
    (e7 : sr.SWBlock = s.SWBlock) (e8 : sr.RWBlocks = rest)
    (hfree : s.freeBlocks = List.range' c n) (hn : sr.rwMergeDemand log ≤ n)
    (tick : Nat) (sendToPAL : Bool) :
    ∃ (s1 : FastMapping) (t1 : Nat) (lbns : List Nat) (N : Nat → Nat) (er : List Nat)
      (T : Nat → Nat → Prop),
      sr.mergeLogBlock log BlockType.kBlockTypeRW none tick sendToPAL = some (s1, t1) ∧
      s1.RWBlocks = rest ∧ s1.SWBlock = s.SWBlock ∧
      sr.rwMergeDemand log = lbns.length + 1 ∧
      (∀ l, s1.RWlogMapping l =
        if ∃ i, i < s.param.pagesInBlock ∧ s.vbit log i = true ∧ s.lpnAt log i = l then none
        else s.RWlogMapping l) ∧
      CopyMerge s s1 c lbns.length log lbns N er T := by
  obtain ⟨s0, p, lbns, nw, od, hplan, u1, udem, u2, u3, u4, p1, p2, p3, p4, p5, p6, p7, k1, k2,
    p8, p9, pW⟩ := mergePlanRW_full hi hRW e1 e2 e3 e4 e5 e6 e7 e8 hfree hn
  have ulen : lbns.length + 1 ≤ n := by omega
  have hlogRW : log ∈ s.RWBlocks := by rw [hRW]; exact List.mem_cons_self _ _
  -- the write requests
  have p10 : ∀ b i l, (PalRequest.mk b i, l) ∈ p.writeRequests ↔
      ((∃ a, a ∈ lbns ∧ b = nw a ∧ i < s.param.pagesInBlock ∧ s.vbit (od a) i = true ∧
          l = a * s.param.pagesInBlock + i) ∨
        (∃ j, j < s.param.pagesInBlock ∧ s.vbit log j = true ∧ l = s.lpnAt log j ∧
          b = nw (l / s.param.pagesInBlock) ∧ i = l % s.param.pagesInBlock)) := by
    intro b i l
    rw [pW]
    simp only [List.mem_append, List.mem_flatMap, List.mem_map, validPagesOf_mem, Prod.mk.injEq,
      PalRequest.mk.injEq]
    constructor
    · rintro (⟨a, ha, j, ⟨h1, h2⟩, ⟨h3, h4⟩, h5⟩ | ⟨j, ⟨h1, h2⟩, ⟨h3, h4⟩, h5⟩)
      · subst h4
        exact Or.inl ⟨a, ha, h3.symm, h1, h2, h5.symm⟩
      · subst h5
        exact Or.inr ⟨j, h1, h2, rfl, h3.symm, h4.symm⟩
    · rintro (⟨a, ha, h1, h2, h3, h4⟩ | ⟨j, h1, h2, h3, h4, h5⟩)
      · exact Or.inl ⟨a, ha, i, ⟨h2, h3⟩, ⟨h1.symm, rfl⟩, h4.symm⟩
      · subst h3
        exact Or.inr ⟨j, ⟨h1, h2⟩, ⟨h4.symm, h5.symm⟩, rfl⟩
  -- every request is determined by its LPN
  have hreq : ∀ b i l, (PalRequest.mk b i, l) ∈ p.writeRequests →
      l / s.param.pagesInBlock ∈ lbns ∧ b = nw (l / s.param.pagesInBlock) ∧
        i = l % s.param.pagesInBlock ∧ i < s.param.pagesInBlock := by
    intro b i l hl
    rcases (p10 b i l).1 hl with ⟨a, ha, h1, h2, -, h4⟩ | ⟨j, h1, h2, h3, h4, h5⟩
    · obtain ⟨d1, d2⟩ := div_mod_of_pos h2 h4
      rw [d1, d2]
      exact ⟨ha, h1, rfl, h2⟩
    · refine ⟨(u2 _).2 ⟨j, h1, h2, by rw [h3]⟩, h4, h5, ?_⟩
      rw [h5]
      exact Nat.mod_lt _ (by omega)
  have hnd : (p.writeRequests.map Prod.snd).Nodup := by
    rw [pW, List.map_append, List.map_flatMap, List.map_map]
    simp only [List.map_map, Function.comp]
    apply List.Nodup.append
    · rw [List.nodup_flatMap]
      constructor
      · intro a _
        apply List.Nodup.map _ (validPagesOf_nodup s (od a))
        intro x y hxy
        exact Nat.add_left_cancel hxy
      · refine u1.imp ?_
        intro a a1 hne x hx hx1
        simp only [List.mem_map, validPagesOf_mem] at hx hx1
        obtain ⟨i, ⟨hi1, -⟩, hxi⟩ := hx
        obtain ⟨j, ⟨hj1, -⟩, hxj⟩ := hx1
        have d1 := (div_mod_of_pos hi1 hxi.symm).1
        have d2 := (div_mod_of_pos hj1 hxj.symm).1
        exact hne (d1.symm.trans d2)
    · apply List.Nodup.map_on _ (validPagesOf_nodup s log)
      intro x hx y hy hxy
      rw [validPagesOf_mem] at hx hy
      exact (hi.one log x log y hx.2 hy.2 hxy).2
    · intro x hx hx1
      simp only [List.mem_flatMap, List.mem_map, validPagesOf_mem] at hx hx1
      obtain ⟨a, ha, i, ⟨-, hv⟩, hxi⟩ := hx
      obtain ⟨j, ⟨-, hvj⟩, hxj⟩ := hx1
      have hda := hi.data a (od a) i (u3 a ha).2.2 hv
      have := (hi.one (od a) i log j hv hvj (hda.trans (hxi.trans hxj.symm))).1
      exact hi.l2pRW a (od a) (u3 a ha).2.2 (this ▸ hlogRW)
  have hfst : (p.writeRequests.map Prod.fst).Nodup := by
    apply nodup_map_of_nodup_map Prod.fst Prod.snd _ hnd
    rintro ⟨⟨b, i⟩, l⟩ hx ⟨⟨b1, i1⟩, l1⟩ hy hxy
    simp only [PalRequest.mk.injEq] at hxy
    obtain ⟨r1, r2, r3, -⟩ := hreq b i l hx
    obtain ⟨t1, t2, t3, -⟩ := hreq b1 i1 l1 hy
    have hq : l / s.param.pagesInBlock = l1 / s.param.pagesInBlock :=
      u4 _ r1 _ t1 (by rw [← r2, ← t2]; exact hxy.1)
    show l = l1
    rw [← Nat.div_add_mod l s.param.pagesInBlock, ← Nat.div_add_mod l1 s.param.pagesInBlock,
      hq, ← r3, ← t3, hxy.2]
  obtain ⟨s2, rf, hr⟩ := mergeReads_some tick sendToPAL p.readRequests s0 tick
  have hsc := mergeReads_sameCore tick sendToPAL _ _ _ _ _ hr
  obtain ⟨v1, v2, v3, v4⟩ := views_of_blocks p2
  obtain ⟨s3, wf, hw⟩ := mergeWrites_some rf sendToPAL p.writeRequests s2 rf
    (by
      rintro ⟨b, i⟩ l hmem
      obtain ⟨r1, r2, -, r4⟩ := hreq b i l hmem
      rw [hsc.ebit, v2]
      show s.ebit b i = true
      rw [r2]
      exact (hi.fresh (u3 _ r1).1).1 i r4)
    hfst
  have hm : sr.mergeLogBlock log BlockType.kBlockTypeRW none tick sendToPAL =
      some ((mergeErases rf sendToPAL p.eraseRequests s3 rf).1,
        max wf (mergeErases rf sendToPAL p.eraseRequests s3 rf).2) := by
    unfold mergeLogBlock
    simp only [Option.isSome_none, Bool.false_eq_true, if_false, hplan, hr, hw]
  refine ⟨_, _, lbns, nw, p.eraseRequests,
    (fun b i => ∃ l, (PalRequest.mk b i, l) ∈ p.writeRequests), hm, ?_⟩
  have hS0 : ∀ b, (s0.physicalBlocks b).pLPNs.isSome = true := by
    intro b
    rw [p2]
    exact (hi.blk b).2
  obtain ⟨⟨m1, m2, m3, m4, m5, m6⟩, xP, xV, xE, xT, xL, xC0, xC, xB⟩ :=
    @mergeExec_spec _ _ _ _ _ _ rf _ _ _ p.eraseRequests hS0 hr hw
  generalize (mergeErases rf sendToPAL p.eraseRequests s3 rf).1 = S1
    at m1 m2 m3 m4 m5 m6 xP xV xE xT xL xC0 xC xB ⊢
  rw [v1] at xV
  rw [v2] at xE xT
  rw [v3] at xL
  rw [v4] at xC
  rw [p2] at xE xB
  have hmemer : ∀ b, b ∈ p.eraseRequests ↔ (b = log ∨ ∃ a, a ∈ lbns ∧ od a = b) := by
    intro b
    rw [p9]
    simp only [List.mem_append, List.mem_map, List.mem_singleton]
    constructor
    · rintro (h1 | h1)
      · exact Or.inr h1
      · exact Or.inl h1
    · rintro (h1 | h1)
      · exact Or.inr h1
      · exact Or.inl h1
  have herlt : ∀ b, b ∈ p.eraseRequests → b < c := by
    intro b hb
    rcases (hmemer b).1 hb with rfl | ⟨a, ha, rfl⟩
    · exact hi.rwLt _ hlogRW
    · exact hi.l2pLt a _ (u3 a ha).2.2
  refine ⟨m6.trans p4, m5.trans p3, udem, ?_, ?_⟩
  · intro l
    rw [m4]
    exact p5 l
  constructor
  · exact fun a ha => ⟨(u3 a ha).1, (u3 a ha).2.1⟩
  · exact u4
  · intro a ha
    exact ⟨od a, (u3 a ha).2.2, (hmemer _).2 (Or.inr ⟨a, ha, rfl⟩)⟩
  · intro b hb
    rcases (hmemer b).1 hb with h1 | ⟨a, ha, h1⟩
    · exact Or.inl h1
    · exact Or.inr ⟨a, ha, h1 ▸ (u3 a ha).2.2⟩
  · exact (hmemer _).2 (Or.inl rfl)
  · exact m1.trans p1
  · intro a
    rw [m2]
    exact p6 a
  · intro b hb hbc
    rw [xP b, if_neg hb]
    exact p7 b hbc
  · intro a ha
    rw [xP, if_neg (fun hx => by
      have := herlt _ hx
      have := (u3 a ha).1
      omega)]
    exact k1 a ha
  · intro b hb
    rw [xP, if_pos hb]
  · rw [xP, if_neg (fun hx => by
      have := herlt _ hx
      omega)]
    exact k2
  · refine ⟨n - lbns.length - 1, ?_, ?_⟩
    · rw [hfree]
      congr 1
      omega
    · rw [m3, p8]
  · intro l b j hr1
    rw [m4, p5 l] at hr1
    split at hr1
    · exact absurd hr1 (by simp)
    · rename_i hne
      refine ⟨hr1, ?_⟩
      intro hx
      subst hx
      obtain ⟨-, g2, g3⟩ := hi.rwmap l b j hr1
      exact hne ⟨j, (hi.bits b j g2).1, g2, g3⟩
  · intro l b j hr1 hne
    rw [m4, p5 l]
    split
    · rename_i hex
      obtain ⟨i, -, g2, g3⟩ := hex
      obtain ⟨g4, -⟩ := hi.rwloc log i hlogRW g2
      rw [g3, hr1] at g4
      injection g4 with g4
      injection g4 with g5 g6
      exact absurd g5 hne
    · exact hr1
  · exact xV
  · intro b i
    rw [xE b i, (hi.blk b).1]
  · intro b i ht
    obtain ⟨l, hl⟩ := ht
    obtain ⟨g1, g2⟩ := xT b i l hl
    refine ⟨g1, ?_⟩
    rcases (p10 b i l).1 hl with ⟨a, ha, h1, h2, h3, h4⟩ | ⟨j, h1, h2, h3, h4, h5⟩
    · refine ⟨a, ha, h1, by rw [g2, h4], od a, (hmemer _).2 (Or.inr ⟨a, ha, rfl⟩), i, h3, ?_⟩
      exact hi.data a (od a) i (u3 a ha).2.2 h3
    · have ha : l / s.param.pagesInBlock ∈ lbns := (u2 _).2 ⟨j, h1, h2, by rw [h3]⟩
      have hdm : l = l / s.param.pagesInBlock * s.param.pagesInBlock + i := by
        rw [h5]
        exact (Nat.div_add_mod' l s.param.pagesInBlock).symm
      refine ⟨l / s.param.pagesInBlock, ha, h4, ?_, log, (hmemer _).2 (Or.inl rfl), j, h2, ?_⟩
      · rw [g2]
        exact hdm
      · rw [← h3]
        exact hdm
  · exact xL
  · exact xC0
  · intro b hb hn1
    exact xC b hb (fun i l hl => hn1 i ⟨l, hl⟩)
  · intro b
    rw [← (hi.blk b).1]
    exact xB b
  · intro b i hb hv
    obtain ⟨hlt, -⟩ := hi.bits b i hv
    rcases (hmemer b).1 hb with rfl | ⟨a, ha, rfl⟩
    · have ha : s.lpnAt b i / s.param.pagesInBlock ∈ lbns := (u2 _).2 ⟨i, hlt, hv, rfl⟩
      exact ⟨ha, s.lpnAt b i, (p10 _ _ _).2 (Or.inr ⟨i, hlt, hv, rfl, rfl, rfl⟩)⟩
    · have hl := hi.data a (od a) i (u3 a ha).2.2 hv
      obtain ⟨d1, d2⟩ := div_mod_of_pos hlt hl
      rw [d1, d2]
      exact ⟨ha, a * s.param.pagesInBlock + i, (p10 _ _ _).2 (Or.inl ⟨a, ha, rfl, hlt, hv, rfl⟩)⟩

end FastMapping

end SimpleSSD


namespace SimpleSSD

namespace FastMapping

/-- The switching merge, computed: the SW block becomes the data block of its
owner and the old data block is erased; nothing is read or written. -/
theorem mergeSW_switch (s : FastMapping) (sw o old : Nat) (ap : Option Nat) (tick : Nat)
    (sendToPAL : Bool) (ho : s.physicalToLogicalBlockMapping sw = some o)
    (hold : s.logicalToPhysicalBlockMapping o = some old)
    (hcnt : (s.physicalBlocks sw).getValidPageCount = s.param.pagesInBlock) :
    s.mergePlanSW sw ap =
      some ({ s with
          logicalToPhysicalBlockMapping := upd s.logicalToPhysicalBlockMapping o (some sw) },
        { readRequests := [], writeRequests := [], eraseRequests := [old] }) ∧
    s.mergeLogBlock sw BlockType.kBlockTypeSW ap tick sendToPAL =
      some
        ((({ s with
            logicalToPhysicalBlockMapping :=
              upd s.logicalToPhysicalBlockMapping o (some sw) } : FastMapping).eraseInternal
            old tick sendToPAL).1,
          max tick (max tick
            (({ s with
              logicalToPhysicalBlockMapping :=
                upd s.logicalToPhysicalBlockMapping o (some sw) } : FastMapping).eraseInternal
              old tick sendToPAL).2)) := by
  have hplan : s.mergePlanSW sw ap =
      some ({ s with
          logicalToPhysicalBlockMapping := upd s.logicalToPhysicalBlockMapping o (some sw) },
        { readRequests := [], writeRequests := [], eraseRequests := [old] }) := by
    unfold mergePlanSW
    rw [ho]
    simp only [hold, if_pos hcnt]
  refine ⟨hplan, ?_⟩
  unfold mergeLogBlock
  simp only [hplan, mergeReads, mergeWrites, mergeErases]

end FastMapping

end SimpleSSD


namespace SimpleSSD

namespace FastMapping

/-- Under the invariant the lookup of an LPN of the logical range returns the
result of the reference procedure. -/
theorem InvC.lookup_eq {s : FastMapping} {c : Nat} (hi : InvC s c) (lpn : Nat)
    (hl : lpn / s.param.pagesInBlock < s.param.totalLogicalBlocks) :
    s.findValidPage lpn = some (s.findValidPageSpec lpn) := by
  rw [findValidPage_cases, if_pos hl]
  cases hs : s.findValidPageSpec lpn with
  | none => rfl
  | some r =>
    obtain ⟨b, i, k⟩ := r
    cases k with
    | kBlockTypeRW =>
      obtain ⟨pbn, _, hc⟩ := findValidPageSpec_some hs
      have hm : s.RWlogMapping lpn = some (b, i) := by
        rcases hc with hc | hc | hc
        · exact absurd hc.1 (fun hk => nomatch hk)
        · exact absurd hc.1 (fun hk => nomatch hk)
        · exact hc.2.1
      have hv := hi.rwmap lpn b i hm
      simp only [if_pos (And.intro hv.2.1 hv.2.2)]
    | kBlockTypeData => rfl
    | kBlockTypeSW => rfl
    | kBlockTypeUnknown => rfl

/-- Under the invariant the lookup finds the valid copy of an LPN. -/
theorem InvC.found_of_copy {s : FastMapping} {c lpn b i : Nat} (hi : InvC s c)
    (hl : lpn / s.param.pagesInBlock < s.param.totalLogicalBlocks)
    (hv : s.vbit b i = true) (hs : s.lpnAt b i = lpn) :
    ∃ k, s.findValidPage lpn = some (some (b, i, k)) := by
  have h := hi.lookup_eq lpn hl
  cases hr : s.findValidPageSpec lpn with
  | none =>
    rw [hr] at h
    exact absurd hs (hi.noCopy_of_notFound h b i hv)
  | some r =>
    obtain ⟨b1, i1, k⟩ := r
    rw [hr] at h
    obtain ⟨h1, h2, -⟩ := hi.found h
    obtain ⟨rfl, rfl⟩ := hi.one b i b1 i1 hv h1 (hs.trans h2.symm)
    exact ⟨k, h⟩

/-- A page found in the data block of a logical block is found as data. -/
theorem InvC.found_data {s : FastMapping} {c lpn b i a : Nat} {k : BlockType} (hi : InvC s c)
    (h : s.findValidPage lpn = some (some (b, i, k)))
    (ha : s.logicalToPhysicalBlockMapping a = some b) : k = BlockType.kBlockTypeData := by
  obtain ⟨-, -, -, -, h5, h6, -, h8⟩ := hi.found h
  rcases h8 with h8 | h8 | h8
  · exact h8
  · exact absurd (h5 h8).1 (hi.l2pSW a b ha)
  · exact absurd (hi.rwmap lpn b i (h6 h8)).1 (hi.l2pRW a b ha)

/-- After a switching merge `SWBlock` still names the block that has become a
data block; the lookup is the one of the state without SW block. -/
theorem findValidPage_staleSW {s : FastMapping} {c sw o : Nat}
    (hi : InvC { s with SWBlock := none } c) (hsw : s.SWBlock = some sw)
    (ho : s.logicalToPhysicalBlockMapping o = some sw) (lpn : Nat) :
    s.findValidPage lpn = ({ s with SWBlock := none } : FastMapping).findValidPage lpn := by
  unfold findValidPage
  simp only [convertPageToBlock, convertPageToOffsetInBlock, hsw]
  split
  · cases hp : s.logicalToPhysicalBlockMapping (lpn / s.param.pagesInBlock) with
    | none => rfl
    | some p =>
      simp only []
      split
      · rfl
      · rename_i hnv
        have hno : ¬ (((s.physicalBlocks sw).getPageInfo (lpn % s.param.pagesInBlock)).2.1 = true ∧
            ((s.physicalBlocks sw).getPageInfo (lpn % s.param.pagesInBlock)).1 = lpn) := by
          rintro ⟨h1, h2⟩
          have hv : ({ s with SWBlock := none } : FastMapping).vbit sw
              (lpn % s.param.pagesInBlock) = true := h1
          have hd := hi.data o sw _ ho hv
          have hlt := (hi.bits sw _ hv).1
          have hl : lpn = o * s.param.pagesInBlock + lpn % s.param.pagesInBlock :=
            h2.symm.trans hd
          have hq := (div_mod_of_pos hlt hl).1
          rw [hq, ho] at hp
          injection hp with hp
          subst hp
          exact hnv h1
        have hcond : (((s.physicalBlocks sw).getPageInfo (lpn % s.param.pagesInBlock)).2.1 &&
            ((s.physicalBlocks sw).getPageInfo (lpn % s.param.pagesInBlock)).1 == lpn) = false := by
          cases h1 : ((s.physicalBlocks sw).getPageInfo (lpn % s.param.pagesInBlock)).2.1 with
          | false => rfl
          | true =>
            simp only [Bool.true_and, beq_eq_false_iff_ne, ne_eq]
            exact fun h2 => hno ⟨h1, h2⟩
        simp only [hcond, Bool.false_eq_true, if_false]
  · rfl

end FastMapping

end SimpleSSD


namespace SimpleSSD

namespace FastMapping

/-- `DataBacked` depends on the parameters, the block map and the blocks. -/
theorem DataBacked.congr {s S : FastMapping} {X : Nat → Prop} (h : DataBacked s X)
    (hparam : S.param = s.param)
    (hl2p : S.logicalToPhysicalBlockMapping = s.logicalToPhysicalBlockMapping)
    (hB : S.physicalBlocks = s.physicalBlocks) : DataBacked S X := by
  obtain ⟨e1, e2, e3, e4⟩ := views_of_blocks hB
  intro a p i hp hlt he hv
  rw [hparam] at hlt ⊢
  rw [hl2p] at hp
  rw [e2] at he
  rw [e1] at hv
  rw [e1, e3]
  exact h a p i hp hlt he hv

theorem DataBacked.mono {s : FastMapping} {X Y : Nat → Prop} (h : DataBacked s X)
    (hxy : ∀ l, X l → Y l) : DataBacked s Y := by
  intro a p i hp hlt he hv
  rcases h a p i hp hlt he hv with h1 | h1
  · exact Or.inl (hxy _ h1)
  · exact Or.inr h1

/-- Invalidating the copy found for an LPN leaves every other overwritten data
page backed. -/
theorem DataBacked.of_invalidate {s : FastMapping} {c lpn t b i : Nat} {k : BlockType}
    (hi : InvC s c) (h : DataBacked s (fun _ => False))
    (hf : s.findValidPage lpn = some (some (b, i, k))) :
    DataBacked (s.writeInvalidate lpn t b i k) (fun l => l = lpn) := by
  obtain ⟨f1, f2, -⟩ := writeInvalidate_fields s lpn t b i k
  obtain ⟨w1, w2, w3, -⟩ := writeInvalidate_views s lpn t b i k
  obtain ⟨hv0, hl0, -⟩ := hi.found hf
  intro a p j hp hlt he hv
  rw [f1] at hlt ⊢
  rw [f2] at hp
  rw [w2] at he
  rw [w1] at hv
  by_cases hpj : p = b ∧ j = i
  · obtain ⟨rfl, rfl⟩ := hpj
    left
    rw [← hi.data a p j hp hv0]
    exact hl0
  · have hv1 : s.vbit p j = false := by
      simpa [hpj] using hv
    rcases h a p j hp hlt he hv1 with hx | ⟨q, r, hq, hr⟩
    · exact absurd hx id
    · by_cases hqr : q = b ∧ r = i
      · obtain ⟨rfl, rfl⟩ := hqr
        left
        rw [← hr]
        exact hl0
      · right
        refine ⟨q, r, ?_, ?_⟩
        · rw [w1]
          simp [hqr, hq]
        · rw [w3]
          exact hr

/-- Writing the LPN into an erased page backs the overwritten data pages
again. -/
theorem DataBacked.of_write {s s1 S : FastMapping} {c lpn p i t : Nat}
    (hi : InvC s c) (h : DataBacked s (fun l => l = lpn))
    (hw : s.writeBlock p i lpn t = some s1)
    (hB : S.physicalBlocks = s1.physicalBlocks) (hparam : S.param = s.param)
    (hl2p : S.logicalToPhysicalBlockMapping = s.logicalToPhysicalBlockMapping) :
    DataBacked S (fun _ => False) := by
  obtain ⟨e1, e2, e3, e4⟩ := views_of_blocks hB
  obtain ⟨he0, wV, wE, wL, -⟩ := writeBlock_views hw
  intro a q j hq hlt he hv
  rw [hparam] at hlt ⊢
  rw [hl2p] at hq
  rw [e2, wE] at he
  rw [e1, wV] at hv
  right
  have hne : ¬ (q = p ∧ j = i) := by
    intro hx
    simp [hx] at hv
  have he1 : s.ebit q j = false := by
    simpa [hne] using he
  have hv1 : s.vbit q j = false := by
    simpa [hne] using hv
  rcases h a q j hq hlt he1 hv1 with hx | ⟨b, r, hb, hr⟩
  · refine ⟨p, i, ?_, ?_⟩
    · rw [e1, wV]
      simp
    · rw [e3, wL, if_pos ⟨rfl, rfl, (hi.blk p).2⟩]
      exact hx.symm
  · have hne1 : ¬ (b = p ∧ r = i) := by
      rintro ⟨rfl, rfl⟩
      rw [(hi.bits b r hb).2] at he0
      exact absurd he0 (by simp)
    refine ⟨b, r, ?_, ?_⟩
    · rw [e1, wV]
      simp [hb]
    · rw [e3, wL, if_neg (fun hx => hne1 ⟨hx.1, hx.2.1⟩)]
      exact hr

end FastMapping

end SimpleSSD


namespace SimpleSSD

namespace FastMapping

/-- The state after a switching merge of the SW block. -/
theorem InvC.switchFacts {s S : FastMapping} {c sw o old tick : Nat} {sendToPAL : Bool}
    (hi : InvC s c) (hsw : s.SWBlock = some sw)
    (ho : s.physicalToLogicalBlockMapping sw = some o)
    (hold : s.logicalToPhysicalBlockMapping o = some old)
    (hcnt : (s.physicalBlocks sw).getValidPageCount = s.param.pagesInBlock)
    (hS : S = (({ s with
        logicalToPhysicalBlockMapping :=
          upd s.logicalToPhysicalBlockMapping o (some sw) } : FastMapping).eraseInternal
        old tick sendToPAL).1) :
    InvC { S with SWBlock := none } c ∧
      (S.param = s.param ∧ S.SWBlock = some sw ∧ S.RWBlocks = s.RWBlocks ∧
        S.freeBlocks = s.freeBlocks ∧ S.RWlogMapping = s.RWlogMapping ∧
        S.logicalToPhysicalBlockMapping = upd s.logicalToPhysicalBlockMapping o (some sw) ∧
        S.physicalToLogicalBlockMapping = upd s.physicalToLogicalBlockMapping old none ∧
        S.physicalBlocks = upd s.physicalBlocks old (s.physicalBlocks old).erase) ∧
      old ≠ sw ∧ (∀ i, s.vbit old i = false) ∧
      (∀ i, i < s.param.pagesInBlock →
        s.vbit sw i = true ∧ s.lpnAt sw i = o * s.param.pagesInBlock + i) ∧
      S.vbit = s.vbit ∧ S.lpnAt = s.lpnAt ∧
      (∀ b i, S.ebit b i = if b = old then decide (i < s.param.pagesInBlock) else s.ebit b i) ∧
      (∀ b, S.curs b = if b = old then 0 else s.curs b) := by
  obtain ⟨⟨a1, a2, a3, a4, a5, a6⟩, a7, a8⟩ := eraseInternal_spec
    ({ s with
        logicalToPhysicalBlockMapping :=
          upd s.logicalToPhysicalBlockMapping o (some sw) } : FastMapping) old tick sendToPAL
  obtain ⟨b1, b2, b3, b4, b5⟩ := eraseInternal_views
    ({ s with
        logicalToPhysicalBlockMapping :=
          upd s.logicalToPhysicalBlockMapping o (some sw) } : FastMapping) old tick sendToPAL
  rw [← hS] at a1 a2 a3 a4 a5 a6 a7 a8 b1 b2 b3 b4 b5
  have hoSW : old ≠ sw := fun hx => hi.l2pSW o old hold (hx ▸ hsw)
  have hall := allValid_of_count (hi.blk sw).1 hcnt
  have hswl : ∀ i, i < s.param.pagesInBlock →
      s.vbit sw i = true ∧ s.lpnAt sw i = o * s.param.pagesInBlock + i := by
    intro i hlt
    have hv := hall i hlt
    obtain ⟨o1, h5, -, h6⟩ := hi.sw sw i hsw hlt (hi.bits sw i hv).2
    rw [ho] at h5
    injection h5 with h5
    subst h5
    exact ⟨hv, h6 hv⟩
  have hnov : ∀ i, s.vbit old i = false := by
    intro i
    cases hv : s.vbit old i with
    | false => rfl
    | true =>
      have hlt := (hi.bits old i hv).1
      have h1 := hi.data o old i hold hv
      have h2 := hswl i hlt
      exact absurd (hi.one old i sw i hv h2.1 (h1.trans h2.2.symm)).1 hoSW
  have hV : ∀ b i, S.vbit b i = s.vbit b i := by
    intro b i
    rw [b1]
    split
    · rename_i hb
      rw [hb, hnov]
    · rfl
  have hE : ∀ b i, S.ebit b i =
      if b = old then decide (i < s.param.pagesInBlock) else s.ebit b i := by
    intro b i
    rw [b2]
    split
    · rw [← (hi.blk b).1]
    · rfl
  refine ⟨?_, ⟨a1, a5.trans hsw, a6, a3, a4, a2, a7, a8⟩, hoSW, hnov, hswl, funext (fun b => funext (hV b)),
    b3, hE, b4⟩
  refine hi.switchMerge (S := { S with SWBlock := none }) hsw ho hold a1 a2 a3 a4 a6 rfl
    ?_ ?_ b3 ?_ ?_ ?_
  · intro b i
    show S.vbit b i = true ↔ _
    rw [hV]
    constructor
    · intro hv
      refine ⟨?_, hv⟩
      rintro rfl
      rw [hnov] at hv
      exact absurd hv (by simp)
    · exact fun h => h.2
  · intro b i
    show S.ebit b i = true ↔ _
    rw [hE]
    by_cases hb : b = old
    · simp [hb]
    · simp [hb]
  · show S.curs old = 0
    rw [b4, if_pos rfl]
  · intro b hb
    show S.curs b = _
    rw [b4, if_neg hb]
    rfl
  · intro b
    obtain ⟨h1, h2⟩ := b5 b
    exact ⟨h1.trans (hi.blk b).1, h2.trans (hi.blk b).2⟩

/-- A switching merge keeps the overwritten data pages backed. -/
theorem DataBacked.switch {s S : FastMapping} {c sw o old : Nat} {X : Nat → Prop}
    (hi : InvC s c) (h : DataBacked s X)
    (hold : s.logicalToPhysicalBlockMapping o = some old)
    (hparam : S.param = s.param)
    (hl2p : S.logicalToPhysicalBlockMapping = upd s.logicalToPhysicalBlockMapping o (some sw))
    (hall : ∀ i, i < s.param.pagesInBlock → s.vbit sw i = true)
    (hV : S.vbit = s.vbit) (hL : S.lpnAt = s.lpnAt)
    (hE : ∀ b i, S.ebit b i = if b = old then decide (i < s.param.pagesInBlock) else s.ebit b i) :
    DataBacked S X := by
  intro a p i hp hlt he hv
  rw [hparam] at hlt ⊢
  rw [hV] at hv ⊢
  rw [hL]
  rw [hl2p] at hp
  simp only [upd_apply] at hp
  split at hp
  · injection hp with hp
    subst hp
    rw [hall i hlt] at hv
    exact absurd hv (by simp)
  · rename_i hne
    have hpo : p ≠ old := fun hx => hne (hi.l2pInj a o p hp (hx ▸ hold))
    rw [hE, if_neg hpo] at he
    exact h a p i hp hlt he hv

end FastMapping

end SimpleSSD


namespace SimpleSSD

namespace FastMapping

/-- Programming an erased page: the write returns, and every state with the
resulting blocks is described by `Programs`. -/
theorem programs_step {s : FastMapping} {c : Nat} (hi : InvC s c) (tgt pg lpn t : Nat)
    (he : s.ebit tgt pg = true) :
    ∃ s4, s.writeBlock tgt pg lpn t = some s4 ∧
      ∀ S : FastMapping, S.physicalBlocks = s4.physicalBlocks → Programs s S tgt pg lpn := by
  obtain ⟨b1, hb1, hw⟩ := writeBlock_some s tgt pg lpn t he
  refine ⟨_, hw, ?_⟩
  intro S hB
  obtain ⟨e1, e2, e3, e4⟩ := views_of_blocks hB
  obtain ⟨-, wV, wE, wL, wC, -⟩ := writeBlock_views hw
  refine ⟨he, ?_, ?_, ?_, ?_, ?_, ?_⟩
  · intro b j
    rw [e1, wV]
  · intro b j
    rw [e2, wE]
  · intro b j
    rw [e3, wL]
    by_cases hx : b = tgt ∧ j = pg
    · rw [if_pos ⟨hx.1, hx.2, (hi.blk tgt).2⟩, if_pos hx]
    · rw [if_neg (fun h => hx ⟨h.1, h.2.1⟩), if_neg hx]
  · intro b
    rw [e4, wC]
  · intro b hb
    rw [hB]
    simp [upd_apply, hb]
  · intro b
    rw [hB]
    simp only [upd_apply]
    split
    · rename_i hb
      subst hb
      exact (BlockFast.fields_write hb1).2.2.2.1
    · rfl

/-- What the invalidation of a page does to the blocks. -/
theorem writeInvalidate_blocks (s : FastMapping) (lpn t b i : Nat) (k : BlockType) :
    (∀ q, q ≠ b → (s.writeInvalidate lpn t b i k).physicalBlocks q = s.physicalBlocks q) ∧
      (∀ q, ((s.writeInvalidate lpn t b i k).physicalBlocks q).getEraseCount =
        (s.physicalBlocks q).getEraseCount) ∧
      (∀ q, ((s.writeInvalidate lpn t b i k).physicalBlocks q).isCleanBlock =
        (s.physicalBlocks q).isCleanBlock) ∧
      (∀ q, ((s.writeInvalidate lpn t b i k).physicalBlocks q).getErasedPageCount =
        (s.physicalBlocks q).getErasedPageCount) ∧
      (s.writeInvalidate lpn t b i k).palLog = s.palLog := by
  obtain ⟨-, -, -, -, v5⟩ := writeInvalidate_views s lpn t b i k
  refine ⟨?_, ?_, ?_, ?_, ?_⟩
  · intro q hq
    rw [v5, if_neg hq]
  · intro q
    rw [v5]
    split
    · rename_i hq
      subst hq
      rfl
    · rfl
  · intro q
    rw [v5]
    split
    · rename_i hq
      subst hq
      rfl
    · rfl
  · intro q
    rw [v5]
    split
    · rename_i hq
      subst hq
      rfl
    · rfl
  · unfold writeInvalidate
    simp only []
    split <;> rfl

end FastMapping

end SimpleSSD


namespace SimpleSSD

namespace FastMapping

/-- A block with a non-zero erased page count has an erased page. -/
theorem exists_erased_of_count {s : FastMapping} {b : Nat}
    (hp : (s.physicalBlocks b).pageCount = s.param.pagesInBlock)
    (h : (s.physicalBlocks b).getErasedPageCount ≠ 0) :
    ∃ i, i < s.param.pagesInBlock ∧ s.ebit b i = true := by
  unfold BlockFast.getErasedPageCount Bitset.count at h
  rw [hp] at h
  have h1 : (List.range s.param.pagesInBlock).filter (s.physicalBlocks b).pErasedBits ≠ [] := by
    intro hx
    rw [hx] at h
    exact h rfl
  obtain ⟨i, hmem⟩ := List.exists_mem_of_ne_nil _ h1
  rw [List.mem_filter, List.mem_range] at hmem
  exact ⟨i, hmem.1, hmem.2⟩

/-- Fresh write: the page of the offset in the data block is erased, so the
write returns. -/
theorem fresh_case {s : FastMapping} {c lpn p : Nat} (tick : Nat) (sendToPAL : Bool)
    (hi : InvC s c) (hX : DataBacked s (fun _ => False)) (hpos : 0 < s.param.pagesInBlock)
    (hnf : s.findValidPage lpn = some none)
    (hp : s.logicalToPhysicalBlockMapping (lpn / s.param.pagesInBlock) = some p) :
    ∃ s2 f, s.writeFresh lpn tick sendToPAL = some (s2, f) ∧
      Programs s s2 p (lpn % s.param.pagesInBlock) lpn ∧
      (s2.param = s.param ∧
        s2.logicalToPhysicalBlockMapping = s.logicalToPhysicalBlockMapping ∧
        s2.physicalToLogicalBlockMapping = s.physicalToLogicalBlockMapping ∧
        s2.freeBlocks = s.freeBlocks ∧ s2.RWlogMapping = s.RWlogMapping ∧
        s2.SWBlock = s.SWBlock ∧ s2.RWBlocks = s.RWBlocks) ∧
      s2.palLog = s.palLog ++
        (if sendToPAL then
          [PalOp.write { blockIndex := p, pageIndex := lpn % s.param.pagesInBlock } tick]
        else []) ∧
      DataBacked s2 (fun _ => False) := by
  have hn := hi.noCopy_of_notFound hnf
  have hlt : lpn % s.param.pagesInBlock < s.param.pagesInBlock := Nat.mod_lt _ hpos
  have hdm : lpn / s.param.pagesInBlock * s.param.pagesInBlock + lpn % s.param.pagesInBlock =
      lpn := Nat.div_add_mod' _ _
  have hv : s.vbit p (lpn % s.param.pagesInBlock) = false := by
    cases hv : s.vbit p (lpn % s.param.pagesInBlock) with
    | false => rfl
    | true => exact absurd ((hi.data _ p _ hp hv).trans hdm) (hn p _ hv)
  have he : s.ebit p (lpn % s.param.pagesInBlock) = true := by
    cases he : s.ebit p (lpn % s.param.pagesInBlock) with
    | true => rfl
    | false =>
      rcases hX _ p _ hp hlt he hv with hx | ⟨b, j, hb, hj⟩
      · exact absurd hx id
      · exact absurd (hj.trans hdm) (hn b j hb)
  obtain ⟨s4, hw, hprog⟩ := programs_step hi p (lpn % s.param.pagesInBlock) lpn tick he
  obtain ⟨m1, m2, m3, m4, m5, m6, m7⟩ := writeBlock_maps hw
  obtain ⟨q1, q2, q3, q4, q5, q6, q7, q8, q9⟩ := palWrite_fields s4
    { blockIndex := p, pageIndex := lpn % s.param.pagesInBlock } tick sendToPAL
  have hlog : s4.palLog = s.palLog := by
    obtain ⟨b1, -, rfl⟩ := writeBlock_eq hw
    rfl
  obtain ⟨f, hmain⟩ : ∃ f, s.writeFresh lpn tick sendToPAL =
      some ((s4.palWrite { blockIndex := p, pageIndex := lpn % s.param.pagesInBlock } tick
        sendToPAL).1, f) :=
    ⟨_, by
      unfold writeFresh
      simp only [convertPageToBlock, convertPageToOffsetInBlock, hp, hw]
      rfl⟩
  exact ⟨_, f, hmain, hprog _ q4, ⟨q1.trans m1, q2.trans m2, q3.trans m3, q5.trans m4,
    q6.trans m5, q7.trans m6, q8.trans m7⟩, by rw [q9, hlog],
    DataBacked.of_write hi (hX.mono (fun _ h => absurd h id)) hw q4 (q1.trans m1)
      (q2.trans m2)⟩

/-- Case 2b without conflict: the page of the offset in the SW block is
erased and gets the LPN. -/
theorem swAppend_case {s : FastMapping} {c lpn sw : Nat} (tick : Nat) (sendToPAL : Bool)
    (hi : InvC s c) (hX : DataBacked s (fun l => l = lpn))
    (he : s.ebit sw (lpn % s.param.pagesInBlock) = true) :
    ∃ s2 f, s.writeSWAppend sw lpn tick sendToPAL = some (s2, f) ∧
      Programs s s2 sw (lpn % s.param.pagesInBlock) lpn ∧
      (s2.param = s.param ∧
        s2.logicalToPhysicalBlockMapping = s.logicalToPhysicalBlockMapping ∧
        s2.physicalToLogicalBlockMapping = s.physicalToLogicalBlockMapping ∧
        s2.freeBlocks = s.freeBlocks ∧ s2.RWlogMapping = s.RWlogMapping ∧
        s2.SWBlock = s.SWBlock ∧ s2.RWBlocks = s.RWBlocks) ∧
      s2.palLog = s.palLog ++
        (if sendToPAL then
          [PalOp.write { blockIndex := sw, pageIndex := lpn % s.param.pagesInBlock } tick]
        else []) ∧
      DataBacked s2 (fun _ => False) := by
  obtain ⟨s4, hw, hprog⟩ := programs_step hi sw (lpn % s.param.pagesInBlock) lpn tick he
  obtain ⟨m1, m2, m3, m4, m5, m6, m7⟩ := writeBlock_maps hw
  obtain ⟨q1, q2, q3, q4, q5, q6, q7, q8, q9⟩ := palWrite_fields s4
    { blockIndex := sw, pageIndex := lpn % s.param.pagesInBlock } tick sendToPAL
  have hlog : s4.palLog = s.palLog := by
    obtain ⟨b1, -, rfl⟩ := writeBlock_eq hw
    rfl
  obtain ⟨f, hmain⟩ : ∃ f, s.writeSWAppend sw lpn tick sendToPAL =
      some ((s4.palWrite { blockIndex := sw, pageIndex := lpn % s.param.pagesInBlock } tick
        sendToPAL).1, f) :=
    ⟨_, by
      unfold writeSWAppend
      simp only [getPageInfo_erased, convertPageToOffsetInBlock, he, if_true, hw]
      rfl⟩
  exact ⟨_, f, hmain, hprog _ q4, ⟨q1.trans m1, q2.trans m2, q3.trans m3, q5.trans m4,
    q6.trans m5, q7.trans m6, q8.trans m7⟩, by rw [q9, hlog],
    DataBacked.of_write hi hX hw q4 (q1.trans m1) (q2.trans m2)⟩

/-- Case 2c with a free RW page: the first RW block with an erased page gets
the LPN at its cursor. -/
theorem rwRoute_case {s : FastMapping} {c lpn tgt : Nat} (tick : Nat) (sendToPAL : Bool)
    (hi : InvC s c) (hX : DataBacked s (fun l => l = lpn))
    (hfind : s.RWBlocks.find? (fun rwBlockNum =>
      (s.physicalBlocks rwBlockNum).getErasedPageCount != 0) = some tgt) :
    ∃ s2 f, s.writeRW lpn tick sendToPAL = some (s2, f) ∧
      tgt ∈ s.RWBlocks ∧ s.curs tgt < s.param.pagesInBlock ∧
      Programs s s2 tgt (s.curs tgt) lpn ∧
      (s2.param = s.param ∧
        s2.logicalToPhysicalBlockMapping = s.logicalToPhysicalBlockMapping ∧
        s2.physicalToLogicalBlockMapping = s.physicalToLogicalBlockMapping ∧
        s2.freeBlocks = s.freeBlocks ∧
        s2.RWlogMapping = upd s.RWlogMapping lpn (some (tgt, s.curs tgt)) ∧
        s2.SWBlock = s.SWBlock ∧ s2.RWBlocks = s.RWBlocks) ∧
      s2.palLog = s.palLog ++
        (if sendToPAL then
          [PalOp.write { blockIndex := tgt, pageIndex := s.curs tgt } tick]
        else []) ∧
      DataBacked s2 (fun _ => False) := by
  have hmem : tgt ∈ s.RWBlocks := List.mem_of_find?_eq_some hfind
  have hcnt : (s.physicalBlocks tgt).getErasedPageCount ≠ 0 := by
    have := List.find?_some hfind
    simpa using this
  obtain ⟨i, hlt, hei⟩ := exists_erased_of_count (hi.blk tgt).1 hcnt
  have hci : s.curs tgt ≤ i := (hi.rwseq tgt i hmem hlt).1 hei
  have hclt : s.curs tgt < s.param.pagesInBlock := by omega
  have he : s.ebit tgt (s.curs tgt) = true := (hi.rwseq tgt _ hmem hclt).2 (Nat.le_refl _)
  obtain ⟨s4, hw, hprog⟩ := programs_step hi tgt (s.curs tgt) lpn tick he
  obtain ⟨m1, m2, m3, m4, m5, m6, m7⟩ := writeBlock_maps hw
  obtain ⟨q1, q2, q3, q4, q5, q6, q7, q8, q9⟩ := palWrite_fields
    ({ s4 with RWlogMapping := upd s4.RWlogMapping lpn (some (tgt, s.curs tgt)) } : FastMapping)
    { blockIndex := tgt, pageIndex := s.curs tgt } tick sendToPAL
  have hlog : s4.palLog = s.palLog := by
    obtain ⟨b1, -, rfl⟩ := writeBlock_eq hw
    rfl
  obtain ⟨f, hmain⟩ : ∃ f, s.writeRW lpn tick sendToPAL =
      some ((({ s4 with
          RWlogMapping := upd s4.RWlogMapping lpn (some (tgt, s.curs tgt)) } :
          FastMapping).palWrite { blockIndex := tgt, pageIndex := s.curs tgt } tick
        sendToPAL).1, f) :=
    ⟨_, by
      unfold writeRW
      simp only [hfind]
      have hc : (s.physicalBlocks tgt).getNextWritePageIndex = s.curs tgt := rfl
      simp only [hc, hw]
      rfl⟩
  refine ⟨_, f, hmain, hmem, hclt, hprog _ q4, ⟨q1.trans m1, q2.trans m2, q3.trans m3,
    q5.trans m4, ?_, q7.trans m6, q8.trans m7⟩, by rw [q9]; exact congrArg (· ++ _) hlog,
    DataBacked.of_write hi hX hw q4 (q1.trans m1) (q2.trans m2)⟩
  rw [q6]
  show upd s4.RWlogMapping lpn _ = _
  rw [m5]

end FastMapping

end SimpleSSD


namespace SimpleSSD

namespace FastMapping

/-- Case 2a with a clean SW block: page 0 of the SW block gets the LPN and the
logical block becomes the owner. -/
theorem swFirst_clean {s : FastMapping} {c lpn sw : Nat} (tick : Nat) (sendToPAL : Bool)
    (hi : InvC s c) (hX : DataBacked s (fun l => l = lpn)) (hpos : 0 < s.param.pagesInBlock)
    (hsw : s.SWBlock = some sw) (hcl : (s.physicalBlocks sw).isCleanBlock = true) :
    ∃ s2 f, s.writeSWFirst lpn tick sendToPAL = some (s2, f) ∧
      Programs s s2 sw 0 lpn ∧
      (s2.param = s.param ∧
        s2.logicalToPhysicalBlockMapping = s.logicalToPhysicalBlockMapping ∧
        s2.physicalToLogicalBlockMapping =
          upd s.physicalToLogicalBlockMapping sw (some (lpn / s.param.pagesInBlock)) ∧
        s2.freeBlocks = s.freeBlocks ∧ s2.RWlogMapping = s.RWlogMapping ∧
        s2.SWBlock = s.SWBlock ∧ s2.RWBlocks = s.RWBlocks) ∧
      s2.palLog = s.palLog ++
        (if sendToPAL then [PalOp.write { blockIndex := sw, pageIndex := 0 } tick] else []) ∧
      DataBacked s2 (fun _ => False) := by
  have he : s.ebit sw 0 = true := allErased_of_clean (hi.blk sw).1 hcl 0 hpos
  obtain ⟨s4, hw, hprog⟩ := programs_step hi sw 0 lpn tick he
  obtain ⟨m1, m2, m3, m4, m5, m6, m7⟩ := writeBlock_maps hw
  obtain ⟨q1, q2, q3, q4, q5, q6, q7, q8, q9⟩ := palWrite_fields
    ({ s4 with
      physicalToLogicalBlockMapping :=
        upd s4.physicalToLogicalBlockMapping sw (some (s.convertPageToBlock lpn)) } :
      FastMapping)
    { blockIndex := sw, pageIndex := 0 } tick sendToPAL
  have hlog : s4.palLog = s.palLog := by
    obtain ⟨b1, -, rfl⟩ := writeBlock_eq hw
    rfl
  obtain ⟨f, hmain⟩ : ∃ f, s.writeSWFirst lpn tick sendToPAL =
      some ((({ s4 with
          physicalToLogicalBlockMapping :=
            upd s4.physicalToLogicalBlockMapping sw (some (s.convertPageToBlock lpn)) } :
          FastMapping).palWrite { blockIndex := sw, pageIndex := 0 } tick sendToPAL).1, f) :=
    ⟨_, by
      unfold writeSWFirst
      simp only [hsw, hcl, if_true, hw]
      rfl⟩
  refine ⟨_, f, hmain, hprog _ q4, ⟨q1.trans m1, q2.trans m2, ?_, q5.trans m4, q6.trans m5,
    q7.trans m6, q8.trans m7⟩, by rw [q9]; exact congrArg (· ++ _) hlog,
    DataBacked.of_write hi hX hw q4 (q1.trans m1) (q2.trans m2)⟩
  rw [q3]
  show upd s4.physicalToLogicalBlockMapping sw _ = _
  rw [m3]
  rfl

end FastMapping

end SimpleSSD


namespace SimpleSSD

namespace FastMapping

/-- An SW block that is not clean has an owner with a data block. -/
theorem InvC.swOwner {s : FastMapping} {c sw : Nat} (hi : InvC s c) (hsw : s.SWBlock = some sw)
    (hcl : (s.physicalBlocks sw).isCleanBlock = false) :
    ∃ o old, s.physicalToLogicalBlockMapping sw = some o ∧
      s.logicalToPhysicalBlockMapping o = some old := by
  obtain ⟨i, hlt, he⟩ := exists_notErased_of_notClean (hi.blk sw).1 hcl
  obtain ⟨o, h1, h2, -⟩ := hi.sw sw i hsw hlt he
  cases hold : s.logicalToPhysicalBlockMapping o with
  | none => rw [hold] at h2; exact absurd h2 (by simp)
  | some old => exact ⟨o, old, h1, hold⟩

/-- Case 2a with an SW block whose pages are all valid: switching merge, then
the first free block becomes the SW block and gets the LPN in page 0. `S` is
the state after the merge. -/
theorem swFirst_switch {s : FastMapping} {c lpn sw o old n : Nat} (tick : Nat)
    (sendToPAL : Bool) (hi : InvC s c) (hX : DataBacked s (fun l => l = lpn))
    (hsw : s.SWBlock = some sw) (hcl : (s.physicalBlocks sw).isCleanBlock = false)
    (ho : s.physicalToLogicalBlockMapping sw = some o)
    (hold : s.logicalToPhysicalBlockMapping o = some old)
    (hcnt : (s.physicalBlocks sw).getValidPageCount = s.param.pagesInBlock)
    (hfree : s.freeBlocks = List.range' c (1 + n)) :
    ∃ s2 f S t, s.writeSWFirst lpn tick sendToPAL = some (s2, f) ∧
      s.mergeLogBlock sw BlockType.kBlockTypeSW none tick sendToPAL = some (S, t) ∧
      S = (({ s with
        logicalToPhysicalBlockMapping :=
          upd s.logicalToPhysicalBlockMapping o (some sw) } : FastMapping).eraseInternal
        old tick sendToPAL).1 ∧
      Programs S s2 c 0 lpn ∧
      (s2.param = s.param ∧
        s2.logicalToPhysicalBlockMapping = upd s.logicalToPhysicalBlockMapping o (some sw) ∧
        s2.physicalToLogicalBlockMapping =
          upd (upd s.physicalToLogicalBlockMapping old none) c
            (some (lpn / s.param.pagesInBlock)) ∧
        s2.freeBlocks = List.range' (c + 1) n ∧ s2.RWlogMapping = s.RWlogMapping ∧
        s2.SWBlock = some c ∧ s2.RWBlocks = s.RWBlocks) ∧
      DataBacked s2 (fun _ => False) := by
  obtain ⟨-, hmerge⟩ := mergeSW_switch s sw o old none tick sendToPAL ho hold hcnt
  obtain ⟨hiS, ⟨a1, a2, a3, a4, a5, a6, a7, a8⟩, hoSW, hnov, hswl, hV, hL, hE, hC⟩ :=
    @InvC.switchFacts s _ c sw o old tick sendToPAL hi hsw ho hold hcnt rfl
  generalize hSdef : (({ s with
        logicalToPhysicalBlockMapping :=
          upd s.logicalToPhysicalBlockMapping o (some sw) } : FastMapping).eraseInternal
        old tick sendToPAL) = R at hmerge hiS a1 a2 a3 a4 a5 a6 a7 a8 hV hL hE hC
  obtain ⟨S, tS⟩ := R
  simp only [] at hmerge hiS a1 a2 a3 a4 a5 a6 a7 a8 hV hL hE hC
  have hfS : S.freeBlocks = c :: List.range' (c + 1) n := by
    rw [a4, hfree, show 1 + n = n + 1 by omega, List.range'_succ]
  have hget : S.getFreeBlock = some (c, { S with freeBlocks := List.range' (c + 1) n }) := by
    unfold getFreeBlock
    rw [hfS]
  obtain ⟨hi3, hcl3⟩ := hiS.newSW
    (S := { ({ S with freeBlocks := List.range' (c + 1) n } : FastMapping) with
      SWBlock := some c })
    rfl rfl rfl rfl ⟨_, rfl⟩ rfl rfl rfl
  have hposS : 0 < s.param.pagesInBlock := by
    obtain ⟨i, hlt, -⟩ := exists_notErased_of_notClean (hi.blk sw).1 hcl
    omega
  have he : ({ ({ S with freeBlocks := List.range' (c + 1) n } : FastMapping) with
      SWBlock := some c } : FastMapping).ebit c 0 = true :=
    hcl3 0 (by show 0 < S.param.pagesInBlock; rw [a1]; exact hposS)
  obtain ⟨s4, hw, hprog⟩ := programs_step hi3 c 0 lpn tick he
  obtain ⟨m1, m2, m3, m4, m5, m6, m7⟩ := writeBlock_maps hw
  obtain ⟨q1, q2, q3, q4, q5, q6, q7, q8, q9⟩ := palWrite_fields
    ({ s4 with
      physicalToLogicalBlockMapping :=
        upd s4.physicalToLogicalBlockMapping c (some (s.convertPageToBlock lpn)) } :
      FastMapping)
    { blockIndex := c, pageIndex := 0 } tick sendToPAL
  obtain ⟨f, hmain⟩ : ∃ f, s.writeSWFirst lpn tick sendToPAL =
      some ((({ s4 with
          physicalToLogicalBlockMapping :=
            upd s4.physicalToLogicalBlockMapping c (some (s.convertPageToBlock lpn)) } :
          FastMapping).palWrite { blockIndex := c, pageIndex := 0 } tick sendToPAL).1, f) :=
    ⟨_, by
      unfold writeSWFirst
      simp only [hsw, hcl, Bool.false_eq_true, if_false, hmerge, hget, hw]
      rfl⟩
  have hXS : DataBacked S (fun l => l = lpn) :=
    DataBacked.switch hi hX hold a1 a6 (fun i hlt => (hswl i hlt).1) hV hL hE
  refine ⟨_, f, S, _, hmain, hmerge, rfl, ?_, ⟨q1.trans (m1.trans a1), ?_, ?_, q5.trans m4,
    ?_, q7.trans m6, ?_⟩, ?_⟩
  · have hp := hprog _ q4
    exact ⟨hp.erased, hp.vbit, hp.ebit, hp.lpnAt, hp.curs, hp.other, hp.ecnt⟩
  · rw [q2, m2]
    exact a6
  · rw [q3]
    show upd s4.physicalToLogicalBlockMapping c _ = _
    rw [m3]
    show upd S.physicalToLogicalBlockMapping c _ = _
    rw [a7]
    rfl
  · rw [q6, m5]
    exact a5
  · rw [q8, m7]
    exact a3
  · exact DataBacked.of_write hi3 (hXS.congr rfl rfl rfl) hw q4 (q1.trans m1) (q2.trans m2)

end FastMapping

end SimpleSSD


namespace SimpleSSD

namespace FastMapping

/-- The block taken in addition by a copying merge is untouched: all its pages
are erased and its cursor is 0. -/
theorem CopyMerge.extra {s S : FastMapping} {c k G : Nat} {lbns : List Nat} {N : Nat → Nat}
    {er : List Nat} {T : Nat → Nat → Prop} (m : CopyMerge s S c k G lbns N er T)
    (hi : InvC s c) (hG : G < c) :
    (∀ i, i < s.param.pagesInBlock → S.ebit (c + k) i = true) ∧ S.curs (c + k) = 0 ∧
      c + k ∉ er ∧ ∀ i, ¬ T (c + k) i := by
  have hner : c + k ∉ er := fun hx => by
    have := m.erLt hi hG hx
    omega
  have hnt : ∀ i, ¬ T (c + k) i := by
    intro i ht
    obtain ⟨-, a, ha, hb, -⟩ := m.hT _ _ ht
    have := (m.hN a ha).2
    omega
  have hfr := hi.fresh (Nat.le_add_right c k)
  refine ⟨?_, ?_, hner, hnt⟩
  · intro i hlt
    exact (m.hE _ _).2 (Or.inr ⟨hner, hfr.1 i hlt, hnt i⟩)
  · rw [m.hC _ hner hnt]
    exact hfr.2.1

/-- Case 2a with an SW block that is neither clean nor fully valid: full merge
of the SW block; the SW block taken by the merge is replaced by the next free
block, which gets the LPN in page 0. `S` is the state after the merge. -/
theorem swFirst_full {s : FastMapping} {c lpn sw o old n : Nat} (tick : Nat)
    (sendToPAL : Bool) (hi : InvC s c) (hX : DataBacked s (fun l => l = lpn))
    (hsw : s.SWBlock = some sw) (hcl : (s.physicalBlocks sw).isCleanBlock = false)
    (ho : s.physicalToLogicalBlockMapping sw = some o)
    (hold : s.logicalToPhysicalBlockMapping o = some old)
    (hcnt : (s.physicalBlocks sw).getValidPageCount ≠ s.param.pagesInBlock)
    (hfree : s.freeBlocks = List.range' c (3 + n)) :
    ∃ s2 f S t, s.writeSWFirst lpn tick sendToPAL = some (s2, f) ∧
      s.mergeLogBlock sw BlockType.kBlockTypeSW none tick sendToPAL = some (S, t) ∧
      S.SWBlock = some (c + 1) ∧ S.RWBlocks = s.RWBlocks ∧ S.RWlogMapping = s.RWlogMapping ∧
      CopyMerge s S c 1 sw [o] (fun _ => c) [old, sw]
        (fun b i => b = c ∧ i < s.param.pagesInBlock ∧
          (s.vbit sw i = true ∨ s.vbit old i = true)) ∧
      Programs S s2 (c + 2) 0 lpn ∧
      (s2.param = s.param ∧
        s2.logicalToPhysicalBlockMapping = S.logicalToPhysicalBlockMapping ∧
        s2.physicalToLogicalBlockMapping =
          upd S.physicalToLogicalBlockMapping (c + 2) (some (lpn / s.param.pagesInBlock)) ∧
        s2.freeBlocks = List.range' (c + 3) n ∧ s2.RWlogMapping = s.RWlogMapping ∧
        s2.SWBlock = some (c + 2) ∧ s2.RWBlocks = s.RWBlocks) ∧
      DataBacked s2 (fun _ => False) := by
  obtain ⟨S, tS, hmerge, a2, a3, a5, hm⟩ := mergeSW_full (n := 1 + n) hi hsw ho hold hcnt
    (by rw [hfree]; congr 1; omega) none tick sendToPAL
  have hGlt := hi.swLt sw hsw
  obtain ⟨hiS, -⟩ := hm.invC hi (Or.inl ⟨hsw, a2, a3⟩)
  obtain ⟨x1, x2, -, -⟩ := hm.extra hi hGlt
  have hiS0 : InvC { S with SWBlock := none } (c + 1 + 1) := by
    refine hiS.dropSW ?_
    intro sw1 hsw1
    rw [a2] at hsw1
    injection hsw1 with hsw1
    subst hsw1
    rw [hm.hparam]
    exact ⟨x1, x2⟩
  obtain ⟨n1, hf0, hf1⟩ := hm.hfree
  have hn1 : n1 = 1 + n := by
    have := congrArg List.length hf0
    rw [hfree] at this
    simp only [List.length_range'] at this
    omega
  subst hn1
  have hfS : S.freeBlocks = (c + 2) :: List.range' (c + 3) n := by
    rw [hf1, show 1 + n = n + 1 by omega, List.range'_succ]
  have hget : S.getFreeBlock = some (c + 2, { S with freeBlocks := List.range' (c + 3) n }) := by
    unfold getFreeBlock
    rw [hfS]
  obtain ⟨hi3, hcl3⟩ := hiS0.newSW
    (S := { ({ S with freeBlocks := List.range' (c + 3) n } : FastMapping) with
      SWBlock := some (c + 2) })
    rfl rfl rfl rfl ⟨_, rfl⟩ rfl rfl rfl
  have hposS : 0 < s.param.pagesInBlock := by
    obtain ⟨i, hlt, -⟩ := exists_notErased_of_notClean (hi.blk sw).1 hcl
    omega
  have he : ({ ({ S with freeBlocks := List.range' (c + 3) n } : FastMapping) with
      SWBlock := some (c + 2) } : FastMapping).ebit (c + 2) 0 = true :=
    hcl3 0 (by show 0 < S.param.pagesInBlock; rw [hm.hparam]; exact hposS)
  obtain ⟨s4, hw, hprog⟩ := programs_step hi3 (c + 2) 0 lpn tick he
  obtain ⟨m1, m2, m3, m4, m5, m6, m7⟩ := writeBlock_maps hw
  obtain ⟨q1, q2, q3, q4, q5, q6, q7, q8, q9⟩ := palWrite_fields
    ({ s4 with
      physicalToLogicalBlockMapping :=
        upd s4.physicalToLogicalBlockMapping (c + 2) (some (s.convertPageToBlock lpn)) } :
      FastMapping)
    { blockIndex := c + 2, pageIndex := 0 } tick sendToPAL
  obtain ⟨f, hmain⟩ : ∃ f, s.writeSWFirst lpn tick sendToPAL =
      some ((({ s4 with
          physicalToLogicalBlockMapping :=
            upd s4.physicalToLogicalBlockMapping (c + 2) (some (s.convertPageToBlock lpn)) } :
          FastMapping).palWrite { blockIndex := c + 2, pageIndex := 0 } tick sendToPAL).1, f) :=
    ⟨_, by
      unfold writeSWFirst
      simp only [hsw, hcl, Bool.false_eq_true, if_false, hmerge, hget, hw]
      rfl⟩
  have hGd : ∀ a, s.logicalToPhysicalBlockMapping a ≠ some sw :=
    fun a ha => hi.l2pSW a sw ha hsw
  have hXS : DataBacked S (fun l => l = lpn) := hm.backed hi hGlt hGd hX
  refine ⟨_, f, S, tS, hmain, hmerge, a2, a3, a5, hm, ?_, ⟨q1.trans (m1.trans hm.hparam), ?_, ?_,
    q5.trans m4, ?_, q7.trans m6, ?_⟩, ?_⟩
  · have hp := hprog _ q4
    exact ⟨hp.erased, hp.vbit, hp.ebit, hp.lpnAt, hp.curs, hp.other, hp.ecnt⟩
  · rw [q2, m2]
  · rw [q3]
    show upd s4.physicalToLogicalBlockMapping (c + 2) _ = _
    rw [m3]
    rfl
  · rw [q6, m5]
    exact a5
  · rw [q8, m7]
    exact a3
  · exact DataBacked.of_write hi3 (hXS.congr rfl rfl rfl) hw q4 (q1.trans m1) (q2.trans m2)

end FastMapping

end SimpleSSD


namespace SimpleSSD

namespace FastMapping

/-- Case 2b with conflict: full merge of the SW block; the LPN is not written.
-/
theorem swConflict_case {s : FastMapping} {c lpn sw old n : Nat} (tick : Nat)
    (sendToPAL : Bool) (hi : InvC s c) (hn : NoCopy s lpn)
    (hX : DataBacked s (fun l => l = lpn))
    (hsw : s.SWBlock = some sw)
    (hown : s.physicalToLogicalBlockMapping sw = some (lpn / s.param.pagesInBlock))
    (hold : s.logicalToPhysicalBlockMapping (lpn / s.param.pagesInBlock) = some old)
    (hpos : 0 < s.param.pagesInBlock)
    (he : s.ebit sw (lpn % s.param.pagesInBlock) = false)
    (hfree : s.freeBlocks = List.range' c (2 + n)) :
    ∃ s2 f, s.writeSWAppend sw lpn tick sendToPAL = some (s2, f) ∧
      (∃ t, s.mergeLogBlock sw BlockType.kBlockTypeSW (some (lpn % s.param.pagesInBlock)) tick
        sendToPAL = some (s2, t)) ∧
      s2.SWBlock = some (c + 1) ∧ s2.RWBlocks = s.RWBlocks ∧ s2.RWlogMapping = s.RWlogMapping ∧
      CopyMerge s s2 c 1 sw [lpn / s.param.pagesInBlock] (fun _ => c) [old, sw]
        (fun b i => b = c ∧ i < s.param.pagesInBlock ∧
          (s.vbit sw i = true ∨ s.vbit old i = true)) ∧
      DataBacked s2 (fun _ => False) := by
  have hlt : lpn % s.param.pagesInBlock < s.param.pagesInBlock := Nat.mod_lt _ hpos
  have hdm : lpn / s.param.pagesInBlock * s.param.pagesInBlock + lpn % s.param.pagesInBlock =
      lpn := Nat.div_add_mod' _ _
  have hvoff : s.vbit sw (lpn % s.param.pagesInBlock) = false := by
    cases hv : s.vbit sw (lpn % s.param.pagesInBlock) with
    | false => rfl
    | true =>
      obtain ⟨o1, h1, -, h3⟩ := hi.sw sw _ hsw hlt he
      rw [hown] at h1
      injection h1 with h1
      subst h1
      exact absurd ((h3 hv).trans hdm) (hn sw _ hv)
  have hcnt : (s.physicalBlocks sw).getValidPageCount ≠ s.param.pagesInBlock := by
    intro hc
    have := allValid_of_count (hi.blk sw).1 hc _ hlt
    rw [hvoff] at this
    exact absurd this (by simp)
  obtain ⟨S, tS, hmerge, a2, a3, a5, hm⟩ := mergeSW_full hi hsw hown hold hcnt hfree
    (some (lpn % s.param.pagesInBlock)) tick sendToPAL
  have hGlt := hi.swLt sw hsw
  have hGd : ∀ a, s.logicalToPhysicalBlockMapping a ≠ some sw :=
    fun a ha => hi.l2pSW a sw ha hsw
  have hXS : DataBacked S (fun l => l = lpn) := hm.backed hi hGlt hGd hX
  have hmain : s.writeSWAppend sw lpn tick sendToPAL = some (S, max tick tS) := by
    unfold writeSWAppend
    simp only [getPageInfo_erased, convertPageToOffsetInBlock, he, Bool.false_eq_true,
      if_false, hmerge]
  refine ⟨S, max tick tS, hmain, ⟨tS, hmerge⟩, a2, a3, a5, hm, ?_⟩
  intro a p i hp hlt1 hee hv
  rcases hXS a p i hp hlt1 hee hv with hx | hx
  · exfalso
    rw [hm.hparam] at hlt1 hx
    obtain ⟨d1, d2⟩ := div_mod_of_pos hlt1 (show lpn = a * s.param.pagesInBlock + i from hx.symm)
    rw [hm.hl2p, ← d1, if_pos (by simp)] at hp
    injection hp with hp
    subst hp
    rcases hm.newData hi hGlt (a := lpn / s.param.pagesInBlock) (by simp) hlt1 with h1 | h1
    · rw [h1] at hee
      exact absurd hee (by simp)
    · rw [h1] at hv
      exact absurd hv (by simp)
  · exact Or.inr hx

end FastMapping

end SimpleSSD


namespace SimpleSSD

namespace FastMapping

/-- Case 2c without a free RW page: the RW block at the front of the queue is
merged, the free block after the ones the merge takes is appended to the queue
and gets the LPN in page 0. `S` is the state after the merge. -/
theorem rwRecycle_case {s : FastMapping} {c lpn victim n : Nat} {rest : List Nat} (tick : Nat)
    (sendToPAL : Bool) (hi : InvC s c) (hX : DataBacked s (fun l => l = lpn))
    (hpos : 0 < s.param.pagesInBlock)
    (hfind : s.RWBlocks.find? (fun rwBlockNum =>
      (s.physicalBlocks rwBlockNum).getErasedPageCount != 0) = none)
    (hRW : s.RWBlocks = victim :: rest)
    (hfree : s.freeBlocks = List.range' c n) (hn : s.rwMergeDemand victim + 1 ≤ n) :
    ∃ (s2 : FastMapping) (f : Nat) (S : FastMapping) (t : Nat) (lbns : List Nat) (N : Nat → Nat)
      (er : List Nat) (T : Nat → Nat → Prop),
      s.writeRW lpn tick sendToPAL = some (s2, f) ∧
      ({ s with RWBlocks := rest } : FastMapping).mergeLogBlock victim BlockType.kBlockTypeRW none
        tick sendToPAL = some (S, t) ∧
      S.RWBlocks = rest ∧ S.SWBlock = s.SWBlock ∧
      s.rwMergeDemand victim = lbns.length + 1 ∧
      (∀ l, S.RWlogMapping l =
        if ∃ i, i < s.param.pagesInBlock ∧ s.vbit victim i = true ∧ s.lpnAt victim i = l
        then none else s.RWlogMapping l) ∧
      CopyMerge s S c lbns.length victim lbns N er T ∧
      Programs S s2 (c + lbns.length + 1) 0 lpn ∧
      (s2.param = s.param ∧
        s2.logicalToPhysicalBlockMapping = S.logicalToPhysicalBlockMapping ∧
        s2.physicalToLogicalBlockMapping =
          upd S.physicalToLogicalBlockMapping (c + lbns.length + 1) none ∧
        s2.freeBlocks = List.range' (c + lbns.length + 2) (n - lbns.length - 2) ∧
        s2.RWlogMapping = upd S.RWlogMapping lpn (some (c + lbns.length + 1, 0)) ∧
        s2.SWBlock = s.SWBlock ∧ s2.RWBlocks = rest ++ [c + lbns.length + 1]) ∧
      DataBacked s2 (fun _ => False) := by
  have hdem : ({ s with RWBlocks := rest } : FastMapping).rwMergeDemand victim =
      s.rwMergeDemand victim := rfl
  obtain ⟨S, tS, lbns, N, er, T, hmerge, b1, b2, b3, b4, hm⟩ :=
    @mergeRW_full s { s with RWBlocks := rest } c victim n rest hi hRW rfl rfl rfl rfl rfl rfl rfl
      rfl hfree (by rw [hdem]; omega) tick sendToPAL
  rw [hdem] at b3
  have hvRW : victim ∈ s.RWBlocks := by rw [hRW]; exact List.mem_cons_self _ _
  have hGlt := hi.rwLt victim hvRW
  have hGd : ∀ a, s.logicalToPhysicalBlockMapping a ≠ some victim :=
    fun a ha => hi.l2pRW a victim ha hvRW
  obtain ⟨hiS, -⟩ := hm.invC hi (Or.inr ⟨rest, hRW, b1, b2⟩)
  obtain ⟨n1, hf0, hf1⟩ := hm.hfree
  have hn1 : n1 = n - lbns.length - 1 := by
    have := congrArg List.length hf0
    rw [hfree] at this
    simp only [List.length_range'] at this
    omega
  subst hn1
  have hfS : S.freeBlocks =
      (c + lbns.length + 1) :: List.range' (c + lbns.length + 2) (n - lbns.length - 2) := by
    rw [hf1]
    conv_lhs =>
      rw [show n - lbns.length - 1 = (n - lbns.length - 2) + 1 by omega, List.range'_succ]
  have hget : S.getFreeBlock = some (c + lbns.length + 1,
      { S with freeBlocks := List.range' (c + lbns.length + 2) (n - lbns.length - 2) }) := by
    unfold getFreeBlock
    rw [hfS]
  have hfr := hiS.fresh (Nat.le_refl (c + lbns.length + 1))
  have hi3 := hiS.newRW
    (S := { ({ S with
        freeBlocks := List.range' (c + lbns.length + 2) (n - lbns.length - 2) } : FastMapping) with
      RWBlocks := S.RWBlocks ++ [c + lbns.length + 1]
      physicalToLogicalBlockMapping :=
        upd S.physicalToLogicalBlockMapping (c + lbns.length + 1) none })
    rfl rfl rfl
    (by
      intro b hb
      show upd S.physicalToLogicalBlockMapping (c + lbns.length + 1) none b = _
      simp [upd_apply, hb])
    ⟨_, rfl⟩ rfl rfl rfl
  have hc0 : (S.physicalBlocks (c + lbns.length + 1)).getNextWritePageIndex = 0 := hfr.2.1
  have he : ({ ({ S with
        freeBlocks := List.range' (c + lbns.length + 2) (n - lbns.length - 2) } : FastMapping) with
      RWBlocks := S.RWBlocks ++ [c + lbns.length + 1]
      physicalToLogicalBlockMapping :=
        upd S.physicalToLogicalBlockMapping (c + lbns.length + 1) none } :
      FastMapping).ebit (c + lbns.length + 1) 0 = true :=
    hfr.1 0 (by rw [hm.hparam]; exact hpos)
  obtain ⟨s4, hw, hprog⟩ := programs_step hi3 (c + lbns.length + 1) 0 lpn tick he
  obtain ⟨m1, m2, m3, m4, m5, m6, m7⟩ := writeBlock_maps hw
  obtain ⟨q1, q2, q3, q4, q5, q6, q7, q8, q9⟩ := palWrite_fields
    ({ s4 with
      RWlogMapping := upd s4.RWlogMapping lpn (some (c + lbns.length + 1, 0)) } : FastMapping)
    { blockIndex := c + lbns.length + 1, pageIndex := 0 } tick sendToPAL
  obtain ⟨f, hmain⟩ : ∃ f, s.writeRW lpn tick sendToPAL =
      some ((({ s4 with
          RWlogMapping := upd s4.RWlogMapping lpn (some (c + lbns.length + 1, 0)) } :
          FastMapping).palWrite { blockIndex := c + lbns.length + 1, pageIndex := 0 } tick
        sendToPAL).1, f) :=
    ⟨_, by
      unfold writeRW
      simp only [hfind]
      simp only [hRW, hmerge, hget, hc0, hw]
      rfl⟩
  have hXS : DataBacked S (fun l => l = lpn) := hm.backed hi hGlt hGd hX
  refine ⟨_, f, S, tS, lbns, N, er, T, hmain, hmerge, b1, b2, b3, b4, hm, ?_,
    ⟨q1.trans (m1.trans hm.hparam), ?_, ?_, q5.trans m4, ?_, ?_, ?_⟩, ?_⟩
  · have hp := hprog _ q4
    exact ⟨hp.erased, hp.vbit, hp.ebit, hp.lpnAt, hp.curs, hp.other, hp.ecnt⟩
  · rw [q2, m2]
  · rw [q3, m3]
  · rw [q6]
    show upd s4.RWlogMapping lpn _ = _
    rw [m5]
  · rw [q7, m6]
    exact b2
  · rw [q8, m7]
    show S.RWBlocks ++ _ = _
    rw [b1]
  · exact DataBacked.of_write hi3 (hXS.congr rfl rfl rfl) hw q4 (q1.trans m1) (q2.trans m2)

end FastMapping

end SimpleSSD


namespace SimpleSSD

namespace FastMapping

/-- A full merge of the SW block that returns has found two free blocks. -/
theorem mergeSW_free {s : FastMapping} {sw o old tick : Nat} {ap : Option Nat}
    {sendToPAL : Bool} {r : FastMapping × Nat}
    (ho : s.physicalToLogicalBlockMapping sw = some o)
    (hold : s.logicalToPhysicalBlockMapping o = some old)
    (hcnt : (s.physicalBlocks sw).getValidPageCount ≠ s.param.pagesInBlock)
    (h : s.mergeLogBlock sw BlockType.kBlockTypeSW ap tick sendToPAL = some r) :
    2 ≤ s.freeBlocks.length := by
  rw [mergeLogBlock_run] at h
  simp only [] at h
  rw [mergePlanSW_full s sw o old ap ho hold hcnt] at h
  cases hpl : s.mergePlanSWFull sw o old with
  | none =>
    rw [hpl] at h
    simp [mergeRun] at h
  | some pl =>
    unfold mergePlanSWFull at hpl
    cases hf : s.freeBlocks with
    | nil => simp [getFreeBlock, hf] at hpl
    | cons x xs =>
      cases xs with
      | nil => simp [getFreeBlock, hf] at hpl
      | cons y ys => simp

/-- An RW merge that returns has found the free blocks it takes. -/
theorem mergeRW_free {s sr : FastMapping} {c log tick : Nat} {sendToPAL : Bool}
    {r : FastMapping × Nat} (hi : InvC s c) (e5 : sr.freeBlocks = s.freeBlocks)
    (h : sr.mergeLogBlock log BlockType.kBlockTypeRW none tick sendToPAL = some r) :
    sr.rwMergeDemand log ≤ s.freeBlocks.length := by
  obtain ⟨r1, r2⟩ := r
  obtain ⟨s0, p, hplan, -⟩ := mergeLogBlock_eq h
  rcases hplan with ⟨hk, -⟩ | ⟨-, -, hplan⟩
  · exact absurd hk (by simp)
  obtain ⟨s1, nw, od, logWrites, X, s2, hassign, -, hfree, -, -, -⟩ := mergePlanRW_eq hplan
  obtain ⟨u1, -⟩ := sortUnique_spec (sr.mergeRWCollect log).1
  obtain ⟨n, hn⟩ := hi.free
  obtain ⟨g1, g2, -⟩ :=
    mergeRWAssign_spec _ { sr with RWlogMapping := (sr.mergeRWCollect log).2 }
      (fun _ => 0) (fun _ => 0) c n s1 nw od u1 (e5.trans hn) hassign
  obtain ⟨tl, htl, -⟩ := getFreeBlock_eq hfree
  rw [g2] at htl
  have hlen := congrArg List.length htl
  simp only [List.length_range', List.length_cons] at hlen
  unfold rwMergeDemand
  rw [hn, List.length_range']
  omega

/-- Case 2a on a non-clean SW block returns only if the merge returns and
leaves a free block. -/
theorem swFirst_returned {s : FastMapping} {lpn sw tick : Nat} {sendToPAL : Bool}
    {r : FastMapping × Nat} (hsw : s.SWBlock = some sw)
    (hcl : (s.physicalBlocks sw).isCleanBlock = false)
    (h : s.writeSWFirst lpn tick sendToPAL = some r) :
    ∃ S t, s.mergeLogBlock sw BlockType.kBlockTypeSW none tick sendToPAL = some (S, t) ∧
      S.freeBlocks ≠ [] := by
  unfold writeSWFirst at h
  simp only [hsw, hcl, Bool.false_eq_true, if_false] at h
  cases hm : s.mergeLogBlock sw BlockType.kBlockTypeSW none tick sendToPAL with
  | none => simp [hm] at h
  | some x =>
    obtain ⟨S, t⟩ := x
    refine ⟨S, t, rfl, ?_⟩
    intro hf
    simp [hm, getFreeBlock, hf] at h

/-- Case 2b with conflict returns only if the merge returns. -/
theorem swAppend_returned {s : FastMapping} {lpn sw tick : Nat} {sendToPAL : Bool}
    {r : FastMapping × Nat} (he : s.ebit sw (lpn % s.param.pagesInBlock) = false)
    (h : s.writeSWAppend sw lpn tick sendToPAL = some r) :
    ∃ t, s.mergeLogBlock sw BlockType.kBlockTypeSW (some (lpn % s.param.pagesInBlock)) tick
      sendToPAL = some (r.1, t) := by
  unfold writeSWAppend at h
  simp only [getPageInfo_erased, convertPageToOffsetInBlock, he, Bool.false_eq_true,
    if_false] at h
  cases hm : s.mergeLogBlock sw BlockType.kBlockTypeSW (some (lpn % s.param.pagesInBlock)) tick
      sendToPAL with
  | none => simp [hm] at h
  | some x =>
    obtain ⟨S, t⟩ := x
    simp only [hm, Option.some.injEq] at h
    exact ⟨t, by rw [← h]⟩

/-- Case 2c without a free RW page returns only if the merge of the first RW
block returns and leaves a free block. -/
theorem rw_returned {s : FastMapping} {lpn tick : Nat} {sendToPAL : Bool}
    {r : FastMapping × Nat}
    (hfind : s.RWBlocks.find? (fun rwBlockNum =>
      (s.physicalBlocks rwBlockNum).getErasedPageCount != 0) = none)
    (h : s.writeRW lpn tick sendToPAL = some r) :
    ∃ victim rest S t, s.RWBlocks = victim :: rest ∧
      ({ s with RWBlocks := rest } : FastMapping).mergeLogBlock victim BlockType.kBlockTypeRW
        none tick sendToPAL = some (S, t) ∧
      S.freeBlocks ≠ [] := by
  unfold writeRW at h
  simp only [hfind] at h
  cases hRW : s.RWBlocks with
  | nil => simp [hRW] at h
  | cons victim rest =>
    simp only [hRW] at h
    cases hm : ({ s with RWBlocks := rest } : FastMapping).mergeLogBlock victim
        BlockType.kBlockTypeRW none tick sendToPAL with
    | none => simp [hm] at h
    | some x =>
      obtain ⟨S, t⟩ := x
      refine ⟨victim, rest, S, t, rfl, hm, ?_⟩
      intro hf
      simp [hm, getFreeBlock, hf] at h

end FastMapping

end SimpleSSD


namespace SimpleSSD

namespace FastMapping

/-- In a conflict of Case 2b the SW block is not fully valid: the page of the
offset is not erased and, as the LPN has no valid copy, not valid. -/
theorem swConflict_count {s : FastMapping} {c lpn sw : Nat} (hi : InvC s c)
    (hn : NoCopy s lpn) (hsw : s.SWBlock = some sw)
    (hown : s.physicalToLogicalBlockMapping sw = some (lpn / s.param.pagesInBlock))
    (hpos : 0 < s.param.pagesInBlock)
    (he : s.ebit sw (lpn % s.param.pagesInBlock) = false) :
    (s.physicalBlocks sw).getValidPageCount ≠ s.param.pagesInBlock := by
  have hlt : lpn % s.param.pagesInBlock < s.param.pagesInBlock := Nat.mod_lt _ hpos
  have hdm : lpn / s.param.pagesInBlock * s.param.pagesInBlock + lpn % s.param.pagesInBlock =
      lpn := Nat.div_add_mod' _ _
  intro hc
  have hv := allValid_of_count (hi.blk sw).1 hc _ hlt
  obtain ⟨o1, h1, -, h3⟩ := hi.sw sw _ hsw hlt he
  rw [hown] at h1
  injection h1 with h1
  subst h1
  exact absurd ((h3 hv).trans hdm) (hn sw _ hv)

theorem InvX.ofSameCore {s s1 : FastMapping} (h : SameCore s s1) (hx : InvX s) : InvX s1 := by
  refine ⟨by rw [h.sw]; exact hx.swSome, by rw [h.rw]; exact hx.rwLen, ?_⟩
  intro a p i hp hlt he hv
  rw [h.param] at hlt ⊢
  rw [h.l2p] at hp
  rw [h.ebit] at he
  rw [h.vbit] at hv
  rw [h.vbit, h.lpnAt]
  exact hx.backed a p i hp hlt he hv

theorem InvX.ofNew {p : Parameter} {l : PAL} {c : Latency} {s : FastMapping}
    (h : FastMapping.new p l c = some s) : InvX s := by
  obtain ⟨-, h2, -, -, -, -, h7, h8, -⟩ := new_eq h
  refine ⟨by rw [h7]; rfl, by rw [h8]; rfl, ?_⟩
  intro a q i hq
  rw [h2] at hq
  exact absurd hq (by simp)

theorem InvX.ofEnsure {s s1 : FastMapping} {c lbn : Nat} (hi : InvC s c) (hx : InvX s)
    (h : s.writeEnsureMapping lbn = some s1) : InvX s1 := by
  rcases writeEnsureMapping_eq h with ⟨-, rfl⟩ | ⟨-, pbn, s0, hf, rfl⟩
  · exact hx
  · obtain ⟨hpc, n, hs0⟩ := hi.getFreeBlock hf
    subst hs0
    refine ⟨hx.swSome, hx.rwLen, ?_⟩
    intro a p i hp hlt he hv
    simp only [upd_apply] at hp
    split at hp
    · injection hp with hp
      have := (hi.fresh (Nat.le_of_eq hpc.symm)).1 i hlt
      have he1 : s.ebit p i = false := he
      rw [← hp, this] at he1
      exact absurd he1 (by simp)
    · exact hx.backed a p i hp hlt he hv

end FastMapping

end SimpleSSD


namespace SimpleSSD

namespace FastMapping

theorem InvX.ofSWFirst {s s1 : FastMapping} {c lpn sw tick f : Nat} {sendToPAL : Bool}
    (hi : InvC s c) (hsw : s.SWBlock = some sw) (hrw : s.RWBlocks.length = kRWBlockCnt)
    (hX : DataBacked s (fun l => l = lpn)) (hpos : 0 < s.param.pagesInBlock)
    (h : s.writeSWFirst lpn tick sendToPAL = some (s1, f)) : InvX s1 := by
  obtain ⟨n, hfree⟩ := hi.free
  cases hcl : (s.physicalBlocks sw).isCleanBlock with
  | true =>
    obtain ⟨s2, f2, e, -, ⟨-, -, -, -, -, m6, m7⟩, -, hb⟩ :=
      swFirst_clean tick sendToPAL hi hX hpos hsw hcl
    rw [h] at e
    injection e with e
    injection e with e1 e2
    subst e1
    exact ⟨by rw [m6, hsw]; rfl, by rw [m7]; exact hrw, hb⟩
  | false =>
    obtain ⟨S, t, hm, hne⟩ := swFirst_returned hsw hcl h
    obtain ⟨o, old, ho, hold⟩ := hi.swOwner hsw hcl
    by_cases hcnt : (s.physicalBlocks sw).getValidPageCount = s.param.pagesInBlock
    · obtain ⟨-, hm1⟩ := mergeSW_switch s sw o old none tick sendToPAL ho hold hcnt
      rw [hm] at hm1
      injection hm1 with hm1
      injection hm1 with hS ht
      obtain ⟨⟨-, -, a3, -⟩, -⟩ := eraseInternal_spec
        ({ s with
          logicalToPhysicalBlockMapping :=
            upd s.logicalToPhysicalBlockMapping o (some sw) } : FastMapping) old tick sendToPAL
      rw [← hS] at a3
      have hn0 : n ≠ 0 := by
        intro h0
        apply hne
        rw [a3]
        show s.freeBlocks = []
        rw [hfree, h0]
        rfl
      obtain ⟨s2, f2, S2, t2, e, -, -, -, ⟨-, -, -, -, -, m6, m7⟩, hb⟩ :=
        swFirst_switch (n := n - 1) tick sendToPAL hi hX hsw hcl ho hold hcnt
          (by rw [hfree]; congr 1; omega)
      rw [h] at e
      injection e with e
      injection e with e1 e2
      subst e1
      exact ⟨by rw [m6]; rfl, by rw [m7]; exact hrw, hb⟩
    · have h2 := mergeSW_free ho hold hcnt hm
      rw [hfree, List.length_range'] at h2
      obtain ⟨S1, t1, hm1, -, -, -, hcm⟩ := mergeSW_full (n := n - 2) hi hsw ho hold hcnt
        (by rw [hfree]; congr 1; omega) none tick sendToPAL
      rw [hm] at hm1
      injection hm1 with hm1
      injection hm1 with hS ht
      subst hS
      obtain ⟨n1, hf0, hf1⟩ := hcm.hfree
      have hn1 : n1 = n - 2 := by
        have := congrArg List.length hf0
        rw [hfree] at this
        simp only [List.length_range'] at this
        omega
      have hn3 : 3 ≤ n := by
        by_contra hlt
        apply hne
        rw [hf1, hn1, show n - 2 = 0 by omega]
        rfl
      obtain ⟨s2, f2, S2, t2, e, -, -, -, -, -, -, ⟨-, -, -, -, -, m6, m7⟩, hb⟩ :=
        swFirst_full (n := n - 3) tick sendToPAL hi hX hsw hcl ho hold hcnt
          (by rw [hfree]; congr 1; omega)
      rw [h] at e
      injection e with e
      injection e with e1 e2
      subst e1
      exact ⟨by rw [m6]; rfl, by rw [m7]; exact hrw, hb⟩

theorem InvX.ofSWAppend {s s1 : FastMapping} {c lpn sw old tick f : Nat} {sendToPAL : Bool}
    (hi : InvC s c) (hn : NoCopy s lpn) (hsw : s.SWBlock = some sw)
    (hown : s.physicalToLogicalBlockMapping sw = some (lpn / s.param.pagesInBlock))
    (hold : s.logicalToPhysicalBlockMapping (lpn / s.param.pagesInBlock) = some old)
    (hrw : s.RWBlocks.length = kRWBlockCnt)
    (hX : DataBacked s (fun l => l = lpn)) (hpos : 0 < s.param.pagesInBlock)
    (h : s.writeSWAppend sw lpn tick sendToPAL = some (s1, f)) : InvX s1 := by
  obtain ⟨n, hfree⟩ := hi.free
  cases he : s.ebit sw (lpn % s.param.pagesInBlock) with
  | true =>
    obtain ⟨s2, f2, e, -, ⟨-, -, -, -, -, m6, m7⟩, -, hb⟩ :=
      swAppend_case tick sendToPAL hi hX he
    rw [h] at e
    injection e with e
    injection e with e1 e2
    subst e1
    exact ⟨by rw [m6, hsw]; rfl, by rw [m7]; exact hrw, hb⟩
  | false =>
    obtain ⟨t, hm⟩ := swAppend_returned he h
    have hcnt := swConflict_count hi hn hsw hown hpos he
    have h2 := mergeSW_free hown hold hcnt hm
    rw [hfree, List.length_range'] at h2
    obtain ⟨s2, f2, e, -, m6, m7, -, -, hb⟩ :=
      swConflict_case (n := n - 2) tick sendToPAL hi hn hX hsw hown hold hpos he
        (by rw [hfree]; congr 1; omega)
    rw [h] at e
    injection e with e
    injection e with e1 e2
    subst e1
    exact ⟨by rw [m6]; rfl, by rw [m7]; exact hrw, hb⟩

theorem InvX.ofRW {s s1 : FastMapping} {c lpn sw tick f : Nat} {sendToPAL : Bool}
    (hi : InvC s c) (hsw : s.SWBlock = some sw) (hrw : s.RWBlocks.length = kRWBlockCnt)
    (hX : DataBacked s (fun l => l = lpn)) (hpos : 0 < s.param.pagesInBlock)
    (h : s.writeRW lpn tick sendToPAL = some (s1, f)) : InvX s1 := by
  obtain ⟨n, hfree⟩ := hi.free
  cases hfind : s.RWBlocks.find? (fun rwBlockNum =>
      (s.physicalBlocks rwBlockNum).getErasedPageCount != 0) with
  | some tgt =>
    obtain ⟨s2, f2, e, -, -, -, ⟨-, -, -, -, -, m6, m7⟩, -, hb⟩ :=
      rwRoute_case tick sendToPAL hi hX hfind
    rw [h] at e
    injection e with e
    injection e with e1 e2
    subst e1
    exact ⟨by rw [m6, hsw]; rfl, by rw [m7]; exact hrw, hb⟩
  | none =>
    obtain ⟨victim, rest, S, t, hRW, hm, hne⟩ := rw_returned hfind h
    have hd := @mergeRW_free s { s with RWBlocks := rest } c victim tick sendToPAL _ hi rfl hm
    rw [hfree, List.length_range'] at hd
    obtain ⟨S1, t1, lbns, N, er, T, hm1, -, -, b3, -, hcm⟩ :=
      @mergeRW_full s { s with RWBlocks := rest } c victim n rest hi hRW rfl rfl rfl rfl rfl rfl
        rfl rfl hfree hd tick sendToPAL
    rw [hm] at hm1
    injection hm1 with hm1
    injection hm1 with hS ht
    subst hS
    obtain ⟨n1, hf0, hf1⟩ := hcm.hfree
    have hn1 : lbns.length + 1 + n1 = n := by
      have := congrArg List.length hf0
      rw [hfree] at this
      simp only [List.length_range'] at this
      omega
    have hn2 : n1 ≠ 0 := by
      intro h0
      apply hne
      rw [hf1, h0]
      rfl
    have hdem : ({ s with RWBlocks := rest } : FastMapping).rwMergeDemand victim =
        s.rwMergeDemand victim := rfl
    rw [hdem] at b3
    obtain ⟨s2, f2, S2, t2, lbns2, N2, er2, T2, e, -, -, -, -, -, -, -,
        ⟨-, -, -, -, -, m6, m7⟩, hb⟩ :=
      rwRecycle_case tick sendToPAL hi hX hpos hfind hRW hfree (by omega)
    rw [h] at e
    injection e with e
    injection e with e1 e2
    subst e1
    refine ⟨by rw [m6, hsw]; rfl, ?_, hb⟩
    rw [m7, List.length_append, List.length_singleton, ← hrw, hRW, List.length_cons]

end FastMapping

end SimpleSSD


namespace SimpleSSD

namespace FastMapping

theorem InvX.ofOverwrite {s s1 : FastMapping} {c lpn tick f b i : Nat} {k : BlockType}
    {sendToPAL : Bool} (hi : InvC s c) (hx : InvX s)
    (hf : s.findValidPage lpn = some (some (b, i, k)))
    (h : s.writeOverwrite lpn tick sendToPAL b i k = some (s1, f)) : InvX s1 := by
  obtain ⟨hi1, hn1⟩ := hi.invalidate (t := tick) hf
  have hX1 := DataBacked.of_invalidate (t := tick) hi hx.backed hf
  obtain ⟨f1, f2, f3, f4, f5, f6, -⟩ := writeInvalidate_fields s lpn tick b i k
  obtain ⟨hv0, -⟩ := hi.found hf
  obtain ⟨-, old, hold⟩ := findValidPage_found_mapped hf
  have hpos : 0 < s.param.pagesInBlock := by
    have := (hi.bits b i hv0).1
    omega
  unfold FastMapping.writeOverwrite at h
  simp only [convertPageToOffsetInBlock, convertPageToBlock] at h
  generalize s.writeInvalidate lpn tick b i k = s' at h hi1 hn1 hX1 f1 f2 f3 f4 f5 f6
  have hrw : s'.RWBlocks.length = kRWBlockCnt := by rw [f6]; exact hx.rwLen
  have hpos' : 0 < s'.param.pagesInBlock := by rw [f1]; exact hpos
  cases hsw : s'.SWBlock with
  | none =>
    have := hx.swSome
    rw [← f5, hsw] at this
    exact absurd this (by simp)
  | some sw =>
    split at h
    · exact InvX.ofSWFirst hi1 hsw hrw hX1 hpos' h
    · simp only [hsw] at h
      split at h
      · rename_i hown
        exact InvX.ofSWAppend hi1 hn1 hsw hown (by rw [f2, f1]; exact hold) hrw hX1 hpos' h
      · exact InvX.ofRW hi1 hsw hrw hX1 hpos' h

theorem InvX.ofWrite {s s1 : FastMapping} {c lpn tick tick1 : Nat} {sendToPAL : Bool}
    (hi : InvC s c) (hx : InvX s)
    (h : s.writeInternal lpn tick sendToPAL = some (s1, tick1)) : InvX s1 := by
  unfold FastMapping.writeInternal at h
  simp only [convertPageToBlock] at h
  split at h
  · split at h
    · exact absurd h (by simp)
    · rename_i sA hA
      obtain ⟨⟨cA, hiA⟩, hmapA, -, hpA⟩ := hi.ensureMapping hA
      have hxA := InvX.ofEnsure hi hx hA
      split at h
      · exact absurd h (by simp)
      · rename_i s2 f2 hwr
        injection h with h
        injection h with h hsnd
        subst h
        split at hwr
        · exact absurd hwr (by simp)
        · rename_i hf
          rw [← hpA] at hmapA
          cases hp : sA.logicalToPhysicalBlockMapping (lpn / sA.param.pagesInBlock) with
          | none => rw [hp] at hmapA; exact absurd hmapA (by simp)
          | some p =>
            have hpos : 0 < sA.param.pagesInBlock := by
              unfold writeFresh at hwr
              simp only [convertPageToBlock, convertPageToOffsetInBlock, hp] at hwr
              cases hw : sA.writeBlock p (lpn % sA.param.pagesInBlock) lpn tick with
              | none => simp [hw] at hwr
              | some s4 =>
                have := hiA.erasedLt p _ (writeBlock_views hw).1
                omega
            obtain ⟨s3, f3, e, -, ⟨-, -, -, -, -, m6, m7⟩, -, hb⟩ :=
              fresh_case tick sendToPAL hiA hxA.backed hpos hf hp
            rw [hwr] at e
            injection e with e
            injection e with e1 e2
            subst e1
            exact ⟨by rw [m6]; exact hxA.swSome, by rw [m7]; exact hxA.rwLen, hb⟩
        · rename_i b i k hf
          exact InvX.ofOverwrite hiA hxA hf hwr
  · exact absurd h (by simp)

theorem InvX.ofRead {s s1 : FastMapping} {lpn tick tick1 : Nat}
    (hx : InvX s) (h : s.readInternal lpn tick = some (s1, tick1)) : InvX s1 := by
  unfold FastMapping.readInternal at h
  split at h
  · exact absurd h (by simp)
  · injection h with h
    injection h with h hsnd
    subst h
    exact hx
  · rename_i pbn pageIdx k hf
    split at h
    · exact absurd h (by simp)
    · rename_i r b hb
      injection h with h
      injection h with h hsnd
      have h1 := readBlock_sameCore s pbn pageIdx 0 tick r b hb
      have h2 := palRead_sameCore
        { s with physicalBlocks := upd s.physicalBlocks pbn b }
        { blockIndex := pbn, pageIndex := pageIdx } tick true
      rw [h] at h2
      exact InvX.ofSameCore (h1.trans_ h2) hx

/-- Every reachable state satisfies the invariant and the further invariants. -/
theorem Reachable.invX {s : FastMapping} (h : Reachable s) : ∃ c, InvC s c ∧ InvX s := by
  induction h with
  | init p l c s h => exact ⟨7, InvC.init h, InvX.ofNew h⟩
  | write s lpn tick sendToPAL s1 tick1 _ hw ih =>
    obtain ⟨c, hi, hx⟩ := ih
    obtain ⟨c1, hi1⟩ := Inv.writeInternal ⟨c, hi⟩ hw
    exact ⟨c1, hi1, InvX.ofWrite hi hx hw⟩
  | read s lpn tick s1 tick1 _ hr ih =>
    obtain ⟨c, hi, hx⟩ := ih
    obtain ⟨c1, hi1⟩ := Inv.readInternal ⟨c, hi⟩ hr
    exact ⟨c1, hi1, InvX.ofRead hx hr⟩

end FastMapping

end SimpleSSD


namespace SimpleSSD

namespace FastMapping

/-- C13. Fresh write. In a reachable state (with blocks of at least one page),
when the mapping step of `writeInternal` returns and the lookup of the LPN
after it is NOT-FOUND, `writeInternal` returns; `L2P[lbn]` is the old entry, or
the head of `freeBlocks` with `P2L` of it set to `lbn` when the entry was
unmapped (this is the only change of `freeBlocks` and `P2L`); page
`lpn mod pagesInBlock` of that data block, erased before, is valid and stores
the LPN; `SWBlock`, `RWBlocks`, `RWlogMapping`, the other entries of `L2P`,
the other physical blocks and the other pages of the data block are unchanged;
no erase count changes, and the only PAL call is the write of that page. -/
theorem fresh_write {s sA : FastMapping} (h : Reachable s) (lpn tick : Nat) (sendToPAL : Bool)
    (hpos : 0 < s.param.pagesInBlock)
    (hA : s.writeEnsureMapping (lpn / s.param.pagesInBlock) = some sA)
    (hnf : sA.findValidPage lpn = some none) :
    ∃ s2 t2 p, s.writeInternal lpn tick sendToPAL = some (s2, t2) ∧
      s2.logicalToPhysicalBlockMapping (lpn / s.param.pagesInBlock) = some p ∧
      ((s.logicalToPhysicalBlockMapping (lpn / s.param.pagesInBlock) = some p ∧
          s2.freeBlocks = s.freeBlocks ∧
          s2.physicalToLogicalBlockMapping = s.physicalToLogicalBlockMapping) ∨
        (s.logicalToPhysicalBlockMapping (lpn / s.param.pagesInBlock) = none ∧
          s.freeBlocks = p :: s2.freeBlocks ∧
          s2.physicalToLogicalBlockMapping =
            upd s.physicalToLogicalBlockMapping p (some (lpn / s.param.pagesInBlock)))) ∧
      (s.physicalBlocks p).isErased (lpn % s.param.pagesInBlock) = true ∧
      (s2.physicalBlocks p).isValid (lpn % s.param.pagesInBlock) = true ∧
      (s2.physicalBlocks p).isErased (lpn % s.param.pagesInBlock) = false ∧
      (s2.physicalBlocks p).getLPN (lpn % s.param.pagesInBlock) = some lpn ∧
      s2.SWBlock = s.SWBlock ∧ s2.RWBlocks = s.RWBlocks ∧ s2.RWlogMapping = s.RWlogMapping ∧
      (∀ a, a ≠ lpn / s.param.pagesInBlock →
        s2.logicalToPhysicalBlockMapping a = s.logicalToPhysicalBlockMapping a) ∧
      (∀ b, b ≠ p → s2.physicalBlocks b = s.physicalBlocks b) ∧
      (∀ j, j ≠ lpn % s.param.pagesInBlock →
        (s2.physicalBlocks p).isValid j = (s.physicalBlocks p).isValid j ∧
        (s2.physicalBlocks p).isErased j = (s.physicalBlocks p).isErased j ∧
        (s2.physicalBlocks p).getLPN j = (s.physicalBlocks p).getLPN j) ∧
      (∀ b, (s2.physicalBlocks b).getEraseCount = (s.physicalBlocks b).getEraseCount) ∧
      s2.palLog = s.palLog ++
        (if sendToPAL then
          [PalOp.write { blockIndex := p, pageIndex := lpn % s.param.pagesInBlock } tick]
        else []) := by
  obtain ⟨c, hi, hx⟩ := Reachable.invX h
  obtain ⟨⟨cA, hiA⟩, hmapA, hBA, hpA⟩ := hi.ensureMapping hA
  have hxA := InvX.ofEnsure hi hx hA
  have hl : lpn / s.param.pagesInBlock < s.param.totalLogicalBlocks := by
    have := (findValidPage_some_none hnf).1
    rwa [hpA] at this
  have hframe : sA.SWBlock = s.SWBlock ∧ sA.RWBlocks = s.RWBlocks ∧
      sA.RWlogMapping = s.RWlogMapping ∧ sA.palLog = s.palLog ∧
      (∀ a, a ≠ lpn / s.param.pagesInBlock →
        sA.logicalToPhysicalBlockMapping a = s.logicalToPhysicalBlockMapping a) ∧
      ∀ p, sA.logicalToPhysicalBlockMapping (lpn / s.param.pagesInBlock) = some p →
        (s.logicalToPhysicalBlockMapping (lpn / s.param.pagesInBlock) = some p ∧
          sA.freeBlocks = s.freeBlocks ∧
          sA.physicalToLogicalBlockMapping = s.physicalToLogicalBlockMapping) ∨
        (s.logicalToPhysicalBlockMapping (lpn / s.param.pagesInBlock) = none ∧
          s.freeBlocks = p :: sA.freeBlocks ∧
          sA.physicalToLogicalBlockMapping =
            upd s.physicalToLogicalBlockMapping p (some (lpn / s.param.pagesInBlock))) := by
    rcases writeEnsureMapping_eq hA with ⟨-, hs⟩ | ⟨hnone, pbn, s0, hf, hs⟩
    · subst hs
      exact ⟨rfl, rfl, rfl, rfl, fun _ _ => rfl, fun p hp => Or.inl ⟨hp, rfl, rfl⟩⟩
    · obtain ⟨rest, hfr, hs0⟩ := getFreeBlock_eq hf
      subst hs0
      subst hs
      refine ⟨rfl, rfl, rfl, rfl, ?_, ?_⟩
      · intro a ha
        simp [upd_apply, ha]
      · intro p hp
        right
        have hpp : pbn = p := by
          simp only [upd_apply, if_true] at hp
          injection hp
        subst hpp
        exact ⟨hnone, hfr, rfl⟩
  obtain ⟨fr1, fr2, fr3, fr4, fr5, fr6⟩ := hframe
  rw [← hpA] at hmapA
  cases hp : sA.logicalToPhysicalBlockMapping (lpn / sA.param.pagesInBlock) with
  | none => rw [hp] at hmapA; exact absurd hmapA (by simp)
  | some p =>
    obtain ⟨s2, f, e, hprog, ⟨m1, m2, m3, m4, m5, m6, m7⟩, hlog, -⟩ :=
      fresh_case tick sendToPAL hiA hxA.backed (by rw [hpA]; exact hpos) hnf hp
    rw [hpA] at hprog hlog hp
    have hw : s.writeInternal lpn tick sendToPAL = some (s2, f + s.cpu.WRITE_INTERNAL) := by
      rw [writeInternal_notFound tick sendToPAL hl hA hnf, e]
      rfl
    obtain ⟨c2, hi2⟩ := Inv.writeInternal ⟨c, hi⟩ hw
    obtain ⟨v1, v2, v3, v4⟩ := views_of_blocks hBA
    refine ⟨s2, _, p, hw, by rw [m2]; exact hp, ?_, ?_, ?_, ?_, ?_, m6.trans fr1, m7.trans fr2,
      m5.trans fr3, ?_, ?_, ?_, ?_, by rw [hlog, fr4]⟩
    · rw [m4, m3]
      exact fr6 p hp
    · have := hprog.erased
      rw [v2] at this
      exact this
    · show s2.vbit p _ = true
      rw [hprog.vbit]
      simp
    · show s2.ebit p _ = false
      rw [hprog.ebit]
      simp
    · rw [getLPN_lpnAt s2 p _ (hi2.blk p).2, hprog.lpnAt, if_pos ⟨rfl, rfl⟩]
    · intro a ha
      rw [m2]
      exact fr5 a ha
    · intro b hb
      rw [hprog.other b hb, hBA]
    · intro j hj
      have hne : ¬ (p = p ∧ j = lpn % s.param.pagesInBlock) := fun hx => hj hx.2
      refine ⟨?_, ?_, ?_⟩
      · show s2.vbit p j = s.vbit p j
        rw [hprog.vbit, v1]
        simp [hj]
      · show s2.ebit p j = s.ebit p j
        rw [hprog.ebit, v2]
        simp [hj]
      · rw [getLPN_lpnAt s2 p j (hi2.blk p).2, getLPN_lpnAt s p j (hi.blk p).2, hprog.lpnAt,
          if_neg hne, v3]
    · intro b
      rw [hprog.ecnt, hBA]

/-- On the new example device the write of LPN 1 is a fresh write: the mapping
step takes block 7, the head of the free queue, and page 1 of it gets the
LPN. -/
theorem fresh_write_witness :
    (exampleState [] rfl).Reachable ∧ 0 < (exampleState [] rfl).param.pagesInBlock ∧
      ((exampleState [] rfl).writeEnsureMapping 0).isSome = true ∧
      (((exampleState [] rfl).writeEnsureMapping 0).get rfl).findValidPage 1 = some none ∧
      (exampleState [] rfl).freeBlocks.head? = some 7 ∧
      ∃ s2 t2 p, (exampleState [] rfl).writeInternal 1 0 false = some (s2, t2) ∧
        s2.logicalToPhysicalBlockMapping (1 / (exampleState [] rfl).param.pagesInBlock) =
          some p ∧
        (s2.physicalBlocks p).isValid (1 % (exampleState [] rfl).param.pagesInBlock) = true :=
  ⟨exampleState_reachable _ _, by decide, rfl, rfl, rfl,
    Exists.elim
      (@fresh_write (exampleState [] rfl) (((exampleState [] rfl).writeEnsureMapping 0).get rfl)
        (exampleState_reachable [] rfl) 1 0 false (by decide)
        (Option.some_get _).symm rfl)
      (fun s2 h2 => Exists.elim h2 (fun t2 h3 => Exists.elim h3 (fun p h4 =>
        ⟨s2, t2, p, h4.1, h4.2.1, h4.2.2.2.2.1⟩)))⟩

end FastMapping

end SimpleSSD


namespace SimpleSSD

namespace FastMapping

/-- What is known when `writeInternal` overwrites an LPN in a reachable state:
the invariants before and after the invalidation of the copy found. -/
theorem overwrite_setup {s : FastMapping} {lpn b i : Nat} {k : BlockType} (h : Reachable s)
    (tick : Nat) (hf : s.findValidPage lpn = some (some (b, i, k))) :
    ∃ c, InvC s c ∧ InvX s ∧ InvC (s.writeInvalidate lpn tick b i k) c ∧
      NoCopy (s.writeInvalidate lpn tick b i k) lpn ∧
      DataBacked (s.writeInvalidate lpn tick b i k) (fun l => l = lpn) ∧
      0 < s.param.pagesInBlock ∧ s.vbit b i = true ∧ s.lpnAt b i = lpn ∧ b < c ∧
      i < s.param.pagesInBlock ∧
      ∃ old, s.logicalToPhysicalBlockMapping (lpn / s.param.pagesInBlock) = some old := by
  obtain ⟨c, hi, hx⟩ := Reachable.invX h
  obtain ⟨hi1, hn1⟩ := hi.invalidate (t := tick) hf
  have hX1 := DataBacked.of_invalidate (t := tick) hi hx.backed hf
  obtain ⟨hv0, hl0, -⟩ := hi.found hf
  obtain ⟨-, old, hold⟩ := findValidPage_found_mapped hf
  have hlt := (hi.bits b i hv0).1
  have hbc : b < c := by
    by_contra hge
    have := (hi.fresh (Nat.le_of_not_lt hge)).2.2.1 i
    rw [hv0] at this
    exact absurd this (by simp)
  exact ⟨c, hi, hx, hi1, hn1, hX1, by omega, hv0, hl0, hbc, hlt, old, hold⟩

/-- `writeInternal` of an LPN with a valid copy and offset 0. -/
theorem writeInternal_first {s : FastMapping} {lpn b i : Nat} {k : BlockType}
    (tick : Nat) (sendToPAL : Bool)
    (hf : s.findValidPage lpn = some (some (b, i, k)))
    (hoff : lpn % s.param.pagesInBlock = 0) :
    s.writeInternal lpn tick sendToPAL =
      ((s.writeInvalidate lpn tick b i k).writeSWFirst lpn tick sendToPAL).map
        (fun r => (r.1, r.2 + s.cpu.WRITE_INTERNAL)) := by
  rw [writeInternal_found tick sendToPAL hf]
  obtain ⟨f1, -⟩ := writeInvalidate_fields s lpn tick b i k
  unfold writeOverwrite
  simp only [convertPageToOffsetInBlock, f1, hoff, if_true]

/-- `writeInternal` of an LPN with a valid copy and non-zero offset, the SW
block being owned by the logical block of the LPN. -/
theorem writeInternal_owned {s : FastMapping} {lpn b i sw : Nat} {k : BlockType}
    (tick : Nat) (sendToPAL : Bool)
    (hf : s.findValidPage lpn = some (some (b, i, k)))
    (hoff : lpn % s.param.pagesInBlock ≠ 0) (hsw : s.SWBlock = some sw)
    (hown : s.physicalToLogicalBlockMapping sw = some (lpn / s.param.pagesInBlock)) :
    s.writeInternal lpn tick sendToPAL =
      ((s.writeInvalidate lpn tick b i k).writeSWAppend sw lpn tick sendToPAL).map
        (fun r => (r.1, r.2 + s.cpu.WRITE_INTERNAL)) := by
  rw [writeInternal_found tick sendToPAL hf]
  obtain ⟨f1, -, f3, -, f5, -⟩ := writeInvalidate_fields s lpn tick b i k
  unfold writeOverwrite
  simp only [convertPageToOffsetInBlock, convertPageToBlock, f1, f3, f5, hoff, if_false, hsw,
    hown, if_true]

/-- `writeInternal` of an LPN with a valid copy and non-zero offset, the SW
block not being owned by the logical block of the LPN. -/
theorem writeInternal_unowned {s : FastMapping} {lpn b i sw : Nat} {k : BlockType}
    (tick : Nat) (sendToPAL : Bool)
    (hf : s.findValidPage lpn = some (some (b, i, k)))
    (hoff : lpn % s.param.pagesInBlock ≠ 0) (hsw : s.SWBlock = some sw)
    (hown : s.physicalToLogicalBlockMapping sw ≠ some (lpn / s.param.pagesInBlock)) :
    s.writeInternal lpn tick sendToPAL =
      ((s.writeInvalidate lpn tick b i k).writeRW lpn tick sendToPAL).map
        (fun r => (r.1, r.2 + s.cpu.WRITE_INTERNAL)) := by
  rw [writeInternal_found tick sendToPAL hf]
  obtain ⟨f1, -, f3, -, f5, -⟩ := writeInvalidate_fields s lpn tick b i k
  unfold writeOverwrite
  simp only [convertPageToOffsetInBlock, convertPageToBlock, f1, f3, f5, hoff, if_false, hsw,
    hown]

end FastMapping

end SimpleSSD


namespace SimpleSSD

namespace FastMapping

/-- In a reachable state every block has its LPN array: `getLPN` returns the
stored LPN. -/
theorem Reachable.getLPN_eq {s : FastMapping} (h : Reachable s) (b i : Nat) :
    (s.physicalBlocks b).getLPN i = some (s.lpnAt b i) := by
  obtain ⟨c, hi, -⟩ := Reachable.invX h
  exact getLPN_lpnAt s b i (hi.blk b).2

/-- C15. Case 2b without conflict. In a reachable state, a write of an LPN with
a valid copy and `off != 0`, where the SW block is owned by the logical block
of the LPN and SW page `off` is erased, returns; the copy found (valid, storing
the LPN) is invalid afterwards, SW page `off` is valid, not erased and stores
the LPN, and no merge happens: `SWBlock`, `L2P`, `P2L`, `RWBlocks` and
`freeBlocks` are unchanged, `RWlogMapping` only loses the entry of the LPN when
the copy was in an RW block, no erase count changes, every other page keeps its
bits and LPN, and the only PAL call is the write of the SW page. -/
theorem sw_append_write {s : FastMapping} (h : Reachable s) (lpn tick : Nat) (sendToPAL : Bool)
    (b i : Nat) (k : BlockType) (sw : Nat)
    (hf : s.findValidPage lpn = some (some (b, i, k)))
    (hoff : lpn % s.param.pagesInBlock ≠ 0) (hsw : s.SWBlock = some sw)
    (hown : s.physicalToLogicalBlockMapping sw = some (lpn / s.param.pagesInBlock))
    (he : (s.physicalBlocks sw).isErased (lpn % s.param.pagesInBlock) = true) :
    ∃ s2 t2, s.writeInternal lpn tick sendToPAL = some (s2, t2) ∧
      (s.physicalBlocks b).isValid i = true ∧ (s.physicalBlocks b).getLPN i = some lpn ∧
      (s2.physicalBlocks b).isValid i = false ∧
      (s2.physicalBlocks sw).isValid (lpn % s.param.pagesInBlock) = true ∧
      (s2.physicalBlocks sw).isErased (lpn % s.param.pagesInBlock) = false ∧
      (s2.physicalBlocks sw).getLPN (lpn % s.param.pagesInBlock) = some lpn ∧
      s2.SWBlock = s.SWBlock ∧
      s2.logicalToPhysicalBlockMapping = s.logicalToPhysicalBlockMapping ∧
      s2.physicalToLogicalBlockMapping = s.physicalToLogicalBlockMapping ∧
      s2.RWBlocks = s.RWBlocks ∧ s2.freeBlocks = s.freeBlocks ∧
      s2.RWlogMapping =
        (if k = BlockType.kBlockTypeRW then upd s.RWlogMapping lpn none else s.RWlogMapping) ∧
      (∀ q, (s2.physicalBlocks q).getEraseCount = (s.physicalBlocks q).getEraseCount) ∧
      (∀ q j, ¬(q = sw ∧ j = lpn % s.param.pagesInBlock) →
        (s2.physicalBlocks q).isErased j = (s.physicalBlocks q).isErased j ∧
        (s2.physicalBlocks q).getLPN j = (s.physicalBlocks q).getLPN j ∧
        (¬(q = b ∧ j = i) →
          (s2.physicalBlocks q).isValid j = (s.physicalBlocks q).isValid j)) ∧
      s2.palLog = s.palLog ++
        (if sendToPAL then
          [PalOp.write { blockIndex := sw, pageIndex := lpn % s.param.pagesInBlock } tick]
        else []) := by
  obtain ⟨c, hi, hx, hi1, hn1, hX1, hpos, hv0, hl0, hbc, hilt, old, hold⟩ :=
    overwrite_setup h tick hf
  obtain ⟨f1, f2, f3, f4, f5, f6, f7, f8⟩ := writeInvalidate_fields s lpn tick b i k
  obtain ⟨v1, v2, v3, v4, v5⟩ := writeInvalidate_views s lpn tick b i k
  obtain ⟨b1, b2, b3, b4, b5⟩ := writeInvalidate_blocks s lpn tick b i k
  have he1 : (s.writeInvalidate lpn tick b i k).ebit sw
      (lpn % (s.writeInvalidate lpn tick b i k).param.pagesInBlock) = true := by
    rw [v2, f1]
    exact he
  obtain ⟨s2, f, hw, hprog, ⟨g1, g2, g3, g4, g5, g6, g7⟩, hlog, -⟩ :=
    swAppend_case tick sendToPAL hi1 hX1 he1
  rw [f1] at hprog hlog
  have hmain : s.writeInternal lpn tick sendToPAL = some (s2, f + s.cpu.WRITE_INTERNAL) := by
    rw [writeInternal_owned tick sendToPAL hf hoff hsw hown, hw]
    rfl
  have hr2 : Reachable s2 := Reachable.write s lpn tick sendToPAL s2 _ h hmain
  have hne : ¬(b = sw ∧ i = lpn % s.param.pagesInBlock) := by
    rintro ⟨rfl, rfl⟩
    have := (hi.bits _ _ hv0).2
    rw [show s.ebit b (lpn % s.param.pagesInBlock) = true from he] at this
    exact absurd this (by simp)
  refine ⟨s2, _, hmain, hv0, ?_, ?_, ?_, ?_, ?_, ?_, ?_, ?_, ?_, ?_, ?_, ?_, ?_, ?_⟩
  · rw [Reachable.getLPN_eq h, hl0]
  · show s2.vbit b i = false
    rw [hprog.vbit, v1]
    simp [hne]
  · show s2.vbit sw (lpn % s.param.pagesInBlock) = true
    rw [hprog.vbit]
    simp
  · show s2.ebit sw (lpn % s.param.pagesInBlock) = false
    rw [hprog.ebit]
    simp
  · rw [Reachable.getLPN_eq hr2, hprog.lpnAt, if_pos ⟨rfl, rfl⟩]
  · rw [g6, f5]
  · rw [g2, f2]
  · rw [g3, f3]
  · rw [g7, f6]
  · rw [g4, f4]
  · rw [g5, f7]
  · intro q
    rw [hprog.ecnt, b2]
  · intro q j hqj
    refine ⟨?_, ?_, ?_⟩
    · show s2.ebit q j = s.ebit q j
      rw [hprog.ebit, v2]
      simp [hqj]
    · rw [Reachable.getLPN_eq hr2, Reachable.getLPN_eq h, hprog.lpnAt, if_neg hqj, v3]
    · intro hbi
      show s2.vbit q j = s.vbit q j
      rw [hprog.vbit, v1]
      simp [hqj, hbi]
  · rw [hlog, b5]

/-- On the example device after the writes of LPN 0, 1, 0 the SW block 0 is
owned by logical block 0 with page 1 erased; the write of LPN 1 finds its copy
in data block 7 and goes to SW page 1. -/
theorem sw_append_write_witness :
    (exampleState [0, 1, 0] rfl).Reachable ∧
      (exampleState [0, 1, 0] rfl).findValidPage 1 =
        some (some (7, 1, BlockType.kBlockTypeData)) ∧
      (exampleState [0, 1, 0] rfl).SWBlock = some 0 ∧
      ∃ s2 t2, (exampleState [0, 1, 0] rfl).writeInternal 1 0 false = some (s2, t2) ∧
        (s2.physicalBlocks 7).isValid 1 = false ∧
        (s2.physicalBlocks 0).isValid (1 % (exampleState [0, 1, 0] rfl).param.pagesInBlock) =
          true ∧
        s2.freeBlocks = (exampleState [0, 1, 0] rfl).freeBlocks :=
  ⟨exampleState_reachable _ _, rfl, rfl,
    Exists.elim
      (sw_append_write (exampleState_reachable [0, 1, 0] rfl) 1 0 false 7 1
        BlockType.kBlockTypeData 0 rfl (by decide) rfl rfl rfl)
      (fun s2 h2 => Exists.elim h2 (fun t2 h3 =>
        ⟨s2, t2, h3.1, h3.2.2.2.1, h3.2.2.2.2.1, h3.2.2.2.2.2.2.2.2.2.2.2.1⟩))⟩

end FastMapping

end SimpleSSD


namespace SimpleSSD

namespace FastMapping

/-- C17. Case 2c, RW routing. In a reachable state, a write of an LPN with a
valid copy and `off != 0`, where the SW block is not owned by the logical block
of the LPN and some block of `RWBlocks` has `erasedPageCount != 0`, returns;
the target is the first block of `RWBlocks` with `erasedPageCount != 0`; the
copy found is invalid afterwards; the page of the target at its
`nextWritePageIndex`, erased before, is valid and stores the LPN;
`RWlogMapping[lpn]` is (target, that page index) and no other entry changes;
`RWBlocks`, `SWBlock`, `L2P`, `P2L` and `freeBlocks` are unchanged, no erase
count changes, every other page keeps its bits and LPN, and the only PAL call
is the write of the target page. -/
theorem rw_route_write {s : FastMapping} (h : Reachable s) (lpn tick : Nat) (sendToPAL : Bool)
    (b i : Nat) (k : BlockType) (sw q : Nat)
    (hf : s.findValidPage lpn = some (some (b, i, k)))
    (hoff : lpn % s.param.pagesInBlock ≠ 0) (hsw : s.SWBlock = some sw)
    (hown : s.physicalToLogicalBlockMapping sw ≠ some (lpn / s.param.pagesInBlock))
    (hq : q ∈ s.RWBlocks) (hcnt : (s.physicalBlocks q).getErasedPageCount ≠ 0) :
    ∃ s2 t2 pre tgt post, s.writeInternal lpn tick sendToPAL = some (s2, t2) ∧
      s.RWBlocks = pre ++ tgt :: post ∧
      (∀ r, r ∈ pre → (s.physicalBlocks r).getErasedPageCount = 0) ∧
      (s.physicalBlocks tgt).getErasedPageCount ≠ 0 ∧
      (s.physicalBlocks b).isValid i = true ∧ (s.physicalBlocks b).getLPN i = some lpn ∧
      (s2.physicalBlocks b).isValid i = false ∧
      (s.physicalBlocks tgt).getNextWritePageIndex < s.param.pagesInBlock ∧
      (s.physicalBlocks tgt).isErased (s.physicalBlocks tgt).getNextWritePageIndex = true ∧
      (s2.physicalBlocks tgt).isValid (s.physicalBlocks tgt).getNextWritePageIndex = true ∧
      (s2.physicalBlocks tgt).isErased (s.physicalBlocks tgt).getNextWritePageIndex = false ∧
      (s2.physicalBlocks tgt).getLPN (s.physicalBlocks tgt).getNextWritePageIndex = some lpn ∧
      s2.RWlogMapping lpn = some (tgt, (s.physicalBlocks tgt).getNextWritePageIndex) ∧
      (∀ l, l ≠ lpn → s2.RWlogMapping l = s.RWlogMapping l) ∧
      s2.RWBlocks = s.RWBlocks ∧ s2.SWBlock = s.SWBlock ∧
      s2.logicalToPhysicalBlockMapping = s.logicalToPhysicalBlockMapping ∧
      s2.physicalToLogicalBlockMapping = s.physicalToLogicalBlockMapping ∧
      s2.freeBlocks = s.freeBlocks ∧
      (∀ r, (s2.physicalBlocks r).getEraseCount = (s.physicalBlocks r).getEraseCount) ∧
      (∀ r j, ¬(r = tgt ∧ j = (s.physicalBlocks tgt).getNextWritePageIndex) →
        (s2.physicalBlocks r).isErased j = (s.physicalBlocks r).isErased j ∧
        (s2.physicalBlocks r).getLPN j = (s.physicalBlocks r).getLPN j ∧
        (¬(r = b ∧ j = i) →
          (s2.physicalBlocks r).isValid j = (s.physicalBlocks r).isValid j)) ∧
      s2.palLog = s.palLog ++
        (if sendToPAL then
          [PalOp.write
            { blockIndex := tgt, pageIndex := (s.physicalBlocks tgt).getNextWritePageIndex }
            tick]
        else []) := by
  obtain ⟨c, hi, hx, hi1, hn1, hX1, hpos, hv0, hl0, hbc, hilt, old, hold⟩ :=
    overwrite_setup h tick hf
  obtain ⟨f1, f2, f3, f4, f5, f6, f7, f8⟩ := writeInvalidate_fields s lpn tick b i k
  obtain ⟨v1, v2, v3, v4, v5⟩ := writeInvalidate_views s lpn tick b i k
  obtain ⟨b1, b2, b3, b4, b5⟩ := writeInvalidate_blocks s lpn tick b i k
  have hsome : (s.RWBlocks.find? (fun rwBlockNum =>
      (s.physicalBlocks rwBlockNum).getErasedPageCount != 0)).isSome = true := by
    rw [List.find?_isSome]
    exact ⟨q, hq, by simpa using hcnt⟩
  obtain ⟨tgt, htgt⟩ := Option.isSome_iff_exists.mp hsome
  obtain ⟨hpt, pre, post, hdec, hpre⟩ := List.find?_eq_some.mp htgt
  have hfind1 : (s.writeInvalidate lpn tick b i k).RWBlocks.find? (fun rwBlockNum =>
      (((s.writeInvalidate lpn tick b i k).physicalBlocks rwBlockNum).getErasedPageCount != 0)) =
      some tgt := by
    rw [f6, ← htgt]
    congr 1
    funext r
    rw [b4]
  obtain ⟨s2, f, hw, -, hclt, hprog, ⟨g1, g2, g3, g4, g5, g6, g7⟩, hlog, -⟩ :=
    rwRoute_case tick sendToPAL hi1 hX1 hfind1
  rw [v4] at hprog hlog g5
  rw [v4, f1] at hclt
  have hmain : s.writeInternal lpn tick sendToPAL = some (s2, f + s.cpu.WRITE_INTERNAL) := by
    rw [writeInternal_unowned tick sendToPAL hf hoff hsw hown, hw]
    rfl
  have hr2 : Reachable s2 := Reachable.write s lpn tick sendToPAL s2 _ h hmain
  have he0 : s.ebit tgt (s.curs tgt) = true := by
    have := hprog.erased
    rwa [v2] at this
  have hne : ¬(b = tgt ∧ i = s.curs tgt) := by
    rintro ⟨rfl, rfl⟩
    have := (hi.bits _ _ hv0).2
    rw [he0] at this
    exact absurd this (by simp)
  refine ⟨s2, _, pre, tgt, post, hmain, hdec, ?_, by simpa using hpt, hv0, ?_, ?_, hclt, he0,
    ?_, ?_, ?_, ?_, ?_, ?_, ?_, ?_, ?_, ?_, ?_, ?_, ?_⟩
  · intro r hr
    simpa using hpre r hr
  · rw [Reachable.getLPN_eq h, hl0]
  · show s2.vbit b i = false
    rw [hprog.vbit, v1]
    simp [hne]
  · show s2.vbit tgt (s.curs tgt) = true
    rw [hprog.vbit]
    simp
  · show s2.ebit tgt (s.curs tgt) = false
    rw [hprog.ebit]
    simp
  · show (s2.physicalBlocks tgt).getLPN (s.curs tgt) = some lpn
    rw [Reachable.getLPN_eq hr2, hprog.lpnAt, if_pos ⟨rfl, rfl⟩]
  · rw [g5]
    simp [upd_apply]
    rfl
  · intro l hl
    rw [g5, f7, upd_apply, if_neg hl]
    split
    · rw [upd_apply, if_neg hl]
    · rfl
  · rw [g7, f6]
  · rw [g6, f5]
  · rw [g2, f2]
  · rw [g3, f3]
  · rw [g4, f4]
  · intro r
    rw [hprog.ecnt, b2]
  · intro r j hrj
    have hrj1 : ¬(r = tgt ∧ j = s.curs tgt) := hrj
    refine ⟨?_, ?_, ?_⟩
    · show s2.ebit r j = s.ebit r j
      rw [hprog.ebit, v2]
      simp [hrj1]
    · rw [Reachable.getLPN_eq hr2, Reachable.getLPN_eq h, hprog.lpnAt, if_neg hrj1, v3]
    · intro hbi
      show s2.vbit r j = s.vbit r j
      rw [hprog.vbit, v1]
      simp [hrj1, hbi]
  · rw [hlog, b5]
    rfl

/-- On the example device after the write of LPN 1 the SW block is unowned
and all RW blocks are erased: the second write of LPN 1 finds the copy in data
block 7 and goes to page 0 of block 1, the head of `RWBlocks`. -/
theorem rw_route_write_witness :
    (exampleState [1] rfl).Reachable ∧
      (exampleState [1] rfl).findValidPage 1 = some (some (7, 1, BlockType.kBlockTypeData)) ∧
      (exampleState [1] rfl).SWBlock = some 0 ∧
      (exampleState [1] rfl).physicalToLogicalBlockMapping 0 = none ∧
      (exampleState [1] rfl).RWBlocks = [1, 2, 3, 4, 5, 6] ∧
      ∃ s2 t2 tgt, (exampleState [1] rfl).writeInternal 1 0 false = some (s2, t2) ∧
        (s2.physicalBlocks 7).isValid 1 = false ∧
        s2.RWlogMapping 1 =
          some (tgt, ((exampleState [1] rfl).physicalBlocks tgt).getNextWritePageIndex) ∧
        s2.RWBlocks = (exampleState [1] rfl).RWBlocks :=
  ⟨exampleState_reachable _ _, rfl, rfl, rfl, rfl,
    Exists.elim
      (rw_route_write (exampleState_reachable [1] rfl) 1 0 false 7 1
        BlockType.kBlockTypeData 0 1 rfl (by decide) rfl (by decide) (by decide) (by decide))
      (fun s2 h2 => Exists.elim h2 (fun t2 h3 => Exists.elim h3 (fun pre h4 =>
        Exists.elim h4 (fun tgt h5 => Exists.elim h5 (fun post h6 =>
        ⟨s2, t2, tgt, h6.1, h6.2.2.2.2.2.2.1, h6.2.2.2.2.2.2.2.2.2.2.2.2.1,
          h6.2.2.2.2.2.2.2.2.2.2.2.2.2.2.1⟩)))))⟩

end FastMapping

end SimpleSSD


namespace SimpleSSD

namespace FastMapping

/-- A block with all pages erased is clean. -/
theorem clean_of_allErased {s : FastMapping} {b : Nat}
    (hp : (s.physicalBlocks b).pageCount = s.param.pagesInBlock)
    (h : ∀ i, i < s.param.pagesInBlock → s.ebit b i = true) :
    (s.physicalBlocks b).isCleanBlock = true := by
  cases hc : (s.physicalBlocks b).isCleanBlock with
  | true => rfl
  | false =>
    obtain ⟨i, hi, he⟩ := exists_notErased_of_notClean hp hc
    rw [h i hi] at he
    exact absurd he (by simp)

/-- After a copying merge an erased block is clean, has no valid page and no
owner. -/
theorem CopyMerge.erased {s S : FastMapping} {c k G : Nat} {lbns : List Nat} {N : Nat → Nat}
    {er : List Nat} {T : Nat → Nat → Prop} (m : CopyMerge s S c k G lbns N er T)
    {b : Nat} (hb : b ∈ er) :
    (S.physicalBlocks b).isCleanBlock = true ∧ (∀ i, S.vbit b i = false) ∧
      S.physicalToLogicalBlockMapping b = none := by
  refine ⟨?_, ?_, m.hp2lE b hb⟩
  · apply clean_of_allErased
    · rw [(m.hblk b).1, m.hparam]
    · intro i hi
      rw [m.hparam] at hi
      exact (m.hE b i).mpr (Or.inl ⟨hb, hi⟩)
  · intro i
    cases hv : S.vbit b i with
    | false => rfl
    | true => exact absurd hb ((m.hV b i).mp hv).1

/-- After a copying merge a page that was invalid in a block in use before is
invalid. -/
theorem CopyMerge.staysInvalid {s S : FastMapping} {c k G : Nat} {lbns : List Nat}
    {N : Nat → Nat} {er : List Nat} {T : Nat → Nat → Prop}
    (m : CopyMerge s S c k G lbns N er T) (hi : InvC s c) (hG : G < c) {b i : Nat}
    (hb : b < c) (hv : s.vbit b i = false) : S.vbit b i = false := by
  cases hS : S.vbit b i with
  | false => rfl
  | true =>
    obtain ⟨-, hor⟩ := (m.hV b i).mp hS
    rcases hor with hor | hor
    · rw [hv] at hor
      exact absurd hor (by simp)
    · have := (m.target hi hG hor).1
      omega

end FastMapping

end SimpleSSD


namespace SimpleSSD

namespace FastMapping

/-- C16. Case 2b conflict. In a reachable state with at least two free blocks,
a write of an LPN with a valid copy and `off != 0`, where the SW block is owned
by the logical block of the LPN and SW page `off` is not erased, returns, and
its result is the state of the `mergeLogBlock` call on the SW block (kind SW,
additional page `off`) after the invalidation of the copy. `L2P[lbn]` becomes
the head of the old free queue, with `P2L` of it `lbn`; the old data block and
the old SW block are clean, without valid page and unowned; the new SW block is
the second block of the old free queue, different from the old SW block and
from the new data block, clean and unowned; both blocks taken left the queue.
`RWBlocks` and the other entries of `L2P` are unchanged. -/
theorem sw_conflict_write {s : FastMapping} (h : Reachable s) (lpn tick : Nat)
    (sendToPAL : Bool) (b i : Nat) (k : BlockType) (sw : Nat)
    (hf : s.findValidPage lpn = some (some (b, i, k)))
    (hoff : lpn % s.param.pagesInBlock ≠ 0) (hsw : s.SWBlock = some sw)
    (hown : s.physicalToLogicalBlockMapping sw = some (lpn / s.param.pagesInBlock))
    (he : (s.physicalBlocks sw).isErased (lpn % s.param.pagesInBlock) = false)
    (hfree : 2 ≤ s.freeBlocks.length) :
    ∃ s2 t2 t1 old nd sw2 rest, s.writeInternal lpn tick sendToPAL = some (s2, t2) ∧
      (s.writeInvalidate lpn tick b i k).mergeLogBlock sw BlockType.kBlockTypeSW
        (some (lpn % s.param.pagesInBlock)) tick sendToPAL = some (s2, t1) ∧
      s.logicalToPhysicalBlockMapping (lpn / s.param.pagesInBlock) = some old ∧
      s.freeBlocks = nd :: sw2 :: rest ∧ s2.freeBlocks = rest ∧
      nd ∉ rest ∧ sw2 ∉ rest ∧
      s2.logicalToPhysicalBlockMapping (lpn / s.param.pagesInBlock) = some nd ∧
      s2.physicalToLogicalBlockMapping nd = some (lpn / s.param.pagesInBlock) ∧
      ((s2.physicalBlocks old).isCleanBlock = true ∧
        (∀ j, (s2.physicalBlocks old).isValid j = false) ∧
        s2.physicalToLogicalBlockMapping old = none) ∧
      ((s2.physicalBlocks sw).isCleanBlock = true ∧
        (∀ j, (s2.physicalBlocks sw).isValid j = false) ∧
        s2.physicalToLogicalBlockMapping sw = none) ∧
      s2.SWBlock = some sw2 ∧ sw2 ≠ sw ∧ sw2 ≠ nd ∧ sw2 ≠ old ∧ nd ≠ old ∧ nd ≠ sw ∧
      (s2.physicalBlocks sw2).isCleanBlock = true ∧
      s2.physicalToLogicalBlockMapping sw2 = none ∧
      s2.RWBlocks = s.RWBlocks ∧
      (∀ a, a ≠ lpn / s.param.pagesInBlock →
        s2.logicalToPhysicalBlockMapping a = s.logicalToPhysicalBlockMapping a) ∧
      (s2.physicalBlocks b).isValid i = false := by
  obtain ⟨c, hi, hx, hi1, hn1, hX1, hpos, hv0, hl0, hbc, hilt, old, hold⟩ :=
    overwrite_setup h tick hf
  obtain ⟨f1, f2, f3, f4, f5, f6, f7, f8⟩ := writeInvalidate_fields s lpn tick b i k
  obtain ⟨v1, v2, v3, v4, v5⟩ := writeInvalidate_views s lpn tick b i k
  have hsw1 : (s.writeInvalidate lpn tick b i k).SWBlock = some sw := by rw [f5, hsw]
  have hpos1 : 0 < (s.writeInvalidate lpn tick b i k).param.pagesInBlock := by rw [f1]; exact hpos
  have hown1 : (s.writeInvalidate lpn tick b i k).physicalToLogicalBlockMapping sw =
      some (lpn / (s.writeInvalidate lpn tick b i k).param.pagesInBlock) := by
    rw [f3, f1, hown]
  have hold1 : (s.writeInvalidate lpn tick b i k).logicalToPhysicalBlockMapping
      (lpn / (s.writeInvalidate lpn tick b i k).param.pagesInBlock) = some old := by
    rw [f2, f1, hold]
  have he1 : (s.writeInvalidate lpn tick b i k).ebit sw
      (lpn % (s.writeInvalidate lpn tick b i k).param.pagesInBlock) = false := by
    rw [v2, f1]
    exact he
  have hswc : sw < c := hi.swLt sw hsw
  have holdc : old < c := hi.l2pLt _ _ hold
  have hvb1 : (s.writeInvalidate lpn tick b i k).vbit b i = false := by
    rw [v1]
    simp
  obtain ⟨n0, hn0⟩ := hi.free
  have hn2 : 2 ≤ n0 := by
    rw [hn0, List.length_range'] at hfree
    exact hfree
  have hfr : (s.writeInvalidate lpn tick b i k).freeBlocks = List.range' c (2 + (n0 - 2)) := by
    rw [f4, hn0]
    congr 1
    omega
  obtain ⟨s2, f, hw, ⟨t, hmerge⟩, hs2, hrw2, -, hm, -⟩ :=
    swConflict_case tick sendToPAL hi1 hn1 hX1 hsw1 hown1 hold1 hpos1 he1 hfr
  rw [f1] at hmerge hm
  have hmain : s.writeInternal lpn tick sendToPAL = some (s2, f + s.cpu.WRITE_INTERNAL) := by
    rw [writeInternal_owned tick sendToPAL hf hoff hsw hown, hw]
    rfl
  obtain ⟨x1, -, -, -⟩ := hm.extra hi1 hswc
  obtain ⟨n1, hfa, hfb⟩ := hm.hfree
  have hn1eq : n1 = n0 - 2 := by
    have := congrArg List.length hfa
    rw [f4, hn0, List.length_range', List.length_range'] at this
    omega
  have hfs : s.freeBlocks = c :: (c + 1) :: List.range' (c + 1 + 1) n1 := by
    rw [hn0, hn1eq]
    have : n0 = (n0 - 2) + 1 + 1 := by omega
    conv_lhs => rw [this]
    rfl
  refine ⟨s2, _, t, old, c, c + 1, List.range' (c + 1 + 1) n1, hmain, hmerge, hold, hfs, hfb,
    ?_, ?_, ?_, ?_, ?_, ?_, hs2, by omega, by omega, by omega, by omega, by omega, ?_, ?_, ?_,
    ?_, ?_⟩
  · rw [List.mem_range']
    rintro ⟨j, -, hj⟩
    omega
  · rw [List.mem_range']
    rintro ⟨j, -, hj⟩
    omega
  · rw [hm.hl2p, if_pos (List.mem_singleton.mpr rfl)]
  · exact hm.hp2lN _ (List.mem_singleton.mpr rfl)
  · exact hm.erased (List.mem_cons_self _ _)
  · exact hm.erased (List.mem_cons_of_mem _ (List.mem_singleton.mpr rfl))
  · apply clean_of_allErased
    · rw [(hm.hblk _).1, hm.hparam]
    · intro j hj
      rw [hm.hparam] at hj
      exact x1 j hj
  · exact hm.hp2lX
  · rw [hrw2, f6]
  · intro a ha
    rw [hm.hl2p, if_neg (by simpa using ha), f2]
  · exact hm.staysInvalid hi1 hswc hbc hvb1

/-- On the example device after the writes of LPN 0, 1, 0, 1 the SW block 0 is
owned by logical block 0 and holds LPN 1 in page 1: the next write of LPN 1
merges the SW block and the data block 7 into block 8; block 9 is the new SW
block. -/
theorem sw_conflict_write_witness :
    (exampleState [0, 1, 0, 1] rfl).Reachable ∧
      (exampleState [0, 1, 0, 1] rfl).findValidPage 1 =
        some (some (0, 1, BlockType.kBlockTypeSW)) ∧
      (exampleState [0, 1, 0, 1] rfl).SWBlock = some 0 ∧
      (exampleState [0, 1, 0, 1] rfl).physicalToLogicalBlockMapping 0 = some 0 ∧
      2 ≤ (exampleState [0, 1, 0, 1] rfl).freeBlocks.length ∧
      ∃ s2 t2 old nd sw2 rest,
        (exampleState [0, 1, 0, 1] rfl).writeInternal 1 0 false = some (s2, t2) ∧
        (exampleState [0, 1, 0, 1] rfl).logicalToPhysicalBlockMapping
          (1 / (exampleState [0, 1, 0, 1] rfl).param.pagesInBlock) = some old ∧
        (exampleState [0, 1, 0, 1] rfl).freeBlocks = nd :: sw2 :: rest ∧
        s2.logicalToPhysicalBlockMapping
          (1 / (exampleState [0, 1, 0, 1] rfl).param.pagesInBlock) = some nd ∧
        s2.SWBlock = some sw2 ∧ (s2.physicalBlocks old).isCleanBlock = true :=
  ⟨exampleState_reachable _ _, rfl, rfl, rfl, by decide,
    Exists.elim
      (sw_conflict_write (exampleState_reachable [0, 1, 0, 1] rfl) 1 0 false 0 1
        BlockType.kBlockTypeSW 0 rfl (by decide) rfl rfl rfl (by decide))
      (fun s2 h2 => Exists.elim h2 (fun t2 h3 => Exists.elim h3 (fun t1 h4 =>
        Exists.elim h4 (fun old h5 => Exists.elim h5 (fun nd h6 =>
        Exists.elim h6 (fun sw2 h7 => Exists.elim h7 (fun rest h8 =>
        ⟨s2, t2, old, nd, sw2, rest, h8.1, h8.2.2.1, h8.2.2.2.1, h8.2.2.2.2.2.2.2.1,
          h8.2.2.2.2.2.2.2.2.2.2.2.1, h8.2.2.2.2.2.2.2.2.2.1.1⟩)))))))⟩

end FastMapping

end SimpleSSD


namespace SimpleSSD

namespace FastMapping

/-- The invariant holds in the states in which `mergeLogBlock` is called. -/
theorem AtMerge.holds {s : FastMapping} (h : AtMerge s) : ∃ c, InvC s c := by
  cases h with
  | reachable _ hr =>
    obtain ⟨c, hi, -⟩ := Reachable.invX hr
    exact ⟨c, hi⟩
  | invalidated s0 lpn tick b i k hr hf =>
    obtain ⟨c, hi, -⟩ := Reachable.invX hr
    exact ⟨c, (hi.invalidate hf).1⟩

/-- When every stored LPN of `s` is stored in `S` and `S` stores no LPN that
`s` does not store, the lookups of `S` find what the lookups of `s` find. -/
theorem lookups_kept {s S : FastMapping} {c C : Nat} (hi : InvC s c) (hI : InvC S C)
    (hp : S.param = s.param)
    (hkeep : ∀ b i, s.vbit b i = true →
      ∃ b1 i1, S.vbit b1 i1 = true ∧ S.lpnAt b1 i1 = s.lpnAt b i)
    (hno : ∀ l, NoCopy s l → NoCopy S l) :
    (∀ lpn b i k, s.findValidPage lpn = some (some (b, i, k)) →
      ∃ b1 i1 k1, S.findValidPage lpn = some (some (b1, i1, k1)) ∧
        (S.physicalBlocks b1).isValid i1 = true ∧
        (S.physicalBlocks b1).getLPN i1 = some lpn) ∧
    (∀ lpn, s.findValidPage lpn = some none → S.findValidPage lpn = some none) := by
  constructor
  · intro lpn b i k hf
    obtain ⟨hv, hl, hlt, -⟩ := hi.found hf
    obtain ⟨b1, i1, hv1, hl1⟩ := hkeep b i hv
    rw [hl] at hl1
    obtain ⟨k1, hk1⟩ := hI.found_of_copy (by rw [hp]; exact hlt) hv1 hl1
    exact ⟨b1, i1, k1, hk1, hv1, by rw [getLPN_lpnAt S b1 i1 (hI.blk b1).2, hl1]⟩
  · intro lpn hf
    have hn := hno lpn (hi.noCopy_of_notFound hf)
    obtain ⟨hlt, -⟩ := findValidPage_some_none hf
    have he := hI.lookup_eq lpn (by rw [hp]; exact hlt)
    cases hs : S.findValidPageSpec lpn with
    | none => rw [he, hs]
    | some r =>
      obtain ⟨b1, i1, k1⟩ := r
      rw [hs] at he
      obtain ⟨hv, hl, -⟩ := hI.found he
      exact absurd hl (hn b1 i1 hv)

/-- A valid page of the data block of an LPN at its offset that stores the LPN
is what the lookup finds, with kind DATA. -/
theorem lookup_data {S : FastMapping} {C lpn p : Nat} (hI : InvC S C)
    (hlt : lpn / S.param.pagesInBlock < S.param.totalLogicalBlocks)
    (hp : S.logicalToPhysicalBlockMapping (lpn / S.param.pagesInBlock) = some p)
    (hv : S.vbit p (lpn % S.param.pagesInBlock) = true)
    (hl : S.lpnAt p (lpn % S.param.pagesInBlock) = lpn) :
    S.findValidPage lpn =
      some (some (p, lpn % S.param.pagesInBlock, BlockType.kBlockTypeData)) := by
  obtain ⟨k, hk⟩ := hI.found_of_copy hlt hv hl
  rw [hk, hI.found_data hk hp]

/-- A copying merge keeps the lookups. -/
theorem CopyMerge.mergeKeeps {s S : FastMapping} {c k G : Nat} {lbns : List Nat}
    {N : Nat → Nat} {er : List Nat} {T : Nat → Nat → Prop}
    (m : CopyMerge s S c k G lbns N er T) (hi : InvC s c) (hGc : G < c)
    (hG : (s.SWBlock = some G ∧ S.SWBlock = some (c + k) ∧ S.RWBlocks = s.RWBlocks) ∨
      (∃ rest, s.RWBlocks = G :: rest ∧ S.RWBlocks = rest ∧ S.SWBlock = s.SWBlock)) :
    MergeKeeps s S G := by
  obtain ⟨hI, hno⟩ := m.invC hi hG
  obtain ⟨k1, k2⟩ := lookups_kept hi hI m.hparam (fun b i hv => m.keeps hi hGc hv) hno
  refine ⟨k1, k2, ?_, ?_⟩
  · intro lpn b i kd hf hb
    obtain ⟨hv, hl, hlt, -⟩ := hi.found hf
    have hber : b ∈ er := by
      rcases hb with rfl | ⟨a, ha, hne⟩
      · exact m.hGer
      · have hmem : a ∈ lbns := by
          by_contra hcon
          rw [m.hl2p, if_neg hcon] at hne
          exact hne ha
        obtain ⟨old, ho, hoe⟩ := m.hD a hmem
        rw [ha] at ho
        injection ho with ho
        rw [ho]
        exact hoe
    obtain ⟨p, hp, -, hpv, hpl⟩ := (m.content hi hGc hv).2 hber
    rw [hl] at hp hpv hpl
    refine ⟨p, hp, ?_⟩
    have := @lookup_data S _ lpn p hI (by rw [m.hparam]; exact hlt)
      (by rw [m.hparam]; exact hp) (by rw [m.hparam]; exact hpv) (by rw [m.hparam]; exact hpl)
    rw [m.hparam] at this
    exact this
  · intro l b j hS
    exact (m.hrwmap1 l b j hS).2

/-- The switching merge keeps the lookups. -/
theorem switch_mergeKeeps {s S : FastMapping} {c sw o old tick : Nat} {sendToPAL : Bool}
    (hi : InvC s c) (hsw : s.SWBlock = some sw)
    (ho : s.physicalToLogicalBlockMapping sw = some o)
    (hold : s.logicalToPhysicalBlockMapping o = some old)
    (hcnt : (s.physicalBlocks sw).getValidPageCount = s.param.pagesInBlock)
    (hS : S = (({ s with
        logicalToPhysicalBlockMapping :=
          upd s.logicalToPhysicalBlockMapping o (some sw) } : FastMapping).eraseInternal
        old tick sendToPAL).1) :
    MergeKeeps s S sw := by
  obtain ⟨hI, ⟨p1, p2, p3, p4, p5, p6, p7, p8⟩, hne, hvo, hsv, hV, hL, -, -⟩ :=
    hi.switchFacts hsw ho hold hcnt hS
  have hSo : S.logicalToPhysicalBlockMapping o = some sw := by
    rw [p6, upd_apply, if_pos rfl]
  have hst := fun lpn => findValidPage_staleSW hI p2 hSo lpn
  have hV0 : ({ S with SWBlock := none } : FastMapping).vbit = s.vbit := hV
  have hL0 : ({ S with SWBlock := none } : FastMapping).lpnAt = s.lpnAt := hL
  obtain ⟨k1, k2⟩ := lookups_kept hi hI p1
    (fun b i hv => ⟨b, i, by rw [hV0]; exact hv, by rw [hL0]⟩)
    (fun l hn b i hv => by
      rw [hV0] at hv
      rw [hL0]
      exact hn b i hv)
  refine ⟨?_, ?_, ?_, ?_⟩
  · intro lpn b i k hf
    obtain ⟨b1, i1, kk, h1, h2, h3⟩ := k1 lpn b i k hf
    exact ⟨b1, i1, kk, (hst lpn).trans h1, h2, h3⟩
  · intro lpn hf
    exact (hst lpn).trans (k2 lpn hf)
  · intro lpn b i kd hf hb
    obtain ⟨hv, hl, hlt, -⟩ := hi.found hf
    have hbsw : b = sw := by
      rcases hb with rfl | ⟨a, ha, hne1⟩
      · rfl
      · have hao : a = o := by
          by_contra hcon
          rw [p6, upd_apply, if_neg hcon] at hne1
          exact hne1 ha
        rw [hao, hold] at ha
        injection ha with ha
        rw [← ha, hvo i] at hv
        exact absurd hv (by simp)
    subst hbsw
    have hilt := (hi.bits _ _ hv).1
    obtain ⟨-, hli⟩ := hsv i hilt
    have hpos : 0 < s.param.pagesInBlock := by omega
    have hlpn : lpn = o * s.param.pagesInBlock + i := hl.symm.trans hli
    have hdiv : lpn / s.param.pagesInBlock = o := by
      rw [hlpn, Nat.add_comm, Nat.add_mul_div_right _ _ hpos, Nat.div_eq_of_lt hilt,
        Nat.zero_add]
    have hmod : lpn % s.param.pagesInBlock = i := by
      rw [hlpn, Nat.add_comm, Nat.add_mul_mod_self_right, Nat.mod_eq_of_lt hilt]
    refine ⟨b, by rw [hdiv]; exact hSo, ?_⟩
    rw [hst lpn]
    have := @lookup_data ({ S with SWBlock := none } : FastMapping) _ lpn b hI
      (by
        show lpn / S.param.pagesInBlock < S.param.totalLogicalBlocks
        rw [p1]
        exact hlt)
      (by
        show S.logicalToPhysicalBlockMapping (lpn / S.param.pagesInBlock) = some b
        rw [p1, hdiv]
        exact hSo)
      (by
        show S.vbit b (lpn % S.param.pagesInBlock) = true
        rw [p1, hmod, hV]
        exact hv)
      (by
        show S.lpnAt b (lpn % S.param.pagesInBlock) = lpn
        rw [p1, hmod, hL]
        exact hl)
    rw [this]
    show some (some (b, lpn % S.param.pagesInBlock, BlockType.kBlockTypeData)) = _
    rw [p1]
  · intro l b j hSl
    rw [p5] at hSl
    obtain ⟨hmem, -, -⟩ := hi.rwmap l b j hSl
    rintro rfl
    exact hi.swRW _ hsw hmem

end FastMapping

end SimpleSSD


namespace SimpleSSD

namespace FastMapping

/-- C19. Merge preserves content. Let `s` be a state in which `writeInternal`
calls `mergeLogBlock`: a reachable state, possibly after the invalidation of
the copy found for the LPN being written. (1) For the SW block `sw`, not clean,
with two free blocks when not all its pages are valid, `mergeLogBlock` of kind
SW returns a state `S`. (2) For the head `victim` of `RWBlocks`, popped, with
`rwMergeDemand` free blocks (at most `pagesInBlock + 1`), `mergeLogBlock` of
kind RW returns a state `S` in which the victim is clean. In both cases
`MergeKeeps` holds: every LPN found before is found in `S` at a valid page
storing it; every LPN NOT-FOUND before is NOT-FOUND in `S`; every LPN whose
copy was in the merged log block or in a data block that `L2P` no longer names
is found with kind DATA in `L2P[lbn]` at page `lpn mod pagesInBlock`; no entry
of `RWlogMapping` names the merged log block. -/
theorem merge_preserves_content {s : FastMapping} (h : AtMerge s) (tick : Nat)
    (sendToPAL : Bool) :
    (∀ sw ap, s.SWBlock = some sw → (s.physicalBlocks sw).isCleanBlock = false →
      ((s.physicalBlocks sw).getValidPageCount ≠ s.param.pagesInBlock →
        2 ≤ s.freeBlocks.length) →
      ∃ S t, s.mergeLogBlock sw BlockType.kBlockTypeSW ap tick sendToPAL = some (S, t) ∧
        MergeKeeps s S sw) ∧
    (∀ victim rest, s.RWBlocks = victim :: rest →
      ({ s with RWBlocks := rest } : FastMapping).rwMergeDemand victim ≤ s.freeBlocks.length →
      ∃ S t, ({ s with RWBlocks := rest } : FastMapping).mergeLogBlock victim
          BlockType.kBlockTypeRW none tick sendToPAL = some (S, t) ∧
        MergeKeeps s S victim ∧ (S.physicalBlocks victim).isCleanBlock = true) := by
  obtain ⟨c, hi⟩ := h.holds
  obtain ⟨n0, hn0⟩ := hi.free
  constructor
  · intro sw ap hsw hcl hfree
    obtain ⟨o, old, ho, hold⟩ := hi.swOwner hsw hcl
    by_cases hcnt : (s.physicalBlocks sw).getValidPageCount = s.param.pagesInBlock
    · obtain ⟨-, hm⟩ := mergeSW_switch s sw o old ap tick sendToPAL ho hold hcnt
      exact ⟨_, _, hm, switch_mergeKeeps hi hsw ho hold hcnt rfl⟩
    · have h2 := hfree hcnt
      rw [hn0, List.length_range'] at h2
      have hfr : s.freeBlocks = List.range' c (2 + (n0 - 2)) := by
        rw [hn0]
        congr 1
        omega
      obtain ⟨S, t, hm, hS1, hS2, -, hcm⟩ :=
        mergeSW_full hi hsw ho hold hcnt hfr ap tick sendToPAL
      exact ⟨S, t, hm, hcm.mergeKeeps hi (hi.swLt sw hsw) (Or.inl ⟨hsw, hS1, hS2⟩)⟩
  · intro victim rest hRW hdem
    rw [hn0, List.length_range'] at hdem
    obtain ⟨S, t, lbns, N, er, T, hm, hS1, hS2, -, -, hcm⟩ :=
      @mergeRW_full s ({ s with RWBlocks := rest } : FastMapping) c victim n0 rest hi hRW
        rfl rfl rfl rfl rfl rfl rfl rfl hn0 hdem tick sendToPAL
    have hvc : victim < c := hi.rwLt victim (by rw [hRW]; exact List.mem_cons_self _ _)
    exact ⟨S, t, hm, hcm.mergeKeeps hi hvc (Or.inr ⟨rest, hRW, hS1, hS2⟩),
      (hcm.erased hcm.hGer).1⟩

/-- On the example device: after the writes 0, 1, 0 the SW block 0 holds LPN 0
and is merged with data block 7; after the writes 1, 2, 3, 1, 2, 3 and 21 more
writes of LPN 1 all RW blocks are full and block 1, the head of `RWBlocks`,
holds the valid copies of LPN 2 and 3. -/
theorem merge_preserves_content_witness :
    (AtMerge (exampleState [0, 1, 0] rfl) ∧
      (exampleState [0, 1, 0] rfl).SWBlock = some 0 ∧
      ((exampleState [0, 1, 0] rfl).physicalBlocks 0).isCleanBlock = false ∧
      2 ≤ (exampleState [0, 1, 0] rfl).freeBlocks.length ∧
      ∃ S t, (exampleState [0, 1, 0] rfl).mergeLogBlock 0 BlockType.kBlockTypeSW none 0 false =
          some (S, t) ∧
        MergeKeeps (exampleState [0, 1, 0] rfl) S 0) ∧
    (AtMerge (exampleState ([1, 2, 3, 1, 2, 3] ++ List.replicate 21 1) (by decide)) ∧
      (exampleState ([1, 2, 3, 1, 2, 3] ++ List.replicate 21 1) (by decide)).RWBlocks =
        1 :: [2, 3, 4, 5, 6] ∧
      (exampleState ([1, 2, 3, 1, 2, 3] ++ List.replicate 21 1) (by decide)).findValidPage 2 =
        some (some (1, 1, BlockType.kBlockTypeRW)) ∧
      ∃ S t, ({ exampleState ([1, 2, 3, 1, 2, 3] ++ List.replicate 21 1) (by decide) with
            RWBlocks := [2, 3, 4, 5, 6] } : FastMapping).mergeLogBlock 1
            BlockType.kBlockTypeRW none 0 false = some (S, t) ∧
        MergeKeeps (exampleState ([1, 2, 3, 1, 2, 3] ++ List.replicate 21 1) (by decide)) S 1 ∧
        (S.physicalBlocks 1).isCleanBlock = true) :=
  ⟨⟨AtMerge.reachable _ (exampleState_reachable _ _), rfl, rfl, by decide,
      (merge_preserves_content (AtMerge.reachable _ (exampleState_reachable [0, 1, 0] rfl))
        0 false).1 0 none rfl rfl (fun _ => by decide)⟩,
    ⟨AtMerge.reachable _ (exampleState_reachable _ _), rfl, rfl,
      (merge_preserves_content
        (AtMerge.reachable _
          (exampleState_reachable ([1, 2, 3, 1, 2, 3] ++ List.replicate 21 1) (by decide)))
        0 false).2 1 [2, 3, 4, 5, 6] rfl (by decide)⟩⟩

end FastMapping

end SimpleSSD


namespace SimpleSSD

namespace FastMapping

/-- Setting a mapped entry does not change which entries are mapped. -/
theorem upd_isSome {f : Nat → Option Nat} {o old v : Nat} (h : f o = some old) (a : Nat) :
    (upd f o (some v) a).isSome = (f a).isSome := by
  rw [upd_apply]
  split
  · rename_i hao
    rw [hao, h]
    rfl
  · rfl

/-- A copying merge does not change which logical blocks are mapped. -/
theorem CopyMerge.domain {s S : FastMapping} {c k G : Nat} {lbns : List Nat} {N : Nat → Nat}
    {er : List Nat} {T : Nat → Nat → Prop} (m : CopyMerge s S c k G lbns N er T) (a : Nat) :
    (S.logicalToPhysicalBlockMapping a).isSome = (s.logicalToPhysicalBlockMapping a).isSome := by
  rw [m.hl2p]
  split
  · rename_i ha
    obtain ⟨old, ho, -⟩ := m.hD a ha
    rw [ho]
    rfl
  · rfl

theorem domain_swFirst {s s1 : FastMapping} {c lpn sw tick f : Nat} {sendToPAL : Bool}
    (hi : InvC s c) (hsw : s.SWBlock = some sw)
    (hX : DataBacked s (fun l => l = lpn)) (hpos : 0 < s.param.pagesInBlock)
    (h : s.writeSWFirst lpn tick sendToPAL = some (s1, f)) :
    s1.param = s.param ∧
      ∀ a, (s1.logicalToPhysicalBlockMapping a).isSome =
        (s.logicalToPhysicalBlockMapping a).isSome := by
  obtain ⟨n, hfree⟩ := hi.free
  cases hcl : (s.physicalBlocks sw).isCleanBlock with
  | true =>
    obtain ⟨s2, f2, e, -, ⟨m1, m2, -, -, -, -, -⟩, -, -⟩ :=
      swFirst_clean tick sendToPAL hi hX hpos hsw hcl
    rw [h] at e
    injection e with e
    injection e with e1 e2
    subst e1
    exact ⟨m1, fun a => by rw [m2]⟩
  | false =>
    obtain ⟨S, t, hm, hne⟩ := swFirst_returned hsw hcl h
    obtain ⟨o, old, ho, hold⟩ := hi.swOwner hsw hcl
    by_cases hcnt : (s.physicalBlocks sw).getValidPageCount = s.param.pagesInBlock
    · obtain ⟨-, hm1⟩ := mergeSW_switch s sw o old none tick sendToPAL ho hold hcnt
      rw [hm] at hm1
      injection hm1 with hm1
      injection hm1 with hS ht
      obtain ⟨⟨-, -, a3, -⟩, -⟩ := eraseInternal_spec
        ({ s with
          logicalToPhysicalBlockMapping :=
            upd s.logicalToPhysicalBlockMapping o (some sw) } : FastMapping) old tick sendToPAL
      rw [← hS] at a3
      have hn0 : n ≠ 0 := by
        intro h0
        apply hne
        rw [a3]
        show s.freeBlocks = []
        rw [hfree, h0]
        rfl
      obtain ⟨s2, f2, S2, t2, e, -, -, -, ⟨m1, m2, -, -, -, -, -⟩, -⟩ :=
        swFirst_switch (n := n - 1) tick sendToPAL hi hX hsw hcl ho hold hcnt
          (by rw [hfree]; congr 1; omega)
      rw [h] at e
      injection e with e
      injection e with e1 e2
      subst e1
      exact ⟨m1, fun a => by rw [m2]; exact upd_isSome hold a⟩
    · have h2 := mergeSW_free ho hold hcnt hm
      rw [hfree, List.length_range'] at h2
      obtain ⟨S1, t1, hm1, -, -, -, hcm⟩ := mergeSW_full (n := n - 2) hi hsw ho hold hcnt
        (by rw [hfree]; congr 1; omega) none tick sendToPAL
      rw [hm] at hm1
      injection hm1 with hm1
      injection hm1 with hS ht
      subst hS
      obtain ⟨n1, hf0, hf1⟩ := hcm.hfree
      have hn1 : n1 = n - 2 := by
        have := congrArg List.length hf0
        rw [hfree] at this
        simp only [List.length_range'] at this
        omega
      have hn3 : 3 ≤ n := by
        by_contra hlt
        apply hne
        rw [hf1, hn1, show n - 2 = 0 by omega]
        rfl
      obtain ⟨s2, f2, S2, t2, e, -, -, -, -, hcm2, -, ⟨m1, m2, -, -, -, -, -⟩, -⟩ :=
        swFirst_full (n := n - 3) tick sendToPAL hi hX hsw hcl ho hold hcnt
          (by rw [hfree]; congr 1; omega)
      rw [h] at e
      injection e with e
      injection e with e1 e2
      subst e1
      exact ⟨m1, fun a => by rw [m2]; exact hcm2.domain a⟩

theorem domain_swAppend {s s1 : FastMapping} {c lpn sw old tick f : Nat} {sendToPAL : Bool}
    (hi : InvC s c) (hn : NoCopy s lpn) (hsw : s.SWBlock = some sw)
    (hown : s.physicalToLogicalBlockMapping sw = some (lpn / s.param.pagesInBlock))
    (hold : s.logicalToPhysicalBlockMapping (lpn / s.param.pagesInBlock) = some old)
    (hX : DataBacked s (fun l => l = lpn)) (hpos : 0 < s.param.pagesInBlock)
    (h : s.writeSWAppend sw lpn tick sendToPAL = some (s1, f)) :
    s1.param = s.param ∧
      ∀ a, (s1.logicalToPhysicalBlockMapping a).isSome =
        (s.logicalToPhysicalBlockMapping a).isSome := by
  obtain ⟨n, hfree⟩ := hi.free
  cases he : s.ebit sw (lpn % s.param.pagesInBlock) with
  | true =>
    obtain ⟨s2, f2, e, -, ⟨m1, m2, -, -, -, -, -⟩, -, -⟩ :=
      swAppend_case tick sendToPAL hi hX he
    rw [h] at e
    injection e with e
    injection e with e1 e2
    subst e1
    exact ⟨m1, fun a => by rw [m2]⟩
  | false =>
    obtain ⟨t, hm⟩ := swAppend_returned he h
    have hcnt := swConflict_count hi hn hsw hown hpos he
    have h2 := mergeSW_free hown hold hcnt hm
    rw [hfree, List.length_range'] at h2
    obtain ⟨s2, f2, e, -, -, -, -, hcm2, -⟩ :=
      swConflict_case (n := n - 2) tick sendToPAL hi hn hX hsw hown hold hpos he
        (by rw [hfree]; congr 1; omega)
    rw [h] at e
    injection e with e
    injection e with e1 e2
    subst e1
    exact ⟨hcm2.hparam, hcm2.domain⟩

theorem domain_rw {s s1 : FastMapping} {c lpn tick f : Nat} {sendToPAL : Bool}
    (hi : InvC s c)
    (hX : DataBacked s (fun l => l = lpn)) (hpos : 0 < s.param.pagesInBlock)
    (h : s.writeRW lpn tick sendToPAL = some (s1, f)) :
    s1.param = s.param ∧
      ∀ a, (s1.logicalToPhysicalBlockMapping a).isSome =
        (s.logicalToPhysicalBlockMapping a).isSome := by
  obtain ⟨n, hfree⟩ := hi.free
  cases hfind : s.RWBlocks.find? (fun rwBlockNum =>
      (s.physicalBlocks rwBlockNum).getErasedPageCount != 0) with
  | some tgt =>
    obtain ⟨s2, f2, e, -, -, -, ⟨m1, m2, -, -, -, -, -⟩, -, -⟩ :=
      rwRoute_case tick sendToPAL hi hX hfind
    rw [h] at e
    injection e with e
    injection e with e1 e2
    subst e1
    exact ⟨m1, fun a => by rw [m2]⟩
  | none =>
    obtain ⟨victim, rest, S, t, hRW, hm, hne⟩ := rw_returned hfind h
    have hd := @mergeRW_free s { s with RWBlocks := rest } c victim tick sendToPAL _ hi rfl hm
    rw [hfree, List.length_range'] at hd
    obtain ⟨S1, t1, lbns, N, er, T, hm1, -, -, b3, -, hcm⟩ :=
      @mergeRW_full s { s with RWBlocks := rest } c victim n rest hi hRW rfl rfl rfl rfl rfl rfl
        rfl rfl hfree hd tick sendToPAL
    rw [hm] at hm1
    injection hm1 with hm1
    injection hm1 with hS ht
    subst hS
    obtain ⟨n1, hf0, hf1⟩ := hcm.hfree
    have hn1 : lbns.length + 1 + n1 = n := by
      have := congrArg List.length hf0
      rw [hfree] at this
      simp only [List.length_range'] at this
      omega
    have hn2 : n1 ≠ 0 := by
      intro h0
      apply hne
      rw [hf1, h0]
      rfl
    have hdem : ({ s with RWBlocks := rest } : FastMapping).rwMergeDemand victim =
        s.rwMergeDemand victim := rfl
    rw [hdem] at b3
    obtain ⟨s2, f2, S2, t2, lbns2, N2, er2, T2, e, -, -, -, -, -, hcm2, -,
        ⟨m1, m2, -, -, -, -, -⟩, -⟩ :=
      rwRecycle_case tick sendToPAL hi hX hpos hfind hRW hfree (by omega)
    rw [h] at e
    injection e with e
    injection e with e1 e2
    subst e1
    exact ⟨m1, fun a => by rw [m2]; exact hcm2.domain a⟩

end FastMapping

end SimpleSSD

namespace SimpleSSD

namespace FastMapping

theorem domain_overwrite {s s1 : FastMapping} {c lpn tick f b i : Nat} {k : BlockType}
    {sendToPAL : Bool} (hi : InvC s c) (hx : InvX s)
    (hf : s.findValidPage lpn = some (some (b, i, k)))
    (h : s.writeOverwrite lpn tick sendToPAL b i k = some (s1, f)) :
    s1.param = s.param ∧
      ∀ a, (s1.logicalToPhysicalBlockMapping a).isSome =
        (s.logicalToPhysicalBlockMapping a).isSome := by
  obtain ⟨hi1, hn1⟩ := hi.invalidate (t := tick) hf
  have hX1 := DataBacked.of_invalidate (t := tick) hi hx.backed hf
  obtain ⟨f1, f2, f3, f4, f5, f6, -⟩ := writeInvalidate_fields s lpn tick b i k
  obtain ⟨hv0, -⟩ := hi.found hf
  obtain ⟨-, old, hold⟩ := findValidPage_found_mapped hf
  have hpos : 0 < s.param.pagesInBlock := by
    have := (hi.bits b i hv0).1
    omega
  unfold FastMapping.writeOverwrite at h
  simp only [convertPageToOffsetInBlock, convertPageToBlock] at h
  generalize s.writeInvalidate lpn tick b i k = s' at h hi1 hn1 hX1 f1 f2 f3 f4 f5 f6
  have hpos' : 0 < s'.param.pagesInBlock := by rw [f1]; exact hpos
  rw [← f1, ← f2]
  cases hsw : s'.SWBlock with
  | none =>
    have := hx.swSome
    rw [← f5, hsw] at this
    exact absurd this (by simp)
  | some sw =>
    split at h
    · exact domain_swFirst hi1 hsw hX1 hpos' h
    · simp only [hsw] at h
      split at h
      · rename_i hown
        have hold1 : s'.logicalToPhysicalBlockMapping (lpn / s'.param.pagesInBlock) =
            some old := by
          rw [f1, f2]
          exact hold
        exact domain_swAppend hi1 hn1 hsw hown hold1 hX1 hpos' h
      · exact domain_rw hi1 hX1 hpos' h

/-- A `writeInternal` call that returns is for a logical block of the device,
and maps no other logical block. -/
theorem domain_write {s s1 : FastMapping} {c lpn tick tick1 : Nat} {sendToPAL : Bool}
    (hi : InvC s c) (hx : InvX s)
    (h : s.writeInternal lpn tick sendToPAL = some (s1, tick1)) :
    lpn / s.param.pagesInBlock < s.param.totalLogicalBlocks ∧ s1.param = s.param ∧
      ∀ a, (s1.logicalToPhysicalBlockMapping a).isSome = true →
        (s.logicalToPhysicalBlockMapping a).isSome = true ∨ a = lpn / s.param.pagesInBlock := by
  unfold FastMapping.writeInternal at h
  simp only [convertPageToBlock] at h
  split at h
  · rename_i hlt
    split at h
    · exact absurd h (by simp)
    · rename_i sA hA
      obtain ⟨⟨cA, hiA⟩, hmapA, -, hpA⟩ := hi.ensureMapping hA
      have hxA := InvX.ofEnsure hi hx hA
      have hdA : ∀ a, (sA.logicalToPhysicalBlockMapping a).isSome = true →
          (s.logicalToPhysicalBlockMapping a).isSome = true ∨
            a = lpn / s.param.pagesInBlock := by
        rcases writeEnsureMapping_eq hA with ⟨-, rfl⟩ | ⟨-, pbn, s0, hf, rfl⟩
        · intro a ha
          exact Or.inl ha
        · intro a ha
          obtain ⟨-, n, hs0⟩ := hi.getFreeBlock hf
          subst hs0
          simp only [upd_apply] at ha
          split at ha
          · rename_i hao
            exact Or.inr hao
          · exact Or.inl ha
      split at h
      · exact absurd h (by simp)
      · rename_i s2 f2 hwr
        injection h with h
        injection h with h hsnd
        subst h
        split at hwr
        · exact absurd hwr (by simp)
        · rename_i hf
          rw [← hpA] at hmapA
          cases hp : sA.logicalToPhysicalBlockMapping (lpn / sA.param.pagesInBlock) with
          | none => rw [hp] at hmapA; exact absurd hmapA (by simp)
          | some p =>
            have hpos : 0 < sA.param.pagesInBlock := by
              unfold writeFresh at hwr
              simp only [convertPageToBlock, convertPageToOffsetInBlock, hp] at hwr
              cases hw : sA.writeBlock p (lpn % sA.param.pagesInBlock) lpn tick with
              | none => simp [hw] at hwr
              | some s4 =>
                have := hiA.erasedLt p _ (writeBlock_views hw).1
                omega
            obtain ⟨s3, f3, e, -, ⟨m1, m2, -, -, -, -, -⟩, -, -⟩ :=
              fresh_case tick sendToPAL hiA hxA.backed hpos hf hp
            rw [hwr] at e
            injection e with e
            injection e with e1 e2
            subst e1
            refine ⟨hlt, m1.trans hpA, ?_⟩
            intro a ha
            rw [m2] at ha
            exact hdA a ha
        · rename_i b i k hf
          obtain ⟨d1, d2⟩ := domain_overwrite hiA hxA hf hwr
          refine ⟨hlt, d1.trans hpA, ?_⟩
          intro a ha
          rw [d2] at ha
          exact hdA a ha
  · exact absurd h (by simp)

/-- In a reachable state only logical blocks of the device are mapped. -/
theorem Reachable.l2pRange {s : FastMapping} (h : Reachable s) (a : Nat)
    (ha : (s.logicalToPhysicalBlockMapping a).isSome = true) :
    a < s.param.totalLogicalBlocks := by
  induction h generalizing a with
  | init p l c s h =>
    obtain ⟨-, h2, -⟩ := new_eq h
    rw [h2] at ha
    exact absurd ha (by simp)
  | write s lpn tick sendToPAL s1 tick1 hr hw ih =>
    obtain ⟨c, hi, hx⟩ := Reachable.invX hr
    obtain ⟨d1, d2, d3⟩ := domain_write hi hx hw
    rw [d2]
    rcases d3 a ha with h1 | h1
    · exact ih a h1
    · rw [h1]
      exact d1
  | read s lpn tick s1 tick1 hr hrd ih =>
    obtain ⟨c, hi, hx⟩ := Reachable.invX hr
    have hsame : s1.param = s.param ∧
        s1.logicalToPhysicalBlockMapping = s.logicalToPhysicalBlockMapping := by
      unfold FastMapping.readInternal at hrd
      split at hrd
      · exact absurd hrd (by simp)
      · injection hrd with hrd
        injection hrd with hrd hsnd
        subst hrd
        exact ⟨rfl, rfl⟩
      · rename_i pbn pageIdx k hf
        split at hrd
        · exact absurd hrd (by simp)
        · rename_i r b hb
          injection hrd with hrd
          injection hrd with hrd hsnd
          have h1 := readBlock_sameCore s pbn pageIdx 0 tick r b hb
          have h2 := palRead_sameCore
            { s with physicalBlocks := upd s.physicalBlocks pbn b }
            { blockIndex := pbn, pageIndex := pageIdx } tick true
          rw [hrd] at h2
          have h3 := h1.trans_ h2
          exact ⟨h3.param, h3.l2p⟩
    rw [hsame.1]
    rw [hsame.2] at ha
    exact ih a ha

end FastMapping

end SimpleSSD


namespace SimpleSSD

namespace FastMapping

/-- In the states in which `mergeLogBlock` is called only logical blocks of
the device are mapped. -/
theorem AtMerge.mappedLt {s : FastMapping} (h : AtMerge s) (a : Nat)
    (ha : (s.logicalToPhysicalBlockMapping a).isSome = true) :
    a < s.param.totalLogicalBlocks := by
  cases h with
  | reachable _ hr => exact hr.l2pRange a ha
  | invalidated s0 lpn tick b i k hr hf =>
    obtain ⟨f1, f2, -⟩ := writeInvalidate_fields s0 lpn tick b i k
    rw [f1]
    rw [f2] at ha
    exact hr.l2pRange a ha

/-- The lookup in the words of the spec when the SW block does not hold the
LPN: the data block page if valid, else the recorded RW location. -/
theorem findValidPageSpec_noSW {s : FastMapping} {lpn : Nat}
    (h : ∀ sw, s.SWBlock = some sw →
      ¬(s.vbit sw (lpn % s.param.pagesInBlock) = true ∧
        s.lpnAt sw (lpn % s.param.pagesInBlock) = lpn)) :
    s.findValidPageSpec lpn =
      (s.logicalToPhysicalBlockMapping (lpn / s.param.pagesInBlock)).bind (fun pbn =>
        if s.vbit pbn (lpn % s.param.pagesInBlock) = true then
          some (pbn, lpn % s.param.pagesInBlock, BlockType.kBlockTypeData)
        else (s.RWlogMapping lpn).map (fun r => (r.1, r.2, BlockType.kBlockTypeRW))) := by
  unfold findValidPageSpec
  dsimp only
  cases hp : s.logicalToPhysicalBlockMapping (lpn / s.param.pagesInBlock) with
  | none => rfl
  | some pbn =>
    have hrec : (match s.RWlogMapping lpn with
        | some (rwPbn, pageIdx) => some (rwPbn, pageIdx, BlockType.kBlockTypeRW)
        | none => none) =
        (s.RWlogMapping lpn).map (fun r => (r.1, r.2, BlockType.kBlockTypeRW)) := by
      cases s.RWlogMapping lpn with
      | none => rfl
      | some r => rfl
    simp only [Option.some_bind]
    by_cases hv : s.vbit pbn (lpn % s.param.pagesInBlock) = true
    · have hv1 : (s.physicalBlocks pbn).isValid (lpn % s.param.pagesInBlock) = true := hv
      rw [if_pos hv, if_pos hv1]
    · have hv1 : ¬ (s.physicalBlocks pbn).isValid (lpn % s.param.pagesInBlock) = true := hv
      rw [if_neg hv, if_neg hv1]
      cases hsw : s.SWBlock with
      | none => exact hrec
      | some sw =>
        have hn : ¬((s.physicalBlocks sw).isValid (lpn % s.param.pagesInBlock) = true ∧
            ((s.physicalBlocks sw).getPageInfo (lpn % s.param.pagesInBlock)).1 = lpn) :=
          h sw hsw
        dsimp only
        rw [if_neg hn]
        exact hrec

/-- Two states give the same lookup in the words of the spec for an LPN that
neither SW block holds, when they agree on the data block of the LPN, on the
valid bit of its page there and on the recorded RW location. -/
theorem findValidPageSpec_congr {s S : FastMapping} (lpn : Nat)
    (hp : S.param = s.param)
    (h1 : S.logicalToPhysicalBlockMapping (lpn / s.param.pagesInBlock) =
      s.logicalToPhysicalBlockMapping (lpn / s.param.pagesInBlock))
    (h2 : ∀ p, s.logicalToPhysicalBlockMapping (lpn / s.param.pagesInBlock) = some p →
      S.vbit p (lpn % s.param.pagesInBlock) = s.vbit p (lpn % s.param.pagesInBlock))
    (h3 : S.RWlogMapping lpn = s.RWlogMapping lpn)
    (h4 : ∀ sw, s.SWBlock = some sw →
      ¬(s.vbit sw (lpn % s.param.pagesInBlock) = true ∧
        s.lpnAt sw (lpn % s.param.pagesInBlock) = lpn))
    (h5 : ∀ sw, S.SWBlock = some sw →
      ¬(S.vbit sw (lpn % s.param.pagesInBlock) = true ∧
        S.lpnAt sw (lpn % s.param.pagesInBlock) = lpn)) :
    S.findValidPageSpec lpn = s.findValidPageSpec lpn := by
  rw [findValidPageSpec_noSW h4, findValidPageSpec_noSW (by rw [hp]; exact h5), hp, h1, h3]
  cases hq : s.logicalToPhysicalBlockMapping (lpn / s.param.pagesInBlock) with
  | none => rfl
  | some p =>
    simp only [Option.some_bind]
    rw [h2 p hq]

/-- The lookup fails outside the logical blocks of the device. -/
theorem findValidPage_outside {s : FastMapping} {lpn : Nat}
    (h : ¬ lpn / s.param.pagesInBlock < s.param.totalLogicalBlocks) :
    s.findValidPage lpn = none := by
  rw [findValidPage_cases, if_neg h]

end FastMapping

end SimpleSSD


namespace SimpleSSD

namespace FastMapping

/-- The LPN `o * n + i` with `i < n` belongs to block `o` at offset `i`. -/
theorem div_mod_of_mul_add {n o i : Nat} (hi : i < n) :
    (o * n + i) / n = o ∧ (o * n + i) % n = i := by
  have hpos : 0 < n := by omega
  constructor
  · rw [Nat.add_comm, Nat.add_mul_div_right _ _ hpos, Nat.div_eq_of_lt hi, Nat.zero_add]
  · rw [Nat.add_comm, Nat.add_mul_mod_self_right, Nat.mod_eq_of_lt hi]

/-- After the switching merge the lookups of the LPNs of other logical blocks
are the lookups before. -/
theorem switch_lookup_other {s S : FastMapping} {c sw o old tick : Nat} {sendToPAL : Bool}
    (hi : InvC s c) (hsw : s.SWBlock = some sw)
    (ho : s.physicalToLogicalBlockMapping sw = some o)
    (hold : s.logicalToPhysicalBlockMapping o = some old)
    (hcnt : (s.physicalBlocks sw).getValidPageCount = s.param.pagesInBlock)
    (hS : S = (({ s with
        logicalToPhysicalBlockMapping :=
          upd s.logicalToPhysicalBlockMapping o (some sw) } : FastMapping).eraseInternal
        old tick sendToPAL).1)
    (lpn : Nat) (hne : lpn / s.param.pagesInBlock ≠ o) :
    S.findValidPage lpn = s.findValidPage lpn := by
  obtain ⟨hI, ⟨p1, p2, p3, p4, p5, p6, p7, p8⟩, hnsw, hvo, hsv, hV, hL, -, -⟩ :=
    hi.switchFacts hsw ho hold hcnt hS
  have hSo : S.logicalToPhysicalBlockMapping o = some sw := by
    rw [p6, upd_apply, if_pos rfl]
  rw [findValidPage_staleSW hI p2 hSo lpn]
  by_cases hl : lpn / s.param.pagesInBlock < s.param.totalLogicalBlocks
  · have hl1 : lpn / ({ S with SWBlock := none } : FastMapping).param.pagesInBlock <
        ({ S with SWBlock := none } : FastMapping).param.totalLogicalBlocks := by
      show lpn / S.param.pagesInBlock < S.param.totalLogicalBlocks
      rw [p1]
      exact hl
    rw [hI.lookup_eq lpn hl1, hi.lookup_eq lpn hl]
    congr 1
    refine findValidPageSpec_congr (S := ({ S with SWBlock := none } : FastMapping)) lpn p1
      ?_ ?_ ?_ ?_ ?_
    · show S.logicalToPhysicalBlockMapping _ = _
      rw [p6, upd_apply, if_neg hne]
    · intro p _
      show S.vbit p _ = _
      rw [hV]
    · exact congrFun p5 lpn
    · intro sw1 hsw1 ⟨hv, hlp⟩
      rw [hsw] at hsw1
      injection hsw1 with hsw1
      subst hsw1
      have hlt := (hi.bits _ _ hv).1
      rw [(hsv _ hlt).2] at hlp
      have := (div_mod_of_mul_add (o := o) hlt).1
      rw [hlp] at this
      exact hne this
    · intro sw1 hsw1
      exact absurd hsw1 (by simp)
  · rw [findValidPage_outside hl, findValidPage_outside (by
      show ¬ lpn / S.param.pagesInBlock < S.param.totalLogicalBlocks
      rw [p1]
      exact hl)]

/-- After the full-copy merge of the SW block the lookups of the LPNs of other
logical blocks are the lookups before, when every valid page of the SW block
stores an LPN of the owner. -/
theorem full_lookup_other {s F : FastMapping} {c sw o old : Nat} {T : Nat → Nat → Prop}
    (hi : InvC s c) (hsw : s.SWBlock = some sw)
    (hold : s.logicalToPhysicalBlockMapping o = some old)
    (hF1 : F.SWBlock = some (c + 1)) (hF2 : F.RWBlocks = s.RWBlocks)
    (hF3 : F.RWlogMapping = s.RWlogMapping)
    (m : CopyMerge s F c 1 sw [o] (fun _ => c) [old, sw] T)
    (hsv : ∀ i, s.vbit sw i = true → s.lpnAt sw i = o * s.param.pagesInBlock + i)
    (lpn : Nat) (hne : lpn / s.param.pagesInBlock ≠ o) :
    F.findValidPage lpn = s.findValidPage lpn := by
  have hswc : sw < c := hi.swLt sw hsw
  obtain ⟨hI, -⟩ := m.invC hi (Or.inl ⟨hsw, hF1, hF2⟩)
  obtain ⟨x1, -, -, -⟩ := m.extra hi hswc
  by_cases hl : lpn / s.param.pagesInBlock < s.param.totalLogicalBlocks
  · rw [hI.lookup_eq lpn (by rw [m.hparam]; exact hl), hi.lookup_eq lpn hl]
    congr 1
    apply findValidPageSpec_congr lpn m.hparam
    · rw [m.hl2p, if_neg (by simpa using hne)]
    · intro p hp
      have hpc : p < c := hi.l2pLt _ _ hp
      have hper : p ∉ [old, sw] := by
        intro hmem
        rcases List.mem_cons.mp hmem with h1 | h1
        · rw [h1] at hp
          exact hne (hi.l2pInj _ _ _ hp hold)
        · rw [List.mem_singleton] at h1
          rw [h1] at hp
          exact hi.l2pSW _ _ hp hsw
      rw [Bool.eq_iff_iff, m.hV]
      constructor
      · rintro ⟨-, hv | ht⟩
        · exact hv
        · have := (m.target hi hswc ht).1
          omega
      · intro hv
        exact ⟨hper, Or.inl hv⟩
    · exact congrFun hF3 lpn
    · intro sw1 hsw1 ⟨hv, hlp⟩
      rw [hsw] at hsw1
      injection hsw1 with hsw1
      subst hsw1
      have hlt := (hi.bits _ _ hv).1
      rw [hsv _ hv] at hlp
      have := (div_mod_of_mul_add (o := o) hlt).1
      rw [hlp] at this
      exact hne this
    · intro sw1 hsw1 ⟨hv, _⟩
      rw [hF1] at hsw1
      injection hsw1 with hsw1
      subst hsw1
      obtain ⟨hlt, he⟩ := hI.bits _ _ hv
      rw [m.hparam] at hlt
      rw [x1 _ hlt] at he
      exact absurd he (by simp)
  · rw [findValidPage_outside hl, findValidPage_outside (by rw [m.hparam]; exact hl)]

end FastMapping

end SimpleSSD


namespace SimpleSSD

namespace FastMapping

/-- C20. Switching merge. Let `s` be a state in which `writeInternal` calls
`mergeLogBlock` (a reachable state, possibly after the invalidation of the copy
found for the LPN being written), with at least one page per block, whose
SW block `logPbn` has `pagesInBlock` valid pages and owner
`P2L[logPbn]`. Then `L2P[owner]` names a data block `old` different from
`logPbn`, and `mergeLogBlock(logPbn, SW, none)` returns a state `S`: the only
PAL call is the erase of `old` (no read, no write); `L2P[owner]` is `logPbn`
and no other entry changes; `old` is the only block erased and loses its
owner; `freeBlocks`, `SWBlock`, `RWBlocks` and `RWlogMapping` are unchanged;
the log block is unchanged; every LPN `owner * pagesInBlock + i` with
`i < pagesInBlock` resolves to `(logPbn, i, DATA)`. With two free blocks the
full-copy merge `fullCopyMergeSW` returns a state `F` in which `L2P[owner]` is
a block `nd` of the old free queue, every LPN `owner * pagesInBlock + i`
resolves to `(nd, i, DATA)`, page `i` of `nd` stores the LPN that page `i` of
`logPbn` stores in `S`, and every LPN of another logical block has the same
lookup result in `F` as in `S`. -/
theorem switching_merge_equiv {s : FastMapping} (h : AtMerge s) (logPbn owner tick : Nat)
    (sendToPAL : Bool) (hpos : 0 < s.param.pagesInBlock)
    (hsw : s.SWBlock = some logPbn)
    (hcnt : (s.physicalBlocks logPbn).getValidPageCount = s.param.pagesInBlock)
    (ho : s.physicalToLogicalBlockMapping logPbn = some owner) :
    ∃ old S t, s.logicalToPhysicalBlockMapping owner = some old ∧ old ≠ logPbn ∧
      s.mergeLogBlock logPbn BlockType.kBlockTypeSW none tick sendToPAL = some (S, t) ∧
      S.palLog = s.palLog ++
        (if sendToPAL then [PalOp.erase { blockIndex := old, pageIndex := 0 } tick] else []) ∧
      S.logicalToPhysicalBlockMapping =
        upd s.logicalToPhysicalBlockMapping owner (some logPbn) ∧
      S.physicalToLogicalBlockMapping = upd s.physicalToLogicalBlockMapping old none ∧
      S.physicalBlocks = upd s.physicalBlocks old (s.physicalBlocks old).erase ∧
      S.physicalBlocks logPbn = s.physicalBlocks logPbn ∧
      S.freeBlocks = s.freeBlocks ∧ S.SWBlock = s.SWBlock ∧ S.RWBlocks = s.RWBlocks ∧
      S.RWlogMapping = s.RWlogMapping ∧
      (∀ i, i < s.param.pagesInBlock →
        S.findValidPage (owner * s.param.pagesInBlock + i) =
          some (some (logPbn, i, BlockType.kBlockTypeData)) ∧
        (S.physicalBlocks logPbn).isValid i = true ∧
        (S.physicalBlocks logPbn).getLPN i = some (owner * s.param.pagesInBlock + i)) ∧
      (2 ≤ s.freeBlocks.length →
        ∃ F tF nd, s.fullCopyMergeSW logPbn tick sendToPAL = some (F, tF) ∧
          F.logicalToPhysicalBlockMapping owner = some nd ∧ nd ∈ s.freeBlocks ∧
          (∀ i, i < s.param.pagesInBlock →
            F.findValidPage (owner * s.param.pagesInBlock + i) =
              some (some (nd, i, BlockType.kBlockTypeData)) ∧
            (F.physicalBlocks nd).isValid i = true ∧
            (F.physicalBlocks nd).getLPN i = (S.physicalBlocks logPbn).getLPN i) ∧
          (∀ lpn, lpn / s.param.pagesInBlock ≠ owner →
            F.findValidPage lpn = S.findValidPage lpn)) := by
  obtain ⟨c, hi⟩ := h.holds
  have hav := allValid_of_count (hi.blk logPbn).1 hcnt
  have he0 := (hi.bits _ _ (hav 0 hpos)).2
  obtain ⟨o1, ho1, hsome, -⟩ := hi.sw logPbn 0 hsw hpos he0
  rw [ho] at ho1
  injection ho1 with ho1
  subst ho1
  obtain ⟨old, hold⟩ := Option.isSome_iff_exists.mp hsome
  have hlt : owner < s.param.totalLogicalBlocks := h.mappedLt owner hsome
  obtain ⟨-, hm⟩ := mergeSW_switch s logPbn owner old none tick sendToPAL ho hold hcnt
  obtain ⟨hI, ⟨p1, p2, p3, p4, p5, p6, p7, p8⟩, hnsw, hvo, hsv, hV, hL, -, -⟩ :=
    hi.switchFacts hsw ho hold hcnt (rfl : (({ s with
        logicalToPhysicalBlockMapping :=
          upd s.logicalToPhysicalBlockMapping owner (some logPbn) } : FastMapping).eraseInternal
        old tick sendToPAL).1 = _)
  have hkeep := switch_mergeKeeps hi hsw ho hold hcnt (rfl : (({ s with
        logicalToPhysicalBlockMapping :=
          upd s.logicalToPhysicalBlockMapping owner (some logPbn) } : FastMapping).eraseInternal
        old tick sendToPAL).1 = _)
  have hother := fun lpn hne => switch_lookup_other hi hsw ho hold hcnt (rfl : (({ s with
        logicalToPhysicalBlockMapping :=
          upd s.logicalToPhysicalBlockMapping owner (some logPbn) } : FastMapping).eraseInternal
        old tick sendToPAL).1 = _) lpn hne
  have hpal : (({ s with
        logicalToPhysicalBlockMapping :=
          upd s.logicalToPhysicalBlockMapping owner (some logPbn) } : FastMapping).eraseInternal
        old tick sendToPAL).1.palLog = s.palLog ++
        (if sendToPAL then [PalOp.erase { blockIndex := old, pageIndex := 0 } tick]
        else []) := by
    unfold eraseInternal
    cases sendToPAL <;> simp
  generalize (({ s with
        logicalToPhysicalBlockMapping :=
          upd s.logicalToPhysicalBlockMapping owner (some logPbn) } : FastMapping).eraseInternal
        old tick sendToPAL).1 = S at hm hI p1 p2 p3 p4 p5 p6 p7 p8 hV hL hkeep hother hpal
  have hswc : logPbn < c := hi.swLt logPbn hsw
  have hfound : ∀ i, i < s.param.pagesInBlock →
      ∃ k, s.findValidPage (owner * s.param.pagesInBlock + i) = some (some (logPbn, i, k)) := by
    intro i hilt
    obtain ⟨hvi, hli⟩ := hsv i hilt
    exact hi.found_of_copy (by rw [(div_mod_of_mul_add hilt).1]; exact hlt) hvi hli
  have hSl : ∀ i, i < s.param.pagesInBlock →
      (S.physicalBlocks logPbn).getLPN i = some (owner * s.param.pagesInBlock + i) := by
    intro i hilt
    rw [getLPN_lpnAt S logPbn i (hI.blk logPbn).2, hL, (hsv i hilt).2]
  refine ⟨old, S, _, hold, hnsw, hm, hpal, p6, p7, p8, ?_, p4, p2.trans hsw.symm, p3, p5, ?_, ?_⟩
  · rw [p8, upd_apply, if_neg (Ne.symm hnsw)]
  · intro i hilt
    obtain ⟨d1, d2⟩ := div_mod_of_mul_add (o := owner) hilt
    obtain ⟨k, hk⟩ := hfound i hilt
    obtain ⟨p, hp, hfind⟩ := hkeep.2.2.1 _ _ _ _ hk (Or.inl rfl)
    rw [d1, p6, upd_apply, if_pos rfl] at hp
    injection hp with hp
    rw [d2, ← hp] at hfind
    refine ⟨hfind, ?_, hSl i hilt⟩
    show S.vbit logPbn i = true
    rw [hV]
    exact (hsv i hilt).1
  · intro h2
    obtain ⟨n0, hn0⟩ := hi.free
    rw [hn0, List.length_range'] at h2
    have hfr : s.freeBlocks = List.range' c (2 + (n0 - 2)) := by
      rw [hn0]
      congr 1
      omega
    obtain ⟨F, tF, hrun, hF1, hF2, hF3, hcm⟩ := mergeFull_run hi hsw ho hold hfr tick sendToPAL
    have hfull : s.fullCopyMergeSW logPbn tick sendToPAL = some (F, tF) := by
      unfold fullCopyMergeSW
      simp only [ho, hold]
      exact hrun
    obtain ⟨hIF, -⟩ := hcm.invC hi (Or.inl ⟨hsw, hF1, hF2⟩)
    have hkF := hcm.mergeKeeps hi hswc (Or.inl ⟨hsw, hF1, hF2⟩)
    refine ⟨F, tF, c, hfull, ?_, ?_, ?_, ?_⟩
    · rw [hcm.hl2p, if_pos (List.mem_singleton.mpr rfl)]
    · rw [hn0, List.mem_range']
      exact ⟨0, by omega, by omega⟩
    · intro i hilt
      obtain ⟨d1, d2⟩ := div_mod_of_mul_add (o := owner) hilt
      obtain ⟨k, hk⟩ := hfound i hilt
      obtain ⟨p, hp, hfind⟩ := hkF.2.2.1 _ _ _ _ hk (Or.inl rfl)
      rw [d1, hcm.hl2p, if_pos (List.mem_singleton.mpr rfl)] at hp
      injection hp with hp
      rw [d2, ← hp] at hfind
      obtain ⟨hv, hl, -⟩ := hIF.found hfind
      refine ⟨hfind, hv, ?_⟩
      rw [hSl i hilt, getLPN_lpnAt F c i (hIF.blk c).2, hl]
    · intro lpn hne
      rw [hother lpn hne]
      exact full_lookup_other hi hsw hold hF1 hF2 hF3 hcm
        (fun i hv => (hsv i (hi.bits _ _ hv).1).2) lpn hne

/-- On the example device after the writes 0, 1, 2, 3, 0, 1, 2, 3 the SW block
0 holds the four pages of logical block 0, all valid; the data block 7 holds
none. -/
theorem switching_merge_equiv_witness :
    AtMerge (exampleState [0, 1, 2, 3, 0, 1, 2, 3] rfl) ∧
      (exampleState [0, 1, 2, 3, 0, 1, 2, 3] rfl).SWBlock = some 0 ∧
      ((exampleState [0, 1, 2, 3, 0, 1, 2, 3] rfl).physicalBlocks 0).getValidPageCount =
        (exampleState [0, 1, 2, 3, 0, 1, 2, 3] rfl).param.pagesInBlock ∧
      (exampleState [0, 1, 2, 3, 0, 1, 2, 3] rfl).physicalToLogicalBlockMapping 0 = some 0 ∧
      ∃ old S t, (exampleState [0, 1, 2, 3, 0, 1, 2, 3] rfl).logicalToPhysicalBlockMapping 0 =
          some old ∧
        (exampleState [0, 1, 2, 3, 0, 1, 2, 3] rfl).mergeLogBlock 0 BlockType.kBlockTypeSW none
          0 true = some (S, t) ∧
        S.palLog = (exampleState [0, 1, 2, 3, 0, 1, 2, 3] rfl).palLog ++
          (if true = true then [PalOp.erase { blockIndex := old, pageIndex := 0 } 0]
          else []) ∧
        S.freeBlocks = (exampleState [0, 1, 2, 3, 0, 1, 2, 3] rfl).freeBlocks :=
  ⟨AtMerge.reachable _ (exampleState_reachable _ _), rfl, by decide, rfl,
    Exists.elim
      (switching_merge_equiv
        (AtMerge.reachable _ (exampleState_reachable [0, 1, 2, 3, 0, 1, 2, 3] rfl))
        0 0 0 true (by decide) rfl (by decide) rfl)
      (fun old h2 => Exists.elim h2 (fun S h3 => Exists.elim h3 (fun t h4 =>
        ⟨old, S, t, h4.1, h4.2.2.1, h4.2.2.2.1, h4.2.2.2.2.2.2.2.2.1⟩)))⟩

end FastMapping

end SimpleSSD


namespace SimpleSSD

namespace FastMapping

/-- C23. RW log map invariant: in every reachable state every entry
`RWlogMapping[lpn] = (pbn, i)` names a block of `RWBlocks` whose page `i` is
valid and stores `lpn`; hence the lookup of an LPN recorded there finds a copy
(the assertion of the RW branch holds), and `findValidPage` fails for no LPN of
a logical block of the device. -/
theorem rwlog_entries_valid {s : FastMapping} (h : Reachable s) :
    (∀ lpn pbn i, s.RWlogMapping lpn = some (pbn, i) →
      pbn ∈ s.RWBlocks ∧ (s.physicalBlocks pbn).isValid i = true ∧
        (s.physicalBlocks pbn).getLPN i = some lpn ∧
        ((s.physicalBlocks pbn).getPageInfo i).2.1 = true ∧
        ((s.physicalBlocks pbn).getPageInfo i).1 = lpn) ∧
    (∀ lpn pbn i, s.RWlogMapping lpn = some (pbn, i) →
      lpn / s.param.pagesInBlock < s.param.totalLogicalBlocks →
      ∃ r, s.findValidPage lpn = some (some r)) ∧
    (∀ lpn, lpn / s.param.pagesInBlock < s.param.totalLogicalBlocks →
      s.findValidPage lpn ≠ none) := by
  obtain ⟨c, hi, -⟩ := Reachable.invX h
  refine ⟨?_, ?_, ?_⟩
  · intro lpn pbn i he
    obtain ⟨h1, h2, h3⟩ := hi.rwmap lpn pbn i he
    refine ⟨h1, h2, ?_, ?_, h3⟩
    · rw [Reachable.getLPN_eq h, h3]
    · rw [getPageInfo_valid]
      exact h2
  · intro lpn pbn i he hl
    obtain ⟨-, h2, h3⟩ := hi.rwmap lpn pbn i he
    obtain ⟨k, hk⟩ := hi.found_of_copy hl h2 h3
    exact ⟨_, hk⟩
  · intro lpn hl
    rw [hi.lookup_eq lpn hl]
    simp

/-- On the example device after two writes of LPN 1 the entry of LPN 1 is
page 0 of RW block 1. -/
theorem rwlog_entries_valid_witness :
    (exampleState [1, 1] rfl).Reachable ∧
      (exampleState [1, 1] rfl).RWlogMapping 1 = some (1, 0) ∧
      (1 ∈ (exampleState [1, 1] rfl).RWBlocks ∧
        ((exampleState [1, 1] rfl).physicalBlocks 1).isValid 0 = true ∧
        ((exampleState [1, 1] rfl).physicalBlocks 1).getLPN 0 = some 1) :=
  ⟨exampleState_reachable _ _, rfl,
    have h := (rwlog_entries_valid (exampleState_reachable [1, 1] rfl)).1 1 1 0 rfl
    ⟨h.1, h.2.1, h.2.2.1⟩⟩

/-- C25. Read soft-miss. In every state, when `findValidPage` reports
NOT-FOUND for the LPN, `readInternal` returns the state unchanged (all tables,
all blocks and the PAL log: no PAL read is issued) and the tick plus the
read-internal latency. The lookup reports NOT-FOUND in particular for every
LPN of a logical block of the device that has no data block (never written). -/
theorem read_soft_miss :
    (∀ (s : FastMapping) (lpn tick : Nat), s.findValidPage lpn = some none →
      s.readInternal lpn tick = some (s, tick + s.cpu.READ_INTERNAL)) ∧
    (∀ (s : FastMapping) (lpn : Nat),
      lpn / s.param.pagesInBlock < s.param.totalLogicalBlocks →
      s.logicalToPhysicalBlockMapping (lpn / s.param.pagesInBlock) = none →
      s.findValidPage lpn = some none) := by
  constructor
  · intro s lpn tick h
    unfold readInternal
    rw [h]
  · intro s lpn hl hn
    unfold findValidPage
    simp only [convertPageToBlock]
    rw [if_pos hl, hn]

/-- On the new example device LPN 5 was never written: its read returns the
same state, with the empty PAL log, at tick 100 + READ_INTERNAL. -/
theorem read_soft_miss_witness :
    (exampleState [] rfl).findValidPage 5 = some none ∧
      (exampleState [] rfl).readInternal 5 100 =
        some (exampleState [] rfl, 100 + (exampleState [] rfl).cpu.READ_INTERNAL) ∧
      (exampleState [] rfl).palLog = [] :=
  ⟨read_soft_miss.2 (exampleState [] rfl) 5 (by decide) rfl,
    read_soft_miss.1 (exampleState [] rfl) 5 100 rfl, rfl⟩

end FastMapping

end SimpleSSD


namespace SimpleSSD

namespace FastMapping

/-- Scenario 2 as the claim states it fails on the example device: after the
writes 0, 1, 2, 3 (data block 7) and the overwrites 0, 1, 2, 3 (SW block 0, all
four pages valid) the only LPN at offset 0 with a copy is LPN 0 (the lookups
of 4, 8 and 12 are NOT-FOUND); after its overwrite `L2P[0]` is block 8 and not
the former SW block 0, and block 7 is not in `freeBlocks`. -/
theorem scenario2_counterexample :
    (exampleState [0, 1, 2, 3] rfl).logicalToPhysicalBlockMapping 0 = some 7 ∧
      (exampleState [0, 1, 2, 3, 0, 1, 2, 3] rfl).SWBlock = some 0 ∧
      ((exampleState [0, 1, 2, 3, 0, 1, 2, 3] rfl).physicalBlocks 0).getValidPageCount = 4 ∧
      (exampleState [0, 1, 2, 3, 0, 1, 2, 3] rfl).findValidPage 4 = some none ∧
      (exampleState [0, 1, 2, 3, 0, 1, 2, 3] rfl).findValidPage 8 = some none ∧
      (exampleState [0, 1, 2, 3, 0, 1, 2, 3] rfl).findValidPage 12 = some none ∧
      ¬ ((exampleState [0, 1, 2, 3, 0, 1, 2, 3, 0] rfl).logicalToPhysicalBlockMapping 0 =
          some 0 ∧
        7 ∈ (exampleState [0, 1, 2, 3, 0, 1, 2, 3, 0] rfl).freeBlocks) ∧
      (exampleState [0, 1, 2, 3, 0, 1, 2, 3, 0] rfl).logicalToPhysicalBlockMapping 0 ≠
        some 0 ∧
      7 ∉ (exampleState [0, 1, 2, 3, 0, 1, 2, 3, 0] rfl).freeBlocks :=
  ⟨rfl, rfl, by decide, rfl, rfl, rfl, by decide, by decide, by decide⟩

/-- C21, amended. Scenario 2 on the example device. After the writes 0, 1, 2, 3
and the overwrites 0, 1, 2, 3 the SW block 0 has four valid pages and data
block 7 none. (1) The overwrite of LPN 0 invalidates SW page 0 first, so the
merge is a full merge: `L2P[0]` is block 8, taken from `freeBlocks`, with the
three valid pages 1, 2, 3; block 7 and the former SW block 0 are clean,
unowned and erased once; the SW block is block 10 with LPN 0 in page 0; the
free queue is 11, ..., 15. (2) When instead LPN 4 is written and then
overwritten, the SW block is still fully valid and the merge is the switching
merge: `L2P[0]` is the former SW block 0 with its four valid pages, block 7 is
clean, unowned and erased once, the SW block is block 9, and the free queue is
10, ..., 15. In neither case block 7 is in `freeBlocks`. -/
theorem scenario2_end_state :
    (exampleState [0, 1, 2, 3, 0, 1, 2, 3] rfl).logicalToPhysicalBlockMapping 0 = some 7 ∧
      (exampleState [0, 1, 2, 3, 0, 1, 2, 3] rfl).SWBlock = some 0 ∧
      ((exampleState [0, 1, 2, 3, 0, 1, 2, 3] rfl).physicalBlocks 0).getValidPageCount = 4 ∧
      ((exampleState [0, 1, 2, 3, 0, 1, 2, 3] rfl).physicalBlocks 7).getValidPageCount = 0 ∧
      (exampleState [0, 1, 2, 3, 0, 1, 2, 3] rfl).findValidPage 0 =
        some (some (0, 0, BlockType.kBlockTypeSW)) ∧
      ((exampleState [0, 1, 2, 3, 0, 1, 2, 3, 0] rfl).logicalToPhysicalBlockMapping 0 = some 8 ∧
        (exampleState [0, 1, 2, 3, 0, 1, 2, 3, 0] rfl).physicalToLogicalBlockMapping 8 =
          some 0 ∧
        ((exampleState [0, 1, 2, 3, 0, 1, 2, 3, 0] rfl).physicalBlocks 8).getValidPageCount =
          3 ∧
        ((exampleState [0, 1, 2, 3, 0, 1, 2, 3, 0] rfl).physicalBlocks 7).isCleanBlock = true ∧
        ((exampleState [0, 1, 2, 3, 0, 1, 2, 3, 0] rfl).physicalBlocks 7).getEraseCount = 1 ∧
        (exampleState [0, 1, 2, 3, 0, 1, 2, 3, 0] rfl).physicalToLogicalBlockMapping 7 = none ∧
        ((exampleState [0, 1, 2, 3, 0, 1, 2, 3, 0] rfl).physicalBlocks 0).isCleanBlock = true ∧
        ((exampleState [0, 1, 2, 3, 0, 1, 2, 3, 0] rfl).physicalBlocks 0).getEraseCount = 1 ∧
        (exampleState [0, 1, 2, 3, 0, 1, 2, 3, 0] rfl).physicalToLogicalBlockMapping 0 = none ∧
        (exampleState [0, 1, 2, 3, 0, 1, 2, 3, 0] rfl).SWBlock = some 10 ∧
        (exampleState [0, 1, 2, 3, 0, 1, 2, 3, 0] rfl).findValidPage 0 =
          some (some (10, 0, BlockType.kBlockTypeSW)) ∧
        (exampleState [0, 1, 2, 3, 0, 1, 2, 3, 0] rfl).freeBlocks = [11, 12, 13, 14, 15]) ∧
      ((exampleState [0, 1, 2, 3, 0, 1, 2, 3, 4] rfl).findValidPage 4 =
          some (some (8, 0, BlockType.kBlockTypeData)) ∧
        ((exampleState [0, 1, 2, 3, 0, 1, 2, 3, 4] rfl).physicalBlocks 0).getValidPageCount =
          4 ∧
        (exampleState [0, 1, 2, 3, 0, 1, 2, 3, 4, 4] rfl).logicalToPhysicalBlockMapping 0 =
          some 0 ∧
        ((exampleState [0, 1, 2, 3, 0, 1, 2, 3, 4, 4] rfl).physicalBlocks 0).getValidPageCount =
          4 ∧
        ((exampleState [0, 1, 2, 3, 0, 1, 2, 3, 4, 4] rfl).physicalBlocks 7).isCleanBlock =
          true ∧
        ((exampleState [0, 1, 2, 3, 0, 1, 2, 3, 4, 4] rfl).physicalBlocks 7).getEraseCount =
          1 ∧
        (exampleState [0, 1, 2, 3, 0, 1, 2, 3, 4, 4] rfl).physicalToLogicalBlockMapping 7 =
          none ∧
        (exampleState [0, 1, 2, 3, 0, 1, 2, 3, 4, 4] rfl).SWBlock = some 9 ∧
        (exampleState [0, 1, 2, 3, 0, 1, 2, 3, 4, 4] rfl).freeBlocks =
          [10, 11, 12, 13, 14, 15]) := by
  refine ⟨rfl, rfl, by decide, by decide, rfl,
    ⟨rfl, rfl, by decide, by decide, rfl, rfl, by decide, rfl, rfl, rfl, rfl, rfl⟩,
    ⟨rfl, by decide, rfl, by decide, by decide, rfl, rfl, rfl, rfl⟩⟩

end FastMapping

end SimpleSSD


namespace SimpleSSD

namespace FastMapping

theorem phaseFinish_cons (start x : Nat) (xs : List Nat) :
    phaseFinish start (x :: xs) = phaseFinish (max start x) xs := rfl

theorem le_phaseFinish (start : Nat) (xs : List Nat) : start ≤ phaseFinish start xs := by
  induction xs generalizing start with
  | nil => exact Nat.le_refl _
  | cons x xs ih =>
    rw [phaseFinish_cons]
    exact Nat.le_trans (Nat.le_max_left _ _) (ih _)

/-- Every finish tick of a phase is at most the finish tick of the phase. -/
theorem mem_le_phaseFinish (start : Nat) (xs : List Nat) (x : Nat) (hx : x ∈ xs) :
    x ≤ phaseFinish start xs := by
  induction xs generalizing start with
  | nil => exact absurd hx (List.not_mem_nil _)
  | cons y ys ih =>
    rw [phaseFinish_cons]
    rcases List.mem_cons.mp hx with rfl | h
    · exact Nat.le_trans (Nat.le_max_right _ _) (le_phaseFinish _ _)
    · exact ih _ h

/-- The read phase: finish tick, PAL calls, and the fields it leaves. -/
theorem mergeReads_finish (tick : Nat) (sendToPAL : Bool) :
    ∀ (rs : List PalRequest) (s : FastMapping) (f : Nat) (s1 : FastMapping) (f1 : Nat),
      mergeReads tick sendToPAL rs s f = some (s1, f1) →
      f1 = (if sendToPAL then phaseFinish f (rs.map (fun req => s.pPAL.read req tick)) else f) ∧
        s1.pPAL = s.pPAL ∧ s1.cpu = s.cpu ∧
        s1.palLog = s.palLog ++
          (if sendToPAL then rs.map (fun req => PalOp.read req tick) else []) := by
  intro rs
  induction rs with
  | nil =>
    intro s f s1 f1 h
    simp only [mergeReads] at h
    injection h with h
    injection h with h1 h2
    subst h1
    subst h2
    cases sendToPAL <;> simp [phaseFinish]
  | cons req rest ih =>
    intro s f s1 f1 h
    simp only [mergeReads] at h
    split at h
    · exact absurd h (by simp)
    · rename_i x b hb
      obtain ⟨e1, e2, e3, e4⟩ := ih _ _ _ _ h
      cases sendToPAL with
      | false =>
        simp only [palRead, if_false, Bool.false_eq_true] at e1 e2 e3 e4 ⊢
        exact ⟨e1, e2, e3, by simpa using e4⟩
      | true =>
        simp only [palRead, if_true] at e1 e2 e3 e4 ⊢
        refine ⟨?_, e2, e3, ?_⟩
        · rw [e1, List.map_cons, phaseFinish_cons]
        · rw [e4, List.map_cons, List.append_assoc]
          rfl

/-- The write phase: finish tick, PAL calls, and the fields it leaves. -/
theorem mergeWrites_finish (rf : Nat) (sendToPAL : Bool) :
    ∀ (ws : List (PalRequest × Nat)) (s : FastMapping) (f : Nat) (s1 : FastMapping) (f1 : Nat),
      mergeWrites rf sendToPAL ws s f = some (s1, f1) →
      f1 = (if sendToPAL then phaseFinish f (ws.map (fun w => s.pPAL.write w.1 rf)) else f) ∧
        s1.pPAL = s.pPAL ∧ s1.cpu = s.cpu ∧
        s1.palLog = s.palLog ++
          (if sendToPAL then ws.map (fun w => PalOp.write w.1 rf) else []) := by
  intro ws
  induction ws with
  | nil =>
    intro s f s1 f1 h
    simp only [mergeWrites] at h
    injection h with h
    injection h with h1 h2
    subst h1
    subst h2
    cases sendToPAL <;> simp [phaseFinish]
  | cons w rest ih =>
    intro s f s1 f1 h
    obtain ⟨req, lpn⟩ := w
    simp only [mergeWrites] at h
    split at h
    · exact absurd h (by simp)
    · rename_i s2 hw
      obtain ⟨e1, e2, e3, e4⟩ := ih _ _ _ _ h
      have hs2 : s2.pPAL = s.pPAL ∧ s2.cpu = s.cpu ∧ s2.palLog = s.palLog := by
        unfold writeBlock at hw
        split at hw
        · exact absurd hw (by simp)
        · injection hw with hw
          subst hw
          exact ⟨rfl, rfl, rfl⟩
      obtain ⟨q1, q2, q3⟩ := hs2
      cases sendToPAL with
      | false =>
        simp only [palWrite, if_false, Bool.false_eq_true] at e1 e2 e3 e4 ⊢
        exact ⟨e1, e2.trans q1, e3.trans q2, by rw [e4, q3]⟩
      | true =>
        simp only [palWrite, if_true] at e1 e2 e3 e4 ⊢
        refine ⟨?_, e2.trans q1, e3.trans q2, ?_⟩
        · rw [e1, List.map_cons, phaseFinish_cons, q1]
        · rw [e4, q3, List.map_cons, List.append_assoc]
          rfl

/-- The erase phase: finish tick, PAL calls, and the fields it leaves. -/
theorem mergeErases_finish (rf : Nat) (sendToPAL : Bool) :
    ∀ (er : List Nat) (s : FastMapping) (f : Nat),
      (mergeErases rf sendToPAL er s f).2 =
          phaseFinish f (er.map (fun b =>
            (if sendToPAL then s.pPAL.erase { blockIndex := b, pageIndex := 0 } rf else rf) +
              s.cpu.ERASE_INTERNAL)) ∧
        (mergeErases rf sendToPAL er s f).1.pPAL = s.pPAL ∧
        (mergeErases rf sendToPAL er s f).1.cpu = s.cpu ∧
        (mergeErases rf sendToPAL er s f).1.palLog = s.palLog ++
          (if sendToPAL then
            er.map (fun b => PalOp.erase { blockIndex := b, pageIndex := 0 } rf)
          else []) := by
  intro er
  induction er with
  | nil =>
    intro s f
    simp only [mergeErases]
    cases sendToPAL <;> simp [phaseFinish]
  | cons b rest ih =>
    intro s f
    simp only [mergeErases]
    obtain ⟨e1, e2, e3, e4⟩ := ih (s.eraseInternal b rf sendToPAL).1
      (max f (s.eraseInternal b rf sendToPAL).2)
    have hE : (s.eraseInternal b rf sendToPAL).1.pPAL = s.pPAL ∧
        (s.eraseInternal b rf sendToPAL).1.cpu = s.cpu ∧
        (s.eraseInternal b rf sendToPAL).2 =
          (if sendToPAL then s.pPAL.erase { blockIndex := b, pageIndex := 0 } rf else rf) +
            s.cpu.ERASE_INTERNAL ∧
        (s.eraseInternal b rf sendToPAL).1.palLog = s.palLog ++
          (if sendToPAL then [PalOp.erase { blockIndex := b, pageIndex := 0 } rf] else []) := by
      unfold eraseInternal
      cases sendToPAL <;> simp
    obtain ⟨q1, q2, q3, q4⟩ := hE
    refine ⟨?_, e2.trans q1, e3.trans q2, ?_⟩
    · rw [e1, List.map_cons, phaseFinish_cons, q1, q2, q3]
    · rw [e4, q4]
      cases sendToPAL <;> simp

end FastMapping

end SimpleSSD


namespace SimpleSSD

namespace FastMapping

theorem SameTables.idem (s : FastMapping) : SameTables s s :=
  ⟨rfl, rfl, rfl, rfl, rfl, rfl, rfl, rfl⟩

theorem SameTables.andThen {s s1 s2 : FastMapping} (h1 : SameTables s s1)
    (h2 : SameTables s1 s2) : SameTables s s2 :=
  ⟨h2.pal.trans h1.pal, h2.cpu.trans h1.cpu, h2.param.trans h1.param, h2.l2p.trans h1.l2p,
    h2.p2l.trans h1.p2l, h2.free.trans h1.free, h2.sw.trans h1.sw, h2.rw.trans h1.rw⟩

theorem BlockStep.same (s : FastMapping) : BlockStep s s :=
  ⟨rfl, rfl, rfl, ⟨[], rfl⟩, fun _ h => Or.inl h, fun _ h => Or.inl h, fun _ _ h => Or.inl h⟩

/-- A block of the later free queue is a block of the earlier one. -/
theorem BlockStep.mem_free {s s1 : FastMapping} (h : BlockStep s s1) {b : Nat}
    (hb : b ∈ s1.freeBlocks) : b ∈ s.freeBlocks := by
  obtain ⟨taken, ht⟩ := h.free
  rw [ht]
  exact List.mem_append_right _ hb

theorem BlockStep.comp {s s1 s2 : FastMapping} (h1 : BlockStep s s1) (h2 : BlockStep s1 s2) :
    BlockStep s s2 := by
  refine ⟨h2.pal.trans h1.pal, h2.cpu.trans h1.cpu, h2.param.trans h1.param, ?_, ?_, ?_, ?_⟩
  · obtain ⟨t1, e1⟩ := h1.free
    obtain ⟨t2, e2⟩ := h2.free
    exact ⟨t1 ++ t2, by rw [e1, e2, List.append_assoc]⟩
  · intro b hb
    rcases h2.sw b hb with h | h
    · exact h1.sw b h
    · exact Or.inr (h1.mem_free h)
  · intro b hb
    rcases h2.rw b hb with h | h
    · exact h1.rw b h
    · exact Or.inr (h1.mem_free h)
  · intro a p hp
    rcases h2.l2p a p hp with h | h | h
    · exact h1.l2p a p h
    · exact Or.inr (Or.inl (h1.mem_free h))
    · rcases h1.sw p h with h3 | h3
      · exact Or.inr (Or.inr h3)
      · exact Or.inr (Or.inl h3)

theorem SameTables.step {s s1 : FastMapping} (h : SameTables s s1) : BlockStep s s1 :=
  ⟨h.pal, h.cpu, h.param, ⟨[], by rw [h.free]; rfl⟩, fun b hb => Or.inl (h.sw ▸ hb),
    fun b hb => Or.inl (h.rw ▸ hb), fun a p hp => Or.inl (h.l2p ▸ hp)⟩

theorem SameTables.p2lConsistent {s s1 : FastMapping} (h : SameTables s s1)
    (hp : P2LConsistent s) : P2LConsistent s1 := by
  intro b a hb
  rw [h.p2l] at hb
  rw [h.l2p, h.sw]
  exact hp b a hb

theorem SameTables.p2lData {s s1 : FastMapping} (h : SameTables s s1)
    (hp : P2LData s) : P2LData s1 := by
  intro b a hb
  rw [h.p2l] at hb
  rw [h.l2p]
  exact hp b a hb

theorem P2LData.consistent {s : FastMapping} (h : P2LData s) : P2LConsistent s :=
  fun b a hb => Or.inl (h b a hb)

theorem getFreeBlock_step {s s1 : FastMapping} {p : Nat} (h : s.getFreeBlock = some (p, s1)) :
    BlockStep s s1 ∧ p ∈ s.freeBlocks ∧
      s1.physicalToLogicalBlockMapping = s.physicalToLogicalBlockMapping ∧
      s1.logicalToPhysicalBlockMapping = s.logicalToPhysicalBlockMapping ∧
      s1.SWBlock = s.SWBlock ∧ s1.RWBlocks = s.RWBlocks ∧
      s.freeBlocks = p :: s1.freeBlocks := by
  obtain ⟨rest, hr, rfl⟩ := getFreeBlock_eq h
  refine ⟨⟨rfl, rfl, rfl, ⟨[p], hr⟩, fun _ h => Or.inl h, fun _ h => Or.inl h,
    fun _ _ h => Or.inl h⟩, ?_, rfl, rfl, rfl, rfl, hr⟩
  rw [hr]
  exact List.mem_cons_self _ _

theorem writeBlock_tables {s s1 : FastMapping} {p i l t : Nat}
    (h : s.writeBlock p i l t = some s1) : SameTables s s1 := by
  obtain ⟨b, -, rfl⟩ := writeBlock_eq h
  exact ⟨rfl, rfl, rfl, rfl, rfl, rfl, rfl, rfl⟩

theorem palWrite_tables (s : FastMapping) (req : PalRequest) (tick : Nat) (sendToPAL : Bool) :
    SameTables s (s.palWrite req tick sendToPAL).1 := by
  unfold palWrite
  cases sendToPAL <;> exact ⟨rfl, rfl, rfl, rfl, rfl, rfl, rfl, rfl⟩

theorem palRead_tables (s : FastMapping) (req : PalRequest) (tick : Nat) (sendToPAL : Bool) :
    SameTables s (s.palRead req tick sendToPAL).1 := by
  unfold palRead
  cases sendToPAL <;> exact ⟨rfl, rfl, rfl, rfl, rfl, rfl, rfl, rfl⟩

theorem writeInvalidate_tables (s : FastMapping) (lpn t b i : Nat) (k : BlockType) :
    SameTables s (s.writeInvalidate lpn t b i k) := by
  unfold writeInvalidate
  split <;> exact ⟨rfl, rfl, rfl, rfl, rfl, rfl, rfl, rfl⟩

theorem mergeReads_tables (tick : Nat) (sendToPAL : Bool) :
    ∀ (rs : List PalRequest) (s : FastMapping) (f : Nat) (s1 : FastMapping) (f1 : Nat),
      mergeReads tick sendToPAL rs s f = some (s1, f1) → SameTables s s1 := by
  intro rs
  induction rs with
  | nil =>
    intro s f s1 f1 h
    simp only [mergeReads] at h
    injection h with h
    injection h with h1 h2
    subst h1
    exact SameTables.idem _
  | cons req rest ih =>
    intro s f s1 f1 h
    simp only [mergeReads] at h
    split at h
    · exact absurd h (by simp)
    · rename_i x b hb
      have h1 := ih _ _ _ _ h
      have h0 : SameTables s
          ({ s with physicalBlocks := upd s.physicalBlocks req.blockIndex b } : FastMapping) :=
        ⟨rfl, rfl, rfl, rfl, rfl, rfl, rfl, rfl⟩
      exact (h0.andThen (palRead_tables _ _ _ _)).andThen h1

theorem mergeWrites_tables (rf : Nat) (sendToPAL : Bool) :
    ∀ (ws : List (PalRequest × Nat)) (s : FastMapping) (f : Nat) (s1 : FastMapping) (f1 : Nat),
      mergeWrites rf sendToPAL ws s f = some (s1, f1) → SameTables s s1 := by
  intro ws
  induction ws with
  | nil =>
    intro s f s1 f1 h
    simp only [mergeWrites] at h
    injection h with h
    injection h with h1 h2
    subst h1
    exact SameTables.idem _
  | cons w rest ih =>
    intro s f s1 f1 h
    obtain ⟨req, lpn⟩ := w
    simp only [mergeWrites] at h
    split at h
    · exact absurd h (by simp)
    · rename_i s2 hw
      exact ((writeBlock_tables hw).andThen (palWrite_tables _ _ _ _)).andThen (ih _ _ _ _ h)

/-- `eraseInternal` on the tables: only the owner of the erased block
changes. -/
theorem eraseInternal_tables (s : FastMapping) (p tick : Nat) (sendToPAL : Bool) :
    SameTables { s with physicalToLogicalBlockMapping := upd s.physicalToLogicalBlockMapping p none }
      (s.eraseInternal p tick sendToPAL).1 := by
  unfold eraseInternal
  cases sendToPAL <;> exact ⟨rfl, rfl, rfl, rfl, rfl, rfl, rfl, rfl⟩

/-- The erase phase on the tables: the erased blocks lose their owner. -/
theorem mergeErases_tables (rf : Nat) (sendToPAL : Bool) :
    ∀ (er : List Nat) (s : FastMapping) (f : Nat),
      BlockStep s (mergeErases rf sendToPAL er s f).1 ∧
        (mergeErases rf sendToPAL er s f).1.logicalToPhysicalBlockMapping =
          s.logicalToPhysicalBlockMapping ∧
        (mergeErases rf sendToPAL er s f).1.SWBlock = s.SWBlock ∧
        (mergeErases rf sendToPAL er s f).1.RWBlocks = s.RWBlocks ∧
        (mergeErases rf sendToPAL er s f).1.freeBlocks = s.freeBlocks ∧
        ∀ b, (mergeErases rf sendToPAL er s f).1.physicalToLogicalBlockMapping b =
          if b ∈ er then none else s.physicalToLogicalBlockMapping b := by
  intro er s f
  obtain ⟨⟨m1, m2, m3, m4, m5, m6⟩, xP, -⟩ := mergeErases_spec rf sendToPAL er s f
  obtain ⟨-, e2, e3, -⟩ := mergeErases_finish rf sendToPAL er s f
  refine ⟨⟨e2, e3, m1, ⟨[], by rw [m3]; rfl⟩, fun b hb => Or.inl (m5 ▸ hb),
    fun b hb => Or.inl (m6 ▸ hb), fun a p hp => Or.inl (m2 ▸ hp)⟩, m2, m5, m6, m3, xP⟩

end FastMapping

end SimpleSSD


namespace SimpleSSD

namespace FastMapping

theorem mergeLogBlock_plan (s : FastMapping) (log : Nat) (k : BlockType) (ap : Option Nat)
    (tick : Nat) (sendToPAL : Bool) :
    s.mergeLogBlock log k ap tick sendToPAL = mergeRun (s.mergePlan log k ap) tick sendToPAL :=
  rfl

/-- The three phases of a merge run on a plan: what they do to the tables, the
tick they return and the PAL calls they make. -/
theorem mergeRun_spec {s0 S : FastMapping} {p : MergePlan} {tick t : Nat} {sendToPAL : Bool}
    (h : mergeRun (some (s0, p)) tick sendToPAL = some (S, t)) :
    (S.pPAL = s0.pPAL ∧ S.cpu = s0.cpu ∧ S.param = s0.param ∧
      S.logicalToPhysicalBlockMapping = s0.logicalToPhysicalBlockMapping ∧
      S.freeBlocks = s0.freeBlocks ∧ S.SWBlock = s0.SWBlock ∧ S.RWBlocks = s0.RWBlocks) ∧
    (∀ b, S.physicalToLogicalBlockMapping b =
      if b ∈ p.eraseRequests then none else s0.physicalToLogicalBlockMapping b) ∧
    (sendToPAL = true → t = mergeTickSpec s0.pPAL s0.cpu tick p) ∧
    S.palLog = s0.palLog ++ (if sendToPAL then mergeCalls s0.pPAL tick p else []) ∧
    tick ≤ t := by
  unfold mergeRun at h
  simp only [] at h
  split at h
  · exact absurd h (by simp)
  · rename_i s2 rf hr
    split at h
    · exact absurd h (by simp)
    · rename_i s3 wf hw
      injection h with h
      injection h with hS ht
      have r1 := mergeReads_tables _ _ _ _ _ _ _ hr
      have w1 := mergeWrites_tables _ _ _ _ _ _ _ hw
      obtain ⟨e0, el, esw, erw, efr, ep⟩ := mergeErases_tables rf sendToPAL p.eraseRequests s3 rf
      obtain ⟨a1, a2, a3, a4⟩ := mergeReads_finish _ _ _ _ _ _ _ hr
      obtain ⟨b1, b2, b3, b4⟩ := mergeWrites_finish _ _ _ _ _ _ _ hw
      obtain ⟨c1, c2, c3, c4⟩ := mergeErases_finish rf sendToPAL p.eraseRequests s3 rf
      have t13 := r1.andThen w1
      rw [hS] at e0 el esw erw efr ep c2 c3 c4
      rw [ht.symm]
      refine ⟨⟨e0.pal.trans t13.pal, e0.cpu.trans t13.cpu, e0.param.trans t13.param,
        el.trans t13.l2p, efr.trans t13.free, esw.trans t13.sw, erw.trans t13.rw⟩, ?_, ?_, ?_, ?_⟩
      · intro b
        rw [ep b, t13.p2l]
      · intro hstp
        subst hstp
        simp only [if_true] at a1 b1 c1
        unfold mergeTickSpec
        simp only []
        rw [b1, c1, a1, t13.pal, t13.cpu, a2]
      · rw [c4, b4, a4]
        cases sendToPAL with
        | false => simp
        | true =>
          simp only [if_true] at a1
          unfold mergeCalls
          simp only [if_true]
          rw [a1]
          simp only [List.append_assoc]
      · have h1 : tick ≤ rf := by
          rw [a1]
          split
          · exact le_phaseFinish _ _
          · exact Nat.le_refl _
        have h2 : rf ≤ wf := by
          rw [b1]
          split
          · exact le_phaseFinish _ _
          · exact Nat.le_refl _
        exact Nat.le_trans (Nat.le_trans h1 h2) (Nat.le_max_left _ _)

/-- The SW plan of `mergeLogBlock`, case by case. -/
theorem mergePlanSW_cases {s s0 : FastMapping} {log : Nat} {ap : Option Nat} {p : MergePlan}
    (h : s.mergePlanSW log ap = some (s0, p)) :
    ∃ o old, s.physicalToLogicalBlockMapping log = some o ∧
      s.logicalToPhysicalBlockMapping o = some old ∧
      s0.pPAL = s.pPAL ∧ s0.cpu = s.cpu ∧ s0.param = s.param ∧ s0.palLog = s.palLog ∧
      s0.physicalBlocks = s.physicalBlocks ∧ s0.RWBlocks = s.RWBlocks ∧
      s0.RWlogMapping = s.RWlogMapping ∧
      (((s.physicalBlocks log).getValidPageCount = s.param.pagesInBlock ∧
          s0.logicalToPhysicalBlockMapping =
            upd s.logicalToPhysicalBlockMapping o (some log) ∧
          s0.physicalToLogicalBlockMapping = s.physicalToLogicalBlockMapping ∧
          s0.freeBlocks = s.freeBlocks ∧ s0.SWBlock = s.SWBlock ∧
          p.readRequests = [] ∧ p.writeRequests = [] ∧ p.eraseRequests = [old]) ∨
        ((s.physicalBlocks log).getValidPageCount ≠ s.param.pagesInBlock ∧
          ∃ nd nsw, s.freeBlocks = nd :: nsw :: s0.freeBlocks ∧
            s0.logicalToPhysicalBlockMapping =
              upd s.logicalToPhysicalBlockMapping o (some nd) ∧
            s0.physicalToLogicalBlockMapping =
              upd (upd s.physicalToLogicalBlockMapping nd (some o)) nsw none ∧
            s0.SWBlock = some nsw ∧
            p.readRequests =
              ((List.range s.param.pagesInBlock).filter
                (fun i => s.vbit log i || s.vbit old i)).map
                (fun i => PalRequest.mk (if s.vbit log i = true then log else old) i) ∧
            p.writeRequests =
              ((List.range s.param.pagesInBlock).filter
                (fun i => s.vbit log i || s.vbit old i)).map
                (fun i => (PalRequest.mk nd i, o * s.param.pagesInBlock + i)) ∧
            p.eraseRequests = [old, log])) := by
  unfold mergePlanSW at h
  split at h
  · exact absurd h (by simp)
  · rename_i o ho
    split at h
    · exact absurd h (by simp)
    · rename_i old hold
      refine ⟨o, old, ho, hold, ?_⟩
      split at h
      · rename_i hc
        injection h with h
        injection h with h1 h2
        subst h1
        subst h2
        exact ⟨rfl, rfl, rfl, rfl, rfl, rfl, rfl, Or.inl ⟨hc, rfl, rfl, rfl, rfl, rfl, rfl, rfl⟩⟩
      · rename_i hc
        split at h
        · exact absurd h (by simp)
        · rename_i nd s1 hf1
          obtain ⟨r1, hr1, rfl⟩ := getFreeBlock_eq hf1
          simp only [] at h
          split at h
          · exact absurd h (by simp)
          · rename_i nsw s3 hf2
            obtain ⟨r2, hr2, rfl⟩ := getFreeBlock_eq hf2
            injection h with h
            injection h with h1 h2
            subst h1
            subst h2
            refine ⟨rfl, rfl, rfl, rfl, rfl, rfl, rfl, Or.inr ⟨hc, nd, nsw, ?_, rfl, rfl, rfl,
              rfl, rfl, rfl⟩⟩
            show s.freeBlocks = nd :: nsw :: r2
            rw [hr1]
            have : r1 = nsw :: r2 := hr2
            rw [this]

end FastMapping

end SimpleSSD


namespace SimpleSSD

namespace FastMapping

/-- The second loop of the RW merge, in any state: the blocks it assigns are
taken from the head of `freeBlocks`; `L2P` changes only at the logical blocks
of the list, whose old data blocks are recorded; and every owner recorded in
`P2L` afterwards was recorded before or is consistent with the new `L2P`. -/
theorem mergeRWAssign_step :
    ∀ (lbns : List Nat) (s : FastMapping) (n0 o0 : Nat → Nat) (s1 : FastMapping)
      (nw od : Nat → Nat),
      mergeRWAssign lbns s n0 o0 = some (s1, nw, od) →
      (s1.pPAL = s.pPAL ∧ s1.cpu = s.cpu ∧ s1.param = s.param ∧ s1.palLog = s.palLog ∧
        s1.SWBlock = s.SWBlock ∧ s1.RWBlocks = s.RWBlocks) ∧
      (∃ taken, s.freeBlocks = taken ++ s1.freeBlocks) ∧
      (∀ a, a ∉ lbns → s1.logicalToPhysicalBlockMapping a = s.logicalToPhysicalBlockMapping a) ∧
      (∀ a, a ∉ lbns → od a = o0 a) ∧
      (∀ a p, s1.logicalToPhysicalBlockMapping a = some p →
        s.logicalToPhysicalBlockMapping a = some p ∨ p ∈ s.freeBlocks) ∧
      (lbns.Nodup → ∀ a, a ∈ lbns → s.logicalToPhysicalBlockMapping a = some (od a)) ∧
      (lbns.Nodup → ∀ b a, s1.physicalToLogicalBlockMapping b = some a →
        s.physicalToLogicalBlockMapping b = some a ∨
          s1.logicalToPhysicalBlockMapping a = some b) := by
  intro lbns
  induction lbns with
  | nil =>
    intro s n0 o0 s1 nw od h
    simp only [mergeRWAssign] at h
    injection h with h
    injection h with h1 h2
    injection h2 with h2 h3
    subst h1
    subst h3
    exact ⟨⟨rfl, rfl, rfl, rfl, rfl, rfl⟩, ⟨[], rfl⟩, fun _ _ => rfl, fun _ _ => rfl,
      fun _ _ h => Or.inl h, fun _ a ha => absurd ha (List.not_mem_nil _),
      fun _ _ _ h => Or.inl h⟩
  | cons lbn rest ih =>
    intro s n0 o0 s1 nw od h
    simp only [mergeRWAssign] at h
    split at h
    · exact absurd h (by simp)
    · rename_i nb sA hf
      obtain ⟨tl, htl, rfl⟩ := getFreeBlock_eq hf
      split at h
      · exact absurd h (by simp)
      · rename_i old hold
        obtain ⟨⟨q1, q2, q3, q4, q5, q6⟩, ⟨tk, htk⟩, i1, i2, i3, i4, i5⟩ := ih _ _ _ _ _ _ h
        have hold1 : s.logicalToPhysicalBlockMapping lbn = some old := hold
        have htk1 : tl = tk ++ s1.freeBlocks := htk
        refine ⟨⟨q1, q2, q3, q4, q5, q6⟩, ⟨nb :: tk, ?_⟩, ?_, ?_, ?_, ?_, ?_⟩
        · rw [htl, htk1]
          rfl
        · intro a ha
          rw [List.mem_cons, not_or] at ha
          rw [i1 a ha.2]
          show upd s.logicalToPhysicalBlockMapping lbn (some nb) a = _
          rw [upd_apply, if_neg ha.1]
        · intro a ha
          rw [List.mem_cons, not_or] at ha
          rw [i2 a ha.2, upd_apply, if_neg ha.1]
        · intro a p hp
          rcases i3 a p hp with h1 | h1
          · have h1a : upd s.logicalToPhysicalBlockMapping lbn (some nb) a = some p := h1
            rw [upd_apply] at h1a
            split at h1a
            · injection h1a with h1a
              right
              rw [htl, ← h1a]
              exact List.mem_cons_self _ _
            · exact Or.inl h1a
          · right
            have h1a : p ∈ tl := h1
            rw [htl]
            exact List.mem_cons_of_mem _ h1a
        · intro hnd a ha
          rw [List.nodup_cons] at hnd
          rcases List.mem_cons.mp ha with rfl | ha1
          · rw [i2 a hnd.1, upd_apply, if_pos rfl]
            exact hold1
          · have hne : a ≠ lbn := fun hx => hnd.1 (hx ▸ ha1)
            have := i4 hnd.2 a ha1
            have h1a : upd s.logicalToPhysicalBlockMapping lbn (some nb) a = some (od a) := this
            rw [upd_apply, if_neg hne] at h1a
            exact h1a
        · intro hnd b a hb
          rw [List.nodup_cons] at hnd
          rcases i5 hnd.2 b a hb with h1 | h1
          · have h1a : upd s.physicalToLogicalBlockMapping nb (some lbn) b = some a := h1
            rw [upd_apply] at h1a
            split at h1a
            · rename_i hbn
              injection h1a with h1a
              right
              rw [← h1a, i1 lbn hnd.1, hbn]
              show upd s.logicalToPhysicalBlockMapping lbn (some nb) lbn = _
              rw [upd_apply, if_pos rfl]
            · exact Or.inl h1a
          · exact Or.inr h1

/-- A merge that returns has built a plan and run its three phases. -/
theorem mergeLogBlock_cases {s S : FastMapping} {log tick t : Nat} {k : BlockType}
    {ap : Option Nat} {sendToPAL : Bool}
    (h : s.mergeLogBlock log k ap tick sendToPAL = some (S, t)) :
    ∃ s0 p, s.mergePlan log k ap = some (s0, p) ∧
      mergeRun (some (s0, p)) tick sendToPAL = some (S, t) := by
  rw [mergeLogBlock_plan] at h
  cases hp : s.mergePlan log k ap with
  | none =>
    rw [hp] at h
    exact absurd h (by simp [mergeRun])
  | some r =>
    obtain ⟨s0, p⟩ := r
    rw [hp] at h
    exact ⟨s0, p, rfl, h⟩

/-- The RW plan of `mergeLogBlock` in any state. `lbns` are the logical blocks
that get a new data block and `od` gives their old data blocks. -/
theorem mergePlanRW_step {s s0 : FastMapping} {log : Nat} {p : MergePlan}
    (h : s.mergePlanRW log = some (s0, p)) :
    ∃ (lbns : List Nat) (od : Nat → Nat), lbns.Nodup ∧
      p.eraseRequests = lbns.map od ++ [log] ∧
      (s0.pPAL = s.pPAL ∧ s0.cpu = s.cpu ∧ s0.param = s.param ∧ s0.palLog = s.palLog ∧
        s0.SWBlock = s.SWBlock ∧ s0.RWBlocks = s.RWBlocks) ∧
      (∃ taken, s.freeBlocks = taken ++ s0.freeBlocks) ∧
      (∀ a, a ∉ lbns → s0.logicalToPhysicalBlockMapping a = s.logicalToPhysicalBlockMapping a) ∧
      (∀ a p, s0.logicalToPhysicalBlockMapping a = some p →
        s.logicalToPhysicalBlockMapping a = some p ∨ p ∈ s.freeBlocks) ∧
      (∀ a, a ∈ lbns → s.logicalToPhysicalBlockMapping a = some (od a)) ∧
      (∀ b a, s0.physicalToLogicalBlockMapping b = some a →
        s.physicalToLogicalBlockMapping b = some a ∨
          s0.logicalToPhysicalBlockMapping a = some b) := by
  obtain ⟨s1, nw, od, logWrites, X, s2, hassign, -, hfree, hs0, -, her⟩ := mergePlanRW_eq h
  obtain ⟨u1, -⟩ := sortUnique_spec (s.mergeRWCollect log).1
  obtain ⟨⟨q1, q2, q3, q4, q5, q6⟩, ⟨tk, htk⟩, i1, -, i3, i4, i5⟩ :=
    mergeRWAssign_step _ _ _ _ _ _ _ hassign
  obtain ⟨tl, htl, hs2⟩ := getFreeBlock_eq hfree
  subst hs2
  subst hs0
  refine ⟨_, od, u1, her, ⟨q1, q2, q3, q4, q5, q6⟩, ⟨tk ++ [X], ?_⟩, i1, i3, i4 u1, ?_⟩
  · show s.freeBlocks = (tk ++ [X]) ++ tl
    have : s.freeBlocks = tk ++ s1.freeBlocks := htk
    rw [this, htl, List.append_assoc]
    rfl
  · intro b a hb
    have hb1 : upd s1.physicalToLogicalBlockMapping X none b = some a := hb
    rw [upd_apply] at hb1
    split at hb1
    · exact absurd hb1 (by simp)
    · exact i5 u1 b a hb1

/-- A merge in any state keeps the block allocation; the merge of the SW block
is assumed to be called on the SW block. The returned tick is not before the
input tick. -/
theorem mergeLogBlock_step {s S : FastMapping} {log tick t : Nat} {k : BlockType}
    {ap : Option Nat} {sendToPAL : Bool}
    (h : s.mergeLogBlock log k ap tick sendToPAL = some (S, t))
    (hk : k = BlockType.kBlockTypeSW → s.SWBlock = some log) :
    BlockStep s S ∧ S.RWBlocks = s.RWBlocks ∧
      (k = BlockType.kBlockTypeRW → S.SWBlock = s.SWBlock) ∧ tick ≤ t := by
  obtain ⟨s0, p, hplan, hrun⟩ := mergeLogBlock_cases h
  obtain ⟨⟨m1, m2, m3, m4, m5, m6, m7⟩, -, -, -, hle⟩ := mergeRun_spec hrun
  unfold mergePlan at hplan
  split at hplan
  · split at hplan
    · exact absurd hplan (by simp)
    · obtain ⟨lbns, od, -, -, ⟨q1, q2, q3, q4, q5, q6⟩, ⟨tk, htk⟩, -, i3, -, -⟩ :=
        mergePlanRW_step hplan
      refine ⟨⟨m1.trans q1, m2.trans q2, m3.trans q3, ⟨tk, by rw [m5]; exact htk⟩, ?_, ?_, ?_⟩,
        m7.trans q6, fun _ => m6.trans q5, hle⟩
      · intro b hb
        rw [m6, q5] at hb
        exact Or.inl hb
      · intro b hb
        rw [m7, q6] at hb
        exact Or.inl hb
      · intro a q hq
        rw [m4] at hq
        rcases i3 a q hq with h1 | h1
        · exact Or.inl h1
        · exact Or.inr (Or.inl h1)
  · obtain ⟨o, old, ho, hold, q1, q2, q3, q4, -, q6, -, hcase⟩ := mergePlanSW_cases hplan
    have hsw := hk rfl
    rcases hcase with ⟨-, c1, c2, c3, c4, -⟩ | ⟨-, nd, nsw, c1, c2, c3, c4, -⟩
    · refine ⟨⟨m1.trans q1, m2.trans q2, m3.trans q3, ⟨[], by rw [m5, c3]; rfl⟩, ?_, ?_, ?_⟩,
        m7.trans q6, fun hx => absurd hx (by simp), hle⟩
      · intro b hb
        rw [m6, c4] at hb
        exact Or.inl hb
      · intro b hb
        rw [m7, q6] at hb
        exact Or.inl hb
      · intro a q hq
        rw [m4, c1, upd_apply] at hq
        split at hq
        · injection hq with hq
          exact Or.inr (Or.inr (hq ▸ hsw))
        · exact Or.inl hq
    · refine ⟨⟨m1.trans q1, m2.trans q2, m3.trans q3, ⟨[nd, nsw], by rw [m5]; exact c1⟩,
        ?_, ?_, ?_⟩, m7.trans q6, fun hx => absurd hx (by simp), hle⟩
      · intro b hb
        rw [m6, c4] at hb
        injection hb with hb
        right
        rw [c1, ← hb]
        exact List.mem_cons_of_mem _ (List.mem_cons_self _ _)
      · intro b hb
        rw [m7, q6] at hb
        exact Or.inl hb
      · intro a q hq
        rw [m4, c2, upd_apply] at hq
        split at hq
        · injection hq with hq
          right
          left
          rw [c1, ← hq]
          exact List.mem_cons_self _ _
        · exact Or.inl hq
  · exact absurd hplan (by simp)

/-- After the merge of the SW block every owner recorded in `P2L` is the
logical block of a data block. -/
theorem mergeSW_p2lData {s S : FastMapping} {log tick t : Nat} {ap : Option Nat}
    {sendToPAL : Bool} (hp : P2LConsistent s) (hsw : s.SWBlock = some log)
    (h : s.mergeLogBlock log BlockType.kBlockTypeSW ap tick sendToPAL = some (S, t)) :
    P2LData S := by
  obtain ⟨s0, p, hplan, hrun⟩ := mergeLogBlock_cases h
  obtain ⟨⟨-, -, -, m4, -, -, -⟩, mP, -⟩ := mergeRun_spec hrun
  have hplan1 : s.mergePlanSW log ap = some (s0, p) := hplan
  obtain ⟨o, old, ho, hold, -, -, -, -, -, -, -, hcase⟩ := mergePlanSW_cases hplan1
  intro b a hb
  rw [mP] at hb
  split at hb
  · exact absurd hb (by simp)
  · rename_i hner
    rw [m4]
    rcases hcase with ⟨-, c1, c2, -, -, -, -, c5⟩ | ⟨-, nd, nsw, -, c2, c3, -, -, -, c5⟩
    · rw [c5, List.mem_singleton] at hner
      rw [c2] at hb
      rw [c1, upd_apply]
      rcases hp b a hb with h1 | h1
      · split
        · rename_i hao
          rw [hao, hold] at h1
          injection h1 with h1
          exact absurd h1.symm hner
        · exact h1
      · rw [hsw] at h1
        injection h1 with h1
        rw [← h1, ho] at hb
        injection hb with hb
        rw [if_pos hb.symm, h1]
    · rw [c5] at hner
      simp only [List.mem_cons, List.mem_singleton, List.not_mem_nil, or_false, not_or] at hner
      rw [c3, upd_apply] at hb
      split at hb
      · exact absurd hb (by simp)
      · rw [upd_apply] at hb
        rw [c2, upd_apply]
        split at hb
        · rename_i hbn
          injection hb with hb
          rw [if_pos hb.symm, hbn]
        · rcases hp b a hb with h1 | h1
          · split
            · rename_i hao
              rw [hao, hold] at h1
              injection h1 with h1
              exact absurd h1.symm hner.1
            · exact h1
          · rw [hsw] at h1
            injection h1 with h1
            exact absurd h1.symm hner.2

/-- The merge of an RW block keeps `P2L` consistent. -/
theorem mergeRW_p2l {s S : FastMapping} {log tick t : Nat} {ap : Option Nat}
    {sendToPAL : Bool} (hp : P2LConsistent s)
    (h : s.mergeLogBlock log BlockType.kBlockTypeRW ap tick sendToPAL = some (S, t)) :
    P2LConsistent S := by
  obtain ⟨s0, p, hplan, hrun⟩ := mergeLogBlock_cases h
  obtain ⟨⟨-, -, -, m4, -, m6, -⟩, mP, -⟩ := mergeRun_spec hrun
  unfold mergePlan at hplan
  simp only [] at hplan
  split at hplan
  · exact absurd hplan (by simp)
  obtain ⟨lbns, od, -, her, ⟨-, -, -, -, q5, -⟩, -, i1, -, i4, i5⟩ := mergePlanRW_step hplan
  intro b a hb
  rw [mP] at hb
  split at hb
  · exact absurd hb (by simp)
  · rename_i hner
    rw [m4, m6, q5]
    rcases i5 b a hb with h1 | h1
    · rcases hp b a h1 with h2 | h2
      · by_cases ha : a ∈ lbns
        · exfalso
          apply hner
          rw [her]
          apply List.mem_append_left
          have := i4 a ha
          rw [h2] at this
          injection this with this
          rw [this]
          exact List.mem_map_of_mem _ ha
        · left
          rw [i1 a ha]
          exact h2
      · exact Or.inr h2
    · exact Or.inl h1

end FastMapping

end SimpleSSD


namespace SimpleSSD

namespace FastMapping

/-- Removing owners from `P2L` or setting the owner of the SW block keeps
`P2L` consistent. -/
theorem P2LConsistent.of_sub {s s1 : FastMapping} (hp : P2LConsistent s)
    (hl : s1.logicalToPhysicalBlockMapping = s.logicalToPhysicalBlockMapping)
    (hsw : s1.SWBlock = s.SWBlock)
    (hsub : ∀ b a, s1.physicalToLogicalBlockMapping b = some a →
      s.physicalToLogicalBlockMapping b = some a ∨ s1.SWBlock = some b) :
    P2LConsistent s1 := by
  intro b a hb
  rcases hsub b a hb with h | h
  · rw [hl, hsw]
    exact hp b a h
  · exact Or.inr h

theorem writeEnsureMapping_step {s s1 : FastMapping} {lbn : Nat}
    (h : s.writeEnsureMapping lbn = some s1) :
    BlockStep s s1 ∧ (P2LConsistent s → P2LConsistent s1) := by
  rcases writeEnsureMapping_eq h with ⟨-, rfl⟩ | ⟨hnone, pbn, s0, hf, rfl⟩
  · exact ⟨BlockStep.same _, fun h => h⟩
  · obtain ⟨hst, hmem, e1, e2, e3, e4, e5⟩ := getFreeBlock_step hf
    constructor
    · refine ⟨hst.pal, hst.cpu, hst.param, hst.free, hst.sw, hst.rw, ?_⟩
      intro a p hp
      have hp1 : upd s0.logicalToPhysicalBlockMapping lbn (some pbn) a = some p := hp
      rw [upd_apply] at hp1
      split at hp1
      · injection hp1 with hp1
        exact Or.inr (Or.inl (hp1 ▸ hmem))
      · rw [e2] at hp1
        exact Or.inl hp1
    · intro hp b a hb
      have hb1 : upd s0.physicalToLogicalBlockMapping pbn (some lbn) b = some a := hb
      show upd s0.logicalToPhysicalBlockMapping lbn (some pbn) a = some b ∨ s0.SWBlock = some b
      rw [upd_apply] at hb1
      rw [upd_apply]
      split at hb1
      · rename_i hbp
        injection hb1 with hb1
        left
        rw [if_pos hb1.symm, hbp]
      · rw [e1] at hb1
        rw [e2, e3]
        rcases hp b a hb1 with h1 | h1
        · left
          split
          · rename_i hal
            rw [hal, hnone] at h1
            exact absurd h1 (by simp)
          · exact h1
        · exact Or.inr h1

theorem writeFresh_tables {s s1 : FastMapping} {lpn tick t : Nat} {sendToPAL : Bool}
    (h : s.writeFresh lpn tick sendToPAL = some (s1, t)) : SameTables s s1 := by
  unfold writeFresh at h
  split at h
  · exact absurd h (by simp)
  · simp only [] at h
    split at h
    · exact absurd h (by simp)
    · rename_i s2 hw
      injection h with h
      have h1 := congrArg Prod.fst h
      simp only [] at h1
      rw [← h1]
      exact (writeBlock_tables hw).andThen (palWrite_tables _ _ _ _)

/-- Case 2a in any state. -/
theorem writeSWFirst_step {s s2 : FastMapping} {lpn tick f : Nat} {sendToPAL : Bool}
    (h : s.writeSWFirst lpn tick sendToPAL = some (s2, f)) :
    BlockStep s s2 ∧ (P2LConsistent s → P2LConsistent s2) := by
  unfold writeSWFirst at h
  cases hsw : s.SWBlock with
  | none => simp [hsw] at h
  | some sw =>
    simp only [hsw] at h
    cases hcl : (s.physicalBlocks sw).isCleanBlock with
    | true =>
      simp only [hcl, if_true, hsw] at h
      cases hw : s.writeBlock sw 0 lpn tick with
      | none => simp [hw] at h
      | some s4 =>
        simp only [hw, Option.some.injEq, Prod.mk.injEq] at h
        obtain ⟨h1, -⟩ := h
        have t1 := writeBlock_tables hw
        have t2 := palWrite_tables ({ s4 with
          physicalToLogicalBlockMapping :=
            upd s4.physicalToLogicalBlockMapping sw (some (s.convertPageToBlock lpn)) } :
          FastMapping) { blockIndex := sw, pageIndex := 0 } tick sendToPAL
        rw [h1] at t2
        constructor
        · refine ⟨t2.pal.trans t1.pal, t2.cpu.trans t1.cpu, t2.param.trans t1.param,
            ⟨[], by rw [t2.free]; exact t1.free.symm⟩, ?_, ?_, ?_⟩
          · intro b hb
            rw [t2.sw] at hb
            exact Or.inl (t1.sw ▸ hb)
          · intro b hb
            rw [t2.rw] at hb
            exact Or.inl (t1.rw ▸ hb)
          · intro a q hq
            rw [t2.l2p] at hq
            exact Or.inl (t1.l2p ▸ hq)
        · intro hp
          apply hp.of_sub (t2.l2p.trans t1.l2p) (t2.sw.trans t1.sw)
          intro b a hb
          rw [t2.p2l] at hb
          have hb1 : upd s4.physicalToLogicalBlockMapping sw
              (some (s.convertPageToBlock lpn)) b = some a := hb
          rw [upd_apply] at hb1
          split at hb1
          · rename_i hbs
            right
            rw [t2.sw]
            show s4.SWBlock = some b
            rw [t1.sw, hsw, hbs]
          · left
            rw [t1.p2l] at hb1
            exact hb1
    | false =>
      simp only [hcl, Bool.false_eq_true, if_false] at h
      cases hm : s.mergeLogBlock sw BlockType.kBlockTypeSW none tick sendToPAL with
      | none => simp [hm] at h
      | some x =>
        obtain ⟨S, t⟩ := x
        simp only [hm] at h
        cases hf : S.getFreeBlock with
        | none => simp [hf] at h
        | some y =>
          obtain ⟨nb, S2⟩ := y
          simp only [hf] at h
          obtain ⟨hst, hmem, e1, e2, e3, e4, e5⟩ := getFreeBlock_step hf
          cases hw : ({ S2 with SWBlock := some nb } : FastMapping).writeBlock nb 0 lpn tick with
          | none => simp [hw] at h
          | some s4 =>
            simp only [hw, Option.some.injEq, Prod.mk.injEq] at h
            obtain ⟨h1, -⟩ := h
            have t1 := writeBlock_tables hw
            have t2 := palWrite_tables ({ s4 with
              physicalToLogicalBlockMapping :=
                upd s4.physicalToLogicalBlockMapping nb (some (s.convertPageToBlock lpn)) } :
              FastMapping) { blockIndex := nb, pageIndex := 0 } tick sendToPAL
            rw [h1] at t2
            obtain ⟨hms, -, -, -⟩ := mergeLogBlock_step hm (fun _ => hsw)
            have hS3 : BlockStep S ({ S2 with SWBlock := some nb } : FastMapping) := by
              refine ⟨hst.pal, hst.cpu, hst.param, hst.free, ?_, hst.rw, hst.l2p⟩
              intro b hb
              injection hb with hb
              exact Or.inr (hb ▸ hmem)
            have h34 : BlockStep ({ S2 with SWBlock := some nb } : FastMapping) s2 := by
              refine ⟨t2.pal.trans t1.pal, t2.cpu.trans t1.cpu, t2.param.trans t1.param,
                ⟨[], by rw [t2.free]; exact t1.free.symm⟩, ?_, ?_, ?_⟩
              · intro b hb
                rw [t2.sw] at hb
                exact Or.inl (t1.sw ▸ hb)
              · intro b hb
                rw [t2.rw] at hb
                exact Or.inl (t1.rw ▸ hb)
              · intro a q hq
                rw [t2.l2p] at hq
                exact Or.inl (t1.l2p ▸ hq)
            refine ⟨(hms.comp hS3).comp h34, ?_⟩
            intro hp
            have hd := mergeSW_p2lData hp hsw hm
            intro b a hb
            rw [t2.p2l] at hb
            have hb1 : upd s4.physicalToLogicalBlockMapping nb
                (some (s.convertPageToBlock lpn)) b = some a := hb
            rw [upd_apply] at hb1
            split at hb1
            · rename_i hbs
              right
              rw [t2.sw]
              show s4.SWBlock = some b
              rw [t1.sw, hbs]
            · left
              rw [t1.p2l] at hb1
              have hb2 : S2.physicalToLogicalBlockMapping b = some a := hb1
              rw [e1] at hb2
              rw [t2.l2p]
              show s4.logicalToPhysicalBlockMapping a = some b
              rw [t1.l2p]
              show S2.logicalToPhysicalBlockMapping a = some b
              rw [e2]
              exact hd b a hb2

/-- Case 2b in any state; `sw` is the SW block. -/
theorem writeSWAppend_step {s s2 : FastMapping} {sw lpn tick f : Nat} {sendToPAL : Bool}
    (hsw : s.SWBlock = some sw)
    (h : s.writeSWAppend sw lpn tick sendToPAL = some (s2, f)) :
    BlockStep s s2 ∧ (P2LConsistent s → P2LConsistent s2) := by
  unfold writeSWAppend at h
  simp only [] at h
  split at h
  · cases hw : s.writeBlock sw (s.convertPageToOffsetInBlock lpn) lpn tick with
    | none => simp [hw] at h
    | some s4 =>
      simp only [hw, Option.some.injEq, Prod.mk.injEq] at h
      obtain ⟨h1, -⟩ := h
      have t := (writeBlock_tables hw).andThen (palWrite_tables s4
        { blockIndex := sw, pageIndex := s.convertPageToOffsetInBlock lpn } tick sendToPAL)
      rw [h1] at t
      exact ⟨t.step, t.p2lConsistent⟩
  · cases hm : s.mergeLogBlock sw BlockType.kBlockTypeSW
        (some (s.convertPageToOffsetInBlock lpn)) tick sendToPAL with
    | none => simp [hm] at h
    | some x =>
      obtain ⟨S, t⟩ := x
      simp only [hm, Option.some.injEq, Prod.mk.injEq] at h
      obtain ⟨h1, -⟩ := h
      subst h1
      obtain ⟨hms, -, -, -⟩ := mergeLogBlock_step hm (fun _ => hsw)
      exact ⟨hms, fun hp => (mergeSW_p2lData hp hsw hm).consistent⟩

/-- Case 2c in any state. -/
theorem writeRW_step {s s2 : FastMapping} {lpn tick f : Nat} {sendToPAL : Bool}
    (h : s.writeRW lpn tick sendToPAL = some (s2, f)) :
    BlockStep s s2 ∧ (P2LConsistent s → P2LConsistent s2) := by
  unfold writeRW at h
  cases hfind : s.RWBlocks.find? (fun rwBlockNum =>
      (s.physicalBlocks rwBlockNum).getErasedPageCount != 0) with
  | some tgt =>
    simp only [hfind] at h
    cases hw : s.writeBlock tgt (s.physicalBlocks tgt).getNextWritePageIndex lpn tick with
    | none => simp [hw] at h
    | some s4 =>
      simp only [hw, Option.some.injEq, Prod.mk.injEq] at h
      obtain ⟨h1, -⟩ := h
      have t0 : SameTables s4 ({ s4 with
          RWlogMapping := upd s4.RWlogMapping lpn
            (some (tgt, (s.physicalBlocks tgt).getNextWritePageIndex)) } : FastMapping) :=
        ⟨rfl, rfl, rfl, rfl, rfl, rfl, rfl, rfl⟩
      have t := ((writeBlock_tables hw).andThen t0).andThen (palWrite_tables _
        { blockIndex := tgt, pageIndex := (s.physicalBlocks tgt).getNextWritePageIndex }
        tick sendToPAL)
      rw [h1] at t
      exact ⟨t.step, t.p2lConsistent⟩
  | none =>
    simp only [hfind] at h
    cases hRW : s.RWBlocks with
    | nil => simp [hRW] at h
    | cons victim rest =>
      simp only [hRW] at h
      cases hm : ({ s with RWBlocks := rest } : FastMapping).mergeLogBlock victim
          BlockType.kBlockTypeRW none tick sendToPAL with
      | none => simp [hm] at h
      | some x =>
        obtain ⟨S, t⟩ := x
        simp only [hm] at h
        cases hf : S.getFreeBlock with
        | none => simp [hf] at h
        | some y =>
          obtain ⟨nb, S2⟩ := y
          simp only [hf] at h
          obtain ⟨hst, hmem, e1, e2, e3, e4, e5⟩ := getFreeBlock_step hf
          cases hw : ({ S2 with
              RWBlocks := S2.RWBlocks ++ [nb]
              physicalToLogicalBlockMapping :=
                upd S2.physicalToLogicalBlockMapping nb none } : FastMapping).writeBlock nb
              (S2.physicalBlocks nb).getNextWritePageIndex lpn tick with
          | none => simp [hw] at h
          | some s4 =>
            simp only [hw, Option.some.injEq, Prod.mk.injEq] at h
            obtain ⟨h1, -⟩ := h
            have t0 : SameTables s4 ({ s4 with
                RWlogMapping := upd s4.RWlogMapping lpn
                  (some (nb, (S2.physicalBlocks nb).getNextWritePageIndex)) } : FastMapping) :=
              ⟨rfl, rfl, rfl, rfl, rfl, rfl, rfl, rfl⟩
            have t := ((writeBlock_tables hw).andThen t0).andThen (palWrite_tables _
              { blockIndex := nb, pageIndex := (S2.physicalBlocks nb).getNextWritePageIndex }
              tick sendToPAL)
            rw [h1] at t
            obtain ⟨hms, -, hmsw, -⟩ := mergeLogBlock_step hm (fun hx => absurd hx (by simp))
            have h0 : BlockStep s ({ s with RWBlocks := rest } : FastMapping) := by
              refine ⟨rfl, rfl, rfl, ⟨[], rfl⟩, fun _ hb => Or.inl hb, ?_, fun _ _ hq => Or.inl hq⟩
              intro b hb
              left
              rw [hRW]
              exact List.mem_cons_of_mem _ hb
            have hS3 : BlockStep S ({ S2 with
                RWBlocks := S2.RWBlocks ++ [nb]
                physicalToLogicalBlockMapping :=
                  upd S2.physicalToLogicalBlockMapping nb none } : FastMapping) := by
              refine ⟨hst.pal, hst.cpu, hst.param, hst.free, hst.sw, ?_, hst.l2p⟩
              intro b hb
              have hb1 : b ∈ S2.RWBlocks ++ [nb] := hb
              rw [List.mem_append, List.mem_singleton] at hb1
              rcases hb1 with hb1 | hb1
              · exact hst.rw b hb1
              · exact Or.inr (hb1 ▸ hmem)
            refine ⟨((h0.comp hms).comp hS3).comp t.step, ?_⟩
            intro hp
            have hp0 : P2LConsistent ({ s with RWBlocks := rest } : FastMapping) := hp
            have hpS := mergeRW_p2l hp0 hm
            apply t.p2lConsistent
            intro b a hb
            have hb1 : upd S2.physicalToLogicalBlockMapping nb none b = some a := hb
            rw [upd_apply] at hb1
            split at hb1
            · exact absurd hb1 (by simp)
            · rw [e1] at hb1
              show S2.logicalToPhysicalBlockMapping a = some b ∨ S2.SWBlock = some b
              rw [e2, e3]
              exact hpS b a hb1

end FastMapping

end SimpleSSD


namespace SimpleSSD

namespace FastMapping

theorem writeOverwrite_step {s s2 : FastMapping} {lpn tick f b i : Nat} {k : BlockType}
    {sendToPAL : Bool} (h : s.writeOverwrite lpn tick sendToPAL b i k = some (s2, f)) :
    BlockStep s s2 ∧ (P2LConsistent s → P2LConsistent s2) := by
  have t0 := writeInvalidate_tables s lpn tick b i k
  unfold writeOverwrite at h
  simp only [] at h
  have key : BlockStep (s.writeInvalidate lpn tick b i k) s2 ∧
      (P2LConsistent (s.writeInvalidate lpn tick b i k) → P2LConsistent s2) := by
    split at h
    · exact writeSWFirst_step h
    · split at h
      · exact absurd h (by simp)
      · rename_i sw hsw
        split at h
        · exact writeSWAppend_step hsw h
        · exact writeRW_step h
  exact ⟨t0.step.comp key.1, fun hp => key.2 (t0.p2lConsistent hp)⟩

/-- A `writeInternal` call in any state keeps the block allocation and the
consistency of `P2L`. -/
theorem writeInternal_step {s s2 : FastMapping} {lpn tick t : Nat} {sendToPAL : Bool}
    (h : s.writeInternal lpn tick sendToPAL = some (s2, t)) :
    BlockStep s s2 ∧ (P2LConsistent s → P2LConsistent s2) := by
  unfold writeInternal at h
  simp only [] at h
  split at h
  · split at h
    · exact absurd h (by simp)
    · rename_i sA hA
      obtain ⟨a1, a2⟩ := writeEnsureMapping_step hA
      split at h
      · exact absurd h (by simp)
      · rename_i s3 f3 hwr
        injection h with h
        injection h with h1 h2
        subst h1
        split at hwr
        · exact absurd hwr (by simp)
        · have t := writeFresh_tables hwr
          exact ⟨a1.comp t.step, fun hp => t.p2lConsistent (a2 hp)⟩
        · obtain ⟨b1, b2⟩ := writeOverwrite_step hwr
          exact ⟨a1.comp b1, fun hp => b2 (a2 hp)⟩
  · exact absurd h (by simp)

/-- A `readInternal` call changes none of the tables. -/
theorem readInternal_tables {s s1 : FastMapping} {lpn tick t : Nat}
    (h : s.readInternal lpn tick = some (s1, t)) : SameTables s s1 := by
  unfold readInternal at h
  split at h
  · exact absurd h (by simp)
  · injection h with h
    injection h with h1 h2
    subst h1
    exact SameTables.idem _
  · rename_i pbn pageIdx k hf
    split at h
    · exact absurd h (by simp)
    · rename_i x b hb
      injection h with h
      injection h with h1 h2
      rw [← h1]
      have h0 : SameTables s
          ({ s with physicalBlocks := upd s.physicalBlocks pbn b } : FastMapping) :=
        ⟨rfl, rfl, rfl, rfl, rfl, rfl, rfl, rfl⟩
      exact h0.andThen (palRead_tables _ _ _ _)

/-- In every reachable state `P2L` is consistent. -/
theorem Reachable.p2l {s : FastMapping} (h : Reachable s) : P2LConsistent s := by
  induction h with
  | init p l c s h =>
    obtain ⟨-, -, h3, -⟩ := new_eq h
    intro b a hb
    rw [h3] at hb
    exact absurd hb (by simp)
  | write s lpn tick sendToPAL s1 tick1 _ hw ih => exact (writeInternal_step hw).2 ih
  | read s lpn tick s1 tick1 _ hr ih => exact (readInternal_tables hr).p2lConsistent ih

/-- In every reachable state the free blocks, the SW block, the RW blocks and
the data blocks are physical blocks of the device. -/
theorem Reachable.bounded {s : FastMapping} (h : Reachable s) :
    (∀ b, b ∈ s.freeBlocks → b < s.param.totalPhysicalBlocks) ∧
      (∀ b, s.SWBlock = some b → b < s.param.totalPhysicalBlocks) ∧
      (∀ b, b ∈ s.RWBlocks → b < s.param.totalPhysicalBlocks) ∧
      (∀ a b, s.logicalToPhysicalBlockMapping a = some b → b < s.param.totalPhysicalBlocks) := by
  induction h with
  | init p l c s h =>
    obtain ⟨h1, h2, -, -, h5, -, h7, h8, h9⟩ := new_eq h
    rw [h1]
    refine ⟨?_, ?_, ?_, ?_⟩
    · intro b hb
      rw [h5, List.mem_range'] at hb
      obtain ⟨i, hi, rfl⟩ := hb
      omega
    · intro b hb
      rw [h7] at hb
      injection hb with hb
      omega
    · intro b hb
      rw [h8] at hb
      simp only [List.mem_cons, List.mem_singleton, List.not_mem_nil, or_false] at hb
      omega
    · intro a b hb
      rw [h2] at hb
      exact absurd hb (by simp)
  | write s lpn tick sendToPAL s1 tick1 _ hw ih =>
    obtain ⟨st, -⟩ := writeInternal_step hw
    obtain ⟨i1, i2, i3, i4⟩ := ih
    rw [st.param]
    refine ⟨fun b hb => i1 b (st.mem_free hb), ?_, ?_, ?_⟩
    · intro b hb
      rcases st.sw b hb with h | h
      · exact i2 b h
      · exact i1 b h
    · intro b hb
      rcases st.rw b hb with h | h
      · exact i3 b h
      · exact i1 b h
    · intro a b hb
      rcases st.l2p a b hb with h | h | h
      · exact i4 a b h
      · exact i1 b h
      · exact i2 b h
  | read s lpn tick s1 tick1 _ hr ih =>
    have t := readInternal_tables hr
    rw [t.param, t.free, t.sw, t.rw, t.l2p]
    exact ih

end FastMapping

end SimpleSSD


namespace SimpleSSD

namespace FastMapping

/-- A merge in any state takes its blocks from the head of `freeBlocks`. -/
theorem mergeLogBlock_free {s S : FastMapping} {log tick t : Nat} {k : BlockType}
    {ap : Option Nat} {sendToPAL : Bool}
    (h : s.mergeLogBlock log k ap tick sendToPAL = some (S, t)) :
    ∃ taken, s.freeBlocks = taken ++ S.freeBlocks := by
  obtain ⟨s0, p, hplan, hrun⟩ := mergeLogBlock_cases h
  obtain ⟨⟨-, -, -, -, m5, -, -⟩, -⟩ := mergeRun_spec hrun
  rw [m5]
  unfold mergePlan at hplan
  split at hplan
  · split at hplan
    · exact absurd hplan (by simp)
    · obtain ⟨lbns, od, -, -, -, hfr, -⟩ := mergePlanRW_step hplan
      exact hfr
  · obtain ⟨o, old, -, -, -, -, -, -, -, -, -, hcase⟩ := mergePlanSW_cases hplan
    rcases hcase with ⟨-, -, -, c3, -⟩ | ⟨-, nd, nsw, c1, -⟩
    · exact ⟨[], by rw [c3]; rfl⟩
    · exact ⟨[nd, nsw], c1⟩
  · exact absurd hplan (by simp)

/-- C30. `eraseInternal` effect and frame. In every state, `eraseInternal` of
block `pbn` leaves that block with all its pages erased, no valid page, cursor
0 and the erase count increased by one (index, page count and LPN array
unchanged), sets `P2L[pbn]` to unowned, and leaves `freeBlocks`, `L2P`,
`RWBlocks`, `SWBlock`, `RWlogMapping`, the other entries of `P2L` and every
other block unchanged; the PAL log gets the erase call when `sendToPAL` holds;
the tick is the finish tick of that call (the input tick without PAL) plus the
erase-internal latency. The erased block is not pushed onto `freeBlocks`, and
no operation does so: after `getFreeBlock`, `mergeLogBlock`, `readInternal`
and `writeInternal` in any state the free queue is the old queue without some
blocks at its head, hence not longer than before. -/
theorem erase_frame :
    (∀ (s : FastMapping) (pbn tick : Nat) (sendToPAL : Bool),
      (∀ i, i < (s.physicalBlocks pbn).pageCount →
        ((s.eraseInternal pbn tick sendToPAL).1.physicalBlocks pbn).isErased i = true) ∧
      (∀ i, ((s.eraseInternal pbn tick sendToPAL).1.physicalBlocks pbn).isValid i = false) ∧
      ((s.eraseInternal pbn tick sendToPAL).1.physicalBlocks pbn).getNextWritePageIndex = 0 ∧
      ((s.eraseInternal pbn tick sendToPAL).1.physicalBlocks pbn).getEraseCount =
        (s.physicalBlocks pbn).getEraseCount + 1 ∧
      (s.eraseInternal pbn tick sendToPAL).1.physicalBlocks pbn = (s.physicalBlocks pbn).erase ∧
      (s.eraseInternal pbn tick sendToPAL).1.physicalToLogicalBlockMapping pbn = none ∧
      (∀ b, b ≠ pbn →
        (s.eraseInternal pbn tick sendToPAL).1.physicalToLogicalBlockMapping b =
          s.physicalToLogicalBlockMapping b ∧
        (s.eraseInternal pbn tick sendToPAL).1.physicalBlocks b = s.physicalBlocks b) ∧
      (s.eraseInternal pbn tick sendToPAL).1.freeBlocks = s.freeBlocks ∧
      (s.eraseInternal pbn tick sendToPAL).1.logicalToPhysicalBlockMapping =
        s.logicalToPhysicalBlockMapping ∧
      (s.eraseInternal pbn tick sendToPAL).1.RWBlocks = s.RWBlocks ∧
      (s.eraseInternal pbn tick sendToPAL).1.SWBlock = s.SWBlock ∧
      (s.eraseInternal pbn tick sendToPAL).1.RWlogMapping = s.RWlogMapping ∧
      (s.eraseInternal pbn tick sendToPAL).1.palLog = s.palLog ++
        (if sendToPAL then [PalOp.erase { blockIndex := pbn, pageIndex := 0 } tick] else []) ∧
      (s.eraseInternal pbn tick sendToPAL).2 =
        (if sendToPAL then s.pPAL.erase { blockIndex := pbn, pageIndex := 0 } tick else tick) +
          s.cpu.ERASE_INTERNAL) ∧
    (∀ (s s1 : FastMapping) (p : Nat), s.getFreeBlock = some (p, s1) →
      s.freeBlocks = p :: s1.freeBlocks ∧ s1.freeBlocks.length + 1 = s.freeBlocks.length) ∧
    (∀ (s S : FastMapping) (log tick t : Nat) (k : BlockType) (ap : Option Nat)
      (sendToPAL : Bool), s.mergeLogBlock log k ap tick sendToPAL = some (S, t) →
      (∃ taken, s.freeBlocks = taken ++ S.freeBlocks) ∧
        S.freeBlocks.length ≤ s.freeBlocks.length) ∧
    (∀ (s s1 : FastMapping) (lpn tick t : Nat), s.readInternal lpn tick = some (s1, t) →
      s1.freeBlocks = s.freeBlocks) ∧
    (∀ (s s1 : FastMapping) (lpn tick t : Nat) (sendToPAL : Bool),
      s.writeInternal lpn tick sendToPAL = some (s1, t) →
      (∃ taken, s.freeBlocks = taken ++ s1.freeBlocks) ∧
        s1.freeBlocks.length ≤ s.freeBlocks.length) := by
  refine ⟨?_, ?_, ?_, ?_, ?_⟩
  · intro s pbn tick sendToPAL
    obtain ⟨⟨a1, a2, a3, a4, a5, a6⟩, a7, a8⟩ := eraseInternal_spec s pbn tick sendToPAL
    have hb : (s.eraseInternal pbn tick sendToPAL).1.physicalBlocks pbn =
        (s.physicalBlocks pbn).erase := by
      rw [a8, upd_apply, if_pos rfl]
    refine ⟨?_, ?_, ?_, ?_, hb, ?_, ?_, a3, a2, a6, a5, a4, ?_, ?_⟩
    · intro i hi
      rw [hb]
      simp [BlockFast.erase, BlockFast.isErased, Bitset.test, Bitset.setAll, hi]
    · intro i
      rw [hb]
      simp [BlockFast.erase, BlockFast.isValid, Bitset.test, Bitset.resetAll]
    · rw [hb]
      rfl
    · rw [hb]
      rfl
    · rw [a7, upd_apply, if_pos rfl]
    · intro b hne
      rw [a7, a8, upd_apply, upd_apply, if_neg hne, if_neg hne]
      exact ⟨rfl, rfl⟩
    · unfold eraseInternal
      cases sendToPAL <;> simp
    · unfold eraseInternal
      cases sendToPAL <;> simp
  · intro s s1 p h
    obtain ⟨-, -, -, -, -, -, e⟩ := getFreeBlock_step h
    refine ⟨e, ?_⟩
    rw [e, List.length_cons]
  · intro s S log tick t k ap sendToPAL h
    obtain ⟨taken, ht⟩ := mergeLogBlock_free h
    refine ⟨⟨taken, ht⟩, ?_⟩
    rw [ht, List.length_append]
    exact Nat.le_add_left _ _
  · intro s s1 lpn tick t h
    exact (readInternal_tables h).free
  · intro s s1 lpn tick t sendToPAL h
    obtain ⟨taken, ht⟩ := (writeInternal_step h).1.free
    refine ⟨⟨taken, ht⟩, ?_⟩
    rw [ht, List.length_append]
    exact Nat.le_add_left _ _

/-- On the example device after the writes 0, 1, 0 the erase of data block 7
leaves the free queue 8, ..., 15 as it is; the next write of LPN 0 merges the
SW block and takes three blocks from the head of the queue. -/
theorem erase_frame_witness :
    (exampleState [0, 1, 0] rfl).freeBlocks = [8, 9, 10, 11, 12, 13, 14, 15] ∧
      ((exampleState [0, 1, 0] rfl).eraseInternal 7 0 false).1.freeBlocks =
        (exampleState [0, 1, 0] rfl).freeBlocks ∧
      (((exampleState [0, 1, 0] rfl).eraseInternal 7 0 false).1.physicalBlocks 7).getEraseCount =
        ((exampleState [0, 1, 0] rfl).physicalBlocks 7).getEraseCount + 1 ∧
      (exampleState [0, 1, 0, 0] rfl).freeBlocks = [11, 12, 13, 14, 15] ∧
      (exampleState [0, 1, 0, 0] rfl).freeBlocks.length ≤
        (exampleState [0, 1, 0] rfl).freeBlocks.length :=
  ⟨rfl, (erase_frame.1 (exampleState [0, 1, 0] rfl) 7 0 false).2.2.2.2.2.2.2.1,
    (erase_frame.1 (exampleState [0, 1, 0] rfl) 7 0 false).2.2.2.1, rfl,
    (erase_frame.2.2.2.2 (exampleState [0, 1, 0] rfl) (exampleState [0, 1, 0, 0] rfl) 0 0
      (((exampleState [0, 1, 0] rfl).writeInternal 0 0 false).get rfl).2 false rfl).2⟩

/-- C24. `P2L`/`L2P` consistency: in every reachable state, for every physical
block `pbn` with `P2L[pbn] = lbn`, either `L2P[lbn] = pbn` or `pbn` is the SW
block. -/
theorem p2l_l2p_consistent {s : FastMapping} (h : Reachable s) (pbn lbn : Nat)
    (hp : s.physicalToLogicalBlockMapping pbn = some lbn) :
    s.logicalToPhysicalBlockMapping lbn = some pbn ∨ s.SWBlock = some pbn :=
  Reachable.p2l h pbn lbn hp

/-- On the example device after the writes 0, 1, 2, 3, 0, 1, 2, 3, 4, 4 block
9 is owned by logical block 1 and is the SW block, while the data block of
logical block 1 is block 8. -/
theorem p2l_l2p_consistent_witness :
    (exampleState [0, 1, 2, 3, 0, 1, 2, 3, 4, 4] rfl).Reachable ∧
      (exampleState [0, 1, 2, 3, 0, 1, 2, 3, 4, 4] rfl).physicalToLogicalBlockMapping 9 =
        some 1 ∧
      (exampleState [0, 1, 2, 3, 0, 1, 2, 3, 4, 4] rfl).logicalToPhysicalBlockMapping 1 =
        some 8 ∧
      ((exampleState [0, 1, 2, 3, 0, 1, 2, 3, 4, 4] rfl).logicalToPhysicalBlockMapping 1 =
          some 9 ∨
        (exampleState [0, 1, 2, 3, 0, 1, 2, 3, 4, 4] rfl).SWBlock = some 9) :=
  ⟨exampleState_reachable _ _, rfl, rfl,
    p2l_l2p_consistent (exampleState_reachable [0, 1, 2, 3, 0, 1, 2, 3, 4, 4] rfl) 9 1 rfl⟩

end FastMapping

end SimpleSSD


namespace SimpleSSD

namespace FastMapping

/-- The block partition as the claim states it fails on the example device:
after the writes 0, 1, 2, 3, 0, 1, 2, 3, 0 the physical block 7, erased by the
merge, is not in `freeBlocks`, not in `RWBlocks`, not the SW block and not the
data block of a logical block. -/
theorem block_partition_counterexample :
    7 < (exampleState [0, 1, 2, 3, 0, 1, 2, 3, 0] rfl).param.totalPhysicalBlocks ∧
      7 ∉ (exampleState [0, 1, 2, 3, 0, 1, 2, 3, 0] rfl).freeBlocks ∧
      7 ∉ (exampleState [0, 1, 2, 3, 0, 1, 2, 3, 0] rfl).RWBlocks ∧
      (exampleState [0, 1, 2, 3, 0, 1, 2, 3, 0] rfl).SWBlock ≠ some 7 ∧
      (exampleState [0, 1, 2, 3, 0, 1, 2, 3, 0] rfl).logicalToPhysicalBlockMapping 0 ≠ some 7 ∧
      (exampleState [0, 1, 2, 3, 0, 1, 2, 3, 0] rfl).logicalToPhysicalBlockMapping 1 ≠ some 7 ∧
      (exampleState [0, 1, 2, 3, 0, 1, 2, 3, 0] rfl).logicalToPhysicalBlockMapping 2 ≠ some 7 ∧
      (exampleState [0, 1, 2, 3, 0, 1, 2, 3, 0] rfl).logicalToPhysicalBlockMapping 3 ≠ some 7 :=
  ⟨by decide, by decide, by decide, by decide, by decide, by decide, by decide, by decide⟩

/-- C22, amended. Block partition. In every reachable state `freeBlocks`,
`RWBlocks`, the SW block and the data blocks (the entries of `L2P`) are
pairwise disjoint, without repetition (a data block belongs to one logical
block), and are physical blocks of the device (less than
`totalPhysicalBlocks`); every physical block outside the four sets is fully
erased, without valid page, with cursor 0 and unowned. -/
theorem block_partition {s : FastMapping} (h : Reachable s) :
    (∀ b, b ∈ s.freeBlocks →
      b ∉ s.RWBlocks ∧ s.SWBlock ≠ some b ∧ ∀ a, s.logicalToPhysicalBlockMapping a ≠ some b) ∧
    (∀ b, b ∈ s.RWBlocks →
      s.SWBlock ≠ some b ∧ ∀ a, s.logicalToPhysicalBlockMapping a ≠ some b) ∧
    (∀ a b, s.logicalToPhysicalBlockMapping a = some b → s.SWBlock ≠ some b) ∧
    (s.freeBlocks.Nodup ∧ s.RWBlocks.Nodup ∧
      ∀ a a1 b, s.logicalToPhysicalBlockMapping a = some b →
        s.logicalToPhysicalBlockMapping a1 = some b → a = a1) ∧
    ((∀ b, b ∈ s.freeBlocks → b < s.param.totalPhysicalBlocks) ∧
      (∀ b, s.SWBlock = some b → b < s.param.totalPhysicalBlocks) ∧
      (∀ b, b ∈ s.RWBlocks → b < s.param.totalPhysicalBlocks) ∧
      (∀ a b, s.logicalToPhysicalBlockMapping a = some b →
        b < s.param.totalPhysicalBlocks)) ∧
    (∀ b, b ∉ s.freeBlocks → b ∉ s.RWBlocks → s.SWBlock ≠ some b →
      (∀ a, s.logicalToPhysicalBlockMapping a ≠ some b) →
      (∀ i, i < s.param.pagesInBlock → (s.physicalBlocks b).isErased i = true) ∧
        (∀ i, (s.physicalBlocks b).isValid i = false) ∧
        (s.physicalBlocks b).getNextWritePageIndex = 0 ∧
        s.physicalToLogicalBlockMapping b = none) := by
  obtain ⟨c, hi, -⟩ := Reachable.invX h
  obtain ⟨n, hn⟩ := hi.free
  have hge : ∀ b, b ∈ s.freeBlocks → c ≤ b := by
    intro b hb
    rw [hn, List.mem_range'] at hb
    obtain ⟨i, -, rfl⟩ := hb
    omega
  refine ⟨?_, ?_, ?_, ⟨?_, hi.rwNodup, ?_⟩, Reachable.bounded h, ?_⟩
  · intro b hb
    have hcb := hge b hb
    refine ⟨?_, ?_, ?_⟩
    · intro hmem
      have := hi.rwLt b hmem
      omega
    · intro hsw
      have := hi.swLt b hsw
      omega
    · intro a ha
      have := hi.l2pLt a b ha
      omega
  · intro b hb
    exact ⟨fun hsw => hi.swRW b hsw hb, fun a ha => hi.l2pRW a b ha hb⟩
  · intro a b ha
    exact hi.l2pSW a b ha
  · rw [hn]
    exact List.nodup_range' _ _
  · intro a a1 b ha ha1
    exact hi.l2pInj a a1 b ha ha1
  · intro b _ hrw hsw hl
    obtain ⟨h1, h2⟩ := hi.clean b hl hsw hrw
    refine ⟨h1, ?_, h2, ?_⟩
    · intro i
      cases hv : (s.physicalBlocks b).isValid i with
      | false => rfl
      | true =>
        obtain ⟨hlt, he⟩ := hi.bits b i hv
        rw [h1 i hlt] at he
        exact absurd he (by simp)
    · cases hp : s.physicalToLogicalBlockMapping b with
      | none => rfl
      | some a =>
        rcases Reachable.p2l h b a hp with h3 | h3
        · exact absurd h3 (hl a)
        · exact absurd h3 hsw

/-- On the example device after the writes 0, 1, 2, 3, 0, 1, 2, 3, 0 the free
queue is 11, ..., 15, the SW block is 10, the data block of logical block 0 is
8; the blocks 0, 7 and 9 are in none of the sets. -/
theorem block_partition_witness :
    (exampleState [0, 1, 2, 3, 0, 1, 2, 3, 0] rfl).Reachable ∧
      (exampleState [0, 1, 2, 3, 0, 1, 2, 3, 0] rfl).freeBlocks = [11, 12, 13, 14, 15] ∧
      (exampleState [0, 1, 2, 3, 0, 1, 2, 3, 0] rfl).RWBlocks = [1, 2, 3, 4, 5, 6] ∧
      (exampleState [0, 1, 2, 3, 0, 1, 2, 3, 0] rfl).SWBlock = some 10 ∧
      (exampleState [0, 1, 2, 3, 0, 1, 2, 3, 0] rfl).logicalToPhysicalBlockMapping 0 = some 8 ∧
      (∀ b, b ∈ (exampleState [0, 1, 2, 3, 0, 1, 2, 3, 0] rfl).freeBlocks →
        b < (exampleState [0, 1, 2, 3, 0, 1, 2, 3, 0] rfl).param.totalPhysicalBlocks) ∧
      (exampleState [0, 1, 2, 3, 0, 1, 2, 3, 0] rfl).freeBlocks.Nodup :=
  have h := block_partition (exampleState_reachable [0, 1, 2, 3, 0, 1, 2, 3, 0] rfl)
  ⟨exampleState_reachable _ _, rfl, rfl, rfl, rfl, h.2.2.2.2.1.1, h.2.2.2.1.1⟩

end FastMapping

end SimpleSSD


namespace SimpleSSD

namespace FastMapping

/-- The write requests of the SW merge at the Case 2b conflict call site carry
neither the incoming LPN nor its page offset. -/
theorem conflict_plan {s : FastMapping} (h : Reachable s) (lpn tick b i : Nat)
    (k : BlockType) (sw : Nat)
    (hf : s.findValidPage lpn = some (some (b, i, k)))
    (hsw : s.SWBlock = some sw)
    (hown : s.physicalToLogicalBlockMapping sw = some (lpn / s.param.pagesInBlock))
    (he : (s.physicalBlocks sw).isErased (lpn % s.param.pagesInBlock) = false)
    (hfree : 2 ≤ s.freeBlocks.length) :
    ∃ s0 p,
      (s.writeInvalidate lpn tick b i k).mergePlan sw BlockType.kBlockTypeSW
        (some (lpn % s.param.pagesInBlock)) = some (s0, p) ∧
      ∀ w, w ∈ p.writeRequests → w.2 ≠ lpn ∧ w.1.pageIndex ≠ lpn % s.param.pagesInBlock := by
  obtain ⟨c, hi, hx, hi1, hn1, hX1, hpos, hv0, hl0, hbc, hilt, old, hold⟩ :=
    overwrite_setup h tick hf
  obtain ⟨f1, f2, f3, f4, f5, f6, f7, f8⟩ := writeInvalidate_fields s lpn tick b i k
  obtain ⟨v1, v2, v3, v4, v5⟩ := writeInvalidate_views s lpn tick b i k
  have hsw1 : (s.writeInvalidate lpn tick b i k).SWBlock = some sw := by rw [f5, hsw]
  have hpos1 : 0 < (s.writeInvalidate lpn tick b i k).param.pagesInBlock := by rw [f1]; exact hpos
  have hown1 : (s.writeInvalidate lpn tick b i k).physicalToLogicalBlockMapping sw =
      some (lpn / (s.writeInvalidate lpn tick b i k).param.pagesInBlock) := by
    rw [f3, f1, hown]
  have hold1 : (s.writeInvalidate lpn tick b i k).logicalToPhysicalBlockMapping
      (lpn / (s.writeInvalidate lpn tick b i k).param.pagesInBlock) = some old := by
    rw [f2, f1, hold]
  have he1 : (s.writeInvalidate lpn tick b i k).ebit sw
      (lpn % (s.writeInvalidate lpn tick b i k).param.pagesInBlock) = false := by
    rw [v2, f1]
    exact he
  obtain ⟨n0, hn0⟩ := hi.free
  have hn2 : 2 ≤ n0 := by
    rw [hn0, List.length_range'] at hfree
    exact hfree
  have hfr : (s.writeInvalidate lpn tick b i k).freeBlocks = List.range' c (2 + (n0 - 2)) := by
    rw [f4, hn0]
    congr 1
    omega
  obtain ⟨s2, f, -, ⟨t, hmerge⟩, -⟩ :=
    swConflict_case tick false hi1 hn1 hX1 hsw1 hown1 hold1 hpos1 he1 hfr
  rw [f1] at hmerge
  obtain ⟨s0, p, hplan, -⟩ := mergeLogBlock_cases hmerge
  have hplan1 : (s.writeInvalidate lpn tick b i k).mergePlanSW sw
      (some (lpn % s.param.pagesInBlock)) = some (s0, p) := hplan
  obtain ⟨o, old1, ho, hold2, -, -, -, -, -, -, -, hcase⟩ := mergePlanSW_cases hplan1
  rw [f1] at hown1 hold1
  rw [hown1] at ho
  injection ho with ho
  subst ho
  rw [hold1] at hold2
  injection hold2 with hold2
  subst hold2
  have hsrc : ∀ j, ((s.writeInvalidate lpn tick b i k).vbit sw j ||
      (s.writeInvalidate lpn tick b i k).vbit old j) = true →
      lpn / s.param.pagesInBlock * s.param.pagesInBlock + j ≠ lpn := by
    intro j hj heq
    rw [Bool.or_eq_true] at hj
    rcases hj with hj | hj
    · obtain ⟨hlt, hej⟩ := hi1.bits sw j hj
      obtain ⟨o1, h1, -, h3⟩ := hi1.sw sw j hsw1 hlt hej
      rw [hown1] at h1
      injection h1 with h1
      subst h1
      rw [f1] at h3
      exact hn1 sw j hj ((h3 hj).trans heq)
    · have h3 := hi1.data _ old j hold1 hj
      rw [f1] at h3
      exact hn1 old j hj (h3.trans heq)
  have hdm : lpn / s.param.pagesInBlock * s.param.pagesInBlock + lpn % s.param.pagesInBlock =
      lpn := Nat.div_add_mod' _ _
  rcases hcase with ⟨hc, -⟩ | ⟨-, nd, nsw, -, -, -, -, -, hw, -⟩
  · exfalso
    have hvoff : (s.writeInvalidate lpn tick b i k).vbit sw (lpn % s.param.pagesInBlock) =
        false := by
      cases hv : (s.writeInvalidate lpn tick b i k).vbit sw (lpn % s.param.pagesInBlock) with
      | false => rfl
      | true => exact absurd hdm (hsrc _ (by rw [hv]; rfl))
    have hlt : lpn % s.param.pagesInBlock < s.param.pagesInBlock := Nat.mod_lt _ hpos
    rw [f1] at hc
    have hb := (hi1.blk sw).1
    rw [f1] at hb
    unfold BlockFast.getValidPageCount Bitset.count at hc
    rw [hb] at hc
    have hsub : ((List.range s.param.pagesInBlock).filter
        ((s.writeInvalidate lpn tick b i k).physicalBlocks sw).pValidBits).length <
        (List.range s.param.pagesInBlock).length := by
      have hmem : lpn % s.param.pagesInBlock ∈ List.range s.param.pagesInBlock :=
        List.mem_range.mpr hlt
      by_contra hge
      have hle := List.length_filter_le
        ((s.writeInvalidate lpn tick b i k).physicalBlocks sw).pValidBits
        (List.range s.param.pagesInBlock)
      have heq : ((List.range s.param.pagesInBlock).filter
          ((s.writeInvalidate lpn tick b i k).physicalBlocks sw).pValidBits).length =
          (List.range s.param.pagesInBlock).length := by omega
      have hall := (List.filter_length_eq_length.mp heq) _ hmem
      have hv : (s.writeInvalidate lpn tick b i k).vbit sw (lpn % s.param.pagesInBlock) =
          true := hall
      rw [hvoff] at hv
      exact absurd hv (by simp)
    rw [List.length_range] at hsub
    omega
  · rw [f1] at hw
    refine ⟨s0, p, hplan, ?_⟩
    · intro w hwm
      rw [hw, List.mem_map] at hwm
      obtain ⟨j, hj, rfl⟩ := hwm
      rw [List.mem_filter] at hj
      refine ⟨hsrc j hj.2, ?_⟩
      intro hje
      have hje1 : j = lpn % s.param.pagesInBlock := hje
      subst hje1
      exact hsrc _ hj.2 hdm

/-- C29. `additionalPage` is never consumed. In every state, for every log
block, tick and `sendToPAL`, the SW merge builds the same plan (the same
intermediate state and the same read, write and erase queues) and
`mergeLogBlock` gives the same result (state, with the PAL calls it logs, and
tick, or failure) for any two values of `additionalPage`. At the Case 2b
conflict call site (reachable state, the copy found invalidated, the SW block
owned by the logical block of the LPN, SW page `off` not erased, two free
blocks) the plan exists and none of its write requests carries the incoming
LPN or programs page `off`. -/
theorem additionalPage_unused :
    (∀ (s : FastMapping) (log : Nat) (ap ap1 : Option Nat) (tick : Nat) (sendToPAL : Bool),
      s.mergePlanSW log ap = s.mergePlanSW log ap1 ∧
      s.mergePlan log BlockType.kBlockTypeSW ap = s.mergePlan log BlockType.kBlockTypeSW ap1 ∧
      s.mergeLogBlock log BlockType.kBlockTypeSW ap tick sendToPAL =
        s.mergeLogBlock log BlockType.kBlockTypeSW ap1 tick sendToPAL) ∧
    (∀ (s : FastMapping) (lpn tick b i : Nat) (k : BlockType) (sw : Nat), Reachable s →
      s.findValidPage lpn = some (some (b, i, k)) →
      lpn % s.param.pagesInBlock ≠ 0 → s.SWBlock = some sw →
      s.physicalToLogicalBlockMapping sw = some (lpn / s.param.pagesInBlock) →
      (s.physicalBlocks sw).isErased (lpn % s.param.pagesInBlock) = false →
      2 ≤ s.freeBlocks.length →
      ∃ s0 p,
        (s.writeInvalidate lpn tick b i k).mergePlan sw BlockType.kBlockTypeSW
          (some (lpn % s.param.pagesInBlock)) = some (s0, p) ∧
        ∀ w, w ∈ p.writeRequests →
          w.2 ≠ lpn ∧ w.1.pageIndex ≠ lpn % s.param.pagesInBlock) :=
  ⟨fun _ _ _ _ _ _ => ⟨rfl, rfl, rfl⟩,
    fun _ lpn tick b i k sw h hf _ hsw hown he hfree =>
      conflict_plan h lpn tick b i k sw hf hsw hown he hfree⟩

/-- On the example device after the writes of LPN 0, 1, 0, 1 the write of
LPN 1 is a Case 2b conflict: the merge of SW block 0 with additional page 1
copies LPN 0 only (from page 0 of the SW block to page 0 of block 8), and it
is the merge without additional page. -/
theorem additionalPage_unused_witness :
    (exampleState [0, 1, 0, 1] rfl).Reachable ∧
      (exampleState [0, 1, 0, 1] rfl).findValidPage 1 =
        some (some (0, 1, BlockType.kBlockTypeSW)) ∧
      (((exampleState [0, 1, 0, 1] rfl).writeInvalidate 1 0 0 1
          BlockType.kBlockTypeSW).mergePlan 0 BlockType.kBlockTypeSW (some 1)).map
        (fun r => r.2.writeRequests) = some [(PalRequest.mk 8 0, 0)] ∧
      ((exampleState [0, 1, 0, 1] rfl).writeInvalidate 1 0 0 1
          BlockType.kBlockTypeSW).mergeLogBlock 0 BlockType.kBlockTypeSW (some 1) 0 true =
        ((exampleState [0, 1, 0, 1] rfl).writeInvalidate 1 0 0 1
          BlockType.kBlockTypeSW).mergeLogBlock 0 BlockType.kBlockTypeSW none 0 true ∧
      ∃ s0 p,
        ((exampleState [0, 1, 0, 1] rfl).writeInvalidate 1 0 0 1
          BlockType.kBlockTypeSW).mergePlan 0 BlockType.kBlockTypeSW
            (some (1 % (exampleState [0, 1, 0, 1] rfl).param.pagesInBlock)) = some (s0, p) ∧
        ∀ w, w ∈ p.writeRequests →
          w.2 ≠ 1 ∧ w.1.pageIndex ≠ 1 % (exampleState [0, 1, 0, 1] rfl).param.pagesInBlock :=
  ⟨exampleState_reachable _ _, rfl, by decide,
    (additionalPage_unused.1 _ 0 (some 1) none 0 true).2.2,
    additionalPage_unused.2 _ 1 0 0 1 BlockType.kBlockTypeSW 0
      (exampleState_reachable [0, 1, 0, 1] rfl) rfl (by decide) rfl rfl rfl (by decide)⟩

end FastMapping

end SimpleSSD


namespace SimpleSSD

namespace FastMapping

/-- Building the plan of a merge leaves the PAL, the latencies and the PAL
log as they are. -/
theorem mergePlan_static {s s0 : FastMapping} {log : Nat} {k : BlockType} {ap : Option Nat}
    {p : MergePlan} (h : s.mergePlan log k ap = some (s0, p)) :
    s0.pPAL = s.pPAL ∧ s0.cpu = s.cpu ∧ s0.palLog = s.palLog := by
  unfold mergePlan at h
  split at h
  · split at h
    · exact absurd h (by simp)
    · obtain ⟨-, -, -, -, ⟨q1, q2, -, q4, -, -⟩, -⟩ := mergePlanRW_step h
      exact ⟨q1, q2, q4⟩
  · obtain ⟨-, -, -, -, q1, q2, -, q4, -⟩ := mergePlanSW_cases h
    exact ⟨q1, q2, q4⟩
  · exact absurd h (by simp)

/-- A merge that sends its requests to the PAL and returns: the tick is the
composition of the three phases over the plan, and the PAL calls are those of
the plan. -/
theorem mergeLogBlock_tick {s S : FastMapping} {log tick t : Nat} {k : BlockType}
    {ap : Option Nat} (h : s.mergeLogBlock log k ap tick true = some (S, t)) :
    ∃ s0 p, s.mergePlan log k ap = some (s0, p) ∧
      t = mergeTickSpec s.pPAL s.cpu tick p ∧ tick ≤ t ∧
      S.palLog = s.palLog ++ mergeCalls s.pPAL tick p := by
  obtain ⟨s0, p, hplan, hrun⟩ := mergeLogBlock_cases h
  obtain ⟨-, -, ht, hlog, hle⟩ := mergeRun_spec hrun
  obtain ⟨q1, q2, q4⟩ := mergePlan_static hplan
  refine ⟨s0, p, hplan, ?_, hle, ?_⟩
  · rw [ht rfl, q1, q2]
  · rw [hlog, q1, q4]
    rfl

/-- C27. Merge timing composition. With `sendToPAL = true`: (1) in any state,
when `mergeLogBlock` returns, the tick it returns is `mergeTickSpec` of the
plan it built, that is `max(writeFinishAt, eraseFinishAt)` with `readFinishAt`
the maximum of the input tick and the finish ticks of the reads started at the
input tick, `writeFinishAt` the maximum of `readFinishAt` and the finish ticks
of the writes started at `readFinishAt`, `eraseFinishAt` the maximum of
`readFinishAt` and the finish ticks of the erases started at `readFinishAt`
plus the erase-internal latency; it is not before the input tick, whatever the
PAL; the PAL calls logged are those of the plan at these start ticks. (2) The
merge of the SW block, owned and with a data block, returns this tick when the
SW block is fully valid or two blocks are free. (3) The merge of the RW block
at the head of `RWBlocks`, taken off the queue, returns this tick when the
free blocks cover its demand. -/
theorem merge_timing :
    (∀ (s S : FastMapping) (log : Nat) (k : BlockType) (ap : Option Nat) (tick t : Nat),
      s.mergeLogBlock log k ap tick true = some (S, t) →
      ∃ s0 p, s.mergePlan log k ap = some (s0, p) ∧
        t = mergeTickSpec s.pPAL s.cpu tick p ∧ tick ≤ t ∧
        S.palLog = s.palLog ++ mergeCalls s.pPAL tick p) ∧
    (∀ (s : FastMapping) (sw o old : Nat) (ap : Option Nat) (tick : Nat), AtMerge s →
      s.SWBlock = some sw → s.physicalToLogicalBlockMapping sw = some o →
      s.logicalToPhysicalBlockMapping o = some old →
      ((s.physicalBlocks sw).getValidPageCount = s.param.pagesInBlock ∨
        2 ≤ s.freeBlocks.length) →
      ∃ S s0 p, s.mergePlan sw BlockType.kBlockTypeSW ap = some (s0, p) ∧
        s.mergeLogBlock sw BlockType.kBlockTypeSW ap tick true =
          some (S, mergeTickSpec s.pPAL s.cpu tick p) ∧
        tick ≤ mergeTickSpec s.pPAL s.cpu tick p) ∧
    (∀ (s : FastMapping) (victim : Nat) (rest : List Nat) (tick : Nat), AtMerge s →
      s.RWBlocks = victim :: rest →
      ({ s with RWBlocks := rest } : FastMapping).rwMergeDemand victim ≤ s.freeBlocks.length →
      ∃ S s0 p,
        ({ s with RWBlocks := rest } : FastMapping).mergePlan victim BlockType.kBlockTypeRW
          none = some (s0, p) ∧
        ({ s with RWBlocks := rest } : FastMapping).mergeLogBlock victim BlockType.kBlockTypeRW
          none tick true = some (S, mergeTickSpec s.pPAL s.cpu tick p) ∧
        tick ≤ mergeTickSpec s.pPAL s.cpu tick p) := by
  refine ⟨fun s S log k ap tick t h => mergeLogBlock_tick h, ?_, ?_⟩
  · intro s sw o old ap tick hA hsw ho hold hc
    obtain ⟨c, hi⟩ := hA.holds
    have hret : ∃ S t, s.mergeLogBlock sw BlockType.kBlockTypeSW ap tick true = some (S, t) := by
      by_cases hcnt : (s.physicalBlocks sw).getValidPageCount = s.param.pagesInBlock
      · exact ⟨_, _, (mergeSW_switch s sw o old ap tick true ho hold hcnt).2⟩
      · have hfree : 2 ≤ s.freeBlocks.length := hc.resolve_left hcnt
        obtain ⟨n0, hn0⟩ := hi.free
        have hn2 : 2 ≤ n0 := by
          rw [hn0, List.length_range'] at hfree
          exact hfree
        have hfr : s.freeBlocks = List.range' c (2 + (n0 - 2)) := by
          rw [hn0]
          congr 1
          omega
        obtain ⟨S, t, hm, -⟩ := mergeSW_full hi hsw ho hold hcnt hfr ap tick true
        exact ⟨S, t, hm⟩
    obtain ⟨S, t, hm⟩ := hret
    obtain ⟨s0, p, hplan, ht, hle, -⟩ := mergeLogBlock_tick hm
    subst ht
    exact ⟨S, s0, p, hplan, hm, hle⟩
  · intro s victim rest tick hA hRW hdem
    obtain ⟨c, hi⟩ := hA.holds
    obtain ⟨n0, hn0⟩ := hi.free
    have hdem1 : ({ s with RWBlocks := rest } : FastMapping).rwMergeDemand victim ≤ n0 := by
      rw [hn0, List.length_range'] at hdem
      exact hdem
    obtain ⟨S, t, -, -, -, -, hm, -⟩ :=
      @mergeRW_full s ({ s with RWBlocks := rest } : FastMapping) c victim n0 rest hi hRW rfl rfl
        rfl rfl rfl rfl rfl rfl hn0 hdem1 tick true
    obtain ⟨s0, p, hplan, ht, hle, -⟩ := mergeLogBlock_tick hm
    have ht1 : t = mergeTickSpec s.pPAL s.cpu tick p := ht
    subst ht1
    exact ⟨S, s0, p, hplan, hm, hle⟩

/-- On the example device (reads take 10, writes 100, erases 1000 ticks, the
erase-internal latency is 5) after the writes of LPN 0, 1, 0, 1 the merge of
SW block 0 started at tick 7 reads two pages until 17, writes them until 117
and erases two blocks until 1022: it returns 1022. -/
theorem merge_timing_witness :
    (exampleState [0, 1, 0, 1] rfl).Reachable ∧
      ((exampleState [0, 1, 0, 1] rfl).mergeLogBlock 0 BlockType.kBlockTypeSW none 7 true).map
        (fun r => r.2) = some 1022 ∧
      ((exampleState [0, 1, 0, 1] rfl).mergePlan 0 BlockType.kBlockTypeSW none).map
        (fun r => mergeTickSpec examplePAL exampleLatency 7 r.2) = some 1022 ∧
      ∃ S s0 p,
        (exampleState [0, 1, 0, 1] rfl).mergePlan 0 BlockType.kBlockTypeSW none = some (s0, p) ∧
        (exampleState [0, 1, 0, 1] rfl).mergeLogBlock 0 BlockType.kBlockTypeSW none 7 true =
          some (S, mergeTickSpec (exampleState [0, 1, 0, 1] rfl).pPAL
            (exampleState [0, 1, 0, 1] rfl).cpu 7 p) ∧
        7 ≤ mergeTickSpec (exampleState [0, 1, 0, 1] rfl).pPAL
          (exampleState [0, 1, 0, 1] rfl).cpu 7 p :=
  ⟨exampleState_reachable _ _, by decide, by decide,
    merge_timing.2.1 (exampleState [0, 1, 0, 1] rfl) 0 0 7 none 7
      (AtMerge.reachable _ (exampleState_reachable [0, 1, 0, 1] rfl)) rfl rfl rfl
      (Or.inr (by decide))⟩

end FastMapping

end SimpleSSD


namespace SimpleSSD

namespace FastMapping

/-- C28. Full SW merge content. In a state in which `writeInternal` calls the
merge (a reachable state, or one after the invalidation of the copy found),
with the SW block `sw` owned by `O`, `D = L2P[O]`, the SW block not fully valid
and two free blocks, `mergeLogBlock` of kind SW returns; it takes `N` from the
head of `freeBlocks` (and the next block as new SW block), sets `L2P[O] = N`
and `P2L[N] = O`; page `i` of `N` is valid afterwards iff page `i` of the SW
block or page `i` of `D` was valid before, and then it stores
`O * pagesInBlock + i`; the read queue has, for each such `i` in increasing
order, the read of page `i` of the SW block when that page was valid and of
`D` otherwise, the write queue the write of page `i` of `N` with that LPN, the
erase queue `D` and the SW block, and with `sendToPAL` these are the PAL calls
made; `D` and the old SW block end fully erased, clean, without valid page and
unowned. -/
theorem full_sw_merge_content {s : FastMapping} (h : AtMerge s) (sw O D : Nat)
    (ap : Option Nat) (tick : Nat) (sendToPAL : Bool)
    (hsw : s.SWBlock = some sw) (ho : s.physicalToLogicalBlockMapping sw = some O)
    (hold : s.logicalToPhysicalBlockMapping O = some D)
    (hcnt : (s.physicalBlocks sw).getValidPageCount ≠ s.param.pagesInBlock)
    (hfree : 2 ≤ s.freeBlocks.length) :
    ∃ S t N nsw rest s0 p,
      s.mergeLogBlock sw BlockType.kBlockTypeSW ap tick sendToPAL = some (S, t) ∧
      s.mergePlan sw BlockType.kBlockTypeSW ap = some (s0, p) ∧
      s.freeBlocks = N :: nsw :: rest ∧ S.freeBlocks = rest ∧ S.SWBlock = some nsw ∧
      S.logicalToPhysicalBlockMapping O = some N ∧
      S.physicalToLogicalBlockMapping N = some O ∧
      (∀ i, (S.physicalBlocks N).isValid i = true ↔
        ((s.physicalBlocks sw).isValid i = true ∨ (s.physicalBlocks D).isValid i = true)) ∧
      (∀ i, (S.physicalBlocks N).isValid i = true →
        (S.physicalBlocks N).getLPN i = some (O * s.param.pagesInBlock + i)) ∧
      p.readRequests =
        ((List.range s.param.pagesInBlock).filter
          (fun i => (s.physicalBlocks sw).isValid i || (s.physicalBlocks D).isValid i)).map
          (fun i => PalRequest.mk (if (s.physicalBlocks sw).isValid i = true then sw else D) i) ∧
      p.writeRequests =
        ((List.range s.param.pagesInBlock).filter
          (fun i => (s.physicalBlocks sw).isValid i || (s.physicalBlocks D).isValid i)).map
          (fun i => (PalRequest.mk N i, O * s.param.pagesInBlock + i)) ∧
      p.eraseRequests = [D, sw] ∧
      S.palLog = s.palLog ++ (if sendToPAL then mergeCalls s.pPAL tick p else []) ∧
      ((∀ i, i < s.param.pagesInBlock → (S.physicalBlocks D).isErased i = true) ∧
        (S.physicalBlocks D).isCleanBlock = true ∧
        (∀ i, (S.physicalBlocks D).isValid i = false) ∧
        S.physicalToLogicalBlockMapping D = none) ∧
      ((∀ i, i < s.param.pagesInBlock → (S.physicalBlocks sw).isErased i = true) ∧
        (S.physicalBlocks sw).isCleanBlock = true ∧
        (∀ i, (S.physicalBlocks sw).isValid i = false) ∧
        S.physicalToLogicalBlockMapping sw = none) := by
  obtain ⟨c, hi⟩ := h.holds
  obtain ⟨n0, hn0⟩ := hi.free
  have hn2 : 2 ≤ n0 := by
    rw [hn0, List.length_range'] at hfree
    exact hfree
  have hfr : s.freeBlocks = List.range' c (2 + (n0 - 2)) := by
    rw [hn0]
    congr 1
    omega
  obtain ⟨S, t, hm, hSW, -, -, m⟩ := mergeSW_full hi hsw ho hold hcnt hfr ap tick sendToPAL
  obtain ⟨s0, p, hplan, hrun⟩ := mergeLogBlock_cases hm
  obtain ⟨⟨-, -, -, -, m5, -, -⟩, -, -, hlog, -⟩ := mergeRun_spec hrun
  obtain ⟨q1, -, q4⟩ := mergePlan_static hplan
  have hplan1 : s.mergePlanSW sw ap = some (s0, p) := hplan
  obtain ⟨o, old, ho1, hold1, -, -, -, -, -, -, -, hcase⟩ := mergePlanSW_cases hplan1
  rw [ho] at ho1
  injection ho1 with ho1
  subst ho1
  rw [hold] at hold1
  injection hold1 with hold1
  subst hold1
  rcases hcase with ⟨hc, -⟩ | ⟨-, nd, nsw, hfs, -, -, -, hr, hw, her⟩
  · exact absurd hc hcnt
  have hfc : s.freeBlocks = c :: (c + 1) :: List.range' (c + 1 + 1) (n0 - 2) := by
    rw [hfr]
    have : 2 + (n0 - 2) = (n0 - 2) + 1 + 1 := by omega
    rw [this]
    rfl
  rw [hfc] at hfs
  injection hfs with hnd hfs
  injection hfs with hnsw hfs
  subst hnd
  subst hnsw
  have hswc : sw < c := hi.swLt sw hsw
  have hOc : D < c := hi.l2pLt _ _ hold
  have hcer : c ∉ [D, sw] := by
    intro hx
    rcases List.mem_cons.mp hx with hx | hx
    · omega
    · have := List.mem_singleton.mp hx
      omega
  have hvN : ∀ i, S.vbit c i = true ↔ (s.vbit sw i = true ∨ s.vbit D i = true) := by
    intro i
    rw [m.hV]
    constructor
    · rintro ⟨-, hv | ⟨-, -, hv⟩⟩
      · rw [(hi.fresh (Nat.le_refl c)).2.2.1 i] at hv
        exact absurd hv (by simp)
      · exact hv
    · intro hv
      refine ⟨hcer, Or.inr ⟨rfl, ?_, hv⟩⟩
      rcases hv with hv | hv
      · exact (hi.bits _ _ hv).1
      · exact (hi.bits _ _ hv).1
  refine ⟨S, t, c, c + 1, s0.freeBlocks, s0, p, hm, hplan, hfc.trans (by rw [hfs]), m5, hSW,
    ?_, m.hp2lN O (List.mem_singleton.mpr rfl), hvN, ?_, hr, hw, her, ?_, ⟨?_, ?_⟩, ⟨?_, ?_⟩⟩
  · rw [m.hl2p, if_pos (List.mem_singleton.mpr rfl)]
  · intro i hv
    have hv1 := (hvN i).mp hv
    have hT : c = c ∧ i < s.param.pagesInBlock ∧ (s.vbit sw i = true ∨ s.vbit D i = true) := by
      refine ⟨rfl, ?_, hv1⟩
      rcases hv1 with hv1 | hv1
      · exact (hi.bits _ _ hv1).1
      · exact (hi.bits _ _ hv1).1
    obtain ⟨-, a, ha, -, hl, -⟩ := m.hT c i hT
    have ha1 := List.mem_singleton.mp ha
    subst ha1
    rw [getLPN_lpnAt S c i (m.hblk c).2, hl]
  · rw [hlog, q1, q4]
  · intro i hlt
    exact (m.hE D i).mpr (Or.inl ⟨List.mem_cons_self _ _, hlt⟩)
  · exact m.erased (List.mem_cons_self _ _)
  · intro i hlt
    exact (m.hE sw i).mpr (Or.inl ⟨List.mem_cons_of_mem _ (List.mem_singleton.mpr rfl), hlt⟩)
  · exact m.erased (List.mem_cons_of_mem _ (List.mem_singleton.mpr rfl))

/-- On the example device after the writes of LPN 0, 1, 2, 0, 1 the SW block 0
(owner 0, pages 0 and 1 valid) and the data block 7 (page 2 valid) are merged
into block 8: pages 0 and 1 are read from block 0, page 2 from block 7. -/
theorem full_sw_merge_content_witness :
    (exampleState [0, 1, 2, 0, 1] rfl).Reachable ∧
      (exampleState [0, 1, 2, 0, 1] rfl).SWBlock = some 0 ∧
      (exampleState [0, 1, 2, 0, 1] rfl).freeBlocks = [8, 9, 10, 11, 12, 13, 14, 15] ∧
      (((exampleState [0, 1, 2, 0, 1] rfl).mergePlan 0 BlockType.kBlockTypeSW none).map
        (fun r => r.2.readRequests)) =
          some [PalRequest.mk 0 0, PalRequest.mk 0 1, PalRequest.mk 7 2] ∧
      ∃ S t N nsw rest,
        (exampleState [0, 1, 2, 0, 1] rfl).mergeLogBlock 0 BlockType.kBlockTypeSW none 0 true =
          some (S, t) ∧
        (exampleState [0, 1, 2, 0, 1] rfl).freeBlocks = N :: nsw :: rest ∧
        S.logicalToPhysicalBlockMapping 0 = some N ∧
        S.physicalToLogicalBlockMapping N = some 0 ∧
        (∀ i, (S.physicalBlocks N).isValid i = true ↔
          (((exampleState [0, 1, 2, 0, 1] rfl).physicalBlocks 0).isValid i = true ∨
            ((exampleState [0, 1, 2, 0, 1] rfl).physicalBlocks 7).isValid i = true)) ∧
        (S.physicalBlocks 7).isCleanBlock = true ∧ (S.physicalBlocks 0).isCleanBlock = true :=
  ⟨exampleState_reachable _ _, rfl, rfl, by decide,
    Exists.elim
      (full_sw_merge_content (AtMerge.reachable _ (exampleState_reachable [0, 1, 2, 0, 1] rfl))
        0 0 7 none 0 true rfl rfl rfl (by decide) (by decide))
      (fun S h1 => Exists.elim h1 (fun t h2 => Exists.elim h2 (fun N h3 =>
        Exists.elim h3 (fun nsw h4 => Exists.elim h4 (fun rest h5 =>
        Exists.elim h5 (fun s0 h6 => Exists.elim h6 (fun p h7 =>
        ⟨S, t, N, nsw, rest, h7.1, h7.2.2.1, h7.2.2.2.2.2.1, h7.2.2.2.2.2.2.1,
          h7.2.2.2.2.2.2.2.1, h7.2.2.2.2.2.2.2.2.2.2.2.2.2.1.2.1,
          h7.2.2.2.2.2.2.2.2.2.2.2.2.2.2.2.1⟩)))))))⟩

end FastMapping

end SimpleSSD



namespace SimpleSSD

/-- The pages of a block below a bound: their number. -/
theorem count_below (m x : Nat) :
    ((List.range m).filter (fun i => decide (i < x))).length = min m x := by
  induction m with
  | zero => simp
  | succ m ih =>
    rw [List.range_succ, List.filter_append, List.length_append, ih]
    by_cases h : m < x
    · have : List.filter (fun i => decide (i < x)) [m] = [m] := by simp [h]
      rw [this]
      simp only [List.length_singleton]
      omega
    · have : List.filter (fun i => decide (i < x)) [m] = [] := by simp [h]
      rw [this]
      simp only [List.length_nil]
      omega

/-- The valid pages of the blocks `0, ..., B - 1` after a sequential fill of
`n` pages: their number. -/
theorem sum_filled (P n : Nat) (B : Nat) :
    ((List.range B).map (fun b => min P (if 7 ≤ b then n - (b - 7) * P else 0))).sum =
      min n ((B - 7) * P) := by
  induction B with
  | zero => simp
  | succ B ih =>
    rw [List.range_succ, List.map_append, List.sum_append, ih]
    simp only [List.map_cons, List.map_nil, List.sum_cons, List.sum_nil, Nat.add_zero]
    by_cases h7 : 7 ≤ B
    · rw [if_pos h7]
      have e : (B + 1 - 7) * P = (B - 7) * P + P := by
        have : B + 1 - 7 = (B - 7) + 1 := by omega
        rw [this, Nat.add_mul, Nat.one_mul]
      rw [e]
      generalize (B - 7) * P = X
      omega
    · rw [if_neg h7]
      have e1 : B + 1 - 7 = 0 := by omega
      have e2 : B - 7 = 0 := by omega
      rw [e1, e2]
      simp

/-- The number of blocks begun by `n` pages covers the pages. -/
theorem le_ceil_mul (n P : Nat) (hP : 0 < P) : n ≤ (n + P - 1) / P * P := by
  have h1 := Nat.div_add_mod (n + P - 1) P
  have h2 := Nat.mod_lt (n + P - 1) hP
  rw [Nat.mul_comm] at h1
  generalize (n + P - 1) / P * P = X at h1 ⊢
  omega

/-- The number of blocks begun by `n` pages, by the offset of page `n`. -/
theorem ceil_cases (n P : Nat) (hP : 0 < P) :
    (n % P = 0 → (n + P - 1) / P = n / P ∧ (n + 1 + P - 1) / P = n / P + 1) ∧
    (n % P ≠ 0 → (n + P - 1) / P = n / P + 1 ∧ (n + 1 + P - 1) / P = n / P + 1) := by
  have hdm : n / P * P + n % P = n := Nat.div_add_mod' _ _
  have hr := Nat.mod_lt n hP
  have key : ∀ m k, k * P ≤ m → m < k * P + P → m / P = k := by
    intro m k h1 h2
    apply Nat.div_eq_of_lt_le
    · exact h1
    · rw [Nat.succ_mul]
      exact h2
  constructor
  · intro h0
    constructor
    · apply key
      · generalize n / P * P = X at hdm ⊢
        omega
      · generalize n / P * P = X at hdm ⊢
        omega
    · apply key
      · rw [Nat.add_mul, Nat.one_mul]
        generalize n / P * P = X at hdm ⊢
        omega
      · rw [Nat.add_mul, Nat.one_mul]
        generalize n / P * P = X at hdm ⊢
        omega
  · intro h0
    constructor
    · apply key
      · rw [Nat.add_mul, Nat.one_mul]
        generalize n / P * P = X at hdm ⊢
        omega
      · rw [Nat.add_mul, Nat.one_mul]
        generalize n / P * P = X at hdm ⊢
        omega
    · apply key
      · rw [Nat.add_mul, Nat.one_mul]
        generalize n / P * P = X at hdm ⊢
        omega
      · rw [Nat.add_mul, Nat.one_mul]
        generalize n / P * P = X at hdm ⊢
        omega

namespace FastMapping

/-- The warm-up over a concatenation of LPN lists. -/
theorem writeAll_append (a b : List Nat) (s : FastMapping) :
    writeAll (a ++ b) s = (writeAll a s).bind (writeAll b) := by
  induction a generalizing s with
  | nil => rfl
  | cons x rest ih =>
    simp only [List.cons_append, writeAll]
    cases hs : s.writeInternal x 0 false with
    | none => rfl
    | some r =>
      obtain ⟨s1, t⟩ := r
      exact ih s1

/-- The loop of `calculateTotalPages` as two sums. -/
theorem calculateTotalPages_eq (s : FastMapping) :
    s.calculateTotalPages =
      (((List.range s.param.totalPhysicalBlocks).map
          (fun i => (s.physicalBlocks i).getValidPageCount)).sum,
        ((List.range s.param.totalPhysicalBlocks).map
          (fun i => (s.physicalBlocks i).getDirtyPageCount)).sum) := by
  have key : ∀ (l : List Nat) (acc : Nat × Nat),
      l.foldl
        (fun acc i =>
          (acc.1 + (s.physicalBlocks i).getValidPageCount,
            acc.2 + (s.physicalBlocks i).getDirtyPageCount)) acc =
        (acc.1 + (l.map (fun i => (s.physicalBlocks i).getValidPageCount)).sum,
          acc.2 + (l.map (fun i => (s.physicalBlocks i).getDirtyPageCount)).sum) := by
    intro l
    induction l with
    | nil => intro acc; simp
    | cons x rest ih =>
      intro acc
      rw [List.foldl_cons, ih]
      simp only [List.map_cons, List.sum_cons, Nat.add_assoc]
  unfold calculateTotalPages
  rw [key]
  simp

end FastMapping

end SimpleSSD

namespace SimpleSSD

namespace FastMapping

/-- The constructed device is the device after the sequential fill of no
page. -/
theorem SeqFilled.start {p : Parameter} {l : PAL} {c : Latency} {s : FastMapping}
    (h : FastMapping.new p l c = some s) : SeqFilled s 0 := by
  obtain ⟨h1, h2, h3, h4, h5, h6, h7, h8, -⟩ := new_eq h
  subst h1
  have hv : ∀ b i, s.vbit b i = false := by
    intro b i
    simp [FastMapping.vbit, h4, BlockFast.new, BlockFast.erase, BlockFast.isValid, Bitset.test,
      Bitset.resetAll]
  have he : ∀ b i, s.ebit b i = decide (i < s.param.pagesInBlock) := by
    intro b i
    simp [FastMapping.ebit, h4, BlockFast.new, BlockFast.erase, BlockFast.isErased,
      Bitset.test, Bitset.setAll]
  have hc : (0 + s.param.pagesInBlock - 1) / s.param.pagesInBlock = 0 := by
    rcases Nat.eq_zero_or_pos s.param.pagesInBlock with h0 | h0
    · rw [h0]
    · apply Nat.div_eq_of_lt
      omega
  constructor
  · rw [hc, h5]
    rfl
  · exact h7
  · exact h8
  · intro k
    rw [h2]
    simp
  · intro b i
    rw [hv]
    simp
  · intro b i
    rw [he, hv]
    simp
  · intro b i hb
    rw [hv] at hb
    exact absurd hb (by simp)

/-- One step of the sequential fill: the write of LPN `n` after the LPNs below
`n` takes the fresh-write path. -/
theorem seqFill_step {s : FastMapping} {n : Nat} (h : Reachable s) (hf : SeqFilled s n)
    (hn : n < s.param.totalLogicalBlocks * s.param.pagesInBlock)
    (hb : (n + 1 + s.param.pagesInBlock - 1) / s.param.pagesInBlock ≤
      s.param.totalPhysicalBlocks - 7)
    (tick : Nat) (sendToPAL : Bool) :
    ∃ sA s2 t, s.writeEnsureMapping (n / s.param.pagesInBlock) = some sA ∧
      sA.findValidPage n = some none ∧
      sA.writeFresh n tick sendToPAL = some (s2, t) ∧
      s.writeInternal n tick sendToPAL = some (s2, t + s.cpu.WRITE_INTERNAL) ∧
      s2.param = s.param ∧ SeqFilled s2 (n + 1) := by
  obtain ⟨c, hi, hx⟩ := Reachable.invX h
  have hpos : 0 < s.param.pagesInBlock := by
    rcases Nat.eq_zero_or_pos s.param.pagesInBlock with h0 | h0
    · rw [h0, Nat.mul_zero] at hn
      omega
    · exact h0
  have hl : n / s.param.pagesInBlock < s.param.totalLogicalBlocks := by
    apply Nat.div_lt_of_lt_mul
    rw [Nat.mul_comm]
    exact hn
  have hdm : n / s.param.pagesInBlock * s.param.pagesInBlock + n % s.param.pagesInBlock = n :=
    Nat.div_add_mod' _ _
  have hr : n % s.param.pagesInBlock < s.param.pagesInBlock := Nat.mod_lt _ hpos
  obtain ⟨c0, c1⟩ := ceil_cases n s.param.pagesInBlock hpos
  have hq0 : n % s.param.pagesInBlock = 0 →
      n / s.param.pagesInBlock * s.param.pagesInBlock = n := by
    intro h0
    have := hdm
    rw [h0, Nat.add_zero] at this
    exact this
  have hq1 : n % s.param.pagesInBlock ≠ 0 →
      n / s.param.pagesInBlock * s.param.pagesInBlock < n := by
    intro h0
    have h1 : 0 < n % s.param.pagesInBlock := Nat.pos_of_ne_zero h0
    exact Nat.lt_of_lt_of_eq (Nat.lt_add_of_pos_right h1) hdm
  -- the mapping step
  obtain ⟨sA, hA, A2, A3, A4, A5, A6⟩ : ∃ sA,
      s.writeEnsureMapping (n / s.param.pagesInBlock) = some sA ∧
      sA.logicalToPhysicalBlockMapping (n / s.param.pagesInBlock) =
        some (7 + n / s.param.pagesInBlock) ∧
      sA.freeBlocks =
        List.range' (7 + (n + 1 + s.param.pagesInBlock - 1) / s.param.pagesInBlock)
          (s.param.totalPhysicalBlocks - 7 -
            (n + 1 + s.param.pagesInBlock - 1) / s.param.pagesInBlock) ∧
      sA.SWBlock = some 0 ∧ sA.RWBlocks = [1, 2, 3, 4, 5, 6] ∧
      ∀ k, sA.logicalToPhysicalBlockMapping k =
        if k * s.param.pagesInBlock < n + 1 then some (7 + k) else none := by
    by_cases h0 : n % s.param.pagesInBlock = 0
    · obtain ⟨e1, e2⟩ := c0 h0
      have hnone : s.logicalToPhysicalBlockMapping (n / s.param.pagesInBlock) = none := by
        rw [hf.l2p, if_neg]
        rw [hq0 h0]
        exact Nat.lt_irrefl n
      have hfree : s.freeBlocks = (7 + n / s.param.pagesInBlock) ::
          List.range' (7 + (n / s.param.pagesInBlock + 1))
            (s.param.totalPhysicalBlocks - 7 - (n / s.param.pagesInBlock + 1)) := by
        rw [hf.free, e1]
        rw [e2] at hb
        have : s.param.totalPhysicalBlocks - 7 - n / s.param.pagesInBlock =
            (s.param.totalPhysicalBlocks - 7 - (n / s.param.pagesInBlock + 1)) + 1 := by
          generalize n / s.param.pagesInBlock = q at hb ⊢
          omega
        rw [this]
        rfl
      refine ⟨{ s with
          freeBlocks := List.range' (7 + (n / s.param.pagesInBlock + 1))
            (s.param.totalPhysicalBlocks - 7 - (n / s.param.pagesInBlock + 1))
          logicalToPhysicalBlockMapping :=
            upd s.logicalToPhysicalBlockMapping (n / s.param.pagesInBlock)
              (some (7 + n / s.param.pagesInBlock))
          physicalToLogicalBlockMapping :=
            upd s.physicalToLogicalBlockMapping (7 + n / s.param.pagesInBlock)
              (some (n / s.param.pagesInBlock)) }, ?_, ?_, ?_, hf.sw, hf.rw, ?_⟩
      · unfold writeEnsureMapping
        rw [hnone]
        simp only [getFreeBlock, hfree]
      · simp [upd_apply]
      · rw [e2]
      · intro k
        show upd s.logicalToPhysicalBlockMapping (n / s.param.pagesInBlock)
          (some (7 + n / s.param.pagesInBlock)) k = _
        rw [upd_apply]
        by_cases hk : k = n / s.param.pagesInBlock
        · rw [if_pos hk, if_pos, hk]
          rw [hk, hq0 h0]
          exact Nat.lt_succ_self n
        · rw [if_neg hk, hf.l2p]
          have hiff : k * s.param.pagesInBlock < n ↔ k * s.param.pagesInBlock < n + 1 := by
            constructor
            · intro hlt
              omega
            · intro hlt
              have hne : k * s.param.pagesInBlock ≠ n := by
                intro heq
                apply hk
                have := Nat.mul_div_cancel k hpos
                rw [heq] at this
                exact this.symm
              omega
          by_cases hlt : k * s.param.pagesInBlock < n
          · rw [if_pos hlt, if_pos (hiff.mp hlt)]
          · rw [if_neg hlt, if_neg (fun hx => hlt (hiff.mpr hx))]
    · obtain ⟨e1, e2⟩ := c1 h0
      have hmap : s.logicalToPhysicalBlockMapping (n / s.param.pagesInBlock) =
          some (7 + n / s.param.pagesInBlock) := by
        rw [hf.l2p, if_pos]
        exact hq1 h0
      refine ⟨s, writeEnsureMapping_mapped hmap, hmap, ?_, hf.sw, hf.rw, ?_⟩
      · rw [hf.free, e1, e2]
      · intro k
        rw [hf.l2p]
        have hiff : k * s.param.pagesInBlock < n ↔ k * s.param.pagesInBlock < n + 1 := by
          constructor
          · intro hlt
            omega
          · intro hlt
            have hne : k * s.param.pagesInBlock ≠ n := by
              intro heq
              apply h0
              rw [← heq]
              exact Nat.mul_mod_left _ _
            omega
        by_cases hlt : k * s.param.pagesInBlock < n
        · rw [if_pos hlt, if_pos (hiff.mp hlt)]
        · rw [if_neg hlt, if_neg (fun hx => hlt (hiff.mpr hx))]
  obtain ⟨⟨cA, hiA⟩, -, hBA, hpA⟩ := hi.ensureMapping hA
  have hxA := InvX.ofEnsure hi hx hA
  obtain ⟨v1, v2, v3, v4⟩ := views_of_blocks hBA
  -- the lookup finds nothing
  have hnf : sA.findValidPage n = some none := by
    have hlk := hiA.lookup_eq n (by rw [hpA]; exact hl)
    cases hs : sA.findValidPageSpec n with
    | none => rw [hlk, hs]
    | some r =>
      obtain ⟨b, i, k⟩ := r
      rw [hs] at hlk
      obtain ⟨hv0, hl0, -⟩ := hiA.found hlk
      rw [v1] at hv0
      rw [v3] at hl0
      have := hf.lpn b i hv0
      omega
  have hp : sA.logicalToPhysicalBlockMapping (n / sA.param.pagesInBlock) =
      some (7 + n / s.param.pagesInBlock) := by
    rw [hpA]
    exact A2
  obtain ⟨s2, f, e, hprog, ⟨m1, m2, m3, m4, m5, m6, m7⟩, -, -⟩ :=
    fresh_case tick sendToPAL hiA hxA.backed (by rw [hpA]; exact hpos) hnf hp
  rw [hpA] at hprog
  have hw : s.writeInternal n tick sendToPAL = some (s2, f + s.cpu.WRITE_INTERNAL) := by
    rw [writeInternal_notFound tick sendToPAL hl hA hnf, e]
    rfl
  have hpar : s2.param = s.param := m1.trans hpA
  have hvb : ∀ b i, s2.vbit b i =
      decide (7 ≤ b ∧ i < s.param.pagesInBlock ∧ (b - 7) * s.param.pagesInBlock + i < n + 1) := by
    intro b i
    rw [hprog.vbit, v1, hf.vbit]
    rw [Bool.eq_iff_iff]
    simp only [Bool.or_eq_true, decide_eq_true_eq]
    constructor
    · rintro (⟨hb1, hi1⟩ | ⟨hb1, hi1, hlt⟩)
      · subst hb1
        subst hi1
        refine ⟨Nat.le_add_right 7 _, hr, ?_⟩
        rw [Nat.add_sub_cancel_left, hdm]
        exact Nat.lt_succ_self n
      · exact ⟨hb1, hi1, by omega⟩
    · rintro ⟨hb1, hi1, hlt⟩
      by_cases heq : (b - 7) * s.param.pagesInBlock + i = n
      · left
        obtain ⟨d1, d2⟩ := @div_mod_of_mul_add s.param.pagesInBlock (b - 7) i hi1
        rw [heq] at d1 d2
        refine ⟨?_, d2.symm⟩
        rw [d1]
        omega
      · right
        exact ⟨hb1, hi1, by omega⟩
  refine ⟨sA, s2, f, hA, hnf, e, hw, hpar, ?_⟩
  constructor
  · rw [hpar, m4, A3]
  · rw [m6, A4]
  · rw [m7, A5]
  · intro k
    rw [hpar, m2, A6]
  · intro b i
    rw [hpar]
    exact hvb b i
  · intro b i
    rw [hprog.ebit, hprog.vbit, v2, v1, hf.ebit, hpar]
    cases decide (b = 7 + n / s.param.pagesInBlock ∧ i = n % s.param.pagesInBlock) <;>
      cases decide (i < s.param.pagesInBlock) <;> cases s.vbit b i <;> rfl
  · intro b i hv
    rw [hprog.lpnAt]
    split
    · omega
    · rename_i hne
      rw [hprog.vbit] at hv
      rw [Bool.or_eq_true, decide_eq_true_eq] at hv
      rcases hv with hv | hv
      · exact absurd hv hne
      · rw [v1] at hv
        rw [v3]
        have := hf.lpn b i hv
        omega

end FastMapping

end SimpleSSD

namespace SimpleSSD

namespace FastMapping

/-- The sequential fill of the LPNs `0, ..., n - 1` of a new device returns,
and its state is the filled device. -/
theorem seqFill_run {p : Parameter} {l : PAL} {c : Latency} {s0 : FastMapping}
    (h0 : FastMapping.new p l c = some s0) (n : Nat)
    (hn : n ≤ p.totalLogicalBlocks * p.pagesInBlock)
    (hb : (n + p.pagesInBlock - 1) / p.pagesInBlock ≤ p.totalPhysicalBlocks - 7) :
    ∃ S, writeAll (List.range n) s0 = some S ∧ Reachable S ∧ S.param = p ∧ SeqFilled S n := by
  induction n with
  | zero => exact ⟨s0, rfl, Reachable.init p l c s0 h0, (new_eq h0).1, SeqFilled.start h0⟩
  | succ n ih =>
    have hb0 : (n + p.pagesInBlock - 1) / p.pagesInBlock ≤ p.totalPhysicalBlocks - 7 :=
      Nat.le_trans (Nat.div_le_div_right (by omega)) hb
    obtain ⟨S, hw, hr, hp, hf⟩ := ih (by omega) hb0
    obtain ⟨sA, s2, t, -, -, -, hwi, hpar, hf2⟩ :=
      seqFill_step hr hf (by rw [hp]; omega) (by rw [hp]; exact hb) 0 false
    refine ⟨s2, ?_, Reachable.write S n 0 false s2 _ hr hwi, hpar.trans hp, hf2⟩
    rw [List.range_succ, writeAll_append, hw]
    simp only [Option.bind, writeAll, hwi]

/-- The page counts of the filled device: a block has no dirty page, and the
valid pages of block `b` are the pages of logical block `b - 7` written. -/
theorem SeqFilled.counts {s : FastMapping} {n c : Nat} (hf : SeqFilled s n) (hi : InvC s c)
    (b : Nat) :
    (s.physicalBlocks b).getValidPageCount =
      min s.param.pagesInBlock (if 7 ≤ b then n - (b - 7) * s.param.pagesInBlock else 0) ∧
    (s.physicalBlocks b).getDirtyPageCount = 0 := by
  constructor
  · unfold BlockFast.getValidPageCount Bitset.count
    rw [(hi.blk b).1]
    have hcg : (List.range s.param.pagesInBlock).filter (s.physicalBlocks b).pValidBits =
        (List.range s.param.pagesInBlock).filter
          (fun i => decide (i < if 7 ≤ b then n - (b - 7) * s.param.pagesInBlock else 0)) := by
      apply List.filter_congr
      intro i hmem
      have hlt : i < s.param.pagesInBlock := List.mem_range.mp hmem
      have hv : (s.physicalBlocks b).pValidBits i = s.vbit b i := rfl
      rw [hv, hf.vbit]
      apply decide_eq_decide.mpr
      by_cases h7 : 7 ≤ b
      · rw [if_pos h7]
        generalize (b - 7) * s.param.pagesInBlock = Y
        constructor
        · rintro ⟨-, -, h1⟩
          omega
        · intro h1
          exact ⟨h7, hlt, by omega⟩
      · rw [if_neg h7]
        constructor
        · rintro ⟨h1, -⟩
          exact absurd h1 h7
        · intro h1
          exact absurd h1 (Nat.not_lt_zero i)
    rw [hcg, count_below]
  · unfold BlockFast.getDirtyPageCount Bitset.count
    rw [(hi.blk b).1]
    have hnil : (List.range s.param.pagesInBlock).filter
        (fun i => !((s.physicalBlocks b).pValidBits i || (s.physicalBlocks b).pErasedBits i)) =
        [] := by
      rw [List.filter_eq_nil_iff]
      intro i hmem
      have hlt : i < s.param.pagesInBlock := List.mem_range.mp hmem
      have hv : (s.physicalBlocks b).pValidBits i = s.vbit b i := rfl
      have he : (s.physicalBlocks b).pErasedBits i = s.ebit b i := rfl
      rw [hv, he, hf.ebit, decide_eq_true hlt]
      cases s.vbit b i <;> simp
    rw [hnil]
    rfl

/-- C26. Sequential fill. For a new device and `n` with
`n <= totalLogicalBlocks * pagesInBlock` and
`ceil(n / pagesInBlock) <= totalPhysicalBlocks - 7`, the writes of the LPNs
`0, 1, ..., n - 1` in order, each at tick 0 with `sendToPAL = false`, all
return; each takes the fresh-write path (after the mapping step the lookup of
the LPN finds nothing and `writeInternal` is `writeFresh`); at the end
`calculateTotalPages` gives `n` valid and 0 dirty pages, the SW block is block
0 and is clean, the RW blocks are the blocks 1 to 6 and are clean, logical
block `k` has the data block `7 + k` when `k * pagesInBlock < n` and no data
block otherwise, and page `i` of block `7 + k` is valid exactly when
`k * pagesInBlock + i < n`, in which case it stores that LPN. -/
theorem sequential_fill (p : Parameter) (l : PAL) (c : Latency) (s0 : FastMapping)
    (h0 : FastMapping.new p l c = some s0) (n : Nat)
    (hn : n ≤ p.totalLogicalBlocks * p.pagesInBlock)
    (hb : (n + p.pagesInBlock - 1) / p.pagesInBlock ≤ p.totalPhysicalBlocks - 7) :
    ∃ S, writeAll (List.range n) s0 = some S ∧
      (∀ j, j < n → ∃ sj sA s2 t, writeAll (List.range j) s0 = some sj ∧
        sj.writeEnsureMapping (j / p.pagesInBlock) = some sA ∧
        sA.findValidPage j = some none ∧
        sA.writeFresh j 0 false = some (s2, t) ∧
        sj.writeInternal j 0 false = some (s2, t + sj.cpu.WRITE_INTERNAL) ∧
        writeAll (List.range (j + 1)) s0 = some s2) ∧
      S.calculateTotalPages = (n, 0) ∧
      S.SWBlock = some 0 ∧ (S.physicalBlocks 0).isCleanBlock = true ∧
      S.RWBlocks = [1, 2, 3, 4, 5, 6] ∧
      (∀ b, b ∈ S.RWBlocks → (S.physicalBlocks b).isCleanBlock = true) ∧
      (∀ k, k * p.pagesInBlock < n → S.logicalToPhysicalBlockMapping k = some (7 + k)) ∧
      (∀ k, n ≤ k * p.pagesInBlock → S.logicalToPhysicalBlockMapping k = none) ∧
      (∀ k i, i < p.pagesInBlock →
        ((S.physicalBlocks (7 + k)).isValid i = true ↔ k * p.pagesInBlock + i < n)) ∧
      (∀ k i, (S.physicalBlocks (7 + k)).isValid i = true →
        (S.physicalBlocks (7 + k)).getLPN i = some (k * p.pagesInBlock + i)) := by
  obtain ⟨S, hw, hr, hp, hf⟩ := seqFill_run h0 n hn hb
  obtain ⟨cS, hi, -⟩ := Reachable.invX hr
  have hvk : ∀ k i, S.vbit (7 + k) i = true ↔ (i < p.pagesInBlock ∧ k * p.pagesInBlock + i < n) := by
    intro k i
    rw [hf.vbit, decide_eq_true_eq, Nat.add_sub_cancel_left, hp]
    constructor
    · rintro ⟨-, h1, h2⟩
      exact ⟨h1, h2⟩
    · rintro ⟨h1, h2⟩
      exact ⟨Nat.le_add_right 7 k, h1, h2⟩
  have hlow : ∀ b, b < 7 → (S.physicalBlocks b).isCleanBlock = true := by
    intro b hb7
    apply clean_of_allErased (hi.blk b).1
    intro i hlt
    have hv : S.vbit b i = false := by
      rw [hf.vbit]
      apply decide_eq_false
      rintro ⟨h7, -⟩
      omega
    rw [hf.ebit, hv, decide_eq_true hlt]
    rfl
  refine ⟨S, hw, ?_, ?_, hf.sw, hlow 0 (by decide), hf.rw, ?_, ?_, ?_, ?_, ?_⟩
  · intro j hj
    have hbj : (j + p.pagesInBlock - 1) / p.pagesInBlock ≤ p.totalPhysicalBlocks - 7 :=
      Nat.le_trans (Nat.div_le_div_right (by omega)) hb
    have hbj1 : (j + 1 + p.pagesInBlock - 1) / p.pagesInBlock ≤ p.totalPhysicalBlocks - 7 :=
      Nat.le_trans (Nat.div_le_div_right (by omega)) hb
    obtain ⟨sj, hwj, hrj, hpj, hfj⟩ := seqFill_run h0 j (by omega) hbj
    obtain ⟨sA, s2, t, hA, hnf, hfr, hwi, -, -⟩ :=
      seqFill_step hrj hfj (by rw [hpj]; omega) (by rw [hpj]; exact hbj1) 0 false
    rw [hpj] at hA
    refine ⟨sj, sA, s2, t, hwj, hA, hnf, hfr, hwi, ?_⟩
    rw [List.range_succ, writeAll_append, hwj]
    simp only [Option.bind, writeAll, hwi]
  · rw [calculateTotalPages_eq]
    have hval : (List.range S.param.totalPhysicalBlocks).map
        (fun i => (S.physicalBlocks i).getValidPageCount) =
        (List.range S.param.totalPhysicalBlocks).map
          (fun b => min S.param.pagesInBlock
            (if 7 ≤ b then n - (b - 7) * S.param.pagesInBlock else 0)) :=
      List.map_congr_left (fun b _ => (hf.counts hi b).1)
    have hdir : (List.range S.param.totalPhysicalBlocks).map
        (fun i => (S.physicalBlocks i).getDirtyPageCount) =
        (List.range S.param.totalPhysicalBlocks).map (fun _ => 0) :=
      List.map_congr_left (fun b _ => (hf.counts hi b).2)
    rw [hval, hdir, sum_filled, hp]
    have hle : n ≤ (p.totalPhysicalBlocks - 7) * p.pagesInBlock := by
      rcases Nat.eq_zero_or_pos p.pagesInBlock with hz | hpos
      · rw [hz, Nat.mul_zero] at hn
        omega
      · exact Nat.le_trans (le_ceil_mul n p.pagesInBlock hpos) (Nat.mul_le_mul_right _ hb)
    rw [Nat.min_eq_left hle]
    simp
  · intro b hbm
    rw [hf.rw] at hbm
    apply hlow
    simp only [List.mem_cons, List.mem_singleton, List.not_mem_nil, or_false] at hbm
    omega
  · intro k hk
    rw [hf.l2p, hp, if_pos hk]
  · intro k hk
    rw [hf.l2p, hp, if_neg (by omega)]
  · intro k i hlt
    constructor
    · intro hv
      exact ((hvk k i).mp hv).2
    · intro hv
      exact (hvk k i).mpr ⟨hlt, hv⟩
  · intro k i hv
    obtain ⟨h1, h2⟩ := (hvk k i).mp hv
    have hk : k * p.pagesInBlock < n := by omega
    have hl : S.logicalToPhysicalBlockMapping k = some (7 + k) := by
      rw [hf.l2p, hp, if_pos hk]
    have hd := hi.data k (7 + k) i hl hv
    rw [hp] at hd
    rw [getLPN_lpnAt S (7 + k) i (hi.blk (7 + k)).2, hd]

end FastMapping

end SimpleSSD

namespace SimpleSSD

namespace FastMapping

/-- On the example device (4 pages per block, 4 logical and 16 physical
blocks) the fill of the LPNs 0 to 5 gives 6 valid and no dirty page; logical
block 1 has the data block 8, whose page 1 is valid; the SW block 0 is
clean. -/
theorem sequential_fill_witness :
    6 ≤ exampleParam.totalLogicalBlocks * exampleParam.pagesInBlock ∧
      (6 + exampleParam.pagesInBlock - 1) / exampleParam.pagesInBlock ≤
        exampleParam.totalPhysicalBlocks - 7 ∧
      (exampleState [0, 1, 2, 3, 4, 5] rfl).calculateTotalPages = (6, 0) ∧
      ∃ S, writeAll (List.range 6) (exampleState [] rfl) = some S ∧
        S.calculateTotalPages = (6, 0) ∧
        S.logicalToPhysicalBlockMapping 1 = some (7 + 1) ∧
        (S.physicalBlocks (7 + 1)).isValid 1 = true ∧
        (S.physicalBlocks 0).isCleanBlock = true :=
  ⟨by decide, by decide, by decide,
    Exists.elim
      (sequential_fill exampleParam examplePAL exampleLatency (exampleState [] rfl) rfl 6
        (by decide) (by decide))
      (fun S h => ⟨S, h.1, h.2.2.1, h.2.2.2.2.2.2.2.1 1 (by decide),
        (h.2.2.2.2.2.2.2.2.2.1 1 1 (by decide)).mpr (by decide), h.2.2.2.2.1⟩)⟩

end FastMapping

end SimpleSSD


namespace SimpleSSD

namespace FastMapping

/-- C31. Read hit. In a reachable state, when `findValidPage` finds the LPN at
`(pbn, pageIdx)`, `readInternal` returns; the state it returns is the old
state with `lastAccessed` of block `pbn` set to the input tick and one PAL
read, addressed to `(pbn, pageIdx)` and started at the input tick, appended to
the PAL log; the tick it returns is the finish tick of that PAL read plus the
read-internal latency. So `L2P`, `P2L`, `RWlogMapping`, `freeBlocks`,
`RWBlocks`, `SWBlock`, every other block, and of block `pbn` the valid bits,
the erased bits, the LPNs, the cursor and the erase count are unchanged. -/
theorem read_hit {s : FastMapping} (h : Reachable s) (lpn tick pbn pageIdx : Nat)
    (kind : BlockType) (hf : s.findValidPage lpn = some (some (pbn, pageIdx, kind))) :
    s.readInternal lpn tick =
        some
          ({ s with
              physicalBlocks :=
                upd s.physicalBlocks pbn { s.physicalBlocks pbn with lastAccessed := tick }
              palLog := s.palLog ++ [PalOp.read { blockIndex := pbn, pageIndex := pageIdx } tick] },
            s.pPAL.read { blockIndex := pbn, pageIndex := pageIdx } tick + s.cpu.READ_INTERNAL) ∧
      ∀ S t, s.readInternal lpn tick = some (S, t) →
        S.palLog = s.palLog ++ [PalOp.read { blockIndex := pbn, pageIndex := pageIdx } tick] ∧
        t = s.pPAL.read { blockIndex := pbn, pageIndex := pageIdx } tick + s.cpu.READ_INTERNAL ∧
        (S.physicalBlocks pbn).getLastAccessedTime = tick ∧
        S.logicalToPhysicalBlockMapping = s.logicalToPhysicalBlockMapping ∧
        S.physicalToLogicalBlockMapping = s.physicalToLogicalBlockMapping ∧
        S.RWlogMapping = s.RWlogMapping ∧ S.freeBlocks = s.freeBlocks ∧
        S.RWBlocks = s.RWBlocks ∧ S.SWBlock = s.SWBlock ∧ S.param = s.param ∧
        (∀ b, b ≠ pbn → S.physicalBlocks b = s.physicalBlocks b) ∧
        (∀ b, (S.physicalBlocks b).pValidBits = (s.physicalBlocks b).pValidBits ∧
          (S.physicalBlocks b).pErasedBits = (s.physicalBlocks b).pErasedBits ∧
          (S.physicalBlocks b).pLPNs = (s.physicalBlocks b).pLPNs ∧
          (S.physicalBlocks b).getNextWritePageIndex = (s.physicalBlocks b).getNextWritePageIndex ∧
          (S.physicalBlocks b).getEraseCount = (s.physicalBlocks b).getEraseCount ∧
          (S.physicalBlocks b).pageCount = (s.physicalBlocks b).pageCount ∧
          (S.physicalBlocks b).idx = (s.physicalBlocks b).idx) := by
  obtain ⟨c, hi, -⟩ := Reachable.invX h
  obtain ⟨hv, -⟩ := hi.found hf
  have hv1 : (s.physicalBlocks pbn).pValidBits.test pageIdx = true := hv
  have hr : s.readInternal lpn tick =
      some
        ({ s with
            physicalBlocks :=
              upd s.physicalBlocks pbn { s.physicalBlocks pbn with lastAccessed := tick }
            palLog := s.palLog ++ [PalOp.read { blockIndex := pbn, pageIndex := pageIdx } tick] },
          s.pPAL.read { blockIndex := pbn, pageIndex := pageIdx } tick + s.cpu.READ_INTERNAL) := by
    unfold readInternal
    rw [hf]
    simp only [BlockFast.read, if_true, hv1, palRead]
  refine ⟨hr, ?_⟩
  intro S t hS
  rw [hr] at hS
  injection hS with hS
  injection hS with h1 h2
  subst h1
  subst h2
  refine ⟨rfl, rfl, ?_, rfl, rfl, rfl, rfl, rfl, rfl, rfl, ?_, ?_⟩
  · simp [upd, BlockFast.getLastAccessedTime]
  · intro b hb
    simp [upd, hb]
  · intro b
    by_cases hb : b = pbn
    · subst hb
      simp [upd, BlockFast.getNextWritePageIndex, BlockFast.getEraseCount]
    · simp [upd, hb]

/-- On the example device after the writes of LPN 0 and 1 the read of LPN 1 at
tick 50 finds page 1 of data block 7: one PAL read of that page, finished at
60, and the read-internal latency 2. -/
theorem read_hit_witness :
    (exampleState [0, 1] rfl).Reachable ∧
      (exampleState [0, 1] rfl).findValidPage 1 =
        some (some (7, 1, BlockType.kBlockTypeData)) ∧
      ∀ S t, (exampleState [0, 1] rfl).readInternal 1 50 = some (S, t) →
        S.palLog = (exampleState [0, 1] rfl).palLog ++ [PalOp.read (PalRequest.mk 7 1) 50] ∧
        t = 62 ∧ (S.physicalBlocks 7).getLastAccessedTime = 50 :=
  ⟨exampleState_reachable _ _, rfl, fun S t hS =>
    have h := (read_hit (exampleState_reachable [0, 1] rfl) 1 50 7 1 BlockType.kBlockTypeData
      rfl).2 S t hS
    ⟨h.1, h.2.1, h.2.2.1⟩⟩

/-- C34. SW ownership invariant. In every reachable state `SWBlock` has a
value; if the SW block is not clean, `P2L[SWBlock]` is an owner `O`, `L2P[O]`
is mapped, and every valid page `i` of the SW block stores
`O * pagesInBlock + i`. The same holds in the state in which `writeInternal`
reaches the SW merge, after the invalidation of the copy found: the two
lookups of the SW merge path, `P2L[logBlock]` and `L2P[owner]`, have a
value. -/
theorem sw_ownership {s : FastMapping} (h : Reachable s) :
    ∃ sw, s.SWBlock = some sw ∧
      ((s.physicalBlocks sw).isCleanBlock = false →
        ∃ O D, s.physicalToLogicalBlockMapping sw = some O ∧
          s.logicalToPhysicalBlockMapping O = some D ∧
          ∀ i, (s.physicalBlocks sw).isValid i = true →
            (s.physicalBlocks sw).getLPN i = some (O * s.param.pagesInBlock + i)) ∧
      (∀ lpn tick b i k, s.findValidPage lpn = some (some (b, i, k)) →
        (s.writeInvalidate lpn tick b i k).SWBlock = some sw ∧
        (((s.writeInvalidate lpn tick b i k).physicalBlocks sw).isCleanBlock = false →
          ∃ O D, (s.writeInvalidate lpn tick b i k).physicalToLogicalBlockMapping sw = some O ∧
            (s.writeInvalidate lpn tick b i k).logicalToPhysicalBlockMapping O = some D)) := by
  obtain ⟨c, hi, hx⟩ := Reachable.invX h
  cases hsw : s.SWBlock with
  | none =>
    have := hx.swSome
    rw [hsw] at this
    exact absurd this (by simp)
  | some sw =>
    refine ⟨sw, rfl, ?_, ?_⟩
    · intro hcl
      obtain ⟨O, D, hO, hD⟩ := hi.swOwner hsw hcl
      refine ⟨O, D, hO, hD, ?_⟩
      intro i hv
      obtain ⟨hlt, he⟩ := hi.bits sw i hv
      obtain ⟨o1, h1, -, h3⟩ := hi.sw sw i hsw hlt he
      rw [hO] at h1
      injection h1 with h1
      subst h1
      rw [getLPN_lpnAt s sw i (hi.blk sw).2, h3 hv]
    · intro lpn tick b i k hf
      obtain ⟨c1, hi1⟩ := (AtMerge.invalidated s lpn tick b i k h hf).holds
      obtain ⟨-, -, -, -, f5, -⟩ := writeInvalidate_fields s lpn tick b i k
      have hsw1 : (s.writeInvalidate lpn tick b i k).SWBlock = some sw := by rw [f5, hsw]
      exact ⟨hsw1, fun hcl => hi1.swOwner hsw1 hcl⟩

/-- On the example device after the writes of LPN 0, 1, 0, 1 the SW block is
block 0, it is not clean, its owner is logical block 0, whose data block is
block 7. -/
theorem sw_ownership_witness :
    (exampleState [0, 1, 0, 1] rfl).Reachable ∧
      (exampleState [0, 1, 0, 1] rfl).SWBlock = some 0 ∧
      ((exampleState [0, 1, 0, 1] rfl).physicalBlocks 0).isCleanBlock = false ∧
      (exampleState [0, 1, 0, 1] rfl).physicalToLogicalBlockMapping 0 = some 0 ∧
      (exampleState [0, 1, 0, 1] rfl).logicalToPhysicalBlockMapping 0 = some 7 ∧
      ∃ sw, (exampleState [0, 1, 0, 1] rfl).SWBlock = some sw ∧
        (((exampleState [0, 1, 0, 1] rfl).physicalBlocks sw).isCleanBlock = false →
          ∃ O D, (exampleState [0, 1, 0, 1] rfl).physicalToLogicalBlockMapping sw = some O ∧
            (exampleState [0, 1, 0, 1] rfl).logicalToPhysicalBlockMapping O = some D) :=
  ⟨exampleState_reachable _ _, rfl, by decide, rfl, rfl,
    Exists.elim (sw_ownership (exampleState_reachable [0, 1, 0, 1] rfl))
      (fun sw hs => ⟨sw, hs.1, fun hcl =>
        Exists.elim (hs.2.1 hcl) (fun O hO => Exists.elim hO (fun D hD =>
          ⟨O, D, hD.1, hD.2.1⟩))⟩)⟩

/-- C37. Role disjointness. In every reachable state `L2P` is injective on its
mapped entries; `RWBlocks` and `freeBlocks` have no duplicates; the SW block,
the RW blocks, the free blocks and the data blocks (the range of `L2P`) are
pairwise disjoint; every block of `freeBlocks` is clean (fully erased, no
valid page) and unowned in `P2L`. -/
theorem role_disjoint {s : FastMapping} (h : Reachable s) :
    (∀ a a1 b, s.logicalToPhysicalBlockMapping a = some b →
      s.logicalToPhysicalBlockMapping a1 = some b → a = a1) ∧
    s.RWBlocks.Nodup ∧ s.freeBlocks.Nodup ∧
    (∀ b, s.SWBlock = some b → b ∉ s.RWBlocks ∧ b ∉ s.freeBlocks ∧
      ∀ a, s.logicalToPhysicalBlockMapping a ≠ some b) ∧
    (∀ b, b ∈ s.RWBlocks → b ∉ s.freeBlocks ∧
      ∀ a, s.logicalToPhysicalBlockMapping a ≠ some b) ∧
    (∀ b, b ∈ s.freeBlocks → ∀ a, s.logicalToPhysicalBlockMapping a ≠ some b) ∧
    (∀ b, b ∈ s.freeBlocks →
      (s.physicalBlocks b).isCleanBlock = true ∧
      (∀ i, i < s.param.pagesInBlock → (s.physicalBlocks b).isErased i = true) ∧
      (∀ i, (s.physicalBlocks b).isValid i = false) ∧
      s.physicalToLogicalBlockMapping b = none) := by
  obtain ⟨c, hi, -⟩ := Reachable.invX h
  obtain ⟨n, hn⟩ := hi.free
  have hge : ∀ b, b ∈ s.freeBlocks → c ≤ b := by
    intro b hb
    rw [hn, List.mem_range'] at hb
    obtain ⟨i, -, rfl⟩ := hb
    omega
  refine ⟨hi.l2pInj, hi.rwNodup, ?_, ?_, ?_, ?_, ?_⟩
  · rw [hn]
    exact List.nodup_range' _ _
  · intro b hb
    refine ⟨hi.swRW b hb, ?_, fun a ha => hi.l2pSW a b ha hb⟩
    intro hf
    have h1 := hge b hf
    have h2 := hi.swLt b hb
    omega
  · intro b hb
    refine ⟨?_, fun a ha => hi.l2pRW a b ha hb⟩
    intro hf
    have h1 := hge b hf
    have h2 := hi.rwLt b hb
    omega
  · intro b hb a ha
    have h1 := hge b hb
    have h2 := hi.l2pLt a b ha
    omega
  · intro b hb
    obtain ⟨f1, -, f3, f4, f5, -⟩ := hi.fresh (hge b hb)
    refine ⟨clean_of_allErased (hi.blk b).1 f1, f1, f3, ?_⟩
    cases hp : s.physicalToLogicalBlockMapping b with
    | none => rfl
    | some a =>
      rcases Reachable.p2l h b a hp with h3 | h3
      · exact absurd h3 (f4 a)
      · exact absurd h3 f5

/-- On the example device after the writes 0, 1, 2, 3, 0, 1, 2, 3, 0 the free
queue is 11, ..., 15; block 11 is clean and unowned and is no data block. -/
theorem role_disjoint_witness :
    (exampleState [0, 1, 2, 3, 0, 1, 2, 3, 0] rfl).Reachable ∧
      (exampleState [0, 1, 2, 3, 0, 1, 2, 3, 0] rfl).freeBlocks = [11, 12, 13, 14, 15] ∧
      ((exampleState [0, 1, 2, 3, 0, 1, 2, 3, 0] rfl).physicalBlocks 11).isCleanBlock = true ∧
      (exampleState [0, 1, 2, 3, 0, 1, 2, 3, 0] rfl).physicalToLogicalBlockMapping 11 = none ∧
      (exampleState [0, 1, 2, 3, 0, 1, 2, 3, 0] rfl).RWBlocks.Nodup :=
  have h := role_disjoint (exampleState_reachable [0, 1, 2, 3, 0, 1, 2, 3, 0] rfl)
  ⟨exampleState_reachable _ _, rfl, (h.2.2.2.2.2.2 11 (by decide)).1,
    (h.2.2.2.2.2.2 11 (by decide)).2.2.2, h.2.1⟩

end FastMapping

end SimpleSSD


namespace SimpleSSD

namespace FastMapping

/-- A run of consecutive numbers, split after its first `k` and the two
numbers that follow. -/
theorem range'_split (c k n : Nat) (h : k + 2 ≤ n) :
    List.range' c n =
      List.range' c k ++ (c + k) :: (c + k + 1) :: List.range' (c + k + 2) (n - k - 2) := by
  have e : n = ((n - k - 2) + 1 + 1) + k := by omega
  conv_lhs => rw [e]
  rw [← List.range'_append_1]
  rfl

/-- C35. Free-block accounting of a Case 2a full merge. In a reachable state
with three free blocks, when the write of an LPN with `off == 0` and a valid
copy finds, after the invalidation of that copy, the SW block not clean and
not fully valid, `writeInternal` returns and takes exactly the three blocks at
the head of `freeBlocks`: the first becomes the data block of the owner of the
SW block, the second is assigned to `SWBlock` inside `mergeLogBlock`, the
third is assigned to `SWBlock` by `writeInternal` after the merge. At the end
the second is in none of `freeBlocks`, `RWBlocks`, `SWBlock` and the range of
`L2P`; it is clean and unowned. -/
theorem full_merge_accounting {s : FastMapping} (h : Reachable s) (lpn tick : Nat)
    (sendToPAL : Bool) (b i : Nat) (k : BlockType) (sw : Nat)
    (hf : s.findValidPage lpn = some (some (b, i, k)))
    (hoff : lpn % s.param.pagesInBlock = 0) (hsw : s.SWBlock = some sw)
    (hcl : ((s.writeInvalidate lpn tick b i k).physicalBlocks sw).isCleanBlock = false)
    (hcnt : ((s.writeInvalidate lpn tick b i k).physicalBlocks sw).getValidPageCount ≠
      s.param.pagesInBlock)
    (hfree : 3 ≤ s.freeBlocks.length) :
    ∃ s2 t2 S t nd x sw2 rest O,
      s.writeInternal lpn tick sendToPAL = some (s2, t2) ∧
      (s.writeInvalidate lpn tick b i k).mergeLogBlock sw BlockType.kBlockTypeSW none tick
        sendToPAL = some (S, t) ∧
      s.freeBlocks = nd :: x :: sw2 :: rest ∧ S.freeBlocks = sw2 :: rest ∧
      s2.freeBlocks = rest ∧ nd ∉ rest ∧ x ∉ rest ∧ sw2 ∉ rest ∧
      nd ≠ x ∧ nd ≠ sw2 ∧ x ≠ sw2 ∧
      s.physicalToLogicalBlockMapping sw = some O ∧
      S.logicalToPhysicalBlockMapping O = some nd ∧
      s2.logicalToPhysicalBlockMapping O = some nd ∧
      S.SWBlock = some x ∧ s2.SWBlock = some sw2 ∧
      x ∉ s2.freeBlocks ∧ x ∉ s2.RWBlocks ∧ s2.SWBlock ≠ some x ∧
      (∀ a, s2.logicalToPhysicalBlockMapping a ≠ some x) ∧
      (s2.physicalBlocks x).isCleanBlock = true ∧
      s2.physicalToLogicalBlockMapping x = none := by
  obtain ⟨c, hi, hx, hi1, hn1, hX1, hpos, hv0, hl0, hbc, hilt, old0, hold0⟩ :=
    overwrite_setup h tick hf
  obtain ⟨f1, f2, f3, f4, f5, f6, f7, f8⟩ := writeInvalidate_fields s lpn tick b i k
  have hsw1 : (s.writeInvalidate lpn tick b i k).SWBlock = some sw := by rw [f5, hsw]
  have hswc : sw < c := hi.swLt sw hsw
  obtain ⟨n0, hn0⟩ := hi.free
  have hn3 : 3 ≤ n0 := by
    rw [hn0, List.length_range'] at hfree
    exact hfree
  obtain ⟨o, old, ho, hold⟩ := hi1.swOwner hsw1 hcl
  have hcnt1 : ((s.writeInvalidate lpn tick b i k).physicalBlocks sw).getValidPageCount ≠
      (s.writeInvalidate lpn tick b i k).param.pagesInBlock := by
    rw [f1]
    exact hcnt
  have hfr : (s.writeInvalidate lpn tick b i k).freeBlocks = List.range' c (3 + (n0 - 3)) := by
    rw [f4, hn0]
    congr 1
    omega
  obtain ⟨s2, f, S, t, hw, hmerge, hSW, -, -, hm, hprog, ⟨g1, g2, g3, g4, g5, g6, g7⟩, -⟩ :=
    swFirst_full tick sendToPAL hi1 hX1 hsw1 hcl ho hold hcnt1 hfr
  have hmain : s.writeInternal lpn tick sendToPAL = some (s2, f + s.cpu.WRITE_INTERNAL) := by
    rw [writeInternal_first tick sendToPAL hf hoff, hw]
    rfl
  obtain ⟨x1, -, -, -⟩ := hm.extra hi1 hswc
  obtain ⟨n1, hfa, hfb⟩ := hm.hfree
  have hn1eq : n1 = n0 - 2 := by
    have := congrArg List.length hfa
    rw [f4, hn0, List.length_range', List.length_range'] at this
    omega
  have hfs : s.freeBlocks = c :: (c + 1) :: (c + 2) :: List.range' (c + 3) (n0 - 3) := by
    rw [hn0]
    have : n0 = (n0 - 3) + 1 + 1 + 1 := by omega
    conv_lhs => rw [this]
    rfl
  have hSf : S.freeBlocks = (c + 2) :: List.range' (c + 3) (n0 - 3) := by
    rw [hfb, hn1eq]
    have : n0 - 2 = (n0 - 3) + 1 := by omega
    rw [this]
    rfl
  have hnot : ∀ y, y < c + 3 → y ∉ List.range' (c + 3) (n0 - 3) := by
    intro y hy
    rw [List.mem_range']
    rintro ⟨j, -, hj⟩
    omega
  have hx2 : s2.physicalBlocks (c + 1) = S.physicalBlocks (c + 1) :=
    hprog.other (c + 1) (by omega)
  rw [f3] at ho
  refine ⟨s2, _, S, t, c, c + 1, c + 2, List.range' (c + 3) (n0 - 3), o, hmain, hmerge, hfs, hSf,
    g4, hnot _ (by omega), hnot _ (by omega), hnot _ (by omega), by omega, by omega, by omega,
    ho, ?_, ?_, hSW, g6, ?_, ?_, ?_, ?_, ?_, ?_⟩
  · rw [hm.hl2p, if_pos (List.mem_singleton.mpr rfl)]
  · rw [g2, hm.hl2p, if_pos (List.mem_singleton.mpr rfl)]
  · rw [g4]
    exact hnot _ (by omega)
  · rw [g7, f6]
    intro hmem
    have := hi.rwLt _ hmem
    omega
  · rw [g6]
    intro he
    injection he with he
    omega
  · intro a ha
    rw [g2, hm.hl2p] at ha
    split at ha
    · injection ha with ha
      omega
    · have := hi1.l2pLt a _ ha
      omega
  · rw [hx2]
    apply clean_of_allErased
    · rw [(hm.hblk _).1, hm.hparam]
    · intro j hj
      rw [hm.hparam] at hj
      exact x1 j hj
  · rw [g3, upd_apply, if_neg (by omega)]
    exact hm.hp2lX

/-- On the example device after the writes of LPN 0, 1, 0 the SW block 0 holds
LPN 0 only; the next write of LPN 0 invalidates it and merges: block 8 becomes
the data block of logical block 0, block 9 is the SW block inside the merge
and is orphaned, block 10 is the SW block at the end. -/
theorem full_merge_accounting_witness :
    (exampleState [0, 1, 0] rfl).Reachable ∧
      (exampleState [0, 1, 0] rfl).findValidPage 0 =
        some (some (0, 0, BlockType.kBlockTypeSW)) ∧
      (exampleState [0, 1, 0] rfl).freeBlocks = [8, 9, 10, 11, 12, 13, 14, 15] ∧
      ∃ s2 t2 nd x sw2 rest,
        (exampleState [0, 1, 0] rfl).writeInternal 0 0 false = some (s2, t2) ∧
        (exampleState [0, 1, 0] rfl).freeBlocks = nd :: x :: sw2 :: rest ∧
        s2.freeBlocks = rest ∧ s2.SWBlock = some sw2 ∧
        x ∉ s2.RWBlocks ∧ (s2.physicalBlocks x).isCleanBlock = true :=
  ⟨exampleState_reachable _ _, rfl, rfl,
    Exists.elim
      (full_merge_accounting (exampleState_reachable [0, 1, 0] rfl) 0 0 false 0 0
        BlockType.kBlockTypeSW 0 rfl rfl rfl (by decide) (by decide) (by decide))
      (fun s2 h1 => Exists.elim h1 (fun t2 h2 => Exists.elim h2 (fun S h3 =>
        Exists.elim h3 (fun t h4 => Exists.elim h4 (fun nd h5 => Exists.elim h5 (fun x h6 =>
        Exists.elim h6 (fun sw2 h7 => Exists.elim h7 (fun rest h8 => Exists.elim h8 (fun O h9 =>
        ⟨s2, t2, nd, x, sw2, rest, h9.1, h9.2.2.1, h9.2.2.2.2.1,
          h9.2.2.2.2.2.2.2.2.2.2.2.2.2.2.2.1,
          h9.2.2.2.2.2.2.2.2.2.2.2.2.2.2.2.2.2.1,
          h9.2.2.2.2.2.2.2.2.2.2.2.2.2.2.2.2.2.2.2.2.1⟩)))))))))⟩

end FastMapping

end SimpleSSD


namespace SimpleSSD

namespace FastMapping

/-- C36. Free-block accounting of an RW recycle. In a reachable state, when a
write of an LPN with a valid copy and `off != 0` is routed to the RW blocks (the
SW block is not owned by its logical block) and no RW block has an erased
page, let `lbns` be the logical blocks that have a valid page in the victim,
the head of `RWBlocks`, after the invalidation of the copy found, and `k`
their number. With `k + 2` free blocks `writeInternal` returns and takes
exactly the `k + 2` blocks at the head of `freeBlocks`: the first `k` are the
new data blocks of the logical blocks of `lbns`, one each; the next, `x`, is
popped inside `mergeLogBlock`, marked unowned in `P2L` and placed neither in
`RWBlocks` nor anywhere else; the last, `nb`, is popped by `writeInternal` and
pushed onto the tail of `RWBlocks`. -/
theorem rw_recycle_accounting {s : FastMapping} (h : Reachable s) (lpn tick : Nat)
    (sendToPAL : Bool) (b i : Nat) (k : BlockType) (sw victim : Nat) (rest : List Nat)
    (hf : s.findValidPage lpn = some (some (b, i, k)))
    (hoff : lpn % s.param.pagesInBlock ≠ 0) (hsw : s.SWBlock = some sw)
    (hown : s.physicalToLogicalBlockMapping sw ≠ some (lpn / s.param.pagesInBlock))
    (hfull : ∀ q, q ∈ s.RWBlocks → (s.physicalBlocks q).getErasedPageCount = 0)
    (hRW : s.RWBlocks = victim :: rest)
    (hfree : (s.writeInvalidate lpn tick b i k).rwMergeDemand victim + 1 ≤
      s.freeBlocks.length) :
    ∃ (s2 : FastMapping) (t2 : Nat) (S : FastMapping) (t : Nat) (lbns newData : List Nat)
      (x nb : Nat),
      s.writeInternal lpn tick sendToPAL = some (s2, t2) ∧
      ({ s.writeInvalidate lpn tick b i k with RWBlocks := rest } : FastMapping).mergeLogBlock
        victim BlockType.kBlockTypeRW none tick sendToPAL = some (S, t) ∧
      lbns.Nodup ∧
      (∀ a, a ∈ lbns ↔ ∃ j, j < s.param.pagesInBlock ∧
        ((s.writeInvalidate lpn tick b i k).physicalBlocks victim).isValid j = true ∧
        (((s.writeInvalidate lpn tick b i k).physicalBlocks victim).getPageInfo j).1 /
          s.param.pagesInBlock = a) ∧
      (s.writeInvalidate lpn tick b i k).rwMergeDemand victim = lbns.length + 1 ∧
      newData.length = lbns.length ∧
      s.freeBlocks = newData ++ x :: nb :: s2.freeBlocks ∧
      s.freeBlocks.length = s2.freeBlocks.length + (lbns.length + 2) ∧
      S.freeBlocks = nb :: s2.freeBlocks ∧
      (∀ a, a ∈ lbns → ∃ p, p ∈ newData ∧ s2.logicalToPhysicalBlockMapping a = some p ∧
        s.logicalToPhysicalBlockMapping a ≠ some p) ∧
      (∀ a, a ∈ lbns → ∀ a1, a1 ∈ lbns →
        s2.logicalToPhysicalBlockMapping a = s2.logicalToPhysicalBlockMapping a1 → a = a1) ∧
      S.physicalToLogicalBlockMapping x = none ∧ s2.physicalToLogicalBlockMapping x = none ∧
      x ∉ S.RWBlocks ∧ x ∉ s2.RWBlocks ∧ x ∉ s2.freeBlocks ∧ s2.SWBlock ≠ some x ∧
      (∀ a, s2.logicalToPhysicalBlockMapping a ≠ some x) ∧
      s2.RWBlocks = rest ++ [nb] ∧ nb ∉ s2.freeBlocks := by
  obtain ⟨c, hi, hx, hi1, hn1, hX1, hpos, hv0, hl0, hbc, hilt, old, hold⟩ :=
    overwrite_setup h tick hf
  obtain ⟨f1, f2, f3, f4, f5, f6, f7, f8⟩ := writeInvalidate_fields s lpn tick b i k
  obtain ⟨b1, b2, b3, b4, b5⟩ := writeInvalidate_blocks s lpn tick b i k
  have hpos1 : 0 < (s.writeInvalidate lpn tick b i k).param.pagesInBlock := by rw [f1]; exact hpos
  have hRW1 : (s.writeInvalidate lpn tick b i k).RWBlocks = victim :: rest := by rw [f6, hRW]
  have hfind1 : (s.writeInvalidate lpn tick b i k).RWBlocks.find? (fun rwBlockNum =>
      (((s.writeInvalidate lpn tick b i k).physicalBlocks rwBlockNum).getErasedPageCount != 0)) =
      none := by
    rw [List.find?_eq_none]
    intro q hq
    rw [f6] at hq
    rw [b4, hfull q hq]
    simp
  obtain ⟨n0, hn0⟩ := hi.free
  have hfr : (s.writeInvalidate lpn tick b i k).freeBlocks = List.range' c n0 := by
    rw [f4, hn0]
  have hdem : (s.writeInvalidate lpn tick b i k).rwMergeDemand victim + 1 ≤ n0 := by
    rw [hn0, List.length_range'] at hfree
    exact hfree
  obtain ⟨s2, f, S, t, lbns, N, er, T, hw, hmerge, hSrw, -, hd, -, hm, hprog,
      ⟨g1, g2, g3, g4, g5, g6, g7⟩, -⟩ :=
    rwRecycle_case tick sendToPAL hi1 hX1 hpos1 hfind1 hRW1 hfr hdem
  have hmain : s.writeInternal lpn tick sendToPAL = some (s2, f + s.cpu.WRITE_INTERNAL) := by
    rw [writeInternal_unowned tick sendToPAL hf hoff hsw hown, hw]
    rfl
  obtain ⟨c2, hi2, -⟩ := Reachable.invX (Reachable.write s lpn tick sendToPAL s2 _ h hmain)
  have hvc : victim < c := hi.rwLt victim (by rw [hRW]; exact List.mem_cons_self _ _)
  -- the logical blocks of the victim, as the merge computes them
  obtain ⟨u1, u2⟩ :=
    sortUnique_spec ((s.writeInvalidate lpn tick b i k).mergeRWCollect victim).1
  obtain ⟨q1, -⟩ := mergeRWCollect_spec (s.writeInvalidate lpn tick b i k) victim
  have hlen : (unique (((s.writeInvalidate lpn tick b i k).mergeRWCollect victim).1.insertionSort
      (fun a b => a ≤ b))).length = lbns.length := by
    have hd1 : (s.writeInvalidate lpn tick b i k).rwMergeDemand victim =
        (unique (((s.writeInvalidate lpn tick b i k).mergeRWCollect victim).1.insertionSort
          (fun a b => a ≤ b))).length + 1 := rfl
    omega
  have hchar : ∀ a, a ∈ unique
      (((s.writeInvalidate lpn tick b i k).mergeRWCollect victim).1.insertionSort
        (fun a b => a ≤ b)) ↔
      ∃ j, j < s.param.pagesInBlock ∧
        (s.writeInvalidate lpn tick b i k).vbit victim j = true ∧
        (s.writeInvalidate lpn tick b i k).lpnAt victim j / s.param.pagesInBlock = a := by
    intro a
    rw [u2, q1, List.mem_map]
    constructor
    · rintro ⟨j, hj, rfl⟩
      rw [validPagesOf_mem, f1] at hj
      exact ⟨j, hj.1, hj.2, by rw [f1]⟩
    · rintro ⟨j, hj1, hj2, rfl⟩
      refine ⟨j, ?_, by rw [f1]⟩
      rw [validPagesOf_mem, f1]
      exact ⟨hj1, hj2⟩
  have hin : ∀ a, a ∈ unique
      (((s.writeInvalidate lpn tick b i k).mergeRWCollect victim).1.insertionSort
        (fun a b => a ≤ b)) → a ∈ lbns := by
    intro a ha
    obtain ⟨j, -, hj2, hj3⟩ := (hchar a).mp ha
    have := (hm.hcopy victim j hm.hGer hj2).1
    rw [f1, hj3] at this
    exact this
  have hk2 : lbns.length + 2 ≤ n0 := by omega
  have hsplit := range'_split c lbns.length n0 hk2
  have hnotfree : ∀ y, y < c + lbns.length + 2 → y ∉ s2.freeBlocks := by
    intro y hy
    rw [g4, List.mem_range']
    rintro ⟨j, -, hj⟩
    omega
  have hSfree : S.freeBlocks = (c + lbns.length + 1) :: s2.freeBlocks := by
    obtain ⟨n1, hfa, hfb⟩ := hm.hfree
    have hn1eq : n1 = n0 - lbns.length - 1 := by
      have := congrArg List.length hfa
      rw [hfr, List.length_range', List.length_range'] at this
      omega
    rw [hfb, g4, hn1eq]
    have : n0 - lbns.length - 1 = (n0 - lbns.length - 2) + 1 := by omega
    rw [this]
    rfl
  refine ⟨s2, _, S, t,
    unique (((s.writeInvalidate lpn tick b i k).mergeRWCollect victim).1.insertionSort
      (fun a b => a ≤ b)),
    List.range' c lbns.length, c + lbns.length, c + lbns.length + 1, hmain, hmerge, u1, hchar, ?_,
    ?_, ?_, ?_, hSfree, ?_, ?_, hm.hp2lX, ?_, ?_, ?_, hnotfree _ (by omega), ?_, ?_, g7,
    hnotfree _ (by omega)⟩
  · rw [hd, hlen]
  · rw [List.length_range', hlen]
  · rw [g4, hn0]
    exact hsplit
  · rw [g4, hn0, List.length_range', List.length_range', hlen]
    omega
  · intro a ha
    have ha1 := hin a ha
    obtain ⟨hN1, hN2⟩ := hm.hN a ha1
    refine ⟨N a, ?_, ?_, ?_⟩
    · rw [List.mem_range']
      exact ⟨N a - c, by omega, by omega⟩
    · rw [g2, hm.hl2p, if_pos ha1]
    · intro hs
      have := hi.l2pLt a _ hs
      omega
  · intro a ha a1 ha1 heq
    have hb1 := hin a ha
    have hb2 := hin a1 ha1
    rw [g2, hm.hl2p, hm.hl2p, if_pos hb1, if_pos hb2] at heq
    injection heq with heq
    exact hm.hNinj a hb1 a1 hb2 heq
  · rw [g3, upd_apply, if_neg (by omega)]
    exact hm.hp2lX
  · rw [hSrw]
    intro hmem
    have := hi.rwLt _ (by rw [hRW]; exact List.mem_cons_of_mem _ hmem)
    omega
  · rw [g7, List.mem_append, List.mem_singleton]
    rintro (hmem | hmem)
    · have := hi.rwLt _ (by rw [hRW]; exact List.mem_cons_of_mem _ hmem)
      omega
    · omega
  · rw [g6, f5, hsw]
    intro he
    injection he with he
    have := hi.swLt sw hsw
    omega
  · intro a ha
    rw [g2, hm.hl2p] at ha
    split at ha
    · rename_i hmem
      injection ha with ha
      have := (hm.hN a hmem).2
      omega
    · have := hi1.l2pLt a _ ha
      omega

/-- On the example device after one fresh write of LPN 1 and 24 overwrites of
it, all six RW blocks are full and the victim, block 1, has no valid page: the
next write of LPN 1 takes two free blocks, block 8 inside the merge and block
9 for the tail of `RWBlocks`. -/
theorem rw_recycle_accounting_witness :
    (exampleState (List.replicate 25 1) rfl).Reachable ∧
      (exampleState (List.replicate 25 1) rfl).findValidPage 1 =
        some (some (6, 3, BlockType.kBlockTypeRW)) ∧
      (exampleState (List.replicate 25 1) rfl).RWBlocks = [1, 2, 3, 4, 5, 6] ∧
      (exampleState (List.replicate 25 1) rfl).freeBlocks = [8, 9, 10, 11, 12, 13, 14, 15] ∧
      ∃ (s2 : FastMapping) (t2 : Nat) (lbns newData : List Nat) (x nb : Nat),
        (exampleState (List.replicate 25 1) rfl).writeInternal 1 0 false = some (s2, t2) ∧
        newData.length = lbns.length ∧
        (exampleState (List.replicate 25 1) rfl).freeBlocks =
          newData ++ x :: nb :: s2.freeBlocks ∧
        x ∉ s2.RWBlocks ∧ s2.RWBlocks = [2, 3, 4, 5, 6] ++ [nb] :=
  ⟨exampleState_reachable _ _, rfl, rfl, rfl,
    Exists.elim
      (rw_recycle_accounting (exampleState_reachable (List.replicate 25 1) rfl) 1 0 false 6 3
        BlockType.kBlockTypeRW 0 1 [2, 3, 4, 5, 6] rfl (by decide) rfl (by decide) (by decide)
        rfl (by decide))
      (fun s2 h1 => Exists.elim h1 (fun t2 h2 => Exists.elim h2 (fun S h3 =>
        Exists.elim h3 (fun t h4 => Exists.elim h4 (fun lbns h5 =>
        Exists.elim h5 (fun newData h6 => Exists.elim h6 (fun x h7 =>
        Exists.elim h7 (fun nb h8 =>
        ⟨s2, t2, lbns, newData, x, nb, h8.1, h8.2.2.2.2.2.1, h8.2.2.2.2.2.2.1,
          h8.2.2.2.2.2.2.2.2.2.2.2.2.2.2.1,
          h8.2.2.2.2.2.2.2.2.2.2.2.2.2.2.2.2.2.2.1⟩))))))))⟩

end FastMapping

end SimpleSSD


namespace SimpleSSD

namespace FastMapping

theorem palRead_blocks (s : FastMapping) (req : PalRequest) (tick : Nat) (sendToPAL : Bool) :
    (s.palRead req tick sendToPAL).1.physicalBlocks = s.physicalBlocks := by
  unfold palRead
  cases sendToPAL <;> rfl

/-- The read phase of a merge keeps the erase counts. -/
theorem mergeReads_ecnt (tick : Nat) (sendToPAL : Bool) :
    ∀ (rs : List PalRequest) (s : FastMapping) (f : Nat) (s1 : FastMapping) (f1 : Nat),
      mergeReads tick sendToPAL rs s f = some (s1, f1) →
      ∀ q, (s1.physicalBlocks q).eraseCount = (s.physicalBlocks q).eraseCount := by
  intro rs
  induction rs with
  | nil =>
    intro s f s1 f1 h
    simp only [mergeReads] at h
    injection h with h
    injection h with h1 h2
    subst h1
    exact fun _ => rfl
  | cons req rest ih =>
    intro s f s1 f1 h q
    simp only [mergeReads] at h
    split at h
    · exact absurd h (by simp)
    · rename_i x b hb
      rw [ih _ _ _ _ h q, palRead_blocks]
      obtain ⟨-, -, -, e, -⟩ := BlockFast.read_eq hb
      show (upd s.physicalBlocks req.blockIndex b q).eraseCount = _
      rw [upd_apply]
      split
      · rename_i hq
        rw [e, hq]
      · rfl

/-- The write phase of a merge keeps the erase counts. -/
theorem mergeWrites_ecnt (rf : Nat) (sendToPAL : Bool) :
    ∀ (ws : List (PalRequest × Nat)) (s : FastMapping) (f : Nat) (s1 : FastMapping) (f1 : Nat),
      mergeWrites rf sendToPAL ws s f = some (s1, f1) →
      ∀ q, (s1.physicalBlocks q).eraseCount = (s.physicalBlocks q).eraseCount := by
  intro ws
  induction ws with
  | nil =>
    intro s f s1 f1 h
    simp only [mergeWrites] at h
    injection h with h
    injection h with h1 h2
    subst h1
    exact fun _ => rfl
  | cons w rest ih =>
    intro s f s1 f1 h q
    obtain ⟨req, lpn⟩ := w
    simp only [mergeWrites] at h
    split at h
    · exact absurd h (by simp)
    · rename_i s2 hw
      rw [ih _ _ _ _ h q, (palWrite_fields _ _ _ _).2.2.2.1]
      obtain ⟨b, hb, rfl⟩ := writeBlock_eq hw
      obtain ⟨-, -, -, e, -⟩ := BlockFast.fields_write hb
      show (upd s.physicalBlocks req.blockIndex b q).eraseCount = _
      rw [upd_apply]
      split
      · rename_i hq
        rw [e, hq]
      · rfl

/-- The erase phase of a merge adds one to the erase count of a block for
each of its erase requests. -/
theorem mergeErases_ecnt (rf : Nat) (sendToPAL : Bool) :
    ∀ (er : List Nat) (s : FastMapping) (f : Nat) (q : Nat),
      ((mergeErases rf sendToPAL er s f).1.physicalBlocks q).eraseCount =
        (s.physicalBlocks q).eraseCount + er.count q := by
  intro er
  induction er with
  | nil =>
    intro s f q
    simp [mergeErases]
  | cons p rest ih =>
    intro s f q
    simp only [mergeErases]
    rw [ih]
    obtain ⟨-, -, hb⟩ := eraseInternal_spec s p rf sendToPAL
    rw [hb, upd_apply, List.count_cons]
    by_cases hq : q = p
    · subst hq
      simp only [if_true, BlockFast.erase, beq_self_eq_true]
      omega
    · have hpq : (p == q) = false := by
        rw [beq_eq_false_iff_ne]
        exact fun hx => hq hx.symm
      rw [if_neg hq, hpq]
      simp

/-- The three phases of a merge on the erase counts. -/
theorem mergeRun_ecnt {s0 S : FastMapping} {p : MergePlan} {tick t : Nat} {sendToPAL : Bool}
    (h : mergeRun (some (s0, p)) tick sendToPAL = some (S, t)) (q : Nat) :
    (S.physicalBlocks q).eraseCount =
      (s0.physicalBlocks q).eraseCount + p.eraseRequests.count q := by
  unfold mergeRun at h
  simp only [] at h
  split at h
  · exact absurd h (by simp)
  · rename_i s2 rf hr
    split at h
    · exact absurd h (by simp)
    · rename_i s3 wf hw
      injection h with h
      injection h with h1 h2
      subst h1
      rw [mergeErases_ecnt, mergeWrites_ecnt _ _ _ _ _ _ _ hw q,
        mergeReads_ecnt _ _ _ _ _ _ _ hr q]

end FastMapping

end SimpleSSD


namespace SimpleSSD

namespace FastMapping

/-- A block referenced after a step was referenced before it. -/
theorem BlockStep.referenced {s S : FastMapping} (h : BlockStep s S) {q : Nat}
    (hq : Referenced S q) : Referenced s q := by
  rcases hq with hq | hq | hq | ⟨a, hq⟩
  · exact Or.inl (h.mem_free hq)
  · rcases h.sw q hq with h1 | h1
    · exact Or.inr (Or.inl h1)
    · exact Or.inl h1
  · rcases h.rw q hq with h1 | h1
    · exact Or.inr (Or.inr (Or.inl h1))
    · exact Or.inl h1
  · rcases h.l2p a q hq with h1 | h1 | h1
    · exact Or.inr (Or.inr (Or.inr ⟨a, h1⟩))
    · exact Or.inl h1
    · exact Or.inr (Or.inl h1)

/-- A step that keeps the erase counts. -/
theorem EraseDelta.ofSame {s S : FastMapping}
    (h : ∀ q, (S.physicalBlocks q).eraseCount = (s.physicalBlocks q).eraseCount) :
    EraseDelta s S := fun q => Or.inl (h q)

/-- A step after steps that keep the erase counts and add no reference. -/
theorem EraseDelta.ofPrefix {s s1 S : FastMapping}
    (h1 : ∀ q, (s1.physicalBlocks q).eraseCount = (s.physicalBlocks q).eraseCount)
    (h2 : ∀ q, Referenced s1 q → Referenced s q) (h : EraseDelta s1 S) : EraseDelta s S := by
  intro q
  rcases h q with e | ⟨e, r1, r2⟩
  · exact Or.inl (e.trans (h1 q))
  · exact Or.inr ⟨by rw [e, h1 q], h2 q r1, r2⟩

/-- The invariant is kept by a step that erases referenced blocks only, once,
and leaves them unreferenced. -/
theorem ErasedOnce.next {s S : FastMapping} (h : ErasedOnce s) (hb : BlockStep s S)
    (hd : EraseDelta s S) : ErasedOnce S := by
  intro q
  obtain ⟨h1, h2⟩ := h q
  rcases hd q with e | ⟨e, r1, r2⟩
  · rw [e]
    exact ⟨h1, fun h3 hr => h2 h3 (hb.referenced hr)⟩
  · have h0 : (s.physicalBlocks q).eraseCount = 0 := by
      by_contra hne
      exact h2 (by omega) r1
    rw [e, h0]
    exact ⟨Nat.le_refl 1, fun _ => r2⟩

/-- A programmed page keeps the erase counts. -/
theorem Programs.ecntEq {s S : FastMapping} {tgt pg lpn : Nat} (h : Programs s S tgt pg lpn)
    (q : Nat) : (S.physicalBlocks q).eraseCount = (s.physicalBlocks q).eraseCount :=
  h.ecnt q

/-- Case 2a on the erase counts. -/
theorem delta_swFirst {s s1 : FastMapping} {c lpn sw tick f : Nat} {sendToPAL : Bool}
    (hi : InvC s c) (hsw : s.SWBlock = some sw)
    (hX : DataBacked s (fun l => l = lpn)) (hpos : 0 < s.param.pagesInBlock)
    (h : s.writeSWFirst lpn tick sendToPAL = some (s1, f)) : EraseDelta s s1 := by
  obtain ⟨n, hfree⟩ := hi.free
  have hswc : sw < c := hi.swLt sw hsw
  cases hcl : (s.physicalBlocks sw).isCleanBlock with
  | true =>
    obtain ⟨s2, f2, e, hprog, -⟩ := swFirst_clean tick sendToPAL hi hX hpos hsw hcl
    rw [h] at e
    injection e with e
    injection e with e1 e2
    subst e1
    exact EraseDelta.ofSame hprog.ecntEq
  | false =>
    obtain ⟨S, t, hm, hne⟩ := swFirst_returned hsw hcl h
    obtain ⟨o, old, ho, hold⟩ := hi.swOwner hsw hcl
    have holdc : old < c := hi.l2pLt _ _ hold
    have hos : old ≠ sw := fun hx => hi.l2pSW o old hold (by rw [hsw, hx])
    by_cases hcnt : (s.physicalBlocks sw).getValidPageCount = s.param.pagesInBlock
    · obtain ⟨-, hm1⟩ := mergeSW_switch s sw o old none tick sendToPAL ho hold hcnt
      rw [hm] at hm1
      injection hm1 with hm1
      injection hm1 with hS ht
      obtain ⟨⟨-, -, a3, -⟩, -⟩ := eraseInternal_spec
        ({ s with
          logicalToPhysicalBlockMapping :=
            upd s.logicalToPhysicalBlockMapping o (some sw) } : FastMapping) old tick sendToPAL
      rw [← hS] at a3
      have hn0 : n ≠ 0 := by
        intro h0
        apply hne
        rw [a3]
        show s.freeBlocks = []
        rw [hfree, h0]
        rfl
      obtain ⟨s2, f2, S2, t2, e, -, hS2, hprog, ⟨-, g2, -, g4, -, g6, g7⟩, -⟩ :=
        swFirst_switch (n := n - 1) tick sendToPAL hi hX hsw hcl ho hold hcnt
          (by rw [hfree]; congr 1; omega)
      rw [h] at e
      injection e with e
      injection e with e1 e2
      subst e1
      obtain ⟨-, ⟨-, -, -, -, -, -, -, hSb⟩, -⟩ := hi.switchFacts hsw ho hold hcnt hS2
      intro q
      by_cases hq : q = old
      · subst hq
        right
        refine ⟨?_, Or.inr (Or.inr (Or.inr ⟨o, hold⟩)), ?_⟩
        · rw [hprog.ecntEq, hSb, upd_apply, if_pos rfl]
          rfl
        · rintro (hr | hr | hr | ⟨a, hr⟩)
          · rw [g4, List.mem_range'] at hr
            obtain ⟨j, -, hj⟩ := hr
            omega
          · rw [g6] at hr
            injection hr with hr
            omega
          · rw [g7] at hr
            exact hi.l2pRW o q hold hr
          · rw [g2, upd_apply] at hr
            split at hr
            · injection hr with hr
              exact hos hr.symm
            · rename_i hne1
              exact hne1 (hi.l2pInj a o q hr hold)
      · left
        rw [hprog.ecntEq, hSb, upd_apply, if_neg hq]
    · have h2 := mergeSW_free ho hold hcnt hm
      rw [hfree, List.length_range'] at h2
      obtain ⟨S1, t1, hm1, -, -, -, hcm⟩ := mergeSW_full (n := n - 2) hi hsw ho hold hcnt
        (by rw [hfree]; congr 1; omega) none tick sendToPAL
      rw [hm] at hm1
      injection hm1 with hm1
      injection hm1 with hS ht
      subst hS
      obtain ⟨n1, hf0, hf1⟩ := hcm.hfree
      have hn1 : n1 = n - 2 := by
        have := congrArg List.length hf0
        rw [hfree] at this
        simp only [List.length_range'] at this
        omega
      have hn3 : 3 ≤ n := by
        by_contra hlt
        apply hne
        rw [hf1, hn1, show n - 2 = 0 by omega]
        rfl
      obtain ⟨s2, f2, S2, t2, e, hm2, -, -, -, hm3, hprog, ⟨-, g2, -, g4, -, g6, g7⟩, -⟩ :=
        swFirst_full (n := n - 3) tick sendToPAL hi hX hsw hcl ho hold hcnt
          (by rw [hfree]; congr 1; omega)
      rw [h] at e
      injection e with e
      injection e with e1 e2
      subst e1
      rw [hm] at hm2
      injection hm2 with hm2
      injection hm2 with hS ht
      subst hS
      obtain ⟨s0, p, hplan, hrun⟩ := mergeLogBlock_cases hm
      have hplan1 : s.mergePlanSW sw none = some (s0, p) := hplan
      obtain ⟨o1, old1, ho1, hold1, -, -, -, -, hpb, -, -, hcase⟩ := mergePlanSW_cases hplan1
      rw [ho] at ho1
      injection ho1 with ho1
      subst ho1
      rw [hold] at hold1
      injection hold1 with hold1
      subst hold1
      rcases hcase with ⟨hc, -⟩ | ⟨-, nd, nsw, -, -, -, -, -, -, her⟩
      · exact absurd hc hcnt
      have hcount : ∀ q, (s1.physicalBlocks q).eraseCount =
          (s.physicalBlocks q).eraseCount + [old, sw].count q := by
        intro q
        rw [hprog.ecntEq, mergeRun_ecnt hrun q, hpb, her]
      intro q
      by_cases hq : q = old ∨ q = sw
      · right
        refine ⟨?_, ?_, ?_⟩
        · rw [hcount]
          rcases hq with hq | hq
          · subst hq
            simp [List.count_cons, hos]
          · subst hq
            simp [List.count_cons, hos]
        · rcases hq with hq | hq
          · exact Or.inr (Or.inr (Or.inr ⟨o, by rw [hq]; exact hold⟩))
          · exact Or.inr (Or.inl (by rw [hq]; exact hsw))
        · have hqc : q < c := by
            rcases hq with hq | hq
            · rw [hq]; exact holdc
            · rw [hq]; exact hswc
          rintro (hr | hr | hr | ⟨a, hr⟩)
          · rw [g4, List.mem_range'] at hr
            obtain ⟨j, -, hj⟩ := hr
            omega
          · rw [g6] at hr
            injection hr with hr
            omega
          · rw [g7] at hr
            rcases hq with hq | hq
            · rw [hq] at hr
              exact hi.l2pRW o old hold hr
            · rw [hq] at hr
              exact hi.swRW sw hsw hr
          · rw [g2, hm3.hl2p] at hr
            split at hr
            · injection hr with hr
              omega
            · rename_i hne1
              rcases hq with hq | hq
              · rw [hq] at hr
                exact hne1 (List.mem_singleton.mpr (hi.l2pInj a o old hr hold))
              · rw [hq] at hr
                exact hi.l2pSW a sw hr hsw
      · left
        rw [hcount]
        have h1 : q ≠ old := fun hx => hq (Or.inl hx)
        have h2 : q ≠ sw := fun hx => hq (Or.inr hx)
        simp [List.count_cons, Ne.symm h1, Ne.symm h2]

end FastMapping

end SimpleSSD

namespace SimpleSSD

namespace FastMapping

/-- Case 2b on the erase counts. -/
theorem delta_swAppend {s s1 : FastMapping} {c lpn sw old tick f : Nat} {sendToPAL : Bool}
    (hi : InvC s c) (hn : NoCopy s lpn) (hsw : s.SWBlock = some sw)
    (hown : s.physicalToLogicalBlockMapping sw = some (lpn / s.param.pagesInBlock))
    (hold : s.logicalToPhysicalBlockMapping (lpn / s.param.pagesInBlock) = some old)
    (hX : DataBacked s (fun l => l = lpn)) (hpos : 0 < s.param.pagesInBlock)
    (h : s.writeSWAppend sw lpn tick sendToPAL = some (s1, f)) : EraseDelta s s1 := by
  obtain ⟨n, hfree⟩ := hi.free
  have hswc : sw < c := hi.swLt sw hsw
  have holdc : old < c := hi.l2pLt _ _ hold
  have hos : old ≠ sw := fun hx => hi.l2pSW _ old hold (by rw [hsw, hx])
  cases he : s.ebit sw (lpn % s.param.pagesInBlock) with
  | true =>
    obtain ⟨s2, f2, e, hprog, -⟩ := swAppend_case tick sendToPAL hi hX he
    rw [h] at e
    injection e with e
    injection e with e1 e2
    subst e1
    exact EraseDelta.ofSame hprog.ecntEq
  | false =>
    obtain ⟨t, hm⟩ := swAppend_returned he h
    have hcnt := swConflict_count hi hn hsw hown hpos he
    have h2 := mergeSW_free hown hold hcnt hm
    rw [hfree, List.length_range'] at h2
    obtain ⟨s2, f2, e, -, g6, g7, -, hm3, -⟩ :=
      swConflict_case (n := n - 2) tick sendToPAL hi hn hX hsw hown hold hpos he
        (by rw [hfree]; congr 1; omega)
    rw [h] at e
    injection e with e
    injection e with e1 e2
    subst e1
    obtain ⟨n1, -, g4⟩ := hm3.hfree
    obtain ⟨s0, p, hplan, hrun⟩ := mergeLogBlock_cases hm
    have hplan1 : s.mergePlanSW sw (some (lpn % s.param.pagesInBlock)) = some (s0, p) := hplan
    obtain ⟨o1, old1, ho1, hold1, -, -, -, -, hpb, -, -, hcase⟩ := mergePlanSW_cases hplan1
    rw [hown] at ho1
    injection ho1 with ho1
    subst ho1
    rw [hold] at hold1
    injection hold1 with hold1
    subst hold1
    rcases hcase with ⟨hc, -⟩ | ⟨-, nd, nsw, -, -, -, -, -, -, her⟩
    · exact absurd hc hcnt
    have hcount : ∀ q, (s1.physicalBlocks q).eraseCount =
        (s.physicalBlocks q).eraseCount + [old, sw].count q := by
      intro q
      rw [mergeRun_ecnt hrun q, hpb, her]
    intro q
    by_cases hq : q = old ∨ q = sw
    · right
      refine ⟨?_, ?_, ?_⟩
      · rw [hcount]
        rcases hq with hq | hq
        · subst hq
          simp [List.count_cons, hos]
        · subst hq
          simp [List.count_cons, hos]
      · rcases hq with hq | hq
        · exact Or.inr (Or.inr (Or.inr ⟨_, by rw [hq]; exact hold⟩))
        · exact Or.inr (Or.inl (by rw [hq]; exact hsw))
      · have hqc : q < c := by
          rcases hq with hq | hq
          · rw [hq]; exact holdc
          · rw [hq]; exact hswc
        rintro (hr | hr | hr | ⟨a, hr⟩)
        · rw [g4, List.mem_range'] at hr
          obtain ⟨j, -, hj⟩ := hr
          omega
        · rw [g6] at hr
          injection hr with hr
          omega
        · rw [g7] at hr
          rcases hq with hq | hq
          · rw [hq] at hr
            exact hi.l2pRW _ old hold hr
          · rw [hq] at hr
            exact hi.swRW sw hsw hr
        · rw [hm3.hl2p] at hr
          split at hr
          · injection hr with hr
            omega
          · rename_i hne1
            rcases hq with hq | hq
            · rw [hq] at hr
              exact hne1 (List.mem_singleton.mpr (hi.l2pInj a _ old hr hold))
            · rw [hq] at hr
              exact hi.l2pSW a sw hr hsw
    · left
      rw [hcount]
      have h1 : q ≠ old := fun hx => hq (Or.inl hx)
      have h2 : q ≠ sw := fun hx => hq (Or.inr hx)
      simp [List.count_cons, Ne.symm h1, Ne.symm h2]

/-- Case 2c on the erase counts. -/
theorem delta_rw {s s1 : FastMapping} {c lpn tick f : Nat} {sendToPAL : Bool}
    (hi : InvC s c)
    (hX : DataBacked s (fun l => l = lpn)) (hpos : 0 < s.param.pagesInBlock)
    (h : s.writeRW lpn tick sendToPAL = some (s1, f)) : EraseDelta s s1 := by
  obtain ⟨n, hfree⟩ := hi.free
  cases hfind : s.RWBlocks.find? (fun rwBlockNum =>
      (s.physicalBlocks rwBlockNum).getErasedPageCount != 0) with
  | some tgt =>
    obtain ⟨s2, f2, e, -, -, hprog, -⟩ := rwRoute_case tick sendToPAL hi hX hfind
    rw [h] at e
    injection e with e
    injection e with e1 e2
    subst e1
    exact EraseDelta.ofSame hprog.ecntEq
  | none =>
    obtain ⟨victim, rest, S, t, hRW, hm, hne⟩ := rw_returned hfind h
    have hd := @mergeRW_free s { s with RWBlocks := rest } c victim tick sendToPAL _ hi rfl hm
    rw [hfree, List.length_range'] at hd
    obtain ⟨S1, t1, lbns, N, er, T, hm1, -, -, b3, -, hcm⟩ :=
      @mergeRW_full s { s with RWBlocks := rest } c victim n rest hi hRW rfl rfl rfl rfl rfl rfl
        rfl rfl hfree hd tick sendToPAL
    rw [hm] at hm1
    injection hm1 with hm1
    injection hm1 with hS ht
    subst hS
    obtain ⟨n1, hf0, hf1⟩ := hcm.hfree
    have hn1 : lbns.length + 1 + n1 = n := by
      have := congrArg List.length hf0
      rw [hfree] at this
      simp only [List.length_range'] at this
      omega
    have hn2 : n1 ≠ 0 := by
      intro h0
      apply hne
      rw [hf1, h0]
      rfl
    have hdem : ({ s with RWBlocks := rest } : FastMapping).rwMergeDemand victim =
        s.rwMergeDemand victim := rfl
    rw [hdem] at b3
    obtain ⟨s2, f2, S2, t2, lbns2, N2, er2, T2, e, hm2, -, -, hd2, -, hm3, hprog,
        ⟨-, g2, -, g4, -, g6, g7⟩, -⟩ :=
      rwRecycle_case tick sendToPAL hi hX hpos hfind hRW hfree (by omega)
    rw [h] at e
    injection e with e
    injection e with e1 e2
    subst e1
    rw [hm] at hm2
    injection hm2 with hm2
    injection hm2 with hS ht
    subst hS
    -- the plan of the merge
    obtain ⟨s0, p, hplan, hrun⟩ := mergeLogBlock_cases hm
    have hplan1 : ({ s with RWBlocks := rest } : FastMapping).mergePlanRW victim =
        some (s0, p) := hplan
    obtain ⟨s0a, pa, L, nw, od, hpa, u1, -, uchar, unw, -, -, hpb, -, -, -, -, -, -, -, -, her,
        -⟩ :=
      @mergePlanRW_full s { s with RWBlocks := rest } c victim n rest hi hRW rfl rfl rfl rfl rfl
        rfl rfl rfl hfree hd
    rw [hplan1] at hpa
    injection hpa with hpa
    injection hpa with hp1 hp2
    subst hp1
    subst hp2
    have hvRW : victim ∈ s.RWBlocks := by rw [hRW]; exact List.mem_cons_self _ _
    have hvc : victim < c := hi.rwLt victim hvRW
    have hnd : (L.map od ++ [victim]).Nodup := by
      rw [List.nodup_append]
      refine ⟨?_, List.nodup_singleton _, ?_⟩
      · rw [List.nodup_map_iff_inj_on u1]
        intro a ha a1 ha1 heq
        have e1 := (unw a ha).2.2
        have e2 := (unw a1 ha1).2.2
        rw [heq] at e1
        exact hi.l2pInj a a1 _ e1 e2
      · intro x hx1 hx2
        rw [List.mem_singleton] at hx2
        subst hx2
        rw [List.mem_map] at hx1
        obtain ⟨a, ha, hax⟩ := hx1
        have e1 := (unw a ha).2.2
        rw [hax] at e1
        exact hi.l2pRW a _ e1 hvRW
    have hcount : ∀ q, (s1.physicalBlocks q).eraseCount =
        (s.physicalBlocks q).eraseCount + (L.map od ++ [victim]).count q := by
      intro q
      rw [hprog.ecntEq, mergeRun_ecnt hrun q, hpb, her]
    have hLcm : ∀ a, a ∈ L → a ∈ lbns2 := by
      intro a ha
      obtain ⟨j, -, hj2, hj3⟩ := (uchar a).mp ha
      have := (hm3.hcopy victim j hm3.hGer hj2).1
      rw [hj3] at this
      exact this
    intro q
    by_cases hq : q ∈ L.map od ++ [victim]
    · right
      refine ⟨?_, ?_, ?_⟩
      · rw [hcount, List.count_eq_one_of_mem hnd hq]
      · rw [List.mem_append, List.mem_singleton, List.mem_map] at hq
        rcases hq with ⟨a, ha, hax⟩ | hq
        · exact Or.inr (Or.inr (Or.inr ⟨a, by rw [← hax]; exact (unw a ha).2.2⟩))
        · exact Or.inr (Or.inr (Or.inl (by rw [hq]; exact hvRW)))
      · rw [List.mem_append, List.mem_singleton, List.mem_map] at hq
        have hqc : q < c := by
          rcases hq with ⟨a, ha, hax⟩ | hq
          · rw [← hax]
            exact hi.l2pLt a _ (unw a ha).2.2
          · rw [hq]; exact hvc
        rintro (hr | hr | hr | ⟨a, hr⟩)
        · rw [g4, List.mem_range'] at hr
          obtain ⟨j, -, hj⟩ := hr
          omega
        · rw [g6] at hr
          rcases hq with ⟨a, ha, hax⟩ | hq
          · rw [← hax] at hr
            exact hi.l2pSW a _ (unw a ha).2.2 hr
          · rw [hq] at hr
            exact hi.swRW victim hr hvRW
        · rw [g7, List.mem_append, List.mem_singleton] at hr
          rcases hr with hr | hr
          · have hrs : q ∈ s.RWBlocks := by rw [hRW]; exact List.mem_cons_of_mem _ hr
            rcases hq with ⟨a, ha, hax⟩ | hq
            · rw [← hax] at hrs
              exact hi.l2pRW a _ (unw a ha).2.2 hrs
            · rw [hq] at hr
              have hnd2 := hi.rwNodup
              rw [hRW, List.nodup_cons] at hnd2
              exact hnd2.1 hr
          · omega
        · rw [g2, hm3.hl2p] at hr
          split at hr
          · rename_i hmem
            injection hr with hr
            have := (hm3.hN a hmem).1
            omega
          · rename_i hnm
            rcases hq with ⟨a1, ha1, hax⟩ | hq
            · rw [← hax] at hr
              have := hi.l2pInj a a1 _ hr (unw a1 ha1).2.2
              rw [this] at hnm
              exact hnm (hLcm a1 ha1)
            · rw [hq] at hr
              exact hi.l2pRW a _ hr hvRW
    · left
      rw [hcount, List.count_eq_zero_of_not_mem hq, Nat.add_zero]

end FastMapping

end SimpleSSD

namespace SimpleSSD

namespace FastMapping

/-- An overwrite on the erase counts. -/
theorem delta_overwrite {s s1 : FastMapping} {c lpn tick f b i : Nat} {k : BlockType}
    {sendToPAL : Bool} (hi : InvC s c) (hx : InvX s)
    (hf : s.findValidPage lpn = some (some (b, i, k)))
    (h : s.writeOverwrite lpn tick sendToPAL b i k = some (s1, f)) : EraseDelta s s1 := by
  obtain ⟨hi1, hn1⟩ := hi.invalidate (t := tick) hf
  have hX1 := DataBacked.of_invalidate (t := tick) hi hx.backed hf
  obtain ⟨f1, f2, f3, f4, f5, f6, -⟩ := writeInvalidate_fields s lpn tick b i k
  obtain ⟨-, b2, -⟩ := writeInvalidate_blocks s lpn tick b i k
  obtain ⟨hv0, -⟩ := hi.found hf
  obtain ⟨-, old, hold⟩ := findValidPage_found_mapped hf
  have hpos : 0 < s.param.pagesInBlock := by
    have := (hi.bits b i hv0).1
    omega
  have href : ∀ q, Referenced (s.writeInvalidate lpn tick b i k) q → Referenced s q := by
    intro q hq
    unfold Referenced at hq ⊢
    rw [f4, f5, f6, f2] at hq
    exact hq
  apply EraseDelta.ofPrefix b2 href
  unfold FastMapping.writeOverwrite at h
  simp only [convertPageToOffsetInBlock, convertPageToBlock] at h
  generalize s.writeInvalidate lpn tick b i k = s' at h hi1 hn1 hX1 f1 f2 f3 f4 f5 f6
  have hpos' : 0 < s'.param.pagesInBlock := by rw [f1]; exact hpos
  cases hsw : s'.SWBlock with
  | none =>
    have := hx.swSome
    rw [← f5, hsw] at this
    exact absurd this (by simp)
  | some sw =>
    split at h
    · exact delta_swFirst hi1 hsw hX1 hpos' h
    · simp only [hsw] at h
      split at h
      · rename_i hown
        exact delta_swAppend hi1 hn1 hsw hown (by rw [f2, f1]; exact hold) hX1 hpos' h
      · exact delta_rw hi1 hX1 hpos' h

/-- A write on the erase counts. -/
theorem delta_write {s s1 : FastMapping} {c lpn tick tick1 : Nat} {sendToPAL : Bool}
    (hi : InvC s c) (hx : InvX s)
    (h : s.writeInternal lpn tick sendToPAL = some (s1, tick1)) : EraseDelta s s1 := by
  unfold FastMapping.writeInternal at h
  simp only [convertPageToBlock] at h
  split at h
  · split at h
    · exact absurd h (by simp)
    · rename_i sA hA
      obtain ⟨⟨cA, hiA⟩, hmapA, hBA, hpA⟩ := hi.ensureMapping hA
      have hxA := InvX.ofEnsure hi hx hA
      have hstep := (writeEnsureMapping_step hA).1
      apply @EraseDelta.ofPrefix s sA s1 (fun q => by rw [hBA]) (fun q hq => hstep.referenced hq)
      split at h
      · exact absurd h (by simp)
      · rename_i s2 f2 hwr
        injection h with h
        injection h with h hsnd
        subst h
        split at hwr
        · exact absurd hwr (by simp)
        · rename_i hf
          rw [← hpA] at hmapA
          cases hp : sA.logicalToPhysicalBlockMapping (lpn / sA.param.pagesInBlock) with
          | none => rw [hp] at hmapA; exact absurd hmapA (by simp)
          | some p =>
            have hpos : 0 < sA.param.pagesInBlock := by
              unfold writeFresh at hwr
              simp only [convertPageToBlock, convertPageToOffsetInBlock, hp] at hwr
              cases hw : sA.writeBlock p (lpn % sA.param.pagesInBlock) lpn tick with
              | none => simp [hw] at hwr
              | some s4 =>
                have := hiA.erasedLt p _ (writeBlock_views hw).1
                omega
            obtain ⟨s3, f3, e, hprog, -⟩ :=
              fresh_case tick sendToPAL hiA hxA.backed hpos hf hp
            rw [hwr] at e
            injection e with e
            injection e with e1 e2
            subst e1
            exact EraseDelta.ofSame hprog.ecntEq
        · rename_i b i k hf
          exact delta_overwrite hiA hxA hf hwr
  · exact absurd h (by simp)

/-- A read keeps the erase counts. -/
theorem readInternal_ecnt {s s1 : FastMapping} {lpn tick t : Nat}
    (h : s.readInternal lpn tick = some (s1, t)) (q : Nat) :
    (s1.physicalBlocks q).eraseCount = (s.physicalBlocks q).eraseCount := by
  unfold readInternal at h
  split at h
  · exact absurd h (by simp)
  · injection h with h
    injection h with h1 h2
    subst h1
    rfl
  · rename_i pbn pageIdx k hf
    split at h
    · exact absurd h (by simp)
    · rename_i x b hb
      injection h with h
      injection h with h1 h2
      subst h1
      rw [palRead_blocks]
      obtain ⟨-, -, -, e, -⟩ := BlockFast.read_eq hb
      show (upd s.physicalBlocks pbn b q).eraseCount = _
      rw [upd_apply]
      split
      · rename_i hq
        rw [e, hq]
      · rfl

/-- In a reachable state no block was erased twice, and an erased block is
not referenced. -/
theorem Reachable.erasedOnce {s : FastMapping} (h : Reachable s) : ErasedOnce s := by
  induction h with
  | init p l c s h =>
    obtain ⟨-, -, -, h4, -⟩ := new_eq h
    intro q
    have h0 : (s.physicalBlocks q).eraseCount = 0 := by
      rw [h4]
      rfl
    rw [h0]
    exact ⟨Nat.zero_le 1, fun hx => absurd hx (by decide)⟩
  | write s lpn tick sendToPAL s1 tick1 hr hw ih =>
    obtain ⟨c, hi, hx⟩ := Reachable.invX hr
    exact ih.next (writeInternal_step hw).1 (delta_write hi hx hw)
  | read s lpn tick s1 tick1 _ hr ih =>
    exact ih.next (readInternal_tables hr).step (EraseDelta.ofSame (readInternal_ecnt hr))

/-- C38. Every block is erased at most once. In every reachable state every
physical block has erase count at most 1; a block with erase count 1 is fully
erased, has no valid page, is clean, and is referenced by none of `L2P`,
`SWBlock`, `RWBlocks`, `freeBlocks` and `RWlogMapping`. -/
theorem erased_at_most_once {s : FastMapping} (h : Reachable s) (b : Nat) :
    (s.physicalBlocks b).getEraseCount ≤ 1 ∧
    ((s.physicalBlocks b).getEraseCount = 1 →
      (∀ i, i < s.param.pagesInBlock → (s.physicalBlocks b).isErased i = true) ∧
      (∀ i, (s.physicalBlocks b).isValid i = false) ∧
      (s.physicalBlocks b).isCleanBlock = true ∧
      (∀ a, s.logicalToPhysicalBlockMapping a ≠ some b) ∧
      s.SWBlock ≠ some b ∧ b ∉ s.RWBlocks ∧ b ∉ s.freeBlocks ∧
      (∀ l pg, s.RWlogMapping l ≠ some (b, pg))) := by
  obtain ⟨c, hi, -⟩ := Reachable.invX h
  obtain ⟨h1, h2⟩ := Reachable.erasedOnce h b
  refine ⟨h1, ?_⟩
  intro he
  have hnr := h2 he
  have hl : ∀ a, s.logicalToPhysicalBlockMapping a ≠ some b :=
    fun a ha => hnr (Or.inr (Or.inr (Or.inr ⟨a, ha⟩)))
  have hsw : s.SWBlock ≠ some b := fun hx => hnr (Or.inr (Or.inl hx))
  have hrw : b ∉ s.RWBlocks := fun hx => hnr (Or.inr (Or.inr (Or.inl hx)))
  have hfr : b ∉ s.freeBlocks := fun hx => hnr (Or.inl hx)
  obtain ⟨c1, -⟩ := hi.clean b hl hsw hrw
  refine ⟨c1, ?_, clean_of_allErased (hi.blk b).1 c1, hl, hsw, hrw, hfr, ?_⟩
  · intro i
    cases hv : (s.physicalBlocks b).isValid i with
    | false => rfl
    | true =>
      obtain ⟨hlt, hne⟩ := hi.bits b i hv
      rw [c1 i hlt] at hne
      exact absurd hne (by simp)
  · intro l pg hm
    exact hrw (hi.rwmap l b pg hm).1

/-- On the example device after the writes 0, 1, 2, 3, 0, 1, 2, 3, 0 block 7,
the first data block of logical block 0, was erased once; it is clean and in
no queue. -/
theorem erased_at_most_once_witness :
    (exampleState [0, 1, 2, 3, 0, 1, 2, 3, 0] rfl).Reachable ∧
      ((exampleState [0, 1, 2, 3, 0, 1, 2, 3, 0] rfl).physicalBlocks 7).getEraseCount = 1 ∧
      ((exampleState [0, 1, 2, 3, 0, 1, 2, 3, 0] rfl).physicalBlocks 7).isCleanBlock = true ∧
      7 ∉ (exampleState [0, 1, 2, 3, 0, 1, 2, 3, 0] rfl).freeBlocks ∧
      ((exampleState [0, 1, 2, 3, 0, 1, 2, 3, 0] rfl).physicalBlocks 8).getEraseCount ≤ 1 :=
  have h := erased_at_most_once (exampleState_reachable [0, 1, 2, 3, 0, 1, 2, 3, 0] rfl)
  ⟨exampleState_reachable _ _, by decide, ((h 7).2 (by decide)).2.2.1,
    ((h 7).2 (by decide)).2.2.2.2.2.2.1, (h 8).1⟩

end FastMapping

end SimpleSSD




namespace SimpleSSD

namespace BlockFast

theorem wellFormed_new (i n : Nat) (c : Bool) : (BlockFast.new i n c).WellFormed := by
  refine ⟨Nat.zero_le _, ?_⟩
  intro j hj
  simpa [BlockFast.new, BlockFast.erase, Bitset.test, Bitset.setAll] using hj

theorem wellFormed_erase {b : BlockFast} : b.erase.WellFormed := by
  refine ⟨Nat.zero_le _, ?_⟩
  intro j hj
  simpa [BlockFast.erase, Bitset.test, Bitset.setAll] using hj

theorem wellFormed_invalidate {b : BlockFast} (h : b.WellFormed) (pg idx : Nat) :
    (b.invalidate pg idx).WellFormed := h

theorem wellFormed_read {b b' : BlockFast} {pg idx t : Nat} {r : Bool} (h : b.WellFormed)
    (hr : b.read pg idx t = some (r, b')) : b'.WellFormed := by
  obtain ⟨e1, -, e3, -, -, -, e7, -⟩ := read_eq hr
  unfold WellFormed
  rw [e1, e3, e7]
  exact h

theorem wellFormed_write {b b' : BlockFast} {pg lpn idx t : Nat} (h : b.WellFormed)
    (hw : b.write pg lpn idx t = some b') : b'.WellFormed := by
  unfold BlockFast.write at hw
  split at hw
  · split at hw
    · rename_i he
      injection hw with hw
      subst hw
      have hlt := h.2 pg he
      refine ⟨hlt, ?_⟩
      intro j hj
      apply h.2 j
      simp only [Bitset.test, Bitset.reset] at hj ⊢
      split at hj
      · exact absurd hj (by simp)
      · exact hj
    · exact absurd hw (by simp)
  · exact absurd hw (by simp)

end BlockFast

namespace FastMapping

theorem Traced.idle (b : Bool) (s : FastMapping) : Traced b s s := ⟨fun h => h, fun _ => rfl⟩

theorem Traced.andNext {b : Bool} {s s1 s2 : FastMapping} (h1 : Traced b s s1)
    (h2 : Traced b s1 s2) : Traced b s s2 :=
  ⟨fun h => h2.made (h1.made h), fun hb => (h2.log hb).trans (h1.log hb)⟩

/-- A step that changes neither the blocks nor the PAL log. -/
theorem Traced.ofEq (b : Bool) {s S : FastMapping} (h1 : S.physicalBlocks = s.physicalBlocks)
    (h2 : S.palLog = s.palLog) : Traced b s S :=
  ⟨fun h q => by rw [h1]; exact h q, fun _ => h2⟩

/-- A step that replaces one block by a well-formed one. -/
theorem Traced.ofUpd (b : Bool) (s : FastMapping) (p : Nat) (x : BlockFast)
    (hx : (s.physicalBlocks p).WellFormed → x.WellFormed) :
    Traced b s { s with physicalBlocks := upd s.physicalBlocks p x } := by
  refine ⟨?_, fun _ => rfl⟩
  intro h q
  show (upd s.physicalBlocks p x q).WellFormed
  rw [upd_apply]
  split
  · exact hx (h p)
  · exact h q

theorem writeBlock_traced (b : Bool) {s s1 : FastMapping} {p i l t : Nat}
    (h : s.writeBlock p i l t = some s1) : Traced b s s1 := by
  obtain ⟨x, hx, rfl⟩ := writeBlock_eq h
  exact Traced.ofUpd b s p x (fun hw => BlockFast.wellFormed_write hw hx)

theorem palWrite_traced (s : FastMapping) (req : PalRequest) (tick : Nat) (sendToPAL : Bool) :
    Traced sendToPAL s (s.palWrite req tick sendToPAL).1 := by
  unfold palWrite
  cases sendToPAL
  · exact Traced.idle _ _
  · exact ⟨fun h => h, fun hb => absurd hb (by simp)⟩

theorem palRead_traced (s : FastMapping) (req : PalRequest) (tick : Nat) (sendToPAL : Bool) :
    Traced sendToPAL s (s.palRead req tick sendToPAL).1 := by
  unfold palRead
  cases sendToPAL
  · exact Traced.idle _ _
  · exact ⟨fun h => h, fun hb => absurd hb (by simp)⟩

theorem eraseInternal_traced (s : FastMapping) (p tick : Nat) (sendToPAL : Bool) :
    Traced sendToPAL s (s.eraseInternal p tick sendToPAL).1 := by
  obtain ⟨-, -, hb⟩ := eraseInternal_spec s p tick sendToPAL
  refine ⟨?_, ?_⟩
  · intro h q
    rw [hb, upd_apply]
    split
    · exact BlockFast.wellFormed_erase
    · exact h q
  · intro hf
    subst hf
    rfl

theorem writeInvalidate_traced (bl : Bool) (s : FastMapping) (lpn t b i : Nat) (k : BlockType) :
    Traced bl s (s.writeInvalidate lpn t b i k) := by
  obtain ⟨-, -, -, -, -, -, -, f8⟩ := writeInvalidate_fields s lpn t b i k
  obtain ⟨-, -, -, -, b5⟩ := writeInvalidate_blocks s lpn t b i k
  refine ⟨?_, fun _ => b5⟩
  intro h q
  rw [f8, upd_apply]
  split
  · exact BlockFast.wellFormed_invalidate (h b) i t
  · exact h q

theorem getFreeBlock_traced (b : Bool) {s s1 : FastMapping} {p : Nat}
    (h : s.getFreeBlock = some (p, s1)) : Traced b s s1 := by
  obtain ⟨rest, -, rfl⟩ := getFreeBlock_eq h
  exact Traced.ofEq b rfl rfl

theorem mergeReads_traced (tick : Nat) (sendToPAL : Bool) :
    ∀ (rs : List PalRequest) (s : FastMapping) (f : Nat) (s1 : FastMapping) (f1 : Nat),
      mergeReads tick sendToPAL rs s f = some (s1, f1) → Traced sendToPAL s s1 := by
  intro rs
  induction rs with
  | nil =>
    intro s f s1 f1 h
    simp only [mergeReads] at h
    injection h with h
    injection h with h1 h2
    subst h1
    exact Traced.idle _ _
  | cons req rest ih =>
    intro s f s1 f1 h
    simp only [mergeReads] at h
    split at h
    · exact absurd h (by simp)
    · rename_i x b hb
      have h1 := ih _ _ _ _ h
      have h0 := Traced.ofUpd sendToPAL s req.blockIndex b
        (fun hw => BlockFast.wellFormed_read hw hb)
      exact (h0.andNext (palRead_traced _ _ _ _)).andNext h1

theorem mergeWrites_traced (rf : Nat) (sendToPAL : Bool) :
    ∀ (ws : List (PalRequest × Nat)) (s : FastMapping) (f : Nat) (s1 : FastMapping) (f1 : Nat),
      mergeWrites rf sendToPAL ws s f = some (s1, f1) → Traced sendToPAL s s1 := by
  intro ws
  induction ws with
  | nil =>
    intro s f s1 f1 h
    simp only [mergeWrites] at h
    injection h with h
    injection h with h1 h2
    subst h1
    exact Traced.idle _ _
  | cons w rest ih =>
    intro s f s1 f1 h
    obtain ⟨req, lpn⟩ := w
    simp only [mergeWrites] at h
    split at h
    · exact absurd h (by simp)
    · rename_i s2 hw
      exact ((writeBlock_traced _ hw).andNext (palWrite_traced _ _ _ _)).andNext (ih _ _ _ _ h)

theorem mergeErases_traced (rf : Nat) (sendToPAL : Bool) :
    ∀ (er : List Nat) (s : FastMapping) (f : Nat),
      Traced sendToPAL s (mergeErases rf sendToPAL er s f).1 := by
  intro er
  induction er with
  | nil =>
    intro s f
    exact Traced.idle _ _
  | cons p rest ih =>
    intro s f
    simp only [mergeErases]
    exact (eraseInternal_traced s p rf sendToPAL).andNext (ih _ _)

theorem mergeRun_traced {s0 S : FastMapping} {p : MergePlan} {tick t : Nat} {sendToPAL : Bool}
    (h : mergeRun (some (s0, p)) tick sendToPAL = some (S, t)) : Traced sendToPAL s0 S := by
  unfold mergeRun at h
  simp only [] at h
  split at h
  · exact absurd h (by simp)
  · rename_i s2 rf hr
    split at h
    · exact absurd h (by simp)
    · rename_i s3 wf hw
      injection h with h
      injection h with h1 h2
      subst h1
      exact ((mergeReads_traced _ _ _ _ _ _ _ hr).andNext
        (mergeWrites_traced _ _ _ _ _ _ _ hw)).andNext (mergeErases_traced _ _ _ _ _)

/-- The second loop of the RW merge does not touch the blocks. -/
theorem mergeRWAssign_blocks :
    ∀ (lbns : List Nat) (s : FastMapping) (n0 o0 : Nat → Nat) (s1 : FastMapping)
      (nw od : Nat → Nat),
      mergeRWAssign lbns s n0 o0 = some (s1, nw, od) →
      s1.physicalBlocks = s.physicalBlocks := by
  intro lbns
  induction lbns with
  | nil =>
    intro s n0 o0 s1 nw od h
    simp only [mergeRWAssign] at h
    injection h with h
    injection h with h1 h
    subst h1
    rfl
  | cons a rest ih =>
    intro s n0 o0 s1 nw od h
    simp only [mergeRWAssign] at h
    split at h
    · exact absurd h (by simp)
    · rename_i nb s2 hf
      obtain ⟨r, -, rfl⟩ := getFreeBlock_eq hf
      split at h
      · exact absurd h (by simp)
      · have e := ih _ _ _ _ _ _ h
        exact e

/-- Building the plan of a merge does not touch the blocks. -/
theorem mergePlan_blocks {s s0 : FastMapping} {log : Nat} {k : BlockType} {ap : Option Nat}
    {p : MergePlan} (h : s.mergePlan log k ap = some (s0, p)) :
    s0.physicalBlocks = s.physicalBlocks := by
  unfold mergePlan at h
  split at h
  · split at h
    · exact absurd h (by simp)
    · obtain ⟨s1, nw, od, logWrites, X, s2, hassign, -, hfree, hs0, -⟩ := mergePlanRW_eq h
      obtain ⟨r, -, rfl⟩ := getFreeBlock_eq hfree
      subst hs0
      have e := mergeRWAssign_blocks _ _ _ _ _ _ _ hassign
      exact e
  · obtain ⟨-, -, -, -, -, -, -, -, q5, -⟩ := mergePlanSW_cases h
    exact q5
  · exact absurd h (by simp)

theorem mergeLogBlock_traced {s S : FastMapping} {log tick t : Nat} {k : BlockType}
    {ap : Option Nat} {sendToPAL : Bool}
    (h : s.mergeLogBlock log k ap tick sendToPAL = some (S, t)) : Traced sendToPAL s S := by
  obtain ⟨s0, p, hplan, hrun⟩ := mergeLogBlock_cases h
  obtain ⟨-, -, q4⟩ := mergePlan_static hplan
  exact (Traced.ofEq sendToPAL (mergePlan_blocks hplan) q4).andNext (mergeRun_traced hrun)

end FastMapping

end SimpleSSD

namespace SimpleSSD

namespace FastMapping

theorem writeEnsureMapping_traced (b : Bool) {s s1 : FastMapping} {lbn : Nat}
    (h : s.writeEnsureMapping lbn = some s1) : Traced b s s1 := by
  rcases writeEnsureMapping_eq h with ⟨-, rfl⟩ | ⟨-, pbn, s0, hf, rfl⟩
  · exact Traced.idle _ _
  · obtain ⟨r, -, rfl⟩ := getFreeBlock_eq hf
    exact Traced.ofEq b rfl rfl

theorem writeFresh_traced {s s1 : FastMapping} {lpn tick t : Nat} {sendToPAL : Bool}
    (h : s.writeFresh lpn tick sendToPAL = some (s1, t)) : Traced sendToPAL s s1 := by
  unfold writeFresh at h
  split at h
  · exact absurd h (by simp)
  · simp only [] at h
    split at h
    · exact absurd h (by simp)
    · rename_i s2 hw
      injection h with h
      have h1 := congrArg Prod.fst h
      simp only [] at h1
      rw [← h1]
      exact (writeBlock_traced _ hw).andNext (palWrite_traced _ _ _ _)

theorem writeSWFirst_traced {s s2 : FastMapping} {lpn tick f : Nat} {sendToPAL : Bool}
    (h : s.writeSWFirst lpn tick sendToPAL = some (s2, f)) : Traced sendToPAL s s2 := by
  unfold writeSWFirst at h
  cases hsw : s.SWBlock with
  | none => simp [hsw] at h
  | some sw =>
    simp only [hsw] at h
    cases hcl : (s.physicalBlocks sw).isCleanBlock with
    | true =>
      simp only [hcl, if_true, hsw] at h
      cases hw : s.writeBlock sw 0 lpn tick with
      | none => simp [hw] at h
      | some s4 =>
        simp only [hw, Option.some.injEq, Prod.mk.injEq] at h
        obtain ⟨h1, -⟩ := h
        have t1 := writeBlock_traced sendToPAL hw
        have t0 : Traced sendToPAL s4 ({ s4 with
          physicalToLogicalBlockMapping :=
            upd s4.physicalToLogicalBlockMapping sw (some (s.convertPageToBlock lpn)) } :
          FastMapping) := Traced.ofEq _ rfl rfl
        have t2 := palWrite_traced ({ s4 with
          physicalToLogicalBlockMapping :=
            upd s4.physicalToLogicalBlockMapping sw (some (s.convertPageToBlock lpn)) } :
          FastMapping) { blockIndex := sw, pageIndex := 0 } tick sendToPAL
        rw [h1] at t2
        exact (t1.andNext t0).andNext t2
    | false =>
      simp only [hcl, Bool.false_eq_true, if_false] at h
      cases hm : s.mergeLogBlock sw BlockType.kBlockTypeSW none tick sendToPAL with
      | none => simp [hm] at h
      | some x =>
        obtain ⟨S, t⟩ := x
        simp only [hm] at h
        cases hf : S.getFreeBlock with
        | none => simp [hf] at h
        | some y =>
          obtain ⟨nb, S2⟩ := y
          simp only [hf] at h
          cases hw : ({ S2 with SWBlock := some nb } : FastMapping).writeBlock nb 0 lpn tick with
          | none => simp [hw] at h
          | some s4 =>
            simp only [hw, Option.some.injEq, Prod.mk.injEq] at h
            obtain ⟨h1, -⟩ := h
            have t1 := writeBlock_traced sendToPAL hw
            have t0 : Traced sendToPAL s4 ({ s4 with
              physicalToLogicalBlockMapping :=
                upd s4.physicalToLogicalBlockMapping nb (some (s.convertPageToBlock lpn)) } :
              FastMapping) := Traced.ofEq _ rfl rfl
            have t2 := palWrite_traced ({ s4 with
              physicalToLogicalBlockMapping :=
                upd s4.physicalToLogicalBlockMapping nb (some (s.convertPageToBlock lpn)) } :
              FastMapping) { blockIndex := nb, pageIndex := 0 } tick sendToPAL
            rw [h1] at t2
            have t3 : Traced sendToPAL S2 ({ S2 with SWBlock := some nb } : FastMapping) :=
              Traced.ofEq _ rfl rfl
            exact (((((mergeLogBlock_traced hm).andNext (getFreeBlock_traced _ hf)).andNext
              t3).andNext t1).andNext t0).andNext t2

theorem writeSWAppend_traced {s s2 : FastMapping} {sw lpn tick f : Nat} {sendToPAL : Bool}
    (h : s.writeSWAppend sw lpn tick sendToPAL = some (s2, f)) : Traced sendToPAL s s2 := by
  unfold writeSWAppend at h
  simp only [] at h
  split at h
  · cases hw : s.writeBlock sw (s.convertPageToOffsetInBlock lpn) lpn tick with
    | none => simp [hw] at h
    | some s4 =>
      simp only [hw, Option.some.injEq, Prod.mk.injEq] at h
      obtain ⟨h1, -⟩ := h
      have t := (writeBlock_traced sendToPAL hw).andNext (palWrite_traced s4
        { blockIndex := sw, pageIndex := s.convertPageToOffsetInBlock lpn } tick sendToPAL)
      rw [h1] at t
      exact t
  · cases hm : s.mergeLogBlock sw BlockType.kBlockTypeSW
        (some (s.convertPageToOffsetInBlock lpn)) tick sendToPAL with
    | none => simp [hm] at h
    | some x =>
      obtain ⟨S, t⟩ := x
      simp only [hm, Option.some.injEq, Prod.mk.injEq] at h
      obtain ⟨h1, -⟩ := h
      subst h1
      exact mergeLogBlock_traced hm

theorem writeRW_traced {s s2 : FastMapping} {lpn tick f : Nat} {sendToPAL : Bool}
    (h : s.writeRW lpn tick sendToPAL = some (s2, f)) : Traced sendToPAL s s2 := by
  unfold writeRW at h
  cases hfind : s.RWBlocks.find? (fun rwBlockNum =>
      (s.physicalBlocks rwBlockNum).getErasedPageCount != 0) with
  | some tgt =>
    simp only [hfind] at h
    cases hw : s.writeBlock tgt (s.physicalBlocks tgt).getNextWritePageIndex lpn tick with
    | none => simp [hw] at h
    | some s4 =>
      simp only [hw, Option.some.injEq, Prod.mk.injEq] at h
      obtain ⟨h1, -⟩ := h
      have t0 : Traced sendToPAL s4 ({ s4 with
          RWlogMapping := upd s4.RWlogMapping lpn
            (some (tgt, (s.physicalBlocks tgt).getNextWritePageIndex)) } : FastMapping) :=
        Traced.ofEq _ rfl rfl
      have t := ((writeBlock_traced sendToPAL hw).andNext t0).andNext (palWrite_traced _
        { blockIndex := tgt, pageIndex := (s.physicalBlocks tgt).getNextWritePageIndex }
        tick sendToPAL)
      rw [h1] at t
      exact t
  | none =>
    simp only [hfind] at h
    cases hRW : s.RWBlocks with
    | nil => simp [hRW] at h
    | cons victim rest =>
      simp only [hRW] at h
      cases hm : ({ s with RWBlocks := rest } : FastMapping).mergeLogBlock victim
          BlockType.kBlockTypeRW none tick sendToPAL with
      | none => simp [hm] at h
      | some x =>
        obtain ⟨S, t⟩ := x
        simp only [hm] at h
        cases hf : S.getFreeBlock with
        | none => simp [hf] at h
        | some y =>
          obtain ⟨nb, S2⟩ := y
          simp only [hf] at h
          cases hw : ({ S2 with
              RWBlocks := S2.RWBlocks ++ [nb]
              physicalToLogicalBlockMapping :=
                upd S2.physicalToLogicalBlockMapping nb none } : FastMapping).writeBlock nb
              (S2.physicalBlocks nb).getNextWritePageIndex lpn tick with
          | none => simp [hw] at h
          | some s4 =>
            simp only [hw, Option.some.injEq, Prod.mk.injEq] at h
            obtain ⟨h1, -⟩ := h
            have t0 : Traced sendToPAL s4 ({ s4 with
                RWlogMapping := upd s4.RWlogMapping lpn
                  (some (nb, (S2.physicalBlocks nb).getNextWritePageIndex)) } : FastMapping) :=
              Traced.ofEq _ rfl rfl
            have t := ((writeBlock_traced sendToPAL hw).andNext t0).andNext (palWrite_traced _
              { blockIndex := nb, pageIndex := (S2.physicalBlocks nb).getNextWritePageIndex }
              tick sendToPAL)
            rw [h1] at t
            have h0 : Traced sendToPAL s ({ s with RWBlocks := rest } : FastMapping) :=
              Traced.ofEq _ rfl rfl
            have t3 : Traced sendToPAL S2 ({ S2 with
                RWBlocks := S2.RWBlocks ++ [nb]
                physicalToLogicalBlockMapping :=
                  upd S2.physicalToLogicalBlockMapping nb none } : FastMapping) :=
              Traced.ofEq _ rfl rfl
            exact (((h0.andNext (mergeLogBlock_traced hm)).andNext
              (getFreeBlock_traced _ hf)).andNext t3).andNext t

theorem writeOverwrite_traced {s s2 : FastMapping} {lpn tick f b i : Nat} {k : BlockType}
    {sendToPAL : Bool} (h : s.writeOverwrite lpn tick sendToPAL b i k = some (s2, f)) :
    Traced sendToPAL s s2 := by
  have t0 := writeInvalidate_traced sendToPAL s lpn tick b i k
  unfold writeOverwrite at h
  simp only [] at h
  have key : Traced sendToPAL (s.writeInvalidate lpn tick b i k) s2 := by
    split at h
    · exact writeSWFirst_traced h
    · split at h
      · exact absurd h (by simp)
      · split at h
        · exact writeSWAppend_traced h
        · exact writeRW_traced h
  exact t0.andNext key

/-- A `writeInternal` call in any state keeps the blocks well-formed, and
without `sendToPAL` it logs no PAL call. -/
theorem writeInternal_traced {s s2 : FastMapping} {lpn tick t : Nat} {sendToPAL : Bool}
    (h : s.writeInternal lpn tick sendToPAL = some (s2, t)) : Traced sendToPAL s s2 := by
  unfold writeInternal at h
  simp only [] at h
  split at h
  · split at h
    · exact absurd h (by simp)
    · rename_i sA hA
      have a1 := writeEnsureMapping_traced sendToPAL hA
      split at h
      · exact absurd h (by simp)
      · rename_i s3 f3 hwr
        injection h with h
        injection h with h1 h2
        subst h1
        split at hwr
        · exact absurd hwr (by simp)
        · exact a1.andNext (writeFresh_traced hwr)
        · exact a1.andNext (writeOverwrite_traced hwr)
  · exact absurd h (by simp)

/-- A `readInternal` call keeps the blocks well-formed. -/
theorem readInternal_wellFormed {s s1 : FastMapping} {lpn tick t : Nat}
    (h : s.readInternal lpn tick = some (s1, t))
    (hw : ∀ b, (s.physicalBlocks b).WellFormed) : ∀ b, (s1.physicalBlocks b).WellFormed := by
  unfold readInternal at h
  split at h
  · exact absurd h (by simp)
  · injection h with h
    injection h with h1 h2
    subst h1
    exact hw
  · rename_i pbn pageIdx k hf
    split at h
    · exact absurd h (by simp)
    · rename_i x b hb
      injection h with h
      injection h with h1 h2
      subst h1
      exact ((Traced.ofUpd true s pbn b (fun hx => BlockFast.wellFormed_read hx hb)).andNext
        (palRead_traced _ _ _ _)).made hw

/-- In a reachable state every block is well-formed. -/
theorem Reachable.wellFormed {s : FastMapping} (h : Reachable s) (b : Nat) :
    (s.physicalBlocks b).WellFormed := by
  induction h generalizing b with
  | init p l c s h =>
    obtain ⟨-, -, -, h4, -⟩ := new_eq h
    rw [h4]
    exact BlockFast.wellFormed_new _ _ _
  | write s lpn tick sendToPAL s1 tick1 _ hw ih => exact (writeInternal_traced hw).made ih b
  | read s lpn tick s1 tick1 _ hr ih => exact readInternal_wellFormed hr ih b

end FastMapping

end SimpleSSD


namespace SimpleSSD

namespace FastMapping

/-- A call that returns exactly when `d` free blocks are there, and then takes
them. -/
theorem demand_of {o : Option (FastMapping × Nat)} {d n : Nat}
    (yes : d ≤ n → ∃ s2 f, o = some (s2, f) ∧ s2.freeBlocks.length + d = n)
    (no : ∀ r, o = some r → d ≤ n) :
    (o.isSome = true ↔ d ≤ n) ∧ ∀ s2 f, o = some (s2, f) → s2.freeBlocks.length + d = n := by
  constructor
  · constructor
    · intro h
      cases ho : o with
      | none => rw [ho] at h; exact absurd h (by simp)
      | some r => exact no r ho
    · intro h
      obtain ⟨s2, f, e, -⟩ := yes h
      rw [e]
      rfl
  · intro s2 f h
    obtain ⟨s3, f3, e, hl⟩ := yes (no _ h)
    rw [h] at e
    injection e with e
    injection e with e1 e2
    subst e1
    exact hl

/-- Case 2a returns exactly when the free blocks it takes are there. -/
theorem swFirst_demand {s : FastMapping} {c lpn sw : Nat} (tick : Nat) (sendToPAL : Bool)
    (hi : InvC s c) (hX : DataBacked s (fun l => l = lpn)) (hpos : 0 < s.param.pagesInBlock)
    (hsw : s.SWBlock = some sw) :
    ((s.writeSWFirst lpn tick sendToPAL).isSome = true ↔
        s.swFirstDemand ≤ s.freeBlocks.length) ∧
      ∀ s2 f, s.writeSWFirst lpn tick sendToPAL = some (s2, f) →
        s2.freeBlocks.length + s.swFirstDemand = s.freeBlocks.length := by
  obtain ⟨n, hfree⟩ := hi.free
  cases hcl : (s.physicalBlocks sw).isCleanBlock with
  | true =>
    have hd : s.swFirstDemand = 0 := by simp [swFirstDemand, hsw, hcl]
    rw [hd]
    apply demand_of
    · intro _
      obtain ⟨s2, f2, e, -, ⟨-, -, -, m4, -⟩, -⟩ :=
        swFirst_clean tick sendToPAL hi hX hpos hsw hcl
      exact ⟨s2, f2, e, by rw [m4]; rfl⟩
    · intro _ _
      exact Nat.zero_le _
  | false =>
    obtain ⟨o, old, ho, hold⟩ := hi.swOwner hsw hcl
    by_cases hcnt : (s.physicalBlocks sw).getValidPageCount = s.param.pagesInBlock
    · have hd : s.swFirstDemand = 1 := by simp [swFirstDemand, swMergeDemand, hsw, hcl, hcnt]
      rw [hd]
      apply demand_of
      · intro hn
        rw [hfree, List.length_range'] at hn
        obtain ⟨s2, f2, S2, t2, e, -, -, -, ⟨-, -, -, m4, -⟩, -⟩ :=
          swFirst_switch (n := n - 1) tick sendToPAL hi hX hsw hcl ho hold hcnt
            (by rw [hfree]; congr 1; omega)
        refine ⟨s2, f2, e, ?_⟩
        rw [m4, hfree, List.length_range', List.length_range']
        omega
      · intro r h
        obtain ⟨S, t, hm, hne⟩ := swFirst_returned hsw hcl h
        obtain ⟨-, hm1⟩ := mergeSW_switch s sw o old none tick sendToPAL ho hold hcnt
        rw [hm] at hm1
        injection hm1 with hm1
        injection hm1 with hS ht
        obtain ⟨⟨-, -, a3, -⟩, -⟩ := eraseInternal_spec
          ({ s with
            logicalToPhysicalBlockMapping :=
              upd s.logicalToPhysicalBlockMapping o (some sw) } : FastMapping) old tick sendToPAL
        rw [← hS] at a3
        rw [hfree, List.length_range']
        by_contra hlt
        apply hne
        rw [a3]
        show s.freeBlocks = []
        rw [hfree, show n = 0 by omega]
        rfl
    · have hd : s.swFirstDemand = 3 := by simp [swFirstDemand, swMergeDemand, hsw, hcl, hcnt]
      rw [hd]
      apply demand_of
      · intro hn
        rw [hfree, List.length_range'] at hn
        obtain ⟨s2, f2, S2, t2, e, -, -, -, -, -, -, ⟨-, -, -, m4, -⟩, -⟩ :=
          swFirst_full (n := n - 3) tick sendToPAL hi hX hsw hcl ho hold hcnt
            (by rw [hfree]; congr 1; omega)
        refine ⟨s2, f2, e, ?_⟩
        rw [m4, hfree, List.length_range', List.length_range']
        omega
      · intro r h
        obtain ⟨S, t, hm, hne⟩ := swFirst_returned hsw hcl h
        have h2 := mergeSW_free ho hold hcnt hm
        rw [hfree, List.length_range'] at h2
        obtain ⟨S1, t1, hm1, -, -, -, hcm⟩ := mergeSW_full (n := n - 2) hi hsw ho hold hcnt
          (by rw [hfree]; congr 1; omega) none tick sendToPAL
        rw [hm] at hm1
        injection hm1 with hm1
        injection hm1 with hS ht
        subst hS
        obtain ⟨n1, hf0, hf1⟩ := hcm.hfree
        have hn1 : n1 = n - 2 := by
          have := congrArg List.length hf0
          rw [hfree] at this
          simp only [List.length_range'] at this
          omega
        rw [hfree, List.length_range']
        by_contra hlt
        apply hne
        rw [hf1, hn1, show n - 2 = 0 by omega]
        rfl

/-- Case 2b returns exactly when the free blocks it takes are there. -/
theorem swAppend_demand {s : FastMapping} {c lpn sw old : Nat} (tick : Nat) (sendToPAL : Bool)
    (hi : InvC s c) (hn : NoCopy s lpn) (hsw : s.SWBlock = some sw)
    (hown : s.physicalToLogicalBlockMapping sw = some (lpn / s.param.pagesInBlock))
    (hold : s.logicalToPhysicalBlockMapping (lpn / s.param.pagesInBlock) = some old)
    (hX : DataBacked s (fun l => l = lpn)) (hpos : 0 < s.param.pagesInBlock) :
    ((s.writeSWAppend sw lpn tick sendToPAL).isSome = true ↔
        s.swAppendDemand sw lpn ≤ s.freeBlocks.length) ∧
      ∀ s2 f, s.writeSWAppend sw lpn tick sendToPAL = some (s2, f) →
        s2.freeBlocks.length + s.swAppendDemand sw lpn = s.freeBlocks.length := by
  obtain ⟨n, hfree⟩ := hi.free
  cases he : s.ebit sw (lpn % s.param.pagesInBlock) with
  | true =>
    have he1 : ((s.physicalBlocks sw).getPageInfo (lpn % s.param.pagesInBlock)).2.2 = true := he
    have hd : s.swAppendDemand sw lpn = 0 := by
      simp [swAppendDemand, convertPageToOffsetInBlock, he1]
    rw [hd]
    apply demand_of
    · intro _
      obtain ⟨s2, f2, e, -, ⟨-, -, -, m4, -⟩, -⟩ := swAppend_case tick sendToPAL hi hX he
      exact ⟨s2, f2, e, by rw [m4]; rfl⟩
    · intro _ _
      exact Nat.zero_le _
  | false =>
    have he1 : ((s.physicalBlocks sw).getPageInfo (lpn % s.param.pagesInBlock)).2.2 = false := he
    have hcnt := swConflict_count hi hn hsw hown hpos he
    have hd : s.swAppendDemand sw lpn = 2 := by
      simp [swAppendDemand, swMergeDemand, convertPageToOffsetInBlock, he1, hcnt]
    rw [hd]
    apply demand_of
    · intro h2
      rw [hfree, List.length_range'] at h2
      obtain ⟨s2, f2, e, -, -, -, -, hcm, -⟩ :=
        swConflict_case (n := n - 2) tick sendToPAL hi hn hX hsw hown hold hpos he
          (by rw [hfree]; congr 1; omega)
      refine ⟨s2, f2, e, ?_⟩
      obtain ⟨n1, hf0, hf1⟩ := hcm.hfree
      have := congrArg List.length hf0
      rw [hf1, hfree, List.length_range', List.length_range']
      rw [hfree] at this
      simp only [List.length_range'] at this
      omega
    · intro r h
      obtain ⟨t, hm⟩ := swAppend_returned he h
      exact mergeSW_free hown hold hcnt hm

/-- Case 2c returns exactly when the free blocks it takes are there. -/
theorem rw_demand {s : FastMapping} {c lpn : Nat} (tick : Nat) (sendToPAL : Bool)
    (hi : InvC s c) (hrw : s.RWBlocks.length = kRWBlockCnt)
    (hX : DataBacked s (fun l => l = lpn)) (hpos : 0 < s.param.pagesInBlock) :
    ((s.writeRW lpn tick sendToPAL).isSome = true ↔ s.rwDemand ≤ s.freeBlocks.length) ∧
      ∀ s2 f, s.writeRW lpn tick sendToPAL = some (s2, f) →
        s2.freeBlocks.length + s.rwDemand = s.freeBlocks.length := by
  obtain ⟨n, hfree⟩ := hi.free
  cases hfind : s.RWBlocks.find? (fun rwBlockNum =>
      (s.physicalBlocks rwBlockNum).getErasedPageCount != 0) with
  | some tgt =>
    have hd : s.rwDemand = 0 := by
      unfold rwDemand
      rw [hfind]
    rw [hd]
    apply demand_of
    · intro _
      obtain ⟨s2, f2, e, -, -, -, ⟨-, -, -, m4, -⟩, -⟩ := rwRoute_case tick sendToPAL hi hX hfind
      exact ⟨s2, f2, e, by rw [m4]; rfl⟩
    · intro _ _
      exact Nat.zero_le _
  | none =>
    cases hRW : s.RWBlocks with
    | nil =>
      rw [hRW] at hrw
      exact absurd hrw (by decide)
    | cons victim rest =>
      have hd : s.rwDemand = s.rwMergeDemand victim + 1 := by
        unfold rwDemand
        rw [hfind]
        simp only [hRW]
        rfl
      rw [hd]
      apply demand_of
      · intro hn
        rw [hfree, List.length_range'] at hn
        obtain ⟨s2, f2, S2, t2, lbns2, N2, er2, T2, e, -, -, -, b3, -, -, -,
            ⟨-, -, -, m4, -⟩, -⟩ :=
          rwRecycle_case tick sendToPAL hi hX hpos hfind hRW hfree hn
        refine ⟨s2, f2, e, ?_⟩
        rw [m4, hfree, List.length_range', List.length_range', b3]
        rw [b3] at hn
        omega
      · intro r h
        obtain ⟨victim1, rest1, S, t, hRW1, hm, hne⟩ := rw_returned hfind h
        rw [hRW] at hRW1
        injection hRW1 with hv hr
        subst hv
        subst hr
        have hdm := @mergeRW_free s { s with RWBlocks := rest } c victim tick sendToPAL _ hi rfl hm
        rw [hfree, List.length_range'] at hdm
        obtain ⟨S1, t1, lbns, N, er, T, hm1, -, -, b3, -, hcm⟩ :=
          @mergeRW_full s { s with RWBlocks := rest } c victim n rest hi hRW rfl rfl rfl rfl rfl
            rfl rfl rfl hfree hdm tick sendToPAL
        rw [hm] at hm1
        injection hm1 with hm1
        injection hm1 with hS ht
        subst hS
        obtain ⟨n1, hf0, hf1⟩ := hcm.hfree
        have hn1 : lbns.length + 1 + n1 = n := by
          have := congrArg List.length hf0
          rw [hfree] at this
          simp only [List.length_range'] at this
          omega
        have hn2 : n1 ≠ 0 := by
          intro h0
          apply hne
          rw [hf1, h0]
          rfl
        have hdem : ({ s with RWBlocks := rest } : FastMapping).rwMergeDemand victim =
            s.rwMergeDemand victim := rfl
        rw [hdem] at b3
        rw [hfree, List.length_range', b3]
        omega

end FastMapping

end SimpleSSD


namespace SimpleSSD

namespace FastMapping

/-- The tick passed to the invalidation is not used. -/
theorem writeInvalidate_tick (s : FastMapping) (lpn t b i : Nat) (k : BlockType) :
    s.writeInvalidate lpn t b i k = s.writeInvalidate lpn 0 b i k := rfl

/-- An overwrite returns exactly when the free blocks it takes are there. -/
theorem overwrite_demand {s : FastMapping} {c lpn b i : Nat} {k : BlockType} (tick : Nat)
    (sendToPAL : Bool) (hi : InvC s c) (hx : InvX s)
    (hf : s.findValidPage lpn = some (some (b, i, k))) :
    ((s.writeOverwrite lpn tick sendToPAL b i k).isSome = true ↔
        s.overwriteDemand lpn b i k ≤ s.freeBlocks.length) ∧
      ∀ s2 f, s.writeOverwrite lpn tick sendToPAL b i k = some (s2, f) →
        s2.freeBlocks.length + s.overwriteDemand lpn b i k = s.freeBlocks.length := by
  obtain ⟨hi1, hn1⟩ := hi.invalidate (t := tick) hf
  have hX1 := DataBacked.of_invalidate (t := tick) hi hx.backed hf
  obtain ⟨f1, f2, f3, f4, f5, f6, -⟩ := writeInvalidate_fields s lpn tick b i k
  obtain ⟨hv0, -⟩ := hi.found hf
  obtain ⟨-, old, hold⟩ := findValidPage_found_mapped hf
  have hpos : 0 < s.param.pagesInBlock := by
    have := (hi.bits b i hv0).1
    omega
  unfold FastMapping.writeOverwrite FastMapping.overwriteDemand
  simp only [convertPageToOffsetInBlock, convertPageToBlock]
  rw [← writeInvalidate_tick s lpn tick b i k, ← f4]
  generalize s.writeInvalidate lpn tick b i k = s' at hi1 hn1 hX1 f1 f2 f3 f4 f5 f6
  have hrw : s'.RWBlocks.length = kRWBlockCnt := by rw [f6]; exact hx.rwLen
  have hpos' : 0 < s'.param.pagesInBlock := by rw [f1]; exact hpos
  cases hsw : s'.SWBlock with
  | none =>
    have := hx.swSome
    rw [← f5, hsw] at this
    exact absurd this (by simp)
  | some sw =>
    by_cases hoff : lpn % s'.param.pagesInBlock = 0
    · simp only [hoff, if_true]
      exact swFirst_demand tick sendToPAL hi1 hX1 hpos' hsw
    · simp only [hoff, if_false]
      by_cases hown : s'.physicalToLogicalBlockMapping sw = some (lpn / s'.param.pagesInBlock)
      · simp only [hown, if_true]
        exact swAppend_demand tick sendToPAL hi1 hn1 hsw hown (by rw [f2, f1]; exact hold) hX1
          hpos'
      · simp only [hown, if_false]
        exact rw_demand tick sendToPAL hi1 hrw hX1 hpos'

/-- A write of an LPN of the logical range on a device with blocks of at
least one page returns exactly when the free blocks it takes are there. -/
theorem write_demand {s : FastMapping} {c : Nat} (hi : InvC s c) (hx : InvX s)
    (hpos : 0 < s.param.pagesInBlock) (lpn tick : Nat) (sendToPAL : Bool)
    (hl : lpn / s.param.pagesInBlock < s.param.totalLogicalBlocks) :
    ((s.writeInternal lpn tick sendToPAL).isSome = true ↔
        s.writeDemand lpn ≤ s.freeBlocks.length) ∧
      ∀ s2 t, s.writeInternal lpn tick sendToPAL = some (s2, t) →
        s2.freeBlocks.length + s.writeDemand lpn = s.freeBlocks.length := by
  unfold FastMapping.writeInternal FastMapping.writeDemand
  simp only [convertPageToBlock]
  rw [if_pos hl]
  cases hA : s.writeEnsureMapping (lpn / s.param.pagesInBlock) with
  | none =>
    have hm : s.logicalToPhysicalBlockMapping (lpn / s.param.pagesInBlock) = none ∧
        s.freeBlocks = [] := by
      unfold writeEnsureMapping at hA
      cases hq : s.logicalToPhysicalBlockMapping (lpn / s.param.pagesInBlock) with
      | some p => simp [hq] at hA
      | none =>
        refine ⟨rfl, ?_⟩
        cases hfr : s.freeBlocks with
        | nil => rfl
        | cons x xs => simp [hq, getFreeBlock, hfr] at hA
    simp [hm.1, hm.2]
  | some sA =>
    obtain ⟨⟨cA, hiA⟩, hmapA, -, hpA⟩ := hi.ensureMapping hA
    have hxA := InvX.ofEnsure hi hx hA
    have hlA : lpn / sA.param.pagesInBlock < sA.param.totalLogicalBlocks := by rw [hpA]; exact hl
    have hposA : 0 < sA.param.pagesInBlock := by rw [hpA]; exact hpos
    have hlen : sA.freeBlocks.length +
        (if (s.logicalToPhysicalBlockMapping (lpn / s.param.pagesInBlock)).isSome = true
          then 0 else 1) = s.freeBlocks.length := by
      rcases writeEnsureMapping_eq hA with ⟨hs, rfl⟩ | ⟨hnone, pbn, s0, hf, rfl⟩
      · rw [if_pos hs]
        rfl
      · obtain ⟨rest, hfr, rfl⟩ := getFreeBlock_eq hf
        rw [hnone, hfr]
        simp
    have hfv := hiA.lookup_eq lpn hlA
    have key : ∀ (o : Option (FastMapping × Nat)) (d : Nat),
        ((o.isSome = true ↔ d ≤ sA.freeBlocks.length) ∧
          ∀ s2 f, o = some (s2, f) → s2.freeBlocks.length + d = sA.freeBlocks.length) →
        (((match o with
            | none => none
            | some (s2, finishedAt) => some (s2, finishedAt + s.cpu.WRITE_INTERNAL) :
              Option (FastMapping × Nat)).isSome = true ↔
            (if (s.logicalToPhysicalBlockMapping (lpn / s.param.pagesInBlock)).isSome = true
              then 0 else 1) + d ≤ s.freeBlocks.length) ∧
          ∀ s2 t, (match o with
            | none => none
            | some (s2, finishedAt) => some (s2, finishedAt + s.cpu.WRITE_INTERNAL) :
              Option (FastMapping × Nat)) = some (s2, t) →
            s2.freeBlocks.length +
              ((if (s.logicalToPhysicalBlockMapping (lpn / s.param.pagesInBlock)).isSome = true
                then 0 else 1) + d) = s.freeBlocks.length) := by
      intro o d ⟨h1, h2⟩
      cases o with
      | none =>
        simp only [Option.isSome_none, Bool.false_eq_true, false_iff] at h1
        constructor
        · simp only [Option.isSome_none, Bool.false_eq_true, false_iff]
          omega
        · intro s2 t e
          exact absurd e (by simp)
      | some r =>
        obtain ⟨s3, f3⟩ := r
        have h3 := h2 s3 f3 rfl
        constructor
        · simp only [Option.isSome_some, true_iff]
          omega
        · intro s2 t e
          simp only [Option.some.injEq, Prod.mk.injEq] at e
          rw [← e.1]
          omega
    cases hspec : sA.findValidPageSpec lpn with
    | none =>
      rw [hspec] at hfv
      simp only [hfv]
      apply key
      cases hp : sA.logicalToPhysicalBlockMapping (lpn / sA.param.pagesInBlock) with
      | none => rw [← hpA, hp] at hmapA; exact absurd hmapA (by simp)
      | some p =>
        apply demand_of
        · intro _
          obtain ⟨s3, f3, e, -, ⟨-, -, -, m4, -⟩, -⟩ :=
            fresh_case tick sendToPAL hiA hxA.backed hposA hfv hp
          exact ⟨s3, f3, e, by rw [m4]; rfl⟩
        · intro _ _
          exact Nat.zero_le _
    | some r =>
      obtain ⟨b, i, k⟩ := r
      rw [hspec] at hfv
      simp only [hfv]
      apply key
      exact overwrite_demand tick sendToPAL hiA hxA hfv

/-- The erased pages of a block whose erased bits are those from the cursor
on: their number. -/
theorem count_from (m x : Nat) (f : Nat → Bool) (hf : ∀ i, i < m → (f i = true ↔ x ≤ i)) :
    ((List.range m).filter f).length = m - x := by
  induction m with
  | zero => simp
  | succ m ih =>
    rw [List.range_succ, List.filter_append, List.length_append,
      ih (fun i hi => hf i (Nat.lt_succ_of_lt hi))]
    by_cases h : x ≤ m
    · have : List.filter f [m] = [m] := by simp [(hf m (Nat.lt_succ_self m)).2 h]
      rw [this]
      simp only [List.length_singleton]
      omega
    · have hfm : f m = false := by
        cases hv : f m with
        | false => rfl
        | true => exact absurd ((hf m (Nat.lt_succ_self m)).1 hv) h
      have : List.filter f [m] = [] := by simp [hfm]
      rw [this]
      simp only [List.length_nil]
      omega

/-- The cursor of an RW block of a reachable state is the number of its pages
that are not erased. -/
theorem Reachable.rwCursor {s : FastMapping} (h : Reachable s) (b : Nat) (hb : b ∈ s.RWBlocks) :
    (s.physicalBlocks b).getNextWritePageIndex =
      s.param.pagesInBlock - (s.physicalBlocks b).getErasedPageCount := by
  obtain ⟨c, hi, -⟩ := Reachable.invX h
  have hw := (Reachable.wellFormed h b).1
  have hpc := (hi.blk b).1
  have hcount : (s.physicalBlocks b).getErasedPageCount =
      s.param.pagesInBlock - (s.physicalBlocks b).getNextWritePageIndex := by
    unfold BlockFast.getErasedPageCount Bitset.count
    rw [hpc]
    exact count_from _ _ _ (fun i hlt => hi.rwseq b i hb hlt)
  rw [hcount]
  have : (s.physicalBlocks b).getNextWritePageIndex ≤ s.param.pagesInBlock := by
    rw [← hpc]
    exact hw
  omega

end FastMapping

end SimpleSSD


namespace SimpleSSD

namespace FastMapping

/-- C33. No write hits a non-erased page. In a reachable state of a device
whose blocks have at least one page, for an LPN of the logical range,
`writeInternal` returns exactly when `freeBlocks` holds the blocks that the
`getFreeBlock` calls on its path take (`writeDemand`): the only failure of a
write is `getFreeBlock` on an empty queue, never a `Block.write`, made by
`writeInternal` or by a merge, on a page that is not erased. When it returns
it has taken exactly these blocks from the head of `freeBlocks`. `Block.write`
returns exactly on a page whose erased bit is set; such a page has an index
below `pagesInBlock` and is not valid. The cursor of every RW block is
`pagesInBlock` minus its erased page count. -/
theorem write_hits_erased_page {s : FastMapping} (h : Reachable s)
    (hpos : 0 < s.param.pagesInBlock) (lpn tick : Nat) (sendToPAL : Bool)
    (hl : lpn / s.param.pagesInBlock < s.param.totalLogicalBlocks) :
    ((s.writeInternal lpn tick sendToPAL).isSome = true ↔
        s.writeDemand lpn ≤ s.freeBlocks.length) ∧
      (∀ s2 t, s.writeInternal lpn tick sendToPAL = some (s2, t) →
        ∃ taken, s.freeBlocks = taken ++ s2.freeBlocks ∧ taken.length = s.writeDemand lpn) ∧
      (∀ b i l t, ((s.physicalBlocks b).write i l 0 t).isSome = true ↔
        (s.physicalBlocks b).isErased i = true) ∧
      (∀ b i, (s.physicalBlocks b).isErased i = true →
        i < s.param.pagesInBlock ∧ (s.physicalBlocks b).isValid i = false) ∧
      (∀ b, b ∈ s.RWBlocks →
        (s.physicalBlocks b).getNextWritePageIndex =
          s.param.pagesInBlock - (s.physicalBlocks b).getErasedPageCount) := by
  obtain ⟨c, hi, hx⟩ := Reachable.invX h
  obtain ⟨h1, h2⟩ := write_demand hi hx hpos lpn tick sendToPAL hl
  refine ⟨h1, ?_, ?_, ?_, fun b hb => Reachable.rwCursor h b hb⟩
  · intro s2 t e
    obtain ⟨taken, ht⟩ := (writeInternal_step e).1.free
    refine ⟨taken, ht, ?_⟩
    have hlen := congrArg List.length ht
    rw [List.length_append] at hlen
    have := h2 s2 t e
    omega
  · intro b i l t
    cases he : (s.physicalBlocks b).pErasedBits.test i <;>
      simp [BlockFast.write, BlockFast.isErased, he]
  · intro b i he
    refine ⟨hi.erasedLt b i he, ?_⟩
    cases hv : (s.physicalBlocks b).isValid i with
    | false => rfl
    | true =>
      have := (hi.bits b i hv).2
      rw [show s.ebit b i = (s.physicalBlocks b).isErased i from rfl, he] at this
      exact absurd this (by simp)

/-- On the example device after the writes 0, 4, 8, 12, 0, 4 two free blocks
are left: the write of LPN 8 is a full merge of the SW block, which takes
three, and fails; the write of LPN 1 is a fresh write, takes none and
returns. -/
theorem write_hits_erased_page_witness :
    (exampleState [0, 4, 8, 12, 0, 4] rfl).Reachable ∧
      (exampleState [0, 4, 8, 12, 0, 4] rfl).freeBlocks = [14, 15] ∧
      (exampleState [0, 4, 8, 12, 0, 4] rfl).writeDemand 8 = 3 ∧
      (exampleState [0, 4, 8, 12, 0, 4] rfl).writeInternal 8 0 false = none ∧
      (exampleState [0, 4, 8, 12, 0, 4] rfl).writeDemand 1 = 0 ∧
      ((exampleState [0, 4, 8, 12, 0, 4] rfl).writeInternal 1 0 false).isSome = true ∧
      (((exampleState [0, 4, 8, 12, 0, 4] rfl).writeInternal 8 0 false).isSome = true ↔
        (exampleState [0, 4, 8, 12, 0, 4] rfl).writeDemand 8 ≤
          (exampleState [0, 4, 8, 12, 0, 4] rfl).freeBlocks.length) ∧
      (((exampleState [0, 4, 8, 12, 0, 4] rfl).writeInternal 1 0 false).isSome = true ↔
        (exampleState [0, 4, 8, 12, 0, 4] rfl).writeDemand 1 ≤
          (exampleState [0, 4, 8, 12, 0, 4] rfl).freeBlocks.length) :=
  ⟨exampleState_reachable _ _, rfl, rfl, rfl, rfl, rfl,
    (write_hits_erased_page (exampleState_reachable [0, 4, 8, 12, 0, 4] rfl) (by decide) 8 0
      false (by decide)).1,
    (write_hits_erased_page (exampleState_reachable [0, 4, 8, 12, 0, 4] rfl) (by decide) 1 0
      false (by decide)).1⟩

end FastMapping

end SimpleSSD


namespace SimpleSSD

namespace FastMapping

theorem TimingEq.ofRetime (s : FastMapping) (pal : PAL) (cpu : Latency) (log : List PalOp)
    (la : Nat → Nat) : TimingEq s (s.retime pal cpu log la) :=
  ⟨rfl, rfl, rfl, rfl, rfl, rfl, rfl, fun _ => rfl, fun _ => rfl, fun _ => rfl, fun _ => rfl,
    fun _ => rfl, fun _ => rfl, fun _ => rfl⟩

theorem TimingEq.itself (s : FastMapping) : TimingEq s s :=
  ⟨rfl, rfl, rfl, rfl, rfl, rfl, rfl, fun _ => rfl, fun _ => rfl, fun _ => rfl, fun _ => rfl,
    fun _ => rfl, fun _ => rfl, fun _ => rfl⟩

theorem TimingEq.flip {s s1 : FastMapping} (h : TimingEq s s1) : TimingEq s1 s :=
  ⟨h.param.symm, h.l2p.symm, h.p2l.symm, h.free.symm, h.rwmap.symm, h.sw.symm, h.rw.symm,
    fun b => (h.idx b).symm, fun b => (h.pageCount b).symm, fun b => (h.cursor b).symm,
    fun b => (h.valid b).symm, fun b => (h.erased b).symm, fun b => (h.lpns b).symm,
    fun b => (h.eraseCount b).symm⟩

theorem TimingEq.chain {s s1 s2 : FastMapping} (h : TimingEq s s1) (h1 : TimingEq s1 s2) :
    TimingEq s s2 :=
  ⟨h1.param.trans h.param, h1.l2p.trans h.l2p, h1.p2l.trans h.p2l, h1.free.trans h.free,
    h1.rwmap.trans h.rwmap, h1.sw.trans h.sw, h1.rw.trans h.rw,
    fun b => (h1.idx b).trans (h.idx b), fun b => (h1.pageCount b).trans (h.pageCount b),
    fun b => (h1.cursor b).trans (h.cursor b), fun b => (h1.valid b).trans (h.valid b),
    fun b => (h1.erased b).trans (h.erased b), fun b => (h1.lpns b).trans (h.lpns b),
    fun b => (h1.eraseCount b).trans (h.eraseCount b)⟩

/-- A state with the same mapping state is the state with other timing
fields. -/
theorem TimingEq.retimed {s s1 : FastMapping} (h : TimingEq s s1) :
    ∃ pal cpu log la, s1 = s.retime pal cpu log la := by
  refine ⟨s1.pPAL, s1.cpu, s1.palLog, fun b => (s1.physicalBlocks b).lastAccessed, ?_⟩
  obtain ⟨h1, h2, h3, h4, h5, h6, h7, b1, b2, b3, b4, b5, b6, b7⟩ := h
  cases s1 with
  | mk pa pl cp l2 p2 blocks fr rwm sw rw lg =>
    cases s with
    | mk pa0 pl0 cp0 l20 p20 blocks0 fr0 rwm0 sw0 rw0 lg0 =>
      simp only at h1 h2 h3 h4 h5 h6 h7 b1 b2 b3 b4 b5 b6 b7
      subst h1 h2 h3 h4 h5 h6 h7
      unfold retime
      simp only [FastMapping.mk.injEq, true_and, and_true]
      funext b
      have c1 := b1 b
      have c2 := b2 b
      have c3 := b3 b
      have c4 := b4 b
      have c5 := b5 b
      have c6 := b6 b
      have c7 := b7 b
      generalize blocks b = x at c1 c2 c3 c4 c5 c6 c7
      generalize blocks0 b = y at c1 c2 c3 c4 c5 c6 c7
      cases x
      cases y
      simp only at c1 c2 c3 c4 c5 c6 c7
      subst c1 c2 c3 c4 c5 c6 c7
      rfl

theorem Agree.ofNone {o o1 : Option (FastMapping × Nat)} (h : o = none) (h1 : o1 = none) :
    Agree o o1 := by
  rw [h, h1]
  exact True.intro

theorem Agree.ofSome {o o1 : Option (FastMapping × Nat)} {r r1 : FastMapping × Nat}
    (h : o = some r) (h1 : o1 = some r1) (e : TimingEq r.1 r1.1) : Agree o o1 := by
  rw [h, h1]
  exact e

/-- Two calls that agree fail together, and return states with the same
mapping state. -/
theorem Agree.spec {o o1 : Option (FastMapping × Nat)} (h : Agree o o1) :
    (o = none ↔ o1 = none) ∧
      ∀ S t S1 t1, o = some (S, t) → o1 = some (S1, t1) → TimingEq S S1 := by
  cases o with
  | none =>
    cases o1 with
    | none => exact ⟨Iff.rfl, fun _ _ _ _ e => absurd e (by simp)⟩
    | some r1 => exact absurd h id
  | some r =>
    cases o1 with
    | none => exact absurd h id
    | some r1 =>
      refine ⟨by simp, ?_⟩
      intro S t S1 t1 e e1
      injection e with e
      injection e1 with e1
      subst e
      subst e1
      exact h

end FastMapping

end SimpleSSD


namespace SimpleSSD

namespace FastMapping

theorem getFreeBlock_retime (s : FastMapping) (pal : PAL) (cpu : Latency) (log : List PalOp)
    (la : Nat → Nat) :
    (s.retime pal cpu log la).getFreeBlock =
      s.getFreeBlock.map (fun r => (r.1, r.2.retime pal cpu log la)) := by
  unfold getFreeBlock
  show (match s.freeBlocks with
    | [] => none
    | ret :: rest => some (ret, { s.retime pal cpu log la with freeBlocks := rest })) = _
  cases s.freeBlocks with
  | nil => rfl
  | cons x xs => rfl

theorem findValidPage_retime (s : FastMapping) (pal : PAL) (cpu : Latency) (log : List PalOp)
    (la : Nat → Nat) (lpn : Nat) :
    (s.retime pal cpu log la).findValidPage lpn = s.findValidPage lpn := rfl

theorem writeEnsureMapping_retime (s : FastMapping) (pal : PAL) (cpu : Latency)
    (log : List PalOp) (la : Nat → Nat) (lbn : Nat) :
    (s.retime pal cpu log la).writeEnsureMapping lbn =
      (s.writeEnsureMapping lbn).map (fun r => r.retime pal cpu log la) := by
  unfold writeEnsureMapping
  rw [getFreeBlock_retime]
  show (match s.logicalToPhysicalBlockMapping lbn with
    | some _ => some (s.retime pal cpu log la)
    | none => _) = _
  cases s.logicalToPhysicalBlockMapping lbn with
  | some p => rfl
  | none =>
    simp only
    cases s.getFreeBlock with
    | none => rfl
    | some r => rfl

theorem writeInvalidate_retime (s : FastMapping) (pal : PAL) (cpu : Latency) (log : List PalOp)
    (la : Nat → Nat) (lpn t t1 b i : Nat) (k : BlockType) :
    (s.retime pal cpu log la).writeInvalidate lpn t1 b i k =
      (s.writeInvalidate lpn t b i k).retime pal cpu log la := by
  have hb : upd (s.retime pal cpu log la).physicalBlocks b
      (((s.retime pal cpu log la).physicalBlocks b).invalidate i t1) =
      fun q => { upd s.physicalBlocks b ((s.physicalBlocks b).invalidate i t) q with
        lastAccessed := la q } := by
    funext q
    by_cases hq : q = b
    · subst hq
      simp [upd, retime, BlockFast.invalidate]
    · simp [upd, retime, hq]
  unfold writeInvalidate
  by_cases hk : k = BlockType.kBlockTypeRW
  · simp only [hk, if_true]
    rw [hb]
    rfl
  · simp only [hk, if_false]
    rw [hb]
    rfl

theorem writeBlock_retime (s : FastMapping) (pal : PAL) (cpu : Latency) (log : List PalOp)
    (la : Nat → Nat) (pbn pg lpn t t1 : Nat) :
    (s.retime pal cpu log la).writeBlock pbn pg lpn t1 =
      (s.writeBlock pbn pg lpn t).map (fun r => r.retime pal cpu log (upd la pbn t1)) := by
  have hw : ((s.retime pal cpu log la).physicalBlocks pbn).write pg lpn 0 t1 =
      ((s.physicalBlocks pbn).write pg lpn 0 t).map (fun b => { b with lastAccessed := t1 }) := by
    unfold BlockFast.write
    by_cases he : (s.physicalBlocks pbn).pErasedBits.test pg = true
    · simp [retime, he]
    · simp [retime, he]
  unfold writeBlock
  rw [hw]
  cases (s.physicalBlocks pbn).write pg lpn 0 t with
  | none => rfl
  | some b =>
    simp only [Option.map_some']
    congr 1
    unfold retime
    simp only [FastMapping.mk.injEq, true_and, and_true]
    funext q
    by_cases hq : q = pbn
    · subst hq
      simp [upd]
    · simp [upd, hq]

/-- Logging a PAL write changes timing fields only. -/
theorem palWrite_timing (s : FastMapping) (req : PalRequest) (tick : Nat) (sendToPAL : Bool) :
    TimingEq s (s.palWrite req tick sendToPAL).1 := by
  unfold palWrite
  cases sendToPAL
  · exact TimingEq.itself s
  · exact ⟨rfl, rfl, rfl, rfl, rfl, rfl, rfl, fun _ => rfl, fun _ => rfl, fun _ => rfl,
      fun _ => rfl, fun _ => rfl, fun _ => rfl, fun _ => rfl⟩

/-- Logging a PAL read changes timing fields only. -/
theorem palRead_timing (s : FastMapping) (req : PalRequest) (tick : Nat) (sendToPAL : Bool) :
    TimingEq s (s.palRead req tick sendToPAL).1 := by
  unfold palRead
  cases sendToPAL
  · exact TimingEq.itself s
  · exact ⟨rfl, rfl, rfl, rfl, rfl, rfl, rfl, fun _ => rfl, fun _ => rfl, fun _ => rfl,
      fun _ => rfl, fun _ => rfl, fun _ => rfl, fun _ => rfl⟩

/-- Reading a page of a block returns, and changes `lastAccessed` only. -/
theorem readBlock_timing (s : FastMapping) (pbn pg tick : Nat) :
    ∃ r b, (s.physicalBlocks pbn).read pg 0 tick = some (r, b) ∧
      TimingEq s { s with physicalBlocks := upd s.physicalBlocks pbn b } := by
  unfold BlockFast.read
  simp only [if_true]
  by_cases hv : (s.physicalBlocks pbn).pValidBits.test pg = true
  · refine ⟨true, _, by rw [if_pos hv], ?_⟩
    refine ⟨rfl, rfl, rfl, rfl, rfl, rfl, rfl, ?_, ?_, ?_, ?_, ?_, ?_, ?_⟩ <;>
    · intro q
      by_cases hq : q = pbn
      · subst hq
        simp [upd]
      · simp [upd, hq]
  · refine ⟨false, _, by rw [if_neg hv], ?_⟩
    refine ⟨rfl, rfl, rfl, rfl, rfl, rfl, rfl, ?_, ?_, ?_, ?_, ?_, ?_, ?_⟩ <;>
    · intro q
      by_cases hq : q = pbn
      · subst hq
        simp [upd]
      · simp [upd, hq]

/-- An erase of the same block in two states with the same mapping state. -/
theorem eraseInternal_timing {s s1 : FastMapping} (h : TimingEq s s1) (b t t1 : Nat)
    (p p1 : Bool) : TimingEq (s.eraseInternal b t p).1 (s1.eraseInternal b t1 p1).1 := by
  obtain ⟨pal, cpu, log, la, rfl⟩ := h.retimed
  unfold eraseInternal
  cases p <;> cases p1 <;>
  · refine ⟨rfl, rfl, rfl, rfl, rfl, rfl, rfl, ?_, ?_, ?_, ?_, ?_, ?_, ?_⟩ <;>
    · intro q
      by_cases hq : q = b
      · subst hq
        simp [upd, retime, BlockFast.erase]
      · simp [upd, retime, hq]

end FastMapping

end SimpleSSD


namespace SimpleSSD

namespace FastMapping

/-! ### What a state with the same mapping state agrees on -/

theorem TimingEq.pageInfo {s s1 : FastMapping} (h : TimingEq s s1) (b : Nat) :
    (s1.physicalBlocks b).getPageInfo = (s.physicalBlocks b).getPageInfo := by
  obtain ⟨pal, cpu, log, la, rfl⟩ := h.retimed
  rfl

theorem TimingEq.isClean {s s1 : FastMapping} (h : TimingEq s s1) (b : Nat) :
    (s1.physicalBlocks b).isCleanBlock = (s.physicalBlocks b).isCleanBlock := by
  obtain ⟨pal, cpu, log, la, rfl⟩ := h.retimed
  rfl

theorem TimingEq.validCount {s s1 : FastMapping} (h : TimingEq s s1) (b : Nat) :
    (s1.physicalBlocks b).getValidPageCount = (s.physicalBlocks b).getValidPageCount := by
  obtain ⟨pal, cpu, log, la, rfl⟩ := h.retimed
  rfl

theorem TimingEq.erasedCount {s s1 : FastMapping} (h : TimingEq s s1) (b : Nat) :
    (s1.physicalBlocks b).getErasedPageCount = (s.physicalBlocks b).getErasedPageCount := by
  obtain ⟨pal, cpu, log, la, rfl⟩ := h.retimed
  rfl

theorem TimingEq.nextPage {s s1 : FastMapping} (h : TimingEq s s1) (b : Nat) :
    (s1.physicalBlocks b).getNextWritePageIndex = (s.physicalBlocks b).getNextWritePageIndex := by
  obtain ⟨pal, cpu, log, la, rfl⟩ := h.retimed
  rfl

theorem TimingEq.storedLPN {s s1 : FastMapping} (h : TimingEq s s1) (b : Nat) :
    (s1.physicalBlocks b).getLPN = (s.physicalBlocks b).getLPN := by
  obtain ⟨pal, cpu, log, la, rfl⟩ := h.retimed
  rfl

theorem TimingEq.validPages {s s1 : FastMapping} (h : TimingEq s s1) (b : Nat) :
    s1.validPagesOf b = s.validPagesOf b := by
  obtain ⟨pal, cpu, log, la, rfl⟩ := h.retimed
  rfl

theorem TimingEq.collect {s s1 : FastMapping} (h : TimingEq s s1) (b : Nat) :
    s1.mergeRWCollect b = s.mergeRWCollect b := by
  obtain ⟨pal, cpu, log, la, rfl⟩ := h.retimed
  rfl

theorem TimingEq.lookup {s s1 : FastMapping} (h : TimingEq s s1) (lpn : Nat) :
    s1.findValidPage lpn = s.findValidPage lpn := by
  obtain ⟨pal, cpu, log, la, rfl⟩ := h.retimed
  rfl

theorem TimingEq.toBlock {s s1 : FastMapping} (h : TimingEq s s1) (lpn : Nat) :
    s1.convertPageToBlock lpn = s.convertPageToBlock lpn := by
  obtain ⟨pal, cpu, log, la, rfl⟩ := h.retimed
  rfl

theorem TimingEq.toOffset {s s1 : FastMapping} (h : TimingEq s s1) (lpn : Nat) :
    s1.convertPageToOffsetInBlock lpn = s.convertPageToOffsetInBlock lpn := by
  obtain ⟨pal, cpu, log, la, rfl⟩ := h.retimed
  rfl

/-- The same change of the tables and queues in two states with the same
mapping state. -/
theorem TimingEq.tables {s s1 : FastMapping} (h : TimingEq s s1)
    (l2p p2l : Nat → Option Nat) (free : List Nat) (rwmap : Nat → Option (Nat × Nat))
    (sw : Option Nat) (rw : List Nat) :
    TimingEq
      { s with
        logicalToPhysicalBlockMapping := l2p
        physicalToLogicalBlockMapping := p2l
        freeBlocks := free
        RWlogMapping := rwmap
        SWBlock := sw
        RWBlocks := rw }
      { s1 with
        logicalToPhysicalBlockMapping := l2p
        physicalToLogicalBlockMapping := p2l
        freeBlocks := free
        RWlogMapping := rwmap
        SWBlock := sw
        RWBlocks := rw } :=
  ⟨h.param, rfl, rfl, rfl, rfl, rfl, rfl, h.idx, h.pageCount, h.cursor, h.valid, h.erased,
    h.lpns, h.eraseCount⟩

/-- `getFreeBlock` in two states with the same mapping state. -/
theorem getFreeBlock_timing {s s1 : FastMapping} (h : TimingEq s s1) :
    (s.getFreeBlock = none ∧ s1.getFreeBlock = none) ∨
      ∃ b S S1, s.getFreeBlock = some (b, S) ∧ s1.getFreeBlock = some (b, S1) ∧
        TimingEq S S1 := by
  obtain ⟨pal, cpu, log, la, rfl⟩ := h.retimed
  rw [getFreeBlock_retime]
  cases s.getFreeBlock with
  | none => exact Or.inl ⟨rfl, rfl⟩
  | some r => exact Or.inr ⟨r.1, r.2, _, rfl, rfl, TimingEq.ofRetime _ _ _ _ _⟩

/-- The mapping step of a write in two states with the same mapping state. -/
theorem writeEnsureMapping_timing {s s1 : FastMapping} (h : TimingEq s s1) (lbn : Nat) :
    (s.writeEnsureMapping lbn = none ∧ s1.writeEnsureMapping lbn = none) ∨
      ∃ S S1, s.writeEnsureMapping lbn = some S ∧ s1.writeEnsureMapping lbn = some S1 ∧
        TimingEq S S1 := by
  obtain ⟨pal, cpu, log, la, rfl⟩ := h.retimed
  rw [writeEnsureMapping_retime]
  cases s.writeEnsureMapping lbn with
  | none => exact Or.inl ⟨rfl, rfl⟩
  | some r => exact Or.inr ⟨r, _, rfl, rfl, TimingEq.ofRetime _ _ _ _ _⟩

/-- The invalidation of a page in two states with the same mapping state. -/
theorem writeInvalidate_timing {s s1 : FastMapping} (h : TimingEq s s1) (lpn t t1 b i : Nat)
    (k : BlockType) :
    TimingEq (s.writeInvalidate lpn t b i k) (s1.writeInvalidate lpn t1 b i k) := by
  obtain ⟨pal, cpu, log, la, rfl⟩ := h.retimed
  rw [writeInvalidate_retime s pal cpu log la lpn t t1 b i k]
  exact TimingEq.ofRetime _ _ _ _ _

/-- The programming of a page in two states with the same mapping state. -/
theorem writeBlock_timing {s s1 : FastMapping} (h : TimingEq s s1) (pbn pg lpn t t1 : Nat) :
    (s.writeBlock pbn pg lpn t = none ∧ s1.writeBlock pbn pg lpn t1 = none) ∨
      ∃ S S1, s.writeBlock pbn pg lpn t = some S ∧ s1.writeBlock pbn pg lpn t1 = some S1 ∧
        TimingEq S S1 := by
  obtain ⟨pal, cpu, log, la, rfl⟩ := h.retimed
  rw [writeBlock_retime s pal cpu log la pbn pg lpn t t1]
  cases s.writeBlock pbn pg lpn t with
  | none => exact Or.inl ⟨rfl, rfl⟩
  | some r => exact Or.inr ⟨r, _, rfl, rfl, TimingEq.ofRetime _ _ _ _ _⟩

/-- Two calls that agree, case by case. -/
theorem Agree.split {o o1 : Option (FastMapping × Nat)} (h : Agree o o1) :
    (o = none ∧ o1 = none) ∨
      ∃ S t S1 t1, o = some (S, t) ∧ o1 = some (S1, t1) ∧ TimingEq S S1 := by
  cases o with
  | none =>
    cases o1 with
    | none => exact Or.inl ⟨rfl, rfl⟩
    | some r1 => exact absurd h id
  | some r =>
    cases o1 with
    | none => exact absurd h id
    | some r1 => exact Or.inr ⟨r.1, r.2, r1.1, r1.2, rfl, rfl, h⟩

end FastMapping

end SimpleSSD


namespace SimpleSSD

namespace FastMapping

/-- The read phase of a merge returns, and changes timing fields only. -/
theorem mergeReads_timing (tick : Nat) (sendToPAL : Bool) (reqs : List PalRequest) :
    ∀ (s : FastMapping) (r : Nat), ∃ S T,
      mergeReads tick sendToPAL reqs s r = some (S, T) ∧ TimingEq s S := by
  induction reqs with
  | nil =>
    intro s r
    exact ⟨s, r, rfl, TimingEq.itself s⟩
  | cons req rest ih =>
    intro s r
    obtain ⟨x, b, e, hT⟩ := readBlock_timing s req.blockIndex req.pageIndex tick
    simp only [mergeReads, e]
    obtain ⟨S, T, e1, hT1⟩ := ih
      (({ s with physicalBlocks := upd s.physicalBlocks req.blockIndex b } : FastMapping).palRead
        req tick sendToPAL).1
      (if sendToPAL = true then
        max r (({ s with physicalBlocks := upd s.physicalBlocks req.blockIndex b } :
          FastMapping).palRead req tick sendToPAL).2
      else r)
    exact ⟨S, T, e1, (hT.chain (palRead_timing _ _ _ _)).chain hT1⟩

/-- The write phase of a merge in two states with the same mapping state. -/
theorem mergeWrites_timing (t t1 : Nat) (p p1 : Bool) (reqs : List (PalRequest × Nat)) :
    ∀ (s s1 : FastMapping) (w w1 : Nat), TimingEq s s1 →
      Agree (mergeWrites t p reqs s w) (mergeWrites t1 p1 reqs s1 w1) := by
  induction reqs with
  | nil =>
    intro s s1 w w1 h
    exact h
  | cons req rest ih =>
    intro s s1 w w1 h
    obtain ⟨rq, lpn⟩ := req
    simp only [mergeWrites]
    rcases writeBlock_timing h rq.blockIndex rq.pageIndex lpn t t1 with
      ⟨e, e1⟩ | ⟨S, S1, e, e1, hT⟩
    · simp only [e, e1]
      exact True.intro
    · simp only [e, e1]
      apply ih
      exact ((palWrite_timing S rq t p).flip.chain hT).chain (palWrite_timing S1 rq t1 p1)

/-- The erase phase of a merge in two states with the same mapping state. -/
theorem mergeErases_timing (t t1 : Nat) (p p1 : Bool) (reqs : List Nat) :
    ∀ (s s1 : FastMapping) (w w1 : Nat), TimingEq s s1 →
      TimingEq (mergeErases t p reqs s w).1 (mergeErases t1 p1 reqs s1 w1).1 := by
  induction reqs with
  | nil =>
    intro s s1 w w1 h
    exact h
  | cons b rest ih =>
    intro s s1 w w1 h
    simp only [mergeErases]
    apply ih
    exact eraseInternal_timing h b t t1 p p1

/-- The three phases of a merge on the same plan in two states with the same
mapping state. -/
theorem mergeRun_timing {s s1 : FastMapping} (h : TimingEq s s1) (pl : MergePlan)
    (t t1 : Nat) (p p1 : Bool) :
    Agree (mergeRun (some (s, pl)) t p) (mergeRun (some (s1, pl)) t1 p1) := by
  unfold mergeRun
  simp only
  obtain ⟨S, T, e, hT⟩ := mergeReads_timing t p pl.readRequests s t
  obtain ⟨S1, T1, e1, hT1⟩ := mergeReads_timing t1 p1 pl.readRequests s1 t1
  simp only [e, e1]
  have h2 : TimingEq S S1 := (hT.flip.chain h).chain hT1
  rcases (mergeWrites_timing T T1 p p1 pl.writeRequests S S1 T T1 h2).split with
    ⟨f, f1⟩ | ⟨W, u, W1, u1, f, f1, hW⟩
  · simp only [f, f1]
    exact True.intro
  · simp only [f, f1]
    exact mergeErases_timing T T1 p p1 pl.eraseRequests W W1 T T1 hW

/-- The allocation loop of the RW merge in two states with the same mapping
state. -/
theorem mergeRWAssign_timing (l : List Nat) :
    ∀ (s s1 : FastMapping) (m1 m2 : Nat → Nat), TimingEq s s1 →
      (mergeRWAssign l s m1 m2 = none ∧ mergeRWAssign l s1 m1 m2 = none) ∨
        ∃ S S1 n1 n2, mergeRWAssign l s m1 m2 = some (S, n1, n2) ∧
          mergeRWAssign l s1 m1 m2 = some (S1, n1, n2) ∧ TimingEq S S1 := by
  induction l with
  | nil =>
    intro s s1 m1 m2 h
    exact Or.inr ⟨s, s1, m1, m2, rfl, rfl, h⟩
  | cons lbn rest ih =>
    intro s s1 m1 m2 h
    simp only [mergeRWAssign]
    rcases getFreeBlock_timing h with ⟨e, e1⟩ | ⟨nb, S, S1, e, e1, hT⟩
    · rw [e, e1]
      exact Or.inl ⟨rfl, rfl⟩
    · rw [e, e1]
      simp only [hT.l2p]
      cases S.logicalToPhysicalBlockMapping lbn with
      | none => exact Or.inl ⟨rfl, rfl⟩
      | some old =>
        simp only
        refine ih _ _ _ _ ?_
        obtain ⟨pal, cpu, log, la, rfl⟩ := hT.retimed
        exact TimingEq.ofRetime _ _ _ _ _

end FastMapping

end SimpleSSD


namespace SimpleSSD

namespace FastMapping

/-- The plan of the SW merge in two states with the same mapping state: the
same queues. -/
theorem mergePlanSW_timing {s s1 : FastMapping} (h : TimingEq s s1) (b : Nat) (ap : Option Nat) :
    (s.mergePlanSW b ap = none ∧ s1.mergePlanSW b ap = none) ∨
      ∃ S S1 pl, s.mergePlanSW b ap = some (S, pl) ∧ s1.mergePlanSW b ap = some (S1, pl) ∧
        TimingEq S S1 := by
  unfold mergePlanSW
  rw [h.p2l]
  cases s.physicalToLogicalBlockMapping b with
  | none => exact Or.inl ⟨rfl, rfl⟩
  | some o =>
    simp only
    rw [h.l2p]
    cases s.logicalToPhysicalBlockMapping o with
    | none => exact Or.inl ⟨rfl, rfl⟩
    | some old =>
      simp only
      rw [h.validCount b, h.param]
      by_cases hcnt : (s.physicalBlocks b).getValidPageCount = s.param.pagesInBlock
      · rw [if_pos hcnt, if_pos hcnt]
        refine Or.inr ⟨_, _, _, rfl, rfl, ?_⟩
        obtain ⟨pal, cpu, log, la, rfl⟩ := h.retimed
        exact TimingEq.ofRetime _ _ _ _ _
      · rw [if_neg hcnt, if_neg hcnt]
        rcases getFreeBlock_timing h with ⟨e, e1⟩ | ⟨nd, S, S1, e, e1, hT⟩
        · rw [e, e1]
          exact Or.inl ⟨rfl, rfl⟩
        · rw [e, e1]
          simp only
          have hT2 : TimingEq
              ({ S with
                physicalToLogicalBlockMapping := upd S.physicalToLogicalBlockMapping nd (some o)
                logicalToPhysicalBlockMapping :=
                  upd S.logicalToPhysicalBlockMapping o (some nd) } : FastMapping)
              ({ S1 with
                physicalToLogicalBlockMapping := upd S1.physicalToLogicalBlockMapping nd (some o)
                logicalToPhysicalBlockMapping :=
                  upd S1.logicalToPhysicalBlockMapping o (some nd) } : FastMapping) := by
            obtain ⟨pal, cpu, log, la, rfl⟩ := hT.retimed
            exact TimingEq.ofRetime _ _ _ _ _
          rcases getFreeBlock_timing hT2 with ⟨f, f1⟩ | ⟨nsw, W, W1, f, f1, hW⟩
          · rw [f, f1]
            exact Or.inl ⟨rfl, rfl⟩
          · rw [f, f1]
            simp only [hT.pageInfo]
            refine Or.inr ⟨_, _, _, rfl, rfl, ?_⟩
            obtain ⟨pal, cpu, log, la, rfl⟩ := hW.retimed
            exact TimingEq.ofRetime _ _ _ _ _

/-- The plan of the RW merge in two states with the same mapping state: the
same queues. -/
theorem mergePlanRW_timing {s s1 : FastMapping} (h : TimingEq s s1) (b : Nat) :
    (s.mergePlanRW b = none ∧ s1.mergePlanRW b = none) ∨
      ∃ S S1 pl, s.mergePlanRW b = some (S, pl) ∧ s1.mergePlanRW b = some (S1, pl) ∧
        TimingEq S S1 := by
  unfold mergePlanRW
  simp only
  rw [h.collect b]
  have hT0 : TimingEq ({ s with RWlogMapping := (s.mergeRWCollect b).2 } : FastMapping)
      ({ s1 with RWlogMapping := (s.mergeRWCollect b).2 } : FastMapping) := by
    obtain ⟨pal, cpu, log, la, rfl⟩ := h.retimed
    exact TimingEq.ofRetime _ _ _ _ _
  rcases mergeRWAssign_timing (unique ((s.mergeRWCollect b).1.insertionSort (fun a b => a ≤ b)))
      _ _ (fun _ => 0) (fun _ => 0) hT0 with ⟨e, e1⟩ | ⟨S, S1, n1, n2, e, e1, hT⟩
  · rw [e, e1]
    exact Or.inl ⟨rfl, rfl⟩
  · rw [e, e1]
    simp only [hT.validPages, hT.param, hT.storedLPN, hT.toBlock, hT.toOffset]
    generalize mapOpt _ (S.validPagesOf b) = mo
    cases mo with
    | none => exact Or.inl ⟨rfl, rfl⟩
    | some logWrites =>
      simp only
      rcases getFreeBlock_timing hT with ⟨f, f1⟩ | ⟨nb, W, W1, f, f1, hW⟩
      · rw [f, f1]
        exact Or.inl ⟨rfl, rfl⟩
      · rw [f, f1]
        refine Or.inr ⟨_, _, _, rfl, rfl, ?_⟩
        obtain ⟨pal, cpu, log, la, rfl⟩ := hW.retimed
        exact TimingEq.ofRetime _ _ _ _ _

/-- A merge in two states with the same mapping state. -/
theorem mergeLogBlock_timing {s s1 : FastMapping} (h : TimingEq s s1) (b : Nat)
    (k : BlockType) (ap : Option Nat) (t t1 : Nat) (p p1 : Bool) :
    Agree (s.mergeLogBlock b k ap t p) (s1.mergeLogBlock b k ap t1 p1) := by
  rw [mergeLogBlock_plan, mergeLogBlock_plan]
  have key : (s.mergePlan b k ap = none ∧ s1.mergePlan b k ap = none) ∨
      ∃ S S1 pl, s.mergePlan b k ap = some (S, pl) ∧ s1.mergePlan b k ap = some (S1, pl) ∧
        TimingEq S S1 := by
    unfold mergePlan
    cases k with
    | kBlockTypeRW =>
      simp only
      cases ap with
      | none => exact mergePlanRW_timing h b
      | some x => exact Or.inl ⟨rfl, rfl⟩
    | kBlockTypeSW => exact mergePlanSW_timing h b ap
    | kBlockTypeData => exact Or.inl ⟨rfl, rfl⟩
    | kBlockTypeUnknown => exact Or.inl ⟨rfl, rfl⟩
  rcases key with ⟨e, e1⟩ | ⟨S, S1, pl, e, e1, hT⟩
  · rw [e, e1]
    exact True.intro
  · rw [e, e1]
    exact mergeRun_timing hT pl t t1 p p1

end FastMapping

end SimpleSSD


namespace SimpleSSD

namespace FastMapping

/-- The PAL write that ends a write, in two states with the same mapping
state. -/
theorem palWrite_agree {A A1 : FastMapping} (h0 : TimingEq A A1) (req req1 : PalRequest)
    (t t1 : Nat) (p p1 : Bool) (u u1 : Nat) :
    Agree (some ((A.palWrite req t p).1, u)) (some ((A1.palWrite req1 t1 p1).1, u1)) :=
  ((palWrite_timing A req t p).flip.chain h0).chain (palWrite_timing A1 req1 t1 p1)

/-- A fresh write in two states with the same mapping state. -/
theorem writeFresh_timing {s s1 : FastMapping} (h : TimingEq s s1) (lpn t t1 : Nat)
    (p p1 : Bool) : Agree (s.writeFresh lpn t p) (s1.writeFresh lpn t1 p1) := by
  unfold writeFresh
  rw [h.l2p, h.toBlock, h.toOffset]
  cases s.logicalToPhysicalBlockMapping (s.convertPageToBlock lpn) with
  | none => exact True.intro
  | some pbn =>
    simp only
    rcases writeBlock_timing h pbn (s.convertPageToOffsetInBlock lpn) lpn t t1 with
      ⟨e, e1⟩ | ⟨S, S1, e, e1, hT⟩
    · rw [e, e1]
      exact True.intro
    · rw [e, e1]
      exact palWrite_agree hT _ _ _ _ _ _ _ _

/-- Case 2a in two states with the same mapping state. -/
theorem writeSWFirst_timing {s s1 : FastMapping} (h : TimingEq s s1) (lpn t t1 : Nat)
    (p p1 : Bool) : Agree (s.writeSWFirst lpn t p) (s1.writeSWFirst lpn t1 p1) := by
  unfold writeSWFirst
  rw [h.sw, h.toBlock]
  cases hsw : s.SWBlock with
  | none => exact True.intro
  | some sw =>
    simp only
    rw [h.isClean sw]
    cases (s.physicalBlocks sw).isCleanBlock with
    | true =>
      simp only [if_true, h.sw, hsw]
      rcases writeBlock_timing h sw 0 lpn t t1 with ⟨e, e1⟩ | ⟨S, S1, e, e1, hT⟩
      · rw [e, e1]
        exact True.intro
      · rw [e, e1]
        refine palWrite_agree ?_ _ _ _ _ _ _ _ _
        obtain ⟨pal, cpu, log, la, rfl⟩ := hT.retimed
        exact TimingEq.ofRetime _ _ _ _ _
    | false =>
      simp only [Bool.false_eq_true, if_false]
      rcases (mergeLogBlock_timing h sw BlockType.kBlockTypeSW none t t1 p p1).split with
        ⟨e, e1⟩ | ⟨M, u, M1, u1, e, e1, hM⟩
      · rw [e, e1]
        exact True.intro
      · rw [e, e1]
        simp only
        rcases getFreeBlock_timing hM with ⟨f, f1⟩ | ⟨nb, F, F1, f, f1, hF⟩
        · rw [f, f1]
          exact True.intro
        · rw [f, f1]
          simp only
          have hF2 : TimingEq ({ F with SWBlock := some nb } : FastMapping)
              ({ F1 with SWBlock := some nb } : FastMapping) := by
            obtain ⟨pal, cpu, log, la, rfl⟩ := hF.retimed
            exact TimingEq.ofRetime _ _ _ _ _
          rcases writeBlock_timing hF2 nb 0 lpn t t1 with ⟨g, g1⟩ | ⟨S, S1, g, g1, hT⟩
          · rw [g, g1]
            exact True.intro
          · rw [g, g1]
            refine palWrite_agree ?_ _ _ _ _ _ _ _ _
            obtain ⟨pal, cpu, log, la, rfl⟩ := hT.retimed
            exact TimingEq.ofRetime _ _ _ _ _

/-- Case 2b in two states with the same mapping state. -/
theorem writeSWAppend_timing {s s1 : FastMapping} (h : TimingEq s s1) (sw lpn t t1 : Nat)
    (p p1 : Bool) : Agree (s.writeSWAppend sw lpn t p) (s1.writeSWAppend sw lpn t1 p1) := by
  unfold writeSWAppend
  simp only
  rw [h.pageInfo sw, h.toOffset]
  cases ((s.physicalBlocks sw).getPageInfo (s.convertPageToOffsetInBlock lpn)).2.2 with
  | true =>
    simp only [if_true]
    rcases writeBlock_timing h sw (s.convertPageToOffsetInBlock lpn) lpn t t1 with
      ⟨e, e1⟩ | ⟨S, S1, e, e1, hT⟩
    · rw [e, e1]
      exact True.intro
    · rw [e, e1]
      exact palWrite_agree hT _ _ _ _ _ _ _ _
  | false =>
    simp only [Bool.false_eq_true, if_false]
    rcases (mergeLogBlock_timing h sw BlockType.kBlockTypeSW
        (some (s.convertPageToOffsetInBlock lpn)) t t1 p p1).split with
      ⟨e, e1⟩ | ⟨M, u, M1, u1, e, e1, hM⟩
    · rw [e, e1]
      exact True.intro
    · rw [e, e1]
      exact hM

/-- Case 2c in two states with the same mapping state. -/
theorem writeRW_timing {s s1 : FastMapping} (h : TimingEq s s1) (lpn t t1 : Nat)
    (p p1 : Bool) : Agree (s.writeRW lpn t p) (s1.writeRW lpn t1 p1) := by
  unfold writeRW
  simp only [h.rw, h.erasedCount]
  cases s.RWBlocks.find? (fun rwBlockNum =>
      (s.physicalBlocks rwBlockNum).getErasedPageCount != 0) with
  | some tgt =>
    simp only [h.nextPage]
    rcases writeBlock_timing h tgt (s.physicalBlocks tgt).getNextWritePageIndex lpn t t1 with
      ⟨e, e1⟩ | ⟨S, S1, e, e1, hT⟩
    · rw [e, e1]
      exact True.intro
    · rw [e, e1]
      refine palWrite_agree ?_ _ _ _ _ _ _ _ _
      obtain ⟨pal, cpu, log, la, rfl⟩ := hT.retimed
      exact TimingEq.ofRetime _ _ _ _ _
  | none =>
    simp only
    cases s.RWBlocks with
    | nil => exact True.intro
    | cons victim rest =>
      simp only
      have h0 : TimingEq ({ s with RWBlocks := rest } : FastMapping)
          ({ s1 with RWBlocks := rest } : FastMapping) := by
        obtain ⟨pal, cpu, log, la, rfl⟩ := h.retimed
        exact TimingEq.ofRetime _ _ _ _ _
      rcases (mergeLogBlock_timing h0 victim BlockType.kBlockTypeRW none t t1 p p1).split with
        ⟨e, e1⟩ | ⟨M, u, M1, u1, e, e1, hM⟩
      · rw [e, e1]
        exact True.intro
      · rw [e, e1]
        simp only
        rcases getFreeBlock_timing hM with ⟨f, f1⟩ | ⟨nb, F, F1, f, f1, hF⟩
        · rw [f, f1]
          exact True.intro
        · rw [f, f1]
          simp only [hF.rw, hF.p2l, hF.nextPage]
          have hF2 : TimingEq
              ({ F with
                RWBlocks := F.RWBlocks ++ [nb]
                physicalToLogicalBlockMapping :=
                  upd F.physicalToLogicalBlockMapping nb none } : FastMapping)
              ({ F1 with
                RWBlocks := F.RWBlocks ++ [nb]
                physicalToLogicalBlockMapping :=
                  upd F.physicalToLogicalBlockMapping nb none } : FastMapping) := by
            obtain ⟨pal, cpu, log, la, rfl⟩ := hF.retimed
            exact TimingEq.ofRetime _ _ _ _ _
          rcases writeBlock_timing hF2 nb (F.physicalBlocks nb).getNextWritePageIndex lpn t
              t1 with ⟨g, g1⟩ | ⟨S, S1, g, g1, hT⟩
          · rw [g, g1]
            exact True.intro
          · rw [g, g1]
            refine palWrite_agree ?_ _ _ _ _ _ _ _ _
            obtain ⟨pal, cpu, log, la, rfl⟩ := hT.retimed
            exact TimingEq.ofRetime _ _ _ _ _

/-- An overwrite in two states with the same mapping state. -/
theorem writeOverwrite_timing {s s1 : FastMapping} (h : TimingEq s s1) (lpn t t1 : Nat)
    (p p1 : Bool) (b i : Nat) (k : BlockType) :
    Agree (s.writeOverwrite lpn t p b i k) (s1.writeOverwrite lpn t1 p1 b i k) := by
  have h1 := writeInvalidate_timing h lpn t t1 b i k
  unfold writeOverwrite
  simp only
  rw [h1.toOffset, h1.sw, h1.p2l, h1.toBlock]
  by_cases hoff : (s.writeInvalidate lpn t b i k).convertPageToOffsetInBlock lpn = 0
  · rw [if_pos hoff, if_pos hoff]
    exact writeSWFirst_timing h1 lpn t t1 p p1
  · rw [if_neg hoff, if_neg hoff]
    cases (s.writeInvalidate lpn t b i k).SWBlock with
    | none => exact True.intro
    | some sw =>
      simp only
      by_cases hown : (s.writeInvalidate lpn t b i k).physicalToLogicalBlockMapping sw =
          some ((s.writeInvalidate lpn t b i k).convertPageToBlock lpn)
      · rw [if_pos hown, if_pos hown]
        exact writeSWAppend_timing h1 sw lpn t t1 p p1
      · rw [if_neg hown, if_neg hown]
        exact writeRW_timing h1 lpn t t1 p p1

/-- A write in two states with the same mapping state, for any two input
ticks and with or without PAL. -/
theorem writeInternal_timing {s s1 : FastMapping} (h : TimingEq s s1) (lpn t t1 : Nat)
    (p p1 : Bool) : Agree (s.writeInternal lpn t p) (s1.writeInternal lpn t1 p1) := by
  unfold writeInternal
  simp only
  rw [h.toBlock, h.param]
  by_cases hl : s.convertPageToBlock lpn < s.param.totalLogicalBlocks
  · rw [if_pos hl, if_pos hl]
    rcases writeEnsureMapping_timing h (s.convertPageToBlock lpn) with
      ⟨e, e1⟩ | ⟨A, A1, e, e1, hA⟩
    · rw [e, e1]
      exact True.intro
    · rw [e, e1]
      simp only
      rw [hA.lookup lpn]
      have key : ∀ o o1 : Option (FastMapping × Nat), Agree o o1 →
          Agree
            (match o with
              | none => none
              | some (s2, finishedAt) => some (s2, finishedAt + s.cpu.WRITE_INTERNAL))
            (match o1 with
              | none => none
              | some (s2, finishedAt) => some (s2, finishedAt + s1.cpu.WRITE_INTERNAL)) := by
        intro o o1 ha
        rcases ha.split with ⟨e, e1⟩ | ⟨S, u, S1, u1, e, e1, hS⟩
        · rw [e, e1]
          exact True.intro
        · rw [e, e1]
          exact hS
      apply key
      cases A.findValidPage lpn with
      | none => exact True.intro
      | some r =>
        cases r with
        | none => exact writeFresh_timing hA lpn t t1 p p1
        | some x =>
          obtain ⟨b, i, k⟩ := x
          exact writeOverwrite_timing hA lpn t t1 p p1 b i k
  · rw [if_neg hl, if_neg hl]
    exact True.intro

end FastMapping

end SimpleSSD



namespace SimpleSSD

namespace FastMapping

/-- C32. Mapping state is independent of timing. For any two states with the
same mapping state (`TimingEq`: the same parameters, `L2P`, `P2L`,
`RWlogMapping`, `freeBlocks`, `RWBlocks`, `SWBlock`, and in every block the
same valid bits, erased bits, stored LPNs, cursor and erase count; the PAL
model, the latencies, the PAL log and `lastAccessed` may differ), in
particular for one state taken twice, and for any LPN, any two input ticks and
any two values of `sendToPAL`: the two `writeInternal` calls fail together, and
when they return, the states they return have the same mapping state again.
With `sendToPAL = false` the call logs no PAL read, write or erase. -/
theorem timing_independent {s s1 : FastMapping} (h : TimingEq s s1) (lpn tick tick1 : Nat)
    (sendToPAL sendToPAL1 : Bool) :
    (s.writeInternal lpn tick sendToPAL = none ↔
        s1.writeInternal lpn tick1 sendToPAL1 = none) ∧
      (∀ S t S1 t1, s.writeInternal lpn tick sendToPAL = some (S, t) →
        s1.writeInternal lpn tick1 sendToPAL1 = some (S1, t1) → TimingEq S S1) ∧
      (∀ S t, s.writeInternal lpn tick false = some (S, t) → S.palLog = s.palLog) := by
  obtain ⟨h1, h2⟩ := (writeInternal_timing h lpn tick tick1 sendToPAL sendToPAL1).spec
  exact ⟨h1, h2, fun S t e => (writeInternal_traced e).log rfl⟩

/-- On the example device after the writes 0, 4, 8, 12, 0 the write of LPN 4
is a full merge of the SW block. Run at tick 0 without PAL it returns tick 8
and logs nothing; run at tick 1000 with PAL, on the state with another PAL
model, another PAL log and other access times, it returns tick 1012; the
states returned have the same mapping state. -/
theorem timing_independent_witness :
    TimingEq (exampleState [0, 4, 8, 12, 0] rfl)
        ((exampleState [0, 4, 8, 12, 0] rfl).retime
          { read := fun _ t => t + 1, write := fun _ t => t + 2, erase := fun _ t => t + 3 }
          exampleLatency [] (fun _ => 5)) ∧
      ((exampleState [0, 4, 8, 12, 0] rfl).writeInternal 4 0 false).map Prod.snd = some 8 ∧
      (((exampleState [0, 4, 8, 12, 0] rfl).retime
          { read := fun _ t => t + 1, write := fun _ t => t + 2, erase := fun _ t => t + 3 }
          exampleLatency [] (fun _ => 5)).writeInternal 4 1000 true).map Prod.snd =
        some 1012 ∧
      (∀ S t S1 t1,
        (exampleState [0, 4, 8, 12, 0] rfl).writeInternal 4 0 false = some (S, t) →
        ((exampleState [0, 4, 8, 12, 0] rfl).retime
          { read := fun _ t => t + 1, write := fun _ t => t + 2, erase := fun _ t => t + 3 }
          exampleLatency [] (fun _ => 5)).writeInternal 4 1000 true = some (S1, t1) →
        TimingEq S S1) ∧
      (∀ S t, (exampleState [0, 4, 8, 12, 0] rfl).writeInternal 4 0 false = some (S, t) →
        S.palLog = (exampleState [0, 4, 8, 12, 0] rfl).palLog) :=
  ⟨⟨rfl, rfl, rfl, rfl, rfl, rfl, rfl, fun _ => rfl, fun _ => rfl, fun _ => rfl, fun _ => rfl,
      fun _ => rfl, fun _ => rfl, fun _ => rfl⟩,
    rfl, rfl,
    (timing_independent
      (⟨rfl, rfl, rfl, rfl, rfl, rfl, rfl, fun _ => rfl, fun _ => rfl, fun _ => rfl,
        fun _ => rfl, fun _ => rfl, fun _ => rfl, fun _ => rfl⟩ :
        TimingEq (exampleState [0, 4, 8, 12, 0] rfl)
          ((exampleState [0, 4, 8, 12, 0] rfl).retime
            { read := fun _ t => t + 1, write := fun _ t => t + 2, erase := fun _ t => t + 3 }
            exampleLatency [] (fun _ => 5)))
      4 0 1000 false true).2.1,
    (timing_independent (TimingEq.itself (exampleState [0, 4, 8, 12, 0] rfl)) 4 0 0 false
      false).2.2⟩

end FastMapping

end SimpleSSD


namespace SimpleSSD

/-- C5. `write` on an erased page succeeds, for every block, with or without
LPN array; afterwards the page is valid and not erased, the cursor is one past
the page, `lastAccessed` is the tick, and the bits and stored LPNs of all
other pages, the erase count, the page count and the block index are
unchanged. The LPN is stored under the guard `if (pLPNs)` of the source: a
block that has its LPN array stores the LPN in entry `i` and keeps the other
entries, a block created without LPN array still has none. -/
theorem BlockFast.write_postcondition (b : BlockFast) (i lpn t : Nat)
    (_hi : i < b.pageCount) (he : b.isErased i = true) :
    ∃ b', b.write i lpn 0 t = some b' ∧
      b'.isErased i = false ∧ b'.isValid i = true ∧
      b'.getNextWritePageIndex = i + 1 ∧ b'.getLastAccessedTime = t ∧
      (∀ j, j ≠ i →
        b'.isValid j = b.isValid j ∧ b'.isErased j = b.isErased j ∧
          b'.getLPN j = b.getLPN j ∧ (b'.getPageInfo j).1 = (b.getPageInfo j).1) ∧
      b'.getEraseCount = b.getEraseCount ∧ b'.pageCount = b.pageCount ∧
      b'.getBlockIndex = b.getBlockIndex ∧
      (∀ a, b.pLPNs = some a →
        b'.pLPNs = some (fun j => if j = i then lpn else a j) ∧ b'.getLPN i = some lpn ∧
          (b'.getPageInfo i).1 = lpn) ∧
      (b.pLPNs = none → b'.pLPNs = none) := by
  have he' : b.pErasedBits.test i = true := he
  cases ha : b.pLPNs with
  | none =>
    have hw : b.write i lpn 0 t = some
        { b with
          lastAccessed := t
          pErasedBits := b.pErasedBits.reset i
          pValidBits := b.pValidBits.set i
          pLPNs := none
          pNextWritePageIndex := i + 1 } := by
      simp [BlockFast.write, he', ha]
    refine ⟨_, hw, ?_, ?_, rfl, rfl, ?_, rfl, rfl, rfl, ?_, ?_⟩
    · simp [BlockFast.isErased, Bitset.test, Bitset.reset]
    · simp [BlockFast.isValid, Bitset.test, Bitset.set]
    · intro j hj
      refine ⟨?_, ?_, ?_, ?_⟩
      · simp [BlockFast.isValid, Bitset.test, Bitset.set, hj]
      · simp [BlockFast.isErased, Bitset.test, Bitset.reset, hj]
      · simp [BlockFast.getLPN, ha]
      · simp [BlockFast.getPageInfo, ha]
    · intro a h0
      exact absurd h0 (by simp)
    · intro _
      rfl
  | some a =>
    have hw : b.write i lpn 0 t = some
        { b with
          lastAccessed := t
          pErasedBits := b.pErasedBits.reset i
          pValidBits := b.pValidBits.set i
          pLPNs := some (fun j => if j = i then lpn else a j)
          pNextWritePageIndex := i + 1 } := by
      simp [BlockFast.write, he', ha]
    refine ⟨_, hw, ?_, ?_, rfl, rfl, ?_, rfl, rfl, rfl, ?_, ?_⟩
    · simp [BlockFast.isErased, Bitset.test, Bitset.reset]
    · simp [BlockFast.isValid, Bitset.test, Bitset.set]
    · intro j hj
      refine ⟨?_, ?_, ?_, ?_⟩
      · simp [BlockFast.isValid, Bitset.test, Bitset.set, hj]
      · simp [BlockFast.isErased, Bitset.test, Bitset.reset, hj]
      · simp [BlockFast.getLPN, ha, hj]
      · simp [BlockFast.getPageInfo, ha, hj]
    · intro a1 h1
      injection h1 with h1
      subst h1
      simp [BlockFast.getLPN, BlockFast.getPageInfo]
    · intro h0
      exact absurd h0 (by simp)

/-- Page 2 of a new block of four pages, written with LPN 9 at tick 5: in a
block with LPN array the LPN is stored, in a block created without LPN array
the write succeeds as well and the block still has no LPN array. -/
theorem BlockFast.write_postcondition_witness :
    (∃ b', (BlockFast.new 0 4 true).write 2 9 0 5 = some b' ∧
      b'.isErased 2 = false ∧ b'.isValid 2 = true ∧ b'.getLPN 2 = some 9 ∧
      b'.getNextWritePageIndex = 2 + 1 ∧ b'.getLastAccessedTime = 5) ∧
    (∃ b', (BlockFast.new 0 4 false).write 2 9 0 5 = some b' ∧
      b'.isErased 2 = false ∧ b'.isValid 2 = true ∧ b'.pLPNs = none ∧
      b'.getNextWritePageIndex = 2 + 1 ∧ b'.getLastAccessedTime = 5) :=
  ⟨Exists.elim
      (BlockFast.write_postcondition (BlockFast.new 0 4 true) 2 9 5 (by decide) (by decide))
      (fun b' h => ⟨b', h.1, h.2.1, h.2.2.1, (h.2.2.2.2.2.2.2.2.2.1 (fun _ => 0) rfl).2.1,
        h.2.2.2.1, h.2.2.2.2.1⟩),
    Exists.elim
      (BlockFast.write_postcondition (BlockFast.new 0 4 false) 2 9 5 (by decide) (by decide))
      (fun b' h => ⟨b', h.1, h.2.1, h.2.2.1, h.2.2.2.2.2.2.2.2.2.2 rfl,
        h.2.2.2.1, h.2.2.2.2.1⟩)⟩

end SimpleSSD

namespace SimpleSSD

namespace FastMapping

/-- C4. In every state, reachable or not, `findValidPage` is the reference
procedure `findValidPageSpec` with strict precedence. Whenever it returns, its
result is the result of the reference procedure. It does not return exactly
when the logical block number is outside `L2P`, or when the reference result is
the recorded RW page and the checked invariant of step 5 fails (that page is
not valid or does not store the LPN). Step by step, for an LPN of the logical
range: NOT-FOUND if `L2P[lbn]` is unmapped; else the data page if it is valid,
whatever the SW block and `RWlogMapping` hold; else the SW page if it is valid
and stores the LPN, whatever `RWlogMapping` holds; else the recorded RW page,
under the check, if `RWlogMapping` contains the LPN; else NOT-FOUND. In a
reachable state the check holds, so the function returns the reference result.
The function is a query: its only output is this result, the state is not
changed. -/
theorem findValidPage_refines (s : FastMapping) (lpn : Nat) :
    (∀ r, s.findValidPage lpn = some r → r = s.findValidPageSpec lpn) ∧
    (s.findValidPage lpn = none ↔
      (¬ lpn / s.param.pagesInBlock < s.param.totalLogicalBlocks ∨
        ∃ b i, s.findValidPageSpec lpn = some (b, i, BlockType.kBlockTypeRW) ∧
          ¬ ((s.physicalBlocks b).isValid i = true ∧
            ((s.physicalBlocks b).getPageInfo i).1 = lpn))) ∧
    (lpn / s.param.pagesInBlock < s.param.totalLogicalBlocks →
      (s.logicalToPhysicalBlockMapping (lpn / s.param.pagesInBlock) = none →
        s.findValidPage lpn = some none) ∧
      (∀ p, s.logicalToPhysicalBlockMapping (lpn / s.param.pagesInBlock) = some p →
        ((s.physicalBlocks p).isValid (lpn % s.param.pagesInBlock) = true →
          s.findValidPage lpn =
            some (some (p, lpn % s.param.pagesInBlock, BlockType.kBlockTypeData))) ∧
        ((s.physicalBlocks p).isValid (lpn % s.param.pagesInBlock) = false →
          (∀ sw, s.SWBlock = some sw →
            (s.physicalBlocks sw).isValid (lpn % s.param.pagesInBlock) = true →
            ((s.physicalBlocks sw).getPageInfo (lpn % s.param.pagesInBlock)).1 = lpn →
            s.findValidPage lpn =
              some (some (sw, lpn % s.param.pagesInBlock, BlockType.kBlockTypeSW))) ∧
          ((∀ sw, s.SWBlock = some sw →
              ¬ ((s.physicalBlocks sw).isValid (lpn % s.param.pagesInBlock) = true ∧
                ((s.physicalBlocks sw).getPageInfo (lpn % s.param.pagesInBlock)).1 = lpn)) →
            (s.RWlogMapping lpn = none → s.findValidPage lpn = some none) ∧
            (∀ b i, s.RWlogMapping lpn = some (b, i) →
              s.findValidPage lpn =
                if (s.physicalBlocks b).isValid i = true ∧
                    ((s.physicalBlocks b).getPageInfo i).1 = lpn then
                  some (some (b, i, BlockType.kBlockTypeRW))
                else none))))) ∧
    (Reachable s → lpn / s.param.pagesInBlock < s.param.totalLogicalBlocks →
      s.findValidPage lpn = some (s.findValidPageSpec lpn)) := by
  have hc := findValidPage_cases s lpn
  refine ⟨?_, ?_, ?_, ?_⟩
  · intro r hr
    rw [hc] at hr
    by_cases hl : lpn / s.param.pagesInBlock < s.param.totalLogicalBlocks
    · rw [if_pos hl] at hr
      split at hr
      · split at hr
        · injection hr with hr
          rename_i e _
          rw [e, hr]
        · exact absurd hr (by simp)
      · injection hr with hr
        exact hr.symm
    · rw [if_neg hl] at hr
      exact absurd hr (by simp)
  · rw [hc]
    by_cases hl : lpn / s.param.pagesInBlock < s.param.totalLogicalBlocks
    · rw [if_pos hl]
      split
      · rename_i b i e
        by_cases hk : s.vbit b i = true ∧ s.lpnAt b i = lpn
        · rw [if_pos hk]
          constructor
          · intro h0
            exact absurd h0 (by simp)
          · rintro (h0 | ⟨b1, i1, e1, h1⟩)
            · exact absurd hl h0
            · rw [e] at e1
              injection e1 with e1
              injection e1 with e2 e3
              injection e3 with e3
              subst e2
              subst e3
              exact absurd hk h1
        · rw [if_neg hk]
          exact ⟨fun _ => Or.inr ⟨b, i, e, hk⟩, fun _ => rfl⟩
      · rename_i hne
        constructor
        · intro h0
          exact absurd h0 (by simp)
        · rintro (h0 | ⟨b1, i1, e1, h1⟩)
          · exact absurd hl h0
          · exact absurd e1 (hne b1 i1)
    · rw [if_neg hl]
      exact ⟨fun _ => Or.inl hl, fun _ => rfl⟩
  · intro hl
    refine ⟨?_, ?_⟩
    · intro hp
      simp [findValidPage, convertPageToBlock, hl, hp]
    · intro p hp
      refine ⟨?_, ?_⟩
      · intro hv
        have hv1 : ((s.physicalBlocks p).getPageInfo (lpn % s.param.pagesInBlock)).2.1 = true := hv
        simp [findValidPage, convertPageToBlock, convertPageToOffsetInBlock, hl, hp, hv1]
      · intro hv
        have hv1 : ((s.physicalBlocks p).getPageInfo (lpn % s.param.pagesInBlock)).2.1 = false :=
          hv
        refine ⟨?_, ?_⟩
        · intro sw hsw hvs hls
          have hvs1 : ((s.physicalBlocks sw).getPageInfo (lpn % s.param.pagesInBlock)).2.1 =
              true := hvs
          simp [findValidPage, convertPageToBlock, convertPageToOffsetInBlock, hl, hp, hv1, hsw,
            hvs1, hls]
        · intro hno
          have key : ∀ (b i : Nat),
              (if ((s.physicalBlocks b).getPageInfo i).2.1 = true ∧
                  ((s.physicalBlocks b).getPageInfo i).1 = lpn then
                (some (some (b, i, BlockType.kBlockTypeRW)) :
                  Option (Option (Nat × Nat × BlockType)))
              else none) =
              if (s.physicalBlocks b).isValid i = true ∧
                  ((s.physicalBlocks b).getPageInfo i).1 = lpn then
                some (some (b, i, BlockType.kBlockTypeRW))
              else none := fun _ _ => rfl
          cases hsw : s.SWBlock with
          | none =>
            refine ⟨?_, ?_⟩
            · intro hrw
              simp [findValidPage, convertPageToBlock, convertPageToOffsetInBlock, hl, hp, hv1,
                hsw, hrw]
            · intro b i hrw
              rw [← key]
              simp [findValidPage, convertPageToBlock, convertPageToOffsetInBlock, hl, hp, hv1,
                hsw, hrw]
          | some sw =>
            have hno1 : ¬ (((s.physicalBlocks sw).getPageInfo (lpn % s.param.pagesInBlock)).2.1 =
                true ∧
                ((s.physicalBlocks sw).getPageInfo (lpn % s.param.pagesInBlock)).1 = lpn) :=
              hno sw hsw
            refine ⟨?_, ?_⟩
            · intro hrw
              simp [findValidPage, convertPageToBlock, convertPageToOffsetInBlock, hl, hp, hv1,
                hsw, hrw, hno1]
            · intro b i hrw
              rw [← key]
              simp [findValidPage, convertPageToBlock, convertPageToOffsetInBlock, hl, hp, hv1,
                hsw, hrw, hno1]
  · intro hr hl
    obtain ⟨c, hi⟩ := Reachable.inv hr
    exact hi.lookup_eq lpn hl

end FastMapping

end SimpleSSD

namespace SimpleSSD

namespace FastMapping

/-- On the states built for the precedence LPN 1 is found in the data block
when its page there is valid, although the SW block and the RW block hold a
valid copy too; in the SW block when the data page is not valid; in the
recorded RW page when neither is; and the lookup fails when that recorded page
is not valid, where the reference procedure returns the record. After the
writes 1, 1 on the example device, a reachable state, the function returns the
result of the reference procedure. -/
theorem findValidPage_refines_witness :
    (precedenceState true true true).findValidPage 1 =
        some (some (7, 1, BlockType.kBlockTypeData)) ∧
      (precedenceState false true true).findValidPage 1 =
        some (some (0, 1, BlockType.kBlockTypeSW)) ∧
      (precedenceState false false true).findValidPage 1 =
        some (some (1, 2, BlockType.kBlockTypeRW)) ∧
      (precedenceState false false false).findValidPage 1 = none ∧
      (precedenceState false false false).findValidPageSpec 1 =
        some (1, 2, BlockType.kBlockTypeRW) ∧
      (∀ r, (precedenceState true true true).findValidPage 1 = some r →
        r = (precedenceState true true true).findValidPageSpec 1) ∧
      (exampleState [1, 1] rfl).findValidPage 1 =
        some ((exampleState [1, 1] rfl).findValidPageSpec 1) :=
  ⟨rfl, rfl, rfl, rfl, rfl, (findValidPage_refines (precedenceState true true true) 1).1,
    (findValidPage_refines (exampleState [1, 1] rfl) 1).2.2.2 (exampleState_reachable _ _)
      (by decide)⟩

end FastMapping

end SimpleSSD

namespace SimpleSSD

namespace FastMapping

/-- The calls of `getFreeBlock` of a write whose lookup finds a copy are those
of the overwrite. -/
theorem writeDemand_found {s : FastMapping} {lpn b i : Nat} {k : BlockType}
    (hf : s.findValidPage lpn = some (some (b, i, k))) :
    s.writeDemand lpn = s.overwriteDemand lpn b i k := by
  obtain ⟨-, p, hp⟩ := findValidPage_found_mapped hf
  unfold writeDemand
  simp only [convertPageToBlock]
  simp only [hp, writeEnsureMapping_mapped hp, hf, Option.isSome_some, if_true, Nat.zero_add]

/-- The calls of `getFreeBlock` of an overwrite with `off == 0`. -/
theorem overwriteDemand_first {s : FastMapping} {lpn b i : Nat} {k : BlockType} (tick : Nat)
    (hoff : lpn % s.param.pagesInBlock = 0) :
    s.overwriteDemand lpn b i k = (s.writeInvalidate lpn tick b i k).swFirstDemand := by
  obtain ⟨f1, -⟩ := writeInvalidate_fields s lpn 0 b i k
  unfold overwriteDemand
  simp only [convertPageToOffsetInBlock, f1, hoff, if_true]
  rfl

/-- The calls of `getFreeBlock` of an overwrite with `off != 0` when the SW
block is not owned by the logical block of the LPN. -/
theorem overwriteDemand_unowned {s : FastMapping} {lpn b i sw : Nat} {k : BlockType}
    (tick : Nat) (hoff : lpn % s.param.pagesInBlock ≠ 0) (hsw : s.SWBlock = some sw)
    (hown : s.physicalToLogicalBlockMapping sw ≠ some (lpn / s.param.pagesInBlock)) :
    s.overwriteDemand lpn b i k = (s.writeInvalidate lpn tick b i k).rwDemand := by
  obtain ⟨f1, -, f3, -, f5, -⟩ := writeInvalidate_fields s lpn 0 b i k
  unfold overwriteDemand
  simp only [convertPageToOffsetInBlock, convertPageToBlock, f1, f3, f5, hoff, if_false, hsw,
    hown]
  rfl

/-- C14. Case 2a. In a reachable state whose free queue holds the blocks that
the write takes (`writeDemand`: none when the SW block is clean, one for a
switching merge, three for a full merge), a write of an LPN with `off == 0`
that has a valid copy returns; the copy found (valid, storing the LPN) is
invalid afterwards; page 0 of the SW block of the result is valid and stores
the LPN, and `P2L` of that block is the logical block of the LPN; the SW block
is the old one when that was clean before the write, and otherwise a block of
the old `freeBlocks` that left the queue. -/
theorem sw_first_write {s : FastMapping} (h : Reachable s) (lpn tick : Nat) (sendToPAL : Bool)
    (b i : Nat) (k : BlockType)
    (hf : s.findValidPage lpn = some (some (b, i, k)))
    (hoff : lpn % s.param.pagesInBlock = 0) (hfree : s.writeDemand lpn ≤ s.freeBlocks.length) :
    ∃ s2 t2 sw sw2, s.writeInternal lpn tick sendToPAL = some (s2, t2) ∧
      s.SWBlock = some sw ∧ s2.SWBlock = some sw2 ∧
      (s.physicalBlocks b).isValid i = true ∧ (s.physicalBlocks b).getLPN i = some lpn ∧
      (s2.physicalBlocks b).isValid i = false ∧
      (s2.physicalBlocks sw2).isValid 0 = true ∧
      (s2.physicalBlocks sw2).isErased 0 = false ∧
      (s2.physicalBlocks sw2).getLPN 0 = some lpn ∧
      s2.physicalToLogicalBlockMapping sw2 = some (lpn / s.param.pagesInBlock) ∧
      ((s.physicalBlocks sw).isCleanBlock = true →
        sw2 = sw ∧ s2.freeBlocks = s.freeBlocks) ∧
      ((s.physicalBlocks sw).isCleanBlock = false →
        sw2 ∈ s.freeBlocks ∧ sw2 ∉ s2.freeBlocks ∧ sw2 ≠ sw) ∧
      s.writeDemand lpn =
        (if (s.physicalBlocks sw).isCleanBlock = true then 0
        else if ((s.writeInvalidate lpn tick b i k).physicalBlocks sw).getValidPageCount =
            s.param.pagesInBlock then 1
        else 3) := by
  obtain ⟨c, hi, hx, hi1, hn1, hX1, hpos, hv0, hl0, hbc, hilt, old0, hold0⟩ :=
    overwrite_setup h tick hf
  obtain ⟨f1, f2, f3, f4, f5, f6, f7, f8⟩ := writeInvalidate_fields s lpn tick b i k
  obtain ⟨v1, v2, v3, v4, v5⟩ := writeInvalidate_views s lpn tick b i k
  obtain ⟨b1, b2, b3, b4, b5⟩ := writeInvalidate_blocks s lpn tick b i k
  obtain ⟨sw, hsw⟩ := Option.isSome_iff_exists.mp hx.swSome
  have hsw1 : (s.writeInvalidate lpn tick b i k).SWBlock = some sw := by rw [f5, hsw]
  have hpos1 : 0 < (s.writeInvalidate lpn tick b i k).param.pagesInBlock := by rw [f1]; exact hpos
  have hswc : sw < c := hi.swLt sw hsw
  have hvb1 : (s.writeInvalidate lpn tick b i k).vbit b i = false := by
    rw [v1]
    simp
  obtain ⟨n0, hn0⟩ := hi.free
  have hdem : s.writeDemand lpn = (s.writeInvalidate lpn tick b i k).swFirstDemand :=
    (writeDemand_found hf).trans (overwriteDemand_first tick hoff)
  rw [hdem, hn0, List.length_range'] at hfree
  -- the three ways of getting the SW block ready
  have key : ∃ s2 f sw2, (s.writeInvalidate lpn tick b i k).writeSWFirst lpn tick sendToPAL =
        some (s2, f) ∧ s2.SWBlock = some sw2 ∧ s2.vbit b i = false ∧
      s2.vbit sw2 0 = true ∧ s2.ebit sw2 0 = false ∧ s2.lpnAt sw2 0 = lpn ∧
      s2.physicalToLogicalBlockMapping sw2 = some (lpn / s.param.pagesInBlock) ∧
      ((s.physicalBlocks sw).isCleanBlock = true → sw2 = sw ∧ s2.freeBlocks = s.freeBlocks) ∧
      ((s.physicalBlocks sw).isCleanBlock = false →
        sw2 ∈ s.freeBlocks ∧ sw2 ∉ s2.freeBlocks ∧ sw2 ≠ sw) ∧
      (s.writeInvalidate lpn tick b i k).swFirstDemand =
        (if (s.physicalBlocks sw).isCleanBlock = true then 0
        else if ((s.writeInvalidate lpn tick b i k).physicalBlocks sw).getValidPageCount =
            s.param.pagesInBlock then 1
        else 3) := by
    cases hcl : (s.physicalBlocks sw).isCleanBlock with
    | true =>
      have hcl1 : ((s.writeInvalidate lpn tick b i k).physicalBlocks sw).isCleanBlock = true := by
        rw [b3, hcl]
      obtain ⟨s2, f, hw, hprog, ⟨g1, g2, g3, g4, g5, g6, g7⟩, -, -⟩ :=
        swFirst_clean tick sendToPAL hi1 hX1 hpos1 hsw1 hcl1
      have he0 : s.ebit sw 0 = true := by
        have := hprog.erased
        rwa [v2] at this
      have hne : ¬(b = sw ∧ i = 0) := by
        rintro ⟨rfl, rfl⟩
        have := (hi.bits _ _ hv0).2
        rw [he0] at this
        exact absurd this (by simp)
      refine ⟨s2, f, sw, hw, by rw [g6, hsw1], ?_, ?_, ?_, ?_, ?_, ?_, ?_,
        by simp [swFirstDemand, hsw1, hcl1]⟩
      · rw [hprog.vbit, hvb1]
        simp [hne]
      · rw [hprog.vbit]
        simp
      · rw [hprog.ebit]
        simp
      · rw [hprog.lpnAt, if_pos ⟨rfl, rfl⟩]
      · rw [g3, upd_apply, if_pos rfl, f1]
      · intro _
        exact ⟨rfl, by rw [g4, f4]⟩
      · intro hc
        exact absurd hc (by simp)
    | false =>
      have hcl1 : ((s.writeInvalidate lpn tick b i k).physicalBlocks sw).isCleanBlock =
          false := by
        rw [b3, hcl]
      obtain ⟨o, old, ho, hold⟩ := hi1.swOwner hsw1 hcl1
      by_cases hcnt : ((s.writeInvalidate lpn tick b i k).physicalBlocks sw).getValidPageCount =
          (s.writeInvalidate lpn tick b i k).param.pagesInBlock
      · have hd1 : (s.writeInvalidate lpn tick b i k).swFirstDemand = 1 := by
          simp [swFirstDemand, swMergeDemand, hsw1, hcl1, hcnt]
        rw [hd1] at hfree
        have hfr : (s.writeInvalidate lpn tick b i k).freeBlocks =
            List.range' c (1 + (n0 - 1)) := by
          rw [f4, hn0]
          congr 1
          omega
        obtain ⟨s2, f, S, t, hw, -, hS, hprog, ⟨g1, g2, g3, g4, g5, g6, g7⟩, -⟩ :=
          swFirst_switch tick sendToPAL hi1 hX1 hsw1 hcl1 ho hold hcnt hfr
        obtain ⟨-, -, -, -, -, hSv, -, -, -⟩ := hi1.switchFacts hsw1 ho hold hcnt hS
        have hne : ¬(b = c ∧ i = 0) := by
          rintro ⟨rfl, -⟩
          exact absurd hbc (lt_irrefl _)
        refine ⟨s2, f, c, hw, g6, ?_, ?_, ?_, ?_, ?_, ?_, ?_,
          by rw [hd1, f1] at *; simp [hcnt]⟩
        · rw [hprog.vbit, hSv, hvb1]
          simp [hne]
        · rw [hprog.vbit]
          simp
        · rw [hprog.ebit]
          simp
        · rw [hprog.lpnAt, if_pos ⟨rfl, rfl⟩]
        · rw [g3, upd_apply, if_pos rfl, f1]
        · intro hc
          exact absurd hc (by simp)
        · intro _
          refine ⟨?_, ?_, ?_⟩
          · rw [hn0, List.mem_range']
            exact ⟨0, by omega, by omega⟩
          · rw [g4, List.mem_range']
            rintro ⟨j, -, hj⟩
            omega
          · omega
      · have hd3 : (s.writeInvalidate lpn tick b i k).swFirstDemand = 3 := by
          simp [swFirstDemand, swMergeDemand, hsw1, hcl1, hcnt]
        rw [hd3] at hfree
        have hfr : (s.writeInvalidate lpn tick b i k).freeBlocks =
            List.range' c (3 + (n0 - 3)) := by
          rw [f4, hn0]
          congr 1
          omega
        obtain ⟨s2, f, S, t, hw, -, -, -, -, hm, hprog, ⟨g1, g2, g3, g4, g5, g6, g7⟩, -⟩ :=
          swFirst_full tick sendToPAL hi1 hX1 hsw1 hcl1 ho hold hcnt hfr
        have hSv : S.vbit b i = false := by
          cases hv : S.vbit b i with
          | false => rfl
          | true =>
            obtain ⟨-, hor⟩ := (hm.hV b i).mp hv
            rcases hor with hor | hor
            · rw [hvb1] at hor
              exact absurd hor (by simp)
            · have := (hm.target hi1 hswc hor).1
              omega
        have hne : ¬(b = c + 2 ∧ i = 0) := by
          rintro ⟨rfl, -⟩
          omega
        refine ⟨s2, f, c + 2, hw, g6, ?_, ?_, ?_, ?_, ?_, ?_, ?_,
          by rw [hd3, f1] at *; simp [hcnt]⟩
        · rw [hprog.vbit, hSv]
          simp [hne]
        · rw [hprog.vbit]
          simp
        · rw [hprog.ebit]
          simp
        · rw [hprog.lpnAt, if_pos ⟨rfl, rfl⟩]
        · rw [g3, upd_apply, if_pos rfl, f1]
        · intro hc
          exact absurd hc (by simp)
        · intro _
          refine ⟨?_, ?_, ?_⟩
          · rw [hn0, List.mem_range']
            exact ⟨2, by omega, by omega⟩
          · rw [g4, List.mem_range']
            rintro ⟨j, -, hj⟩
            omega
          · omega
  obtain ⟨s2, f, sw2, hw, hs2, hvb, hvs, hes, hls, hp, hc1, hc2, hD⟩ := key
  have hmain : s.writeInternal lpn tick sendToPAL = some (s2, f + s.cpu.WRITE_INTERNAL) := by
    rw [writeInternal_first tick sendToPAL hf hoff, hw]
    rfl
  have hr2 : Reachable s2 := Reachable.write s lpn tick sendToPAL s2 _ h hmain
  refine ⟨s2, _, sw, sw2, hmain, hsw, hs2, hv0, ?_, hvb, hvs, hes, ?_, hp, hc1, hc2,
    hdem.trans hD⟩
  · rw [Reachable.getLPN_eq h, hl0]
  · rw [Reachable.getLPN_eq hr2, hls]

/-- On the example device after the writes 0, 4, 8, 12, 0, 1, 1, 1, 0, 1, 1, 1
one free block is left, block 15, and the SW block, block 14, is clean: the
write of LPN 4, whose copy is in page 0 of the data block 8, takes no free
block and goes to page 0 of the SW block. After the writes 0, 1, 0 the copy of
LPN 0 is in page 0 of the SW block 0: the next write of LPN 0 is a full merge,
takes three free blocks and ends with another SW block. -/
theorem sw_first_write_witness :
    ((exampleState [0, 4, 8, 12, 0, 1, 1, 1, 0, 1, 1, 1] rfl).Reachable ∧
      (exampleState [0, 4, 8, 12, 0, 1, 1, 1, 0, 1, 1, 1] rfl).findValidPage 4 =
        some (some (8, 0, BlockType.kBlockTypeData)) ∧
      4 % (exampleState [0, 4, 8, 12, 0, 1, 1, 1, 0, 1, 1, 1] rfl).param.pagesInBlock = 0 ∧
      (exampleState [0, 4, 8, 12, 0, 1, 1, 1, 0, 1, 1, 1] rfl).freeBlocks = [15] ∧
      (exampleState [0, 4, 8, 12, 0, 1, 1, 1, 0, 1, 1, 1] rfl).writeDemand 4 = 0 ∧
      ∃ s2 t2 sw2,
        (exampleState [0, 4, 8, 12, 0, 1, 1, 1, 0, 1, 1, 1] rfl).writeInternal 4 0 false =
          some (s2, t2) ∧
        (exampleState [0, 4, 8, 12, 0, 1, 1, 1, 0, 1, 1, 1] rfl).SWBlock = some 14 ∧
        s2.SWBlock = some sw2 ∧
        (s2.physicalBlocks sw2).isValid 0 = true ∧
        (s2.physicalBlocks sw2).getLPN 0 = some 4 ∧
        (s2.physicalBlocks 8).isValid 0 = false) ∧
    ((exampleState [0, 1, 0] rfl).writeDemand 0 = 3 ∧
      ∃ s2 t2 sw sw2, (exampleState [0, 1, 0] rfl).writeInternal 0 0 false = some (s2, t2) ∧
        (exampleState [0, 1, 0] rfl).SWBlock = some sw ∧ s2.SWBlock = some sw2 ∧
        (s2.physicalBlocks sw2).isValid 0 = true ∧
        (s2.physicalBlocks sw2).getLPN 0 = some 0) :=
  ⟨⟨exampleState_reachable _ _, rfl, rfl, rfl, rfl,
    Exists.elim
      (sw_first_write (exampleState_reachable [0, 4, 8, 12, 0, 1, 1, 1, 0, 1, 1, 1] rfl) 4 0
        false 8 0 BlockType.kBlockTypeData rfl rfl (by decide))
      (fun s2 h2 => Exists.elim h2 (fun t2 h3 => Exists.elim h3 (fun sw h4 =>
        Exists.elim h4 (fun sw2 h5 =>
        ⟨s2, t2, sw2, h5.1, rfl, h5.2.2.1, h5.2.2.2.2.2.2.1, h5.2.2.2.2.2.2.2.2.1,
          h5.2.2.2.2.2.1⟩))))⟩,
    ⟨rfl,
      Exists.elim
        (sw_first_write (exampleState_reachable [0, 1, 0] rfl) 0 0 false 0 0
          BlockType.kBlockTypeSW rfl rfl (by decide))
        (fun s2 h2 => Exists.elim h2 (fun t2 h3 => Exists.elim h3 (fun sw h4 =>
          Exists.elim h4 (fun sw2 h5 =>
          ⟨s2, t2, sw, sw2, h5.1, h5.2.1, h5.2.2.1, h5.2.2.2.2.2.2.1,
            h5.2.2.2.2.2.2.2.2.1⟩))))⟩⟩

end FastMapping

end SimpleSSD

namespace SimpleSSD

namespace FastMapping

/-- C18. RW recycling. In a reachable state whose free queue holds the blocks
that the write takes (`writeDemand`: one for every logical block with a valid
page in the victim, one more for the merge, and the block appended to
`RWBlocks`), a write of an LPN with a valid copy and `off != 0`, where the SW
block is not owned by the logical block of the LPN and no block of `RWBlocks`
has an erased page, returns; the victim is the head of `RWBlocks`; afterwards
`RWBlocks` is the old queue without its head followed by one block that was in
`freeBlocks` and left it, so that its length is still 6; the new block is
unowned in `P2L`, its page 0 is valid and stores the LPN,
`RWlogMapping[lpn]` is (new block, 0); the victim is clean, without valid page
and unowned; `SWBlock` is unchanged and the copy found is invalid. -/
theorem rw_recycle_write {s : FastMapping} (h : Reachable s) (lpn tick : Nat)
    (sendToPAL : Bool) (b i : Nat) (k : BlockType) (sw : Nat)
    (hf : s.findValidPage lpn = some (some (b, i, k)))
    (hoff : lpn % s.param.pagesInBlock ≠ 0) (hsw : s.SWBlock = some sw)
    (hown : s.physicalToLogicalBlockMapping sw ≠ some (lpn / s.param.pagesInBlock))
    (hfull : ∀ q, q ∈ s.RWBlocks → (s.physicalBlocks q).getErasedPageCount = 0)
    (hfree : s.writeDemand lpn ≤ s.freeBlocks.length) :
    ∃ s2 t2 victim rest nb, s.writeInternal lpn tick sendToPAL = some (s2, t2) ∧
      s.RWBlocks = victim :: rest ∧ s2.RWBlocks = rest ++ [nb] ∧
      s2.RWBlocks.length = kRWBlockCnt ∧
      nb ∈ s.freeBlocks ∧ nb ∉ s2.freeBlocks ∧ nb ∉ s.RWBlocks ∧
      s2.physicalToLogicalBlockMapping nb = none ∧
      (s2.physicalBlocks nb).isValid 0 = true ∧
      (s2.physicalBlocks nb).getLPN 0 = some lpn ∧
      s2.RWlogMapping lpn = some (nb, 0) ∧
      (s2.physicalBlocks victim).isCleanBlock = true ∧
      (∀ j, (s2.physicalBlocks victim).isValid j = false) ∧
      s2.physicalToLogicalBlockMapping victim = none ∧
      s2.SWBlock = s.SWBlock ∧
      (s2.physicalBlocks b).isValid i = false ∧
      s.writeDemand lpn = (s.writeInvalidate lpn tick b i k).rwMergeDemand victim + 1 := by
  obtain ⟨c, hi, hx, hi1, hn1, hX1, hpos, hv0, hl0, hbc, hilt, old, hold⟩ :=
    overwrite_setup h tick hf
  obtain ⟨f1, f2, f3, f4, f5, f6, f7, f8⟩ := writeInvalidate_fields s lpn tick b i k
  obtain ⟨v1, v2, v3, v4, v5⟩ := writeInvalidate_views s lpn tick b i k
  obtain ⟨b1, b2, b3, b4, b5⟩ := writeInvalidate_blocks s lpn tick b i k
  have hpos1 : 0 < (s.writeInvalidate lpn tick b i k).param.pagesInBlock := by rw [f1]; exact hpos
  have hvb1 : (s.writeInvalidate lpn tick b i k).vbit b i = false := by
    rw [v1]
    simp
  have hlen := hx.rwLen
  obtain ⟨victim, rest, hRW⟩ : ∃ victim rest, s.RWBlocks = victim :: rest := by
    cases hq : s.RWBlocks with
    | nil =>
      rw [hq] at hlen
      exact absurd hlen (by decide)
    | cons a l => exact ⟨a, l, rfl⟩
  have hRW1 : (s.writeInvalidate lpn tick b i k).RWBlocks = victim :: rest := by rw [f6, hRW]
  have hfind1 : (s.writeInvalidate lpn tick b i k).RWBlocks.find? (fun rwBlockNum =>
      (((s.writeInvalidate lpn tick b i k).physicalBlocks rwBlockNum).getErasedPageCount != 0)) =
      none := by
    rw [List.find?_eq_none]
    intro q hq
    rw [f6] at hq
    rw [b4, hfull q hq]
    simp
  obtain ⟨n0, hn0⟩ := hi.free
  have hfr : (s.writeInvalidate lpn tick b i k).freeBlocks = List.range' c n0 := by
    rw [f4, hn0]
  have hwd : s.writeDemand lpn =
      (s.writeInvalidate lpn tick b i k).rwMergeDemand victim + 1 := by
    rw [writeDemand_found hf, overwriteDemand_unowned tick hoff hsw hown]
    unfold rwDemand
    rw [hfind1]
    simp only [hRW1]
    rfl
  have hdem : (s.writeInvalidate lpn tick b i k).rwMergeDemand victim + 1 ≤ n0 := by
    rw [hwd, hn0, List.length_range'] at hfree
    exact hfree
  obtain ⟨s2, f, S, t, lbns, N, er, T, hw, -, -, -, hd, -, hm, hprog,
      ⟨g1, g2, g3, g4, g5, g6, g7⟩, -⟩ :=
    rwRecycle_case tick sendToPAL hi1 hX1 hpos1 hfind1 hRW1 hfr hdem
  have hmain : s.writeInternal lpn tick sendToPAL = some (s2, f + s.cpu.WRITE_INTERNAL) := by
    rw [writeInternal_unowned tick sendToPAL hf hoff hsw hown, hw]
    rfl
  have hr2 : Reachable s2 := Reachable.write s lpn tick sendToPAL s2 _ h hmain
  have hvc : victim < c := hi.rwLt victim (by rw [hRW]; exact List.mem_cons_self _ _)
  have hver : victim ∈ er := hm.hGer
  obtain ⟨e1, e2, e3⟩ := hm.erased hver
  have hSv : S.vbit b i = false := hm.staysInvalid hi1 hvc hbc hvb1
  have hnv : victim ≠ c + lbns.length + 1 := by omega
  refine ⟨s2, _, victim, rest, c + lbns.length + 1, hmain, hRW, g7, ?_, ?_, ?_, ?_, ?_, ?_, ?_,
    ?_, ?_, ?_, ?_, ?_, ?_, hwd⟩
  · rw [g7, List.length_append, List.length_singleton]
    rw [hRW, List.length_cons] at hlen
    exact hlen
  · rw [hn0, List.mem_range']
    exact ⟨lbns.length + 1, by omega, by omega⟩
  · rw [g4, List.mem_range']
    rintro ⟨j, -, hj⟩
    omega
  · intro hmem
    have := hi.rwLt _ hmem
    omega
  · rw [g3, upd_apply, if_pos rfl]
  · show s2.vbit (c + lbns.length + 1) 0 = true
    rw [hprog.vbit]
    simp
  · rw [Reachable.getLPN_eq hr2, hprog.lpnAt, if_pos ⟨rfl, rfl⟩]
  · rw [g5, upd_apply, if_pos rfl]
  · rw [hprog.other victim hnv]
    exact e1
  · intro j
    show s2.vbit victim j = false
    rw [hprog.vbit, e2 j]
    simp [hnv]
  · rw [g3, upd_apply, if_neg hnv, e3]
  · rw [g6, f5]
  · show s2.vbit b i = false
    rw [hprog.vbit, hSv]
    have : b ≠ c + lbns.length + 1 := by omega
    simp [this]

/-- On the example device after fresh writes of LPN 1, 5, 9, 13 and 24
overwrites of LPN 1, all six RW blocks are full and five free blocks are left,
fewer than `pagesInBlock + 2`; the victim, block 1, has no valid page, so the
next write of LPN 1 takes two blocks and recycles block 1, the head of
`RWBlocks`. -/
theorem rw_recycle_write_witness :
    (exampleState (1 :: 5 :: 9 :: 13 :: List.replicate 24 1) rfl).Reachable ∧
      (exampleState (1 :: 5 :: 9 :: 13 :: List.replicate 24 1) rfl).findValidPage 1 =
        some (some (6, 3, BlockType.kBlockTypeRW)) ∧
      (exampleState (1 :: 5 :: 9 :: 13 :: List.replicate 24 1) rfl).SWBlock = some 0 ∧
      (exampleState (1 :: 5 :: 9 :: 13 :: List.replicate 24 1) rfl).physicalToLogicalBlockMapping 0 =
        none ∧
      (exampleState (1 :: 5 :: 9 :: 13 :: List.replicate 24 1) rfl).RWBlocks = [1, 2, 3, 4, 5, 6] ∧
      (exampleState (1 :: 5 :: 9 :: 13 :: List.replicate 24 1) rfl).freeBlocks =
        [11, 12, 13, 14, 15] ∧
      (exampleState (1 :: 5 :: 9 :: 13 :: List.replicate 24 1) rfl).writeDemand 1 = 2 ∧
      ∃ s2 t2 victim rest nb,
        (exampleState (1 :: 5 :: 9 :: 13 :: List.replicate 24 1) rfl).writeInternal 1 0 false =
          some (s2, t2) ∧
        (exampleState (1 :: 5 :: 9 :: 13 :: List.replicate 24 1) rfl).RWBlocks = victim :: rest ∧
        s2.RWBlocks = rest ++ [nb] ∧ s2.RWlogMapping 1 = some (nb, 0) ∧
        (s2.physicalBlocks victim).isCleanBlock = true :=
  ⟨exampleState_reachable _ _, rfl, rfl, rfl, rfl, rfl, rfl,
    Exists.elim
      (rw_recycle_write (exampleState_reachable (1 :: 5 :: 9 :: 13 :: List.replicate 24 1) rfl) 1 0
        false 6 3 BlockType.kBlockTypeRW 0 rfl (by decide) rfl (by decide) (by decide)
        (by decide))
      (fun s2 h2 => Exists.elim h2 (fun t2 h3 => Exists.elim h3 (fun victim h4 =>
        Exists.elim h4 (fun rest h5 => Exists.elim h5 (fun nb h6 =>
        ⟨s2, t2, victim, rest, nb, h6.1, h6.2.1, h6.2.2.1, h6.2.2.2.2.2.2.2.2.2.2.1,
          h6.2.2.2.2.2.2.2.2.2.2.2.1⟩)))))⟩

end FastMapping

end SimpleSSD
